import Mathlib

/-! Nonolib line primitives and line solvers.

A shallow embedding of the line-level code of nonolib (`line.c`, `fast.c`,
`olsak.c`, `complete.c`, `fcomp.c`) together with proofs about it.

Conventions of the embedding.

* A cell is a natural number (`unsigned char` in C); the four cell values
  are `nonogram_BLANK = 0`, `nonogram_DOT = 1`, `nonogram_SOLID = 2`,
  `nonogram_BOTH = 3`.
* A line or a rule seen through a pointer and a stride is a list; reading
  element `i` is `cellAt line i` / `ruleAt rule i`.  A view with negative
  strides starting at the last element is the reversed list.
* `pos[]` is a function `Nat → Nat`, `solid[]` (of type `ptrdiff_t`) a
  function `Nat → Int`.
* Sums of a position and a block length are taken exactly (they stay far
  below the word size for any line held in memory); differences, which the
  C code evaluates in unsigned 64-bit arithmetic, are reduced modulo `2^64`
  by `wrap`.
* Every C loop is a function recursing on an explicit iteration budget.
* The `int` counters `remunk` and `*fits` of the complete solver are exact
  integers; the statement about the complete solver bounds the line length
  by `2^31`, so that `remunk` stays in the range of an `int`.
-/

namespace Nonolib

/-! ## Definitions -/

abbrev nonogram_BLANK : Nat := 0

abbrev nonogram_DOT : Nat := 1

abbrev nonogram_SOLID : Nat := 2

abbrev nonogram_BOTH : Nat := 3

/-- Read of `line[i * linestep]`. -/
def cellAt (line : List Nat) (i : Nat) : Nat := line.getD i 0

/-- Read of `rule[i * rulestep]`. -/
def ruleAt (rule : List Nat) (i : Nat) : Nat := rule.getD i 0

/-- Value of an integer expression computed in `unsigned long`. -/
def wrap (z : Int) : Nat := (z % 2 ^ 64).toNat

/-- The loop `while (c x) x++`, run for at most `n` rounds. -/
def whileInc (c : Nat → Bool) : Nat → Nat → Nat
  | 0, x => x
  | n + 1, x => if c x then whileInc c n (x + 1) else x

/-- Loop variables of `nonogram_push` that live across iterations. -/
structure PushState where
  block : Nat
  pos : Nat → Nat
  solid : Nat → Int

/-- The loop of line.c 167-178: walk over the cells under the block until a
dot or the end of the block, noting the offset of the first solid. -/
def scanBlock (line : List Nat) (posv rulev : Nat) : Nat → Nat → Int → Nat × Int
  | 0, i, sol => (i, sol)
  | n + 1, i, sol =>
    if i < rulev && cellAt line (posv + i) != nonogram_DOT then
      scanBlock line posv rulev n (i + 1)
        (if sol < 0 && cellAt line (posv + i) == nonogram_SOLID then (i : Int) else sol)
    else (i, sol)

/-- The loop of line.c 223-226: shuffle the block right while a solid
touches its right end and no solid is at its left end. -/
def shuffle (line : List Nat) (rulev : Nat) : Nat → Nat → Int → Nat × Int
  | 0, posv, sol => (posv, sol)
  | n + 1, posv, sol =>
    if posv + rulev < line.length && cellAt line (posv + rulev) == nonogram_SOLID
        && cellAt line posv != nonogram_SOLID then
      shuffle line rulev n (posv + 1) (sol - 1)
    else (posv, sol)

/-- The `do ... while` of line.c 193-200 (repeated verbatim at 245-252 and
287-294): step back to an earlier block that covers no solid, or that can be
brought up to the solid of its successor without uncovering its own.
`none` is the `return 0` taken at block 0. -/
def findEarlier (rule : List Nat) (pos : Nat → Nat) (solid : Nat → Int) : Nat → Option Nat
  | 0 => none
  | b + 1 =>
    if solid b ≥ 0 &&
        wrap ((pos (b + 1) : Int) + solid (b + 1) - (ruleAt rule b : Int) + 1)
          > wrap ((pos b : Int) + solid b) then
      findEarlier rule pos solid b
    else some b

/-- The backward search followed by the assignment of line.c 204-205
(also 256-257 and 298-299) and `continue`. -/
def drawEarlier (rule : List Nat) (s : PushState) : Option PushState :=
  match findEarlier rule s.pos s.solid s.block with
  | none => none
  | some b =>
    some { block := b,
           pos := Function.update s.pos b
             (wrap ((s.pos (b + 1) : Int) + s.solid (b + 1) - (ruleAt rule b : Int) + 1)),
           solid := s.solid }

/-- Second half of a round of the main loop (line.c 234-308), entered once
the current block has been shuffled into place (`pos[block]` assigned at
line 227).  `none` is `return 0`; otherwise the state at the next
evaluation of the loop condition. -/
def pushPlace (line rule : List Nat) (s : PushState) : Option PushState :=
  let linelen := line.length
  let block := s.block
  let rulev := ruleAt rule block
  let posv := s.pos block
  -- 236: still a solid immediately after the block
  if posv + rulev < linelen && cellAt line (posv + rulev) == nonogram_SOLID then
    drawEarlier rule s
  else
    -- 262
    let posv3 := s.pos block + 1 + ruleAt rule block
    if block + 1 < rule.length then
      some { block := block + 1, pos := Function.update s.pos (block + 1) posv3,
             solid := s.solid }
    else
      -- 267-269: look for remaining solids
      let posv4 := whileInc
        (fun p => p < linelen && cellAt line p != nonogram_SOLID) linelen posv3
      if posv4 < linelen then
        if s.solid block ≥ 0 &&
            wrap ((posv4 : Int) - rulev + 1) > wrap ((s.pos block : Int) + s.solid block) then
          drawEarlier rule s
        else
          some { block := block,
                 pos := Function.update s.pos block (wrap ((posv4 : Int) - rulev + 1)),
                 solid := s.solid }
      else
        some { block := block + 1, pos := s.pos, solid := s.solid }

/-- One round of the main loop of `nonogram_push` (line.c 133-309), entered
with `block < rulelen`.  `none` is `return 0`; otherwise the state at the
next evaluation of the loop condition. -/
def pushBody (line rule : List Nat) (s : PushState) : Option PushState :=
  let linelen := line.length
  let block := s.block
  let rulev := ruleAt rule block
  -- 136-146: find first/next non-dot
  let posv := whileInc
    (fun p => p + rulev < linelen && cellAt line p == nonogram_DOT) linelen (s.pos block)
  let pos1 := Function.update s.pos block posv
  -- 154: no room left
  if posv + rulev > linelen || cellAt line posv == nonogram_DOT then none
  else
    -- 163-178
    let r := scanBlock line posv rulev rulev 0 (-1)
    let i := r.1
    let solid1 := Function.update s.solid block r.2
    if i < rulev then
      -- 181-212: a dot was encountered
      if r.2 ≥ 0 then
        drawEarlier rule { block := block, pos := pos1, solid := solid1 }
      else
        some { block := block, pos := Function.update s.pos block (posv + i),
               solid := solid1 }
    else
      -- 218-227
      let sol0 : Int :=
        if posv + rulev < linelen && cellAt line (posv + rulev) == nonogram_SOLID
            && r.2 < 0 then (rulev : Int) else r.2
      let sh := shuffle line rulev linelen posv sol0
      pushPlace line rule
        { block := block, pos := Function.update s.pos block sh.1,
          solid := Function.update s.solid block sh.2 }

/-- The main loop of `nonogram_push` with an iteration budget.  `none`: the
budget ran out; `some none`: `return 0`; `some (some pos)`: `return 1`. -/
def pushLoop (line rule : List Nat) : Nat → PushState → Option (Option (Nat → Nat))
  | 0, _ => none
  | fuel + 1, s =>
    if s.block < rule.length then
      match pushBody line rule s with
      | none => some none
      | some s' => pushLoop line rule fuel s'
    else some (some s.pos)

/-- Initial state of `nonogram_push`: `block = 0`, `pos[0] = 0` (line.c
95-97); the workspace `solid[]` may hold anything. -/
def pushInit (solid0 : Nat → Int) : PushState :=
  { block := 0, pos := fun _ => 0, solid := solid0 }

/-- Iteration budget that the main loop never exhausts. -/
def pushFuel (line rule : List Nat) : Nat := (line.length + 3) ^ rule.length + 1

/-- Embedding of `nonogram_push` : `some none` for return value 0,
`some (some pos)` for return value 1 with the positions written to
`pos[0..rulelen)`; `none` if the loop did not finish. -/
def nonogram_push (line rule : List Nat) : Option (Option (List Nat)) :=
  (pushLoop line rule (pushFuel line rule) (pushInit (fun _ => 0))).map
    (fun r => r.map (fun pos => (List.range rule.length).map pos))

/-- Block `b` of the placement `q` covers cell `j`. -/
def Covers (rule : List Nat) (q : Nat → Nat) (b j : Nat) : Prop :=
  q b ≤ j ∧ j < q b + ruleAt rule b

/-- A valid placement of `rule` on `line`: block `i` starts at `q i`, all
blocks lie inside the line in order, separated by at least one cell, no
block covers a dot and every solid is covered by a block. -/
def ValidPlacement (line rule : List Nat) (q : Nat → Nat) : Prop :=
  (∀ i, i < rule.length → q i + ruleAt rule i ≤ line.length) ∧
  (∀ i, i < rule.length → i + 1 < rule.length → q i + ruleAt rule i + 1 ≤ q (i + 1)) ∧
  (∀ i, i < rule.length → ∀ j, j < line.length → q i ≤ j → j < q i + ruleAt rule i →
    cellAt line j ≠ nonogram_DOT) ∧
  (∀ j, j < line.length → cellAt line j = nonogram_SOLID →
    ∃ i, i < rule.length ∧ q i ≤ j ∧ j < q i + ruleAt rule i)

instance (line rule : List Nat) (q : Nat → Nat) : Decidable (ValidPlacement line rule q) := by
  unfold ValidPlacement; infer_instance

/-- Rules consist of strictly positive block lengths. -/
def PositiveRule (rule : List Nat) : Prop := ∀ i, i < rule.length → 0 < ruleAt rule i

instance (rule : List Nat) : Decidable (PositiveRule rule) := by
  unfold PositiveRule; infer_instance

/-- The workspace entry `sol` tracks the left-most solid among the cells
`posv, .., posv + bound - 1`: it is `-1` when there is none and its offset
from `posv` otherwise. -/
def SolTrack (line : List Nat) (posv bound : Nat) (sol : Int) : Prop :=
  (sol = -1 ∧ ∀ j, j < bound → cellAt line (posv + j) ≠ nonogram_SOLID) ∨
  (∃ m : Nat, sol = (m : Int) ∧ m < bound ∧ cellAt line (posv + m) = nonogram_SOLID ∧
    ∀ j, j < m → cellAt line (posv + j) ≠ nonogram_SOLID)

/-- The continuation test of the shuffle loop (line.c 223-225). -/
def shuffleCond (line : List Nat) (rulev : Nat) (p : Nat) : Bool :=
  p + rulev < line.length && cellAt line (p + rulev) == nonogram_SOLID
    && cellAt line p != nonogram_SOLID

/-- Block `b` has been put in place: it lies inside the line, covers no dot,
no solid follows it immediately, `solid[b]` tracks its left-most covered
solid, and the next block starts after a gap. -/
structure Placed (line rule : List Nat) (pos : Nat → Nat) (solid : Nat → Int) (b : Nat) :
    Prop where
  fit : pos b + ruleAt rule b ≤ line.length
  nodot : ∀ j, j < ruleAt rule b → cellAt line (pos b + j) ≠ nonogram_DOT
  after : cellAt line (pos b + ruleAt rule b) ≠ nonogram_SOLID
  sol : SolTrack line (pos b) (ruleAt rule b) (solid b)
  gap : pos b + ruleAt rule b + 1 ≤ pos (b + 1)

/-- Invariant at the head of the main loop. -/
structure PushInv (line rule : List Nat) (s : PushState) : Prop where
  blk : s.block < rule.length
  placed : ∀ b, b < s.block → Placed line rule s.pos s.solid b
  covered : ∀ j, j < s.pos s.block → cellAt line j = nonogram_SOLID →
    ∃ b, b < s.block ∧ Covers rule s.pos b j
  lower : ∀ q, ValidPlacement line rule q → ∀ b, b ≤ s.block → s.pos b ≤ q b
  bound : s.pos s.block ≤ line.length + 1

/-- The position given to the block chosen by the backward search. -/
def drawPos (rule : List Nat) (pos : Nat → Nat) (solid : Nat → Int) (b : Nat) : Nat :=
  wrap ((pos (b + 1) : Int) + solid (b + 1) - (ruleAt rule b : Int) + 1)

/-- The relation between the states before and after one round of the main
loop that makes the loop terminate: either an earlier or the same block has
moved right with all blocks before it untouched, or the next block has been
started with no earlier block moved left. -/
def Adv (s s' : PushState) : Prop :=
  (s'.block ≤ s.block ∧ (∀ b, b < s'.block → s'.pos b = s.pos b) ∧
    s.pos s'.block < s'.pos s'.block) ∨
  (s'.block = s.block + 1 ∧ (∀ b, b < s.block → s'.pos b = s.pos b) ∧
    s.pos s.block ≤ s'.pos s.block)

/-- What one round of the main loop achieves when started from `s`. -/
def StepOK (line rule : List Nat) (s : PushState) : Option PushState → Prop
  | none => ∀ q, ¬ ValidPlacement line rule q
  | some s' =>
    (PushInv line rule s' ∧ Adv s s') ∨
    (s'.block = rule.length ∧ ValidPlacement line rule s'.pos ∧
      ∀ q, ValidPlacement line rule q → ∀ b, b < rule.length → s'.pos b ≤ q b)

/-- Value of the digits `d 0, .., d (n-1)` read in base `B`, most
significant digit first. -/
def horner (B : Nat) (d : Nat → Nat) : Nat → Nat
  | 0 => 0
  | n + 1 => horner B d n * B + d n

/-- Digit `b` of the termination measure: the position of block `b` plus
one if the block has been started, zero otherwise. -/
def pushDigit (s : PushState) (b : Nat) : Nat := if b ≤ s.block then s.pos b + 1 else 0

/-- The termination measure of the main loop. -/
def pushMeasure (line rule : List Nat) (s : PushState) : Nat :=
  horner (line.length + 3) (pushDigit s) rule.length

/-- The least valid placement: `p` is valid and block by block at or
before every valid placement. -/
def LeastPlacement (line rule : List Nat) (p : Nat → Nat) : Prop :=
  ValidPlacement line rule p ∧
    ∀ q, ValidPlacement line rule q → ∀ b, b < rule.length → p b ≤ q b

/-- The placement stored in a position array. -/
def posFn (pos : List Nat) : Nat → Nat := fun i => pos.getD i 0

/-- The loop of `nonogram_checkline` (line.c 38-67) over the cells still to
be read, with the loop variables `rno` and `blen` as exact numbers.
`Except.error v` is an early `return v`; `Except.ok` carries the variables at
loop exit.  The C counters are `unsigned` (32 bits): `checkline32Loop` is the
loop with the counters as declared, and `checkline32_eq` shows that it
computes the same value on lines of fewer than `2^32 - 1` cells, on which no
counter wraps. -/
def checklineLoop (r : List Nat) : List Nat → Nat → Nat → Except Int (Nat × Nat)
  | [], rno, blen => Except.ok (rno, blen)
  | c :: st, rno, blen =>
    if c != nonogram_DOT && c != nonogram_SOLID then Except.error 1
    else if rno % 2 == 0 then
      if c == nonogram_SOLID then
        if (rno + 1) / 2 ≥ r.length then Except.error (-1)
        else checklineLoop r st (rno + 1) 1
      else checklineLoop r st rno blen
    else
      if c == nonogram_DOT then
        if blen != ruleAt r (rno / 2) then Except.error (-1)
        else checklineLoop r st (rno + 1) blen
      else
        if blen + 1 > ruleAt r (rno / 2) then Except.error (-1)
        else checklineLoop r st rno (blen + 1)

/-- The code after the loop of `nonogram_checkline` (line.c 68-75). -/
def checklineEnd (r : List Nat) : Except Int (Nat × Nat) → Int
  | Except.error v => v
  | Except.ok (rno, blen) =>
    if rno % 2 != 0 then
      if blen != ruleAt r (rno / 2) then -1
      else if rno + 1 != 2 * r.length then -1 else 0
    else if rno != 2 * r.length then -1 else 0

/-- Embedding of `nonogram_checkline` (rule `r`, line `st`) with exact
counters; see `nonogram_checkline32` for the 32-bit counters of line.c. -/
def nonogram_checkline (r st : List Nat) : Int :=
  checklineEnd r (checklineLoop r st 0 0)

/-- Lengths of the maximal runs of solids of a line, in order; `cur` is the
length of the run being read. -/
def runsAux : List Nat → Nat → List Nat
  | [], cur => if cur = 0 then [] else [cur]
  | c :: st, cur =>
    if c = nonogram_SOLID then runsAux st (cur + 1)
    else if cur = 0 then runsAux st 0 else cur :: runsAux st 0

/-- The sequence of lengths of the maximal SOLID runs of a line. -/
def solidRuns (st : List Nat) : List Nat := runsAux st 0

/-- A line whose cells are all DOT or SOLID. -/
def Determined (st : List Nat) : Prop := ∀ c, c ∈ st → c = nonogram_DOT ∨ c = nonogram_SOLID

instance (st : List Nat) : Decidable (Determined st) := by
  unfold Determined; infer_instance

/-- A line of DOT and SOLID cells whose runs of solids are the given
blocks: every block is followed by one dot. -/
def fillLine : List Nat → List Nat
  | [] => []
  | b :: bs => List.replicate b nonogram_SOLID ++ nonogram_DOT :: fillLine bs

/-- The second call of `nonogram_push` in fast.c 124-127 (and olsak.c
200-206): the line and the rule are read backwards and position `i` is
written to `rpos[rulelen - 1 - i]`.  The positions are counted from the
right end of the line. -/
def pushRight (line rule : List Nat) : Option (Option (List Nat)) :=
  (nonogram_push line.reverse rule.reverse).map (fun r => r.map List.reverse)

/-- The loops `while (j < k) *cp = v, j++, cp += workstep` of fast.c
153-166.  The cells written so far are `work`; the cursor `j` is the number
of cells written. -/
def fillTo (work : List Nat) (k v : Nat) : List Nat :=
  work ++ List.replicate (k - work.length) v

/-- The `for` loop of fast.c 150-164 over the blocks `i, i+1, ..`, run for
`n` rounds; `rpos[i]` is first converted to a position counted from the
left (line 151). -/
def fastMergeLoop (linelen : Nat) (rule lpos rpos : List Nat) : Nat → Nat → List Nat → List Nat
  | 0, _, work => work
  | n + 1, i, work =>
    let rp := wrap ((linelen : Int) - (rpos.getD i 0 : Int) - (ruleAt rule i : Int))
    let w1 := fillTo work (lpos.getD i 0) nonogram_DOT
    let w2 := fillTo w1 rp nonogram_BOTH
    let w3 := fillTo w2 (lpos.getD i 0 + ruleAt rule i) nonogram_SOLID
    let w4 := fillTo w3 (rp + ruleAt rule i) nonogram_BOTH
    fastMergeLoop linelen rule lpos rpos n (i + 1) w4

/-- The loop of fast.c 167-169: known cells of the line replace the merged
value. -/
def copyKnown (line work : List Nat) : List Nat :=
  (List.range line.length).map
    (fun j => if cellAt line j != nonogram_BLANK then cellAt line j else cellAt work j)

/-- Embedding of `solve` of fast.c, which is all of the fast suite (`init`
stores its return value in `fits` and returns false).  `some none`: return
0, the result buffer is not written; `some (some work)`: return 1 with the
result buffer `work`; `none`: a push did not finish. -/
def fast_solve (line rule : List Nat) : Option (Option (List Nat)) :=
  let rule1 := if rule.length == 1 && ruleAt rule 0 == 0 then [] else rule
  match nonogram_push line rule1 with
  | none => none
  | some none => some none
  | some (some lpos) =>
    match pushRight line rule1 with
    | none => none
    | some none => some none
    | some (some rpos) =>
      let work := fillTo (fastMergeLoop line.length rule1 lpos rpos rule1.length 0 [])
        line.length nonogram_DOT
      some (some (copyKnown line work))

/-- The greatest valid placement: `p` is valid and block by block at or
after every valid placement. -/
def GreatestPlacement (line rule : List Nat) (p : Nat → Nat) : Prop :=
  ValidPlacement line rule p ∧
    ∀ q, ValidPlacement line rule q → ∀ b, b < rule.length → q b ≤ p b

/-- A placement seen from the other end of the line. -/
def revPlacement (linelen : Nat) (rule : List Nat) (q : Nat → Nat) : Nat → Nat :=
  fun i => linelen - q (rule.length - 1 - i) - ruleAt rule (rule.length - 1 - i)

/-- The cursor of the merge loop of fast.c at the start of the round for
block `i`: the end of block `i - 1` in the right-pushed placement. -/
def mergeStart (rule : List Nat) (rp : Nat → Nat) (i : Nat) : Nat :=
  if i = 0 then 0 else rp (i - 1) + ruleAt rule (i - 1)

/-- The value that the round for block `i` of the merge loop gives to a
cell `j` at or after its cursor. -/
def mergeValue (rule : List Nat) (lp rp : Nat → Nat) (i j : Nat) : Nat :=
  if j < lp i then nonogram_DOT
  else if j < rp i then nonogram_BOTH
  else if j < lp i + ruleAt rule i then nonogram_SOLID
  else nonogram_BOTH

/-- What the fast solver writes for a rule with at least one block: `lp`
and `rp` are the left-pushed and the right-pushed placement, known cells are
copied, and a BLANK cell gets DOT after the last right-pushed block and the
value chosen by the round of the block in whose span of the cursor it lies
otherwise. -/
def FastResult (line rule res : List Nat) (lp rp : Nat → Nat) : Prop :=
  res.length = line.length ∧
  LeastPlacement line rule lp ∧ GreatestPlacement line rule rp ∧
  (∀ j, j < line.length → cellAt line j ≠ nonogram_BLANK → cellAt res j = cellAt line j) ∧
  (∀ j, j < line.length → cellAt line j = nonogram_BLANK →
    (mergeStart rule rp rule.length ≤ j ∧ cellAt res j = nonogram_DOT) ∨
    (∃ i, i < rule.length ∧ mergeStart rule rp i ≤ j ∧ j < mergeStart rule rp (i + 1) ∧
      cellAt res j = mergeValue rule lp rp i j))

instance (rule : List Nat) (q : Nat → Nat) (b j : Nat) : Decidable (Covers rule q b j) := by
  unfold Covers; infer_instance

/-- Cell `j` lies inside the same block in both placements. -/
def SameBlock (rule : List Nat) (lp rp : Nat → Nat) (j : Nat) : Prop :=
  ∃ i, i < rule.length ∧ Covers rule lp i j ∧ Covers rule rp i j

/-- Cell `j` lies in the same gap in both placements: for some `i`, the
blocks before block `i` end at or before `j` and the blocks from `i` on
start after `j`, in both placements. -/
def SameGap (rule : List Nat) (lp rp : Nat → Nat) (j : Nat) : Prop :=
  ∃ i, i ≤ rule.length ∧
    (∀ b, b < i → lp b + ruleAt rule b ≤ j ∧ rp b + ruleAt rule b ≤ j) ∧
    (∀ b, i ≤ b → b < rule.length → j < lp b ∧ j < rp b)

/-- The data of `compinit` that `check_cell` changes: the result buffer
(`OUTPUT`) and the array `flags`. -/
structure OlsakState where
  out : List Nat
  flags : List Nat

/-- Embedding of `check_cell` (olsak.c 75-125); the flag `*skip` is passed
in and returned.  `none`: the push did not finish. -/
def check_cell (line rule : List Nat) (pos : Nat) (s : OlsakState) (skip : Bool) :
    Option (OlsakState × Bool) :=
  if cellAt line pos != nonogram_BLANK then some (s, false)
  else if skip then some (s, skip)
  else if cellAt s.flags pos == nonogram_BOTH then some (s, skip)
  else
    let out1 := s.out.set pos (nonogram_BOTH ^^^ cellAt s.flags pos)
    match nonogram_push out1 rule with
    | none => none
    | some (some _) =>
      some ({ out := out1.set pos nonogram_BLANK, flags := s.flags.set pos nonogram_BOTH }, true)
    | some none =>
      some ({ out := out1.set pos (cellAt out1 pos ^^^ nonogram_BOTH), flags := s.flags }, skip)

/-- The loop `for (pos = start; pos < end; pos++) check_cell(pos)` of
`search_section`, with `n` rounds left. -/
def searchUp (line rule : List Nat) : Nat → Nat → OlsakState → Bool → Option (OlsakState × Bool)
  | 0, _, s, skip => some (s, skip)
  | n + 1, pos, s, skip =>
    match check_cell line rule pos s skip with
    | none => none
    | some (s', skip') => searchUp line rule n (pos + 1) s' skip'

/-- The loop `for (pos = start; pos > end; pos--) check_cell(pos - 1)` of
`search_section`, with `n` rounds left. -/
def searchDown (line rule : List Nat) : Nat → Nat → OlsakState → Bool → Option (OlsakState × Bool)
  | 0, _, s, skip => some (s, skip)
  | n + 1, pos, s, skip =>
    match check_cell line rule (pos - 1) s skip with
    | none => none
    | some (s', skip') => searchDown line rule n (pos - 1) s' skip'

/-- Embedding of `search_section` (olsak.c 129-155). -/
def search_section (line rule : List Nat) (start stop : Nat) (s : OlsakState) :
    Option OlsakState :=
  if start > stop then (searchDown line rule (start - stop) start s false).map Prod.fst
  else (searchUp line rule (stop - start) start s false).map Prod.fst

/-- The loop of olsak.c 247-255 over the blocks `b, b+1, ..` with `n` rounds
left: the gap before each right-pushed block, then the block. -/
def olsakForward (line rule : List Nat) (right : Nat → Nat) :
    Nat → Nat → Nat → OlsakState → Option (OlsakState × Nat)
  | 0, _, last_end, s => some (s, last_end)
  | n + 1, b, last_end, s =>
    match search_section line rule last_end (right b) s with
    | none => none
    | some s1 =>
      match search_section line rule (right b) (right b + ruleAt rule b) s1 with
      | none => none
      | some s2 => olsakForward line rule right n (b + 1) (right b + ruleAt rule b) s2

/-- The loop of olsak.c 263-273 over the blocks `b - 1, b - 2, .., 0`. -/
def olsakBackward (line rule : List Nat) (right : Nat → Nat) :
    Nat → Nat → OlsakState → Option (OlsakState × Nat)
  | 0, last_end, s => some (s, last_end)
  | b + 1, last_end, s =>
    match search_section line rule last_end (right b + ruleAt rule b) s with
    | none => none
    | some s1 =>
      match search_section line rule (right b + ruleAt rule b) (right b) s1 with
      | none => none
      | some s2 => olsakBackward line rule right b (right b) s2

/-- One of the two passes of olsak.c 220-235 over the blocks `b, b+1, ..`
with `n` rounds left: dots up to each block, solids under it. -/
def olsakFlagsPass (rule : List Nat) (p : Nat → Nat) : Nat → Nat → List Nat → List Nat
  | 0, _, w => w
  | n + 1, b, w =>
    olsakFlagsPass rule p n (b + 1)
      (fillTo (fillTo w (p b) nonogram_DOT) (p b + ruleAt rule b) nonogram_SOLID)

/-- The array `flags` after olsak.c 220-235: the pattern of the left-pushed
placement combined by `|=` with the pattern of the right-pushed one. -/
def olsakFlags (linelen : Nat) (rule : List Nat) (left right : Nat → Nat) : List Nat :=
  List.zipWith (fun a b => a ||| b)
    (fillTo (olsakFlagsPass rule left rule.length 0 []) linelen nonogram_DOT)
    (fillTo (olsakFlagsPass rule right rule.length 0 []) linelen nonogram_DOT)

/-- The loop of olsak.c 174-181 for an empty rule: `none` when a solid is
met (`fits = 0`), otherwise the dots written. -/
def olsakEmpty : List Nat → Option (List Nat)
  | [] => some []
  | c :: st =>
    if c == nonogram_SOLID then none
    else (olsakEmpty st).map (fun w => nonogram_DOT :: w)

/-- Embedding of `compinit` of olsak.c, which is all of the olsak suite.
`some none`: `fits = 0`; `some (some out)`: `fits = 1` with the result
buffer `out`; `none`: a push did not finish. -/
def olsak_compinit (line rule : List Nat) : Option (Option (List Nat)) :=
  if (rule.length == 1 && ruleAt rule 0 == 0) || rule.length == 0 then
    some (olsakEmpty line)
  else
    match nonogram_push line rule with
    | none => none
    | some none => some none
    | some (some left) =>
      match pushRight line rule with
      | none => none
      | some none => some none
      | some (some rightRaw) =>
        let right : Nat → Nat := fun b =>
          wrap ((line.length : Int) - (posFn rightRaw b : Int) - (ruleAt rule b : Int))
        let s0 : OlsakState :=
          { out := (List.range line.length).map (cellAt line),
            flags := olsakFlags line.length rule (posFn left) right }
        match olsakForward line rule right rule.length 0 0 s0 with
        | none => none
        | some (s1, last_end) =>
          match search_section line rule last_end line.length s1 with
          | none => none
          | some s2 =>
            match olsakBackward line rule right rule.length line.length s2 with
            | none => none
            | some (s3, last_end') =>
              match search_section line rule last_end' 0 s3 with
              | none => none
              | some s4 =>
                some (some (s4.out.map
                  (fun c => if c == nonogram_BLANK then nonogram_BOTH else c)))

/-- The placement `q` is compatible with the value `c` of cell `j`: a DOT
cell is outside every block and a SOLID cell is inside some block. -/
def CellOK (rule : List Nat) (q : Nat → Nat) (j c : Nat) : Prop :=
  (c = nonogram_DOT → ∀ i, i < rule.length → ¬ Covers rule q i j) ∧
  (c = nonogram_SOLID → ∃ i, i < rule.length ∧ Covers rule q i j)

/-- Invariant of the olsak solver: the result buffer has the length of the
line and every valid placement of the line is compatible with each of its
cells. -/
def OlsakInv (line rule : List Nat) (s : OlsakState) : Prop :=
  s.out.length = line.length ∧
  ∀ q, ValidPlacement line rule q → ∀ j, j < line.length → CellOK rule q j (cellAt s.out j)

/-- The fields of `nonogram_completework` that change between calls:
`pos[]`, `blockno`, `move_back`, `remunk`, the result buffer `re` and the
counter `*fits`. -/
structure CompleteState where
  pos : Nat → Nat
  blockno : Nat
  move_back : Bool
  remunk : Int
  re : List Nat
  fits : Int

/-- The array `limit[]` set up by `init` (complete.c 86-91), indexed from
the last block: `completeLimitRev L rule d` is `limit[rulen - 1 - d]`. -/
def completeLimitRev (linelen : Nat) (rule : List Nat) : Nat → Nat
  | 0 => wrap ((linelen : Int) - (ruleAt rule (rule.length - 1) : Int) + 1)
  | d + 1 =>
    wrap ((completeLimitRev linelen rule d : Int)
      - (ruleAt rule (rule.length - 1 - (d + 1)) : Int) - 1)

/-- The entry `limit[i]`. -/
def completeLimit (linelen : Nat) (rule : List Nat) (i : Nat) : Nat :=
  completeLimitRev linelen rule (rule.length - 1 - i)

/-- One of the three `while` loops of `merge` (complete.c 113-119, 120-126,
128-134), with `n` rounds left: `rec[i] |= v`, counting down `*blank` when
the cell becomes BOTH. -/
def mergeSpan (v : Nat) : Nat → Nat → List Nat → Int → List Nat × Int
  | 0, _, rec, blank => (rec, blank)
  | n + 1, i, rec, blank =>
    mergeSpan v n (i + 1) (rec.set i (cellAt rec i ||| v))
      (if (cellAt rec i ||| v) == nonogram_BOTH && cellAt rec i != nonogram_BOTH
        then blank - 1 else blank)

/-- The `for` loop of `merge` (complete.c 112-127) over the blocks
`ruleno, ruleno + 1, ..` with `n` rounds left; `i` is the cursor. -/
def mergeBlocks (rule : List Nat) (pos : Nat → Nat) :
    Nat → Nat → Nat → List Nat → Int → Nat × List Nat × Int
  | 0, _, i, rec, blank => (i, rec, blank)
  | n + 1, ruleno, i, rec, blank =>
    let r1 := mergeSpan nonogram_DOT (pos ruleno - i) i rec blank
    let i1 := max i (pos ruleno)
    let r2 := mergeSpan nonogram_SOLID (pos ruleno + ruleAt rule ruleno - i1) i1 r1.1 r1.2
    let i2 := max i1 (pos ruleno + ruleAt rule ruleno)
    mergeBlocks rule pos n (ruleno + 1) i2 r2.1 r2.2

/-- Embedding of `merge` (complete.c 103-135): returns the record and the
counter `*blank`. -/
def merge (rec : List Nat) (len : Nat) (blank : Int) (rule : List Nat) (pos : Nat → Nat) :
    List Nat × Int :=
  let r := mergeBlocks rule pos rule.length 0 0 rec blank
  mergeSpan nonogram_DOT (len - r.1) r.1 r.2.1 r.2.2

/-- The loop of complete.c 235-238: find the first covered dot, noting
whether a solid comes before it. -/
def completeScan (line : List Nat) (last : Nat) : Nat → Nat → Bool → Nat × Bool
  | 0, dot, solid => (dot, solid)
  | n + 1, dot, solid =>
    if dot < last && cellAt line dot != nonogram_DOT then
      completeScan line last n (dot + 1) (solid || cellAt line dot == nonogram_SOLID)
    else (dot, solid)

/-- The part of `step` from complete.c 171 on, which places the current
block or merges a complete placement.  Every path returns true. -/
def completeAdvance (line rule : List Nat) (c : CompleteState) : CompleteState :=
  let linelen := line.length
  let limit := completeLimit linelen rule
  let b := c.blockno
  if b == rule.length then
    -- 171-214: all blocks have fitted in
    let bp := if b > 0 then c.pos (b - 1) + ruleAt rule (b - 1) + 1 else 0
    let bp' := whileInc (fun p => p < linelen && cellAt line p != nonogram_SOLID) linelen bp
    if bp' < linelen then { c with move_back := true }
    else
      let m := merge c.re linelen c.remunk rule c.pos
      { c with re := m.1, remunk := m.2, fits := c.fits + 1, move_back := true }
  else
    -- 217-219: find first non-dot, up to the limit
    let p1 := whileInc (fun p => p < limit b && cellAt line p == nonogram_DOT)
      (linelen + 1) (c.pos b)
    let pos1 := Function.update c.pos b p1
    if p1 ≥ limit b then { c with pos := pos1, move_back := true }
    else
      -- 232-238: find first covered dot
      let last := p1 + ruleAt rule b
      let sc := completeScan line last (ruleAt rule b) p1 false
      if sc.1 < last then
        if sc.2 then { c with pos := pos1, move_back := true }
        else { c with pos := Function.update c.pos b (sc.1 + 1) }
      else
        -- 263-266: move the block on while a solid follows it
        let p2 := whileInc
          (fun p => p < wrap ((limit b : Int) - 1)
            && cellAt line (p + ruleAt rule b) == nonogram_SOLID
            && cellAt line p != nonogram_SOLID) linelen p1
        let last2 := p2 + ruleAt rule b
        if last2 < linelen && cellAt line last2 == nonogram_SOLID then
          { c with pos := Function.update c.pos b (p2 + 1), move_back := true }
        else
          -- 296-298
          let pos2 := Function.update c.pos b p2
          if b + 1 < rule.length then
            { c with pos := Function.update pos2 (b + 1) (last2 + 1), blockno := b + 1 }
          else { c with pos := pos2, blockno := b + 1 }

/-- Embedding of `step` of complete.c: the returned flag is the return
value ("call again"). -/
def complete_step (line rule : List Nat) (c : CompleteState) : Bool × CompleteState :=
  if c.move_back || c.remunk ≤ 0 then
    if c.blockno > 0 then
      let b := c.blockno - 1
      if c.remunk ≤ 0 || cellAt line (c.pos b) == nonogram_SOLID then
        (true, { c with blockno := b, move_back := true })
      else
        (true, completeAdvance line rule
          { c with blockno := b, move_back := false,
                   pos := Function.update c.pos b (c.pos b + 1) })
    else (false, { c with move_back := false })
  else (true, completeAdvance line rule c)

/-- Embedding of `init` of complete.c. -/
def complete_init (line rule : List Nat) : Bool × CompleteState :=
  let remunk : Int := (line.count nonogram_BLANK : Int)
  let c : CompleteState :=
    { pos := fun _ => 0, blockno := 0, move_back := false, remunk := remunk,
      re := (List.range line.length).map (cellAt line), fits := 0 }
  if remunk == 0 then
    (false, { c with fits := if nonogram_checkline rule line == 0 then 1 else 0 })
  else (true, c)

/-- Repeated calls of `step` while it returns true, at most `fuel` calls. -/
def completeSteps (line rule : List Nat) : Nat → CompleteState → Option CompleteState
  | 0, _ => none
  | fuel + 1, c =>
    match complete_step line rule c with
    | (true, c') => completeSteps line rule fuel c'
    | (false, c') => some c'

/-- Number of calls of `step` that is never exceeded. -/
def completeFuel (line rule : List Nat) : Nat := (line.length + 4) ^ (rule.length + 1) + 1

/-- The complete suite as the driver runs it: `init`, then `step` until it
returns false.  The result is `(fits, result buffer)`; `none` if `step`
kept returning true. -/
def complete_run (line rule : List Nat) : Option (Int × List Nat) :=
  match complete_init line rule with
  | (false, c) => some (c.fits, c.re)
  | (true, c) =>
    (completeSteps line rule (completeFuel line rule) c).map (fun c' => (c'.fits, c'.re))

/-- Cells needed by the last `d + 1` blocks of the rule, each with one cell
after it. -/
def needRev (rule : List Nat) : Nat → Nat
  | 0 => ruleAt rule (rule.length - 1) + 1
  | d + 1 => needRev rule d + ruleAt rule (rule.length - 1 - (d + 1)) + 1

/-- Cell `j` is inside some block of the placement `q`. -/
def Covered (rule : List Nat) (q : Nat → Nat) (j : Nat) : Prop :=
  ∃ i, i < rule.length ∧ Covers rule q i j

/-- The DOT bit of a result cell is set. -/
def HasDot (x : Nat) : Prop := x = nonogram_DOT ∨ x = nonogram_BOTH

/-- The SOLID bit of a result cell is set. -/
def HasSolid (x : Nat) : Prop := x = nonogram_SOLID ∨ x = nonogram_BOTH

/-- The placement `q` has been merged into cell `j` of the record `re`. -/
def Seen (rule re : List Nat) (q : Nat → Nat) (j : Nat) : Prop :=
  (Covered rule q j → HasSolid (cellAt re j)) ∧ (¬ Covered rule q j → HasDot (cellAt re j))

/-- The placement `q` has been merged into every originally BLANK cell. -/
def SeenAll (line rule re : List Nat) (q : Nat → Nat) : Prop :=
  ∀ j, j < line.length → cellAt line j = nonogram_BLANK → Seen rule re q j

/-- The placement `q` agrees with `pos[]` on the blocks before `b`. -/
def AgreeBefore (pos q : Nat → Nat) (b : Nat) : Prop := ∀ i, i < b → q i = pos i

/-- The depth-first search of `step` has already passed the placement `q`:
at the first block `b` where `q` leaves the current path, `q` lies to the
left of it, or block `b` is the current block and is being abandoned. -/
def Done (rule : List Nat) (c : CompleteState) (q : Nat → Nat) : Prop :=
  ∃ b, b ≤ c.blockno ∧ AgreeBefore c.pos q b ∧
    (b < c.blockno → q b < c.pos b) ∧
    (b = c.blockno → c.move_back = true ∨ (b < rule.length ∧ q b < c.pos b))

/-- Blocks `0 .. d-1` are in place: inside the line, in order with gaps,
covering no dot, with no solid left uncovered before them or touching their
end. -/
structure CPlaced (line rule : List Nat) (pos : Nat → Nat) (d : Nat) : Prop where
  fit : ∀ b, b < d → pos b + ruleAt rule b ≤ line.length
  gap : ∀ b, b + 1 < d → pos b + ruleAt rule b + 1 ≤ pos (b + 1)
  nodot : ∀ b, b < d → ∀ j, pos b ≤ j → j < pos b + ruleAt rule b →
    cellAt line j ≠ nonogram_DOT
  nosolid : ∀ b, b < d → ∀ j, mergeStart rule pos b ≤ j → j < pos b →
    cellAt line j ≠ nonogram_SOLID
  after : ∀ b, b < d → cellAt line (pos b + ruleAt rule b) ≠ nonogram_SOLID

/-- Block `d` is a candidate at `pos[d]`: it starts after a gap behind block
`d - 1` and has passed no solid since. -/
structure CCand (line rule : List Nat) (pos : Nat → Nat) (d : Nat) : Prop where
  gap : 0 < d → pos (d - 1) + ruleAt rule (d - 1) + 1 ≤ pos d
  nosolid : ∀ j, mergeStart rule pos d ≤ j → j < pos d → cellAt line j ≠ nonogram_SOLID
  bound : pos d ≤ line.length + 1

/-- The record `re` and the counter `remunk`: known cells are kept, every
bit set in an originally BLANK cell comes from a valid placement, and
`remunk` counts the originally BLANK cells that are not yet BOTH. -/
structure CRec (line rule re : List Nat) (remunk : Int) : Prop where
  len : re.length = line.length
  known : ∀ j, j < line.length → cellAt line j ≠ nonogram_BLANK → cellAt re j = cellAt line j
  range : ∀ j, j < line.length → cellAt re j ≤ 3
  dotw : ∀ j, j < line.length → cellAt line j = nonogram_BLANK → HasDot (cellAt re j) →
    ∃ q, ValidPlacement line rule q ∧ ¬ Covered rule q j
  solw : ∀ j, j < line.length → cellAt line j = nonogram_BLANK → HasSolid (cellAt re j) →
    ∃ q, ValidPlacement line rule q ∧ Covered rule q j
  count : remunk + (re.count nonogram_BOTH : Int) = (line.count nonogram_BLANK : Int)

/-- Invariant of the state of the complete solver between calls of `step`. -/
structure CInv (line rule : List Nat) (c : CompleteState) : Prop where
  blk : c.blockno ≤ rule.length
  placed : CPlaced line rule c.pos c.blockno
  cand : c.move_back = false → c.blockno < rule.length → CCand line rule c.pos c.blockno
  record : CRec line rule c.re c.remunk
  seen : ∀ q, ValidPlacement line rule q → Done rule c q → SeenAll line rule c.re q

/-- Digit `b` of the termination measure of `step`. -/
def completeDigit (line rule : List Nat) (c : CompleteState) (b : Nat) : Nat :=
  if b < c.blockno then c.pos b + 1
  else if b = c.blockno then
    (if c.move_back then line.length + 3
      else if b < rule.length then c.pos b + 1 else 1)
  else 0

/-- The termination measure of `step`: it grows with every call that
returns true. -/
def completeMeasure (line rule : List Nat) (c : CompleteState) : Nat :=
  horner (line.length + 4) (completeDigit line rule c) (rule.length + 1)

/-- The search is over: `step` returns false in this state. -/
def CompleteFinal (c : CompleteState) : Prop :=
  (c.move_back = true ∨ c.remunk ≤ 0) ∧ c.blockno = 0

/-- The enumerators of `stepmode` (fcomp.c 119-124). -/
abbrev INVALID : Nat := 0

abbrev SLIDING : Nat := 1

abbrev DRAWING : Nat := 2

abbrev RESTORING : Nat := 3

/-- The context of the fcomp solver (`struct hdr` and the four arrays that
follow it, fcomp.c 158-190). -/
structure FcompState where
  remunk : Nat
  block : Nat
  base : Nat
  max : Nat
  mininv : Nat
  target : Nat
  mode : Nat
  maxpos : Nat
  pos : Nat → Nat
  oldpos : Nat → Nat
  solid : Nat → Nat
  oldsolid : Nat → Nat

/-- The loop of the empty-rule case of `init` (fcomp.c 324-330) with `n`
cells to go, at cell `i`, on the result buffer `res`.  The flag is false
when a cell that is neither DOT nor BLANK makes `init` return at once. -/
def fcompEmptyLoop (line : List Nat) : Nat → Nat → List Nat → Bool × List Nat
  | 0, _, res => (true, res)
  | n + 1, i, res =>
    if cellAt line i == nonogram_DOT then fcompEmptyLoop line n (i + 1) res
    else if cellAt line i != nonogram_BLANK then (false, res)
    else fcompEmptyLoop line n (i + 1) (res.set i nonogram_DOT)

/-- The loop of fcomp.c 351-357 that sets up the result buffer for a rule
with blocks. -/
def fcompCopyLoop (line : List Nat) : Nat → Nat → List Nat → List Nat
  | 0, _, res => res
  | n + 1, i, res =>
    if cellAt line i == nonogram_BLANK then
      fcompCopyLoop line n (i + 1) (res.set i nonogram_BLANK)
    else fcompCopyLoop line n (i + 1) (res.set i (cellAt line i))

/-- Embedding of `init` of fcomp.c 314-395.  `ws0` is the content of the
workspace and `res0` the content of the result buffer before the call; the
outcome is the return value, `*fits`, the result buffer and the workspace.
The result buffer is written with `List.set`, so cells that `init` does
not assign keep the value they had in `res0`. -/
def fcomp_init (ws0 : FcompState) (line rule res0 : List Nat) :
    Bool × Int × List Nat × FcompState :=
  if rule.length == 0 then
    let r := fcompEmptyLoop line line.length 0 res0
    (false, (if r.1 then 1 else 0), r.2, ws0)
  else
    (true, 0, fcompCopyLoop line line.length 0 res0,
      { ws0 with
        base := 0, max := rule.length, maxpos := line.length,
        remunk := line.count nonogram_BLANK,
        mode := INVALID, block := 0, mininv := 0,
        pos := fun b => if b < rule.length then 0 else ws0.pos b,
        oldpos := fun b => if b < rule.length then 0 else ws0.oldpos b,
        solid := fun b => if b < rule.length then (line.length + 1) % 2 ^ 64 else ws0.solid b,
        oldsolid := fun b =>
          if b < rule.length then (line.length + 1) % 2 ^ 64 else ws0.oldsolid b })

/-- The loop of `init` of null.c 60-70: DOT and SOLID cells are copied, every
other cell becomes BOTH. -/
def nullResult (line : List Nat) : List Nat :=
  line.map (fun c => if c == nonogram_DOT || c == nonogram_SOLID then c else nonogram_BOTH)

/-- The `switch` of null.c 72-82 on the value of `nonogram_checkline`. -/
def nullFits (v : Int) : Int :=
  if v == 0 || v == 1 then 1 else 0

/-- Embedding of `init` of null.c, which is all of the null suite: the
return value, `*fits` and the result buffer. -/
def null_init (line rule : List Nat) : Bool × Int × List Nat :=
  (false, nullFits (nonogram_checkline rule line), nullResult line)

/-- A workspace filled with zeros. -/
def fcompZero : FcompState :=
  { remunk := 0, block := 0, base := 0, max := 0, mininv := 0, target := 0, mode := 0,
    maxpos := 0, pos := fun _ => 0, oldpos := fun _ => 0, solid := fun _ => 0,
    oldsolid := fun _ => 0 }

/-- The rule fits the line: the blocks with one cell between neighbours need
no more cells than the line has. -/
def RuleFits (line rule : List Nat) : Prop := rule.sum + rule.length ≤ line.length + 1

instance (line rule : List Nat) : Decidable (RuleFits line rule) := by
  unfold RuleFits; infer_instance

/-- The counter `*fits` of the complete solver: it is never negative, it is
positive only if the rule has a valid placement, and while it is zero the
record is still the copy of the line made by `init`. -/
structure CFits (line rule : List Nat) (c : CompleteState) : Prop where
  nonneg : 0 ≤ c.fits
  valid : 0 < c.fits → ∃ q, ValidPlacement line rule q
  untouched : c.fits = 0 → ∀ j, j < line.length → cellAt c.re j = cellAt line j

/-- All cells before `m` have been given a bit. -/
def MergedTo (rec : List Nat) (m : Nat) : Prop :=
  ∀ j, j < m → j < rec.length → cellAt rec j ≠ 0

/-- The alphabet `safe_chars` of cache.c: 64 characters, followed in memory
by the terminating NUL. -/
def safe_chars : List Char :=
  "0123456789abcdefghijklmnopqrstuvwxyzABCDEFGHIJKLMNOPQRSTUVWXYZ._".toList

/-- The character `safe_chars[i]`. -/
def safeChar (i : Nat) : Char := safe_chars.getD i (Char.ofNat 0)

/-- The `decode_char` of cache.c: the offset at which `strchr` finds `c` in
`safe_chars` (the terminating NUL is found at offset 64), or -1. -/
def decode_char (c : Char) : Int :=
  if safe_chars.indexOf c < 64 then (safe_chars.indexOf c : Int)
  else if c = Char.ofNat 0 then 64 else -1

/-- Conversion of an `int` to `unsigned` (32 bits). -/
def toUnsigned (z : Int) : Nat := (z % 2 ^ 32).toNat

/-- Outcome of a codec routine: it returns a value, or an `assert` fails, or
the embedding ran out of fuel. -/
inductive Run (α : Type) where
  | ret : α → Run α
  | assertion : Run α
  | fuel : Run α
deriving DecidableEq

/-- An input cursor: the characters from `*in` on, and the counter `*rem`. -/
structure InBuf where
  data : List Char
  rem : Nat
deriving DecidableEq

/-- The character `k[*in]`. -/
def inAt (i : InBuf) (k : Nat) : Char := i.data.getD k (Char.ofNat 0)

/-- An output cursor: whether `out` is a null pointer, the characters
written through `*out` so far, and the counter `*rem`. -/
structure OutBuf where
  isNull : Bool
  written : List Char
  rem : Nat
deriving DecidableEq

/-- The continuation loop of `decode_len`, for `i = k, ..., k + n - 1`;
`none` is `return -1`. -/
def decodeCont (i : InBuf) : Nat → Nat → Nat → Option Nat
  | 0, _, r => some r
  | n + 1, k, r =>
    let key := toUnsigned (decode_char (inAt i k))
    if key &&& 0x30 ≠ 0x20 then none
    else decodeCont i n (k + 1) (((r <<< 4) % 2 ^ 32) ||| (key &&& 0xf))

/-- The `decode_len` of cache.c: return code, cursor afterwards, and `*vp`
(which is left as it was, `vp0`, on failure). -/
def decode_len (i : InBuf) (vp0 : Nat) : Run (Int × InBuf × Nat) :=
  if i.rem = 0 then .ret (-1, i, vp0)
  else
    let skey := decode_char (inAt i 0)
    if skey < 0 then .ret (-1, i, vp0)
    else
      let key := toUnsigned skey
      if ¬ key < 64 then .assertion
      else if key ≥ 0x3e then .ret (-1, i, vp0)
      else
        let reqr : Nat × Nat :=
          if key ≥ 0x3c then (4, key &&& 0x1)
          else if key ≥ 0x38 then (3, key &&& 0x3)
          else if key ≥ 0x30 then (2, key &&& 0x7)
          else (1, key &&& 0x1f)
        if reqr.1 > i.rem then .ret (-1, i, vp0)
        else
          match decodeCont i (reqr.1 - 1) 1 reqr.2 with
          | none => .ret (-1, i, vp0)
          | some r => .ret (0, { data := i.data.drop reqr.1, rem := i.rem - reqr.1 }, r)

/-- The writing loop of `encode_len`. -/
def encodeLoop (v : Nat) : Nat → Nat → Nat → OutBuf → OutBuf
  | 0, _, _, o => o
  | req + 1, mask, mark, o =>
    encodeLoop v req 0xf 0x20
      { o with written := o.written ++ [safeChar (((v >>> (4 * req)) &&& mask) ||| mark)],
               rem := o.rem - 1 }

/-- The `encode_len` of cache.c, on a value `v` of type `unsigned`. -/
def encode_len (o : OutBuf) (v : Nat) : Int × OutBuf :=
  let rmm : Nat × Nat × Nat :=
    if v > 1023 then (4, 0x1, 0x3c)
    else if v > 127 then (3, 0x3, 0x38)
    else if v > 31 then (2, 0x7, 0x30)
    else (1, 0x1f, 0)
  if o.isNull then (0, { o with rem := (o.rem + rmm.1) % 2 ^ 64 })
  else if o.rem < rmm.1 then (-1, o)
  else (0, encodeLoop v rmm.1 rmm.2.1 rmm.2.2 o)

/-- The rule arrays of a `nonogram_puzzle`: `col[x]` and `row[y]`; the width
and the height are the lengths of the two lists. -/
structure Puzzle where
  col : List (List Nat)
  row : List (List Nat)
deriving DecidableEq

/-- The loop of `nonocache_encodepuzzle` over the blocks of one rule, followed
by the terminator; a block is converted from `unsigned long` to `unsigned`
on the call of `encode_len`. -/
def encodeRule (o : OutBuf) : List Nat → Run (Int × OutBuf)
  | [] => .ret (if (encode_len o 0).1 < 0 then (-1, (encode_len o 0).2) else (0, (encode_len o 0).2))
  | b :: bs =>
    if b = 0 then .assertion
    else if (encode_len o (b % 2 ^ 32)).1 < 0 then .ret (-1, (encode_len o (b % 2 ^ 32)).2)
    else encodeRule (encode_len o (b % 2 ^ 32)).2 bs

/-- The loop of `nonocache_encodepuzzle` over the lines of one dimension. -/
def encodeLines (o : OutBuf) : List (List Nat) → Run (Int × OutBuf)
  | [] => .ret (0, o)
  | r :: rs =>
    match encodeRule o r with
    | .assertion => .assertion
    | .fuel => .fuel
    | .ret (rc, o1) => if rc < 0 then .ret (-1, o1) else encodeLines o1 rs

/-- The `nonocache_encodepuzzle` of cache.c: columns first, then rows. -/
def nonocache_encodepuzzle (o : OutBuf) (puz : Puzzle) : Run (Int × OutBuf) :=
  match encodeLines o puz.col with
  | .assertion => .assertion
  | .fuel => .fuel
  | .ret (rc, o1) => if rc < 0 then .ret (-1, o1) else encodeLines o1 puz.row

/-- The `do ... while (len)` loop of `nonocache_decodepuzzle` for one line:
every block read is appended to the rule `r` of that line
(`nonogram_appendcolblock`, `nonogram_appendrowblock`, whose reallocation is
taken to succeed).  Every round consumes a character, so `*rem + 1` rounds
of fuel are enough. -/
def decodeRule : Nat → InBuf → List Nat → Run (Int × InBuf × List Nat)
  | 0, _, _ => .fuel
  | f + 1, i, r =>
    match decode_len i 0 with
    | .assertion => .assertion
    | .fuel => .fuel
    | .ret (rc, i1, len) =>
      if rc < 0 then .ret (-1, i1, r)
      else if len ≠ 0 then decodeRule f i1 (r ++ [len])
      else .ret (0, i1, r)

/-- The loop of `nonocache_decodepuzzle` over the lines of one dimension. -/
def decodeLines (i : InBuf) : List (List Nat) → Run (Int × InBuf × List (List Nat))
  | [] => .ret (0, i, [])
  | r :: rs =>
    match decodeRule (i.rem + 1) i r with
    | .assertion => .assertion
    | .fuel => .fuel
    | .ret (rc, i1, r1) =>
      if rc < 0 then .ret (rc, i1, r1 :: rs)
      else
        match decodeLines i1 rs with
        | .assertion => .assertion
        | .fuel => .fuel
        | .ret (rc2, i2, rs2) => .ret (rc2, i2, r1 :: rs2)

/-- The `nonocache_decodepuzzle` of cache.c, appending to the rules of `puz`. -/
def nonocache_decodepuzzle (i : InBuf) (puz : Puzzle) : Run (Int × InBuf × Puzzle) :=
  match decodeLines i puz.col with
  | .assertion => .assertion
  | .fuel => .fuel
  | .ret (rc, i1, cols) =>
    if rc < 0 then .ret (rc, i1, { puz with col := cols })
    else
      match decodeLines i1 puz.row with
      | .assertion => .assertion
      | .fuel => .fuel
      | .ret (rc2, i2, rows) => .ret (rc2, i2, { col := cols, row := rows })

/-- A puzzle of the given width and height with all rules empty. -/
def emptyPuzzle (wid hei : Nat) : Puzzle :=
  { col := List.replicate wid [], row := List.replicate hei [] }

/-- The loop state of `nonocache_encodecells`: the bits collected in `v`,
their number `got`, and the output cursor. -/
structure CellEnc where
  v : Nat
  got : Nat
  o : OutBuf
deriving DecidableEq

/-- The body of the inner loop of `nonocache_encodecells` on the cell `c`:
return code -1 is `return -1`, return code 0 continues the loop. -/
def encodeCell (c : Nat) (s : CellEnc) : Run (Int × CellEnc) :=
  let v1 := (s.v <<< 1) % 2 ^ 32
  if c = nonogram_BLANK ∨ c = nonogram_BOTH then .ret (-1, { s with v := v1 })
  else
    let v2 := if c = nonogram_SOLID then v1 ||| 1 else v1
    let got := s.got + 1
    if ¬ got < 7 then .assertion
    else if got = 6 then
      if ¬ v2 < 64 then .assertion
      else if s.o.rem = 0 then .ret (-1, { s with v := v2, got := got })
      else .ret (0, { v := 0, got := 0,
                      o := { s.o with written := s.o.written ++ [safeChar v2],
                                      rem := s.o.rem - 1 } })
    else .ret (0, { s with v := v2, got := got })

/-- The inner loop `for (x ...; x < wid; x++)` of `nonocache_encodecells`, with
`k` passes to go. -/
def encodeCellsX (wid y : Nat) (grid : List Nat) : Nat → Nat → CellEnc → Run (Int × CellEnc)
  | 0, _, s => .ret (0, s)
  | k + 1, x, s =>
    match encodeCell (cellAt grid (x + wid * y)) s with
    | .assertion => .assertion
    | .fuel => .fuel
    | .ret (rc, s1) => if rc < 0 then .ret (rc, s1) else encodeCellsX wid y grid k (x + 1) s1

/-- The outer loop `for (y ...; y < hei; y++)` of `nonocache_encodecells`. -/
def encodeCellsY (wid : Nat) (grid : List Nat) : Nat → Nat → CellEnc → Run (Int × CellEnc)
  | 0, _, s => .ret (0, s)
  | k + 1, y, s =>
    match encodeCellsX wid y grid wid 0 s with
    | .assertion => .assertion
    | .fuel => .fuel
    | .ret (rc, s1) => if rc < 0 then .ret (rc, s1) else encodeCellsY wid grid k (y + 1) s1

/-- The end of `nonocache_encodecells`: the last, partly filled character. -/
def encodeFlush (s : CellEnc) : Run (Int × OutBuf) :=
  if ¬ s.got < 7 then .assertion
  else if s.got > 0 then
    let v := (s.v <<< (6 - s.got)) % 2 ^ 32
    if ¬ v < 64 then .assertion
    else if s.o.rem = 0 then .ret (-1, s.o)
    else .ret (0, { s.o with written := s.o.written ++ [safeChar v], rem := s.o.rem - 1 })
  else .ret (0, s.o)

/-- The `nonocache_encodecells` of cache.c. -/
def nonocache_encodecells (o : OutBuf) (wid hei : Nat) (grid : List Nat) : Run (Int × OutBuf) :=
  if o.isNull then
    .ret (0, { o with rem := (o.rem + ((wid * hei) % 2 ^ 64 + 5) % 2 ^ 64 / 6) % 2 ^ 64 })
  else
    match encodeCellsY wid grid hei 0 { v := 0, got := 0, o := o } with
    | .assertion => .assertion
    | .fuel => .fuel
    | .ret (rc, s) => if rc < 0 then .ret (-1, s.o) else encodeFlush s

/-- The inner loop `for (b = 5; b >= 0; b--)` of `nonocache_decodecells` with
`b` passes to go, on the character value `v`: whether the function returned,
and `x`, `y` and the grid afterwards. -/
def decodeBits (wid hei v : Nat) : Nat → Nat → Nat → List Nat → Bool × Nat × Nat × List Nat
  | 0, x, y, g => (false, x, y, g)
  | b + 1, x, y, g =>
    let g1 := g.set (x + y * wid)
      (if v &&& (1 <<< b) ≠ 0 then nonogram_SOLID else nonogram_DOT)
    if x + 1 = wid then
      if y + 1 = hei then (true, 0, y + 1, g1)
      else decodeBits wid hei v b 0 (y + 1) g1
    else decodeBits wid hei v b (x + 1) y g1

/-- The outer loop of `nonocache_decodecells` over the characters `k[*in]`,
with `n` characters to go. -/
def decodeChars (i : InBuf) (wid hei : Nat) : Nat → Nat → Nat → Nat → List Nat → Int × List Nat
  | 0, _, _, _, g => (0, g)
  | n + 1, k, x, y, g =>
    if decode_char (inAt i k) < 0 then (-1, g)
    else
      let r := decodeBits wid hei (toUnsigned (decode_char (inAt i k))) 6 x y g
      if r.1 then (0, r.2.2.2) else decodeChars i wid hei n (k + 1) r.2.1 r.2.2.1 r.2.2.2

/-- The `nonocache_decodecells` of cache.c: return code, input cursor
afterwards and grid afterwards. -/
def nonocache_decodecells (i : InBuf) (wid hei : Nat) (grid : List Nat) :
    Int × InBuf × List Nat :=
  let req := ((wid * hei) % 2 ^ 64 + 5) % 2 ^ 64 / 6
  if i.rem < req then (-1, i, grid)
  else ((decodeChars i wid hei req 0 0 0 grid).1, i, (decodeChars i wid hei req 0 0 0 grid).2)

/-- The digits (indices into `safe_chars`) that `encode_len` writes for `v`. -/
def lenDigits (v : Nat) : List Nat :=
  if v > 1023 then [v / 4096 % 2 + 60, v / 256 % 16 + 32, v / 16 % 16 + 32, v % 16 + 32]
  else if v > 127 then [v / 256 % 4 + 56, v / 16 % 16 + 32, v % 16 + 32]
  else if v > 31 then [v / 16 % 8 + 48, v % 16 + 32]
  else [v]

/-- The characters that `nonocache_encodepuzzle` writes for one rule: the
digits of every block, then the terminator. -/
def ruleChars : List Nat → List Char
  | [] => [safeChar 0]
  | b :: bs => (lenDigits (b % 2 ^ 32)).map safeChar ++ ruleChars bs

/-- The characters written for the lines of one dimension. -/
def linesChars : List (List Nat) → List Char
  | [] => []
  | r :: rs => ruleChars r ++ linesChars rs

/-- The bit that `nonocache_encodecells` records for a cell. -/
def cellBit (c : Nat) : Nat := if c = nonogram_SOLID then 1 else 0

/-- The passes of the loop body of `nonocache_encodecells` over a list of
cells. -/
def encodeList : List Nat → CellEnc → Run (Int × CellEnc)
  | [], s => .ret (0, s)
  | c :: cs, s =>
    match encodeCell c s with
    | .assertion => .assertion
    | .fuel => .fuel
    | .ret (rc, s1) => if rc < 0 then .ret (rc, s1) else encodeList cs s1

/-- The value collected from a list of cells, most significant bit first. -/
def gval (v : Nat) (l : List Nat) : Nat := l.foldl (fun a c => 2 * a + cellBit c) v

/-- The value of the character written for a group of at most six cells. -/
def groupVal (t : List Nat) : Nat := (gval 0 t <<< (6 - t.length)) % 2 ^ 32

/-- The characters written for a list of cells, six cells per character. -/
def packAux : Nat → List Nat → List Char
  | 0, _ => []
  | n + 1, l => if l = [] then [] else safeChar (groupVal (l.take 6)) :: packAux n (l.drop 6)

/-- The cell that `nonocache_decodecells` writes for bit `b` of `v`. -/
def bitCell (v b : Nat) : Nat :=
  if v &&& (1 <<< b) ≠ 0 then nonogram_SOLID else nonogram_DOT

/-- Conversion of an integer value to `int` (32 bits, two's complement). -/
def toInt32 (z : Int) : Int := (z + 2 ^ 31) % 2 ^ 32 - 2 ^ 31

/-- The `nonogram_lineattr` of nonogram.h: three `int` fields. -/
structure nonogram_lineattr where
  score : Int
  dot : Int
  solid : Int
deriving DecidableEq

/-- The summing loop of `makescore`: `attr->score += rule->val[relem]` adds in
`unsigned long` and stores the sum into the `int` field. -/
def makescoreSum (rule : List Nat) (s : Int) : Int :=
  rule.foldl (fun (a : Int) (v : Nat) => toInt32 (wrap (a + (v : Int)))) s

/-- The `makescore` of solver.c on a rule and the `int` parameter `len`.  The
products and sums that involve `rule->len` are computed in `unsigned long`
and stored into `int` fields; the `int` subtraction `len - solid` is taken to
wrap around. -/
def makescore (rule : List Nat) (len : Int) : nonogram_lineattr :=
  let solid := makescoreSum rule 0
  let dot := toInt32 (len - solid)
  if solid = 0 then { score := len, dot := dot, solid := solid }
  else
    let s1 := toInt32 (wrap (solid * ((rule.length : Int) + 1)))
    let s2 := toInt32 (wrap (s1 + wrap ((rule.length : Int) * ((rule.length : Int) - len - 1))))
    { score := s2, dot := dot, solid := solid }

/-- Status `nonogram_EMPTY`: processing, but not on a line. -/
def nonogram_EMPTY : Nat := 0

/-- Status `nonogram_WORKING`: currently on a line. -/
def nonogram_WORKING : Nat := 1

/-- Status `nonogram_DONE`: line processing completed. -/
def nonogram_DONE : Nat := 2

/-- Return code `nonogram_UNLOADED`. -/
def nonogram_UNLOADED : Int := 0

/-- Return code `nonogram_FINISHED`. -/
def nonogram_FINISHED : Int := 1

/-- Return code `nonogram_UNFINISHED`. -/
def nonogram_UNFINISHED : Int := 2

/-- Return code `nonogram_FOUND`. -/
def nonogram_FOUND : Int := 4

/-- Return code `nonogram_LINE`. -/
def nonogram_LINE : Int := 8

/-- Return code `nonogram_ERROR`. -/
def nonogram_ERROR : Int := 16

/-- The `struct nonogram_point` of nonogram.h. -/
structure nonogram_point where
  x : Nat
  y : Nat
deriving DecidableEq

/-- The `struct nonogram_rect` of nonogram.h: `min` inclusive, `max` exclusive. -/
structure nonogram_rect where
  min : nonogram_point
  max : nonogram_point
deriving DecidableEq

/-- One element of the guess stack (`nonogram_stack`): a copy of the cells of
the rectangle `unkarea`, row by row, and of the attributes of its rows and
columns. -/
structure nonogram_stack where
  grid : List Nat
  unkarea : nonogram_rect
  guesspos : nonogram_point
  rowattr : List nonogram_lineattr
  colattr : List nonogram_lineattr
  remcells : Int
deriving DecidableEq

/-- The part of `struct nonogram_solver` that the driver reads and writes.
`loaded` stands for `c->puzzle != NULL`; `suiteInit` and `suiteStep` tell for
every level whether `linesolver[level - 1].suite` and its `init`, respectively
`step`, are set; `presented` collects the grids handed to the client's
`present`.  The `int` fields are exact integers, the flags are `unsigned`. -/
structure nonogram_solver where
  loaded : Bool
  puzzle : Puzzle
  levels : Nat
  suiteInit : List Bool
  suiteStep : List Bool
  work : List Nat
  rowattr : List nonogram_lineattr
  colattr : List nonogram_lineattr
  rowflag : List Nat
  colflag : List Nat
  stack : List nonogram_stack
  grid : List Nat
  remcells : Int
  reminfo : Int
  unkarea : nonogram_rect
  fits : Int
  lineno : Nat
  level : Nat
  on_row : Bool
  status : Nat
  presented : List (List Nat)
deriving DecidableEq

/-- The effect of one call of a line solver's `init` or `step` on the driver:
its return value, `*fits` and the result buffer `c->work`. -/
structure LineCall where
  again : Bool
  fits : Int
  work : List Nat
deriving DecidableEq

/-- What the environment contributes to one call of `nonogram_runcycles`: the
outcome of the line solver's `init`, the outcomes of the calls of `step` for
which `test` allows a round, and whether `malloc` of a stack element fails. -/
structure TickEnv where
  init : LineCall
  steps : List LineCall
  nomem : Bool
deriving DecidableEq

/-- The `puzzle->width`. -/
def Puzzle.width (p : Puzzle) : Nat := p.col.length

/-- The `puzzle->height`. -/
def Puzzle.height (p : Puzzle) : Nat := p.row.length

/-- Read of an attribute array. -/
def attrAt (l : List nonogram_lineattr) (i : Nat) : nonogram_lineattr :=
  l.getD i { score := 0, dot := 0, solid := 0 }

/-- Read of a flag array. -/
def flagAt (l : List Nat) (i : Nat) : Nat := l.getD i 0

/-- The `nonogram_load` of solver.c: return code and solver afterwards.  All
flags are set to `levels`, all attributes come from `makescore`, and `reminfo`
counts the lines if `levels` is not zero. -/
def nonogram_load (c : nonogram_solver) (puzzle : Puzzle) (grid : List Nat) (remcells : Int) :
    Int × nonogram_solver :=
  if c.loaded then (-1, c)
  else
    (0, { c with
      loaded := true
      puzzle := puzzle
      grid := grid
      remcells := remcells
      work := List.replicate (if puzzle.width > puzzle.height then puzzle.width
        else puzzle.height) nonogram_BLANK
      reminfo := if c.levels = 0 then 0 else (puzzle.width : Int) + puzzle.height
      stack := []
      unkarea := { min := { x := 0, y := 0 }, max := { x := puzzle.width, y := puzzle.height } }
      colflag := List.replicate puzzle.width c.levels
      rowflag := List.replicate puzzle.height c.levels
      colattr := puzzle.col.map (fun rule => makescore rule (toInt32 puzzle.height))
      rowattr := puzzle.row.map (fun rule => makescore rule (toInt32 puzzle.width))
      status := nonogram_EMPTY })

/-- The loop of `findeasiest` over one array of flags and attributes: the
pair of the greatest flag and, among those, the greatest score so far, the
line that holds it and whether that line is a row. -/
def findeasiestLoop (flag : List Nat) (attr : List nonogram_lineattr) (row : Bool) :
    Nat → Nat → Nat × Int × Nat × Bool → Nat × Int × Nat × Bool
  | 0, _, s => s
  | k + 1, i, (level, score, lineno, on_row) =>
    if flagAt flag i > level ∨
        (level > 0 ∧ flagAt flag i = level ∧ (attrAt attr i).score > score) then
      findeasiestLoop flag attr row k (i + 1) (flagAt flag i, (attrAt attr i).score, i, row)
    else findeasiestLoop flag attr row k (i + 1) (level, score, lineno, on_row)

/-- The `findeasiest` of solver.c. -/
def findeasiest (c : nonogram_solver) : nonogram_solver :=
  let s0 : Nat × Int × Nat × Bool := (flagAt c.rowflag 0, (attrAt c.rowattr 0).score, 0, true)
  let s1 := findeasiestLoop c.rowflag c.rowattr true c.puzzle.height 0 s0
  let s2 := findeasiestLoop c.colflag c.colattr false c.puzzle.width 0 s1
  { c with level := s2.1, lineno := s2.2.2.1, on_row := s2.2.2.2 }

/-- Length of the line `(on_row, lineno)`. -/
def lineLen (c : nonogram_solver) : Nat :=
  if c.on_row then c.puzzle.width else c.puzzle.height

/-- Index in the grid of cell `i` of the line `(on_row, lineno)`. -/
def lineIndex (c : nonogram_solver) (i : Nat) : Nat :=
  if c.on_row then c.puzzle.width * c.lineno + i else c.lineno + i * c.puzzle.width

/-- The cells of the line `(on_row, lineno)`. -/
def currentLine (c : nonogram_solver) : List Nat :=
  (List.range (lineLen c)).map (fun i => cellAt c.grid (lineIndex c i))

/-- The rule of the line `(on_row, lineno)`. -/
def currentRule (c : nonogram_solver) : List Nat :=
  if c.on_row then c.puzzle.row.getD c.lineno [] else c.puzzle.col.getD c.lineno []

/-- The backup solver of `setupstep` and `step`: DOT and SOLID cells are
copied into `c->work`, every other cell becomes BOTH. -/
def backupWork (c : nonogram_solver) : List Nat :=
  nullResult (currentLine c) ++ c.work.drop (lineLen c)

/-- The `setupstep` of solver.c; `r` is what the line solver's `init` does. -/
def setupstep (c : nonogram_solver) (r : LineCall) : nonogram_solver :=
  if c.level > c.levels ∨ c.level < 1 ∨ ¬ (c.suiteInit.getD (c.level - 1) false = true) then
    { c with work := backupWork c, status := nonogram_DONE }
  else
    { c with work := r.work, fits := r.fits,
             status := if r.again then nonogram_WORKING else nonogram_DONE }

/-- The `step` of solver.c; `r` is what the line solver's `step` does. -/
def step (c : nonogram_solver) (r : LineCall) : nonogram_solver :=
  if c.level > c.levels ∨ c.level < 1 ∨ ¬ (c.suiteStep.getD (c.level - 1) false = true) then
    { c with work := backupWork c, status := nonogram_DONE }
  else
    { c with work := r.work, fits := r.fits,
             status := if r.again then nonogram_WORKING else nonogram_DONE }

/-- The loop `while ((*test)(data) && c->status == nonogram_WORKING) step(c)`,
with one element of the list for every round that `test` allows. -/
def stepLoop : List LineCall → nonogram_solver → nonogram_solver
  | [], c => c
  | r :: rs, c => if c.status = nonogram_WORKING then stepLoop rs (step c r) else c

/-- The update `if (!--*(w == DOT ? &attr->dot : &attr->solid)) attr->score =
len; else attr->score++` of `redeemstep` and `makeguess`. -/
def decAttr (a : nonogram_lineattr) (w : Nat) (len : Int) : nonogram_lineattr :=
  if w = nonogram_DOT then
    { a with dot := a.dot - 1, score := if a.dot - 1 = 0 then len else a.score + 1 }
  else
    { a with solid := a.solid - 1, score := if a.solid - 1 = 0 then len else a.score + 1 }

/-- One pass of the loop of `redeemstep`, on cell `i` of the line. -/
def redeemCell (c : nonogram_solver) (changed : Bool) (i : Nat) : nonogram_solver × Bool :=
  if cellAt c.grid (lineIndex c i) = nonogram_BLANK ∧
      (cellAt c.work i = nonogram_DOT ∨ cellAt c.work i = nonogram_SOLID) then
    if c.on_row then
      ({ c with
          grid := c.grid.set (lineIndex c i) (cellAt c.work i)
          remcells := c.remcells - 1
          colattr := c.colattr.set i (decAttr (attrAt c.colattr i) (cellAt c.work i)
            c.puzzle.height)
          rowattr := c.rowattr.set c.lineno (decAttr (attrAt c.rowattr c.lineno)
            (cellAt c.work i) c.puzzle.width)
          reminfo := if flagAt c.colflag i < c.levels ∧ flagAt c.colflag i = 0
            then c.reminfo + 1 else c.reminfo
          colflag := if flagAt c.colflag i < c.levels then c.colflag.set i c.levels
            else c.colflag }, true)
    else
      ({ c with
          grid := c.grid.set (lineIndex c i) (cellAt c.work i)
          remcells := c.remcells - 1
          rowattr := c.rowattr.set i (decAttr (attrAt c.rowattr i) (cellAt c.work i)
            c.puzzle.width)
          colattr := c.colattr.set c.lineno (decAttr (attrAt c.colattr c.lineno)
            (cellAt c.work i) c.puzzle.height)
          reminfo := if flagAt c.rowflag i < c.levels ∧ flagAt c.rowflag i = 0
            then c.reminfo + 1 else c.reminfo
          rowflag := if flagAt c.rowflag i < c.levels then c.rowflag.set i c.levels
            else c.rowflag }, true)
  else (c, changed)

/-- The loop of `redeemstep` over the cells `i, ..., i + k - 1` of the line. -/
def redeemLoop : Nat → Nat → nonogram_solver × Bool → nonogram_solver × Bool
  | 0, _, s => s
  | k + 1, i, s => redeemLoop k (i + 1) (redeemCell s.1 s.2 i)

/-- The `redeemstep` of solver.c: the solver afterwards and `changed`. -/
def redeemstep (c : nonogram_solver) : nonogram_solver × Bool :=
  redeemLoop (lineLen c) 0 (c, false)

/-- The new value of the flag of the line just solved (solver.c 368-392):
cleared when nothing is left to place, set to `levels` when `fits < 0` and
something changed, decremented otherwise. -/
def doneFlag (c : nonogram_solver) (a : nonogram_lineattr) (flag : Nat) (changed : Bool) : Nat :=
  if a.dot = 0 ∧ a.solid = 0 then 0
  else if c.fits < 0 ∧ changed = true then c.levels
  else (flag + 2 ^ 32 - 1) % 2 ^ 32

/-- The branch `c->status == nonogram_DONE` of `nonogram_runcycles`. -/
def runDone (c : nonogram_solver) : Int × nonogram_solver :=
  if c.fits = 0 then (nonogram_LINE, { c with remcells := -1, status := nonogram_EMPTY })
  else
    let c1 := (redeemstep c).1
    let changed := (redeemstep c).2
    if c1.on_row then
      let f := doneFlag c1 (attrAt c1.rowattr c1.lineno) (flagAt c1.rowflag c1.lineno) changed
      (nonogram_LINE, { c1 with
        rowflag := c1.rowflag.set c1.lineno f
        reminfo := if f = 0 then c1.reminfo - 1 else c1.reminfo
        status := nonogram_EMPTY })
    else
      let f := doneFlag c1 (attrAt c1.colattr c1.lineno) (flagAt c1.colflag c1.lineno) changed
      (nonogram_LINE, { c1 with
        colflag := c1.colflag.set c1.lineno f
        reminfo := if f = 0 then c1.reminfo - 1 else c1.reminfo
        status := nonogram_EMPTY })

/-- Width `max.x - min.x` of a rectangle. -/
def nonogram_rect.w (r : nonogram_rect) : Nat := r.max.x - r.min.x

/-- Height `max.y - min.y` of a rectangle. -/
def nonogram_rect.h (r : nonogram_rect) : Nat := r.max.y - r.min.y

/-- The `memcpy(dst + doff, src + soff, n)` of cells. -/
def memcpyCells (dst : List Nat) (doff : Nat) (src : List Nat) (soff n : Nat) : List Nat :=
  (List.range dst.length).map (fun j =>
    if doff ≤ j ∧ j < doff + n then cellAt src (soff + (j - doff)) else cellAt dst j)

/-- The loop "Restore rows" of `nonogram_runcycles` (solver.c 456-471) for
the rows `y, ..., y + k - 1` of the saved rectangle. -/
def restoreRows (pw : Nat) (st : nonogram_stack) :
    Nat → Nat → List Nat × List Nat × List nonogram_lineattr →
      List Nat × List Nat × List nonogram_lineattr
  | 0, _, s => s
  | k + 1, y, (grid, rowflag, rowattr) =>
    restoreRows pw st k (y + 1)
      (memcpyCells grid (st.unkarea.min.x + (y + st.unkarea.min.y) * pw) st.grid
          (y * st.unkarea.w) st.unkarea.w,
        rowflag.set (y + st.unkarea.min.y) 0,
        rowattr.set (y + st.unkarea.min.y) (attrAt st.rowattr y))

/-- The loop "Restore columns" of `nonogram_runcycles` (solver.c 473-483). -/
def restoreCols (st : nonogram_stack) :
    Nat → Nat → List Nat × List nonogram_lineattr → List Nat × List nonogram_lineattr
  | 0, _, s => s
  | k + 1, x, (colflag, colattr) =>
    restoreCols st k (x + 1)
      (colflag.set (x + st.unkarea.min.x) 0,
        colattr.set (x + st.unkarea.min.x) (attrAt st.colattr x))

/-- The branch `c->remcells < 0` of `nonogram_runcycles` with a stack element
`st` on top of `rest`: the saved rectangle is copied back. -/
def runRestore (c : nonogram_solver) (st : nonogram_stack) (rest : List nonogram_stack) :
    Int × nonogram_solver :=
  let r := restoreRows c.puzzle.width st st.unkarea.h 0 (c.grid, c.rowflag, c.rowattr)
  let q := restoreCols st st.unkarea.w 0 (c.colflag, c.colattr)
  (nonogram_LINE, { c with
    remcells := st.remcells
    reminfo := 2
    unkarea := st.unkarea
    grid := r.1
    rowattr := r.2.2
    colattr := q.2
    colflag := q.1.set st.guesspos.x c.levels
    rowflag := r.2.1.set st.guesspos.y c.levels
    stack := rest })

/-- The loop `while (ls < lim) { if (grid[ls] == BLANK) ...; ls++; }`: the
first index from `ls` on, among `k`, that holds a BLANK. -/
def scanUp (grid : List Nat) : Nat → Nat → Option Nat
  | 0, _ => none
  | k + 1, ls => if cellAt grid ls = nonogram_BLANK then some ls else scanUp grid k (ls + 1)

/-- The loop `while (ls > xlim) { if (grid[ls - 1] == BLANK) ...; ls--; }`:
the first `ls`, going down through `k` values, with a BLANK at `ls - 1`. -/
def scanDown (grid : List Nat) : Nat → Nat → Option Nat
  | 0, _ => none
  | k + 1, ls => if cellAt grid (ls - 1) = nonogram_BLANK then some ls
    else scanDown grid k (ls - 1)

/-- First loop of `findminrect` (solver.c 822-833): the first row from `y` on,
among `k`, with a BLANK between `orig.min.x` and `orig.max.x`, and the index
of the first such cell. -/
def findFirst (grid : List Nat) (pw : Nat) (orig : nonogram_rect) : Nat → Nat → Option (Nat × Nat)
  | 0, _ => none
  | k + 1, y =>
    match scanUp grid (orig.max.x + y * pw - (orig.min.x + y * pw)) (orig.min.x + y * pw) with
    | some ls => some (ls, y)
    | none => findFirst grid pw orig k (y + 1)

/-- Second loop of `findminrect` (solver.c 845-861), for the rows
`y, ..., y + k - 1`: the state is `(b.min.x, b.max.y)`. -/
def findBelowLeft (grid : List Nat) (pw : Nat) (orig : nonogram_rect) :
    Nat → Nat → Nat → Nat × Nat → Run (Nat × Nat)
  | 0, _, _, s => .ret s
  | k + 1, y, xlim, (minx, maxy) =>
    if ¬ (xlim ≥ orig.min.x + y * pw) then .assertion
    else if ¬ (xlim - (orig.min.x + y * pw) ≤ orig.max.x - orig.min.x) then .assertion
    else
      match scanUp grid (xlim - (orig.min.x + y * pw)) (orig.min.x + y * pw) with
      | some ls =>
        findBelowLeft grid pw orig k (y + 1) (xlim + pw)
          (if ls % pw < minx then ls % pw else minx, y + 1)
      | none => findBelowLeft grid pw orig k (y + 1) (xlim + pw) (minx, maxy)

/-- Third loop of `findminrect` (solver.c 874-890), going upwards from row
`y - 1` while `y > b.max.y`, with fuel `k`: the state is `(b.max.x, b.max.y)`. -/
def findBottomRight (grid : List Nat) (pw : Nat) (orig : nonogram_rect) (old_b_x : Nat) :
    Nat → Nat → Nat → Nat × Nat → Run (Nat × Nat)
  | 0, _, _, s => .ret s
  | k + 1, y, xlim, (maxx, maxy) =>
    if ¬ (y > maxy) then .ret (maxx, maxy)
    else if ¬ (orig.max.x + (y - 1) * pw ≥ xlim) then .assertion
    else if ¬ (orig.max.x + (y - 1) * pw - xlim = orig.max.x - old_b_x) then .assertion
    else
      match scanDown grid (orig.max.x + (y - 1) * pw - xlim) (orig.max.x + (y - 1) * pw) with
      | some ls =>
        findBottomRight grid pw orig old_b_x k (y - 1) (wrap ((xlim : Int) - pw))
          ((ls + pw - 1) % pw + 1, y)
      | none =>
        findBottomRight grid pw orig old_b_x k (y - 1) (wrap ((xlim : Int) - pw)) (maxx, maxy)

/-- Fourth loop of `findminrect` (solver.c 900-922), going upwards from row
`y - 1` while `b.max.x < orig.max.x && y > b.min.y`, with fuel `k`: the state
is `b.max.x`. -/
def findRight (grid : List Nat) (pw : Nat) (orig : nonogram_rect) (miny : Nat) :
    Nat → Nat → Nat → Nat → Run Nat
  | 0, _, _, maxx => .ret maxx
  | k + 1, y, xlim, maxx =>
    if ¬ (maxx < orig.max.x ∧ y > miny) then .ret maxx
    else if ¬ (orig.max.x + (y - 1) * pw ≥ xlim) then .assertion
    else
      match scanDown grid (orig.max.x + (y - 1) * pw - xlim) (orig.max.x + (y - 1) * pw) with
      | some ls =>
        findRight grid pw orig miny k (y - 1) (wrap ((ls : Int) - pw)) ((ls + pw - 1) % pw + 1)
      | none => findRight grid pw orig miny k (y - 1) (wrap ((xlim : Int) - pw)) maxx

/-- Whether a cell lies in a rectangle. -/
def nonogram_rect.has (b : nonogram_rect) (x y : Nat) : Bool :=
  decide (b.min.x ≤ x) && decide (x < b.max.x) && decide (b.min.y ≤ y) && decide (y < b.max.y)

/-- The loops under `#ifndef NDEBUG` at the end of `findminrect` (solver.c
928-946): no cell of the grid outside `b` is BLANK. -/
def noBlankOutside (grid : List Nat) (pw ph : Nat) (b : nonogram_rect) : Bool :=
  (List.range ph).all (fun y => (List.range pw).all (fun x =>
    b.has x y || decide (cellAt grid (x + y * pw) ≠ nonogram_BLANK)))

/-- The four search loops of `findminrect`, without its final assertions;
`none` stands for the case that the first loop finds no BLANK, in which
`b->min.x` and `b->max.x` are never set. -/
def findminrectLoops (grid : List Nat) (pw : Nat) (orig : nonogram_rect) :
    Run (Option nonogram_rect) :=
  match findFirst grid pw orig (orig.max.y - orig.min.y) orig.min.y with
  | none => .ret none
  | some (ls, miny) =>
    match findBelowLeft grid pw orig (orig.max.y - (miny + 1)) (miny + 1)
        (ls % pw + (miny + 1) * pw) (ls % pw, miny + 1) with
    | .assertion => .assertion
    | .fuel => .fuel
    | .ret (minx, maxy2) =>
      match findBottomRight grid pw orig (ls % pw + 1) orig.max.y orig.max.y
          (ls % pw + 1 + (orig.max.y - 1) * pw) (ls % pw + 1, maxy2) with
      | .assertion => .assertion
      | .fuel => .fuel
      | .ret (maxx3, maxy) =>
        match findRight grid pw orig miny maxy maxy (maxx3 + (maxy - 1) * pw) maxx3 with
        | .assertion => .assertion
        | .fuel => .fuel
        | .ret maxx =>
          .ret (some { min := { x := minx, y := miny }, max := { x := maxx, y := maxy } })

/-- The `findminrect` of solver.c with its assertions.  When the first loop
finds no BLANK, `b->max.y` is `orig->max.y + 1` and no later loop changes it,
so that `assert(b->max.y <= orig->max.y)` fails. -/
def findminrect (grid : List Nat) (pw ph : Nat) (orig : nonogram_rect) : Run nonogram_rect :=
  if ¬ (orig.max.x > orig.min.x) then .assertion
  else if ¬ (orig.max.y > orig.min.y) then .assertion
  else
    match findminrectLoops grid pw orig with
    | .assertion => .assertion
    | .fuel => .fuel
    | .ret none => .assertion
    | .ret (some b) =>
      if ¬ (b.min.x ≥ orig.min.x) then .assertion
      else if ¬ (b.min.y ≥ orig.min.y) then .assertion
      else if ¬ (b.max.x ≤ orig.max.x) then .assertion
      else if ¬ (b.max.y ≤ orig.max.y) then .assertion
      else if ¬ (noBlankOutside grid pw ph b = true) then .assertion
      else .ret b

/-- The inner loop of `chooseguess` over `y`. -/
def chooseY (grid : List Nat) (pw x : Nat) : Nat → Nat → Option Nat
  | 0, _ => none
  | k + 1, y => if cellAt grid (x + y * pw) = nonogram_BLANK then some y
    else chooseY grid pw x k (y + 1)

/-- The outer loop of `chooseguess` over `x`. -/
def chooseX (grid : List Nat) (pw : Nat) (frm : nonogram_rect) : Nat → Nat → Option nonogram_point
  | 0, _ => none
  | k + 1, x =>
    match chooseY grid pw x (frm.max.y - frm.min.y) frm.min.y with
    | some y => some { x := x, y := y }
    | none => chooseX grid pw frm k (x + 1)

/-- The `chooseguess` of solver.c: the first BLANK of the rectangle, column by
column, and the colour to try on it; `assert(false)` when there is none. -/
def chooseguess (c : nonogram_solver) (frm : nonogram_rect) : Run (nonogram_point × Nat) :=
  match chooseX c.grid c.puzzle.width frm (frm.max.x - frm.min.x) frm.min.x with
  | none => .assertion
  | some pos =>
    .ret (pos,
      if (attrAt c.colattr pos.x).dot + (attrAt c.rowattr pos.y).dot >
          (attrAt c.colattr pos.x).solid + (attrAt c.rowattr pos.y).solid
      then nonogram_DOT else nonogram_SOLID)

/-- The assignments of `makeguess` (solver.c 713-748). -/
def makeguessState (c : nonogram_solver) (pos : nonogram_point) (guess : Nat) :
    nonogram_solver :=
  { c with
    grid := c.grid.set (pos.x + pos.y * c.puzzle.width) guess
    rowattr := c.rowattr.set pos.y (decAttr (attrAt c.rowattr pos.y) guess c.puzzle.height)
    colattr := c.colattr.set pos.x (decAttr (attrAt c.colattr pos.x) guess c.puzzle.width)
    remcells := c.remcells - 1
    reminfo := 2 }

/-- The `makeguess` of solver.c: the solver afterwards and the alternative
colour `guess ^ BOTH`. -/
def makeguess (c : nonogram_solver) (pos : nonogram_point) (guess : Nat) :
    Run (nonogram_solver × Nat) :=
  if ¬ (guess = nonogram_DOT ∨ guess = nonogram_SOLID) then .assertion
  else .ret (makeguessState c pos guess, guess ^^^ nonogram_BOTH)

/-- The attribute update of `flipguess` for one line. -/
def flipAttr (a : nonogram_lineattr) (newval : Nat) : nonogram_lineattr :=
  if newval = nonogram_SOLID then { a with dot := a.dot + 1, solid := a.solid - 1 }
  else { a with dot := a.dot - 1, solid := a.solid + 1 }

/-- The `flipguess` of solver.c. -/
def flipguess (c : nonogram_solver) (pos : nonogram_point) (newval : Nat) : nonogram_solver :=
  { c with
    grid := c.grid.set (pos.x + pos.y * c.puzzle.width) newval
    rowattr := c.rowattr.set pos.y (flipAttr (attrAt c.rowattr pos.y) newval)
    colattr := c.colattr.set pos.x (flipAttr (attrAt c.colattr pos.x) newval)
    rowflag := c.rowflag.set pos.y c.levels
    colflag := c.colflag.set pos.x c.levels }

/-- The stack element that `nonogram_runcycles` fills (solver.c 609-634): the
cells of `area` row by row, the attributes of its rows and columns. -/
def snapshot (c : nonogram_solver) (area : nonogram_rect) (pos : nonogram_point) :
    nonogram_stack :=
  { grid := (List.range area.h).flatMap (fun y => (List.range area.w).map (fun x =>
      cellAt c.grid (area.min.x + (y + area.min.y) * c.puzzle.width + x)))
    unkarea := area
    guesspos := pos
    rowattr := (List.range area.h).map (fun y => attrAt c.rowattr (y + area.min.y))
    colattr := (List.range area.w).map (fun x => attrAt c.colattr (x + area.min.x))
    remcells := c.remcells }

/-- The last branch of `nonogram_runcycles`: a guess is made, the state is
pushed, and the guess is flipped in the working state. -/
def runGuess (c : nonogram_solver) (nomem : Bool) : Run (Int × nonogram_solver) :=
  match findminrect c.grid c.puzzle.width c.puzzle.height c.unkarea with
  | .assertion => .assertion
  | .fuel => .fuel
  | .ret area =>
    match chooseguess { c with unkarea := area } area with
    | .assertion => .assertion
    | .fuel => .fuel
    | .ret (pos, choice) =>
      match makeguess { c with unkarea := area } pos choice with
      | .assertion => .assertion
      | .fuel => .fuel
      | .ret (c2, alt) =>
        if nomem then .ret (nonogram_ERROR, c2)
        else
          .ret (nonogram_LINE,
            flipguess { c2 with stack := snapshot c2 area pos :: c2.stack } pos alt)

/-- The `nonogram_runcycles` of solver.c: one tick of the driver. -/
def nonogram_runcycles (c : nonogram_solver) (env : TickEnv) : Run (Int × nonogram_solver) :=
  if ¬ (c.loaded = true) then .ret (nonogram_UNLOADED, c)
  else if c.status = nonogram_WORKING then .ret (nonogram_UNFINISHED, stepLoop env.steps c)
  else if c.status = nonogram_DONE then .ret (runDone c)
  else if c.remcells < 0 then
    match c.stack with
    | [] => .ret (nonogram_FINISHED, c)
    | st :: rest => .ret (runRestore c st rest)
  else if c.reminfo > 0 then
    .ret (nonogram_UNFINISHED, setupstep (findeasiest c) env.init)
  else if c.remcells = 0 then
    .ret (if c.stack ≠ [] then nonogram_FOUND else nonogram_FINISHED,
      { c with presented := c.presented ++ [c.grid], remcells := -1 })
  else runGuess c env.nomem

/-- The driver run for one tick per element of the list. -/
def runTicks : List TickEnv → nonogram_solver → Run nonogram_solver
  | [], c => .ret c
  | env :: envs, c =>
    match nonogram_runcycles c env with
    | .assertion => .assertion
    | .fuel => .fuel
    | .ret (_, c1) => runTicks envs c1

/-- The `nonogram_initsolver` of solver.c: no puzzle loaded, one level, whose
line solver is the fcomp suite (which has both `init` and `step`). -/
def nonogram_initsolver : nonogram_solver :=
  { loaded := false, puzzle := { col := [], row := [] }, levels := 1, suiteInit := [true],
    suiteStep := [true], work := [], rowattr := [], colattr := [], rowflag := [], colflag := [],
    stack := [], grid := [], remcells := 0, reminfo := 0,
    unkarea := { min := { x := 0, y := 0 }, max := { x := 0, y := 0 } }, fits := 0, lineno := 0,
    level := 0, on_row := false, status := nonogram_EMPTY, presented := [] }

/-- A solver with `levels` levels, each with a line solver that has `init`
and `step` (`nonogram_setlinesolvers` and `nonogram_setlinesolver`). -/
def solverWithLevels (levels : Nat) : nonogram_solver :=
  { nonogram_initsolver with levels := levels, suiteInit := List.replicate levels true,
                             suiteStep := List.replicate levels true }

/-- Flag of the line `(on_row, lineno)`. -/
def lineFlag (c : nonogram_solver) : Nat :=
  if c.on_row then flagAt c.rowflag c.lineno else flagAt c.colflag c.lineno

/-- Attributes of the line `(on_row, lineno)`. -/
def lineAttr (c : nonogram_solver) : nonogram_lineattr :=
  if c.on_row then attrAt c.rowattr c.lineno else attrAt c.colattr c.lineno

/-- The fields that `redeemstep` leaves alone. -/
structure RedeemFrame (c d : nonogram_solver) : Prop where
  loaded : d.loaded = c.loaded
  puzzle : d.puzzle = c.puzzle
  levels : d.levels = c.levels
  suiteInit : d.suiteInit = c.suiteInit
  suiteStep : d.suiteStep = c.suiteStep
  work : d.work = c.work
  stack : d.stack = c.stack
  unkarea : d.unkarea = c.unkarea
  fits : d.fits = c.fits
  lineno : d.lineno = c.lineno
  level : d.level = c.level
  on_row : d.on_row = c.on_row
  status : d.status = c.status
  presented : d.presented = c.presented
  rowflag : c.on_row = true → d.rowflag = c.rowflag
  colflag : c.on_row = false → d.colflag = c.colflag
  rowflagLen : d.rowflag.length = c.rowflag.length
  colflagLen : d.colflag.length = c.colflag.length
  rowattrLen : d.rowattr.length = c.rowattr.length
  colattrLen : d.colattr.length = c.colattr.length
  gridLen : d.grid.length = c.grid.length

/-- The colour that `chooseguess` picks for a position. -/
def guessChoice (c : nonogram_solver) (pos : nonogram_point) : Nat :=
  if (attrAt c.colattr pos.x).dot + (attrAt c.rowattr pos.y).dot >
      (attrAt c.colattr pos.x).solid + (attrAt c.rowattr pos.y).solid
  then nonogram_DOT else nonogram_SOLID

/-- The state after a guess tick that found the rectangle `area` and the
position `pos`. -/
def guessResult (c : nonogram_solver) (area : nonogram_rect) (pos : nonogram_point) :
    nonogram_solver :=
  flipguess
    { makeguessState { c with unkarea := area } pos (guessChoice c pos) with
      stack := snapshot (makeguessState { c with unkarea := area } pos (guessChoice c pos))
        area pos :: c.stack }
    pos (guessChoice c pos ^^^ nonogram_BOTH)

/-- The tick environment of a line solver that finishes in `init` and reports
one fit without any deduction for a line of two cells. -/
def noInfo2 : TickEnv :=
  { init := { again := false, fits := 1, work := [nonogram_BOTH, nonogram_BOTH] },
    steps := [], nomem := false }

/-- The two-by-two puzzle with rule `[1]` on every line. -/
def puzzle22 : Puzzle := { col := [[1], [1]], row := [[1], [1]] }

/-- The state of the default solver on `puzzle22` after every line has been
tried once without any deduction (eight ticks). -/
def stalled22 : nonogram_solver :=
  { (nonogram_load nonogram_initsolver puzzle22 [0, 0, 0, 0] 4).2 with
    work := [nonogram_BOTH, nonogram_BOTH], rowflag := [0, 0], colflag := [0, 0],
    reminfo := 0, fits := 1, lineno := 1, level := 1, on_row := false }

/-- The puzzle of one row `[2]` over two columns `[1]`. -/
def puzzle21 : Puzzle := { col := [[1], [1]], row := [[2]] }

/-- The state in which the row `[2]` of `puzzle21` has just been processed at
level 2 with no deduction. -/
def doneState21 : nonogram_solver :=
  { (nonogram_load (solverWithLevels 2) puzzle21 [0, 0] 2).2 with
    status := nonogram_DONE, fits := 1, on_row := true, lineno := 0, level := 2,
    work := [nonogram_BOTH, nonogram_BOTH] }

/-- Number of BLANK cells in row `y` of a grid of width `pw`. -/
def rowBlanks (grid : List Nat) (pw y : Nat) : Nat :=
  (List.range pw).countP (fun x => decide (cellAt grid (x + y * pw) = nonogram_BLANK))

/-- Number of BLANK cells in column `x` of a grid of width `pw` and height
`ph`. -/
def colBlanks (grid : List Nat) (pw ph x : Nat) : Nat :=
  (List.range ph).countP (fun y => decide (cellAt grid (x + y * pw) = nonogram_BLANK))

/-- The line-attribute invariant: on every row and every column, the
remaining solids and dots add up to the number of BLANK cells. -/
def AttrInv (pw ph : Nat) (grid : List Nat) (rowattr colattr : List nonogram_lineattr) : Prop :=
  (∀ y, y < ph →
    (attrAt rowattr y).solid + (attrAt rowattr y).dot = (rowBlanks grid pw y : Int)) ∧
  (∀ x, x < pw →
    (attrAt colattr x).solid + (attrAt colattr x).dot = (colBlanks grid pw ph x : Int))

/-- The cell `(x, y)` of the grid as saved in a stack element (solver.c
609-617: the rectangle is stored row by row). -/
def nonogram_stack.cell (st : nonogram_stack) (x y : Nat) : Nat :=
  cellAt st.grid ((y - st.unkarea.min.y) * st.unkarea.w + (x - st.unkarea.min.x))

/-- The cells of the working grid, by coordinates. -/
def gridFn (c : nonogram_solver) : Nat → Nat → Nat :=
  fun x y => if x < c.puzzle.width ∧ y < c.puzzle.height
    then cellAt c.grid (x + y * c.puzzle.width) else nonogram_BLANK

/-- The cells after the rectangle of a stack element has been copied back. -/
def restoredCell (st : nonogram_stack) (g : Nat → Nat → Nat) : Nat → Nat → Nat :=
  fun x y => if st.unkarea.has x y = true then st.cell x y else g x y

/-- The saved attributes of a stack element agree with its saved cells. -/
def SnapAttr (st : nonogram_stack) : Prop :=
  (∀ y, y < st.unkarea.h →
    (attrAt st.rowattr y).solid + (attrAt st.rowattr y).dot =
      ((List.range st.unkarea.w).countP
        (fun x => decide (cellAt st.grid (y * st.unkarea.w + x) = nonogram_BLANK)) : Int)) ∧
  (∀ x, x < st.unkarea.w →
    (attrAt st.colattr x).solid + (attrAt st.colattr x).dot =
      ((List.range st.unkarea.h).countP
        (fun y => decide (cellAt st.grid (y * st.unkarea.w + x) = nonogram_BLANK)) : Int))

/-- The invariant of the guess stack below a state with unknown area `u` and
cells `g`: every saved rectangle contains the one above it and lies in the
grid, its guess position lies in it and holds, in the saved cells, the colour
opposite to the one in the grid above, and its saved attributes count the
BLANK cells of the saved rectangle. -/
def StackInv (pw ph : Nat) : nonogram_rect → (Nat → Nat → Nat) → List nonogram_stack → Prop
  | _, _, [] => True
  | u, g, st :: rest =>
    st.unkarea.min.x ≤ u.min.x ∧ u.max.x ≤ st.unkarea.max.x ∧
    st.unkarea.min.y ≤ u.min.y ∧ u.max.y ≤ st.unkarea.max.y ∧
    st.unkarea.min.x ≤ st.unkarea.max.x ∧ st.unkarea.min.y ≤ st.unkarea.max.y ∧
    st.unkarea.max.x ≤ pw ∧ st.unkarea.max.y ≤ ph ∧
    st.unkarea.has st.guesspos.x st.guesspos.y = true ∧
    (g st.guesspos.x st.guesspos.y = nonogram_DOT ∨
      g st.guesspos.x st.guesspos.y = nonogram_SOLID) ∧
    st.cell st.guesspos.x st.guesspos.y = g st.guesspos.x st.guesspos.y ^^^ nonogram_BOTH ∧
    SnapAttr st ∧
    StackInv pw ph st.unkarea (restoredCell st g) rest

/-- The invariant of the driver between two ticks. -/
structure DriverInv (c : nonogram_solver) : Prop where
  loaded : c.loaded = true
  hpos : 0 < c.puzzle.height
  grid_len : c.grid.length = c.puzzle.width * c.puzzle.height
  rowattr_len : c.rowattr.length = c.puzzle.height
  colattr_len : c.colattr.length = c.puzzle.width
  rowflag_len : c.rowflag.length = c.puzzle.height
  colflag_len : c.colflag.length = c.puzzle.width
  attr : AttrInv c.puzzle.width c.puzzle.height c.grid c.rowattr c.colattr
  area_x : c.unkarea.max.x ≤ c.puzzle.width
  area_y : c.unkarea.max.y ≤ c.puzzle.height
  blanks : ∀ x y, x < c.puzzle.width → y < c.puzzle.height →
    cellAt c.grid (x + y * c.puzzle.width) = nonogram_BLANK → c.unkarea.has x y = true
  line : c.status ≠ nonogram_EMPTY →
    if c.on_row then c.lineno < c.puzzle.height else c.lineno < c.puzzle.width
  stack : StackInv c.puzzle.width c.puzzle.height c.unkarea (gridFn c) c.stack

/-- The tick environment of a line solver that finishes in `init` and reports
that the line cannot be satisfied. -/
def contraEnv : TickEnv :=
  { init := { again := false, fits := 0, work := [nonogram_BOTH, nonogram_BOTH] },
    steps := [], nomem := false }

/-- The stack element pushed by the guess on `puzzle22`. -/
def snap22 : nonogram_stack :=
  { grid := [nonogram_SOLID, nonogram_BLANK, nonogram_BLANK, nonogram_BLANK],
    unkarea := { min := { x := 0, y := 0 }, max := { x := 2, y := 2 } },
    guesspos := { x := 0, y := 0 },
    rowattr := [{ score := 2, dot := 1, solid := 0 }, { score := 0, dot := 1, solid := 1 }],
    colattr := [{ score := 2, dot := 1, solid := 0 }, { score := 0, dot := 1, solid := 1 }],
    remcells := 3 }

/-- The state of the default solver on `puzzle22` after the guess has been
made and a line solver has reported a contradiction. -/
def contra22 : nonogram_solver :=
  { (nonogram_load nonogram_initsolver puzzle22 [0, 0, 0, 0] 4).2 with
    work := [nonogram_BOTH, nonogram_BOTH],
    rowattr := [{ score := 2, dot := 0, solid := 1 }, { score := 0, dot := 1, solid := 1 }],
    colattr := [{ score := 2, dot := 0, solid := 1 }, { score := 0, dot := 1, solid := 1 }],
    rowflag := [1, 0], colflag := [1, 0], stack := [snap22],
    grid := [nonogram_DOT, nonogram_BLANK, nonogram_BLANK, nonogram_BLANK],
    remcells := -1, reminfo := 2, fits := 0, lineno := 0, level := 1, on_row := true }

/-- A solver in which two rows and a column tie on flag and score, and the
second column is better. -/
def easiestDemo : nonogram_solver :=
  { nonogram_initsolver with
    loaded := true, puzzle := { col := [[1], [2]], row := [[1], [1], [1]] },
    rowflag := [1, 1, 0], colflag := [1, 1],
    rowattr := [{ score := 5, dot := 1, solid := 1 }, { score := 5, dot := 1, solid := 1 },
      { score := 9, dot := 1, solid := 1 }],
    colattr := [{ score := 5, dot := 2, solid := 1 }, { score := 6, dot := 1, solid := 2 }] }

/-- The invariant of a run on a grid `g` without BLANK cells: the grid is
`g`, no cell remains, and no guess is on the stack. -/
structure SolvedInv (g : List Nat) (c : nonogram_solver) : Prop where
  loaded : c.loaded = true
  grid : c.grid = g
  remcells : c.remcells ≤ 0
  stack : c.stack = []

/-- The `nonogram_checkgrid` of grid.c: -1 if some column or some row fails
`nonogram_checkline`, otherwise 0. -/
def nonogram_checkgrid (p : Puzzle) (g : List Nat) : Int :=
  if (List.range p.width).any (fun x =>
      decide (nonogram_checkline (p.col.getD x [])
        ((List.range p.height).map (fun y => cellAt g (x + y * p.width))) < 0)) then -1
  else if (List.range p.height).any (fun y =>
      decide (nonogram_checkline (p.row.getD y [])
        ((List.range p.width).map (fun x => cellAt g (x + y * p.width))) < 0)) then -1
  else 0

/-- The puzzle of one cell, which is solid. -/
def puzzle11 : Puzzle := { col := [[1]], row := [[1]] }

/-- A grid of three rows and three columns whose BLANK cells need every loop
of `findminrect`. -/
def minrectDemo : List Nat :=
  [nonogram_DOT, nonogram_BLANK, nonogram_DOT,
   nonogram_BLANK, nonogram_DOT, nonogram_BLANK,
   nonogram_DOT, nonogram_DOT, nonogram_DOT]

/-- The call of `init` of the fast suite (fast.c 200-210) on the line that
the driver has selected: `fits` is the return value of `solve`, the result
buffer `c->work` is written only when `solve` returns 1, and `init` returns
false.  `none` stands for a push that did not finish within its fuel. -/
def fastInit (c : nonogram_solver) : Option LineCall :=
  match fast_solve (currentLine c) (currentRule c) with
  | none => none
  | some none => some { again := false, fits := 0, work := c.work }
  | some (some res) =>
    some { again := false, fits := 1, work := res ++ c.work.drop res.length }

/-- One tick of the driver whose line solver is the fast suite. -/
def fastTick (c : nonogram_solver) : Run (Int × nonogram_solver) :=
  match fastInit (findeasiest c) with
  | none => .fuel
  | some r => nonogram_runcycles c { init := r, steps := [], nomem := false }

/-- The driver with the fast suite run for `n` ticks: the return codes and the
solver afterwards. -/
def fastTicks : Nat → nonogram_solver → Run (List Int × nonogram_solver)
  | 0, c => .ret ([], c)
  | n + 1, c =>
    match fastTick c with
    | .assertion => .assertion
    | .fuel => .fuel
    | .ret (rc, c1) =>
      match fastTicks n c1 with
      | .assertion => .assertion
      | .fuel => .fuel
      | .ret (rcs, d) => .ret (rc :: rcs, d)

/-- The solver after `nonogram_setalgo(c, nonogram_AFAST)`: one level, whose
suite has `init` but no `step`. -/
def solverFast : nonogram_solver := { nonogram_initsolver with suiteStep := [false] }

/-- A puzzle of width 1 and height 2 without solution: the column wants two
solids, the first row none. -/
def puzzleBad : Puzzle := { col := [[2]], row := [[], [1]] }

/-- Reduction of a sum of `size_t` or `nonogram_sizetype` values (both are 64
bits wide) modulo `2^64`. -/
def w64 (n : Nat) : Nat := n % 2 ^ 64

/-- Assignment `f[i] = v` to an array of the workspace. -/
def upd (f : Nat → Nat) (i v : Nat) : Nat → Nat := fun j => if j = i then v else f j

/-- Running state of the fcomp suite between two calls: the workspace, the
counter `*a->fits` and the result buffer `a->result`.  The counter is kept
exact although the C variable is an `int`. -/
structure FcompRun where
  ws : FcompState
  fits : Int
  result : List Nat

/-- The loop of `record_section` (fcomp.c 210-223) from cell `i`, with `n`
rounds to go, on the result buffer and `*remunk`; the flag tells whether the
function returns true from inside the loop. -/
def recordLoop (line : List Nat) (v : Nat) : Nat → Nat → List Nat × Nat →
    Run (Bool × List Nat × Nat)
  | 0, _, s => .ret (false, s)
  | n + 1, i, (res, remunk) =>
    if ¬ (i < line.length) then .assertion
    else if cellAt line i ≠ nonogram_BLANK then recordLoop line v n (i + 1) (res, remunk)
    else if cellAt res i &&& v ≠ 0 then recordLoop line v n (i + 1) (res, remunk)
    else if ¬ (cellAt res i ||| v < 4) then .assertion
    else if cellAt res i ||| v = nonogram_BOTH then
      if wrap ((remunk : Int) - 1) = 0 then
        .ret (true, res.set i (cellAt res i ||| v), wrap ((remunk : Int) - 1))
      else recordLoop line v n (i + 1) (res.set i (cellAt res i ||| v), wrap ((remunk : Int) - 1))
    else recordLoop line v n (i + 1) (res.set i (cellAt res i ||| v), remunk)

/-- The `record_section` of fcomp.c: `fits` is incremented, and the cells
`frm, ..., upto - 1` that are BLANK in the line get `v` or-ed into the
result. -/
def record_section (line : List Nat) (r : FcompRun) (frm upto v : Nat) : Run (Bool × FcompRun) :=
  match recordLoop line v (upto - frm) frm (r.result, r.ws.remunk) with
  | .assertion => .assertion
  | .fuel => .fuel
  | .ret (b, res, rem) =>
    .ret (b, { ws := { r.ws with remunk := rem }, fits := r.fits + 1, result := res })

/-- The `merge1` of fcomp.c for block `b`. -/
def merge1 (line rule : List Nat) (r : FcompRun) (b : Nat) : Run (Bool × FcompRun) :=
  match record_section line r (r.ws.oldpos b) (r.ws.pos b) nonogram_DOT with
  | .assertion => .assertion
  | .fuel => .fuel
  | .ret (true, r1) => .ret (true, r1)
  | .ret (false, r1) =>
    match record_section line r1 (w64 (r1.ws.oldpos b + ruleAt rule b))
        (w64 (r1.ws.pos b + ruleAt rule b)) nonogram_SOLID with
    | .assertion => .assertion
    | .fuel => .fuel
    | .ret (true, r2) => .ret (true, r2)
    | .ret (false, r2) =>
      .ret (false, { r2 with ws := { r2.ws with
        oldpos := upd r2.ws.oldpos b (r2.ws.pos b),
        oldsolid := upd r2.ws.oldsolid b (r2.ws.solid b) } })

/-- The loop of `record_sections` (fcomp.c 283-297) from block `b`, with `n`
blocks to go; `left` is where the dots before the block start.  The flag
tells whether a `record_section` returned true. -/
def recordBlocks (line rule : List Nat) : Nat → Nat → Nat → FcompRun →
    Run (Bool × Nat × FcompRun)
  | 0, _, left, r => .ret (false, left, r)
  | n + 1, b, left, r =>
    match record_section line r left (r.ws.pos b) nonogram_DOT with
    | .assertion => .assertion
    | .fuel => .fuel
    | .ret (true, r1) => .ret (true, left, r1)
    | .ret (false, r1) =>
      match record_section line r1 (r1.ws.pos b) (w64 (r1.ws.pos b + ruleAt rule b))
          nonogram_SOLID with
      | .assertion => .assertion
      | .fuel => .fuel
      | .ret (true, r2) => .ret (true, w64 (r1.ws.pos b + ruleAt rule b), r2)
      | .ret (false, r2) =>
        recordBlocks line rule n (b + 1) (w64 (r1.ws.pos b + ruleAt rule b))
          { r2 with ws := { r2.ws with
            oldpos := upd r2.ws.oldpos b (r2.ws.pos b),
            oldsolid := upd r2.ws.oldsolid b (r2.ws.solid b) } }

/-- The `record_sections` of fcomp.c for the blocks `base, ..., max - 1`. -/
def record_sections (line rule : List Nat) (r : FcompRun) (base max : Nat) :
    Run (Bool × FcompRun) :=
  match recordBlocks line rule (max - base) base
      (if base > 0 then w64 (r.ws.pos (base - 1) + ruleAt rule (base - 1)) else 0) r with
  | .assertion => .assertion
  | .fuel => .fuel
  | .ret (true, _, r1) => .ret (true, r1)
  | .ret (false, left, r1) =>
    record_section line r1 left (if max = rule.length then line.length else r1.ws.pos max)
      nonogram_DOT

/-- The loop of `can_jump` (fcomp.c 404-415) from cell `i`, with `n` rounds to
go: the state is `got` and `*at`. -/
def canJumpLoop (line : List Nat) (req lim : Nat) : Nat → Nat → Nat × Nat → Run (Nat × Nat)
  | 0, _, s => .ret s
  | n + 1, i, (got, jat) =>
    if ¬ (i < lim ∧ got < req) then .ret (got, jat)
    else if cellAt line i = nonogram_DOT then canJumpLoop line req lim n (i + 1) (0, w64 (i + 1))
    else if ¬ (cellAt line i = nonogram_BLANK) then .assertion
    else canJumpLoop line req lim n (i + 1) (w64 (got + 1), jat)

/-- The `can_jump` of fcomp.c: the return value and `*at`. -/
def can_jump (line : List Nat) (req lim jat : Nat) : Run (Bool × Nat) :=
  match canJumpLoop line req lim (lim - jat) jat (0, jat) with
  | .assertion => .assertion
  | .fuel => .fuel
  | .ret (got, at1) => .ret (decide (got ≥ req), at1)

/-- The first cell from `i` on, among `n`, that is SOLID (the loop of
fcomp.c 536-537). -/
def findSolid (line : List Nat) : Nat → Nat → Option Nat
  | 0, _ => none
  | n + 1, i => if cellAt line i = nonogram_SOLID then some i else findSolid line n (i + 1)

/-- The loop of fcomp.c 586-590, which looks under block `B` for a dot and
for the first solid: the state is `i` and `SOLID(B)`. -/
def underScan (line : List Nat) (posB ruleB stop : Nat) : Nat → Nat × Nat → Nat × Nat
  | 0, s => s
  | n + 1, (i, s) =>
    if i < stop ∧ cellAt line i ≠ nonogram_DOT then
      underScan line posB ruleB stop n
        (i + 1, if s ≥ ruleB ∧ cellAt line i = nonogram_SOLID then wrap ((i : Int) - posB) else s)
    else (i, s)

/-- The loop of fcomp.c 618-633, which moves block `B` right while a solid
touches its right end: the state is `POS(B)` and `SOLID(B)`; the flag tells
whether the loop left through `SOLID(B) == 0`.  The block moves right in every
round and stays left of `maxpos`, so `maxpos + 1` rounds are enough. -/
def touchShift (line : List Nat) (ruleB maxpos : Nat) : Nat → Nat × Nat →
    Run (Bool × Nat × Nat)
  | 0, _ => .fuel
  | n + 1, (p, s) =>
    if w64 (p + ruleB) < maxpos ∧ cellAt line (w64 (p + ruleB)) = nonogram_SOLID then
      if s = 0 then .ret (true, p, s)
      else touchShift line ruleB maxpos n (w64 (p + 1), wrap ((s : Int) - 1))
    else .ret (false, p, s)

/-- The `step_invalid` of fcomp.c. -/
def step_invalid (line rule : List Nat) (r : FcompRun) : Run (Bool × FcompRun) :=
  if r.ws.block ≥ r.ws.max then
    if r.ws.block ≤ r.ws.base then .ret (false, r)
    else
      let b := r.ws.block - 1
      match findSolid line (r.ws.maxpos - w64 (r.ws.pos b + ruleAt rule b))
          (w64 (r.ws.pos b + ruleAt rule b)) with
      | some i =>
        if w64 (r.ws.pos b + r.ws.solid b + ruleAt rule b) > i then
          .ret (true, { r with ws := { r.ws with
            block := b, pos := upd r.ws.pos b (wrap ((i : Int) + 1 - ruleAt rule b)),
            mode := INVALID } })
        else if ¬ (r.ws.solid b < ruleAt rule b) then .assertion
        else .ret (true, { r with ws := { r.ws with block := b, target := b, mode := DRAWING } })
      | none =>
        match record_sections line rule { r with ws := { r.ws with block := b } }
            r.ws.mininv r.ws.max with
        | .assertion => .assertion
        | .fuel => .fuel
        | .ret (true, r1) => .ret (false, r1)
        | .ret (false, r1) =>
          .ret (true, { r1 with ws := { r1.ws with mininv := r1.ws.max, mode := SLIDING } })
  else if w64 (r.ws.pos r.ws.block + ruleAt rule r.ws.block) > r.ws.maxpos then
    .ret (true, { r with ws := { r.ws with mode := RESTORING } })
  else
    let b := r.ws.block
    let stop := w64 (r.ws.pos b + ruleAt rule b)
    let sc := underScan line (r.ws.pos b) (ruleAt rule b) stop (stop - r.ws.pos b)
      (r.ws.pos b, w64 (line.length + 1))
    if sc.1 < stop then
      if sc.2 < ruleAt rule b then
        .ret (true, { r with ws := { r.ws with
          solid := upd r.ws.solid b sc.2, target := b, mode := DRAWING } })
      else
        .ret (true, { r with ws := { r.ws with
          solid := upd r.ws.solid b sc.2, pos := upd r.ws.pos b (w64 (sc.1 + 1)),
          mode := INVALID } })
    else
      let s1 := if sc.2 ≥ ruleAt rule b ∧ stop < line.length ∧ cellAt line stop = nonogram_SOLID
        then ruleAt rule b else sc.2
      match touchShift line (ruleAt rule b) r.ws.maxpos (r.ws.maxpos + 1) (r.ws.pos b, s1) with
      | .assertion => .assertion
      | .fuel => .fuel
      | .ret (true, p, s) =>
        .ret (true, { r with ws := { r.ws with
          pos := upd r.ws.pos b p, solid := upd r.ws.solid b s,
          target := b, mode := DRAWING } })
      | .ret (false, p, s) =>
        .ret (true, { r with ws := { r.ws with
          pos := if b + 1 < r.ws.max ∧ upd r.ws.pos b p (b + 1) < w64 (p + ruleAt rule b + 1)
            then upd (upd r.ws.pos b p) (b + 1) (w64 (p + ruleAt rule b + 1))
            else upd r.ws.pos b p,
          solid := upd r.ws.solid b s,
          block := w64 (b + 1), mode := INVALID } })

/-- How the `do ... while` of `step_drawing` ends: by `return false`, by the
switch to RESTORING, or by leaving the loop with a block to bring up. -/
inductive DrawOut where
  | stop (block target : Nat)
  | restore (target : Nat)
  | found (block target : Nat)
deriving DecidableEq

/-- The `do ... while` of `step_drawing` (fcomp.c 677-697) on `B` and
`target`.  `B` goes down in every round and the loop returns when it reaches
`BASE`, so `B + 1` rounds are enough. -/
def drawLoop (rule : List Nat) (c : FcompState) : Nat → Nat × Nat → Run DrawOut
  | 0, _ => .fuel
  | n + 1, (b, t) =>
    if b ≤ c.base then .ret (.stop b t)
    else if c.mininv < c.max ∧ ¬ (b ≥ c.mininv) then .assertion
    else if c.mininv < c.max ∧ b = c.mininv then
      if ¬ (c.max > 0) then .assertion else .ret (.restore t)
    else
      let t1 := if c.solid b < ruleAt rule b then b else t
      if c.solid (b - 1) < ruleAt rule (b - 1) ∧
          wrap ((c.pos t1 : Int) + c.solid t1 - ruleAt rule (b - 1) + 1) >
            w64 (c.pos (b - 1) + c.solid (b - 1)) then
        drawLoop rule c n (b - 1, t1)
      else .ret (.found (b - 1) t1)

/-- The `step_drawing` of fcomp.c. -/
def step_drawing (line rule : List Nat) (r : FcompRun) : Run (Bool × FcompRun) :=
  if ¬ (r.ws.solid r.ws.target < ruleAt rule r.ws.target) then .assertion
  else
    match drawLoop rule r.ws (r.ws.block + 1) (r.ws.block, r.ws.target) with
    | .assertion => .assertion
    | .fuel => .fuel
    | .ret (.stop b t) => .ret (false, { r with ws := { r.ws with block := b, target := t } })
    | .ret (.restore t) =>
      .ret (true, { r with ws := { r.ws with
        block := r.ws.max - 1, target := t, mode := RESTORING } })
    | .ret (.found b t) =>
      if ¬ (w64 (wrap ((r.ws.pos t : Int) + r.ws.solid t - ruleAt rule b + 1) + ruleAt rule b) ≤
          line.length) then .assertion
      else
        .ret (true, { r with ws := { r.ws with
          block := b, target := t,
          mininv := if b < r.ws.mininv then b else r.ws.mininv,
          pos := upd r.ws.pos b (wrap ((r.ws.pos t : Int) + r.ws.solid t - ruleAt rule b + 1)),
          mode := INVALID } })

/-- The loop of `step_sliding` (fcomp.c 736-756) that slides block `B` right:
the state is `POS(B)` and `SOLID(B)`.  The block moves right in every round
and stays left of `lim`, so `lim + 1` rounds are enough. -/
def slideLoop (line : List Nat) (ruleB lim : Nat) : Nat → Nat × Nat → Run (Nat × Nat)
  | 0, _ => .fuel
  | n + 1, (p, s) =>
    if w64 (p + ruleB) < lim ∧ cellAt line (w64 (p + ruleB)) ≠ nonogram_DOT ∧ s ≠ 0 then
      if ¬ (cellAt line (w64 (p + ruleB)) ≠ nonogram_SOLID) then .assertion
      else slideLoop line ruleB lim n (w64 (p + 1), wrap ((s : Int) - 1))
    else .ret (p, s)

/-- The loop `while (B > BASE && SOLID(B) >= RULE(B)) B--` of `step_sliding`
and `step_restoring`. -/
def skipLoop (rule : List Nat) (c : FcompState) : Nat → Nat → Nat
  | 0, b => b
  | n + 1, b => if b > c.base ∧ c.solid b ≥ ruleAt rule b then skipLoop rule c n (b - 1) else b

/-- The end of `step_sliding` (fcomp.c 823-853), after the block could not be
slid further. -/
def slideTail (rule : List Nat) (r : FcompRun) : Run (Bool × FcompRun) :=
  if r.ws.block > r.ws.base then
    .ret (true, { r with ws := { r.ws with block := r.ws.block - 1 } })
  else if r.ws.max ≤ r.ws.base then .ret (false, r)
  else if ¬ (r.ws.max > 0) then .assertion
  else
    let b := skipLoop rule r.ws (r.ws.max - 1) (r.ws.max - 1)
    if r.ws.solid b ≥ ruleAt rule b then .ret (false, { r with ws := { r.ws with block := b } })
    else .ret (true, { r with ws := { r.ws with block := b, target := b, mode := DRAWING } })

/-- The statements "this block is at its right-most position" of
`step_sliding` (fcomp.c 771-778 and 811-818), followed by the end of the
function. -/
def slideFix (rule : List Nat) (r : FcompRun) : Run (Bool × FcompRun) :=
  if r.ws.max = r.ws.base then .ret (false, r)
  else
    slideTail rule { r with ws := { r.ws with
      max := r.ws.max - 1, maxpos := wrap ((r.ws.pos r.ws.block : Int) - 1) } }

/-- The part of `step_sliding` after the block has been slid and merged
(fcomp.c 768-853). -/
def slideRest (line rule : List Nat) (lim : Nat) (r : FcompRun) : Run (Bool × FcompRun) :=
  let b := r.ws.block
  if w64 (r.ws.pos b + ruleAt rule b) = lim ∧ b + 1 = r.ws.max then slideFix rule r
  else if w64 (r.ws.pos b + ruleAt rule b) < lim ∧
      cellAt line (w64 (r.ws.pos b + ruleAt rule b)) = nonogram_DOT then
    if w64 (r.ws.pos b + w64 (ruleAt rule b * 2)) < lim then
      match can_jump line (ruleAt rule b) lim (w64 (r.ws.pos b + ruleAt rule b + 1)) with
      | .assertion => .assertion
      | .fuel => .fuel
      | .ret (true, jat) =>
        if ¬ (r.ws.oldpos b = r.ws.pos b) then .assertion
        else if r.ws.solid b ≥ ruleAt rule b then
          match record_section line { r with ws := { r.ws with pos := upd r.ws.pos b jat } }
              (r.ws.oldpos b) (w64 (r.ws.oldpos b + ruleAt rule b)) nonogram_DOT with
          | .assertion => .assertion
          | .fuel => .fuel
          | .ret (true, r1) => .ret (false, r1)
          | .ret (false, r1) =>
            match record_section line r1 jat (w64 (jat + ruleAt rule b)) nonogram_SOLID with
            | .assertion => .assertion
            | .fuel => .fuel
            | .ret (true, r2) => .ret (false, r2)
            | .ret (false, r2) =>
              .ret (true, { r2 with ws := { r2.ws with
                oldpos := upd r2.ws.oldpos b jat,
                solid := upd r2.ws.solid b (w64 (line.length + 1)),
                oldsolid := upd r2.ws.oldsolid b (w64 (line.length + 1)),
                mode := SLIDING } })
        else slideTail rule r
      | .ret (false, _) =>
        if b + 1 = r.ws.max then slideFix rule r else slideTail rule r
    else
      if b + 1 = r.ws.max then slideFix rule r else slideTail rule r
  else slideTail rule r

/-- The `step_sliding` of fcomp.c. -/
def step_sliding (line rule : List Nat) (r : FcompRun) : Run (Bool × FcompRun) :=
  let b := r.ws.block
  let lim := if b + 1 < rule.length then wrap ((r.ws.pos (b + 1) : Int) - 1) else line.length
  if ¬ (r.ws.pos b = r.ws.oldpos b) then .assertion
  else if ¬ (r.ws.solid b = r.ws.oldsolid b) then .assertion
  else
    match slideLoop line (ruleAt rule b) lim (lim + 1) (r.ws.pos b, r.ws.solid b) with
    | .assertion => .assertion
    | .fuel => .fuel
    | .ret (p, s) =>
      if ¬ (p ≥ r.ws.oldpos b) then .assertion
      else if p ≠ r.ws.oldpos b then
        match merge1 line rule
            { r with ws := { r.ws with pos := upd r.ws.pos b p, solid := upd r.ws.solid b s } }
            b with
        | .assertion => .assertion
        | .fuel => .fuel
        | .ret (true, r1) => .ret (false, r1)
        | .ret (false, r1) => slideRest line rule lim r1
      else
        slideRest line rule lim
          { r with ws := { r.ws with pos := upd r.ws.pos b p, solid := upd r.ws.solid b s } }

/-- The loop of `step_restoring` (fcomp.c 868-877) over the blocks
`i, i - 1, ...`, with `n` blocks to go: the state is `pos`, `solid` and
`target`. -/
def restoreLoop (rule : List Nat) (c : FcompState) :
    Nat → Nat → (Nat → Nat) × (Nat → Nat) × Nat → (Nat → Nat) × (Nat → Nat) × Nat
  | 0, _, s => s
  | n + 1, i, (pos, solid, target) =>
    restoreLoop rule c n (i - 1)
      (upd pos i (c.oldpos i), upd solid i (c.oldsolid i),
        if c.oldsolid i < ruleAt rule i then i else target)

/-- The `step_restoring` of fcomp.c. -/
def step_restoring (rule : List Nat) (r : FcompRun) : Run (Bool × FcompRun) :=
  if ¬ (r.ws.block < rule.length) then .assertion
  else if ¬ (r.ws.block < r.ws.max) then .assertion
  else
    let s := restoreLoop rule r.ws (r.ws.block + 1 - r.ws.mininv) r.ws.block
      (r.ws.pos, r.ws.solid, rule.length)
    let b := if r.ws.mininv > r.ws.max then r.ws.max else r.ws.mininv
    let c1 : FcompState := { r.ws with pos := s.1, solid := s.2.1, target := s.2.2,
                                       block := b, mininv := rule.length }
    if s.2.2 ≥ rule.length then
      let b1 := skipLoop rule c1 b b
      if c1.solid b1 ≥ ruleAt rule b1 then .ret (false, { r with ws := { c1 with block := b1 } })
      else
        .ret (true, { r with ws := { c1 with block := b1, target := b1, mode := DRAWING } })
    else .ret (true, { r with ws := { c1 with mode := DRAWING } })

/-- The `step` of fcomp.c: the return value and the state afterwards. -/
def fcomp_step (line rule : List Nat) (r : FcompRun) : Run (Bool × FcompRun) :=
  if r.ws.mode = DRAWING then step_drawing line rule r
  else if r.ws.mode = SLIDING then step_sliding line rule r
  else if r.ws.mode = INVALID then step_invalid line rule r
  else if r.ws.mode = RESTORING then step_restoring rule r
  else .assertion

/-- Calls of `step` until it returns false, at most `n` of them. -/
def fcompSteps (line rule : List Nat) : Nat → FcompRun → Run FcompRun
  | 0, _ => .fuel
  | n + 1, r =>
    match fcomp_step line rule r with
    | .assertion => .assertion
    | .fuel => .fuel
    | .ret (false, r1) => .ret r1
    | .ret (true, r1) => fcompSteps line rule n r1

/-- The fcomp suite run to its end on a line: `init`, then `step` until it
returns false (at most `n` calls); the outcome is `*fits` and the result
buffer. -/
def fcomp_run (n : Nat) (line rule res0 : List Nat) : Run (Int × List Nat) :=
  let i := fcomp_init fcompZero line rule res0
  if i.1 = false then .ret (i.2.1, i.2.2.1)
  else
    match fcompSteps line rule n { ws := i.2.2.2, fits := i.2.1, result := i.2.2.1 } with
    | .assertion => .assertion
    | .fuel => .fuel
    | .ret r => .ret (r.fits, r.result)

/-- The calls of `step` of the fcomp suite that one tick makes while its
`test` allows `cycles` rounds: what each call leaves in the driver (return
value, `*fits`, result buffer), and the state of the suite afterwards. -/
def fcompStepCalls (line rule : List Nat) : Nat → FcompRun → Run (List LineCall × FcompRun)
  | 0, r => .ret ([], r)
  | n + 1, r =>
    match fcomp_step line rule r with
    | .assertion => .assertion
    | .fuel => .fuel
    | .ret (false, r1) => .ret ([{ again := false, fits := r1.fits, work := r1.result }], r1)
    | .ret (true, r1) =>
      match fcompStepCalls line rule n r1 with
      | .assertion => .assertion
      | .fuel => .fuel
      | .ret (cs, r2) => .ret ({ again := true, fits := r1.fits, work := r1.result } :: cs, r2)

/-- Whether a tick reaches `setupstep` and calls `init` of the line solver of
the selected level. -/
def callsInit (c : nonogram_solver) : Bool :=
  c.loaded && decide (c.status ≠ nonogram_WORKING) && decide (c.status ≠ nonogram_DONE) &&
    decide (¬ c.remcells < 0) && decide (c.reminfo > 0) &&
    decide (¬ ((findeasiest c).level > c.levels ∨ (findeasiest c).level < 1 ∨
      ¬ (c.suiteInit.getD ((findeasiest c).level - 1) false = true)))

/-- One tick of the driver whose line solvers are the fcomp suite, with a
`test` that allows `cycles` calls of `step`: the state is the solver and the
workspace of the suite. -/
def fcompTick (cycles : Nat) (s : nonogram_solver × FcompState) :
    Run (Int × nonogram_solver × FcompState) :=
  if s.1.loaded = true ∧ s.1.status = nonogram_WORKING then
    match fcompStepCalls (currentLine s.1) (currentRule s.1) cycles
        { ws := s.2, fits := s.1.fits, result := s.1.work } with
    | .assertion => .assertion
    | .fuel => .fuel
    | .ret (calls, r) =>
      match nonogram_runcycles s.1
          { init := { again := false, fits := 0, work := [] }, steps := calls,
            nomem := false } with
      | .assertion => .assertion
      | .fuel => .fuel
      | .ret (rc, d) => .ret (rc, d, r.ws)
  else
    let i := fcomp_init s.2 (currentLine (findeasiest s.1)) (currentRule (findeasiest s.1))
      s.1.work
    match nonogram_runcycles s.1
        { init := { again := i.1, fits := i.2.1, work := i.2.2.1 }, steps := [],
          nomem := false } with
    | .assertion => .assertion
    | .fuel => .fuel
    | .ret (rc, d) => .ret (rc, d, if callsInit s.1 then i.2.2.2 else s.2)

/-- The driver with the fcomp suite run until a tick returns
`nonogram_FINISHED`, for at most `n` ticks: the return codes and the solver
afterwards. -/
def fcompTicks (cycles : Nat) : Nat → nonogram_solver × FcompState →
    Run (List Int × nonogram_solver)
  | 0, _ => .fuel
  | n + 1, s =>
    match fcompTick cycles s with
    | .assertion => .assertion
    | .fuel => .fuel
    | .ret (rc, d, ws) =>
      if rc = nonogram_FINISHED then .ret ([rc], d)
      else
        match fcompTicks cycles n (d, ws) with
        | .assertion => .assertion
        | .fuel => .fuel
        | .ret (rcs, e) => .ret (rc :: rcs, e)

/-- What a run of ticks shows to the client: the return codes of the ticks
and the grids passed to `present`. -/
def runSummary (r : Run (List Int × nonogram_solver)) : Option (List Int × List (List Nat)) :=
  match r with
  | .ret (codes, d) => some (codes, d.presented)
  | _ => none

/-- The entry `SOLID(b)` of fcomp.c read the way line.c stores it: the offset
of the left-most solid under the block, or -1 when the entry is not below the
length of the block. -/
def solI (rule : List Nat) (solid : Nat → Nat) (b : Nat) : Int :=
  if solid b < ruleAt rule b then (solid b : Int) else -1

/-- An entry of `c->linesolver` (`struct nonogram_lsnt`).  Pointers are
numbers, 0 being the null pointer; the name is the string pointed at. -/
structure nonogram_lsnt where
  context : Nat
  name : String
  suite : Nat
deriving DecidableEq

/-- The fields of `struct nonogram_solver` that conf.c reads and writes.
`puzzle` is the pointer `c->puzzle`, which is null exactly when no puzzle is
loaded. -/
structure SolverConf where
  puzzle : Nat
  levels : Nat
  linesolver : List nonogram_lsnt
  client_data : Nat
  client : Nat
  display_data : Nat
  display : Nat
  log_file : Nat
  log_indent : Int
  log_level : Int
deriving DecidableEq

/-- Read of the array `c->linesolver`. -/
def lsntAt (l : List nonogram_lsnt) (i : Nat) : nonogram_lsnt :=
  l.getD i { context := 0, name := "", suite := 0 }

/-- The `nonogram_setlinesolver` of conf.c: return code and solver
afterwards. -/
def nonogram_setlinesolver (c : SolverConf) (lvl : Nat) (n : String) (s conf : Nat) :
    Int × SolverConf :=
  if c.puzzle ≠ 0 then (-1, c)
  else if lvl < 1 ∨ lvl > c.levels then (-1, c)
  else
    (0, { c with
      linesolver := c.linesolver.set (lvl - 1) { context := conf, name := n, suite := s } })

/-- The `nonogram_setlinesolvers` of conf.c.  `mem` is the outcome of
`realloc`: `none` when it fails, otherwise the content of the memory beyond
the entries that `realloc` copies.  The entries from the old `levels` on get
a null suite. -/
def nonogram_setlinesolvers (c : SolverConf) (levels : Nat)
    (mem : Option (Nat → nonogram_lsnt)) : Int × SolverConf :=
  if c.puzzle ≠ 0 then (-1, c)
  else
    match mem with
    | none => (-1, c)
    | some fresh =>
      (0, { c with
        linesolver := (List.range levels).map (fun i =>
          let e := if i < c.linesolver.length then lsntAt c.linesolver i else fresh i
          if c.levels ≤ i then { e with suite := 0 } else e)
        levels := levels })

/-- The `nonogram_setclient` of conf.c. -/
def nonogram_setclient (c : SolverConf) (client client_data : Nat) : Int × SolverConf :=
  if c.puzzle ≠ 0 then (-1, c)
  else (0, { c with client_data := client_data, client := client })

/-- The `nonogram_setdisplay` of conf.c. -/
def nonogram_setdisplay (c : SolverConf) (display display_data : Nat) : Int × SolverConf :=
  if c.puzzle ≠ 0 then (-1, c)
  else (0, { c with display_data := display_data, display := display })

/-- The `nonogram_setlog` of conf.c. -/
def nonogram_setlog (c : SolverConf) (logfile : Nat) (indent lvl : Int) : Int × SolverConf :=
  if c.puzzle ≠ 0 then (-1, c)
  else (0, { c with log_file := logfile, log_indent := indent, log_level := lvl })

/-- The addresses of the line-solver suites that `nonogram_setalgo` installs. -/
structure SuiteAddrs where
  fast : Nat
  complete : Nat
  null : Nat
  olsak : Nat
  oddones : Nat
  fcomp : Nat
deriving DecidableEq

abbrev nonogram_AFAST : Int := 0

abbrev nonogram_ACOMPLETE : Int := 1

abbrev nonogram_AHYBRID : Int := 2

abbrev nonogram_ANULL : Int := 3

abbrev nonogram_AOLSAK : Int := 4

abbrev nonogram_AFASTOLSAK : Int := 5

abbrev nonogram_AFASTOLSAKCOMPLETE : Int := 6

abbrev nonogram_AFASTODDONES : Int := 7

abbrev nonogram_AFASTODDONESCOMPLETE : Int := 8

abbrev nonogram_AFCOMP : Int := 9

abbrev nonogram_AFFCOMP : Int := 10

/-- One case of the `switch` of `nonogram_setalgo`: `nonogram_setlinesolvers`
followed by a `nonogram_setlinesolver` for each level, all return codes being
ignored. -/
def setalgoCase (c : SolverConf) (mem : Option (Nat → nonogram_lsnt))
    (suites : List (String × Nat)) : SolverConf :=
  (suites.foldl (fun (s : SolverConf × Nat) e =>
      ((nonogram_setlinesolver s.1 s.2 e.1 e.2 0).2, s.2 + 1))
    ((nonogram_setlinesolvers c suites.length mem).2, 1)).1

/-- The `nonogram_setalgo` of conf.c. -/
def nonogram_setalgo (a : SuiteAddrs) (c : SolverConf) (i : Int)
    (mem : Option (Nat → nonogram_lsnt)) : Int × SolverConf :=
  if c.puzzle ≠ 0 then (-1, c)
  else if i = nonogram_AFAST then (0, setalgoCase c mem [("fast", a.fast)])
  else if i = nonogram_ACOMPLETE then (0, setalgoCase c mem [("complete", a.complete)])
  else if i = nonogram_ANULL then (0, setalgoCase c mem [("null", a.null)])
  else if i = nonogram_AOLSAK then (0, setalgoCase c mem [("olsak", a.olsak)])
  else if i = nonogram_AFASTOLSAK then
    (0, setalgoCase c mem [("olsak", a.olsak), ("fast", a.fast)])
  else if i = nonogram_AFASTODDONES then
    (0, setalgoCase c mem [("odd-ones", a.oddones), ("fast", a.fast)])
  else if i = nonogram_AFASTOLSAKCOMPLETE then
    (0, setalgoCase c mem [("complete", a.complete), ("olsak", a.olsak), ("fast", a.fast)])
  else if i = nonogram_AFASTODDONESCOMPLETE then
    (0, setalgoCase c mem [("complete", a.complete), ("odd-ones", a.oddones), ("fast", a.fast)])
  else if i = nonogram_AFCOMP then (0, setalgoCase c mem [("fcomp", a.fcomp)])
  else if i = nonogram_AFFCOMP then
    (0, setalgoCase c mem [("fcomp", a.fcomp), ("fast", a.fast)])
  else (0, setalgoCase c mem [("complete", a.complete), ("fast", a.fast)])

/-- A solver configuration with a puzzle loaded (at address 1) and the fcomp
suite (at address 6) on its only level. -/
def confLoaded : SolverConf :=
  { puzzle := 1, levels := 1, linesolver := [{ context := 0, name := "fcomp", suite := 6 }],
    client_data := 0, client := 0, display_data := 0, display := 0, log_file := 0,
    log_indent := 0, log_level := 0 }

/-- The cells `st[i * step]`, `i < len`, that `nonogram_parseline` reads when
it is called with `st = g + off`. -/
def lineCells (g : List Nat) (off len step : Nat) : List Nat :=
  (List.range len).map (fun i => cellAt g (off + i * step))

/-- The loop of `nonogram_parseline` (puzzle.c 429-449) over the cells still
to be read, on `count`, `inblock` and the array `v` (`none` for a null
pointer, stride `vs = 1`).  The flag is false for `return -1`.  Lines are
shorter than `2^31` cells, so `count` does not overflow. -/
def parselineLoop : List Nat → Nat → Bool → Option (List Nat) →
    Bool × Nat × Bool × Option (List Nat)
  | [], count, inblock, v => (true, count, inblock, v)
  | c :: st, count, inblock, v =>
    if c = nonogram_DOT then
      if inblock then parselineLoop st (count + 1) false v
      else parselineLoop st count inblock v
    else if c = nonogram_SOLID then
      let v1 := if ¬ inblock then v.map (fun a => a.set count 0) else v
      parselineLoop st count true (v1.map (fun a => a.set count (ruleAt a count + 1)))
    else (false, count, inblock, v)

/-- The `nonogram_parseline` of puzzle.c on the cells `st`: the return value
and the array `v` afterwards. -/
def nonogram_parseline (st : List Nat) (v : Option (List Nat)) : Int × Option (List Nat) :=
  let r := parselineLoop st 0 false v
  if r.1 then ((r.2.1 : Int) + (if r.2.2.1 then 1 else 0), r.2.2.2) else (-1, r.2.2.2)

/-- The third and fourth loop of `nonogram_makepuzzle` (puzzle.c 481-496) over
the lines still to be done: `malloc` number `k` gives the array of the rule,
whose length `rule->cap` is what the first pass returned for the line, and
the second pass fills it.  `none` is the jump to `worse`.  Every entry of the
array is assigned before it is incremented, so the content of the fresh
memory does not matter. -/
def fillRules (mem : Nat → Bool) : List (List Nat) → Nat → Run (Option (List (List Nat)))
  | [], _ => .ret (some [])
  | st :: rest, k =>
    if ¬ (mem k = true) then .ret none
    else
      let r := nonogram_parseline st
        (some (List.replicate (nonogram_parseline st none).1.toNat 0))
      if ¬ (r.1 ≥ 0) then .assertion
      else
        match fillRules mem rest (k + 1) with
        | .assertion => .assertion
        | .fuel => .fuel
        | .ret none => .ret none
        | .ret (some vs) => .ret (some (r.2.getD [] :: vs))

/-- The rows of the grid `g` of width `w` and height `h`, as
`nonogram_makepuzzle` passes them to `nonogram_parseline`. -/
def gridRows (g : List Nat) (w h : Nat) : List (List Nat) :=
  (List.range h).map (fun n => lineCells g (w * n) w 1)

/-- The columns of the grid `g` of width `w` and height `h`, as
`nonogram_makepuzzle` passes them to `nonogram_parseline`. -/
def gridCols (g : List Nat) (w h : Nat) : List (List Nat) :=
  (List.range w).map (fun n => lineCells g n h w)

/-- The `nonogram_makepuzzle` of puzzle.c for non-null `p` and `g`: the
return value and the puzzle (`none` when `p->row` and `p->col` are left
null).  `mem k` tells whether call number `k` of `malloc` succeeds: calls 0
and 1 are for the arrays of rules, the next `h` for the rows and the last `w`
for the columns. -/
def nonogram_makepuzzle (mem : Nat → Bool) (g : List Nat) (w h : Nat) :
    Run (Int × Option Puzzle) :=
  if ¬ (mem 0 = true ∧ mem 1 = true) then .ret (-1, none)
  else if (gridRows g w h).any (fun st => decide ((nonogram_parseline st none).1 < 0)) then
    .ret (-1, none)
  else if (gridCols g w h).any (fun st => decide ((nonogram_parseline st none).1 < 0)) then
    .ret (-1, none)
  else
    match fillRules mem (gridRows g w h) 2 with
    | .assertion => .assertion
    | .fuel => .fuel
    | .ret none => .ret (-1, none)
    | .ret (some rows) =>
      match fillRules mem (gridCols g w h) (2 + h) with
      | .assertion => .assertion
      | .fuel => .fuel
      | .ret none => .ret (-1, none)
      | .ret (some cols) => .ret (0, some { col := cols, row := rows })

/-- The loops of `nonogram_verifypuzzle` over the rules of one dimension:
`sum += val` (`sign = 1`) or `sum -= val` (`sign = -1`) is computed in
`unsigned long` and stored into the `int`. -/
def verifySum (sign : Int) (rules : List (List Nat)) (s : Int) : Int :=
  rules.foldl (fun (a : Int) (r : List Nat) =>
    r.foldl (fun (b : Int) (v : Nat) => toInt32 (wrap (b + sign * (v : Int)))) a) s

/-- The `nonogram_verifypuzzle` of puzzle.c. -/
def nonogram_verifypuzzle (p : Puzzle) : Int :=
  verifySum (-1) p.col (verifySum 1 p.row 0)

/-- The puzzle that `nonogram_makepuzzle` builds from a grid of DOT and SOLID
cells: every rule lists the runs of solids of its line. -/
def gridPuzzle (g : List Nat) (w h : Nat) : Puzzle :=
  { col := (gridCols g w h).map solidRuns, row := (gridRows g w h).map solidRuns }

/-- Outcome of the checked embedding of `nonogram_push`: a result, a read or
write outside an array, a repositioning whose value is negative before the
conversion to `unsigned long`, or the embedding ran out of fuel. -/
inductive Safe (α : Type) where
  | ok : α → Safe α
  | oob : Safe α
  | wrapped : Safe α
  | fuel : Safe α
deriving DecidableEq

/-- The loop of line.c 143-144 with every read checked: `posv` moves right
while `posv + rulev < linelen` (computed in `unsigned long`) and `line[posv]`
is a dot. -/
def skipDotsC (line : List Nat) (rulev : Nat) : Nat → Nat → Safe Nat
  | 0, _ => .fuel
  | n + 1, p =>
    if w64 (p + rulev) < line.length then
      if ¬ (p < line.length) then .oob
      else if cellAt line p = nonogram_DOT then skipDotsC line rulev n (w64 (p + 1))
      else .ok p
    else .ok p

/-- The loop of line.c 167-178 with every read checked: the state is `i` and
`solid[block]`; the cell read is `line[posv + i]`. -/
def scanBlockC (line : List Nat) (posv rulev : Nat) : Nat → Nat → Int → Safe (Nat × Int)
  | 0, _, _ => .fuel
  | n + 1, i, sol =>
    if i < rulev then
      if ¬ (posv + i < line.length) then .oob
      else if cellAt line (posv + i) ≠ nonogram_DOT then
        scanBlockC line posv rulev n (i + 1)
          (if sol < 0 ∧ cellAt line (posv + i) = nonogram_SOLID then (i : Int) else sol)
      else .ok (i, sol)
    else .ok (i, sol)

/-- The loop of line.c 223-226 with every read checked: the cells read are
`line[posv + rulev]` (through `cp2`) and `line[posv]` (through `cp`). -/
def shuffleC (line : List Nat) (rulev : Nat) : Nat → Nat → Int → Safe (Nat × Int)
  | 0, _, _ => .fuel
  | n + 1, p, sol =>
    if w64 (p + rulev) < line.length then
      if ¬ (p + rulev < line.length) then .oob
      else if cellAt line (p + rulev) = nonogram_SOLID then
        if ¬ (p < line.length) then .oob
        else if cellAt line p ≠ nonogram_SOLID then shuffleC line rulev n (w64 (p + 1)) (sol - 1)
        else .ok (p, sol)
      else .ok (p, sol)
    else .ok (p, sol)

/-- The `do ... while` of line.c 193-200 with every access to `pos`, `solid`
and `rule` checked against the number of blocks. -/
def findEarlierC (rule : List Nat) (pos : Nat → Nat) (solid : Nat → Int) :
    Nat → Safe (Option Nat)
  | 0 => .ok none
  | b + 1 =>
    if ¬ (b + 1 < rule.length) then .oob
    else if solid b ≥ 0 ∧
        wrap ((pos (b + 1) : Int) + solid (b + 1) - (ruleAt rule b : Int) + 1)
          > wrap ((pos b : Int) + solid b) then
      findEarlierC rule pos solid b
    else .ok (some b)

/-- The backward search followed by the repositioning of line.c 204-205, with
the accesses checked and the value of the new position checked to be
non-negative before its conversion to `unsigned long`. -/
def drawEarlierC (rule : List Nat) (s : PushState) : Safe (Option PushState) :=
  match findEarlierC rule s.pos s.solid s.block with
  | .oob => .oob
  | .wrapped => .wrapped
  | .fuel => .fuel
  | .ok none => .ok none
  | .ok (some b) =>
    if (s.pos (b + 1) : Int) + s.solid (b + 1) - (ruleAt rule b : Int) + 1 < 0 then .wrapped
    else
      .ok (some { block := b,
                  pos := Function.update s.pos b
                    (wrap ((s.pos (b + 1) : Int) + s.solid (b + 1) - (ruleAt rule b : Int) + 1)),
                  solid := s.solid })

/-- The loop of line.c 268-269 with every read checked. -/
def trailingC (line : List Nat) : Nat → Nat → Safe Nat
  | 0, _ => .fuel
  | n + 1, p =>
    if p < line.length then
      if cellAt line p ≠ nonogram_SOLID then trailingC line n (w64 (p + 1)) else .ok p
    else .ok p

/-- Second half of a round of the main loop (line.c 234-308) with every
access checked. -/
def pushPlaceC (line rule : List Nat) (s : PushState) : Safe (Option PushState) :=
  let block := s.block
  let rulev := ruleAt rule block
  let posv := s.pos block
  if w64 (posv + rulev) < line.length ∧ ¬ (posv + rulev < line.length) then .oob
  else if w64 (posv + rulev) < line.length ∧ cellAt line (posv + rulev) = nonogram_SOLID then
    drawEarlierC rule s
  else
    let posv3 := w64 (w64 (s.pos block + 1) + ruleAt rule block)
    if block + 1 < rule.length then
      .ok (some { block := block + 1, pos := Function.update s.pos (block + 1) posv3,
                  solid := s.solid })
    else
      match trailingC line (line.length + 1) posv3 with
      | .oob => .oob
      | .wrapped => .wrapped
      | .fuel => .fuel
      | .ok posv4 =>
        if posv4 < line.length then
          if s.solid block ≥ 0 ∧
              wrap ((posv4 : Int) - rulev + 1) > wrap ((s.pos block : Int) + s.solid block) then
            drawEarlierC rule s
          else if (posv4 : Int) - rulev + 1 < 0 then .wrapped
          else
            .ok (some { block := block,
                        pos := Function.update s.pos block (wrap ((posv4 : Int) - rulev + 1)),
                        solid := s.solid })
        else .ok (some { block := block + 1, pos := s.pos, solid := s.solid })

/-- One round of the main loop of `nonogram_push` (line.c 133-309) with every
access checked: the block index against the number of blocks, the line index
of every cell read against the length of the line. -/
def pushBodyC (line rule : List Nat) (s : PushState) : Safe (Option PushState) :=
  let block := s.block
  if ¬ (block < rule.length) then .oob
  else
    let rulev := ruleAt rule block
    match skipDotsC line rulev (line.length + 1) (s.pos block) with
    | .oob => .oob
    | .wrapped => .wrapped
    | .fuel => .fuel
    | .ok posv =>
      let pos1 := Function.update s.pos block posv
      if w64 (posv + rulev) > line.length then .ok none
      else if ¬ (posv < line.length) then .oob
      else if cellAt line posv = nonogram_DOT then .ok none
      else
        match scanBlockC line posv rulev (rulev + 1) 0 (-1) with
        | .oob => .oob
        | .wrapped => .wrapped
        | .fuel => .fuel
        | .ok r =>
          let solid1 := Function.update s.solid block r.2
          if r.1 < rulev then
            if r.2 ≥ 0 then
              drawEarlierC rule { block := block, pos := pos1, solid := solid1 }
            else
              .ok (some { block := block, pos := Function.update s.pos block (w64 (posv + r.1)),
                          solid := solid1 })
          else if w64 (posv + rulev) < line.length ∧ ¬ (posv + rulev < line.length) then .oob
          else
            let sol0 : Int :=
              if w64 (posv + rulev) < line.length ∧ cellAt line (posv + rulev) = nonogram_SOLID
                  ∧ r.2 < 0 then (rulev : Int) else r.2
            match shuffleC line rulev (line.length + 1) posv sol0 with
            | .oob => .oob
            | .wrapped => .wrapped
            | .fuel => .fuel
            | .ok sh =>
              pushPlaceC line rule
                { block := block, pos := Function.update s.pos block sh.1,
                  solid := Function.update s.solid block sh.2 }

/-- The main loop of `nonogram_push` with every access checked, for at most
`fuel` rounds: `none` is `return 0`, `some pos` is `return 1`. -/
def pushLoopC (line rule : List Nat) : Nat → PushState → Safe (Option (Nat → Nat))
  | 0, _ => .fuel
  | fuel + 1, s =>
    if s.block < rule.length then
      match pushBodyC line rule s with
      | .oob => .oob
      | .wrapped => .wrapped
      | .fuel => .fuel
      | .ok none => .ok none
      | .ok (some s') => pushLoopC line rule fuel s'
    else .ok (some s.pos)

/-- The `nonogram_push` of line.c with every access checked, run for at most
`pushFuel` rounds of its main loop: `none` for return value 0, otherwise the
positions of the blocks. -/
def nonogram_push_checked (line rule : List Nat) : Safe (Option (List Nat)) :=
  match pushLoopC line rule (pushFuel line rule) (pushInit (fun _ => 0)) with
  | .oob => .oob
  | .wrapped => .wrapped
  | .fuel => .fuel
  | .ok r => .ok (r.map (fun pos => (List.range rule.length).map pos))

def safeOfOption {α : Type} : Option α → Safe α
  | none => .fuel
  | some a => .ok a

/-- The number of lines among the first `n` whose flag is positive. -/
def posFlags (flag : List Nat) (n : Nat) : Nat :=
  (List.range n).countP (fun i => decide (0 < flagAt flag i))

/-- The number of BLANK cells among the cells `(x, y)`, `x < pw`, `y < ph`,
of a grid given by coordinates. -/
def blankCount (g : Nat → Nat → Nat) (pw ph : Nat) : Nat :=
  (List.range (pw * ph)).countP (fun j => decide (g (j % pw) (j / pw) = nonogram_BLANK))

/-- The counter saved in every stack element is the number of BLANK cells of
the grid that restoring the element gives. -/
def StackCnt (pw ph : Nat) : (Nat → Nat → Nat) → List nonogram_stack → Prop
  | _, [] => True
  | g, st :: rest =>
    st.remcells = (blankCount (restoredCell st g) pw ph : Int) ∧
    StackCnt pw ph (restoredCell st g) rest

/-- The invariant of the counters `reminfo` and `remcells` of the driver. -/
structure InfoInv (c : nonogram_solver) : Prop where
  levels : 1 ≤ c.levels
  info : c.reminfo =
    ((posFlags c.rowflag c.puzzle.height + posFlags c.colflag c.puzzle.width : Nat) : Int)
  cells : 0 ≤ c.remcells →
    c.remcells = (blankCount (gridFn c) c.puzzle.width c.puzzle.height : Int)
  out_row : ∀ y, y < c.puzzle.height → ¬ (c.unkarea.min.y ≤ y ∧ y < c.unkarea.max.y) →
    flagAt c.rowflag y = 0
  out_col : ∀ x, x < c.puzzle.width → ¬ (c.unkarea.min.x ≤ x ∧ x < c.unkarea.max.x) →
    flagAt c.colflag x = 0
  cur : c.status = nonogram_WORKING ∨ c.status = nonogram_DONE → 1 ≤ lineFlag c
  stack : StackCnt c.puzzle.width c.puzzle.height (gridFn c) c.stack

/-- The tick environment of `noInfo2` in which `malloc` of the stack element
fails. -/
def noMem2 : TickEnv := { noInfo2 with nomem := true }

/-- The character that ends a C string. -/
def NUL : Char := Char.ofNat 0

/-- The newline character. -/
def NL : Char := Char.ofNat 10

/-- The `isspace` of the C locale: space, tab, newline, vertical tab, form
feed and carriage return. -/
def isspace (c : Char) : Bool := c.toNat == 32 || (9 ≤ c.toNat && c.toNat ≤ 13)

/-- The `isdigit` of C. -/
def isdigit (c : Char) : Bool := 48 ≤ c.toNat && c.toNat ≤ 57

/-- The `isalpha` of the C locale. -/
def isalpha (c : Char) : Bool :=
  (65 ≤ c.toNat && c.toNat ≤ 90) || (97 ≤ c.toNat && c.toNat ≤ 122)

/-- The fields of `nonogram_puzzle` that the scanner and the printer of
puzzle.c use (notes are not part of the embedding). -/
structure nonogram_puzzle where
  width : Nat
  height : Nat
  row : List (List Nat)
  col : List (List Nat)
deriving DecidableEq

/-- The `struct linectxt` of puzzle.c. -/
structure linectxt where
  lineno : Nat
  rowno : Nat
  colno : Nat
  maxrule : Nat
  onrows : Bool
  oncolumns : Bool
  nowidth : Bool
  noheight : Bool
  nomaxrule : Bool
deriving DecidableEq

/-- Read through a pointer `p <= e`.  A pointer into the text is represented
by the list of the characters from `p` up to `e` (exclusive); `t` is the
character stored at `e`, which the scanner reads when `p = e`. -/
def cur (p : List Char) (t : Char) : Char := p.headD t

/-- The loop of `mygetline`: the characters up to the first NUL or newline,
and the text from there. -/
def lineEnd : List Char → List Char × List Char
  | [] => ([], [])
  | c :: s =>
    if c = NUL ∨ c = NL then ([], c :: s)
    else ((c :: (lineEnd s).1), (lineEnd s).2)

/-- The `mygetline` of puzzle.c: the line `[st, en)`, the text from `en`, and
the new `*s` (after the newline, if there is one). -/
def mygetline (s : List Char) : Option (List Char × List Char × List Char) :=
  match s with
  | [] => none
  | c :: _ =>
    if c = NUL then none
    else
      some ((lineEnd s).1, (lineEnd s).2,
        match (lineEnd s).2 with
        | [] => []
        | d :: s2 => if d = NL then s2 else d :: s2)

/-- The loop `while (s < e && *s && isspace(*s)) s++`. -/
def skipSpace : List Char → List Char
  | [] => []
  | c :: s => if c ≠ NUL ∧ isspace c = true then skipSpace s else c :: s

/-- The loop `while (s < e && *s && !isspace(*s)) s++`: the characters
passed and the text from there. -/
def wordEnd : List Char → List Char × List Char
  | [] => ([], [])
  | c :: s =>
    if c ≠ NUL ∧ ¬ isspace c = true then (c :: (wordEnd s).1, (wordEnd s).2)
    else ([], c :: s)

/-- The `getword` of puzzle.c: the return value, the word `[*sp, *ep)` and
the text from `*ep`. -/
def getword (s : List Char) (t : Char) : Bool × List Char × List Char :=
  let w := wordEnd (skipSpace s)
  (decide (w.1 ≠ []) && decide (cur (w.1 ++ w.2) t ≠ NUL), w.1, w.2)

/-- The `matchword` of puzzle.c on the word `[s, e)` and the C string `t`
(given without its terminator): the loop runs while the characters agree, and
the result is whether the terminator of `t` has been reached. -/
def matchword : List Char → List Char → Bool
  | _, [] => true
  | [], d :: _ => d == NUL
  | c :: s, d :: t => if c = d then matchword s t else d == NUL

/-- The digit loop of `getint`, in `size_t` arithmetic. -/
def digitsLoop : List Char → Nat → Nat × List Char
  | [], res => (res, [])
  | c :: s, res =>
    if c ≠ NUL ∧ isdigit c = true then digitsLoop s ((res * 10 + (c.toNat - 48)) % 2 ^ 64)
    else (res, c :: s)

/-- The `getint` of puzzle.c: `none` for the return value 0 (nothing is
stored then), else the value stored in `*res` and the text from `*rem`. -/
def getint (s : List Char) (t : Char) : Option (Nat × List Char) :=
  if cur (skipSpace s) t = NUL ∨ ¬ isdigit (cur (skipSpace s) t) = true then none
  else some (digitsLoop (skipSpace s) 0)

/-- The loop of `skipndigit`. -/
def skipNonDigit : List Char → List Char
  | [] => []
  | c :: s => if c ≠ NUL ∧ ¬ isdigit c = true then skipNonDigit s else c :: s

/-- The `skipndigit` of puzzle.c: the character returned and the new
`*pp`. -/
def skipndigit (p : List Char) (t : Char) : Char × List Char :=
  (cur (skipNonDigit p) t, skipNonDigit p)

/-- The first loop of `loadrule`, which counts the blocks: the count, and
the pointer `p` when the loop ends. -/
def loadruleCount (t : Char) : Nat → List Char → Nat → Run (Nat × List Char)
  | 0, _, _ => .fuel
  | f + 1, p, len =>
    if (skipndigit p t).1 = NUL then .ret (len, (skipndigit p t).2)
    else
      match getint (skipndigit p t).2 t with
      | none => .ret (len, (skipndigit p t).2)
      | some (v, q) =>
        if v = 0 then .ret (len, (skipndigit p t).2)
        else loadruleCount t f q (len + 1)

/-- The second loop of `loadrule`, which stores `len` blocks; `tmp` is the
variable that `getint` assigns. -/
def loadruleVals (t : Char) : Nat → List Char → Nat → List Nat
  | 0, _, _ => []
  | n + 1, p, tmp =>
    if (skipndigit p t).1 = NUL then []
    else
      match getint (skipndigit p t).2 t with
      | some (v, q) => v :: loadruleVals t n q v
      | none => tmp :: loadruleVals t n (skipndigit p t).2 tmp

/-- The `loadrule` of puzzle.c on the line `[line, e)`: `none` for the return
value 0, else the rule stored (`malloc` is taken to succeed). -/
def loadrule (line : List Char) (t : Char) : Run (Option (List Nat)) :=
  match loadruleCount t (line.length + 1) line 0 with
  | .assertion => .assertion
  | .fuel => .fuel
  | .ret (len, p) =>
    if len = 0 ∧ ¬ isdigit (cur p t) = true then .ret none
    else .ret (some (loadruleVals t len line 0))

/-- The string "width". -/
def kwWidth : List Char := ['w', 'i', 'd', 't', 'h']

/-- The string "height". -/
def kwHeight : List Char := ['h', 'e', 'i', 'g', 'h', 't']

/-- The string "rows". -/
def kwRows : List Char := ['r', 'o', 'w', 's']

/-- The string "columns". -/
def kwColumns : List Char := ['c', 'o', 'l', 'u', 'm', 'n', 's']

/-- The string "maxrule". -/
def kwMaxrule : List Char := ['m', 'a', 'x', 'r', 'u', 'l', 'e']

/-- The code at the label `reading_width` of `scanline`. -/
def readingWidth (p : nonogram_puzzle) (ctxt : linectxt) (cmdend : List Char) (t : Char) :
    Int × nonogram_puzzle × linectxt :=
  if ¬ ctxt.nowidth = true then (0, p, ctxt)
  else
    match getint cmdend t with
    | none => (0, p, { ctxt with nowidth := false })
    | some (v, _) =>
      if v < 1 then (0, { p with width := v }, { ctxt with nowidth := false })
      else (1, { p with width := v, col := List.replicate v [] },
        { ctxt with nowidth := false, colno := 0 })

/-- The code at the label `reading_height` of `scanline`. -/
def readingHeight (p : nonogram_puzzle) (ctxt : linectxt) (cmdend : List Char) (t : Char) :
    Int × nonogram_puzzle × linectxt :=
  if ¬ ctxt.noheight = true then (0, p, ctxt)
  else
    match getint cmdend t with
    | none => (0, p, { ctxt with noheight := false })
    | some (v, _) =>
      if v < 1 then (0, { p with height := v }, { ctxt with noheight := false })
      else (1, { p with height := v, row := List.replicate v [] },
        { ctxt with noheight := false, rowno := 0 })

/-- Whether `getint(cmdend, NULL, end, &tmp) && tmp > 0` holds. -/
def hasCount (cmdend : List Char) (t : Char) : Bool :=
  match getint cmdend t with
  | none => false
  | some (v, _) => decide (v > 0)

/-- The `scanline` of puzzle.c on the line `[line, end)`, where `t` is the
character at `end`: the return value, the puzzle and the context afterwards.
The error procedure only prints, and the branch for notes leaves the fields
of the embedding as they are. -/
def scanline (p : nonogram_puzzle) (ctxt : linectxt) (line : List Char) (t : Char) :
    Run (Int × nonogram_puzzle × linectxt) :=
  if ¬ (getword line t).1 = true then .ret (1, p, ctxt)
  else if cur ((getword line t).2.1 ++ (getword line t).2.2) t = '#' then .ret (1, p, ctxt)
  else if matchword (getword line t).2.1 kwWidth = true then
    .ret (readingWidth p ctxt (getword line t).2.2 t)
  else if matchword (getword line t).2.1 kwHeight = true then
    .ret (readingHeight p ctxt (getword line t).2.2 t)
  else if matchword (getword line t).2.1 kwRows = true then
    if hasCount (getword line t).2.2 t = true then
      .ret (readingHeight p ctxt (getword line t).2.2 t)
    else if ctxt.noheight = true then .ret (0, p, ctxt)
    else .ret (1, p, { ctxt with onrows := true, oncolumns := false })
  else if matchword (getword line t).2.1 kwColumns = true then
    if hasCount (getword line t).2.2 t = true then
      .ret (readingWidth p ctxt (getword line t).2.2 t)
    else if ctxt.nowidth = true then .ret (0, p, ctxt)
    else .ret (1, p, { ctxt with oncolumns := true, onrows := false })
  else if matchword (getword line t).2.1 kwMaxrule = true then
    if ¬ ctxt.nomaxrule = true then .ret (0, p, ctxt)
    else
      match getint (getword line t).2.2 t with
      | none => .ret (1, p, { ctxt with nomaxrule := false })
      | some (v, _) =>
        if v < 1 then .ret (0, p, { ctxt with nomaxrule := false, maxrule := v })
        else .ret (1, p, { ctxt with nomaxrule := false, maxrule := v })
  else if isalpha (cur ((getword line t).2.1 ++ (getword line t).2.2) t) = true then
    .ret (1, p, ctxt)
  else if ctxt.onrows = true then
    if ctxt.rowno ≥ p.height then .ret (0, p, ctxt)
    else
      match loadrule line t with
      | .assertion => .assertion
      | .fuel => .fuel
      | .ret none => .ret (1, p, ctxt)
      | .ret (some r) =>
        .ret (1, { p with row := p.row.set ctxt.rowno r }, { ctxt with rowno := ctxt.rowno + 1 })
  else if ctxt.oncolumns = true then
    if ctxt.colno ≥ p.width then .ret (0, p, ctxt)
    else
      match loadrule line t with
      | .assertion => .assertion
      | .fuel => .fuel
      | .ret none => .ret (1, p, ctxt)
      | .ret (some r) =>
        .ret (1, { p with col := p.col.set ctxt.colno r }, { ctxt with colno := ctxt.colno + 1 })
  else .ret (1, p, ctxt)

/-- The condition of the loop of `nonogram_spscanpuzzle_ef` on the context:
a dimension is still missing or incomplete. -/
def scanMore (p : nonogram_puzzle) (ctxt : linectxt) : Bool :=
  (ctxt.noheight || decide (ctxt.rowno < p.height)) ||
    (ctxt.nowidth || decide (ctxt.colno < p.width))

/-- The loop of `nonogram_spscanpuzzle_ef`: `rc`, `*s`, the puzzle and the
context when the loop ends. -/
def scanLoop (t : Char) : Nat → List Char → nonogram_puzzle → linectxt → Int →
    Run (Int × List Char × nonogram_puzzle × linectxt)
  | 0, _, _, _, _ => .fuel
  | f + 1, s, p, ctxt, rc =>
    if scanMore p ctxt = true then
      match mygetline s with
      | none => .ret (rc, s, p, ctxt)
      | some (line, en, s2) =>
        match scanline p ctxt line (cur en t) with
        | .assertion => .assertion
        | .fuel => .fuel
        | .ret (rc2, p2, c2) =>
          if rc2 ≠ 0 then scanLoop t f s2 p2 { c2 with lineno := c2.lineno + 1 } rc2
          else .ret (rc2, s2, p2, c2)
    else .ret (rc, s, p, ctxt)

/-- The `nonogram_spscanpuzzle_ef` of puzzle.c on the text `[*s, e)`, where
`t` is the character at `e` and `u` the content of the uninitialised
`struct linectxt`: the return value, the new `*s`, and the puzzle (freed when
the return value is -1). -/
def nonogram_spscanpuzzle_ef (s : List Char) (t : Char) (u : linectxt) :
    Run (Int × List Char × Option nonogram_puzzle) :=
  match scanLoop t (s.length + 1) s { width := 0, height := 0, row := [], col := [] }
      { u with nowidth := true, noheight := true, nomaxrule := true, onrows := false,
               oncolumns := false, lineno := 1 } 0 with
  | .assertion => .assertion
  | .fuel => .fuel
  | .ret (rc, s2, p, c) =>
    if rc = 0 ∨ c.noheight = true ∨ c.rowno < p.height ∨ c.nowidth = true ∨ c.colno < p.width
    then .ret (-1, s2, none)
    else .ret (0, s2, some p)

/-- The digits of `n`, most significant first, in front of `acc`; `f` bounds
the number of digits. -/
def decimalAux : Nat → Nat → List Char → List Char
  | 0, _, acc => acc
  | f + 1, n, acc =>
    if n < 10 then Char.ofNat (48 + n) :: acc
    else decimalAux f (n / 10) (Char.ofNat (48 + n % 10) :: acc)

/-- The conversion `%lu` of `printf` for an `unsigned long` (at most 20
digits). -/
def printUL (n : Nat) : List Char := decimalAux 20 (n % 2 ^ 64) []

/-- The conversion `%d` of `printf` for an `int`. -/
def printInt (z : Int) : List Char :=
  if z < 0 then '-' :: decimalAux 10 (-z).toNat [] else decimalAux 10 z.toNat []

/-- The loop of `nonogram_printrule`: the blocks with a comma after each but
the last. -/
def printruleLoop : List Nat → List Char
  | [] => []
  | [v] => printUL v
  | v :: w :: r => printUL v ++ ',' :: printruleLoop (w :: r)

/-- The text written by `nonogram_printrule` of rule.c. -/
def nonogram_printrule (rule : List Nat) : List Char :=
  if rule.length = 0 then ['0'] else printruleLoop rule

/-- One loop of `nonogram_getmaxrule` over an array of `n` rules. -/
def maxruleLoop (lines : List (List Nat)) : Nat → Nat → Nat → Nat
  | 0, _, m => m
  | k + 1, n, m =>
    maxruleLoop lines k (n + 1) (if (lines.getD n []).length > m then (lines.getD n []).length else m)

/-- The `nonogram_getmaxrule` of puzzle.c; the result is converted from
`size_t` to `int`. -/
def nonogram_getmaxrule (p : nonogram_puzzle) : Int :=
  toInt32 (maxruleLoop p.row p.height 0 (maxruleLoop p.col p.width 0 1))

/-- The lines written by one loop of `nonogram_fprintpuzzle`. -/
def printLines (lines : List (List Nat)) : Nat → Nat → List Char
  | 0, _ => []
  | k + 1, n => nonogram_printrule (lines.getD n []) ++ NL :: printLines lines k (n + 1)

/-- The text written by `nonogram_fprintpuzzle` of puzzle.c. -/
def nonogram_fprintpuzzle (p : nonogram_puzzle) : List Char :=
  kwMaxrule ++ ' ' :: printInt (nonogram_getmaxrule p) ++ NL ::
    (kwWidth ++ ' ' :: printUL p.width ++ NL ::
      (kwHeight ++ ' ' :: printUL p.height ++ NL ::
        (NL :: (kwRows ++ NL :: (printLines p.row p.height 0 ++
          NL :: (kwColumns ++ NL :: printLines p.col p.width 0))))))

/-- The comparison of two rules in `nonogram_comparepuzzles`: the value
returned, or `none` when the rules are equal. -/
def compareVals (r1 r2 : List Nat) : Nat → Nat → Option Int
  | 0, _ => none
  | k + 1, j =>
    if ruleAt r1 j ≠ ruleAt r2 j then some (toInt32 (((ruleAt r2 j : Int) - ruleAt r1 j) % 2 ^ 64))
    else compareVals r1 r2 k (j + 1)

/-- One loop of `nonogram_comparepuzzles` over an array of rules. -/
def compareLines (l1 l2 : List (List Nat)) : Nat → Nat → Option Int
  | 0, _ => none
  | k + 1, i =>
    if (l1.getD i []).length ≠ (l2.getD i []).length then
      some (toInt32 ((((l2.getD i []).length : Int) - (l1.getD i []).length) % 2 ^ 64))
    else
      match compareVals (l1.getD i []) (l2.getD i []) (l1.getD i []).length 0 with
      | some d => some d
      | none => compareLines l1 l2 k (i + 1)

/-- The `nonogram_comparepuzzles` of puzzle.c for two puzzles (neither
pointer null). -/
def nonogram_comparepuzzles (p1 p2 : nonogram_puzzle) : Int :=
  if p1.width ≠ p2.width then toInt32 (((p2.width : Int) - p1.width) % 2 ^ 64)
  else if p1.height ≠ p2.height then toInt32 (((p2.height : Int) - p1.height) % 2 ^ 64)
  else
    match compareLines p1.col p2.col p1.width 0 with
    | some d => d
    | none =>
      match compareLines p1.row p2.row p1.height 0 with
      | some d => d
      | none => 0

/-- The step of the digit loop of `getint`. -/
def digitStep (a : Nat) (c : Char) : Nat := (a * 10 + (c.toNat - 48)) % 2 ^ 64

/-- The character is a decimal digit (and so neither NUL, nor a space, nor a
letter). -/
def IsDigit (c : Char) : Prop := isdigit c = true

/-- The blocks of the rule are positive values of `nonogram_sizetype`. -/
def BlocksOK (r : List Nat) : Prop := ∀ v, v ∈ r → 0 < v ∧ v < 2 ^ 64

/-- No character of the line is NUL or a newline. -/
def CleanLine (l : List Char) : Prop := ∀ c, c ∈ l → c ≠ NUL ∧ c ≠ NL

/-- No character of the word is NUL or a space. -/
def CleanWord (w : List Char) : Prop := ∀ c, c ∈ w → c ≠ NUL ∧ ¬ isspace c = true

/-- The rows (or columns) of the puzzle after `k` printed rules have been
stored from line `n` on. -/
def setLines (rows : List (List Nat)) : Nat → Nat → List (List Nat) → List (List Nat)
  | 0, _, x => x
  | k + 1, n, x => setLines rows k (n + 1) (x.set n (rows.getD n []))

instance (r : List Nat) : Decidable (BlocksOK r) := by
  unfold BlocksOK; infer_instance

/-- A puzzle with two rows and three columns, with an empty rule. -/
def puzzle32 : nonogram_puzzle :=
  { width := 3, height := 2, row := [[1, 1], []], col := [[1], [12], [1]] }

/-- A content of the `struct linectxt` before the scanner initialises it. -/
def ctxtJunk : linectxt :=
  { lineno := 7, rowno := 99, colno := 98, maxrule := 5, onrows := true, oncolumns := true,
    nowidth := false, noheight := false, nomaxrule := false }

/-- The kinds of line that `scanline` tells apart, each with what `scanline`
reads from the line: the value that `getint` stores (if any) for a width, a
height or a maxrule, and the outcome of `loadrule` for any other line. -/
inductive LineKind where
  | skip
  | width (v : Option Nat)
  | height (v : Option Nat)
  | rows
  | columns
  | maxrule (v : Option Nat)
  | rule (r : Option (List Nat))
deriving DecidableEq

/-- The value that `getint` stores, if it returns 1. -/
def getintValue (s : List Char) (t : Char) : Option Nat :=
  match getint s t with
  | none => none
  | some (v, _) => some v

/-- The outcome of `loadrule`. -/
def loadruleValue (line : List Char) (t : Char) : Option (List Nat) :=
  match loadrule line t with
  | .ret r => r
  | .assertion => none
  | .fuel => none

/-- The kind of a line, by the tests of `scanline` in their order: blank
lines, comments and notes are skipped; `rows N` and `columns N` with a
positive count give a height and a width. -/
def lineKind (line : List Char) (t : Char) : LineKind :=
  if ¬ (getword line t).1 = true then .skip
  else if cur ((getword line t).2.1 ++ (getword line t).2.2) t = '#' then .skip
  else if matchword (getword line t).2.1 kwWidth = true then
    .width (getintValue (getword line t).2.2 t)
  else if matchword (getword line t).2.1 kwHeight = true then
    .height (getintValue (getword line t).2.2 t)
  else if matchword (getword line t).2.1 kwRows = true then
    if hasCount (getword line t).2.2 t = true then
      .height (getintValue (getword line t).2.2 t)
    else .rows
  else if matchword (getword line t).2.1 kwColumns = true then
    if hasCount (getword line t).2.2 t = true then
      .width (getintValue (getword line t).2.2 t)
    else .columns
  else if matchword (getword line t).2.1 kwMaxrule = true then
    .maxrule (getintValue (getword line t).2.2 t)
  else if isalpha (cur ((getword line t).2.1 ++ (getword line t).2.2) t) = true then .skip
  else .rule (loadruleValue line t)

/-- What `scanline` does on a line of each kind. -/
def scanKind (p : nonogram_puzzle) (ctxt : linectxt) : LineKind → Int × nonogram_puzzle × linectxt
  | .skip => (1, p, ctxt)
  | .width v =>
    if ¬ ctxt.nowidth = true then (0, p, ctxt)
    else
      match v with
      | none => (0, p, { ctxt with nowidth := false })
      | some v =>
        if v < 1 then (0, { p with width := v }, { ctxt with nowidth := false })
        else (1, { p with width := v, col := List.replicate v [] },
          { ctxt with nowidth := false, colno := 0 })
  | .height v =>
    if ¬ ctxt.noheight = true then (0, p, ctxt)
    else
      match v with
      | none => (0, p, { ctxt with noheight := false })
      | some v =>
        if v < 1 then (0, { p with height := v }, { ctxt with noheight := false })
        else (1, { p with height := v, row := List.replicate v [] },
          { ctxt with noheight := false, rowno := 0 })
  | .rows =>
    if ctxt.noheight = true then (0, p, ctxt)
    else (1, p, { ctxt with onrows := true, oncolumns := false })
  | .columns =>
    if ctxt.nowidth = true then (0, p, ctxt)
    else (1, p, { ctxt with oncolumns := true, onrows := false })
  | .maxrule v =>
    if ¬ ctxt.nomaxrule = true then (0, p, ctxt)
    else
      match v with
      | none => (1, p, { ctxt with nomaxrule := false })
      | some v =>
        if v < 1 then (0, p, { ctxt with nomaxrule := false, maxrule := v })
        else (1, p, { ctxt with nomaxrule := false, maxrule := v })
  | .rule r =>
    if ctxt.onrows = true then
      if ctxt.rowno ≥ p.height then (0, p, ctxt)
      else
        match r with
        | none => (1, p, ctxt)
        | some r =>
          (1, { p with row := p.row.set ctxt.rowno r }, { ctxt with rowno := ctxt.rowno + 1 })
    else if ctxt.oncolumns = true then
      if ctxt.colno ≥ p.width then (0, p, ctxt)
      else
        match r with
        | none => (1, p, ctxt)
        | some r =>
          (1, { p with col := p.col.set ctxt.colno r }, { ctxt with colno := ctxt.colno + 1 })
    else (1, p, ctxt)

/-- The lines of the text, as `mygetline` delivers them one after the other,
each with the character stored at its end. -/
def textLines (t : Char) : Nat → List Char → List (List Char × Char)
  | 0, _ => []
  | f + 1, s =>
    match mygetline s with
    | none => []
    | some (line, en, s2) => (line, cur en t) :: textLines t f s2

/-- The kinds of the lines of the text. -/
def lineKinds (s : List Char) (t : Char) : List LineKind :=
  (textLines t (s.length + 1) s).map (fun l => lineKind l.1 l.2)

/-- The loop of the scanner on the kinds of the lines that are left. -/
def scanKinds : List LineKind → nonogram_puzzle → linectxt → Int →
    Int × nonogram_puzzle × linectxt
  | [], p, ctxt, rc => (rc, p, ctxt)
  | k :: ks, p, ctxt, rc =>
    if scanMore p ctxt = true then
      if (scanKind p ctxt k).1 ≠ 0 then
        scanKinds ks (scanKind p ctxt k).2.1
          { (scanKind p ctxt k).2.2 with lineno := (scanKind p ctxt k).2.2.lineno + 1 }
          (scanKind p ctxt k).1
      else scanKind p ctxt k
    else (rc, p, ctxt)

/-- What the text has supplied: the height and the width declared first, the
section that is open (0 none, 1 rows, 2 columns), and the number of rule
lines in the sections of the rows and of the columns. -/
structure Tally where
  height : Option Nat
  width : Option Nat
  mode : Nat
  rows : Nat
  cols : Nat
deriving DecidableEq

/-- The tally after one more line. -/
def tallyKind (T : Tally) : LineKind → Tally
  | .skip => T
  | .maxrule _ => T
  | .width v => if T.width = none then { T with width := some (v.getD 0) } else T
  | .height v => if T.height = none then { T with height := some (v.getD 0) } else T
  | .rows => { T with mode := 1 }
  | .columns => { T with mode := 2 }
  | .rule none => T
  | .rule (some _) =>
    if T.mode = 1 then { T with rows := T.rows + 1 }
    else if T.mode = 2 then { T with cols := T.cols + 1 }
    else T

/-- The tally of a list of lines, from the tally `T`. -/
def tallyFrom (T : Tally) (ks : List LineKind) : Tally := ks.foldl tallyKind T

/-- The tally of a list of lines. -/
def tally (ks : List LineKind) : Tally :=
  tallyFrom { height := none, width := none, mode := 0, rows := 0, cols := 0 } ks

/-- Both dimensions are declared and have as many rule lines as declared. -/
def Tally.complete (T : Tally) : Prop :=
  ∃ h w, T.height = some h ∧ T.width = some w ∧ T.rows = h ∧ T.cols = w

/-- A dimension has more rule lines than declared. -/
def Tally.excess (T : Tally) : Prop :=
  (∃ h, T.height = some h ∧ h < T.rows) ∨ (∃ w, T.width = some w ∧ w < T.cols)

/-- The state of the scanner agrees with the tally of the lines scanned. -/
structure Agree (T : Tally) (p : nonogram_puzzle) (c : linectxt) : Prop where
  noheight : c.noheight = true ↔ T.height = none
  nowidth : c.nowidth = true ↔ T.width = none
  height : ∀ h, T.height = some h → p.height = h ∧ c.rowno = T.rows ∧ T.rows ≤ h
  width : ∀ w, T.width = some w → p.width = w ∧ c.colno = T.cols ∧ T.cols ≤ w
  norows : T.height = none → T.rows = 0 ∧ T.mode ≠ 1
  nocols : T.width = none → T.cols = 0 ∧ T.mode ≠ 2
  onrows : c.onrows = true ↔ T.mode = 1
  oncolumns : c.oncolumns = true ↔ T.mode = 2

/-- A text without a column section: the width is declared, but no column
rule follows. -/
def textNoColumns : List Char :=
  kwWidth ++ [' ', '1', NL] ++ kwHeight ++ [' ', '1', NL] ++ kwRows ++ [NL, '1', NL]

/-- A complete text with one more column rule at its end. -/
def textExcess : List Char :=
  kwWidth ++ [' ', '1', NL] ++ kwHeight ++ [' ', '1', NL] ++ kwRows ++ [NL, '1', NL] ++
    kwColumns ++ [NL, '1', NL, '1', NL]

/-- The rectangle holds every BLANK cell of the grid of width `pw` and height
`ph`. -/
def HoldsBlanks (grid : List Nat) (pw ph : Nat) (b : nonogram_rect) : Prop :=
  ∀ y, y < ph → ∀ x, x < pw → cellAt grid (x + y * pw) = nonogram_BLANK → b.has x y = true

instance (grid : List Nat) (pw ph : Nat) (b : nonogram_rect) :
    Decidable (HoldsBlanks grid pw ph b) := by
  unfold HoldsBlanks; infer_instance

/-- The top row, the bottom row, the left-most column and the right-most
column of the rectangle each hold a BLANK cell of the rectangle. -/
def BlankEdges (grid : List Nat) (pw : Nat) (b : nonogram_rect) : Prop :=
  (∃ x, x < b.max.x ∧ b.min.x ≤ x ∧ cellAt grid (x + b.min.y * pw) = nonogram_BLANK) ∧
  (∃ x, x < b.max.x ∧ b.min.x ≤ x ∧ cellAt grid (x + (b.max.y - 1) * pw) = nonogram_BLANK) ∧
  (∃ y, y < b.max.y ∧ b.min.y ≤ y ∧ cellAt grid (b.min.x + y * pw) = nonogram_BLANK) ∧
  (∃ y, y < b.max.y ∧ b.min.y ≤ y ∧ cellAt grid (b.max.x - 1 + y * pw) = nonogram_BLANK)

instance (grid : List Nat) (pw : Nat) (b : nonogram_rect) :
    Decidable (BlankEdges grid pw b) := by
  unfold BlankEdges; infer_instance

/-- Spec-side definition: `b` is the smallest rectangle containing all BLANK
cells of the grid, that is, it holds every BLANK cell and each of its four
edges holds one. -/
def SmallestBlankRect (grid : List Nat) (pw ph : Nat) (b : nonogram_rect) : Prop :=
  HoldsBlanks grid pw ph b ∧ BlankEdges grid pw b

instance (grid : List Nat) (pw ph : Nat) (b : nonogram_rect) :
    Decidable (SmallestBlankRect grid pw ph b) := by
  unfold SmallestBlankRect; infer_instance

/-- The grid of width 2 and height 2 whose right column is BLANK and whose
left column is DOT. -/
def gridRightColumn : List Nat := [nonogram_DOT, nonogram_BLANK, nonogram_DOT, nonogram_BLANK]

/-- Value of an expression computed in `unsigned` (32 bits wide). -/
def u32 (n : Nat) : Nat := n % 2 ^ 32

/-- The code after the loop of `nonogram_checkline` (line.c 68-75) with the
counters as declared: `rno` and `blen` are `unsigned`, so `rno++` is reduced
modulo `2^32`, and `2 * rlen` is computed in `size_t`. -/
def checkline32End (r : List Nat) (rno blen : Nat) : Int :=
  if rno % 2 ≠ 0 then
    if blen ≠ ruleAt r (rno / 2) then -1
    else if u32 (rno + 1) ≠ w64 (2 * r.length) then -1 else 0
  else if rno ≠ w64 (2 * r.length) then -1 else 0

/-- The loop of `nonogram_checkline` (line.c 38-67) with the counters as
declared, `unsigned rno = 0, index = 0, blen = 0` (32 bits), for at most `n`
rounds: each increment is reduced modulo `2^32`, the test `index < len`
compares with the `size_t` length of the line, and the cell read is
`st[index]`.  The outcome is the value returned, or `.fuel` when the loop has
not ended after `n` rounds. -/
def checkline32Loop (r st : List Nat) : Nat → Nat → Nat → Nat → Run Int
  | 0, _, _, _ => .fuel
  | n + 1, rno, index, blen =>
    if ¬ (index < st.length) then .ret (checkline32End r rno blen)
    else if cellAt st index ≠ nonogram_DOT ∧ cellAt st index ≠ nonogram_SOLID then .ret 1
    else if rno % 2 = 0 then
      if cellAt st index = nonogram_SOLID then
        if u32 (rno + 1) / 2 ≥ r.length then .ret (-1)
        else checkline32Loop r st n (u32 (rno + 1)) (u32 (index + 1)) 1
      else checkline32Loop r st n rno (u32 (index + 1)) blen
    else
      if cellAt st index = nonogram_DOT then
        if blen ≠ ruleAt r (rno / 2) then .ret (-1)
        else checkline32Loop r st n (u32 (rno + 1)) (u32 (index + 1)) blen
      else
        if u32 (blen + 1) > ruleAt r (rno / 2) then .ret (-1)
        else checkline32Loop r st n rno (u32 (index + 1)) (u32 (blen + 1))

/-- The `nonogram_checkline` of line.c (rule `r`, line `st`) with its 32-bit
counters, run for at most `n` rounds of its loop. -/
def nonogram_checkline32 (n : Nat) (r st : List Nat) : Run Int :=
  checkline32Loop r st n 0 0 0

/-- A line that starts with a SOLID cell followed by `2^32 - 1` DOT cells. -/
def longLine : List Nat := nonogram_SOLID :: List.replicate (2 ^ 32 - 1) nonogram_DOT

/-- The loop of `fgets`: at most `n` characters are stored, and reading stops
after a newline, which is stored, or at the end of the file.  The result is
the characters stored and the rest of the file. -/
def fgetsLoop : Nat → List Char → List Char × List Char
  | 0, fp => ([], fp)
  | _ + 1, [] => ([], [])
  | n + 1, c :: fp =>
    if c = NL then ([c], fp) else (c :: (fgetsLoop n fp).1, (fgetsLoop n fp).2)

/-- The `fgets(line, size, fp)` of C on a file whose unread content is `fp`:
`none` for the null pointer returned at the end of the file, else the
characters stored before the terminating NUL (at most `size - 1`) and the
rest of the file. -/
def fgets (size : Nat) (fp : List Char) : Option (List Char × List Char) :=
  match fp with
  | [] => none
  | _ :: _ => some (fgetsLoop (size - 1) fp)

/-- The characters of a buffer that `strlen` counts: those before the first
NUL. -/
def cstring : List Char → List Char
  | [] => []
  | c :: s => if c = NUL then [] else c :: cstring s

/-- The loop of `nonogram_fscanpuzzle_ef` (puzzle.c 87-91): lines are read
with `fgets` into `line[400]` and passed to `scanline` from `line` to
`line + strlen(line)`, where the terminating NUL is; the state is `rc`, the
puzzle and the context when the loop ends. -/
def fscanLoop : Nat → List Char → nonogram_puzzle → linectxt → Int →
    Run (Int × nonogram_puzzle × linectxt)
  | 0, _, _, _, _ => .fuel
  | f + 1, fp, p, ctxt, rc =>
    if scanMore p ctxt = true then
      match fgets 400 fp with
      | none => .ret (rc, p, ctxt)
      | some (buf, fp2) =>
        match scanline p ctxt (cstring buf) NUL with
        | .assertion => .assertion
        | .fuel => .fuel
        | .ret (rc2, p2, c2) =>
          if rc2 ≠ 0 then fscanLoop f fp2 p2 { c2 with lineno := c2.lineno + 1 } rc2
          else .ret (rc2, p2, c2)
    else .ret (rc, p, ctxt)

/-- The `nonogram_fscanpuzzle_ef` of puzzle.c on a file whose content is `fp`,
where `u` is the content of the uninitialised `struct linectxt`: the return
value and the puzzle (freed when the return value is -1). -/
def nonogram_fscanpuzzle_ef (fp : List Char) (u : linectxt) :
    Run (Int × Option nonogram_puzzle) :=
  match fscanLoop (fp.length + 1) fp { width := 0, height := 0, row := [], col := [] }
      { u with nowidth := true, noheight := true, nomaxrule := true, onrows := false,
               oncolumns := false, lineno := 1 } 0 with
  | .assertion => .assertion
  | .fuel => .fuel
  | .ret (rc, p, c) =>
    if rc = 0 ∨ c.noheight = true ∨ c.rowno < p.height ∨ c.nowidth = true ∨ c.colno < p.width
    then .ret (-1, none)
    else .ret (0, some p)

/-- A puzzle of one row and 401 columns whose row rule has 201 blocks of
length 1: every second column holds one solid. -/
def puzzleLong : nonogram_puzzle :=
  { width := 401, height := 1, row := [List.replicate 201 1],
    col := (List.range 401).map (fun i => if i % 2 = 0 then [1] else []) }

/-- Two views of one position in a line that ends with a newline: `a` is the
text up to the end of the buffer of `fgets`, which holds the newline, and `b`
the text up to the newline, where `mygetline` ends the line.  Both are empty
when the position is behind the newline. -/
def Ext (a b : List Char) : Prop := a = b ++ [NL] ∨ (a = [] ∧ b = [])

/-- What the file scanner returns, seen from the result of the string
scanner: the position in the text is dropped. -/
def dropPtr : Run (Int × List Char × nonogram_puzzle × linectxt) →
    Run (Int × nonogram_puzzle × linectxt)
  | .ret (rc, _, p, c) => .ret (rc, p, c)
  | .assertion => .assertion
  | .fuel => .fuel

/-- The text consists of lines of fewer than 399 characters, none of them
NUL, each ended by a newline: every line fits the buffer of `fgets` together
with its newline. -/
inductive ShortLines : List Char → Prop
  | nil : ShortLines []
  | line (l rest : List Char) : CleanLine l → l.length < 399 → ShortLines rest →
      ShortLines (l ++ NL :: rest)

/-! ## Theorems -/

theorem cellAt_of_le {line : List Nat} {i : Nat} (h : line.length ≤ i) : cellAt line i = 0 := by
  unfold cellAt
  rw [List.getD_eq_getElem?_getD, List.getElem?_eq_none h]
  rfl

theorem lt_of_cellAt_ne_zero {line : List Nat} {i : Nat} (h : cellAt line i ≠ 0) :
    i < line.length := by
  by_contra hc
  exact h (cellAt_of_le (Nat.le_of_not_lt hc))

theorem wrap_of_nat {n : Nat} (h : n < 2 ^ 64) (z : Int) (hz : z = (n : Int)) : wrap z = n := by
  subst hz
  unfold wrap
  have h1 : ((n : Int) % 2 ^ 64) = (n : Int) := by
    apply Int.emod_eq_of_lt
    · exact Int.natCast_nonneg n
    · exact_mod_cast h
  rw [h1]; simp

theorem whileInc_ge (c : Nat → Bool) (n x : Nat) : x ≤ whileInc c n x := by
  induction n generalizing x with
  | zero => simp [whileInc]
  | succ n ih =>
    unfold whileInc
    split
    · exact Nat.le_trans (Nat.le_succ x) (ih (x + 1))
    · exact Nat.le_refl x

theorem whileInc_le (c : Nat → Bool) (n x : Nat) : whileInc c n x ≤ x + n := by
  induction n generalizing x with
  | zero => simp [whileInc]
  | succ n ih =>
    unfold whileInc
    split
    · have := ih (x + 1); omega
    · omega

theorem whileInc_all (c : Nat → Bool) (n x y : Nat) (h1 : x ≤ y) (h2 : y < whileInc c n x) :
    c y = true := by
  induction n generalizing x with
  | zero => simp [whileInc] at h2; omega
  | succ n ih =>
    unfold whileInc at h2
    split at h2
    · rename_i hc
      by_cases hxy : x = y
      · subst hxy; exact hc
      · exact ih (x + 1) (by omega) h2
    · omega

theorem whileInc_stop (c : Nat → Bool) (n x : Nat)
    (h : ∃ y, x ≤ y ∧ y ≤ x + n ∧ c y = false) : c (whileInc c n x) = false := by
  induction n generalizing x with
  | zero =>
    obtain ⟨y, h1, h2, h3⟩ := h
    have : y = x := by omega
    subst this
    simpa [whileInc] using h3
  | succ n ih =>
    unfold whileInc
    split
    · rename_i hc
      obtain ⟨y, h1, h2, h3⟩ := h
      apply ih
      refine ⟨y, ?_, by omega, h3⟩
      by_contra hlt
      have : y = x := by omega
      subst this
      rw [hc] at h3; exact Bool.noConfusion h3
    · rename_i hc
      simpa using hc

theorem scanBlock_spec (line : List Nat) (posv rulev : Nat) (n i : Nat) (sol : Int)
    (hn : rulev ≤ i + n) (hi : i ≤ rulev)
    (hd : ∀ j, j < i → cellAt line (posv + j) ≠ nonogram_DOT)
    (hs : SolTrack line posv i sol) :
    (scanBlock line posv rulev n i sol).1 ≤ rulev ∧
    (∀ j, j < (scanBlock line posv rulev n i sol).1 → cellAt line (posv + j) ≠ nonogram_DOT) ∧
    ((scanBlock line posv rulev n i sol).1 < rulev →
      cellAt line (posv + (scanBlock line posv rulev n i sol).1) = nonogram_DOT) ∧
    SolTrack line posv (scanBlock line posv rulev n i sol).1
      (scanBlock line posv rulev n i sol).2 := by
  induction n generalizing i sol with
  | zero =>
    have : i = rulev := by omega
    subst this
    simp only [scanBlock]
    exact ⟨Nat.le_refl _, hd, fun h => absurd h (Nat.lt_irrefl _), hs⟩
  | succ n ih =>
    unfold scanBlock
    by_cases hc : (i < rulev && cellAt line (posv + i) != nonogram_DOT) = true
    · rw [if_pos hc]
      simp only [Bool.and_eq_true, decide_eq_true_eq, bne_iff_ne, ne_eq] at hc
      apply ih
      · omega
      · omega
      · intro j hj
        by_cases hji : j = i
        · subst hji; exact hc.2
        · exact hd j (by omega)
      · rcases hs with ⟨h1, h2⟩ | ⟨m, h1, h2, h3, h4⟩
        · by_cases hsol : cellAt line (posv + i) = nonogram_SOLID
          · right
            refine ⟨i, ?_, by omega, hsol, h2⟩
            simp [h1, hsol]
          · left
            refine ⟨?_, ?_⟩
            · simp [h1, hsol]
            · intro j hj
              by_cases hji : j = i
              · subst hji; exact hsol
              · exact h2 j (by omega)
        · right
          refine ⟨m, ?_, by omega, h3, h4⟩
          have : ¬ (sol < 0) := by rw [h1]; omega
          simp [this, h1]
    · rw [if_neg hc]
      simp only [Bool.and_eq_true, decide_eq_true_eq, bne_iff_ne, ne_eq, not_and, not_not] at hc
      exact ⟨hi, hd, fun h => hc h, hs⟩

theorem shuffle_eq (line : List Nat) (rulev n p : Nat) (sol : Int) :
    shuffle line rulev n p sol =
      (whileInc (shuffleCond line rulev) n p,
        sol - ((whileInc (shuffleCond line rulev) n p : Nat) : Int) + (p : Int)) := by
  induction n generalizing p sol with
  | zero => simp [shuffle, whileInc]
  | succ n ih =>
    unfold shuffle whileInc
    by_cases hc : shuffleCond line rulev p = true
    · have hc2 := hc
      unfold shuffleCond at hc2
      rw [if_pos hc2, if_pos hc, ih]
      ext
      · rfl
      · simp only; push_cast; ring
    · have hc2 := hc
      unfold shuffleCond at hc2
      rw [if_neg hc2, if_neg hc]
      ext
      · rfl
      · simp

theorem shuffleCond_iff (line : List Nat) (rulev p : Nat) :
    shuffleCond line rulev p = true ↔
      (p + rulev < line.length ∧ cellAt line (p + rulev) = nonogram_SOLID ∧
        cellAt line p ≠ nonogram_SOLID) := by
  unfold shuffleCond
  simp [and_assoc]

theorem findEarlier_lt (rule : List Nat) (pos : Nat → Nat) (solid : Nat → Int) (c b : Nat)
    (h : findEarlier rule pos solid c = some b) : b < c := by
  induction c with
  | zero => simp [findEarlier] at h
  | succ c ih =>
    unfold findEarlier at h
    split at h
    · exact Nat.lt_succ_of_lt (ih h)
    · simp at h; omega

theorem ValidPlacement.mono {line rule : List Nat} {q : Nat → Nat}
    (hq : ValidPlacement line rule q) {b c : Nat} (hbc : b < c) (hc : c < rule.length) :
    q b + ruleAt rule b + 1 ≤ q c := by
  induction c with
  | zero => omega
  | succ c ih =>
    have hstep := hq.2.1 c (by omega) hc
    by_cases hbc2 : b = c
    · subst hbc2; exact hstep
    · have := ih (by omega) (by omega)
      omega

theorem ValidPlacement.earlier {line rule : List Nat} {q : Nat → Nat}
    (hq : ValidPlacement line rule q) {c t : Nat} (_hc : c < rule.length)
    (ht : cellAt line t = nonogram_SOLID) (htc : t < q c) :
    ∃ b, b < c ∧ Covers rule q b t := by
  have htL : t < line.length := lt_of_cellAt_ne_zero (by rw [ht]; decide)
  obtain ⟨b, hb, h1, h2⟩ := hq.2.2.2 t htL ht
  refine ⟨b, ?_, h1, h2⟩
  by_contra hcb
  have hcb2 : c ≤ b := Nat.le_of_not_lt hcb
  by_cases he : c = b
  · subst he; omega
  · have := hq.mono (b := c) (c := b) (by omega) hb
    omega

/-- If in the valid placement `q` the solid `t` is covered by one of the
blocks `0..b`, then block `b` starts at or after `t + 1 - rule[b]`. -/
theorem ValidPlacement.start_ge {line rule : List Nat} {q : Nat → Nat}
    (hq : ValidPlacement line rule q) (hpos : PositiveRule rule) {b t : Nat}
    (hb : b < rule.length) (hcov : ∃ b0, b0 < b + 1 ∧ Covers rule q b0 t) :
    t + 1 ≤ q b + ruleAt rule b := by
  obtain ⟨b0, hb0, h1, h2⟩ := hcov
  by_cases he : b0 = b
  · subst he; omega
  · have := hq.mono (b := b0) (c := b) (by omega) hb
    have := hpos b hb
    omega

theorem placed_mono {line rule : List Nat} {pos : Nat → Nat} {solid : Nat → Int} {C : Nat}
    (hp : ∀ b, b < C → Placed line rule pos solid b) {b c : Nat} (hbc : b ≤ c) (hc : c ≤ C) :
    pos b ≤ pos c := by
  induction c with
  | zero =>
    have : b = 0 := by omega
    subst this; exact Nat.le_refl _
  | succ c ih =>
    by_cases he : b = c + 1
    · subst he; exact Nat.le_refl _
    · have h1 := ih (by omega) (by omega)
      have h2 := (hp c (by omega)).gap
      omega

theorem covered_le {line rule : List Nat} {pos : Nat → Nat} {solid : Nat → Int} {C : Nat}
    (hp : ∀ b, b < C → Placed line rule pos solid b)
    (hcov : ∀ j, j < pos C → cellAt line j = nonogram_SOLID →
      ∃ b, b < C ∧ Covers rule pos b j)
    {c : Nat} (hc : c ≤ C) {j : Nat} (hj : j < pos c) (hs : cellAt line j = nonogram_SOLID) :
    ∃ b, b < c ∧ Covers rule pos b j := by
  have h1 : pos c ≤ pos C := placed_mono hp hc (Nat.le_refl _)
  obtain ⟨b, hb, hb1, hb2⟩ := hcov j (by omega) hs
  refine ⟨b, ?_, hb1, hb2⟩
  by_contra hcb
  have := placed_mono hp (b := c) (c := b) (by omega) (by omega)
  omega

theorem Placed.placed_congr {line rule : List Nat} {pos pos' : Nat → Nat} {solid solid' : Nat → Int}
    {b : Nat} (h : Placed line rule pos solid b) (h1 : pos' b = pos b)
    (h2 : pos (b + 1) ≤ pos' (b + 1)) (h3 : solid' b = solid b) :
    Placed line rule pos' solid' b := by
  refine ⟨?_, ?_, ?_, ?_, ?_⟩
  · rw [h1]; exact h.fit
  · rw [h1]; exact h.nodot
  · rw [h1]; exact h.after
  · rw [h1, h3]; exact h.sol
  · rw [h1]; exact Nat.le_trans h.gap h2

theorem findEarlier_spec {line rule : List Nat} (hL : line.length < 2 ^ 64)
    (hpos : PositiveRule rule) (pos : Nat → Nat) (solid : Nat → Int) (C : Nat)
    (hC : C < rule.length)
    (hp : ∀ b, b < C → Placed line rule pos solid b)
    (hcov : ∀ j, j < pos C → cellAt line j = nonogram_SOLID →
      ∃ b, b < C ∧ Covers rule pos b j)
    (c : Nat) (hc : c ≤ C) (m : Nat) (hsol : solid c = (m : Int))
    (ht : cellAt line (pos c + m) = nonogram_SOLID)
    (hbefore : ∀ j, j < m → cellAt line (pos c + j) ≠ nonogram_SOLID)
    (htarget : ∀ q, ValidPlacement line rule q → ∃ b, b < c ∧ Covers rule q b (pos c + m)) :
    match findEarlier rule pos solid c with
    | none => ∀ q, ¬ ValidPlacement line rule q
    | some b =>
      b < c ∧ pos b + 2 ≤ drawPos rule pos solid b ∧
      drawPos rule pos solid b ≤ line.length ∧
      (∀ q, ValidPlacement line rule q → drawPos rule pos solid b ≤ q b) ∧
      (∀ j, j < drawPos rule pos solid b → cellAt line j = nonogram_SOLID →
        ∃ b', b' < b ∧ Covers rule pos b' j) := by
  induction c generalizing m with
  | zero =>
    simp only [findEarlier]
    intro q hq
    obtain ⟨b, hb, _⟩ := htarget q hq
    omega
  | succ b ih =>
    have hPb := hp b (by omega)
    have htL : pos (b + 1) + m < line.length := lt_of_cellAt_ne_zero (by rw [ht]; decide)
    have hrb : 0 < ruleAt rule b := hpos b (by omega)
    have hgap := hPb.gap
    -- the value of the new position
    have hv : drawPos rule pos solid b = pos (b + 1) + m + 1 - ruleAt rule b := by
      unfold drawPos
      apply wrap_of_nat (by omega)
      rw [hsol]; omega
    have hlow : ∀ q, ValidPlacement line rule q → drawPos rule pos solid b ≤ q b := by
      intro q hq
      have := hq.start_ge hpos (b := b) (t := pos (b + 1) + m) (by omega) (htarget q hq)
      omega
    unfold findEarlier
    by_cases hcond : (decide (solid b ≥ 0) &&
        decide (wrap ((pos (b + 1) : Int) + solid (b + 1) - (ruleAt rule b : Int) + 1)
          > wrap ((pos b : Int) + solid b))) = true
    · rw [if_pos hcond]
      simp only [Bool.and_eq_true, decide_eq_true_eq] at hcond
      obtain ⟨hs0, hgt⟩ := hcond
      rcases hPb.sol with ⟨h1, _⟩ | ⟨m', h1, h2, h3, h4⟩
      · omega
      · have hw : wrap ((pos b : Int) + solid b) = pos b + m' := by
          apply wrap_of_nat (by have := hPb.fit; omega)
          rw [h1]; push_cast; ring
        have hv' : wrap ((pos (b + 1) : Int) + solid (b + 1) - (ruleAt rule b : Int) + 1)
            = pos (b + 1) + m + 1 - ruleAt rule b := hv
        rw [hw, hv'] at hgt
        have := ih (by omega) m' h1 h3 h4 (by
          intro q hq
          have hq1 := hlow q hq
          apply hq.earlier (by omega) h3
          omega)
        revert this
        cases findEarlier rule pos solid b with
        | none => exact fun h => h
        | some b' =>
          intro h
          exact ⟨by omega, h.2⟩
    · rw [if_neg hcond]
      simp only [Bool.and_eq_true, decide_eq_true_eq, not_and] at hcond
      refine ⟨by omega, by omega, by omega, hlow, ?_⟩
      intro j hj hjs
      by_cases hjp : j < pos (b + 1)
      · obtain ⟨b', hb', hc1, hc2⟩ := covered_le hp hcov hc hjp hjs
        refine ⟨b', ?_, hc1, hc2⟩
        by_contra hne
        have hbb : b' = b := by omega
        subst hbb
        rcases hPb.sol with ⟨_, h2⟩ | ⟨m', h1, h2, h3, h4⟩
        · have := h2 (j - pos b') (by omega)
          rw [show pos b' + (j - pos b') = j by omega] at this
          exact this hjs
        · have hw : wrap ((pos b' : Int) + solid b') = pos b' + m' := by
            apply wrap_of_nat (by have := hPb.fit; omega)
            rw [h1]; push_cast; ring
          have hv' : wrap ((pos (b' + 1) : Int) + solid (b' + 1) - (ruleAt rule b' : Int) + 1)
              = pos (b' + 1) + m + 1 - ruleAt rule b' := hv
          have := hcond (by rw [h1]; omega)
          rw [hw, hv'] at this
          have hjm : j < pos b' + m' := by omega
          have := h4 (j - pos b') (by omega)
          rw [show pos b' + (j - pos b') = j by omega] at this
          exact this hjs
      · have := hbefore (j - pos (b + 1)) (by omega)
        rw [show pos (b + 1) + (j - pos (b + 1)) = j by omega] at this
        exact absurd hjs this

theorem ValidPlacement.no_touch {line rule : List Nat} {q : Nat → Nat}
    (hq : ValidPlacement line rule q) {b : Nat} (hb : b < rule.length) :
    cellAt line (q b + ruleAt rule b) ≠ nonogram_SOLID := by
  intro hs
  have htL : q b + ruleAt rule b < line.length := lt_of_cellAt_ne_zero (by rw [hs]; decide)
  obtain ⟨b0, hb0, h1, h2⟩ := hq.2.2.2 _ htL hs
  rcases Nat.lt_trichotomy b0 b with h | h | h
  · have := hq.mono h hb; omega
  · subst h; omega
  · have := hq.mono h hb0; omega

theorem ValidPlacement.start_nodot {line rule : List Nat} {q : Nat → Nat}
    (hq : ValidPlacement line rule q) {b j : Nat} (hb : b < rule.length)
    (h1 : q b ≤ j) (h2 : j < q b + ruleAt rule b) : cellAt line j ≠ nonogram_DOT := by
  have := hq.1 b hb
  exact hq.2.2.1 b hb j (by omega) h1 h2

theorem Adv.adv_of_move {s s2 s' : PushState} (h : Adv s2 s') (hb : s2.block = s.block)
    (hsame : ∀ b, b < s.block → s2.pos b = s.pos b) (hle : s.pos s.block ≤ s2.pos s.block) :
    Adv s s' := by
  rcases h with ⟨h1, h2, h3⟩ | ⟨h1, h2, h3⟩
  · left
    rw [hb] at h1
    refine ⟨h1, ?_, ?_⟩
    · intro b hb'
      rw [h2 b hb', hsame b (by omega)]
    · by_cases he : s'.block = s.block
      · rw [he] at h3 ⊢; omega
      · rw [hsame _ (by omega)] at h3; exact h3
  · right
    rw [hb] at h1 h2 h3
    refine ⟨h1, ?_, by omega⟩
    intro b hb'
    rw [h2 b hb', hsame b hb']

theorem StepOK.step_of_move {line rule : List Nat} {s u : PushState} {r : Option PushState}
    (h : StepOK line rule u r) (hb : u.block = s.block)
    (hsame : ∀ b, b < s.block → u.pos b = s.pos b) (hle : s.pos s.block ≤ u.pos s.block) :
    StepOK line rule s r := by
  cases r with
  | none => exact h
  | some s' =>
    rcases h with ⟨h1, h2⟩ | h
    · exact Or.inl ⟨h1, h2.adv_of_move hb hsame hle⟩
    · exact Or.inr h

/-- Moving the current block right over cells that are not solid, to a
position that is still a lower bound, keeps the invariant. -/
theorem PushInv.move {line rule : List Nat} {s : PushState} (h : PushInv line rule s)
    (v : Nat) (sol : Int) (hv : s.pos s.block ≤ v) (hvL : v ≤ line.length + 1)
    (hns : ∀ j, s.pos s.block ≤ j → j < v → cellAt line j ≠ nonogram_SOLID)
    (hlow : ∀ q, ValidPlacement line rule q → v ≤ q s.block) :
    PushInv line rule { block := s.block, pos := Function.update s.pos s.block v,
                        solid := Function.update s.solid s.block sol } := by
  refine ⟨h.blk, ?_, ?_, ?_, ?_⟩
  · intro b hb
    have hne : b ≠ s.block := by simp only at hb; omega
    apply (h.placed b hb).placed_congr
    · simp [Function.update, hne]
    · simp only [Function.update]
      split
      · rename_i he; simp only [eq_rec_constant]; rw [he]; exact hv
      · exact Nat.le_refl _
    · simp [Function.update, hne]
  · intro j hj hs
    simp only [Function.update_same] at hj
    by_cases hjp : j < s.pos s.block
    · obtain ⟨b, hb, h1, h2⟩ := h.covered j hjp hs
      have hne : b ≠ s.block := by omega
      refine ⟨b, hb, ?_⟩
      unfold Covers
      simp only [Function.update, hne, dite_false]
      exact ⟨h1, h2⟩
    · exact absurd hs (hns j (by omega) hj)
  · intro q hq b hb
    simp only at hb
    by_cases he : b = s.block
    · subst he; simp only [Function.update_same]; exact hlow q hq
    · simp only [Function.update, he, dite_false]
      exact h.lower q hq b hb
  · simp only [Function.update_same]; exact hvL

theorem drawEarlier_spec {line rule : List Nat} (hL : line.length < 2 ^ 64)
    (hpos : PositiveRule rule) {s : PushState} (h : PushInv line rule s)
    (m : Nat) (hsol : s.solid s.block = (m : Int))
    (ht : cellAt line (s.pos s.block + m) = nonogram_SOLID)
    (hbefore : ∀ j, j < m → cellAt line (s.pos s.block + j) ≠ nonogram_SOLID)
    (htarget : ∀ q, ValidPlacement line rule q →
      ∃ b, b < s.block ∧ Covers rule q b (s.pos s.block + m)) :
    StepOK line rule s (drawEarlier rule s) := by
  have key := findEarlier_spec hL hpos s.pos s.solid s.block h.blk h.placed h.covered
    s.block (Nat.le_refl _) m hsol ht hbefore htarget
  unfold drawEarlier
  revert key
  cases findEarlier rule s.pos s.solid s.block with
  | none => exact fun key => key
  | some b =>
    intro key
    obtain ⟨hb, h1, h2, h3, h4⟩ := key
    left
    refine ⟨⟨?_, ?_, ?_, ?_, ?_⟩, ?_⟩
    · exact Nat.lt_trans hb h.blk
    · intro b' hb'
      simp only at hb'
      have hne : b' ≠ b := by omega
      apply (h.placed b' (by omega)).placed_congr
      · simp [Function.update, hne]
      · simp only [Function.update]
        split
        · rename_i he
          simp only [eq_rec_constant]; rw [he]
          unfold drawPos at h1; omega
        · exact Nat.le_refl _
      · rfl
    · intro j hj hs
      simp only [Function.update_same] at hj
      obtain ⟨b', hb', hc1, hc2⟩ := h4 j hj hs
      have hne : b' ≠ b := by omega
      refine ⟨b', hb', ?_⟩
      unfold Covers
      simp only [Function.update, hne, dite_false]
      exact ⟨hc1, hc2⟩
    · intro q hq b' hb'
      simp only at hb'
      by_cases he : b' = b
      · subst he; simp only [Function.update_same]; exact h3 q hq
      · simp only [Function.update, he, dite_false]
        exact h.lower q hq b' (by omega)
    · simp only [Function.update_same]
      unfold drawPos at h2; omega
    · left
      refine ⟨Nat.le_of_lt hb, ?_, ?_⟩
      · intro b' hb'
        simp only at hb'
        have hne : b' ≠ b := by omega
        simp [Function.update, hne]
      · simp only [Function.update_same]
        unfold drawPos at h1; omega

theorem pushPlace_spec {line rule : List Nat} (hL : line.length < 2 ^ 64)
    (hpos : PositiveRule rule) {s : PushState} (h : PushInv line rule s)
    (hfit : s.pos s.block + ruleAt rule s.block ≤ line.length)
    (hnodot : ∀ j, j < ruleAt rule s.block → cellAt line (s.pos s.block + j) ≠ nonogram_DOT)
    (hsol : SolTrack line (s.pos s.block) (ruleAt rule s.block + 1) (s.solid s.block))
    (hstop : shuffleCond line (ruleAt rule s.block) (s.pos s.block) = false) :
    StepOK line rule s (pushPlace line rule s) := by
  have hr : 0 < ruleAt rule s.block := hpos _ h.blk
  have hlowb : ∀ q, ValidPlacement line rule q → s.pos s.block ≤ q s.block :=
    fun q hq => h.lower q hq _ (Nat.le_refl _)
  unfold pushPlace
  simp only []
  by_cases hstr : (decide (s.pos s.block + ruleAt rule s.block < line.length) &&
      cellAt line (s.pos s.block + ruleAt rule s.block) == nonogram_SOLID) = true
  · -- a solid touches the right end of the block
    rw [if_pos hstr]
    simp only [Bool.and_eq_true, decide_eq_true_eq, beq_iff_eq] at hstr
    have hfirst : cellAt line (s.pos s.block) = nonogram_SOLID := by
      by_contra hne
      have : shuffleCond line (ruleAt rule s.block) (s.pos s.block) = true :=
        (shuffleCond_iff _ _ _).2 ⟨hstr.1, hstr.2, hne⟩
      rw [hstop] at this; exact Bool.noConfusion this
    rcases hsol with ⟨_, h2⟩ | ⟨m, h1, _, h3, h4⟩
    · exact absurd hfirst (h2 0 (by omega))
    · have hm : m = 0 := by
        by_contra hm
        exact h4 0 (by omega) hfirst
      subst hm
      apply drawEarlier_spec hL hpos h 0 h1 h3 (by intro j hj; omega)
      intro q hq
      apply hq.earlier h.blk h3
      have h5 := hlowb q hq
      have h6 := hq.no_touch h.blk
      by_contra hle
      have : q s.block = s.pos s.block := by omega
      rw [this] at h6
      exact h6 hstr.2
  · rw [if_neg hstr]
    simp only [Bool.and_eq_true, decide_eq_true_eq, beq_iff_eq, not_and] at hstr
    have hafter : cellAt line (s.pos s.block + ruleAt rule s.block) ≠ nonogram_SOLID := by
      by_cases hlt : s.pos s.block + ruleAt rule s.block < line.length
      · exact hstr hlt
      · rw [cellAt_of_le (Nat.le_of_not_lt hlt)]; decide
    have hsol' : SolTrack line (s.pos s.block) (ruleAt rule s.block) (s.solid s.block) := by
      rcases hsol with ⟨h1, h2⟩ | ⟨m, h1, h2, h3, h4⟩
      · exact Or.inl ⟨h1, fun j hj => h2 j (by omega)⟩
      · refine Or.inr ⟨m, h1, ?_, h3, h4⟩
        by_contra hge
        have : m = ruleAt rule s.block := by omega
        subst this
        exact hafter h3
    by_cases hnext : s.block + 1 < rule.length
    · -- start the next block
      rw [if_pos hnext]
      left
      refine ⟨⟨hnext, ?_, ?_, ?_, ?_⟩, ?_⟩
      · intro b hb
        simp only at hb
        have hne : b ≠ s.block + 1 := by omega
        by_cases hbb : b = s.block
        · subst hbb
          refine ⟨?_, ?_, ?_, ?_, ?_⟩
          · simp only [Function.update, hne, dite_false]; exact hfit
          · simp only [Function.update, hne, dite_false]; exact hnodot
          · simp only [Function.update, hne, dite_false]; exact hafter
          · simp only [Function.update, hne, dite_false]; exact hsol'
          · dsimp only
            rw [Function.update_same, Function.update_noteq hne]; omega
        · apply (h.placed b (by omega)).placed_congr
          · simp [Function.update, hne]
          · have hne2 : b + 1 ≠ s.block + 1 := by omega
            simp [Function.update, hne2]
          · rfl
      · intro j hj hs
        simp only [Function.update_same] at hj
        by_cases hjp : j < s.pos s.block
        · obtain ⟨b, hb, hc1, hc2⟩ := h.covered j hjp hs
          have hne : b ≠ s.block + 1 := by omega
          refine ⟨b, by simp only; omega, ?_⟩
          unfold Covers
          simp only [Function.update, hne, dite_false]
          exact ⟨hc1, hc2⟩
        · have hne : s.block ≠ s.block + 1 := by omega
          refine ⟨s.block, by simp only; omega, ?_⟩
          unfold Covers
          simp only [Function.update, hne, dite_false]
          refine ⟨by omega, ?_⟩
          by_contra hge
          have : j = s.pos s.block + ruleAt rule s.block := by omega
          subst this
          exact hafter hs
      · intro q hq b hb
        simp only at hb
        by_cases he : b = s.block + 1
        · subst he
          simp only [Function.update_same]
          have h1 := hq.2.1 s.block h.blk hnext
          have h2 := hlowb q hq
          omega
        · simp only [Function.update, he, dite_false]
          exact h.lower q hq b (by omega)
      · simp only [Function.update_same]; omega
      · right
        refine ⟨rfl, ?_, ?_⟩
        · intro b hb
          have hne : b ≠ s.block + 1 := by omega
          simp [Function.update, hne]
        · have hne : s.block ≠ s.block + 1 := by omega
          simp [Function.update, hne]
    · -- last block: look for trailing solids
      rw [if_neg hnext]
      have hlast : s.block + 1 = rule.length := by have := h.blk; omega
      have hge := whileInc_ge (fun p => decide (p < line.length) &&
        cellAt line p != nonogram_SOLID) line.length (s.pos s.block + 1 + ruleAt rule s.block)
      have hall := whileInc_all (fun p => decide (p < line.length) &&
        cellAt line p != nonogram_SOLID) line.length (s.pos s.block + 1 + ruleAt rule s.block)
      have hstop4 := whileInc_stop (fun p => decide (p < line.length) &&
        cellAt line p != nonogram_SOLID) line.length (s.pos s.block + 1 + ruleAt rule s.block)
        ⟨s.pos s.block + 1 + ruleAt rule s.block + line.length, by omega, by omega, by simp⟩
      generalize whileInc (fun p => decide (p < line.length) &&
        cellAt line p != nonogram_SOLID) line.length (s.pos s.block + 1 + ruleAt rule s.block)
        = posv4 at hge hall hstop4 ⊢
      have hns4 : ∀ j, s.pos s.block + ruleAt rule s.block ≤ j → j < posv4 →
          cellAt line j ≠ nonogram_SOLID := by
        intro j h1 h2
        by_cases he : j = s.pos s.block + ruleAt rule s.block
        · subst he; exact hafter
        · have := hall j (by omega) h2
          simp only [Bool.and_eq_true, decide_eq_true_eq, bne_iff_ne, ne_eq] at this
          exact this.2
      by_cases hfound : posv4 < line.length
      · rw [if_pos hfound]
        have hs4 : cellAt line posv4 = nonogram_SOLID := by
          simp only [Bool.and_eq_false_iff, decide_eq_false_iff_not, bne_eq_false_iff_eq] at hstop4
          rcases hstop4 with h1 | h1
          · exact absurd hfound h1
          · exact h1
        have hv : wrap ((posv4 : Int) - (ruleAt rule s.block : Int) + 1)
            = posv4 + 1 - ruleAt rule s.block := by
          apply wrap_of_nat (by omega)
          omega
        have hlow4 : ∀ q, ValidPlacement line rule q →
            posv4 + 1 ≤ q s.block + ruleAt rule s.block := by
          intro q hq
          apply hq.start_ge hpos h.blk
          obtain ⟨b0, hb0, hc⟩ := hq.2.2.2 posv4 hfound hs4
          exact ⟨b0, by omega, hc⟩
        by_cases hunc : (decide (s.solid s.block ≥ 0) &&
            decide (wrap ((posv4 : Int) - (ruleAt rule s.block : Int) + 1)
              > wrap ((s.pos s.block : Int) + s.solid s.block))) = true
        · rw [if_pos hunc]
          simp only [Bool.and_eq_true, decide_eq_true_eq] at hunc
          rcases hsol' with ⟨h1, _⟩ | ⟨m, h1, h2, h3, h4⟩
          · omega
          · have hw : wrap ((s.pos s.block : Int) + s.solid s.block) = s.pos s.block + m := by
              apply wrap_of_nat (by omega)
              rw [h1]; push_cast; ring
            rw [hv, hw] at hunc
            apply drawEarlier_spec hL hpos h m h1 h3 h4
            intro q hq
            apply hq.earlier h.blk h3
            have := hlow4 q hq
            omega
        · rw [if_neg hunc]
          simp only [Bool.and_eq_true, decide_eq_true_eq, not_and] at hunc
          rw [hv]
          left
          have hmv := h.move (posv4 + 1 - ruleAt rule s.block) (s.solid s.block)
            (by omega) (by omega)
            (by
              intro j hj1 hj2
              by_cases hjr : j < s.pos s.block + ruleAt rule s.block
              · rcases hsol' with ⟨_, h2⟩ | ⟨m, h1, h2, h3, h4⟩
                · have := h2 (j - s.pos s.block) (by omega)
                  rwa [show s.pos s.block + (j - s.pos s.block) = j by omega] at this
                · have hw : wrap ((s.pos s.block : Int) + s.solid s.block)
                      = s.pos s.block + m := by
                    apply wrap_of_nat (by omega)
                    rw [h1]; push_cast; ring
                  have := hunc (by rw [h1]; omega)
                  rw [hv, hw] at this
                  have := h4 (j - s.pos s.block) (by omega)
                  rwa [show s.pos s.block + (j - s.pos s.block) = j by omega] at this
              · exact hns4 j (by omega) (by omega))
            (by
              intro q hq
              have := hlow4 q hq
              omega)
          rw [Function.update_eq_self] at hmv
          refine ⟨hmv, Or.inl ⟨Nat.le_refl _, ?_, ?_⟩⟩
          · intro b hb
            simp only at hb
            have hne : b ≠ s.block := by omega
            simp [Function.update, hne]
          · simp only [Function.update_same]; omega
      · rw [if_neg hfound]
        unfold StepOK
        dsimp only
        right
        refine ⟨hlast, ⟨?_, ?_, ?_, ?_⟩, ?_⟩
        · intro b hb
          by_cases he : b = s.block
          · subst he; exact hfit
          · exact (h.placed b (by omega)).fit
        · intro b _ hb
          exact (h.placed b (by omega)).gap
        · intro b hb j _ h1 h2
          by_cases he : b = s.block
          · subst he
            have := hnodot (j - s.pos s.block) (by omega)
            rwa [show s.pos s.block + (j - s.pos s.block) = j by omega] at this
          · have := (h.placed b (by omega)).nodot (j - s.pos b) (by omega)
            rwa [show s.pos b + (j - s.pos b) = j by omega] at this
        · intro j hj hs
          by_cases hjp : j < s.pos s.block
          · obtain ⟨b, hb, hc⟩ := h.covered j hjp hs
            exact ⟨b, by omega, hc⟩
          · refine ⟨s.block, h.blk, by omega, ?_⟩
            by_contra hge'
            exact hns4 j (by omega) (by omega) hs
        · intro q hq b hb
          exact h.lower q hq b (by omega)

theorem pushBody_spec {line rule : List Nat} (hL : line.length < 2 ^ 64)
    (hpos : PositiveRule rule) {s : PushState} (h : PushInv line rule s) :
    StepOK line rule s (pushBody line rule s) := by
  have hr : 0 < ruleAt rule s.block := hpos _ h.blk
  unfold pushBody
  simp only []
  -- the first loop: skip dots
  have hge := whileInc_ge (fun p => decide (p + ruleAt rule s.block < line.length) &&
    cellAt line p == nonogram_DOT) line.length (s.pos s.block)
  have hall := whileInc_all (fun p => decide (p + ruleAt rule s.block < line.length) &&
    cellAt line p == nonogram_DOT) line.length (s.pos s.block)
  have hstop := whileInc_stop (fun p => decide (p + ruleAt rule s.block < line.length) &&
    cellAt line p == nonogram_DOT) line.length (s.pos s.block)
    ⟨s.pos s.block + line.length, by omega, by omega, by
      simp only [Bool.and_eq_false_iff, decide_eq_false_iff_not]
      left; omega⟩
  generalize whileInc (fun p => decide (p + ruleAt rule s.block < line.length) &&
    cellAt line p == nonogram_DOT) line.length (s.pos s.block) = posv at hge hall hstop ⊢
  simp only [Bool.and_eq_false_iff, decide_eq_false_iff_not, beq_eq_false_iff_ne] at hstop
  have hall' : ∀ y, s.pos s.block ≤ y → y < posv →
      y + ruleAt rule s.block < line.length ∧ cellAt line y = nonogram_DOT := by
    intro y h1 h2
    have := hall y h1 h2
    simpa using this
  have hlow1 : ∀ q, ValidPlacement line rule q → posv ≤ q s.block := by
    intro q hq
    have h1 := h.lower q hq _ (Nat.le_refl _)
    by_contra hlt
    have h2 := hall' (q s.block) h1 (by omega)
    exact hq.start_nodot h.blk (Nat.le_refl _) (by omega) h2.2
  have hposvL : posv ≤ line.length + 1 := by
    by_cases he : posv = s.pos s.block
    · rw [he]; exact h.bound
    · have := hall' (posv - 1) (by omega) (by omega)
      omega
  have hns1 : ∀ j, s.pos s.block ≤ j → j < posv → cellAt line j ≠ nonogram_SOLID := by
    intro j h1 h2
    rw [(hall' j h1 h2).2]; decide
  by_cases hroom : (decide (posv + ruleAt rule s.block > line.length) ||
      cellAt line posv == nonogram_DOT) = true
  · -- no room left
    rw [if_pos hroom]
    simp only [Bool.or_eq_true, decide_eq_true_eq, beq_iff_eq] at hroom
    intro q hq
    have h1 := hlow1 q hq
    have h2 := hq.1 _ h.blk
    rcases hroom with h3 | h3
    · omega
    · have h4 : q s.block = posv := by
        rcases hstop with h5 | h5
        · omega
        · exact absurd h3 h5
      exact hq.start_nodot h.blk (Nat.le_refl _) (by omega) (h4 ▸ h3)
  · rw [if_neg hroom]
    simp only [Bool.or_eq_true, decide_eq_true_eq, beq_iff_eq, not_or, not_lt] at hroom
    obtain ⟨hfit, hnd0⟩ := hroom
    -- the scan of the cells under the block
    obtain ⟨hi, hnd, hdot, htrack⟩ := scanBlock_spec line posv (ruleAt rule s.block)
      (ruleAt rule s.block) 0 (-1) (by omega) (Nat.zero_le _) (by intro j hj; omega)
      (Or.inl ⟨rfl, by intro j hj; omega⟩)
    generalize scanBlock line posv (ruleAt rule s.block) (ruleAt rule s.block) 0 (-1) = r
      at hi hnd hdot htrack ⊢
    obtain ⟨i, sol⟩ := r
    simp only at hi hnd hdot htrack ⊢
    by_cases hdotc : i < ruleAt rule s.block
    · -- a dot was encountered under the block
      rw [if_pos hdotc]
      have hd := hdot hdotc
      have hi0 : 0 < i := by
        by_contra h0
        have : i = 0 := by omega
        subst this
        exact hnd0 hd
      by_cases hsolc : sol ≥ 0
      · rw [if_pos hsolc]
        rcases htrack with ⟨h1, _⟩ | ⟨m, h1, h2, h3, h4⟩
        · omega
        · have hinv1 := h.move posv sol hge hposvL hns1 hlow1
          apply StepOK.step_of_move
            (u := ⟨s.block, Function.update s.pos s.block posv,
              Function.update s.solid s.block sol⟩)
          · apply drawEarlier_spec hL hpos hinv1 m
            · simp only [Function.update_same]; exact h1
            · simp only [Function.update_same]; exact h3
            · simp only [Function.update_same]; exact h4
            · intro q hq
              simp only [Function.update_same]
              apply hq.earlier h.blk h3
              have h5 := hlow1 q hq
              by_contra hle
              exact hq.start_nodot h.blk (j := posv + i) (by omega) (by omega) hd
          · rfl
          · intro b hb
            have hne : b ≠ s.block := by omega
            simp [Function.update, hne]
          · simp only [Function.update_same]; exact hge
      · rw [if_neg hsolc]
        have hsol1 : ∀ j, j < i → cellAt line (posv + j) ≠ nonogram_SOLID := by
          rcases htrack with ⟨_, h2⟩ | ⟨m, h1, _, _, _⟩
          · exact h2
          · omega
        left
        refine ⟨h.move (posv + i) sol (by omega) (by omega) ?_ ?_, Or.inl ⟨Nat.le_refl _, ?_, ?_⟩⟩
        · intro j h1 h2
          by_cases hjp : j < posv
          · exact hns1 j h1 hjp
          · have := hsol1 (j - posv) (by omega)
            rwa [show posv + (j - posv) = j by omega] at this
        · intro q hq
          have h5 := hlow1 q hq
          by_contra hle
          exact hq.start_nodot h.blk (j := posv + i) (by omega) (by omega) hd
        · intro b hb
          simp only at hb
          have hne : b ≠ s.block := by omega
          simp [Function.update, hne]
        · simp only [Function.update_same]; omega
    · -- the block covers no dot: shuffle it right
      rw [if_neg hdotc]
      have hi' : i = ruleAt rule s.block := by omega
      subst hi'
      rw [shuffle_eq]
      have hge2 := whileInc_ge (shuffleCond line (ruleAt rule s.block)) line.length posv
      have hall2 := whileInc_all (shuffleCond line (ruleAt rule s.block)) line.length posv
      have hstop2 := whileInc_stop (shuffleCond line (ruleAt rule s.block)) line.length posv
        ⟨posv + line.length, by omega, by omega, by
          unfold shuffleCond
          simp only [Bool.and_eq_false_iff, decide_eq_false_iff_not]
          left; left; omega⟩
      generalize whileInc (shuffleCond line (ruleAt rule s.block)) line.length posv = posv2
        at hge2 hall2 hstop2 ⊢
      have hall2' : ∀ y, posv ≤ y → y < posv2 →
          y + ruleAt rule s.block < line.length ∧
          cellAt line (y + ruleAt rule s.block) = nonogram_SOLID ∧
          cellAt line y ≠ nonogram_SOLID :=
        fun y h1 h2 => (shuffleCond_iff _ _ _).1 (hall2 y h1 h2)
      have hfit2 : posv2 + ruleAt rule s.block ≤ line.length := by
        by_cases he : posv2 = posv
        · rw [he]; exact hfit
        · have := hall2' (posv2 - 1) (by omega) (by omega)
          omega
      have hlow2 : ∀ q, ValidPlacement line rule q → posv2 ≤ q s.block := by
        intro q hq
        have h1 := hlow1 q hq
        by_contra hlt
        have h2 := hall2' (q s.block) h1 (by omega)
        exact hq.no_touch h.blk h2.2.1
      have hns2 : ∀ j, s.pos s.block ≤ j → j < posv2 → cellAt line j ≠ nonogram_SOLID := by
        intro j h1 h2
        by_cases hjp : j < posv
        · exact hns1 j h1 hjp
        · exact (hall2' j (by omega) h2).2.2
      apply StepOK.step_of_move
        (u := ⟨s.block, Function.update s.pos s.block posv2, Function.update s.solid s.block _⟩)
      · apply pushPlace_spec hL hpos (h.move posv2 _ (by omega) (by omega) hns2 hlow2)
        · simp only [Function.update_same]; exact hfit2
        · simp only [Function.update_same]
          intro j hj
          by_cases hjp : posv2 + j < posv + ruleAt rule s.block
          · have := hnd (posv2 + j - posv) (by omega)
            rwa [show posv + (posv2 + j - posv) = posv2 + j by omega] at this
          · have := (hall2' (posv2 + j - ruleAt rule s.block) (by omega) (by omega)).2.1
            rw [show posv2 + j - ruleAt rule s.block + ruleAt rule s.block = posv2 + j by omega]
              at this
            rw [this]; decide
        · simp only [Function.update_same]
          by_cases hc0 : (decide (posv + ruleAt rule s.block < line.length) &&
              cellAt line (posv + ruleAt rule s.block) == nonogram_SOLID && decide (sol < 0))
              = true
          · rw [if_pos hc0]
            simp only [Bool.and_eq_true, decide_eq_true_eq, beq_iff_eq] at hc0
            have hnsb : ∀ j, j < ruleAt rule s.block → cellAt line (posv + j) ≠ nonogram_SOLID := by
              rcases htrack with ⟨_, h2⟩ | ⟨m, h1, _, _, _⟩
              · exact h2
              · omega
            have hp2 : posv2 ≤ posv + ruleAt rule s.block := by
              by_contra hgt
              exact (hall2' (posv + ruleAt rule s.block) (by omega) (by omega)).2.2 hc0.1.2
            right
            refine ⟨posv + ruleAt rule s.block - posv2, by omega, by omega, ?_, ?_⟩
            · rw [show posv2 + (posv + ruleAt rule s.block - posv2) = posv + ruleAt rule s.block
                by omega]
              exact hc0.1.2
            · intro j hj
              by_cases hjp : posv2 + j < posv + ruleAt rule s.block
              · have := hnsb (posv2 + j - posv) (by omega)
                rwa [show posv + (posv2 + j - posv) = posv2 + j by omega] at this
              · omega
          · rw [if_neg hc0]
            simp only [Bool.and_eq_true, decide_eq_true_eq, beq_iff_eq, not_and, not_lt] at hc0
            rcases htrack with ⟨h1, h2⟩ | ⟨m, h1, h2, h3, h4⟩
            · have hnot : cellAt line (posv + ruleAt rule s.block) ≠ nonogram_SOLID := by
                by_cases hlt : posv + ruleAt rule s.block < line.length
                · intro hs
                  have := hc0 ⟨hlt, hs⟩
                  omega
                · rw [cellAt_of_le (Nat.le_of_not_lt hlt)]; decide
              have he : posv2 = posv := by
                by_contra hne
                exact hnot (hall2' posv (Nat.le_refl _) (by omega)).2.1
              subst he
              left
              refine ⟨by omega, ?_⟩
              intro j hj
              by_cases hjr : j = ruleAt rule s.block
              · subst hjr; exact hnot
              · exact h2 j (by omega)
            · have hp2 : posv2 ≤ posv + m := by
                by_contra hgt
                exact (hall2' (posv + m) (by omega) (by omega)).2.2 h3
              right
              refine ⟨posv + m - posv2, by omega, by omega, ?_, ?_⟩
              · rw [show posv2 + (posv + m - posv2) = posv + m by omega]
                exact h3
              · intro j hj
                have := h4 (posv2 + j - posv) (by omega)
                rwa [show posv + (posv2 + j - posv) = posv2 + j by omega] at this
        · simp only [Function.update_same]
          exact hstop2
      · rfl
      · intro b hb
        have hne : b ≠ s.block := by omega
        simp [Function.update, hne]
      · simp only [Function.update_same]; omega

theorem horner_lt (B : Nat) (d : Nat → Nat) (n : Nat) (h : ∀ b, b < n → d b < B) :
    horner B d n < B ^ n := by
  induction n with
  | zero => simp [horner]
  | succ n ih =>
    have h1 := ih (fun b hb => h b (by omega))
    have h2 := h n (by omega)
    simp only [horner, pow_succ]
    calc horner B d n * B + d n < horner B d n * B + B := by omega
      _ = (horner B d n + 1) * B := by ring
      _ ≤ B ^ n * B := Nat.mul_le_mul_right B h1

theorem horner_congr (B : Nat) (d d' : Nat → Nat) (n : Nat) (h : ∀ b, b < n → d b = d' b) :
    horner B d n = horner B d' n := by
  induction n with
  | zero => rfl
  | succ n ih =>
    simp only [horner]
    rw [ih (fun b hb => h b (by omega)), h n (by omega)]

theorem horner_lex (B : Nat) (d d' : Nat → Nat) (n i : Nat) (hi : i < n)
    (hsame : ∀ b, b < i → d b = d' b) (hlt : d i < d' i) (hB : ∀ b, b < n → d b < B) :
    horner B d n < horner B d' n := by
  induction n with
  | zero => omega
  | succ n ih =>
    simp only [horner]
    by_cases he : i = n
    · subst he
      rw [horner_congr B d d' i hsame]
      omega
    · have h1 := ih (by omega) (fun b hb => hB b (by omega))
      have h2 := hB n (by omega)
      calc horner B d n * B + d n < horner B d n * B + B := by omega
        _ = (horner B d n + 1) * B := by ring
        _ ≤ horner B d' n * B := Nat.mul_le_mul_right B h1
        _ ≤ horner B d' n * B + d' n := Nat.le_add_right _ _

theorem pushDigit_lt {line rule : List Nat} {s : PushState} (h : PushInv line rule s)
    (b : Nat) : pushDigit s b < line.length + 3 := by
  unfold pushDigit
  split
  · rename_i hb
    by_cases he : b = s.block
    · subst he; have := h.bound; omega
    · have := (h.placed b (by omega)).fit; omega
  · omega

theorem pushMeasure_lt {line rule : List Nat} {s : PushState} (h : PushInv line rule s) :
    pushMeasure line rule s < (line.length + 3) ^ rule.length :=
  horner_lt _ _ _ (fun b _ => pushDigit_lt h b)

theorem pushMeasure_adv {line rule : List Nat} {s s' : PushState} (h : PushInv line rule s)
    (h' : PushInv line rule s') (hadv : Adv s s') :
    pushMeasure line rule s < pushMeasure line rule s' := by
  unfold pushMeasure
  rcases hadv with ⟨h1, h2, h3⟩ | ⟨h1, h2, h3⟩
  · apply horner_lex _ _ _ _ s'.block h'.blk
    · intro b hb
      unfold pushDigit
      rw [if_pos (by omega), if_pos (by omega), h2 b hb]
    · unfold pushDigit
      rw [if_pos h1, if_pos (Nat.le_refl _)]
      omega
    · exact fun b _ => pushDigit_lt h b
  · by_cases he : s.pos s.block = s'.pos s.block
    · apply horner_lex _ _ _ _ s'.block h'.blk
      · intro b hb
        unfold pushDigit
        rw [if_pos (by omega), if_pos (by omega)]
        by_cases hbb : b = s.block
        · subst hbb; rw [he]
        · rw [h2 b (by omega)]
      · unfold pushDigit
        rw [if_neg (by omega), if_pos (Nat.le_refl _)]
        omega
      · exact fun b _ => pushDigit_lt h b
    · apply horner_lex _ _ _ _ s.block h.blk
      · intro b hb
        unfold pushDigit
        rw [if_pos (by omega), if_pos (by omega), h2 b hb]
      · unfold pushDigit
        rw [if_pos (Nat.le_refl _), if_pos (by omega)]
        omega
      · exact fun b _ => pushDigit_lt h b

theorem pushLoop_spec {line rule : List Nat} (hL : line.length < 2 ^ 64)
    (hpos : PositiveRule rule) (fuel : Nat) (s : PushState) (h : PushInv line rule s)
    (hfuel : (line.length + 3) ^ rule.length + 1 ≤ pushMeasure line rule s + fuel) :
    (pushLoop line rule fuel s = some none ∧ ∀ q, ¬ ValidPlacement line rule q) ∨
    (∃ p, pushLoop line rule fuel s = some (some p) ∧ LeastPlacement line rule p) := by
  induction fuel generalizing s with
  | zero =>
    have := pushMeasure_lt h
    omega
  | succ fuel ih =>
    have hm := pushMeasure_lt h
    have hstep := pushBody_spec hL hpos h
    unfold pushLoop
    rw [if_pos h.blk]
    revert hstep
    cases pushBody line rule s with
    | none =>
      intro hstep
      exact Or.inl ⟨rfl, hstep⟩
    | some s' =>
      intro hstep
      simp only []
      rcases hstep with ⟨h1, h2⟩ | ⟨h1, h2, h3⟩
      · have := pushMeasure_adv h h1 h2
        exact ih s' h1 (by omega)
      · right
        refine ⟨s'.pos, ?_, h2, h3⟩
        obtain ⟨f, hf⟩ : ∃ f, fuel = f + 1 := ⟨fuel - 1, by omega⟩
        subst hf
        unfold pushLoop
        rw [if_neg (by omega)]

/-- The outcome of the main loop from the initial state, for a rule with at
least one block. -/
theorem pushLoop_init {line rule : List Nat} (hL : line.length < 2 ^ 64)
    (hpos : PositiveRule rule) (hk : 0 < rule.length) (solid0 : Nat → Int) :
    (pushLoop line rule (pushFuel line rule) (pushInit solid0) = some none ∧
      ∀ q, ¬ ValidPlacement line rule q) ∨
    (∃ p, pushLoop line rule (pushFuel line rule) (pushInit solid0) = some (some p) ∧
      LeastPlacement line rule p) := by
  apply pushLoop_spec hL hpos
  · refine ⟨hk, ?_, ?_, ?_, ?_⟩
    · intro b hb; exact absurd hb (Nat.not_lt_zero _)
    · intro j hj; exact absurd hj (Nat.not_lt_zero _)
    · intro q _ b _; exact Nat.zero_le _
    · exact Nat.zero_le _
  · unfold pushFuel; omega

theorem posFn_map_range (p : Nat → Nat) (k i : Nat) (hi : i < k) :
    posFn ((List.range k).map p) i = p i := by
  unfold posFn
  rw [List.getD_eq_getElem?_getD, List.getElem?_map, List.getElem?_range hi]
  rfl

theorem ValidPlacement.vp_congr {line rule : List Nat} {p q : Nat → Nat}
    (hp : ValidPlacement line rule p) (h : ∀ i, i < rule.length → q i = p i) :
    ValidPlacement line rule q := by
  obtain ⟨h1, h2, h3, h4⟩ := hp
  refine ⟨?_, ?_, ?_, ?_⟩
  · intro i hi; rw [h i hi]; exact h1 i hi
  · intro i hi hi'; rw [h i hi, h (i + 1) hi']; exact h2 i hi hi'
  · intro i hi j hj; rw [h i hi]; exact h3 i hi j hj
  · intro j hj hs
    obtain ⟨i, hi, hc⟩ := h4 j hj hs
    exact ⟨i, hi, by rw [h i hi]; exact hc⟩

/-- The outcome of `nonogram_push` for a rule with at least one block: it
returns 0 and there is no valid placement, or it returns 1 and the written
positions are the least valid placement. -/
theorem nonogram_push_spec {line rule : List Nat} (hL : line.length < 2 ^ 64)
    (hpos : PositiveRule rule) (hk : 0 < rule.length) :
    (nonogram_push line rule = some none ∧ ∀ q, ¬ ValidPlacement line rule q) ∨
    (∃ pos, nonogram_push line rule = some (some pos) ∧ pos.length = rule.length ∧
      LeastPlacement line rule (posFn pos)) := by
  unfold nonogram_push
  rcases pushLoop_init hL hpos hk (fun _ => 0) with ⟨h1, h2⟩ | ⟨p, h1, h2, h3⟩
  · left
    rw [h1]
    exact ⟨rfl, h2⟩
  · right
    rw [h1]
    refine ⟨(List.range rule.length).map p, rfl, by simp, ?_, ?_⟩
    · exact h2.vp_congr (fun i hi => posFn_map_range p _ i hi)
    · intro q hq b hb
      rw [posFn_map_range p _ b hb]
      exact h3 q hq b hb

theorem nonogram_push_nil (line : List Nat) : nonogram_push line [] = some (some []) := by
  unfold nonogram_push pushFuel
  simp [pushLoop]

/-- Soundness of `nonogram_push` for a rule with at least one block. -/
theorem nonogram_push_sound {line rule : List Nat} (hL : line.length < 2 ^ 64)
    (hpos : PositiveRule rule) (hk : 0 < rule.length) {pos : List Nat}
    (h : nonogram_push line rule = some (some pos)) :
    pos.length = rule.length ∧ LeastPlacement line rule (posFn pos) := by
  rcases nonogram_push_spec hL hpos hk with ⟨h1, _⟩ | ⟨pos', h1, h2, h3⟩
  · rw [h1] at h; simp at h
  · rw [h1] at h
    simp only [Option.some.injEq] at h
    subst h
    exact ⟨h2, h3⟩

/-- `nonogram_push` always finishes within its iteration budget. -/
theorem nonogram_push_ne_none {line rule : List Nat} (hL : line.length < 2 ^ 64)
    (hpos : PositiveRule rule) : nonogram_push line rule ≠ none := by
  by_cases hk : 0 < rule.length
  · rcases nonogram_push_spec hL hpos hk with ⟨h1, _⟩ | ⟨pos', h1, _, _⟩ <;> rw [h1] <;> simp
  · have : rule = [] := List.length_eq_zero.1 (by omega)
    subst this
    rw [nonogram_push_nil]; simp

/-- C1, failing input: on the one-cell line `[SOLID]` with the empty rule
`nonogram_push` returns 1 (writing no position), although the solid cell
lies inside no block: no placement of the empty rule is valid there. -/
theorem push_empty_rule_ignores_solid :
    nonogram_push [nonogram_SOLID] [] = some (some []) ∧
    ∀ q, ¬ ValidPlacement [nonogram_SOLID] [] q := by
  refine ⟨nonogram_push_nil _, ?_⟩
  intro q hq
  obtain ⟨i, hi, _⟩ := hq.2.2.2 0 (by decide) rfl
  exact absurd hi (Nat.not_lt_zero _)

/-- C2: push completeness.  For every line and every rule of positive
blocks `nonogram_push` returns 0 only if no valid placement exists, and
whenever a valid placement exists it returns 1. -/
theorem nonogram_push_complete (line rule : List Nat) (hL : line.length < 2 ^ 64)
    (hpos : PositiveRule rule) :
    (nonogram_push line rule = some none → ∀ q, ¬ ValidPlacement line rule q) ∧
    ((∃ q, ValidPlacement line rule q) → ∃ pos, nonogram_push line rule = some (some pos)) := by
  by_cases hk : 0 < rule.length
  · rcases nonogram_push_spec hL hpos hk with ⟨h1, h2⟩ | ⟨pos, h1, _, _⟩
    · exact ⟨fun _ => h2, fun ⟨q, hq⟩ => absurd hq (h2 q)⟩
    · refine ⟨fun h => ?_, fun _ => ⟨pos, h1⟩⟩
      rw [h1] at h; simp at h
  · have : rule = [] := List.length_eq_zero.1 (by omega)
    subst this
    rw [nonogram_push_nil]
    exact ⟨fun h => by simp at h, fun _ => ⟨[], rfl⟩⟩

theorem nonogram_push_complete_witness :
    [0, 2, 0, 1, 0, 0].length < 2 ^ 64 ∧ PositiveRule [2, 1] ∧
    ((nonogram_push [0, 2, 0, 1, 0, 0] [2, 1] = some none →
        ∀ q, ¬ ValidPlacement [0, 2, 0, 1, 0, 0] [2, 1] q) ∧
      ((∃ q, ValidPlacement [0, 2, 0, 1, 0, 0] [2, 1] q) →
        ∃ pos, nonogram_push [0, 2, 0, 1, 0, 0] [2, 1] = some (some pos))) :=
  ⟨by decide, by decide, nonogram_push_complete [0, 2, 0, 1, 0, 0] [2, 1] (by decide) (by decide)⟩

/-- C3: push minimality.  Whenever `nonogram_push` returns 1, it has written
one position per block, and for every block `i` the position `pos[i]` is the
start of block `i` in some valid placement and is at or before the start of
block `i` in every valid placement. -/
theorem nonogram_push_minimal (line rule pos : List Nat) (hL : line.length < 2 ^ 64)
    (hpos : PositiveRule rule) (h : nonogram_push line rule = some (some pos)) :
    pos.length = rule.length ∧
    ∀ i, i < rule.length →
      (∃ q, ValidPlacement line rule q ∧ q i = posFn pos i) ∧
      (∀ q, ValidPlacement line rule q → posFn pos i ≤ q i) := by
  by_cases hk : 0 < rule.length
  · obtain ⟨h1, h2, h3⟩ := nonogram_push_sound hL hpos hk h
    exact ⟨h1, fun i hi => ⟨⟨posFn pos, h2, rfl⟩, fun q hq => h3 q hq i hi⟩⟩
  · have : rule = [] := List.length_eq_zero.1 (by omega)
    subst this
    rw [nonogram_push_nil] at h
    simp only [Option.some.injEq] at h
    subst h
    exact ⟨rfl, fun i hi => absurd hi (Nat.not_lt_zero _)⟩

theorem nonogram_push_minimal_witness :
    [0, 2, 0, 1, 0, 0].length < 2 ^ 64 ∧ PositiveRule [2, 1] ∧
    nonogram_push [0, 2, 0, 1, 0, 0] [2, 1] = some (some [0, 4]) ∧
    ([0, 4].length = [2, 1].length ∧
      ∀ i, i < [2, 1].length →
        (∃ q, ValidPlacement [0, 2, 0, 1, 0, 0] [2, 1] q ∧ q i = posFn [0, 4] i) ∧
        (∀ q, ValidPlacement [0, 2, 0, 1, 0, 0] [2, 1] q → posFn [0, 4] i ≤ q i)) :=
  ⟨by decide, by decide, by decide,
    nonogram_push_minimal [0, 2, 0, 1, 0, 0] [2, 1] [0, 4] (by decide) (by decide) (by decide)⟩

theorem runsAux_head_ge (st : List Nat) (cur : Nat) (h : 0 < cur) :
    ∃ x xs, runsAux st cur = x :: xs ∧ cur ≤ x := by
  induction st generalizing cur with
  | nil =>
    refine ⟨cur, [], ?_, Nat.le_refl _⟩
    simp [runsAux, Nat.ne_of_gt h]
  | cons c st ih =>
    unfold runsAux
    split
    · obtain ⟨x, xs, h1, h2⟩ := ih (cur + 1) (by omega)
      exact ⟨x, xs, h1, by omega⟩
    · rw [if_neg (Nat.ne_of_gt h)]
      exact ⟨cur, _, rfl, Nat.le_refl _⟩

theorem drop_eq_cons_ruleAt (r : List Nat) (j : Nat) (h : j < r.length) :
    r.drop j = ruleAt r j :: r.drop (j + 1) := by
  unfold ruleAt
  rw [List.getD_eq_getElem?_getD, List.getElem?_eq_getElem h]
  exact List.drop_eq_getElem_cons h

theorem checkline_aux (r : List Nat) (st : List Nat) (hdet : Determined st) :
    (∀ j blen, j ≤ r.length →
      (checklineEnd r (checklineLoop r st (2 * j) blen) = 0 ↔ runsAux st 0 = r.drop j) ∧
      (checklineEnd r (checklineLoop r st (2 * j) blen) = 0 ∨
        checklineEnd r (checklineLoop r st (2 * j) blen) = -1)) ∧
    (∀ j blen, j < r.length → 0 < blen →
      (checklineEnd r (checklineLoop r st (2 * j + 1) blen) = 0 ↔ runsAux st blen = r.drop j) ∧
      (checklineEnd r (checklineLoop r st (2 * j + 1) blen) = 0 ∨
        checklineEnd r (checklineLoop r st (2 * j + 1) blen) = -1)) := by
  induction st with
  | nil =>
    constructor
    · intro j blen hj
      have h0 : (2 * j) % 2 = 0 := by omega
      simp only [checklineLoop, checklineEnd, h0, runsAux]
      by_cases he : j = r.length
      · subst he; simp
      · have h1 : r.drop j ≠ [] := by
          intro h
          have := List.drop_eq_nil_iff.1 h
          omega
        have h2 : 2 * j ≠ 2 * r.length := by omega
        simp [h2, Ne.symm h1]
    · intro j blen hj hb
      have h0 : (2 * j + 1) % 2 = 1 := by omega
      have h1 : (2 * j + 1) / 2 = j := by omega
      simp only [checklineLoop, checklineEnd, h0, h1, runsAux, Nat.ne_of_gt hb, if_false]
      rw [drop_eq_cons_ruleAt r j hj]
      by_cases hbl : blen = ruleAt r j
      · by_cases hlast : j + 1 = r.length
        · have h2 : r.drop (j + 1) = [] := List.drop_eq_nil_iff.2 (by omega)
          have h3 : 2 * j + 1 + 1 = 2 * r.length := by omega
          simp [hbl, h2, h3]
        · have h2 : r.drop (j + 1) ≠ [] := by
            intro h
            have := List.drop_eq_nil_iff.1 h
            omega
          have h3 : 2 * j + 1 + 1 ≠ 2 * r.length := by omega
          simp [hbl, Ne.symm h2, h3]
      · simp [hbl]
  | cons c st ih =>
    have hdet' : Determined st := fun x hx => hdet x (List.mem_cons_of_mem _ hx)
    obtain ⟨ihe, iho⟩ := ih hdet'
    have hc : c = nonogram_DOT ∨ c = nonogram_SOLID := hdet c (List.mem_cons_self _ _)
    constructor
    · intro j blen hj
      have h0 : (2 * j) % 2 = 0 := by omega
      have h1 : (2 * j + 1) / 2 = j := by omega
      rcases hc with hc | hc
      · subst hc
        simp only [checklineLoop, h0, runsAux]
        simpa using ihe j blen hj
      · subst hc
        simp only [checklineLoop, h0, h1, runsAux]
        by_cases hjl : j ≥ r.length
        · have h2 : r.drop j = [] := List.drop_eq_nil_iff.2 hjl
          obtain ⟨x, xs, h3, _⟩ := runsAux_head_ge st (0 + 1) (by omega)
          simp [hjl, checklineEnd, h2, h3]
        · simpa [hjl] using iho j 1 (by omega) (by omega)
    · intro j blen hj hb
      have h0 : (2 * j + 1) % 2 = 1 := by omega
      have h1 : (2 * j + 1) / 2 = j := by omega
      have h2 : 2 * j + 1 + 1 = 2 * (j + 1) := by omega
      rcases hc with hc | hc
      · subst hc
        simp only [checklineLoop, h0, h1, runsAux]
        rw [drop_eq_cons_ruleAt r j hj]
        by_cases hbl : blen = ruleAt r j
        · have := ihe (j + 1) blen (by omega)
          simp only [h2]
          simpa [hbl, Nat.ne_of_gt (hbl ▸ hb)] using this
        · simp [hbl, checklineEnd, Nat.ne_of_gt hb]
      · subst hc
        simp only [checklineLoop, h0, h1, runsAux]
        by_cases hbl : blen + 1 > ruleAt r j
        · obtain ⟨x, xs, h3, h4⟩ := runsAux_head_ge st (blen + 1) (by omega)
          rw [drop_eq_cons_ruleAt r j hj, h3]
          have : x ≠ ruleAt r j := by omega
          simp [hbl, checklineEnd, this]
        · simpa [hbl] using iho j (blen + 1) hj (by omega)

/-- With exact counters: for every rule `r` and every line whose cells are
all DOT or SOLID, the check gives 0 if and only if the sequence of lengths of
the maximal SOLID runs of the line equals `r`, and -1 otherwise. -/
theorem nonogram_checkline_determined (r st : List Nat) (hdet : Determined st) :
    (nonogram_checkline r st = 0 ↔ solidRuns st = r) ∧
    (nonogram_checkline r st ≠ 0 → nonogram_checkline r st = -1) := by
  have h := (checkline_aux r st hdet).1 0 0 (Nat.zero_le _)
  simp only [Nat.mul_zero, List.drop_zero] at h
  unfold nonogram_checkline solidRuns
  refine ⟨h.1, fun hne => ?_⟩
  rcases h.2 with h2 | h2
  · exact absurd h2 hne
  · exact h2

theorem nonogram_checkline_determined_witness :
    Determined [1, 2, 1, 1, 2, 2] ∧
    ((nonogram_checkline [1, 2] [1, 2, 1, 1, 2, 2] = 0 ↔ solidRuns [1, 2, 1, 1, 2, 2] = [1, 2]) ∧
      (nonogram_checkline [1, 2] [1, 2, 1, 1, 2, 2] ≠ 0 →
        nonogram_checkline [1, 2] [1, 2, 1, 1, 2, 2] = -1)) :=
  ⟨by decide, nonogram_checkline_determined [1, 2] [1, 2, 1, 1, 2, 2] (by decide)⟩

theorem fillLine_determined (bs : List Nat) : Determined (fillLine bs) := by
  induction bs with
  | nil => intro c hc; simp [fillLine] at hc
  | cons b bs ih =>
    intro c hc
    simp only [fillLine, List.mem_append, List.mem_cons, List.mem_replicate] at hc
    rcases hc with ⟨_, hc⟩ | hc | hc
    · exact Or.inr hc
    · exact Or.inl hc
    · exact ih c hc

theorem runsAux_replicate (n cur : Nat) (t : List Nat) :
    runsAux (List.replicate n nonogram_SOLID ++ t) cur = runsAux t (cur + n) := by
  induction n generalizing cur with
  | zero => simp
  | succ n ih =>
    rw [List.replicate_succ, List.cons_append]
    simp only [runsAux, if_true]
    rw [ih]
    congr 1
    omega

theorem runsAux_fillLine (bs : List Nat) (h : ∀ b, b ∈ bs → 0 < b) :
    runsAux (fillLine bs) 0 = bs := by
  induction bs with
  | nil => simp [fillLine, runsAux]
  | cons b bs ih =>
    have hb : 0 < b := h b (List.mem_cons_self _ _)
    simp only [fillLine]
    rw [runsAux_replicate]
    have hne : ¬ (nonogram_DOT = nonogram_SOLID) := by decide
    simp only [runsAux, hne, if_false, Nat.zero_add, Nat.ne_of_gt hb]
    rw [ih (fun x hx => h x (List.mem_cons_of_mem _ hx))]

theorem positive_mem {r : List Nat} (h : PositiveRule r) (x : Nat) (hx : x ∈ r) : 0 < x := by
  obtain ⟨i, hi, he⟩ := List.getElem_of_mem hx
  have := h i hi
  unfold ruleAt at this
  rw [List.getD_eq_getElem?_getD, List.getElem?_eq_getElem hi] at this
  simp only [Option.getD_some] at this
  rw [he] at this
  exact this

theorem checkline_blank_aux (r : List Nat) (c : Nat) (rest : List Nat)
    (hc1 : c ≠ nonogram_DOT) (hc2 : c ≠ nonogram_SOLID) (pre : List Nat)
    (hdet : Determined pre) :
    (∀ j blen, j ≤ r.length →
      (checklineEnd r (checklineLoop r (pre ++ c :: rest) (2 * j) blen) = 1 ∨
        checklineEnd r (checklineLoop r (pre ++ c :: rest) (2 * j) blen) = -1) ∧
      ((∃ s, Determined s ∧ runsAux (pre ++ s) 0 = r.drop j) →
        checklineEnd r (checklineLoop r (pre ++ c :: rest) (2 * j) blen) = 1) ∧
      (PositiveRule r →
        checklineEnd r (checklineLoop r (pre ++ c :: rest) (2 * j) blen) = 1 →
        ∃ s, Determined s ∧ runsAux (pre ++ s) 0 = r.drop j)) ∧
    (∀ j blen, j < r.length → 0 < blen →
      (checklineEnd r (checklineLoop r (pre ++ c :: rest) (2 * j + 1) blen) = 1 ∨
        checklineEnd r (checklineLoop r (pre ++ c :: rest) (2 * j + 1) blen) = -1) ∧
      ((∃ s, Determined s ∧ runsAux (pre ++ s) blen = r.drop j) →
        checklineEnd r (checklineLoop r (pre ++ c :: rest) (2 * j + 1) blen) = 1) ∧
      (PositiveRule r → blen ≤ ruleAt r j →
        checklineEnd r (checklineLoop r (pre ++ c :: rest) (2 * j + 1) blen) = 1 →
        ∃ s, Determined s ∧ runsAux (pre ++ s) blen = r.drop j)) := by
  induction pre with
  | nil =>
    have hres : ∀ rno blen, checklineEnd r (checklineLoop r ([] ++ c :: rest) rno blen) = 1 := by
      intro rno blen
      simp [checklineLoop, checklineEnd, hc1, hc2]
    constructor
    · intro j blen _
      refine ⟨Or.inl (hres _ _), fun _ => hres _ _, fun hp _ => ?_⟩
      refine ⟨fillLine (r.drop j), fillLine_determined _, ?_⟩
      rw [List.nil_append]
      exact runsAux_fillLine _ (fun b hb => positive_mem hp b (List.mem_of_mem_drop hb))
    · intro j blen hj hb
      refine ⟨Or.inl (hres _ _), fun _ => hres _ _, fun hp hle _ => ?_⟩
      refine ⟨List.replicate (ruleAt r j - blen) nonogram_SOLID ++
        nonogram_DOT :: fillLine (r.drop (j + 1)), ?_, ?_⟩
      · intro x hx
        simp only [List.mem_append, List.mem_cons, List.mem_replicate] at hx
        rcases hx with ⟨_, hx⟩ | hx | hx
        · exact Or.inr hx
        · exact Or.inl hx
        · exact fillLine_determined _ x hx
      · rw [List.nil_append, runsAux_replicate, drop_eq_cons_ruleAt r j hj]
        have hne : ¬ (nonogram_DOT = nonogram_SOLID) := by decide
        have h1 : blen + (ruleAt r j - blen) = ruleAt r j := by omega
        have h2 : ruleAt r j ≠ 0 := by omega
        simp only [runsAux, hne, if_false, h1, h2]
        rw [runsAux_fillLine _ (fun b hb => positive_mem hp b (List.mem_of_mem_drop hb))]
  | cons x pre ih =>
    have hdet' : Determined pre := fun y hy => hdet y (List.mem_cons_of_mem _ hy)
    obtain ⟨ihe, iho⟩ := ih hdet'
    have hx : x = nonogram_DOT ∨ x = nonogram_SOLID := hdet x (List.mem_cons_self _ _)
    constructor
    · intro j blen hj
      have h0 : (2 * j) % 2 = 0 := by omega
      have h1 : (2 * j + 1) / 2 = j := by omega
      rcases hx with hx | hx
      · subst hx
        simp only [List.cons_append, checklineLoop, h0, runsAux]
        simpa using ihe j blen hj
      · subst hx
        simp only [List.cons_append, checklineLoop, h0, h1, runsAux]
        by_cases hjl : j ≥ r.length
        · have h2 : r.drop j = [] := List.drop_eq_nil_iff.2 hjl
          have h3 : ∀ s, runsAux (pre ++ s) (0 + 1) ≠ [] := by
            intro s hs
            obtain ⟨y, ys, h4, _⟩ := runsAux_head_ge (pre ++ s) (0 + 1) (by omega)
            rw [h4] at hs; simp at hs
          simp [hjl, checklineEnd, h2, h3]
        · have hp1 : PositiveRule r → 1 ≤ ruleAt r j := fun hp => hp j (by omega)
          have := iho j 1 (by omega) (by omega)
          simp only [Nat.zero_add] at this ⊢
          refine ⟨by simpa [hjl] using this.1, by simpa [hjl] using this.2.1, ?_⟩
          intro hp
          simpa [hjl] using this.2.2 hp (hp1 hp)
    · intro j blen hj hb
      have h0 : (2 * j + 1) % 2 = 1 := by omega
      have h1 : (2 * j + 1) / 2 = j := by omega
      have h2 : 2 * j + 1 + 1 = 2 * (j + 1) := by omega
      rcases hx with hx | hx
      · subst hx
        simp only [List.cons_append, checklineLoop, h0, h1, runsAux]
        rw [drop_eq_cons_ruleAt r j hj]
        by_cases hbl : blen = ruleAt r j
        · have := ihe (j + 1) blen (by omega)
          simp only [h2]
          simpa [hbl, Nat.ne_of_gt (hbl ▸ hb)] using this
        · simp [hbl, checklineEnd, Nat.ne_of_gt hb]
      · subst hx
        simp only [List.cons_append, checklineLoop, h0, h1, runsAux]
        by_cases hbl : blen + 1 > ruleAt r j
        · have h3 : ∀ s, runsAux (pre ++ s) (blen + 1) ≠ r.drop j := by
            intro s hs
            obtain ⟨y, ys, h4, h5⟩ := runsAux_head_ge (pre ++ s) (blen + 1) (by omega)
            rw [drop_eq_cons_ruleAt r j hj, h4] at hs
            simp only [List.cons.injEq] at hs
            omega
          simp [hbl, checklineEnd, h3]
        · have := iho j (blen + 1) hj (by omega)
          refine ⟨by simpa [hbl] using this.1, by simpa [hbl] using this.2.1, ?_⟩
          intro hp _
          simpa [hbl] using this.2.2 hp (by omega)

/-- With exact counters: the line `[SOLID, SOLID, BLANK]` contains a BLANK
cell, yet for the rule `[1]` the check gives -1, not 1: the mismatch in the
first two cells is found before the BLANK cell is read. -/
theorem nonogram_checkline_blank_counterexample :
    (∃ c, c ∈ [nonogram_SOLID, nonogram_SOLID, nonogram_BLANK] ∧
      (c = nonogram_BLANK ∨ c = nonogram_BOTH)) ∧
    nonogram_checkline [1] [nonogram_SOLID, nonogram_SOLID, nonogram_BLANK] = -1 := by
  decide

/-- With exact counters: for every rule of positive blocks and every line
whose first indeterminate cell `c` (neither DOT nor SOLID) comes after the
cells `pre`, the check gives 1 if `pre` can be completed by DOT and SOLID
cells to a line whose SOLID runs are the rule, and -1 otherwise; it never
gives 0. -/
theorem nonogram_checkline_indeterminate (r pre : List Nat) (c : Nat) (rest : List Nat)
    (hr : PositiveRule r) (hdet : Determined pre)
    (hc1 : c ≠ nonogram_DOT) (hc2 : c ≠ nonogram_SOLID) :
    (nonogram_checkline r (pre ++ c :: rest) = 1 ↔
      ∃ s, Determined s ∧ solidRuns (pre ++ s) = r) ∧
    (nonogram_checkline r (pre ++ c :: rest) ≠ 1 →
      nonogram_checkline r (pre ++ c :: rest) = -1) := by
  have h := (checkline_blank_aux r c rest hc1 hc2 pre hdet).1 0 0 (Nat.zero_le _)
  simp only [Nat.mul_zero, List.drop_zero] at h
  unfold nonogram_checkline solidRuns
  refine ⟨⟨h.2.2 hr, h.2.1⟩, fun hne => ?_⟩
  rcases h.1 with h2 | h2
  · exact absurd h2 hne
  · exact h2

theorem nonogram_checkline_indeterminate_witness :
    PositiveRule [2, 1] ∧ Determined [1, 2] ∧ (0 : Nat) ≠ nonogram_DOT ∧
    (0 : Nat) ≠ nonogram_SOLID ∧
    ((nonogram_checkline [2, 1] ([1, 2] ++ 0 :: [3, 2]) = 1 ↔
        ∃ s, Determined s ∧ solidRuns ([1, 2] ++ s) = [2, 1]) ∧
      (nonogram_checkline [2, 1] ([1, 2] ++ 0 :: [3, 2]) ≠ 1 →
        nonogram_checkline [2, 1] ([1, 2] ++ 0 :: [3, 2]) = -1)) :=
  ⟨by decide, by decide, by decide, by decide,
    nonogram_checkline_indeterminate [2, 1] [1, 2] 0 [3, 2] (by decide) (by decide)
      (by decide) (by decide)⟩

theorem cellAt_reverse (line : List Nat) (j : Nat) (hj : j < line.length) :
    cellAt line.reverse j = cellAt line (line.length - 1 - j) := by
  unfold cellAt
  rw [List.getD_eq_getElem?_getD, List.getD_eq_getElem?_getD,
    List.getElem?_reverse hj]

theorem ruleAt_reverse (rule : List Nat) (i : Nat) (hi : i < rule.length) :
    ruleAt rule.reverse i = ruleAt rule (rule.length - 1 - i) :=
  cellAt_reverse rule i hi

theorem positiveRule_reverse {rule : List Nat} (h : PositiveRule rule) :
    PositiveRule rule.reverse := by
  intro i hi
  rw [List.length_reverse] at hi
  rw [ruleAt_reverse rule i hi]
  exact h _ (by omega)

theorem validPlacement_reverse {line rule : List Nat} {q : Nat → Nat}
    (hq : ValidPlacement line rule q) :
    ValidPlacement line.reverse rule.reverse (revPlacement line.length rule q) := by
  obtain ⟨h1, h2, h3, h4⟩ := hq
  refine ⟨?_, ?_, ?_, ?_⟩
  · intro i hi
    rw [List.length_reverse] at hi ⊢
    rw [ruleAt_reverse rule i hi]
    unfold revPlacement
    have := h1 (rule.length - 1 - i) (by omega)
    omega
  · intro i hi hi'
    rw [List.length_reverse] at hi hi'
    rw [ruleAt_reverse rule i hi]
    unfold revPlacement
    have e : rule.length - 1 - i = (rule.length - 1 - (i + 1)) + 1 := by omega
    have g := h2 (rule.length - 1 - (i + 1)) (by omega) (by omega)
    rw [← e] at g
    have f1 := h1 (rule.length - 1 - i) (by omega)
    have f2 := h1 (rule.length - 1 - (i + 1)) (by omega)
    omega
  · intro i hi j hj hj1 hj2
    rw [List.length_reverse] at hi hj
    rw [ruleAt_reverse rule i hi] at hj2
    rw [cellAt_reverse line j hj]
    unfold revPlacement at hj1 hj2
    have f1 := h1 (rule.length - 1 - i) (by omega)
    exact h3 (rule.length - 1 - i) (by omega) (line.length - 1 - j) (by omega) (by omega)
      (by omega)
  · intro j hj hs
    rw [List.length_reverse] at hj ⊢
    rw [cellAt_reverse line j hj] at hs
    obtain ⟨i, hi, hc1, hc2⟩ := h4 (line.length - 1 - j) (by omega) hs
    refine ⟨rule.length - 1 - i, by omega, ?_, ?_⟩
    · unfold revPlacement
      rw [show rule.length - 1 - (rule.length - 1 - i) = i by omega]
      omega
    · rw [ruleAt_reverse rule _ (by omega)]
      unfold revPlacement
      rw [show rule.length - 1 - (rule.length - 1 - i) = i by omega]
      have := h1 i hi
      omega

/-- The outcome of the right push for a rule with at least one block: it
fails and there is no valid placement, or it succeeds and the positions,
converted as in fast.c 151, are the greatest valid placement. -/
theorem pushRight_spec {line rule : List Nat} (hL : line.length < 2 ^ 64)
    (hpos : PositiveRule rule) (hk : 0 < rule.length) :
    (pushRight line rule = some none ∧ ∀ q, ¬ ValidPlacement line rule q) ∨
    (∃ rpos, pushRight line rule = some (some rpos) ∧ rpos.length = rule.length ∧
      (∀ i, i < rule.length → posFn rpos i + ruleAt rule i ≤ line.length) ∧
      GreatestPlacement line rule
        (fun i => line.length - posFn rpos i - ruleAt rule i)) := by
  have hL' : line.reverse.length < 2 ^ 64 := by rw [List.length_reverse]; exact hL
  have hk' : 0 < rule.reverse.length := by rw [List.length_reverse]; exact hk
  unfold pushRight
  rcases nonogram_push_spec hL' (positiveRule_reverse hpos) hk' with
    ⟨h1, h2⟩ | ⟨rrev, h1, h2, h3, h4⟩
  · left
    rw [h1]
    exact ⟨rfl, fun q hq => h2 _ (validPlacement_reverse hq)⟩
  · right
    rw [h1]
    rw [List.length_reverse] at h2
    have hget : ∀ i, i < rule.length → posFn rrev.reverse i = posFn rrev (rule.length - 1 - i) := by
      intro i hi
      have := cellAt_reverse rrev i (by omega)
      unfold cellAt at this
      unfold posFn
      rw [this, h2]
    have hv := validPlacement_reverse h3
    rw [List.reverse_reverse, List.reverse_reverse, List.length_reverse] at hv
    have hfit : ∀ i, i < rule.length → posFn rrev.reverse i + ruleAt rule i ≤ line.length := by
      intro i hi
      rw [hget i hi]
      have := h3.1 (rule.length - 1 - i) (by rw [List.length_reverse]; omega)
      rw [ruleAt_reverse rule _ (by omega), List.length_reverse,
        show rule.length - 1 - (rule.length - 1 - i) = i by omega] at this
      exact this
    refine ⟨rrev.reverse, rfl, by rw [List.length_reverse]; exact h2, hfit, ?_, ?_⟩
    · apply hv.vp_congr
      intro i hi
      unfold revPlacement
      rw [List.length_reverse, hget i hi, ruleAt_reverse rule _ (by omega),
        show rule.length - 1 - (rule.length - 1 - i) = i by omega]
    · intro q hq b hb
      have := h4 _ (validPlacement_reverse hq) (rule.length - 1 - b)
        (by rw [List.length_reverse]; omega)
      unfold revPlacement at this
      rw [show rule.length - 1 - (rule.length - 1 - b) = b by omega] at this
      simp only
      rw [hget b hb]
      have f1 := hq.1 b hb
      have f2 := hfit b hb
      rw [hget b hb] at f2
      omega

theorem fillTo_length (w : List Nat) (k v : Nat) :
    (fillTo w k v).length = max w.length k := by
  unfold fillTo
  simp only [List.length_append, List.length_replicate]
  omega

theorem cellAt_fillTo_old (w : List Nat) (k v j : Nat) (h : j < w.length) :
    cellAt (fillTo w k v) j = cellAt w j := by
  unfold cellAt fillTo
  rw [List.getD_eq_getElem?_getD, List.getD_eq_getElem?_getD, List.getElem?_append_left h]

theorem cellAt_fillTo_new (w : List Nat) (k v j : Nat) (h : w.length ≤ j) (h2 : j < k) :
    cellAt (fillTo w k v) j = v := by
  unfold cellAt fillTo
  rw [List.getD_eq_getElem?_getD, List.getElem?_append_right h, List.getElem?_replicate,
    if_pos (by omega)]
  rfl

theorem validPlacement_start_lt {line rule : List Nat} {q : Nat → Nat}
    (hq : ValidPlacement line rule q) {i : Nat} (hi : i < rule.length) :
    mergeStart rule q i ≤ q i := by
  unfold mergeStart
  split
  · omega
  · have := hq.2.1 (i - 1) (by omega) (by omega)
    rw [show i - 1 + 1 = i by omega] at this
    omega

theorem fastMergeLoop_spec {line rule : List Nat} (lpos rpos : List Nat)
    (hfit : ∀ i, i < rule.length → posFn rpos i + ruleAt rule i ≤ line.length)
    (hL : line.length < 2 ^ 64)
    (hr : ValidPlacement line rule (fun i => line.length - posFn rpos i - ruleAt rule i))
    (hle : ∀ i, i < rule.length → posFn lpos i ≤ line.length - posFn rpos i - ruleAt rule i)
    (n i : Nat) (w : List Nat) (hn : i + n = rule.length)
    (hw : w.length = mergeStart rule (fun i => line.length - posFn rpos i - ruleAt rule i) i) :
    (fastMergeLoop line.length rule lpos rpos n i w).length =
      mergeStart rule (fun i => line.length - posFn rpos i - ruleAt rule i) rule.length ∧
    (∀ j, j < w.length →
      cellAt (fastMergeLoop line.length rule lpos rpos n i w) j = cellAt w j) ∧
    (∀ i', i ≤ i' → i' < rule.length → ∀ j,
      mergeStart rule (fun i => line.length - posFn rpos i - ruleAt rule i) i' ≤ j →
      j < mergeStart rule (fun i => line.length - posFn rpos i - ruleAt rule i) (i' + 1) →
      cellAt (fastMergeLoop line.length rule lpos rpos n i w) j =
        mergeValue rule (posFn lpos) (fun i => line.length - posFn rpos i - ruleAt rule i) i' j) := by
  induction n generalizing i w with
  | zero =>
    have : i = rule.length := by omega
    subst this
    rw [show fastMergeLoop line.length rule lpos rpos 0 rule.length w = w from rfl]
    exact ⟨hw, fun _ _ => rfl, fun i' h1 h2 => by omega⟩
  | succ n ih =>
    have hi : i < rule.length := by omega
    have hwrap : wrap ((line.length : Int) - (rpos.getD i 0 : Int) - (ruleAt rule i : Int))
        = line.length - posFn rpos i - ruleAt rule i := by
      have := hfit i hi
      unfold posFn at this ⊢
      apply wrap_of_nat (by omega)
      omega
    have hstart := validPlacement_start_lt hr hi
    have hlei := hle i hi
    have hnext : mergeStart rule (fun i => line.length - posFn rpos i - ruleAt rule i) (i + 1)
        = line.length - posFn rpos i - ruleAt rule i + ruleAt rule i := by
      unfold mergeStart
      rw [if_neg (by omega)]
      simp only [Nat.add_sub_cancel]
    simp only [fastMergeLoop]
    rw [hwrap]
    have hlp : lpos.getD i 0 = posFn lpos i := rfl
    rw [hlp]
    generalize hrp : line.length - posFn rpos i - ruleAt rule i = rp at *
    generalize hlpv : posFn lpos i = lp at *
    have e1 := fillTo_length w lp nonogram_DOT
    have e2 := fillTo_length (fillTo w lp nonogram_DOT) rp nonogram_BOTH
    have e3 := fillTo_length (fillTo (fillTo w lp nonogram_DOT) rp nonogram_BOTH)
      (lp + ruleAt rule i) nonogram_SOLID
    have e4 := fillTo_length (fillTo (fillTo (fillTo w lp nonogram_DOT) rp nonogram_BOTH)
      (lp + ruleAt rule i) nonogram_SOLID) (rp + ruleAt rule i) nonogram_BOTH
    obtain ⟨r1, r2, r3⟩ := ih (i + 1)
      (fillTo (fillTo (fillTo (fillTo w lp nonogram_DOT) rp nonogram_BOTH)
        (lp + ruleAt rule i) nonogram_SOLID) (rp + ruleAt rule i) nonogram_BOTH)
      (by omega) (by rw [hnext, e4, e3, e2, e1]; omega)
    refine ⟨r1, ?_, ?_⟩
    · intro j hj
      rw [r2 j (by rw [e4, e3, e2, e1]; omega)]
      rw [cellAt_fillTo_old _ _ _ _ (by rw [e3, e2, e1]; omega),
        cellAt_fillTo_old _ _ _ _ (by rw [e2, e1]; omega),
        cellAt_fillTo_old _ _ _ _ (by rw [e1]; omega),
        cellAt_fillTo_old _ _ _ _ hj]
    · intro i' h1 h2 j hj1 hj2
      by_cases he : i' = i
      · subst he
        rw [hnext] at hj2
        rw [r2 j (by rw [e4, e3, e2, e1]; omega)]
        unfold mergeValue
        simp only [hrp, hlpv]
        by_cases c1 : j < lp
        · rw [if_pos c1]
          rw [cellAt_fillTo_old _ _ _ _ (by rw [e3, e2, e1]; omega),
            cellAt_fillTo_old _ _ _ _ (by rw [e2, e1]; omega),
            cellAt_fillTo_old _ _ _ _ (by rw [e1]; omega),
            cellAt_fillTo_new _ _ _ _ (by omega) c1]
        · rw [if_neg c1]
          by_cases c2 : j < rp
          · rw [if_pos c2]
            rw [cellAt_fillTo_old _ _ _ _ (by rw [e3, e2, e1]; omega),
              cellAt_fillTo_old _ _ _ _ (by rw [e2, e1]; omega),
              cellAt_fillTo_new _ _ _ _ (by rw [e1]; omega) c2]
          · rw [if_neg c2]
            by_cases c3 : j < lp + ruleAt rule i'
            · rw [if_pos c3]
              rw [cellAt_fillTo_old _ _ _ _ (by rw [e3, e2, e1]; omega),
                cellAt_fillTo_new _ _ _ _ (by rw [e2, e1]; omega) c3]
            · rw [if_neg c3]
              rw [cellAt_fillTo_new _ _ _ _ (by rw [e3, e2, e1]; omega) hj2]
      · exact r3 i' (by omega) h2 j hj1 hj2

theorem mergeStart_exhaust (rule : List Nat) (rp : Nat → Nat) (m j : Nat)
    (hj : j < mergeStart rule rp m) :
    ∃ i, i < m ∧ mergeStart rule rp i ≤ j ∧ j < mergeStart rule rp (i + 1) := by
  induction m with
  | zero => simp [mergeStart] at hj
  | succ m ih =>
    by_cases h : j < mergeStart rule rp m
    · obtain ⟨i, h1, h2, h3⟩ := ih h
      exact ⟨i, by omega, h2, h3⟩
    · exact ⟨m, by omega, by omega, hj⟩

theorem cellAt_copyKnown (line work : List Nat) (j : Nat) (hj : j < line.length) :
    cellAt (copyKnown line work) j =
      if cellAt line j ≠ nonogram_BLANK then cellAt line j else cellAt work j := by
  unfold copyKnown
  have := posFn_map_range
    (fun j => if cellAt line j != nonogram_BLANK then cellAt line j else cellAt work j)
    line.length j hj
  unfold posFn at this
  unfold cellAt at this ⊢
  rw [this]
  simp

theorem fast_rule1 {rule : List Nat} (hpos : PositiveRule rule) :
    (if (rule.length == 1 && ruleAt rule 0 == 0) = true then [] else rule) = rule := by
  split
  · rename_i h
    simp only [Bool.and_eq_true, beq_iff_eq] at h
    have := hpos 0 (by omega)
    omega
  · rfl

theorem fast_solve_spec {line rule : List Nat} (hL : line.length < 2 ^ 64)
    (hpos : PositiveRule rule) (hk : 0 < rule.length) :
    (fast_solve line rule = some none ∧ ∀ q, ¬ ValidPlacement line rule q) ∨
    (∃ res lpos rpos, fast_solve line rule = some (some res) ∧
      nonogram_push line rule = some (some lpos) ∧ pushRight line rule = some (some rpos) ∧
      FastResult line rule res (posFn lpos)
        (fun i => line.length - posFn rpos i - ruleAt rule i)) := by
  unfold fast_solve
  simp only []
  rw [fast_rule1 hpos]
  rcases nonogram_push_spec hL hpos hk with ⟨h1, h2⟩ | ⟨lpos, h1, hl1, hl2⟩
  · left
    rw [h1]
    exact ⟨rfl, h2⟩
  · rw [h1]
    simp only []
    rcases pushRight_spec hL hpos hk with ⟨g1, g2⟩ | ⟨rpos, g1, _, hfit, hg⟩
    · left
      rw [g1]
      exact ⟨rfl, g2⟩
    · right
      rw [g1]
      simp only []
      refine ⟨_, lpos, rpos, rfl, rfl, rfl, ?_⟩
      have hle : ∀ i, i < rule.length →
          posFn lpos i ≤ line.length - posFn rpos i - ruleAt rule i :=
        fun i hi => hl2.2 _ hg.1 i hi
      obtain ⟨m1, m2, m3⟩ := fastMergeLoop_spec lpos rpos hfit hL hg.1 hle rule.length 0 []
        (by omega) (by simp [mergeStart])
      generalize fastMergeLoop line.length rule lpos rpos rule.length 0 [] = w at m1 m2 m3 ⊢
      have hend : mergeStart rule (fun i => line.length - posFn rpos i - ruleAt rule i)
          rule.length ≤ line.length := by
        unfold mergeStart
        rw [if_neg (by omega)]
        have := hg.1.1 (rule.length - 1) (by omega)
        exact this
      refine ⟨by simp [copyKnown], hl2, hg, ?_, ?_⟩
      · intro j hj hne
        rw [cellAt_copyKnown line _ j hj, if_pos hne]
      · intro j hj hb
        rw [cellAt_copyKnown line _ j hj, if_neg (by rw [hb]; simp)]
        by_cases hjw : j < w.length
        · right
          rw [m1] at hjw
          obtain ⟨i, hi1, hi2, hi3⟩ := mergeStart_exhaust _ _ _ _ hjw
          refine ⟨i, hi1, hi2, hi3, ?_⟩
          rw [cellAt_fillTo_old _ _ _ _ (by rw [m1]; exact hjw)]
          exact m3 i (Nat.zero_le _) hi1 j hi2 hi3
        · left
          refine ⟨by omega, ?_⟩
          exact cellAt_fillTo_new _ _ _ _ (by omega) hj

theorem fast_solve_nil (line : List Nat) :
    fast_solve line [] =
      some (some (copyKnown line (fillTo [] line.length nonogram_DOT))) := by
  unfold fast_solve
  simp only [List.length_nil, Nat.reduceBEq, Bool.false_and, Bool.false_eq_true, if_false]
  rw [nonogram_push_nil]
  simp only []
  have : pushRight line [] = some (some []) := by
    unfold pushRight
    rw [List.reverse_nil, nonogram_push_nil]
    rfl
  rw [this]
  rfl

theorem validPlacement_le {line rule : List Nat} {q : Nat → Nat}
    (hq : ValidPlacement line rule q) {b c : Nat} (hbc : b ≤ c) (hc : c < rule.length) :
    q b ≤ q c ∧ q b + ruleAt rule b ≤ q c + ruleAt rule c := by
  by_cases he : b = c
  · subst he; exact ⟨Nat.le_refl _, Nat.le_refl _⟩
  · have := hq.mono (b := b) (c := c) (by omega) hc
    omega

/-- Soundness of the values written by the fast solver, for a rule with at
least one block. -/
theorem fastResult_sound {line rule res : List Nat} {lp rp : Nat → Nat}
    (h : FastResult line rule res lp rp) (j : Nat) (hj : j < line.length)
    (hb : cellAt line j = nonogram_BLANK) :
    (cellAt res j = nonogram_SOLID →
      ∀ q, ValidPlacement line rule q → ∃ i, i < rule.length ∧ Covers rule q i j) ∧
    (cellAt res j = nonogram_DOT →
      ∀ q, ValidPlacement line rule q → ∀ i, i < rule.length → ¬ Covers rule q i j) := by
  obtain ⟨_, hl, hg, _, hcell⟩ := h
  rcases hcell j hj hb with ⟨h1, h2⟩ | ⟨i, hi, h1, h2, h3⟩
  · constructor
    · intro hs; rw [h2] at hs; exact absurd hs (by decide)
    · intro _ q hq b hb' hcov
      have hk : rule.length ≠ 0 := by omega
      unfold mergeStart at h1
      rw [if_neg hk] at h1
      have f1 := hg.2 q hq b hb'
      have f2 := (validPlacement_le hg.1 (b := b) (c := rule.length - 1) (by omega) (by omega)).2
      unfold Covers at hcov
      omega
  · have hlr := hl.2 rp hg.1 i hi
    unfold mergeValue at h3
    constructor
    · intro hs q hq
      have f1 := hl.2 q hq i hi
      have f2 := hg.2 q hq i hi
      refine ⟨i, hi, ?_⟩
      unfold Covers
      by_cases c1 : j < lp i
      · rw [if_pos c1] at h3; rw [h3] at hs; exact absurd hs (by decide)
      · rw [if_neg c1] at h3
        by_cases c2 : j < rp i
        · rw [if_pos c2] at h3; rw [h3] at hs; exact absurd hs (by decide)
        · rw [if_neg c2] at h3
          by_cases c3 : j < lp i + ruleAt rule i
          · omega
          · rw [if_neg c3] at h3; rw [h3] at hs; exact absurd hs (by decide)
    · intro hd q hq b hb' hcov
      unfold Covers at hcov
      by_cases c1 : j < lp i
      · by_cases hbi : b < i
        · have f1 := hg.2 q hq b hb'
          have f2 := (validPlacement_le hg.1 (b := b) (c := i - 1) (by omega) (by omega)).2
          unfold mergeStart at h1
          rw [if_neg (by omega)] at h1
          omega
        · have f1 := hl.2 q hq b hb'
          have f2 := (validPlacement_le hl.1 (b := i) (c := b) (by omega) hb').1
          omega
      · rw [if_neg c1] at h3
        by_cases c2 : j < rp i
        · rw [if_pos c2] at h3; rw [h3] at hd; exact absurd hd (by decide)
        · rw [if_neg c2] at h3
          by_cases c3 : j < lp i + ruleAt rule i
          · rw [if_pos c3] at h3; rw [h3] at hd; exact absurd hd (by decide)
          · rw [if_neg c3] at h3; rw [h3] at hd; exact absurd hd (by decide)

/-- C8: fast strategy soundness.  Whenever the fast suite reports
`fits != 0`, every originally-BLANK cell that the result marks SOLID is
inside a block in every valid placement, and every originally-BLANK cell
that the result marks DOT is outside every block in every valid placement. -/
theorem fast_solve_sound (line rule res : List Nat) (hL : line.length < 2 ^ 64)
    (hpos : PositiveRule rule) (h : fast_solve line rule = some (some res)) :
    ∀ j, j < line.length → cellAt line j = nonogram_BLANK →
      (cellAt res j = nonogram_SOLID →
        ∀ q, ValidPlacement line rule q → ∃ i, i < rule.length ∧ Covers rule q i j) ∧
      (cellAt res j = nonogram_DOT →
        ∀ q, ValidPlacement line rule q → ∀ i, i < rule.length → ¬ Covers rule q i j) := by
  intro j hj hb
  by_cases hk : 0 < rule.length
  · rcases fast_solve_spec hL hpos hk with ⟨h1, _⟩ | ⟨res', lpos, rpos, h1, _, _, h2⟩
    · rw [h1] at h; simp at h
    · rw [h1] at h
      simp only [Option.some.injEq] at h
      subst h
      exact fastResult_sound h2 j hj hb
  · have hnil : rule = [] := List.length_eq_zero.1 (by omega)
    subst hnil
    rw [fast_solve_nil] at h
    simp only [Option.some.injEq] at h
    subst h
    constructor
    · intro hs
      rw [cellAt_copyKnown line _ j hj, if_neg (by rw [hb]; simp),
        cellAt_fillTo_new _ _ _ _ (Nat.zero_le _) hj] at hs
      exact absurd hs (by decide)
    · intro _ q _ i hi
      exact absurd hi (Nat.not_lt_zero _)

theorem fast_solve_sound_witness :
    [0, 2, 0, 0, 0, 0, 1, 0, 0, 2].length < 2 ^ 64 ∧ PositiveRule [2, 1, 1] ∧
    fast_solve [0, 2, 0, 0, 0, 0, 1, 0, 0, 2] [2, 1, 1]
      = some (some [3, 2, 3, 3, 3, 3, 1, 3, 1, 2]) ∧
    (∀ j, j < [0, 2, 0, 0, 0, 0, 1, 0, 0, 2].length →
      cellAt [0, 2, 0, 0, 0, 0, 1, 0, 0, 2] j = nonogram_BLANK →
      (cellAt [3, 2, 3, 3, 3, 3, 1, 3, 1, 2] j = nonogram_SOLID →
        ∀ q, ValidPlacement [0, 2, 0, 0, 0, 0, 1, 0, 0, 2] [2, 1, 1] q →
          ∃ i, i < [2, 1, 1].length ∧ Covers [2, 1, 1] q i j) ∧
      (cellAt [3, 2, 3, 3, 3, 3, 1, 3, 1, 2] j = nonogram_DOT →
        ∀ q, ValidPlacement [0, 2, 0, 0, 0, 0, 1, 0, 0, 2] [2, 1, 1] q →
          ∀ i, i < [2, 1, 1].length → ¬ Covers [2, 1, 1] q i j)) :=
  ⟨by decide, by decide, by decide,
    fast_solve_sound [0, 2, 0, 0, 0, 0, 1, 0, 0, 2] [2, 1, 1] [3, 2, 3, 3, 3, 3, 1, 3, 1, 2]
      (by decide) (by decide) (by decide)⟩

theorem fastResult_exact {line rule res : List Nat} {lp rp : Nat → Nat}
    (h : FastResult line rule res lp rp) (_hk : 0 < rule.length) (j : Nat)
    (hj : j < line.length) (hb : cellAt line j = nonogram_BLANK) :
    (cellAt res j = nonogram_SOLID ↔ SameBlock rule lp rp j) ∧
    (cellAt res j = nonogram_DOT ↔ SameGap rule lp rp j) ∧
    (cellAt res j = nonogram_SOLID ∨ cellAt res j = nonogram_DOT ∨
      cellAt res j = nonogram_BOTH) := by
  obtain ⟨_, hl, hg, _, hcell⟩ := h
  have hlr : ∀ i, i < rule.length → lp i ≤ rp i := fun i hi => hl.2 rp hg.1 i hi
  -- blocks before the round of block `i` end at or before its cursor
  have hbefore : ∀ i b, i ≤ rule.length → b < i →
      rp b + ruleAt rule b ≤ mergeStart rule rp i := by
    intro i b hi hbi
    unfold mergeStart
    rw [if_neg (by omega)]
    exact (validPlacement_le hg.1 (b := b) (c := i - 1) (by omega) (by omega)).2
  have hnosame : ∀ i, i < rule.length → mergeStart rule rp i ≤ j →
      j < rp i + ruleAt rule i →
      ¬ (rp i ≤ j ∧ j < lp i + ruleAt rule i) → ¬ SameBlock rule lp rp j := by
    intro i hi h1 hlt2 h2 ⟨i', hi', c1, c2⟩
    unfold Covers at c1 c2
    rcases Nat.lt_trichotomy i' i with hlt | heq | hgt
    · have := hbefore i i' (by omega) hlt; omega
    · subst heq; omega
    · have := hg.1.mono (b := i) (c := i') hgt hi'
      omega
  rcases hcell j hj hb with ⟨h1, h2⟩ | ⟨i, hi, h1, h2, h3⟩
  · refine ⟨⟨fun hs => ?_, fun hs => ?_⟩, ⟨fun _ => ?_, fun _ => h2⟩, Or.inr (Or.inl h2)⟩
    · rw [h2] at hs; exact absurd hs (by decide)
    · obtain ⟨i', hi', _, c2⟩ := hs
      unfold Covers at c2
      have := hbefore rule.length i' (Nat.le_refl _) hi'
      omega
    · refine ⟨rule.length, Nat.le_refl _, ?_, fun b h3 h4 => by omega⟩
      intro b hb'
      have := hbefore rule.length b (Nat.le_refl _) hb'
      have := hlr b hb'
      omega
  · have hnext : mergeStart rule rp (i + 1) = rp i + ruleAt rule i := by
      unfold mergeStart
      rw [if_neg (by omega)]
      simp only [Nat.add_sub_cancel]
    rw [hnext] at h2
    have hnogap : lp i ≤ j → ¬ SameGap rule lp rp j := by
      intro hlj ⟨i0, _, g1, g2⟩
      by_cases hc : i0 ≤ i
      · have := (g2 i hc hi).1; omega
      · have := (g1 i (by omega)).2; omega
    unfold mergeValue at h3
    by_cases c1 : j < lp i
    · rw [if_pos c1] at h3
      refine ⟨⟨fun hs => ?_, fun hs => ?_⟩, ⟨fun _ => ?_, fun _ => h3⟩, Or.inr (Or.inl h3)⟩
      · rw [h3] at hs; exact absurd hs (by decide)
      · exact absurd hs (hnosame i hi h1 h2 (by have := hlr i hi; omega))
      · refine ⟨i, by omega, ?_, ?_⟩
        · intro b hb'
          have := hbefore i b (by omega) hb'
          have := hlr b (by omega)
          omega
        · intro b hb1 hb2
          have := (validPlacement_le hl.1 (b := i) (c := b) hb1 hb2).1
          have := hlr b hb2
          omega
    · rw [if_neg c1] at h3
      by_cases c2 : j < rp i
      · rw [if_pos c2] at h3
        refine ⟨⟨fun hs => ?_, fun hs => ?_⟩, ⟨fun hd => ?_, fun hd => ?_⟩, Or.inr (Or.inr h3)⟩
        · rw [h3] at hs; exact absurd hs (by decide)
        · exact absurd hs (hnosame i hi h1 h2 (by omega))
        · rw [h3] at hd; exact absurd hd (by decide)
        · exact absurd hd (hnogap (by omega))
      · rw [if_neg c2] at h3
        by_cases c3 : j < lp i + ruleAt rule i
        · rw [if_pos c3] at h3
          refine ⟨⟨fun _ => ?_, fun _ => h3⟩, ⟨fun hd => ?_, fun hd => ?_⟩, Or.inl h3⟩
          · refine ⟨i, hi, ?_, ?_⟩
            · unfold Covers; omega
            · unfold Covers; omega
          · rw [h3] at hd; exact absurd hd (by decide)
          · exact absurd hd (hnogap (by omega))
        · rw [if_neg c3] at h3
          refine ⟨⟨fun hs => ?_, fun hs => ?_⟩, ⟨fun hd => ?_, fun hd => ?_⟩,
            Or.inr (Or.inr h3)⟩
          · rw [h3] at hs; exact absurd hs (by decide)
          · exact absurd hs (hnosame i hi h1 h2 (by omega))
          · rw [h3] at hd; exact absurd hd (by decide)
          · exact absurd hd (hnogap (by omega))

/-- C10, counterexample: on three BLANK cells with the rule `[1]` the left
push puts the block at cell 0 and the right push at cell 2, so cell 1 is
outside every block in both extreme placements; yet the fast solver sets it
to BOTH, not to DOT. -/
theorem fast_merge_counterexample :
    nonogram_push [0, 0, 0] [1] = some (some [0]) ∧
    pushRight [0, 0, 0] [1] = some (some [0]) ∧
    fast_solve [0, 0, 0] [1] = some (some [3, 3, 3]) ∧
    (∀ i, i < [1].length → ¬ Covers [1] (posFn [0]) i 1) ∧
    (∀ i, i < [1].length → ¬ Covers [1] (fun i => 3 - posFn [0] i - ruleAt [1] i) i 1) ∧
    cellAt [3, 3, 3] 1 = nonogram_BOTH := by
  decide

/-- C10, amended: for every all-BLANK line and rule of positive blocks on
which both pushes succeed, a cell of the result is SOLID exactly when it
lies inside the same block in the left-pushed and in the right-pushed
placement, DOT exactly when it lies in the same gap in both (after the same
number of blocks), and BOTH in every other case. -/
theorem fast_merge_rule (line rule lpos rpos : List Nat) (hL : line.length < 2 ^ 64)
    (hpos : PositiveRule rule)
    (hblank : ∀ j, j < line.length → cellAt line j = nonogram_BLANK)
    (h1 : nonogram_push line rule = some (some lpos))
    (h2 : pushRight line rule = some (some rpos)) :
    ∃ res, fast_solve line rule = some (some res) ∧ res.length = line.length ∧
      ∀ j, j < line.length →
        (cellAt res j = nonogram_SOLID ↔
          SameBlock rule (posFn lpos) (fun i => line.length - posFn rpos i - ruleAt rule i) j) ∧
        (cellAt res j = nonogram_DOT ↔
          SameGap rule (posFn lpos) (fun i => line.length - posFn rpos i - ruleAt rule i) j) ∧
        (cellAt res j = nonogram_SOLID ∨ cellAt res j = nonogram_DOT ∨
          cellAt res j = nonogram_BOTH) := by
  by_cases hk : 0 < rule.length
  · rcases fast_solve_spec hL hpos hk with ⟨_, g2⟩ | ⟨res, lpos', rpos', g1, g2, g3, g4⟩
    · obtain ⟨e1, e2⟩ := nonogram_push_sound hL hpos hk h1
      exact absurd e2.1 (g2 _)
    · rw [h1] at g2
      rw [h2] at g3
      simp only [Option.some.injEq] at g2 g3
      subst g2 g3
      exact ⟨res, g1, g4.1, fun j hj => fastResult_exact g4 hk j hj (hblank j hj)⟩
  · have hnil : rule = [] := List.length_eq_zero.1 (by omega)
    subst hnil
    refine ⟨_, fast_solve_nil line, by simp [copyKnown], ?_⟩
    intro j hj
    have hd : cellAt (copyKnown line (fillTo [] line.length nonogram_DOT)) j = nonogram_DOT := by
      rw [cellAt_copyKnown line _ j hj, if_neg (by rw [hblank j hj]; simp),
        cellAt_fillTo_new _ _ _ _ (Nat.zero_le _) hj]
    refine ⟨⟨fun hs => ?_, fun ⟨i, hi, _⟩ => absurd hi (Nat.not_lt_zero _)⟩,
      ⟨fun _ => ?_, fun _ => hd⟩, Or.inr (Or.inl hd)⟩
    · rw [hd] at hs; exact absurd hs (by decide)
    · exact ⟨0, Nat.le_refl _, fun b hb => absurd hb (Nat.not_lt_zero _),
        fun b _ hb => absurd hb (Nat.not_lt_zero _)⟩

theorem fast_merge_rule_witness :
    [0, 0, 0, 0, 0, 0, 0].length < 2 ^ 64 ∧ PositiveRule [3, 2] ∧
    (∀ j, j < [0, 0, 0, 0, 0, 0, 0].length → cellAt [0, 0, 0, 0, 0, 0, 0] j = nonogram_BLANK) ∧
    nonogram_push [0, 0, 0, 0, 0, 0, 0] [3, 2] = some (some [0, 4]) ∧
    pushRight [0, 0, 0, 0, 0, 0, 0] [3, 2] = some (some [3, 0]) ∧
    (∃ res, fast_solve [0, 0, 0, 0, 0, 0, 0] [3, 2] = some (some res) ∧
      res.length = [0, 0, 0, 0, 0, 0, 0].length ∧
      ∀ j, j < [0, 0, 0, 0, 0, 0, 0].length →
        (cellAt res j = nonogram_SOLID ↔
          SameBlock [3, 2] (posFn [0, 4])
            (fun i => [0, 0, 0, 0, 0, 0, 0].length - posFn [3, 0] i - ruleAt [3, 2] i) j) ∧
        (cellAt res j = nonogram_DOT ↔
          SameGap [3, 2] (posFn [0, 4])
            (fun i => [0, 0, 0, 0, 0, 0, 0].length - posFn [3, 0] i - ruleAt [3, 2] i) j) ∧
        (cellAt res j = nonogram_SOLID ∨ cellAt res j = nonogram_DOT ∨
          cellAt res j = nonogram_BOTH)) :=
  ⟨by decide, by decide, by decide, by decide, by decide,
    fast_merge_rule [0, 0, 0, 0, 0, 0, 0] [3, 2] [0, 4] [3, 0] (by decide) (by decide)
      (by decide) (by decide) (by decide)⟩

theorem cellAt_set (l : List Nat) (i j v : Nat) :
    cellAt (l.set i v) j = if i = j ∧ i < l.length then v else cellAt l j := by
  unfold cellAt
  rw [List.getD_eq_getElem?_getD, List.getD_eq_getElem?_getD, List.getElem?_set]
  by_cases h1 : i = j
  · subst h1
    by_cases h2 : i < l.length
    · simp [h2]
    · simp [h2, List.getElem?_eq_none (Nat.le_of_not_lt h2)]
  · simp [h1]

theorem validPlacement_cellOK {line rule : List Nat} {q : Nat → Nat}
    (hq : ValidPlacement line rule q) (j : Nat) (hj : j < line.length) :
    CellOK rule q j (cellAt line j) := by
  constructor
  · intro hd i hi hc
    exact hq.2.2.1 i hi j hj hc.1 hc.2 hd
  · intro hs
    exact hq.2.2.2 j hj hs

theorem validPlacement_transfer {line line' rule : List Nat} {q : Nat → Nat}
    (hq : ValidPlacement line rule q) (hlen : line'.length = line.length)
    (hc : ∀ j, j < line.length → CellOK rule q j (cellAt line' j)) :
    ValidPlacement line' rule q := by
  refine ⟨?_, hq.2.1, ?_, ?_⟩
  · rw [hlen]; exact hq.1
  · intro i hi j hj h1 h2 hd
    rw [hlen] at hj
    exact (hc j hj).1 hd i hi ⟨h1, h2⟩
  · intro j hj hs
    rw [hlen] at hj
    exact (hc j hj).2 hs

theorem check_cell_inv {line rule : List Nat} (hL : line.length < 2 ^ 64)
    (hpos : PositiveRule rule) (pos : Nat) (s s' : OlsakState) (skip skip' : Bool)
    (hinv : OlsakInv line rule s)
    (h : check_cell line rule pos s skip = some (s', skip')) : OlsakInv line rule s' := by
  unfold check_cell at h
  split at h
  · simp only [Option.some.injEq, Prod.mk.injEq] at h
    rw [← h.1]; exact hinv
  · split at h
    · simp only [Option.some.injEq, Prod.mk.injEq] at h
      rw [← h.1]; exact hinv
    · split at h
      · simp only [Option.some.injEq, Prod.mk.injEq] at h
        rw [← h.1]; exact hinv
      · simp only [] at h
        obtain ⟨hlen, hq⟩ := hinv
        generalize hf : cellAt s.flags pos = f at h
        split at h
        · exact absurd h (by simp)
        · -- the contrary guess still fits: the cell is left BLANK
          simp only [Option.some.injEq, Prod.mk.injEq] at h
          rw [← h.1]
          refine ⟨by simp [hlen], ?_⟩
          intro q hv j hj
          simp only [cellAt_set]
          split
          · exact ⟨fun hd => absurd hd (by decide), fun hs => absurd hs (by decide)⟩
          · split
            · rename_i h1 h2
              exact absurd ⟨h2.1, by simpa using h2.2⟩ h1
            · exact hq q hv j hj
        · -- the contrary guess does not fit: the cell is committed
          rename_i hpush
          simp only [Option.some.injEq, Prod.mk.injEq] at h
          rw [← h.1]
          have hnone := (nonogram_push_complete (s.out.set pos (nonogram_BOTH ^^^ f)) rule
            (by simp [hlen]; exact hL) hpos).1 hpush
          refine ⟨by simp [hlen], ?_⟩
          intro q hv j hj
          have hlen1 : (s.out.set pos (nonogram_BOTH ^^^ f)).length = s.out.length :=
            List.length_set _ _ _
          by_cases hjp : pos = j ∧ pos < s.out.length
          · have e1 : cellAt (s.out.set pos (nonogram_BOTH ^^^ f)) pos = nonogram_BOTH ^^^ f := by
              rw [cellAt_set, if_pos ⟨rfl, hjp.2⟩]
            have e2 : cellAt ((s.out.set pos (nonogram_BOTH ^^^ f)).set pos
                (cellAt (s.out.set pos (nonogram_BOTH ^^^ f)) pos ^^^ nonogram_BOTH)) j
                = (nonogram_BOTH ^^^ f) ^^^ nonogram_BOTH := by
              rw [cellAt_set, if_pos ⟨hjp.1, by rw [hlen1]; exact hjp.2⟩, e1]
            rw [e2]
            have hx : (nonogram_BOTH ^^^ f) ^^^ nonogram_BOTH = f := by
              rw [Nat.xor_comm nonogram_BOTH f, Nat.xor_assoc, Nat.xor_self, Nat.xor_zero]
            rw [hx]
            obtain ⟨hpj, hplt⟩ := hjp
            subst hpj
            -- a valid placement with the contrary value at `pos` would fit the guess
            have hcontra : ∀ c, nonogram_BOTH ^^^ f = c → CellOK rule q pos c → False := by
              intro c hc hok
              apply hnone q
              apply validPlacement_transfer hv (by simp [hlen])
              intro j' hj'
              rw [cellAt_set]
              by_cases hjj : pos = j' ∧ pos < s.out.length
              · rw [if_pos hjj, hc]
                rw [← hjj.1]; exact hok
              · rw [if_neg hjj]
                exact hq q hv j' hj'
            constructor
            · intro hd i hi hcov
              subst hd
              exact hcontra nonogram_SOLID (by decide)
                ⟨fun h' => absurd h' (by decide), fun _ => ⟨i, hi, hcov⟩⟩
            · intro hs
              subst hs
              by_contra hno
              exact hcontra nonogram_DOT (by decide)
                ⟨fun _ i hi hcov => hno ⟨i, hi, hcov⟩, fun h' => absurd h' (by decide)⟩
          · have e2 : cellAt ((s.out.set pos (nonogram_BOTH ^^^ f)).set pos
                (cellAt (s.out.set pos (nonogram_BOTH ^^^ f)) pos ^^^ nonogram_BOTH)) j
                = cellAt s.out j := by
              rw [cellAt_set, if_neg (by rw [hlen1]; exact hjp), cellAt_set, if_neg hjp]
            rw [e2]
            exact hq q hv j hj

theorem searchUp_inv {line rule : List Nat} (hL : line.length < 2 ^ 64)
    (hpos : PositiveRule rule) (n pos : Nat) (s s' : OlsakState) (skip skip' : Bool)
    (hinv : OlsakInv line rule s)
    (h : searchUp line rule n pos s skip = some (s', skip')) : OlsakInv line rule s' := by
  induction n generalizing pos s skip with
  | zero =>
    simp only [searchUp, Option.some.injEq, Prod.mk.injEq] at h
    rw [← h.1]; exact hinv
  | succ n ih =>
    unfold searchUp at h
    split at h
    · exact absurd h (by simp)
    · rename_i s1 skip1 hc
      exact ih _ _ _ (check_cell_inv hL hpos pos s s1 skip skip1 hinv hc) h

theorem searchDown_inv {line rule : List Nat} (hL : line.length < 2 ^ 64)
    (hpos : PositiveRule rule) (n pos : Nat) (s s' : OlsakState) (skip skip' : Bool)
    (hinv : OlsakInv line rule s)
    (h : searchDown line rule n pos s skip = some (s', skip')) : OlsakInv line rule s' := by
  induction n generalizing pos s skip with
  | zero =>
    simp only [searchDown, Option.some.injEq, Prod.mk.injEq] at h
    rw [← h.1]; exact hinv
  | succ n ih =>
    unfold searchDown at h
    split at h
    · exact absurd h (by simp)
    · rename_i s1 skip1 hc
      exact ih _ _ _ (check_cell_inv hL hpos (pos - 1) s s1 skip skip1 hinv hc) h

theorem search_section_inv {line rule : List Nat} (hL : line.length < 2 ^ 64)
    (hpos : PositiveRule rule) (start stop : Nat) (s s' : OlsakState)
    (hinv : OlsakInv line rule s)
    (h : search_section line rule start stop s = some s') : OlsakInv line rule s' := by
  unfold search_section at h
  split at h
  · simp only [Option.map_eq_some', Prod.exists, exists_and_right, exists_eq_right] at h
    obtain ⟨skip', h⟩ := h
    exact searchDown_inv hL hpos _ _ _ _ _ _ hinv h
  · simp only [Option.map_eq_some', Prod.exists, exists_and_right, exists_eq_right] at h
    obtain ⟨skip', h⟩ := h
    exact searchUp_inv hL hpos _ _ _ _ _ _ hinv h

theorem olsakForward_inv {line rule : List Nat} (hL : line.length < 2 ^ 64)
    (hpos : PositiveRule rule) (right : Nat → Nat) (n b e e' : Nat) (s s' : OlsakState)
    (hinv : OlsakInv line rule s)
    (h : olsakForward line rule right n b e s = some (s', e')) : OlsakInv line rule s' := by
  induction n generalizing b e s with
  | zero =>
    simp only [olsakForward, Option.some.injEq, Prod.mk.injEq] at h
    rw [← h.1]; exact hinv
  | succ n ih =>
    unfold olsakForward at h
    split at h
    · exact absurd h (by simp)
    · rename_i s1 h1
      split at h
      · exact absurd h (by simp)
      · rename_i s2 h2
        exact ih _ _ _ (search_section_inv hL hpos _ _ _ _
          (search_section_inv hL hpos _ _ _ _ hinv h1) h2) h

theorem olsakBackward_inv {line rule : List Nat} (hL : line.length < 2 ^ 64)
    (hpos : PositiveRule rule) (right : Nat → Nat) (b e e' : Nat) (s s' : OlsakState)
    (hinv : OlsakInv line rule s)
    (h : olsakBackward line rule right b e s = some (s', e')) : OlsakInv line rule s' := by
  induction b generalizing e s with
  | zero =>
    simp only [olsakBackward, Option.some.injEq, Prod.mk.injEq] at h
    rw [← h.1]; exact hinv
  | succ b ih =>
    unfold olsakBackward at h
    split at h
    · exact absurd h (by simp)
    · rename_i s1 h1
      split at h
      · exact absurd h (by simp)
      · rename_i s2 h2
        exact ih _ _ (search_section_inv hL hpos _ _ _ _
          (search_section_inv hL hpos _ _ _ _ hinv h1) h2) h

theorem olsakEmpty_cells (line res : List Nat) (h : olsakEmpty line = some res) (j : Nat) :
    cellAt res j ≠ nonogram_SOLID := by
  induction line generalizing res j with
  | nil =>
    simp only [olsakEmpty, Option.some.injEq] at h
    subst h
    unfold cellAt; simp
  | cons c st ih =>
    unfold olsakEmpty at h
    split at h
    · exact absurd h (by simp)
    · simp only [Option.map_eq_some'] at h
      obtain ⟨w, hw, he⟩ := h
      subst he
      cases j with
      | zero => unfold cellAt; simp
      | succ j =>
        have := ih w hw j
        unfold cellAt at this ⊢
        simpa using this

theorem cellAt_map (l : List Nat) (f : Nat → Nat) (j : Nat) (hj : j < l.length) :
    cellAt (l.map f) j = f (cellAt l j) := by
  unfold cellAt
  rw [List.getD_eq_getElem?_getD, List.getD_eq_getElem?_getD, List.getElem?_map,
    List.getElem?_eq_getElem hj]
  rfl

/-- C9: olsak strategy soundness.  Whenever the olsak suite reports
`fits = 1`, every originally-BLANK cell that the result marks SOLID is inside
a block in every valid placement of the rule on the line, and every
originally-BLANK cell that the result marks DOT is outside every block in
every valid placement. -/
theorem olsak_sound (line rule res : List Nat) (hL : line.length < 2 ^ 64)
    (hpos : PositiveRule rule) (h : olsak_compinit line rule = some (some res)) :
    ∀ j, j < line.length → cellAt line j = nonogram_BLANK →
      (cellAt res j = nonogram_SOLID →
        ∀ q, ValidPlacement line rule q → ∃ i, i < rule.length ∧ Covers rule q i j) ∧
      (cellAt res j = nonogram_DOT →
        ∀ q, ValidPlacement line rule q → ∀ i, i < rule.length → ¬ Covers rule q i j) := by
  intro j hj _
  unfold olsak_compinit at h
  split at h
  · rename_i hspecial
    simp only [Option.some.injEq] at h
    have hk : rule.length = 0 := by
      simp only [Bool.or_eq_true, Bool.and_eq_true, beq_iff_eq] at hspecial
      rcases hspecial with ⟨h1, h2⟩ | h1
      · have := hpos 0 (by omega); omega
      · exact h1
    constructor
    · intro hs; exact absurd hs (olsakEmpty_cells line res h j)
    · intro _ q _ i hi; omega
  · split at h
    · exact absurd h (by simp)
    · exact absurd h (by simp)
    · split at h
      · exact absurd h (by simp)
      · exact absurd h (by simp)
      · simp only [] at h
        split at h
        · exact absurd h (by simp)
        · rename_i s1 e1 h1
          split at h
          · exact absurd h (by simp)
          · rename_i s2 h2
            split at h
            · exact absurd h (by simp)
            · rename_i s3 e3 h3
              split at h
              · exact absurd h (by simp)
              · rename_i s4 h4
                simp only [Option.some.injEq] at h
                have hinv0 : ∀ fl : List Nat, OlsakInv line rule
                    { out := (List.range line.length).map (cellAt line), flags := fl } := by
                  intro fl
                  refine ⟨by simp, ?_⟩
                  intro q hq j' hj'
                  have := posFn_map_range (cellAt line) line.length j' hj'
                  unfold posFn at this
                  simp only
                  unfold cellAt at this ⊢
                  rw [this]
                  exact validPlacement_cellOK hq j' hj'
                have hinv4 := search_section_inv hL hpos _ _ _ _
                  (olsakBackward_inv hL hpos _ _ _ _ _ _
                    (search_section_inv hL hpos _ _ _ _
                      (olsakForward_inv hL hpos _ _ _ _ _ _ _ (hinv0 _) h1) h2) h3) h4
                obtain ⟨hlen, hq⟩ := hinv4
                subst h
                rw [cellAt_map _ _ j (by omega)]
                constructor
                · intro hs q hv
                  have hc : cellAt s4.out j = nonogram_SOLID := by
                    split at hs
                    · exact absurd hs (by decide)
                    · exact hs
                  exact (hq q hv j hj).2 hc
                · intro hd q hv
                  have hc : cellAt s4.out j = nonogram_DOT := by
                    split at hd
                    · exact absurd hd (by decide)
                    · exact hd
                  exact (hq q hv j hj).1 hc

theorem olsak_sound_witness :
    [0, 0, 1, 1, 0, 0, 2, 0, 0, 0].length < 2 ^ 64 ∧ PositiveRule [2, 1, 1] ∧
    olsak_compinit [0, 0, 1, 1, 0, 0, 2, 0, 0, 0] [2, 1, 1]
      = some (some [2, 2, 1, 1, 3, 1, 2, 1, 3, 3]) ∧
    (∀ j, j < [0, 0, 1, 1, 0, 0, 2, 0, 0, 0].length →
      cellAt [0, 0, 1, 1, 0, 0, 2, 0, 0, 0] j = nonogram_BLANK →
      (cellAt [2, 2, 1, 1, 3, 1, 2, 1, 3, 3] j = nonogram_SOLID →
        ∀ q, ValidPlacement [0, 0, 1, 1, 0, 0, 2, 0, 0, 0] [2, 1, 1] q →
          ∃ i, i < [2, 1, 1].length ∧ Covers [2, 1, 1] q i j) ∧
      (cellAt [2, 2, 1, 1, 3, 1, 2, 1, 3, 3] j = nonogram_DOT →
        ∀ q, ValidPlacement [0, 0, 1, 1, 0, 0, 2, 0, 0, 0] [2, 1, 1] q →
          ∀ i, i < [2, 1, 1].length → ¬ Covers [2, 1, 1] q i j)) :=
  ⟨by decide, by decide, by decide,
    olsak_sound [0, 0, 1, 1, 0, 0, 2, 0, 0, 0] [2, 1, 1] [2, 2, 1, 1, 3, 1, 2, 1, 3, 3]
      (by decide) (by decide) (by decide)⟩

theorem needRev_ge (rule : List Nat) (d : Nat) :
    ruleAt rule (rule.length - 1 - d) + 1 ≤ needRev rule d := by
  cases d with
  | zero => simp [needRev]
  | succ d => simp only [needRev]; omega

theorem needRev_mono (rule : List Nat) (d e : Nat) (h : d ≤ e) :
    needRev rule d ≤ needRev rule e := by
  induction e with
  | zero =>
    have : d = 0 := by omega
    subst this; exact Nat.le_refl _
  | succ e ih =>
    by_cases he : d = e + 1
    · subst he; exact Nat.le_refl _
    · have := ih (by omega)
      simp only [needRev]; omega

theorem completeLimitRev_eq (linelen : Nat) (rule : List Nat) (hL : linelen < 2 ^ 64)
    (hpos : PositiveRule rule) (d : Nat) (hd : d < rule.length)
    (h : needRev rule d ≤ linelen + 1) :
    completeLimitRev linelen rule d + needRev rule d = linelen + 2 := by
  induction d with
  | zero =>
    have hp := hpos (rule.length - 1) (by omega)
    simp only [completeLimitRev, needRev] at h ⊢
    rw [wrap_of_nat (n := linelen + 1 - ruleAt rule (rule.length - 1)) (by omega) _ (by omega)]
    omega
  | succ d ih =>
    have h1 : needRev rule d ≤ linelen + 1 := by
      have := needRev_mono rule d (d + 1) (by omega); omega
    have h2 := ih (by omega) h1
    have hp := needRev_ge rule d
    have hp' := hpos (rule.length - 1 - d) (by omega)
    simp only [completeLimitRev, needRev] at h ⊢
    rw [wrap_of_nat (n := completeLimitRev linelen rule d
      - ruleAt rule (rule.length - 1 - (d + 1)) - 1) (by omega) _ (by omega)]
    omega

theorem validPlacement_need {line rule : List Nat} {q : Nat → Nat}
    (hq : ValidPlacement line rule q) (d : Nat) (hd : d < rule.length) :
    q (rule.length - 1 - d) + needRev rule d ≤ line.length + 1 := by
  induction d with
  | zero =>
    simp only [needRev]
    have := hq.1 (rule.length - 1) (by omega)
    simp only [Nat.sub_zero]
    omega
  | succ d ih =>
    have h1 := ih (by omega)
    have h2 := hq.2.1 (rule.length - 1 - (d + 1)) (by omega) (by omega)
    rw [show rule.length - 1 - (d + 1) + 1 = rule.length - 1 - d by omega] at h2
    simp only [needRev]
    omega

/-- What the proofs need to know about `limit[]` when the rule has a valid
placement: no wrap-around has happened, a block starting before its limit
ends inside the line, and every valid placement starts each block before
its limit. -/
theorem completeLimit_facts {line rule : List Nat} (hL : line.length < 2 ^ 64)
    (hpos : PositiveRule rule) {q0 : Nat → Nat} (hq0 : ValidPlacement line rule q0) (i : Nat) (hi : i < rule.length) :
    1 ≤ completeLimit line.length rule i ∧
    completeLimit line.length rule i + ruleAt rule i ≤ line.length + 1 ∧
    (∀ q, ValidPlacement line rule q → q i < completeLimit line.length rule i) := by
  have h0 := validPlacement_need hq0 (rule.length - 1 - i) (by omega)
  have h1 := completeLimitRev_eq line.length rule hL hpos (rule.length - 1 - i) (by omega)
    (by omega)
  have h2 := needRev_ge rule (rule.length - 1 - i)
  rw [show rule.length - 1 - (rule.length - 1 - i) = i by omega] at h0 h2
  unfold completeLimit
  refine ⟨by omega, by omega, ?_⟩
  intro q hq
  have h3 := validPlacement_need hq (rule.length - 1 - i) (by omega)
  rw [show rule.length - 1 - (rule.length - 1 - i) = i by omega] at h3
  omega

theorem cellAt_cons_succ (c : Nat) (l : List Nat) (j : Nat) :
    cellAt (c :: l) (j + 1) = cellAt l j := by
  unfold cellAt; simp

theorem cellAt_cons_zero (c : Nat) (l : List Nat) : cellAt (c :: l) 0 = c := by
  unfold cellAt; simp

theorem count_both_le (re line : List Nat) (hlen : re.length = line.length)
    (h : ∀ j, j < line.length → cellAt line j ≠ nonogram_BLANK → cellAt re j ≠ nonogram_BOTH) :
    re.count nonogram_BOTH ≤ line.count nonogram_BLANK := by
  induction line generalizing re with
  | nil =>
    have : re = [] := List.length_eq_zero.1 hlen
    subst this; simp
  | cons c ls ih =>
    cases re with
    | nil => simp at hlen
    | cons x rs =>
      have h1 := ih rs (by simpa using hlen) (fun j hj hne => by
        have := h (j + 1) (by simp; omega)
        rw [cellAt_cons_succ, cellAt_cons_succ] at this
        exact this hne)
      have h0 := h 0 (by simp)
      rw [cellAt_cons_zero, cellAt_cons_zero] at h0
      rw [List.count_cons, List.count_cons]
      by_cases hx : x = nonogram_BOTH
      · have hc : c = nonogram_BLANK := by
          by_contra hc
          exact h0 hc hx
        subst hx hc
        simp; omega
      · have : (x == nonogram_BOTH) = false := by simpa using hx
        rw [this]
        simp only [Bool.false_eq_true, if_false]
        split
        · omega
        · exact h1

theorem all_both_of_count (re line : List Nat) (hlen : re.length = line.length)
    (h : ∀ j, j < line.length → cellAt line j ≠ nonogram_BLANK → cellAt re j ≠ nonogram_BOTH)
    (hc : line.count nonogram_BLANK ≤ re.count nonogram_BOTH) :
    ∀ j, j < line.length → cellAt line j = nonogram_BLANK → cellAt re j = nonogram_BOTH := by
  induction line generalizing re with
  | nil => intro j hj; simp at hj
  | cons c ls ih =>
    cases re with
    | nil => simp at hlen
    | cons x rs =>
      have hlen' : rs.length = ls.length := by simpa using hlen
      have h' : ∀ j, j < ls.length → cellAt ls j ≠ nonogram_BLANK →
          cellAt rs j ≠ nonogram_BOTH := fun j hj hne => by
        have := h (j + 1) (by simp; omega)
        rw [cellAt_cons_succ, cellAt_cons_succ] at this
        exact this hne
      have h1 := count_both_le rs ls hlen' h'
      have h0 := h 0 (by simp)
      rw [cellAt_cons_zero, cellAt_cons_zero] at h0
      rw [List.count_cons, List.count_cons] at hc
      have hx : c = nonogram_BLANK → x = nonogram_BOTH := by
        intro hcb
        by_contra hx
        have e1 : (x == nonogram_BOTH) = false := by simpa using hx
        have e2 : (c == nonogram_BLANK) = true := by simpa using hcb
        rw [e1, e2] at hc
        simp at hc
        omega
      have htail : ls.count nonogram_BLANK ≤ rs.count nonogram_BOTH := by
        by_cases hcb : c = nonogram_BLANK
        · have e1 : (x == nonogram_BOTH) = true := by simpa using hx hcb
          have e2 : (c == nonogram_BLANK) = true := by simpa using hcb
          rw [e1, e2] at hc
          simpa using hc
        · have e2 : (c == nonogram_BLANK) = false := by simpa using hcb
          have e1 : (x == nonogram_BOTH) = false := by simpa using h0 hcb
          rw [e1, e2] at hc
          simpa using hc
      intro j hj hb
      cases j with
      | zero =>
        rw [cellAt_cons_zero] at hb ⊢
        exact hx hb
      | succ j =>
        rw [cellAt_cons_succ] at hb ⊢
        exact ih rs hlen' h' htail j (by simpa using hj) hb

theorem count_set (l : List Nat) (i y a : Nat) (hi : i < l.length) :
    (l.set i y).count a + (if cellAt l i = a then 1 else 0)
      = l.count a + (if y = a then 1 else 0) := by
  induction l generalizing i with
  | nil => simp at hi
  | cons c ls ih =>
    cases i with
    | zero =>
      rw [cellAt_cons_zero, List.set_cons_zero, List.count_cons, List.count_cons]
      by_cases h1 : y = a <;> by_cases h2 : c = a <;> simp [h1, h2]
    | succ i =>
      rw [cellAt_cons_succ, List.set_cons_succ, List.count_cons, List.count_cons]
      have := ih i (by simpa using hi)
      omega

theorem mergeSpan_spec (v : Nat) (hv : v = nonogram_DOT ∨ v = nonogram_SOLID)
    (n i : Nat) (rec : List Nat) (blank : Int) (h : i + n ≤ rec.length) :
    (mergeSpan v n i rec blank).1.length = rec.length ∧
    (∀ j, cellAt (mergeSpan v n i rec blank).1 j =
      if i ≤ j ∧ j < i + n then cellAt rec j ||| v else cellAt rec j) ∧
    (mergeSpan v n i rec blank).2 + ((mergeSpan v n i rec blank).1.count nonogram_BOTH : Int)
      = blank + (rec.count nonogram_BOTH : Int) := by
  induction n generalizing i rec blank with
  | zero =>
    rw [show mergeSpan v 0 i rec blank = (rec, blank) from rfl]
    refine ⟨rfl, fun j => ?_, rfl⟩
    rw [if_neg (by omega)]
  | succ n ih =>
    simp only [mergeSpan]
    obtain ⟨h1, h2, h3⟩ := ih (i + 1) (rec.set i (cellAt rec i ||| v))
      (if (cellAt rec i ||| v) == nonogram_BOTH && cellAt rec i != nonogram_BOTH
        then blank - 1 else blank) (by rw [List.length_set]; omega)
    refine ⟨by rw [h1, List.length_set], fun j => ?_, ?_⟩
    · by_cases hji : i = j
      · subst hji
        rw [h2 i, if_neg (by omega), cellAt_set, if_pos ⟨rfl, by omega⟩,
          if_pos ⟨Nat.le_refl _, by omega⟩]
      · have hs : cellAt (rec.set i (cellAt rec i ||| v)) j = cellAt rec j := by
          rw [cellAt_set, if_neg (fun hc => hji hc.1)]
        rw [h2 j, hs]
        by_cases hr : i + 1 ≤ j ∧ j < i + 1 + n
        · rw [if_pos hr, if_pos ⟨by omega, by omega⟩]
        · rw [if_neg hr, if_neg (by omega)]
    · rw [h3]
      have hc := count_set rec i (cellAt rec i ||| v) nonogram_BOTH (by omega)
      have h33 : cellAt rec i = nonogram_BOTH → cellAt rec i ||| v = nonogram_BOTH := by
        intro h'
        rw [h']
        rcases hv with hv | hv <;> subst hv <;> decide
      by_cases ho : cellAt rec i = nonogram_BOTH
      · have hn := h33 ho
        rw [if_pos ho, if_pos hn] at hc
        have : ((cellAt rec i ||| v) == nonogram_BOTH && cellAt rec i != nonogram_BOTH)
            = false := by simp [ho]
        rw [this]
        simp only [Bool.false_eq_true, if_false]
        omega
      · rw [if_neg ho] at hc
        by_cases hn : cellAt rec i ||| v = nonogram_BOTH
        · rw [if_pos hn] at hc
          have : ((cellAt rec i ||| v) == nonogram_BOTH && cellAt rec i != nonogram_BOTH)
              = true := by simp [ho, hn]
          rw [this]
          simp only [if_true]
          omega
        · rw [if_neg hn] at hc
          have : ((cellAt rec i ||| v) == nonogram_BOTH && cellAt rec i != nonogram_BOTH)
              = false := by simp [hn]
          rw [this]
          simp only [Bool.false_eq_true, if_false]
          omega

theorem mergeStart_le {line rule : List Nat} {q : Nat → Nat} (hq : ValidPlacement line rule q)
    (i : Nat) (hi : i ≤ rule.length) : mergeStart rule q i ≤ line.length := by
  unfold mergeStart
  split
  · omega
  · exact hq.1 (i - 1) (by omega)

theorem not_covered_gap {line rule : List Nat} {q : Nat → Nat} (hq : ValidPlacement line rule q)
    (b j : Nat) (hb : b ≤ rule.length) (h1 : mergeStart rule q b ≤ j)
    (h2 : b < rule.length → j < q b) : ¬ Covered rule q j := by
  intro ⟨b', hb', c1, c2⟩
  by_cases hlt : b' < b
  · have := (validPlacement_le hq (b := b') (c := b - 1) (by omega) (by omega)).2
    unfold mergeStart at h1
    rw [if_neg (by omega)] at h1
    omega
  · have := (validPlacement_le hq (b := b) (c := b') (by omega) hb').1
    have := h2 (by omega)
    omega

theorem mergeBlocks_spec {line rule : List Nat} {p : Nat → Nat}
    (hp : ValidPlacement line rule p) (n b : Nat) (rec : List Nat) (blank : Int)
    (hn : b + n = rule.length) (hlen : rec.length = line.length) :
    (mergeBlocks rule p n b (mergeStart rule p b) rec blank).1 = mergeStart rule p rule.length ∧
    (mergeBlocks rule p n b (mergeStart rule p b) rec blank).2.1.length = line.length ∧
    (∀ j, (j < mergeStart rule p b ∨ mergeStart rule p rule.length ≤ j) →
      cellAt (mergeBlocks rule p n b (mergeStart rule p b) rec blank).2.1 j = cellAt rec j) ∧
    (∀ j, mergeStart rule p b ≤ j → j < mergeStart rule p rule.length →
      (Covered rule p j →
        cellAt (mergeBlocks rule p n b (mergeStart rule p b) rec blank).2.1 j
          = cellAt rec j ||| nonogram_SOLID) ∧
      (¬ Covered rule p j →
        cellAt (mergeBlocks rule p n b (mergeStart rule p b) rec blank).2.1 j
          = cellAt rec j ||| nonogram_DOT)) ∧
    (mergeBlocks rule p n b (mergeStart rule p b) rec blank).2.2
      + ((mergeBlocks rule p n b (mergeStart rule p b) rec blank).2.1.count nonogram_BOTH : Int)
      = blank + (rec.count nonogram_BOTH : Int) := by
  induction n generalizing b rec blank with
  | zero =>
    have : b = rule.length := by omega
    subst this
    rw [show mergeBlocks rule p 0 rule.length (mergeStart rule p rule.length) rec blank
      = (mergeStart rule p rule.length, rec, blank) from rfl]
    exact ⟨rfl, hlen, fun _ _ => rfl, fun j h1 h2 => by omega, rfl⟩
  | succ n ih =>
    have hb : b < rule.length := by omega
    have hstart := validPlacement_start_lt hp hb
    have hfit := hp.1 b hb
    have hnext : mergeStart rule p (b + 1) = p b + ruleAt rule b := by
      unfold mergeStart
      rw [if_neg (by omega)]
      simp only [Nat.add_sub_cancel]
    have hend : mergeStart rule p (b + 1) ≤ mergeStart rule p rule.length := by
      by_cases he : b + 1 = rule.length
      · rw [he]
      · have := (validPlacement_le hp (b := b) (c := rule.length - 1) (by omega) (by omega)).2
        rw [hnext]
        unfold mergeStart
        rw [if_neg (by omega)]
        exact this
    simp only [mergeBlocks]
    have e1 : max (mergeStart rule p b) (p b) = p b := by omega
    have e2 : max (p b) (p b + ruleAt rule b) = p b + ruleAt rule b := by omega
    rw [e1, e2, ← hnext]
    obtain ⟨s1, s2, s3⟩ := mergeSpan_spec nonogram_DOT (Or.inl rfl)
      (p b - mergeStart rule p b) (mergeStart rule p b) rec blank (by omega)
    generalize mergeSpan nonogram_DOT (p b - mergeStart rule p b) (mergeStart rule p b) rec blank
      = r1 at s1 s2 s3 ⊢
    obtain ⟨t1, t2, t3⟩ := mergeSpan_spec nonogram_SOLID (Or.inr rfl)
      (mergeStart rule p (b + 1) - p b) (p b) r1.1 r1.2 (by rw [hnext]; omega)
    generalize mergeSpan nonogram_SOLID (mergeStart rule p (b + 1) - p b) (p b) r1.1 r1.2
      = r2 at t1 t2 t3 ⊢
    obtain ⟨u1, u2, u3, u4, u5⟩ := ih (b + 1) r2.1 r2.2 (by omega) (by omega)
    refine ⟨u1, u2, ?_, ?_, by omega⟩
    · intro j hj
      rw [u3 j (by omega), t2 j, if_neg (by omega), s2 j, if_neg (by omega)]
    · intro j hj1 hj2
      by_cases hjn : j < mergeStart rule p (b + 1)
      · rw [u3 j (Or.inl hjn), t2 j, s2 j]
        by_cases hjp : j < p b
        · have hnc : ¬ Covered rule p j := not_covered_gap hp b j (by omega) hj1 (fun _ => hjp)
          rw [if_neg (by omega), if_pos ⟨hj1, by omega⟩]
          exact ⟨fun hc => absurd hc hnc, fun _ => rfl⟩
        · have hc : Covered rule p j := ⟨b, hb, by omega, by omega⟩
          rw [if_pos ⟨by omega, by omega⟩, if_neg (by omega)]
          exact ⟨fun _ => rfl, fun hnc => absurd hc hnc⟩
      · have hsame : cellAt r2.1 j = cellAt rec j := by
          rw [t2 j, if_neg (by omega), s2 j, if_neg (by omega)]
        have := u4 j (by omega) hj2
        rw [hsame] at this
        exact this

theorem merge_spec {line rule : List Nat} {p : Nat → Nat}
    (hp : ValidPlacement line rule p) (rec : List Nat) (blank : Int)
    (hlen : rec.length = line.length) :
    (merge rec line.length blank rule p).1.length = line.length ∧
    (∀ j, j < line.length →
      (Covered rule p j →
        cellAt (merge rec line.length blank rule p).1 j = cellAt rec j ||| nonogram_SOLID) ∧
      (¬ Covered rule p j →
        cellAt (merge rec line.length blank rule p).1 j = cellAt rec j ||| nonogram_DOT)) ∧
    (merge rec line.length blank rule p).2
      + ((merge rec line.length blank rule p).1.count nonogram_BOTH : Int)
      = blank + (rec.count nonogram_BOTH : Int) := by
  unfold merge
  simp only []
  obtain ⟨u1, u2, u3, u4, u5⟩ := mergeBlocks_spec hp rule.length 0 rec blank (by omega) hlen
  have h0 : mergeStart rule p 0 = 0 := by simp [mergeStart]
  rw [h0] at u1 u2 u3 u4 u5
  generalize mergeBlocks rule p rule.length 0 0 rec blank = r at u1 u2 u3 u4 u5 ⊢
  have hend := mergeStart_le hp rule.length (Nat.le_refl _)
  obtain ⟨s1, s2, s3⟩ := mergeSpan_spec nonogram_DOT (Or.inl rfl)
    (line.length - r.1) r.1 r.2.1 r.2.2 (by rw [u1, u2]; omega)
  refine ⟨by rw [s1, u2], ?_, by omega⟩
  intro j hj
  rw [s2 j]
  by_cases hje : j < mergeStart rule p rule.length
  · rw [if_neg (by rw [u1]; omega)]
    exact u4 j (Nat.zero_le _) hje
  · rw [if_pos ⟨by rw [u1]; omega, by rw [u1]; omega⟩, u3 j (Or.inr (by omega))]
    have hnc : ¬ Covered rule p j :=
      not_covered_gap hp rule.length j (Nat.le_refl _) (by omega) (fun h => by omega)
    exact ⟨fun hc => absurd hc hnc, fun _ => rfl⟩

theorem hasSolid_or_solid (x : Nat) (h : x ≤ 3) : HasSolid (x ||| nonogram_SOLID) := by
  unfold HasSolid
  interval_cases x <;> decide

theorem hasDot_or_dot (x : Nat) (h : x ≤ 3) : HasDot (x ||| nonogram_DOT) := by
  unfold HasDot
  interval_cases x <;> decide

theorem hasSolid_or (x v : Nat) (h : x ≤ 3) (hv : v = nonogram_DOT ∨ v = nonogram_SOLID)
    (hx : HasSolid x) : HasSolid (x ||| v) := by
  unfold HasSolid at *
  rcases hv with hv | hv <;> subst hv <;> interval_cases x <;> revert hx <;> decide

theorem hasDot_or (x v : Nat) (h : x ≤ 3) (hv : v = nonogram_DOT ∨ v = nonogram_SOLID)
    (hx : HasDot x) : HasDot (x ||| v) := by
  unfold HasDot at *
  rcases hv with hv | hv <;> subst hv <;> interval_cases x <;> revert hx <;> decide

theorem hasDot_of_or_solid (x : Nat) (h : x ≤ 3) (hx : HasDot (x ||| nonogram_SOLID)) :
    HasDot x := by
  unfold HasDot at *
  interval_cases x <;> revert hx <;> decide

theorem hasSolid_of_or_dot (x : Nat) (h : x ≤ 3) (hx : HasSolid (x ||| nonogram_DOT)) :
    HasSolid x := by
  unfold HasSolid at *
  interval_cases x <;> revert hx <;> decide

theorem or_le_three (x v : Nat) (h : x ≤ 3) (hv : v = nonogram_DOT ∨ v = nonogram_SOLID) :
    x ||| v ≤ 3 := by
  rcases hv with hv | hv <;> subst hv <;> interval_cases x <;> decide

theorem covered_congr {rule : List Nat} {p q : Nat → Nat}
    (h : ∀ i, i < rule.length → q i = p i) (j : Nat) :
    Covered rule q j ↔ Covered rule p j := by
  unfold Covered Covers
  constructor
  · rintro ⟨i, hi, h1, h2⟩
    exact ⟨i, hi, by rw [← h i hi]; exact h1, by rw [← h i hi]; exact h2⟩
  · rintro ⟨i, hi, h1, h2⟩
    exact ⟨i, hi, by rw [h i hi]; exact h1, by rw [h i hi]; exact h2⟩

/-- In a valid placement that follows `pos[]` on the blocks before `d`, a
solid at or after the end of block `d - 1` is covered by a block from `d`
on. -/
theorem path_cover {line rule : List Nat} {pos q : Nat → Nat} {d s : Nat}
    (hq : ValidPlacement line rule q) (hpre : AgreeBefore pos q d) (hd : d ≤ rule.length)
    (hs : cellAt line s = nonogram_SOLID) (hge : mergeStart rule pos d ≤ s) :
    ∃ b, d ≤ b ∧ b < rule.length ∧ Covers rule q b s := by
  have hsL : s < line.length := lt_of_cellAt_ne_zero (by rw [hs]; decide)
  obtain ⟨b, hb, h1, h2⟩ := hq.2.2.2 s hsL hs
  refine ⟨b, ?_, hb, h1, h2⟩
  by_contra hlt
  have hle := (validPlacement_le hq (b := b) (c := d - 1) (by omega) (by omega)).2
  unfold mergeStart at hge
  rw [if_neg (by omega), ← hpre (d - 1) (by omega)] at hge
  omega

theorem path_cover_le {line rule : List Nat} {pos q : Nat → Nat} {d s : Nat}
    (hq : ValidPlacement line rule q) (hpre : AgreeBefore pos q d) (hd : d < rule.length)
    (hs : cellAt line s = nonogram_SOLID) (hge : mergeStart rule pos d ≤ s) : q d ≤ s := by
  obtain ⟨b, hb1, hb2, h1, h2⟩ := path_cover hq hpre (Nat.le_of_lt hd) hs hge
  have := (validPlacement_le hq (b := d) (c := b) hb1 hb2).1
  exact Nat.le_trans this h1

theorem completeScan_spec (line : List Nat) (last n dot : Nat) (solid : Bool)
    (hn : last ≤ dot + n) (hd : dot ≤ last) :
    dot ≤ (completeScan line last n dot solid).1 ∧
    (completeScan line last n dot solid).1 ≤ last ∧
    (∀ j, dot ≤ j → j < (completeScan line last n dot solid).1 →
      cellAt line j ≠ nonogram_DOT) ∧
    ((completeScan line last n dot solid).1 < last →
      cellAt line (completeScan line last n dot solid).1 = nonogram_DOT) ∧
    ((completeScan line last n dot solid).2 = true ↔
      (solid = true ∨ ∃ j, dot ≤ j ∧ j < (completeScan line last n dot solid).1 ∧
        cellAt line j = nonogram_SOLID)) := by
  induction n generalizing dot solid with
  | zero =>
    have : dot = last := by omega
    subst this
    rw [show completeScan line dot 0 dot solid = (dot, solid) from rfl]
    refine ⟨Nat.le_refl _, Nat.le_refl _, fun j h1 h2 => by omega, fun h => by omega, ?_⟩
    constructor
    · intro h; exact Or.inl h
    · rintro (h | ⟨j, h1, h2, _⟩)
      · exact h
      · omega
  | succ n ih =>
    unfold completeScan
    by_cases hc : (decide (dot < last) && cellAt line dot != nonogram_DOT) = true
    · rw [if_pos hc]
      simp only [Bool.and_eq_true, decide_eq_true_eq, bne_iff_ne, ne_eq] at hc
      obtain ⟨a1, a2, a3, a4, a5⟩ := ih (dot + 1)
        (solid || cellAt line dot == nonogram_SOLID) (by omega) (by omega)
      refine ⟨by omega, a2, ?_, a4, ?_⟩
      · intro j h1 h2
        by_cases he : j = dot
        · subst he; exact hc.2
        · exact a3 j (by omega) h2
      · rw [a5]
        constructor
        · rintro (h | ⟨j, h1, h2, h3⟩)
          · simp only [Bool.or_eq_true, beq_iff_eq] at h
            rcases h with h | h
            · exact Or.inl h
            · exact Or.inr ⟨dot, Nat.le_refl _, by omega, h⟩
          · exact Or.inr ⟨j, by omega, h2, h3⟩
        · rintro (h | ⟨j, h1, h2, h3⟩)
          · left; simp [h]
          · by_cases he : j = dot
            · subst he; left; simp [h3]
            · exact Or.inr ⟨j, by omega, h2, h3⟩
    · rw [if_neg hc]
      simp only [Bool.and_eq_true, decide_eq_true_eq, bne_iff_ne, ne_eq, not_and,
        Decidable.not_not] at hc
      refine ⟨Nat.le_refl _, hd, fun j h1 h2 => by omega, fun h => hc h, ?_⟩
      constructor
      · intro h; exact Or.inl h
      · rintro (h | ⟨j, h1, h2, _⟩)
        · exact h
        · omega

theorem mergeStart_congr (rule : List Nat) {p q : Nat → Nat} {b : Nat}
    (h : ∀ i, i < b → q i = p i) : mergeStart rule q b = mergeStart rule p b := by
  unfold mergeStart
  split
  · rfl
  · rw [h (b - 1) (by omega)]

theorem CPlaced.restrict {line rule : List Nat} {pos pos' : Nat → Nat} {d d' : Nat}
    (h : CPlaced line rule pos d) (hd : d' ≤ d) (hpos : ∀ i, i < d' → pos' i = pos i) :
    CPlaced line rule pos' d' := by
  refine ⟨?_, ?_, ?_, ?_, ?_⟩
  · intro b hb
    rw [hpos b hb]; exact h.fit b (by omega)
  · intro b hb
    rw [hpos b (by omega), hpos (b + 1) hb]; exact h.gap b (by omega)
  · intro b hb j
    rw [hpos b hb]; exact h.nodot b (by omega) j
  · intro b hb j
    rw [hpos b hb, mergeStart_congr rule (fun i hi => hpos i (by omega))]
    exact h.nosolid b (by omega) j
  · intro b hb
    rw [hpos b hb]; exact h.after b (by omega)

/-- Placed blocks cover every solid before the end of the last of them. -/
theorem CPlaced.covered {line rule : List Nat} {pos : Nat → Nat} {d : Nat}
    (h : CPlaced line rule pos d) (hd : d ≤ rule.length) (j : Nat)
    (hj : j < mergeStart rule pos d) (hs : cellAt line j = nonogram_SOLID) :
    ∃ b, b < d ∧ Covers rule pos b j := by
  induction d with
  | zero => simp [mergeStart] at hj
  | succ d ih =>
    have hend : mergeStart rule pos (d + 1) = pos d + ruleAt rule d := by
      unfold mergeStart
      rw [if_neg (by omega)]
      simp only [Nat.add_sub_cancel]
    rw [hend] at hj
    by_cases h1 : pos d ≤ j
    · exact ⟨d, by omega, h1, hj⟩
    · by_cases h2 : mergeStart rule pos d ≤ j
      · exact absurd hs (h.nosolid d (by omega) j h2 (by omega))
      · obtain ⟨b, hb, hc⟩ := ih (h.restrict (by omega) (fun _ _ => rfl)) (by omega) (by omega)
        exact ⟨b, by omega, hc⟩

/-- When all blocks are placed and no solid follows the last one, `pos[]`
is a valid placement. -/
theorem CPlaced.valid {line rule : List Nat} {pos : Nat → Nat}
    (h : CPlaced line rule pos rule.length)
    (hrest : ∀ j, mergeStart rule pos rule.length ≤ j → j < line.length →
      cellAt line j ≠ nonogram_SOLID) :
    ValidPlacement line rule pos := by
  refine ⟨h.fit, fun i _ hi => h.gap i hi, fun i hi j _ h1 h2 => h.nodot i hi j h1 h2, ?_⟩
  intro j hj hs
  by_cases hge : mergeStart rule pos rule.length ≤ j
  · exact absurd hs (hrest j hge hj)
  · exact h.covered (Nat.le_refl _) j (by omega) hs

theorem completeDigit_lt {line rule : List Nat} {c : CompleteState} (h : CInv line rule c)
    (b : Nat) : completeDigit line rule c b < line.length + 4 := by
  unfold completeDigit
  split
  · rename_i hb
    have := h.placed.fit b hb
    omega
  · split
    · rename_i hb
      split
      · omega
      · rename_i hmb
        split
        · rename_i hk
          have := (h.cand (by simpa using hmb) (by omega)).bound
          subst hb
          omega
        · omega
    · omega

/-- The digit of the current block is below `L + 3` unless the block is
being abandoned. -/
theorem completeDigit_lt_back {line rule : List Nat} {c : CompleteState}
    (h : CInv line rule c) (b : Nat) (hb : b ≤ c.blockno)
    (hdig : b < c.blockno ∨ c.move_back = false) :
    completeDigit line rule c b < line.length + 3 := by
  unfold completeDigit
  split
  · rename_i hb
    have := h.placed.fit b hb
    omega
  · have hbe : b = c.blockno := by omega
    have hmb : c.move_back = false := by
      rcases hdig with h1 | h1
      · omega
      · exact h1
    rw [if_pos hbe, hmb]
    simp only [Bool.false_eq_true, if_false]
    split
    · have := (h.cand hmb (by omega)).bound
      subst hbe
      omega
    · omega

theorem completeDigit_agree {line rule : List Nat} {c c' : CompleteState} {b : Nat}
    (hb : b ≤ c.blockno) (hb' : b ≤ c'.blockno)
    (hpos : ∀ i, i < b → c'.pos i = c.pos i) (i : Nat) (hi : i < b) :
    completeDigit line rule c i = completeDigit line rule c' i := by
  unfold completeDigit
  rw [if_pos (by omega), if_pos (by omega), hpos i hi]

/-- The current block, or an earlier one, is abandoned. -/
theorem cinv_back {line rule : List Nat} {c : CompleteState} (h : CInv line rule c)
    (c' : CompleteState)
    (hb : c'.blockno ≤ c.blockno) (hmb : c'.move_back = true)
    (hpos : ∀ i, i < c'.blockno → c'.pos i = c.pos i)
    (hre : c'.re = c.re) (hrem : c'.remunk = c.remunk)
    (hdig : c'.blockno < c.blockno ∨ c.move_back = false)
    (hex : ∀ q, ValidPlacement line rule q → AgreeBefore c.pos q c'.blockno →
      SeenAll line rule c.re q) :
    CInv line rule c' ∧ completeMeasure line rule c < completeMeasure line rule c' := by
  constructor
  · refine ⟨by have := h.blk; omega, h.placed.restrict hb hpos, ?_, ?_, ?_⟩
    · intro hf; rw [hmb] at hf; exact absurd hf (by decide)
    · rw [hre, hrem]; exact h.record
    · intro q hq ⟨b, hb1, hpre, hlt, heq⟩
      rw [hre]
      by_cases hbb : b < c'.blockno
      · apply h.seen q hq
        refine ⟨b, by omega, ?_, ?_, ?_⟩
        · intro i hi; rw [hpre i hi, hpos i (by omega)]
        · intro _; rw [← hpos b hbb]; exact hlt hbb
        · intro he; omega
      · have hbe : b = c'.blockno := by omega
        subst hbe
        apply hex q hq
        intro i hi; rw [hpre i hi, hpos i hi]
  · unfold completeMeasure
    have hk := h.blk
    apply horner_lex _ _ _ _ c'.blockno (by omega)
    · exact completeDigit_agree hb (Nat.le_refl _) hpos
    · have := completeDigit_lt_back h c'.blockno hb hdig
      have e : completeDigit line rule c' c'.blockno = line.length + 3 := by
        unfold completeDigit
        rw [if_neg (by omega), if_pos rfl, hmb]
        simp
      omega
    · exact fun b _ => completeDigit_lt h b

/-- The current block, or an earlier one, becomes a candidate at a position
further right. -/
theorem cinv_move {line rule : List Nat} {c : CompleteState} (h : CInv line rule c)
    (c' : CompleteState)
    (hb : c'.blockno ≤ c.blockno) (hk : c'.blockno < rule.length)
    (hmb : c'.move_back = false)
    (hpos : ∀ i, i < c'.blockno → c'.pos i = c.pos i)
    (hre : c'.re = c.re) (hrem : c'.remunk = c.remunk)
    (hdig : c'.blockno < c.blockno ∨ c.move_back = false)
    (hlt : c.pos c'.blockno < c'.pos c'.blockno)
    (hbound : c'.pos c'.blockno ≤ line.length + 1)
    (hgap : 0 < c'.blockno →
      c.pos (c'.blockno - 1) + ruleAt rule (c'.blockno - 1) + 1 ≤ c'.pos c'.blockno)
    (hnosolid : ∀ j, mergeStart rule c.pos c'.blockno ≤ j → j < c'.pos c'.blockno →
      cellAt line j ≠ nonogram_SOLID)
    (hskip : ∀ q, ValidPlacement line rule q → AgreeBefore c.pos q c'.blockno →
      q c'.blockno < c'.pos c'.blockno → SeenAll line rule c.re q) :
    CInv line rule c' ∧ completeMeasure line rule c < completeMeasure line rule c' := by
  constructor
  · refine ⟨by omega, h.placed.restrict hb hpos, ?_, ?_, ?_⟩
    · intro _ _
      refine ⟨?_, ?_, hbound⟩
      · intro h0
        rw [hpos (c'.blockno - 1) (by omega)]
        exact hgap h0
      · intro j
        rw [mergeStart_congr rule hpos]
        exact hnosolid j
    · rw [hre, hrem]; exact h.record
    · intro q hq ⟨b, hb1, hpre, hlt', heq⟩
      rw [hre]
      by_cases hbb : b < c'.blockno
      · apply h.seen q hq
        refine ⟨b, by omega, ?_, ?_, ?_⟩
        · intro i hi; rw [hpre i hi, hpos i (by omega)]
        · intro _; rw [← hpos b hbb]; exact hlt' hbb
        · intro he; omega
      · have hbe : b = c'.blockno := by omega
        subst hbe
        have hq2 : q c'.blockno < c'.pos c'.blockno := by
          rcases heq rfl with h1 | h1
          · rw [hmb] at h1; exact absurd h1 (by decide)
          · exact h1.2
        apply hskip q hq ?_ hq2
        intro i hi; rw [hpre i hi, hpos i hi]
  · unfold completeMeasure
    apply horner_lex _ _ _ _ c'.blockno (by omega)
    · exact completeDigit_agree hb (Nat.le_refl _) hpos
    · have e : completeDigit line rule c' c'.blockno = c'.pos c'.blockno + 1 := by
        unfold completeDigit
        rw [if_neg (by omega), if_pos rfl, hmb]
        simp [hk]
      rw [e]
      unfold completeDigit
      split
      · omega
      · have hbe : c'.blockno = c.blockno := by omega
        have hmb0 : c.move_back = false := by
          rcases hdig with h1 | h1
          · omega
          · exact h1
        rw [if_pos hbe, hmb0]
        simp only [Bool.false_eq_true, if_false]
        omega
    · exact fun b _ => completeDigit_lt h b

/-- The current block is placed and the search goes on to the next one. -/
theorem cinv_descend {line rule : List Nat} {c : CompleteState} (h : CInv line rule c)
    (c' : CompleteState)
    (hmb0 : c.move_back = false) (hd : c.blockno < rule.length)
    (hb : c'.blockno = c.blockno + 1) (hmb : c'.move_back = false)
    (hpos : ∀ i, i < c.blockno → c'.pos i = c.pos i)
    (hre : c'.re = c.re) (hrem : c'.remunk = c.remunk)
    (hge : c.pos c.blockno ≤ c'.pos c.blockno)
    (hnext : c.blockno + 1 < rule.length →
      c'.pos (c.blockno + 1) = c'.pos c.blockno + ruleAt rule c.blockno + 1)
    (hfit : c'.pos c.blockno + ruleAt rule c.blockno ≤ line.length)
    (hnodot : ∀ j, c'.pos c.blockno ≤ j → j < c'.pos c.blockno + ruleAt rule c.blockno →
      cellAt line j ≠ nonogram_DOT)
    (hnosolid : ∀ j, mergeStart rule c.pos c.blockno ≤ j → j < c'.pos c.blockno →
      cellAt line j ≠ nonogram_SOLID)
    (hafter : cellAt line (c'.pos c.blockno + ruleAt rule c.blockno) ≠ nonogram_SOLID)
    (hskip : ∀ q, ValidPlacement line rule q → AgreeBefore c.pos q c.blockno →
      q c.blockno < c'.pos c.blockno → SeenAll line rule c.re q) :
    CInv line rule c' ∧ completeMeasure line rule c < completeMeasure line rule c' := by
  have hcand := h.cand hmb0 hd
  have hms : mergeStart rule c'.pos c.blockno = mergeStart rule c.pos c.blockno :=
    mergeStart_congr rule hpos
  have hend : mergeStart rule c'.pos (c.blockno + 1) = c'.pos c.blockno + ruleAt rule c.blockno := by
    unfold mergeStart
    rw [if_neg (by omega)]
    simp only [Nat.add_sub_cancel]
  constructor
  · refine ⟨by omega, ?_, ?_, ?_, ?_⟩
    · rw [hb]
      have hold := h.placed.restrict (Nat.le_refl _) hpos
      refine ⟨?_, ?_, ?_, ?_, ?_⟩
      · intro b hb1
        by_cases he : b = c.blockno
        · subst he; exact hfit
        · exact hold.fit b (by omega)
      · intro b hb1
        by_cases he : b + 1 = c.blockno
        · have h0 := hcand.gap (by omega)
          rw [← he] at h0 hge
          simp only [Nat.add_sub_cancel] at h0
          rw [hpos b (by omega)]
          omega
        · exact hold.gap b (by omega)
      · intro b hb1
        by_cases he : b = c.blockno
        · subst he; exact hnodot
        · exact hold.nodot b (by omega)
      · intro b hb1
        by_cases he : b = c.blockno
        · subst he; intro j; rw [hms]; exact hnosolid j
        · exact hold.nosolid b (by omega)
      · intro b hb1
        by_cases he : b = c.blockno
        · subst he; exact hafter
        · exact hold.after b (by omega)
    · intro _ hlt
      rw [hb] at hlt ⊢
      have hn := hnext hlt
      refine ⟨?_, ?_, by omega⟩
      · intro _
        simp only [Nat.add_sub_cancel]
        omega
      · intro j h1 h2
        rw [hend] at h1
        have : j = c'.pos c.blockno + ruleAt rule c.blockno := by omega
        subst this
        exact hafter
    · rw [hre, hrem]; exact h.record
    · intro q hq ⟨b, hb1, hpre, hlt', heq⟩
      rw [hre]
      rw [hb] at hb1 hlt' heq
      by_cases hbb : b < c.blockno
      · apply h.seen q hq
        refine ⟨b, by omega, ?_, ?_, ?_⟩
        · intro i hi; rw [hpre i hi, hpos i (by omega)]
        · intro _; rw [← hpos b hbb]; exact hlt' (by omega)
        · intro he; omega
      · by_cases hbe : b = c.blockno
        · subst hbe
          apply hskip q hq ?_ (hlt' (by omega))
          intro i hi; rw [hpre i hi, hpos i hi]
        · have hbe2 : b = c.blockno + 1 := by omega
          subst hbe2
          exfalso
          rcases heq rfl with h1 | ⟨h1, h2⟩
          · rw [hmb] at h1; exact absurd h1 (by decide)
          · have hg := hq.2.1 c.blockno hd h1
            rw [hnext h1, ← hpre c.blockno (by omega)] at h2
            omega
  · unfold completeMeasure
    have hold : completeDigit line rule c c.blockno = c.pos c.blockno + 1 := by
      unfold completeDigit
      rw [if_neg (by omega), if_pos rfl, hmb0]
      simp [hd]
    have hnew : completeDigit line rule c' c.blockno = c'.pos c.blockno + 1 := by
      unfold completeDigit
      rw [if_pos (by omega)]
    by_cases he : c.pos c.blockno = c'.pos c.blockno
    · apply horner_lex _ _ _ _ (c.blockno + 1) (by omega)
      · intro i hi
        by_cases hid : i = c.blockno
        · subst hid; rw [hold, hnew, he]
        · exact completeDigit_agree (Nat.le_refl _) (by omega) hpos i (by omega)
      · have e1 : completeDigit line rule c (c.blockno + 1) = 0 := by
          unfold completeDigit
          rw [if_neg (by omega), if_neg (by omega)]
        have e2 : 0 < completeDigit line rule c' (c.blockno + 1) := by
          unfold completeDigit
          rw [if_neg (by omega), if_pos hb.symm, hmb]
          simp only [Bool.false_eq_true, if_false]
          split <;> omega
        omega
      · exact fun b _ => completeDigit_lt h b
    · apply horner_lex _ _ _ _ c.blockno (by omega)
      · exact completeDigit_agree (Nat.le_refl _) (by omega) hpos
      · rw [hold, hnew]; omega
      · exact fun b _ => completeDigit_lt h b

theorem seen_or {rule re re' : List Nat} {q : Nat → Nat} {j : Nat}
    (hrange : cellAt re j ≤ 3)
    (hor : ∃ v, (v = nonogram_DOT ∨ v = nonogram_SOLID) ∧ cellAt re' j = cellAt re j ||| v)
    (h : Seen rule re q j) : Seen rule re' q j := by
  obtain ⟨v, hv, e⟩ := hor
  unfold Seen at *
  rw [e]
  exact ⟨fun hc => hasSolid_or _ v hrange hv (h.1 hc),
    fun hc => hasDot_or _ v hrange hv (h.2 hc)⟩

/-- All blocks are placed, no solid is left over, and the placement is
merged into the record. -/
theorem cinv_merge {line rule : List Nat} {c : CompleteState} (h : CInv line rule c)
    (c' : CompleteState)
    (hcells : ∀ j, j < line.length → cellAt line j ≤ 2)
    (hmb0 : c.move_back = false) (hd : c.blockno = rule.length)
    (hv : ValidPlacement line rule c.pos)
    (hb : c'.blockno = c.blockno) (hmb : c'.move_back = true)
    (hpos : ∀ i, i < c.blockno → c'.pos i = c.pos i)
    (hre : c'.re = (merge c.re line.length c.remunk rule c.pos).1)
    (hrem : c'.remunk = (merge c.re line.length c.remunk rule c.pos).2) :
    CInv line rule c' ∧ completeMeasure line rule c < completeMeasure line rule c' := by
  obtain ⟨m1, m2, m3⟩ := merge_spec hv c.re c.remunk h.record.len
  rw [← hre] at m1 m2 m3
  rw [← hrem] at m3
  have hrec := h.record
  have hor : ∀ j, j < line.length →
      ∃ v, (v = nonogram_DOT ∨ v = nonogram_SOLID) ∧ cellAt c'.re j = cellAt c.re j ||| v := by
    intro j hj
    by_cases hc : Covered rule c.pos j
    · exact ⟨nonogram_SOLID, Or.inr rfl, (m2 j hj).1 hc⟩
    · exact ⟨nonogram_DOT, Or.inl rfl, (m2 j hj).2 hc⟩
  constructor
  · refine ⟨by rw [hb]; exact h.blk, ?_, ?_, ?_, ?_⟩
    · rw [hb]; exact h.placed.restrict (Nat.le_refl _) hpos
    · intro hf; rw [hmb] at hf; exact absurd hf (by decide)
    · refine ⟨m1, ?_, ?_, ?_, ?_, ?_⟩
      · intro j hj hne
        have hk := hrec.known j hj hne
        have hc2 := hcells j hj
        by_cases hs : cellAt line j = nonogram_SOLID
        · obtain ⟨i, hi, hcov⟩ := hv.2.2.2 j hj hs
          rw [(m2 j hj).1 ⟨i, hi, hcov⟩, hk, hs]
          decide
        · have hdot : cellAt line j = nonogram_DOT := by
            have : cellAt line j ≠ 0 := hne
            have : cellAt line j ≠ 2 := hs
            show cellAt line j = 1
            omega
          have hnc : ¬ Covered rule c.pos j := by
            rintro ⟨i, hi, h1, h2⟩
            exact hv.2.2.1 i hi j hj h1 h2 hdot
          rw [(m2 j hj).2 hnc, hk, hdot]
          decide
      · intro j hj
        obtain ⟨v, hv', e⟩ := hor j hj
        rw [e]
        exact or_le_three _ v (hrec.range j hj) hv'
      · intro j hj hbl hdot
        by_cases hc : Covered rule c.pos j
        · rw [(m2 j hj).1 hc] at hdot
          exact hrec.dotw j hj hbl (hasDot_of_or_solid _ (hrec.range j hj) hdot)
        · exact ⟨c.pos, hv, hc⟩
      · intro j hj hbl hsol
        by_cases hc : Covered rule c.pos j
        · exact ⟨c.pos, hv, hc⟩
        · rw [(m2 j hj).2 hc] at hsol
          exact hrec.solw j hj hbl (hasSolid_of_or_dot _ (hrec.range j hj) hsol)
      · rw [m3]; exact hrec.count
    · intro q hq ⟨b, hb1, hpre, hlt', heq⟩
      rw [hb] at hb1 hlt' heq
      by_cases hbb : b < c.blockno
      · have hold := h.seen q hq ⟨b, by omega, fun i hi => by rw [hpre i hi, hpos i (by omega)],
          fun _ => by rw [← hpos b hbb]; exact hlt' hbb, fun he => by omega⟩
        intro j hj hbl
        exact seen_or (hrec.range j hj) (hor j hj) (hold j hj hbl)
      · have hbe : b = c.blockno := by omega
        subst hbe
        have hqp : ∀ i, i < rule.length → q i = c.pos i := by
          intro i hi
          rw [hpre i (by omega), hpos i (by omega)]
        intro j hj hbl
        unfold Seen
        rw [covered_congr hqp j]
        constructor
        · intro hc
          rw [(m2 j hj).1 hc]
          exact hasSolid_or_solid _ (hrec.range j hj)
        · intro hc
          rw [(m2 j hj).2 hc]
          exact hasDot_or_dot _ (hrec.range j hj)
  · unfold completeMeasure
    have hk := h.blk
    apply horner_lex _ _ _ _ c.blockno (by omega)
    · exact completeDigit_agree (Nat.le_refl _) (by omega) hpos
    · have e1 : completeDigit line rule c c.blockno = 1 := by
        unfold completeDigit
        rw [if_neg (by omega), if_pos rfl, hmb0]
        simp [hd]
      have e2 : completeDigit line rule c' c.blockno = line.length + 3 := by
        unfold completeDigit
        rw [if_neg (by omega), if_pos hb.symm, hmb]
        simp
      omega
    · exact fun b _ => completeDigit_lt h b

/-- The branch of `step` for `blockno == rulen` (complete.c 171-214). -/
theorem completeAdvance_last {line rule : List Nat}
    (hcells : ∀ j, j < line.length → cellAt line j ≤ 2)
    {c : CompleteState} (h : CInv line rule c) (hmb : c.move_back = false)
    (hd : c.blockno = rule.length) :
    CInv line rule (completeAdvance line rule c) ∧
      completeMeasure line rule c < completeMeasure line rule (completeAdvance line rule c) := by
  have hk := h.blk
  unfold completeAdvance
  simp only []
  rw [if_pos (by simpa using hd)]
  have hbp : ∀ j, mergeStart rule c.pos c.blockno ≤ j →
      j < (if c.blockno > 0 then c.pos (c.blockno - 1) + ruleAt rule (c.blockno - 1) + 1 else 0) →
      cellAt line j ≠ nonogram_SOLID := by
    intro j h1 h2
    unfold mergeStart at h1
    by_cases h0 : c.blockno = 0
    · rw [if_neg (by omega)] at h2; omega
    · rw [if_neg h0] at h1
      rw [if_pos (by omega)] at h2
      have : j = c.pos (c.blockno - 1) + ruleAt rule (c.blockno - 1) := by omega
      subst this
      exact h.placed.after (c.blockno - 1) (by omega)
  have hbp2 : mergeStart rule c.pos c.blockno ≤
      (if c.blockno > 0 then c.pos (c.blockno - 1) + ruleAt rule (c.blockno - 1) + 1 else 0) := by
    unfold mergeStart
    by_cases h0 : c.blockno = 0
    · rw [if_pos h0]; omega
    · rw [if_neg h0, if_pos (by omega)]; omega
  generalize (if c.blockno > 0 then c.pos (c.blockno - 1) + ruleAt rule (c.blockno - 1) + 1
    else 0) = bp at hbp hbp2 ⊢
  have g1 := whileInc_ge (fun p => decide (p < line.length) && cellAt line p != nonogram_SOLID)
    line.length bp
  have g2 := whileInc_all (fun p => decide (p < line.length) && cellAt line p != nonogram_SOLID)
    line.length bp
  have g3 := whileInc_stop (fun p => decide (p < line.length) && cellAt line p != nonogram_SOLID)
    line.length bp ⟨max bp line.length, by omega, by omega, by
      simp only [Bool.and_eq_false_iff, decide_eq_false_iff_not]; left; omega⟩
  generalize whileInc (fun p => decide (p < line.length) && cellAt line p != nonogram_SOLID)
    line.length bp = bp' at g1 g2 g3 ⊢
  by_cases hfound : bp' < line.length
  · rw [if_pos hfound]
    have hs : cellAt line bp' = nonogram_SOLID := by
      simp only [Bool.and_eq_false_iff, decide_eq_false_iff_not, bne_eq_false_iff_eq] at g3
      rcases g3 with g3 | g3
      · omega
      · exact g3
    refine cinv_back h _ (Nat.le_refl _) rfl (fun _ _ => rfl) rfl rfl (Or.inr hmb) ?_
    intro q hq hpre
    have hpre' : AgreeBefore c.pos q c.blockno := hpre
    exfalso
    obtain ⟨b, hb1, hb2, _⟩ := path_cover hq hpre' hk hs (by omega)
    omega
  · rw [if_neg hfound]
    have hrest : ∀ j, mergeStart rule c.pos rule.length ≤ j → j < line.length →
        cellAt line j ≠ nonogram_SOLID := by
      intro j h1 h2
      rw [← hd] at h1
      by_cases hj : j < bp
      · exact hbp j h1 hj
      · have := g2 j (by omega) (by omega)
        simp only [Bool.and_eq_true, decide_eq_true_eq, bne_iff_ne, ne_eq] at this
        exact this.2
    have hv : ValidPlacement line rule c.pos := CPlaced.valid (hd ▸ h.placed) hrest
    exact cinv_merge h _ hcells hmb hd hv rfl rfl (fun _ _ => rfl) rfl rfl

/-- The branches of `step` that try to place block `blockno`
(complete.c 216-298). -/
theorem completeAdvance_block {line rule : List Nat} (hL : line.length < 2 ^ 64)
    (hpos : PositiveRule rule) (hq0 : ∃ q0, ValidPlacement line rule q0)
    {c : CompleteState} (h : CInv line rule c) (hmb : c.move_back = false)
    (hdk : c.blockno < rule.length) :
    CInv line rule (completeAdvance line rule c) ∧
      completeMeasure line rule c < completeMeasure line rule (completeAdvance line rule c) := by
  unfold completeAdvance
  simp only []
  rw [if_neg (by simp only [beq_iff_eq]; omega)]
  obtain ⟨q0, hq0v⟩ := hq0
  obtain ⟨hl1, hl2, hl3⟩ := completeLimit_facts hL hpos hq0v c.blockno hdk
  have hr := hpos c.blockno hdk
  have hcand := h.cand hmb hdk
  have hms : mergeStart rule c.pos c.blockno ≤ c.pos c.blockno := by
    unfold mergeStart
    split
    · omega
    · have := hcand.gap (by omega); omega
  have hdone : ∀ q, ValidPlacement line rule q → AgreeBefore c.pos q c.blockno →
      q c.blockno < c.pos c.blockno → SeenAll line rule c.re q := by
    intro q hq hpre hlt
    exact h.seen q hq ⟨c.blockno, Nat.le_refl _, hpre, fun hf => absurd hf (Nat.lt_irrefl _),
      fun _ => Or.inr ⟨hdk, hlt⟩⟩
  have hskipOf : ∀ P, (∀ q, ValidPlacement line rule q → AgreeBefore c.pos q c.blockno →
      c.pos c.blockno ≤ q c.blockno → P ≤ q c.blockno) →
      ∀ q, ValidPlacement line rule q → AgreeBefore c.pos q c.blockno →
        q c.blockno < P → SeenAll line rule c.re q := by
    intro P hlow q hq hpre hlt
    by_cases hq1 : q c.blockno < c.pos c.blockno
    · exact hdone q hq hpre hq1
    · have := hlow q hq hpre (by omega)
      omega
  have hexOf : (∀ q, ValidPlacement line rule q → AgreeBefore c.pos q c.blockno →
      c.pos c.blockno ≤ q c.blockno → False) →
      ∀ q, ValidPlacement line rule q → AgreeBefore c.pos q c.blockno → SeenAll line rule c.re q := by
    intro hno q hq hpre
    by_cases hq1 : q c.blockno < c.pos c.blockno
    · exact hdone q hq hpre hq1
    · exact absurd (hno q hq hpre (by omega)) id
  generalize completeLimit line.length rule c.blockno = lim at hl1 hl2 hl3 ⊢
  -- the loop that skips dots
  have g1 := whileInc_ge (fun p => decide (p < lim) && cellAt line p == nonogram_DOT)
    (line.length + 1) (c.pos c.blockno)
  have g2 : ∀ y, c.pos c.blockno ≤ y →
      y < whileInc (fun p => decide (p < lim) && cellAt line p == nonogram_DOT)
        (line.length + 1) (c.pos c.blockno) → cellAt line y = nonogram_DOT := by
    intro y h1 h2
    have := whileInc_all _ _ _ y h1 h2
    simp only [Bool.and_eq_true, decide_eq_true_eq, beq_iff_eq] at this
    exact this.2
  have g3 := whileInc_stop (fun p => decide (p < lim) && cellAt line p == nonogram_DOT)
    (line.length + 1) (c.pos c.blockno) ⟨max (c.pos c.blockno) lim, by omega, by omega, by
      simp only [Bool.and_eq_false_iff, decide_eq_false_iff_not]; left; omega⟩
  generalize whileInc (fun p => decide (p < lim) && cellAt line p == nonogram_DOT)
    (line.length + 1) (c.pos c.blockno) = p1 at g1 g2 g3 ⊢
  have hlow1 : ∀ q, ValidPlacement line rule q → AgreeBefore c.pos q c.blockno →
      c.pos c.blockno ≤ q c.blockno → p1 ≤ q c.blockno := by
    intro q hq _ hge
    by_contra hlt
    exact hq.start_nodot hdk (Nat.le_refl _) (by omega) (g2 _ hge (by omega))
  have hns1 : ∀ j, mergeStart rule c.pos c.blockno ≤ j → j < p1 →
      cellAt line j ≠ nonogram_SOLID := by
    intro j h1 h2
    by_cases hj : j < c.pos c.blockno
    · exact hcand.nosolid j h1 hj
    · rw [g2 j (by omega) h2]; decide
  have hupd : ∀ P i, i < c.blockno → Function.update c.pos c.blockno P i = c.pos i := by
    intro P i hi
    exact Function.update_noteq (by omega) _ _
  by_cases hA : p1 ≥ lim
  · rw [if_pos hA]
    refine cinv_back h _ (Nat.le_refl _) rfl (hupd p1) rfl rfl (Or.inr hmb) ?_
    apply hexOf
    intro q hq hpre hge
    have := hlow1 q hq hpre hge
    have := hl3 q hq
    omega
  · rw [if_neg hA]
    have hnd1 : cellAt line p1 ≠ nonogram_DOT := by
      simp only [Bool.and_eq_false_iff, decide_eq_false_iff_not, beq_eq_false_iff_ne,
        ne_eq] at g3
      rcases g3 with g3 | g3
      · omega
      · exact g3
    obtain ⟨s1, s2, s3, s4, s5⟩ := completeScan_spec line (p1 + ruleAt rule c.blockno)
      (ruleAt rule c.blockno) p1 false (Nat.le_refl _) (by omega)
    generalize completeScan line (p1 + ruleAt rule c.blockno) (ruleAt rule c.blockno) p1 false
      = sc at s1 s2 s3 s4 s5 ⊢
    by_cases hB : sc.1 < p1 + ruleAt rule c.blockno
    · rw [if_pos hB]
      have hdot := s4 hB
      -- a valid placement with block `blockno` in `[p1, sc.1]` covers the dot
      have hcov : ∀ q, ValidPlacement line rule q → p1 ≤ q c.blockno →
          q c.blockno ≤ sc.1 → False := by
        intro q hq h1 h2
        exact hq.start_nodot hdk h2 (by omega) hdot
      by_cases hS : sc.2 = true
      · rw [if_pos hS]
        obtain ⟨s, hs1, hs2, hs3⟩ : ∃ j, p1 ≤ j ∧ j < sc.1 ∧ cellAt line j = nonogram_SOLID := by
          rcases s5.1 hS with hf | hf
          · exact absurd hf (by decide)
          · exact hf
        refine cinv_back h _ (Nat.le_refl _) rfl (hupd p1) rfl rfl (Or.inr hmb) ?_
        apply hexOf
        intro q hq hpre hge
        have hle := path_cover_le hq hpre hdk hs3 (by omega)
        exact hcov q hq (hlow1 q hq hpre hge) (by omega)
      · rw [if_neg hS]
        have hnosol : ∀ j, p1 ≤ j → j < sc.1 → cellAt line j ≠ nonogram_SOLID := by
          intro j h1 h2 h3
          exact hS (s5.2 (Or.inr ⟨j, h1, h2, h3⟩))
        refine cinv_move h _ (Nat.le_refl _) hdk hmb (hupd _) rfl rfl (Or.inr hmb) ?_ ?_ ?_ ?_ ?_
        · show c.pos c.blockno < Function.update c.pos c.blockno (sc.1 + 1) c.blockno
          rw [Function.update_same]; omega
        · show Function.update c.pos c.blockno (sc.1 + 1) c.blockno ≤ line.length + 1
          rw [Function.update_same]; omega
        · intro h0
          show c.pos (c.blockno - 1) + ruleAt rule (c.blockno - 1) + 1
            ≤ Function.update c.pos c.blockno (sc.1 + 1) c.blockno
          rw [Function.update_same]
          have := hcand.gap h0
          omega
        · intro j h1 h2
          have h2' : j < Function.update c.pos c.blockno (sc.1 + 1) c.blockno := h2
          rw [Function.update_same] at h2'
          by_cases hj1 : j < p1
          · exact hns1 j h1 hj1
          · by_cases hj2 : j < sc.1
            · exact hnosol j (by omega) hj2
            · have : j = sc.1 := by omega
              subst this
              rw [hdot]; decide
        · intro q hq hpre hlt
          have hlt' : q c.blockno < Function.update c.pos c.blockno (sc.1 + 1) c.blockno := hlt
          rw [Function.update_same] at hlt'
          refine hskipOf (sc.1 + 1) ?_ q hq hpre hlt'
          intro q' hq' hpre' hge'
          by_contra hc
          exact hcov q' hq' (hlow1 q' hq' hpre' hge') (by omega)
    · rw [if_neg hB]
      have hsc : sc.1 = p1 + ruleAt rule c.blockno := by omega
      have hW : wrap ((lim : Int) - 1) = lim - 1 :=
        wrap_of_nat (n := lim - 1) (by omega) _ (by omega)
      rw [hW]
      -- the loop that moves the block on while a solid follows it
      have t1 := whileInc_ge (fun p => decide (p < lim - 1)
        && cellAt line (p + ruleAt rule c.blockno) == nonogram_SOLID
        && cellAt line p != nonogram_SOLID) line.length p1
      have t2 : ∀ y, p1 ≤ y → y < whileInc (fun p => decide (p < lim - 1)
          && cellAt line (p + ruleAt rule c.blockno) == nonogram_SOLID
          && cellAt line p != nonogram_SOLID) line.length p1 →
          y < lim - 1 ∧ cellAt line (y + ruleAt rule c.blockno) = nonogram_SOLID ∧
            cellAt line y ≠ nonogram_SOLID := by
        intro y h1 h2
        have := whileInc_all _ _ _ y h1 h2
        simp only [Bool.and_eq_true, decide_eq_true_eq, beq_iff_eq, bne_iff_ne, ne_eq] at this
        exact ⟨this.1.1, this.1.2, this.2⟩
      have t3 := whileInc_stop (fun p => decide (p < lim - 1)
        && cellAt line (p + ruleAt rule c.blockno) == nonogram_SOLID
        && cellAt line p != nonogram_SOLID) line.length p1 ⟨lim - 1, by omega, by omega, by
          simp only [Bool.and_eq_false_iff, decide_eq_false_iff_not]; left; left; omega⟩
      generalize whileInc (fun p => decide (p < lim - 1)
        && cellAt line (p + ruleAt rule c.blockno) == nonogram_SOLID
        && cellAt line p != nonogram_SOLID) line.length p1 = p2 at t1 t2 t3 ⊢
      have hp2 : p2 ≤ lim - 1 := by
        by_cases he : p2 = p1
        · omega
        · have := (t2 (p2 - 1) (by omega) (by omega)).1
          omega
      have hlow2 : ∀ q, ValidPlacement line rule q → AgreeBefore c.pos q c.blockno →
          c.pos c.blockno ≤ q c.blockno → p2 ≤ q c.blockno := by
        intro q hq hpre hge
        have h1 := hlow1 q hq hpre hge
        by_contra hlt
        exact hq.no_touch hdk (t2 _ h1 (by omega)).2.1
      have hns2 : ∀ j, mergeStart rule c.pos c.blockno ≤ j → j < p2 →
          cellAt line j ≠ nonogram_SOLID := by
        intro j h1 h2
        by_cases hj : j < p1
        · exact hns1 j h1 hj
        · exact (t2 j (by omega) h2).2.2
      have hnd2 : ∀ j, p2 ≤ j → j < p2 + ruleAt rule c.blockno →
          cellAt line j ≠ nonogram_DOT := by
        intro j h1 h2
        by_cases hj : j < p1 + ruleAt rule c.blockno
        · exact s3 j (by omega) (by omega)
        · have := (t2 (j - ruleAt rule c.blockno) (by omega) (by omega)).2.1
          rw [show j - ruleAt rule c.blockno + ruleAt rule c.blockno = j by omega] at this
          rw [this]; decide
      by_cases hD : (decide (p2 + ruleAt rule c.blockno < line.length)
          && cellAt line (p2 + ruleAt rule c.blockno) == nonogram_SOLID) = true
      · rw [if_pos hD]
        simp only [Bool.and_eq_true, decide_eq_true_eq, beq_iff_eq] at hD
        refine cinv_back h _ (Nat.le_refl _) rfl (hupd _) rfl rfl (Or.inr hmb) ?_
        apply hexOf
        intro q hq hpre hge
        have h2 := hlow2 q hq hpre hge
        have hne : q c.blockno ≠ p2 := by
          intro he
          have := hq.no_touch hdk
          rw [he] at this
          exact this hD.2
        simp only [Bool.and_eq_false_iff, decide_eq_false_iff_not, beq_eq_false_iff_ne,
          bne_eq_false_iff_eq, ne_eq] at t3
        rcases t3 with (t3 | t3) | t3
        · have := hl3 q hq; omega
        · exact t3 hD.2
        · have := path_cover_le hq hpre hdk t3 (by omega)
          omega
      · rw [if_neg hD]
        have hafter : cellAt line (p2 + ruleAt rule c.blockno) ≠ nonogram_SOLID := by
          intro hs
          apply hD
          have : p2 + ruleAt rule c.blockno < line.length :=
            lt_of_cellAt_ne_zero (by rw [hs]; decide)
          simp [this, hs]
        by_cases hE : c.blockno + 1 < rule.length
        · rw [if_pos hE]
          have e1 : Function.update (Function.update c.pos c.blockno p2) (c.blockno + 1)
              (p2 + ruleAt rule c.blockno + 1) c.blockno = p2 := by
            rw [Function.update_noteq (by omega), Function.update_same]
          refine cinv_descend h _ hmb hdk rfl hmb ?_ rfl rfl ?_ ?_ ?_ ?_ ?_ ?_ ?_
          · intro i hi
            show Function.update (Function.update c.pos c.blockno p2) (c.blockno + 1)
              (p2 + ruleAt rule c.blockno + 1) i = c.pos i
            rw [Function.update_noteq (by omega), Function.update_noteq (by omega)]
          · show c.pos c.blockno ≤ Function.update (Function.update c.pos c.blockno p2)
              (c.blockno + 1) (p2 + ruleAt rule c.blockno + 1) c.blockno
            rw [e1]; omega
          · intro _
            show Function.update (Function.update c.pos c.blockno p2) (c.blockno + 1)
              (p2 + ruleAt rule c.blockno + 1) (c.blockno + 1) =
              Function.update (Function.update c.pos c.blockno p2) (c.blockno + 1)
              (p2 + ruleAt rule c.blockno + 1) c.blockno + ruleAt rule c.blockno + 1
            rw [e1, Function.update_same]
          · show Function.update (Function.update c.pos c.blockno p2) (c.blockno + 1)
              (p2 + ruleAt rule c.blockno + 1) c.blockno + ruleAt rule c.blockno ≤ line.length
            rw [e1]; omega
          · show ∀ j, Function.update (Function.update c.pos c.blockno p2) (c.blockno + 1)
              (p2 + ruleAt rule c.blockno + 1) c.blockno ≤ j →
              j < Function.update (Function.update c.pos c.blockno p2) (c.blockno + 1)
              (p2 + ruleAt rule c.blockno + 1) c.blockno + ruleAt rule c.blockno →
              cellAt line j ≠ nonogram_DOT
            rw [e1]; exact hnd2
          · show ∀ j, mergeStart rule c.pos c.blockno ≤ j →
              j < Function.update (Function.update c.pos c.blockno p2) (c.blockno + 1)
              (p2 + ruleAt rule c.blockno + 1) c.blockno → cellAt line j ≠ nonogram_SOLID
            rw [e1]; exact hns2
          · show cellAt line (Function.update (Function.update c.pos c.blockno p2)
              (c.blockno + 1) (p2 + ruleAt rule c.blockno + 1) c.blockno
              + ruleAt rule c.blockno) ≠ nonogram_SOLID
            rw [e1]; exact hafter
          · show ∀ q, ValidPlacement line rule q → AgreeBefore c.pos q c.blockno →
              q c.blockno < Function.update (Function.update c.pos c.blockno p2)
              (c.blockno + 1) (p2 + ruleAt rule c.blockno + 1) c.blockno →
              SeenAll line rule c.re q
            rw [e1]; exact hskipOf p2 hlow2
        · rw [if_neg hE]
          have e1 : Function.update c.pos c.blockno p2 c.blockno = p2 := Function.update_same _ _ _
          refine cinv_descend h _ hmb hdk rfl hmb (hupd p2) rfl rfl ?_ ?_ ?_ ?_ ?_ ?_ ?_
          · show c.pos c.blockno ≤ Function.update c.pos c.blockno p2 c.blockno
            rw [e1]; omega
          · intro hf; exact absurd hf hE
          · show Function.update c.pos c.blockno p2 c.blockno + ruleAt rule c.blockno
              ≤ line.length
            rw [e1]; omega
          · show ∀ j, Function.update c.pos c.blockno p2 c.blockno ≤ j →
              j < Function.update c.pos c.blockno p2 c.blockno + ruleAt rule c.blockno →
              cellAt line j ≠ nonogram_DOT
            rw [e1]; exact hnd2
          · show ∀ j, mergeStart rule c.pos c.blockno ≤ j →
              j < Function.update c.pos c.blockno p2 c.blockno → cellAt line j ≠ nonogram_SOLID
            rw [e1]; exact hns2
          · show cellAt line (Function.update c.pos c.blockno p2 c.blockno
              + ruleAt rule c.blockno) ≠ nonogram_SOLID
            rw [e1]; exact hafter
          · show ∀ q, ValidPlacement line rule q → AgreeBefore c.pos q c.blockno →
              q c.blockno < Function.update c.pos c.blockno p2 c.blockno →
              SeenAll line rule c.re q
            rw [e1]; exact hskipOf p2 hlow2

theorem completeAdvance_spec {line rule : List Nat} (hL : line.length < 2 ^ 64)
    (hcells : ∀ j, j < line.length → cellAt line j ≤ 2) (hpos : PositiveRule rule)
    (hq0 : ∃ q0, ValidPlacement line rule q0)
    {c : CompleteState} (h : CInv line rule c) (hmb : c.move_back = false) :
    CInv line rule (completeAdvance line rule c) ∧
      completeMeasure line rule c < completeMeasure line rule (completeAdvance line rule c) := by
  by_cases hd : c.blockno = rule.length
  · exact completeAdvance_last hcells h hmb hd
  · have := h.blk
    exact completeAdvance_block hL hpos hq0 h hmb (by omega)

theorem CPlaced.start_le {line rule : List Nat} {pos : Nat → Nat} {d b : Nat}
    (h : CPlaced line rule pos d) (hb : b < d) : mergeStart rule pos b ≤ pos b := by
  unfold mergeStart
  split
  · omega
  · have := h.gap (b - 1) (by omega)
    rw [show b - 1 + 1 = b by omega] at this
    omega

/-- Once `remunk` has dropped to zero every originally BLANK cell is BOTH,
so every placement counts as merged. -/
theorem seenAll_of_remunk {line rule re : List Nat} {remunk : Int}
    (hcells : ∀ j, j < line.length → cellAt line j ≤ 2)
    (h : CRec line rule re remunk) (hrem : remunk ≤ 0) (q : Nat → Nat) :
    SeenAll line rule re q := by
  have hc := h.count
  have hall := all_both_of_count re line h.len (fun j hj hne => by
    rw [h.known j hj hne]
    have := hcells j hj
    show cellAt line j ≠ 3
    omega) (by omega)
  intro j hj hbl
  unfold Seen
  rw [hall j hj hbl]
  exact ⟨fun _ => Or.inr rfl, fun _ => Or.inr rfl⟩

theorem complete_step_spec {line rule : List Nat} (hL : line.length < 2 ^ 64)
    (hcells : ∀ j, j < line.length → cellAt line j ≤ 2) (hpos : PositiveRule rule)
    (hq0 : ∃ q0, ValidPlacement line rule q0)
    {c : CompleteState} (h : CInv line rule c) :
    ((complete_step line rule c).1 = true →
      CInv line rule (complete_step line rule c).2 ∧
        completeMeasure line rule c < completeMeasure line rule (complete_step line rule c).2) ∧
    ((complete_step line rule c).1 = false →
      CompleteFinal c ∧ (complete_step line rule c).2.re = c.re ∧
        (complete_step line rule c).2.fits = c.fits) := by
  have hk := h.blk
  unfold complete_step
  simp only []
  by_cases hcond : (c.move_back || decide (c.remunk ≤ 0)) = true
  · rw [if_pos hcond]
    simp only [Bool.or_eq_true, decide_eq_true_eq] at hcond
    by_cases hd : c.blockno > 0
    · rw [if_pos hd]
      have hb : c.blockno - 1 < c.blockno := by omega
      have hbk : c.blockno - 1 < rule.length := by omega
      have hstart := h.placed.start_le hb
      have hdoneB : ∀ q, ValidPlacement line rule q → AgreeBefore c.pos q (c.blockno - 1) →
          q (c.blockno - 1) < c.pos (c.blockno - 1) → SeenAll line rule c.re q := by
        intro q hq hpre hlt
        exact h.seen q hq ⟨c.blockno - 1, by omega, hpre, fun _ => hlt, fun he => by omega⟩
      have hdoneD : c.move_back = true → ∀ q, ValidPlacement line rule q →
          AgreeBefore c.pos q (c.blockno - 1) →
          q (c.blockno - 1) = c.pos (c.blockno - 1) → SeenAll line rule c.re q := by
        intro hm q hq hpre he
        refine h.seen q hq ⟨c.blockno, Nat.le_refl _, ?_, fun hf => absurd hf (Nat.lt_irrefl _),
          fun _ => Or.inl hm⟩
        intro i hi
        by_cases hib : i = c.blockno - 1
        · subst hib; exact he
        · exact hpre i (by omega)
      by_cases hc2 : (decide (c.remunk ≤ 0)
          || cellAt line (c.pos (c.blockno - 1)) == nonogram_SOLID) = true
      · rw [if_pos hc2]
        simp only [Bool.or_eq_true, decide_eq_true_eq, beq_iff_eq] at hc2
        refine ⟨fun _ => ?_, fun hf => Bool.noConfusion (show true = false from hf)⟩
        refine cinv_back h _ (Nat.le_of_lt hb) rfl (fun _ _ => rfl) rfl rfl (Or.inl hb) ?_
        intro q hq hpre
        have hpre' : AgreeBefore c.pos q (c.blockno - 1) := hpre
        by_cases hrem : c.remunk ≤ 0
        · exact seenAll_of_remunk hcells h.record hrem q
        · have hm : c.move_back = true := by
            rcases hcond with h1 | h1
            · exact h1
            · exact absurd h1 hrem
          have hs : cellAt line (c.pos (c.blockno - 1)) = nonogram_SOLID := by
            rcases hc2 with h1 | h1
            · exact absurd h1 hrem
            · exact h1
          have hle := path_cover_le hq hpre' hbk hs hstart
          by_cases he : q (c.blockno - 1) = c.pos (c.blockno - 1)
          · exact hdoneD hm q hq hpre' he
          · exact hdoneB q hq hpre' (by omega)
      · rw [if_neg hc2]
        simp only [Bool.or_eq_true, decide_eq_true_eq, beq_iff_eq, not_or] at hc2
        have hm : c.move_back = true := by
          rcases hcond with h1 | h1
          · exact h1
          · exact absurd h1 hc2.1
        refine ⟨fun _ => ?_, fun hf => Bool.noConfusion (show true = false from hf)⟩
        have e1 : Function.update c.pos (c.blockno - 1) (c.pos (c.blockno - 1) + 1)
            (c.blockno - 1) = c.pos (c.blockno - 1) + 1 := Function.update_same _ _ _
        have hfit := h.placed.fit (c.blockno - 1) hb
        obtain ⟨hi1, hm1⟩ := cinv_move h
          { c with blockno := c.blockno - 1, move_back := false,
                   pos := Function.update c.pos (c.blockno - 1) (c.pos (c.blockno - 1) + 1) }
          (Nat.le_of_lt hb) hbk rfl
          (fun i hi => Function.update_noteq (Nat.ne_of_lt hi) _ _) rfl rfl (Or.inl hb)
          (by
            show c.pos (c.blockno - 1) < Function.update c.pos (c.blockno - 1)
              (c.pos (c.blockno - 1) + 1) (c.blockno - 1)
            rw [e1]; omega)
          (by
            show Function.update c.pos (c.blockno - 1)
              (c.pos (c.blockno - 1) + 1) (c.blockno - 1) ≤ line.length + 1
            rw [e1]
            have := hpos (c.blockno - 1) hbk
            omega)
          (by
            intro h0
            show c.pos (c.blockno - 1 - 1) + ruleAt rule (c.blockno - 1 - 1) + 1 ≤
              Function.update c.pos (c.blockno - 1) (c.pos (c.blockno - 1) + 1) (c.blockno - 1)
            rw [e1]
            have h0' : 0 < c.blockno - 1 := h0
            have := h.placed.gap (c.blockno - 1 - 1) (by omega)
            rw [show c.blockno - 1 - 1 + 1 = c.blockno - 1 by omega] at this
            omega)
          (by
            intro j h1 h2
            have h2' : j < Function.update c.pos (c.blockno - 1)
              (c.pos (c.blockno - 1) + 1) (c.blockno - 1) := h2
            rw [e1] at h2'
            by_cases hj : j < c.pos (c.blockno - 1)
            · exact h.placed.nosolid (c.blockno - 1) hb j h1 hj
            · have : j = c.pos (c.blockno - 1) := by omega
              subst this
              exact hc2.2)
          (by
            intro q hq hpre hlt
            have hpre' : AgreeBefore c.pos q (c.blockno - 1) := hpre
            have hlt' : q (c.blockno - 1) < Function.update c.pos (c.blockno - 1)
              (c.pos (c.blockno - 1) + 1) (c.blockno - 1) := hlt
            rw [e1] at hlt'
            by_cases he : q (c.blockno - 1) = c.pos (c.blockno - 1)
            · exact hdoneD hm q hq hpre' he
            · exact hdoneB q hq hpre' (by omega))
        obtain ⟨hi2, hm2⟩ := completeAdvance_spec hL hcells hpos hq0 hi1 rfl
        exact ⟨hi2, Nat.lt_trans hm1 hm2⟩
    · rw [if_neg hd]
      refine ⟨fun hf => Bool.noConfusion (show false = true from hf), fun _ => ⟨⟨?_, by omega⟩, rfl, rfl⟩⟩
      rcases hcond with h1 | h1
      · exact Or.inl h1
      · exact Or.inr h1
  · rw [if_neg hcond]
    simp only [Bool.or_eq_true, decide_eq_true_eq, not_or, Bool.not_eq_true] at hcond
    exact ⟨fun _ => completeAdvance_spec hL hcells hpos hq0 h hcond.1,
      fun hf => Bool.noConfusion (show true = false from hf)⟩

theorem completeMeasure_lt {line rule : List Nat} {c : CompleteState} (h : CInv line rule c) :
    completeMeasure line rule c < (line.length + 4) ^ (rule.length + 1) :=
  horner_lt _ _ _ (fun b _ => completeDigit_lt h b)

/-- With enough fuel the calls of `step` come to an end: the state returned
has the record of a state in which the search is over. -/
theorem completeSteps_spec {line rule : List Nat} (hL : line.length < 2 ^ 64)
    (hcells : ∀ j, j < line.length → cellAt line j ≤ 2) (hpos : PositiveRule rule)
    (hq0 : ∃ q0, ValidPlacement line rule q0) (fuel : Nat) (c : CompleteState)
    (h : CInv line rule c)
    (hfuel : (line.length + 4) ^ (rule.length + 1) + 1 ≤ completeMeasure line rule c + fuel) :
    ∃ c' cl, completeSteps line rule fuel c = some c' ∧ c'.re = cl.re ∧
      CInv line rule cl ∧ CompleteFinal cl := by
  induction fuel generalizing c with
  | zero =>
    have := completeMeasure_lt h
    omega
  | succ fuel ih =>
    have hstep := complete_step_spec hL hcells hpos hq0 h
    unfold completeSteps
    revert hstep
    rcases complete_step line rule c with ⟨b, c2⟩
    cases b with
    | true =>
      intro hstep
      obtain ⟨h1, h2⟩ := hstep.1 rfl
      simp only []
      exact ih c2 h1 (by simp only [] at h2; omega)
    | false =>
      intro hstep
      obtain ⟨h1, h2, _⟩ := hstep.2 rfl
      exact ⟨c2, c, rfl, h2, h, h1⟩

theorem completeFinal_seen {line rule : List Nat}
    (hcells : ∀ j, j < line.length → cellAt line j ≤ 2)
    {c : CompleteState} (h : CInv line rule c) (hf : CompleteFinal c)
    (q : Nat → Nat) (hq : ValidPlacement line rule q) : SeenAll line rule c.re q := by
  obtain ⟨h1, h2⟩ := hf
  by_cases hrem : c.remunk ≤ 0
  · exact seenAll_of_remunk hcells h.record hrem q
  · have hm : c.move_back = true := by
      rcases h1 with h1 | h1
      · exact h1
      · exact absurd h1 hrem
    refine h.seen q hq ⟨0, Nat.zero_le _, fun i hi => absurd hi (Nat.not_lt_zero _),
      fun hlt => by omega, fun _ => Or.inl hm⟩

theorem cellAt_mem {line : List Nat} {j : Nat} (hj : j < line.length) :
    cellAt line j ∈ line := by
  unfold cellAt
  rw [List.getD_eq_getElem?_getD, List.getElem?_eq_getElem hj]
  exact List.getElem_mem hj

theorem mem_cellAt {line : List Nat} {a : Nat} (h : a ∈ line) :
    ∃ j, j < line.length ∧ cellAt line j = a := by
  obtain ⟨n, hn, e⟩ := List.mem_iff_getElem.1 h
  refine ⟨n, hn, ?_⟩
  unfold cellAt
  rw [List.getD_eq_getElem?_getD, List.getElem?_eq_getElem hn]
  exact e

theorem cellAt_range_map (line : List Nat) (j : Nat) (hj : j < line.length) :
    cellAt ((List.range line.length).map (cellAt line)) j = cellAt line j := by
  rw [cellAt_map _ _ _ (by simpa using hj)]
  congr 1
  unfold cellAt
  rw [List.getD_eq_getElem?_getD, List.getElem?_range hj]
  rfl

/-- On a line with a BLANK cell `init` returns true, and its state satisfies
the invariant. -/
theorem complete_init_spec {line rule : List Nat}
    (hcells : ∀ j, j < line.length → cellAt line j ≤ 2)
    (hblank : ∃ j, j < line.length ∧ cellAt line j = nonogram_BLANK) :
    ∃ c, complete_init line rule = (true, c) ∧ CInv line rule c := by
  have hcnt : 0 < line.count nonogram_BLANK := by
    obtain ⟨j, hj, hb⟩ := hblank
    rw [List.count_pos_iff, ← hb]
    exact cellAt_mem hj
  unfold complete_init
  simp only []
  rw [if_neg (by
    simp only [beq_iff_eq]
    omega)]
  refine ⟨_, rfl, ⟨Nat.zero_le _, ?_, ?_, ?_, ?_⟩⟩
  · exact ⟨fun b hb => absurd hb (Nat.not_lt_zero _), fun b hb => absurd hb (Nat.not_lt_zero _),
      fun b hb => absurd hb (Nat.not_lt_zero _), fun b hb => absurd hb (Nat.not_lt_zero _),
      fun b hb => absurd hb (Nat.not_lt_zero _)⟩
  · intro _ _
    exact ⟨fun hf => absurd hf (Nat.lt_irrefl _), fun j _ hj => absurd hj (Nat.not_lt_zero _),
      Nat.zero_le _⟩
  · refine ⟨by simp, ?_, ?_, ?_, ?_, ?_⟩
    · intro j hj _
      exact cellAt_range_map line j hj
    · intro j hj
      show cellAt ((List.range line.length).map (cellAt line)) j ≤ 3
      rw [cellAt_range_map line j hj]
      have := hcells j hj
      omega
    · intro j hj hbl hd
      have hd' : HasDot (cellAt ((List.range line.length).map (cellAt line)) j) := hd
      rw [cellAt_range_map line j hj, hbl] at hd'
      exact absurd hd' (by unfold HasDot; decide)
    · intro j hj hbl hd
      have hd' : HasSolid (cellAt ((List.range line.length).map (cellAt line)) j) := hd
      rw [cellAt_range_map line j hj, hbl] at hd'
      exact absurd hd' (by unfold HasSolid; decide)
    · have h0 : ((List.range line.length).map (cellAt line)).count nonogram_BOTH = 0 := by
        rw [List.count_eq_zero]
        intro hmem
        obtain ⟨j, hj, e⟩ := mem_cellAt hmem
        have hj' : j < line.length := by simpa using hj
        rw [cellAt_range_map line j hj'] at e
        have := hcells j hj'
        have e' : cellAt line j = 3 := e
        omega
      show (line.count nonogram_BLANK : Int)
        + (((List.range line.length).map (cellAt line)).count nonogram_BOTH : Int)
        = (line.count nonogram_BLANK : Int)
      rw [h0]
      simp
  · intro q _ ⟨b, hb1, _, hlt, heq⟩
    have hb0 : b = 0 := Nat.le_zero.1 hb1
    subst hb0
    rcases heq rfl with h1 | ⟨_, h1⟩
    · exact Bool.noConfusion (show false = true from h1)
    · exact absurd h1 (Nat.not_lt_zero _)

/-- When every valid placement has been merged, the record tells exactly
which cells are forced. -/
theorem exact_of_seen {line rule re : List Nat} {remunk : Int} (h : CRec line rule re remunk)
    (hseen : ∀ q, ValidPlacement line rule q → SeenAll line rule re q)
    (hq0 : ∃ q0, ValidPlacement line rule q0) (j : Nat) (hj : j < line.length)
    (hbl : cellAt line j = nonogram_BLANK) :
    (cellAt re j = nonogram_SOLID ↔ ∀ q, ValidPlacement line rule q → Covered rule q j) ∧
    (cellAt re j = nonogram_DOT ↔ ∀ q, ValidPlacement line rule q → ¬ Covered rule q j) ∧
    (cellAt re j = nonogram_BOTH ↔
      ¬ (∀ q, ValidPlacement line rule q → Covered rule q j) ∧
      ¬ (∀ q, ValidPlacement line rule q → ¬ Covered rule q j)) := by
  have hr := h.range j hj
  have hd : HasDot (cellAt re j) ↔ ¬ ∀ q, ValidPlacement line rule q → Covered rule q j := by
    constructor
    · intro hd hall
      obtain ⟨q, hq, hnc⟩ := h.dotw j hj hbl hd
      exact hnc (hall q hq)
    · intro hn
      obtain ⟨q, hq⟩ := not_forall.1 hn
      obtain ⟨hq1, hq2⟩ := Classical.not_imp.1 hq
      exact (hseen q hq1 j hj hbl).2 hq2
  have hs : HasSolid (cellAt re j) ↔ ¬ ∀ q, ValidPlacement line rule q → ¬ Covered rule q j := by
    constructor
    · intro hs hall
      obtain ⟨q, hq, hc⟩ := h.solw j hj hbl hs
      exact hall q hq hc
    · intro hn
      obtain ⟨q, hq⟩ := not_forall.1 hn
      obtain ⟨hq1, hq2⟩ := Classical.not_imp.1 hq
      exact (hseen q hq1 j hj hbl).1 (Classical.not_not.1 hq2)
  have hAB : ¬ ((∀ q, ValidPlacement line rule q → Covered rule q j) ∧
      (∀ q, ValidPlacement line rule q → ¬ Covered rule q j)) := by
    rintro ⟨hA, hB⟩
    obtain ⟨q0, hq0v⟩ := hq0
    exact hB q0 hq0v (hA q0 hq0v)
  unfold HasDot at hd
  unfold HasSolid at hs
  generalize cellAt re j = x at hr hd hs ⊢
  generalize (∀ q, ValidPlacement line rule q → Covered rule q j) = A at hd hs hAB ⊢
  generalize (∀ q, ValidPlacement line rule q → ¬ Covered rule q j) = B at hs hAB ⊢
  by_cases hA : A <;> by_cases hB : B
  · exact absurd ⟨hA, hB⟩ hAB
  · simp only [hA, hB, not_true_eq_false, not_false_eq_true, iff_false, iff_true, not_or] at hd hs
    have hx : x = 2 := by
      rcases hs with hs | hs
      · exact hs
      · exact absurd hs hd.2
    subst hx
    simp [hA, hB]
  · simp only [hA, hB, not_true_eq_false, not_false_eq_true, iff_false, iff_true, not_or] at hd hs
    have hx : x = 1 := by
      rcases hd with hd | hd
      · exact hd
      · exact absurd hd hs.2
    subst hx
    simp [hA, hB]
  · simp only [hA, hB, not_true_eq_false, not_false_eq_true, iff_false, iff_true, not_or] at hd hs
    have hx : x = 3 := by
      rcases hd with hd | hd
      · rcases hs with hs | hs
        · rw [hd] at hs; exact absurd hs (by decide)
        · exact hs
      · exact hd
    subst hx
    simp [hA, hB]

/-- C6: complete strategy exactness.  For every line of BLANK, DOT and SOLID
cells with at least one BLANK cell (short enough for the `int` counter
`remunk`) and every rule of positive blocks that has a valid placement,
`init` followed by `step` until it returns false comes to an end, and each
originally BLANK result cell is SOLID iff it is inside a block in every valid
placement, DOT iff it is outside every block in every valid placement, and
BOTH iff neither holds. -/
theorem complete_exact (line rule : List Nat) (hL : line.length < 2 ^ 31)
    (hcells : ∀ j, j < line.length → cellAt line j = nonogram_BLANK ∨
      cellAt line j = nonogram_DOT ∨ cellAt line j = nonogram_SOLID)
    (hblank : ∃ j, j < line.length ∧ cellAt line j = nonogram_BLANK)
    (hpos : PositiveRule rule) (hv : ∃ q, ValidPlacement line rule q) :
    ∃ fits re, complete_run line rule = some (fits, re) ∧ re.length = line.length ∧
      ∀ j, j < line.length → cellAt line j = nonogram_BLANK →
        (cellAt re j = nonogram_SOLID ↔ ∀ q, ValidPlacement line rule q → Covered rule q j) ∧
        (cellAt re j = nonogram_DOT ↔ ∀ q, ValidPlacement line rule q → ¬ Covered rule q j) ∧
        (cellAt re j = nonogram_BOTH ↔
          ¬ (∀ q, ValidPlacement line rule q → Covered rule q j) ∧
          ¬ (∀ q, ValidPlacement line rule q → ¬ Covered rule q j)) := by
  have hL64 : line.length < 2 ^ 64 := Nat.lt_trans hL (by norm_num)
  have hcells2 : ∀ j, j < line.length → cellAt line j ≤ 2 := by
    intro j hj
    rcases hcells j hj with h | h | h <;> rw [h] <;> decide
  obtain ⟨c0, hinit, hinv0⟩ : ∃ c, complete_init line rule = (true, c) ∧ CInv line rule c :=
    complete_init_spec hcells2 hblank
  obtain ⟨c', cl, hrun, hre, hinvl, hfin⟩ := completeSteps_spec hL64 hcells2 hpos hv
    (completeFuel line rule) c0 hinv0 (by unfold completeFuel; omega)
  refine ⟨c'.fits, c'.re, ?_, ?_, ?_⟩
  · unfold complete_run
    rw [hinit]
    simp only []
    rw [hrun]
    rfl
  · rw [hre]; exact hinvl.record.len
  · intro j hj hbl
    rw [hre]
    exact exact_of_seen hinvl.record (completeFinal_seen hcells2 hinvl hfin) hv j hj hbl

theorem complete_exact_witness :
    [0, 0, 2, 0, 1, 0, 0].length < 2 ^ 31 ∧
    (∀ j, j < [0, 0, 2, 0, 1, 0, 0].length →
      cellAt [0, 0, 2, 0, 1, 0, 0] j = nonogram_BLANK ∨
      cellAt [0, 0, 2, 0, 1, 0, 0] j = nonogram_DOT ∨
      cellAt [0, 0, 2, 0, 1, 0, 0] j = nonogram_SOLID) ∧
    (∃ j, j < [0, 0, 2, 0, 1, 0, 0].length ∧ cellAt [0, 0, 2, 0, 1, 0, 0] j = nonogram_BLANK) ∧
    PositiveRule [2, 1] ∧
    (∃ q, ValidPlacement [0, 0, 2, 0, 1, 0, 0] [2, 1] q) ∧
    ∃ fits re, complete_run [0, 0, 2, 0, 1, 0, 0] [2, 1] = some (fits, re) ∧
      re.length = [0, 0, 2, 0, 1, 0, 0].length ∧
      ∀ j, j < [0, 0, 2, 0, 1, 0, 0].length → cellAt [0, 0, 2, 0, 1, 0, 0] j = nonogram_BLANK →
        (cellAt re j = nonogram_SOLID ↔
          ∀ q, ValidPlacement [0, 0, 2, 0, 1, 0, 0] [2, 1] q → Covered [2, 1] q j) ∧
        (cellAt re j = nonogram_DOT ↔
          ∀ q, ValidPlacement [0, 0, 2, 0, 1, 0, 0] [2, 1] q → ¬ Covered [2, 1] q j) ∧
        (cellAt re j = nonogram_BOTH ↔
          ¬ (∀ q, ValidPlacement [0, 0, 2, 0, 1, 0, 0] [2, 1] q → Covered [2, 1] q j) ∧
          ¬ (∀ q, ValidPlacement [0, 0, 2, 0, 1, 0, 0] [2, 1] q → ¬ Covered [2, 1] q j)) :=
  ⟨by decide, by decide, ⟨0, by decide, by decide⟩, by decide,
    ⟨posFn [1, 5], by decide⟩,
    complete_exact [0, 0, 2, 0, 1, 0, 0] [2, 1] (by decide) (by decide)
      ⟨0, by decide, by decide⟩ (by decide) ⟨posFn [1, 5], by decide⟩⟩

theorem complete_run_example :
    complete_run [0, 0, 2, 0, 1, 0, 0] [2, 1] = some (4, [1, 3, 2, 3, 1, 3, 3]) := by
  decide

/-- The empty-rule loop of `init` never assigns the result cell of a DOT
cell of the line. -/
theorem fcompEmptyLoop_dot (line : List Nat) (j : Nat) (hj : cellAt line j = nonogram_DOT)
    (n i : Nat) (res : List Nat) :
    cellAt (fcompEmptyLoop line n i res).2 j = cellAt res j := by
  induction n generalizing i res with
  | zero => rfl
  | succ n ih =>
    unfold fcompEmptyLoop
    split
    · exact ih (i + 1) res
    · rename_i hd
      split
      · rfl
      · rw [ih (i + 1) (res.set i nonogram_DOT), cellAt_set, if_neg]
        rintro ⟨he, _⟩
        subst he
        simp only [beq_iff_eq] at hd
        exact hd hj

/-- With an empty rule, `init` of fcomp leaves the result cell of every DOT
cell of the line as it was before the call. -/
theorem fcomp_init_empty_dot (ws0 : FcompState) (line res0 : List Nat) (j : Nat)
    (hj : cellAt line j = nonogram_DOT) :
    (fcomp_init ws0 line [] res0).1 = false ∧
      cellAt (fcomp_init ws0 line [] res0).2.2.1 j = cellAt res0 j := by
  refine ⟨rfl, ?_⟩
  exact fcompEmptyLoop_dot line j hj line.length 0 res0

/-- C7 fails on the empty rule.  On the line DOT, BLANK with the empty rule
(which has a valid placement), `init` of fcomp returns false with
`fits = 1` and has written only the BLANK cell: the result cell of the DOT
cell still holds whatever value `v` the buffer held before, while the
complete suite ends with DOT in both cells. -/
theorem fcomp_empty_rule_leaves_dot_cells (ws0 : FcompState) (v w : Nat) :
    PositiveRule [] ∧ (∃ q, ValidPlacement [nonogram_DOT, nonogram_BLANK] [] q) ∧
    fcomp_init ws0 [nonogram_DOT, nonogram_BLANK] [] [v, w]
      = (false, 1, [v, nonogram_DOT], ws0) ∧
    complete_run [nonogram_DOT, nonogram_BLANK] [] = some (1, [nonogram_DOT, nonogram_DOT]) :=
  ⟨by decide, ⟨fun _ => 0, by decide⟩, rfl, by decide⟩

/-- C14 as stated fails: on the all-BLANK line of length 7 with rule `[5]`
the fast strategy does not mark cells 0 and 6 DOT. -/
theorem fast_forced_centre_counterexample :
    ∃ res, fast_solve [0, 0, 0, 0, 0, 0, 0] [5] = some (some res) ∧
      cellAt res 0 ≠ nonogram_DOT ∧ cellAt res 6 ≠ nonogram_DOT :=
  ⟨[3, 3, 2, 2, 2, 3, 3], by decide, by decide, by decide⟩

/-- C14, amended: on the all-BLANK line of length 7 with rule `[5]` the fast
strategy returns 1 with cells 2, 3, 4 SOLID and cells 0, 1, 5, 6 BOTH. -/
theorem fast_forced_centre :
    fast_solve [nonogram_BLANK, nonogram_BLANK, nonogram_BLANK, nonogram_BLANK,
        nonogram_BLANK, nonogram_BLANK, nonogram_BLANK] [5] =
      some (some [nonogram_BOTH, nonogram_BOTH, nonogram_SOLID, nonogram_SOLID,
        nonogram_SOLID, nonogram_BOTH, nonogram_BOTH]) := by
  decide

theorem cellAt_replicate (n v j : Nat) (hj : j < n) : cellAt (List.replicate n v) j = v := by
  unfold cellAt
  rw [List.getD_eq_getElem?_getD, List.getElem?_eq_getElem (by simpa using hj)]
  simp

/-- A list is determined by its length and the cells read by `cellAt`. -/
theorem list_eq_of_cellAt {l m : List Nat} (hlen : l.length = m.length)
    (h : ∀ j, j < l.length → cellAt l j = cellAt m j) : l = m := by
  apply List.ext_getElem hlen
  intro n h1 h2
  have := h n h1
  unfold cellAt at this
  rw [List.getD_eq_getElem?_getD, List.getD_eq_getElem?_getD, List.getElem?_eq_getElem h1,
    List.getElem?_eq_getElem h2] at this
  simpa using this

theorem eq_replicate_of_cellAt {l : List Nat} {n v : Nat} (hlen : l.length = n)
    (h : ∀ j, j < n → cellAt l j = v) : l = List.replicate n v := by
  apply list_eq_of_cellAt (by simpa using hlen)
  intro j hj
  rw [h j (by omega), cellAt_replicate n v j (by omega)]

theorem fast_solve_empty_blank (L : Nat) :
    fast_solve (List.replicate L nonogram_BLANK) [] =
      some (some (List.replicate L nonogram_DOT)) := by
  rw [fast_solve_nil]
  congr 2
  apply eq_replicate_of_cellAt
  · unfold copyKnown
    rw [List.length_map, List.length_range, List.length_replicate]
  · intro j hj
    rw [cellAt_copyKnown _ _ j (by simpa using hj), cellAt_replicate L _ j hj]
    rw [if_neg (by simp)]
    unfold fillTo
    rw [List.nil_append, List.length_nil, List.length_replicate, Nat.sub_zero,
      cellAt_replicate L _ j hj]

theorem olsakEmpty_blank (L : Nat) :
    olsakEmpty (List.replicate L nonogram_BLANK) = some (List.replicate L nonogram_DOT) := by
  induction L with
  | zero => rfl
  | succ L ih =>
    rw [List.replicate_succ, List.replicate_succ]
    unfold olsakEmpty
    rw [if_neg (by decide), ih]
    rfl

theorem olsak_empty_blank (L : Nat) :
    olsak_compinit (List.replicate L nonogram_BLANK) [] =
      some (some (List.replicate L nonogram_DOT)) := by
  unfold olsak_compinit
  rw [if_pos (by decide), olsakEmpty_blank]

theorem fcompEmptyLoop_blank (line : List Nat) (n i : Nat) (res : List Nat)
    (hline : ∀ j, i ≤ j → j < i + n → cellAt line j = nonogram_BLANK) :
    (fcompEmptyLoop line n i res).1 = true ∧
    (fcompEmptyLoop line n i res).2.length = res.length ∧
    ∀ j, cellAt (fcompEmptyLoop line n i res).2 j =
      if i ≤ j ∧ j < i + n ∧ j < res.length then nonogram_DOT else cellAt res j := by
  induction n generalizing i res with
  | zero =>
    refine ⟨rfl, rfl, fun j => ?_⟩
    rw [if_neg (by omega)]
    rfl
  | succ n ih =>
    have hi := hline i (Nat.le_refl _) (by omega)
    unfold fcompEmptyLoop
    rw [hi, if_neg (by decide), if_neg (by decide)]
    obtain ⟨h1, h2, h3⟩ := ih (i + 1) (res.set i nonogram_DOT)
      (fun j hj1 hj2 => hline j (by omega) (by omega))
    refine ⟨h1, by rw [h2, List.length_set], fun j => ?_⟩
    rw [h3 j, List.length_set]
    have hs : cellAt (res.set i nonogram_DOT) j =
        if i = j ∧ i < res.length then nonogram_DOT else cellAt res j := cellAt_set _ _ _ _
    rw [hs]
    by_cases c1 : i + 1 ≤ j ∧ j < i + 1 + n ∧ j < res.length
    · rw [if_pos c1, if_pos ⟨by omega, by omega, c1.2.2⟩]
    · rw [if_neg c1]
      by_cases c2 : i = j ∧ i < res.length
      · rw [if_pos c2, if_pos ⟨by omega, by omega, by omega⟩]
      · rw [if_neg c2, if_neg (by omega)]

theorem fcomp_empty_blank (ws0 : FcompState) (L : Nat) (res0 : List Nat)
    (hres : res0.length = L) :
    fcomp_init ws0 (List.replicate L nonogram_BLANK) [] res0 =
      (false, 1, List.replicate L nonogram_DOT, ws0) := by
  obtain ⟨h1, h2, h3⟩ := fcompEmptyLoop_blank (List.replicate L nonogram_BLANK) L 0 res0
    (fun j _ hj => cellAt_replicate L _ j (by omega))
  unfold fcomp_init
  rw [if_pos (by decide)]
  simp only [List.length_replicate]
  rw [h1]
  have : (fcompEmptyLoop (List.replicate L nonogram_BLANK) L 0 res0).2
      = List.replicate L nonogram_DOT := by
    apply eq_replicate_of_cellAt (by rw [h2, hres])
    intro j hj
    rw [h3 j, if_pos ⟨Nat.zero_le _, by omega, by omega⟩]
  rw [this]
  rfl

theorem nullResult_blank (L : Nat) :
    nullResult (List.replicate L nonogram_BLANK) = List.replicate L nonogram_BOTH := by
  unfold nullResult
  rw [List.map_replicate]
  rfl

theorem null_empty_blank (L : Nat) :
    null_init (List.replicate L nonogram_BLANK) [] =
      (false, 1, List.replicate L nonogram_BOTH) := by
  unfold null_init
  rw [nullResult_blank]
  cases L with
  | zero => rfl
  | succ L => rfl

theorem whileInc_run (c : Nat → Bool) (n x : Nat)
    (h : ∀ y, x ≤ y → y < x + n → c y = true) : whileInc c n x = x + n := by
  induction n generalizing x with
  | zero => rfl
  | succ n ih =>
    unfold whileInc
    rw [if_pos (h x (Nat.le_refl _) (by omega)), ih (x + 1) (fun y h1 h2 => h y (by omega) (by omega))]
    omega

theorem complete_empty_blank (L : Nat) (hL : 1 ≤ L) :
    complete_run (List.replicate L nonogram_BLANK) [] =
      some (1, List.replicate L nonogram_DOT) := by
  have hcnt : (List.replicate L nonogram_BLANK).count nonogram_BLANK = L := by simp
  have hvalid : ValidPlacement (List.replicate L nonogram_BLANK) [] (fun _ => 0) := by
    refine ⟨fun i hi => absurd hi (Nat.not_lt_zero _), fun i hi => absurd hi (Nat.not_lt_zero _),
      fun i hi => absurd hi (Nat.not_lt_zero _), ?_⟩
    intro j hj hs
    rw [cellAt_replicate L _ j (by simpa using hj)] at hs
    exact absurd hs (by decide)
  obtain ⟨m1, m2, m3⟩ := merge_spec hvalid
    ((List.range L).map (cellAt (List.replicate L nonogram_BLANK))) (L : Int) (by simp)
  rw [List.length_replicate] at m1 m2 m3
  have hre : (merge ((List.range L).map (cellAt (List.replicate L nonogram_BLANK))) L (L : Int)
      [] (fun _ => 0)).1 = List.replicate L nonogram_DOT := by
    apply eq_replicate_of_cellAt m1
    intro j hj
    have hnc : ¬ Covered [] (fun _ => 0) j := by
      rintro ⟨i, hi, _⟩
      exact absurd hi (Nat.not_lt_zero _)
    rw [(m2 j hj).2 hnc]
    have := cellAt_range_map (List.replicate L nonogram_BLANK) j (by simpa using hj)
    rw [List.length_replicate] at this
    rw [this, cellAt_replicate L _ j hj]
    rfl
  have hscan : whileInc (fun p => decide (p < L)
      && cellAt (List.replicate L nonogram_BLANK) p != nonogram_SOLID) L 0 = L := by
    rw [whileInc_run _ L 0]
    · omega
    · intro y _ hy
      rw [cellAt_replicate L _ y (by omega)]
      simp
      omega
  unfold complete_run complete_init
  simp only [hcnt, List.length_replicate]
  rw [if_neg (by simp; omega)]
  simp only []
  rw [show completeFuel (List.replicate L nonogram_BLANK) [] = (L + 3) + 1 + 1 by
    unfold completeFuel; simp]
  unfold completeSteps
  unfold complete_step
  simp only [Bool.false_or, decide_eq_true_eq]
  rw [if_neg (by omega)]
  unfold completeAdvance
  simp only [List.length_nil, List.length_replicate, beq_self_eq_true, if_true, Nat.lt_irrefl,
    gt_iff_lt, if_false, hscan]
  unfold completeSteps
  unfold complete_step
  simp only [Bool.true_or, if_true, Nat.lt_irrefl, gt_iff_lt, if_false, hre]
  rfl

/-- C13 as stated fails for the null suite: on the all-BLANK line of length
5 with the empty rule it reports `fits = 1` but writes BOTH, not DOT, into
every result cell. -/
theorem null_empty_rule_counterexample :
    null_init [nonogram_BLANK, nonogram_BLANK, nonogram_BLANK, nonogram_BLANK, nonogram_BLANK] []
      = (false, 1, [nonogram_BOTH, nonogram_BOTH, nonogram_BOTH, nonogram_BOTH, nonogram_BOTH]) := by
  decide

/-- C13, amended: for every line length `L >= 1` (below `2^31`, the range
of the `int` counter of the complete suite), on the all-BLANK line with the
empty rule the suites fast, complete, olsak and fcomp finish with every
result cell equal to DOT and `fits = 1`, and the null suite finishes with
every result cell equal to BOTH and `fits = 1`.  The result buffer handed to
fcomp holds `L` cells of any content. -/
theorem empty_rule_all_blank (L : Nat) (hL1 : 1 ≤ L) (_hL : L < 2 ^ 31)
    (ws0 : FcompState) (res0 : List Nat) (hres : res0.length = L) :
    fast_solve (List.replicate L nonogram_BLANK) [] =
      some (some (List.replicate L nonogram_DOT)) ∧
    complete_run (List.replicate L nonogram_BLANK) [] =
      some (1, List.replicate L nonogram_DOT) ∧
    olsak_compinit (List.replicate L nonogram_BLANK) [] =
      some (some (List.replicate L nonogram_DOT)) ∧
    fcomp_init ws0 (List.replicate L nonogram_BLANK) [] res0 =
      (false, 1, List.replicate L nonogram_DOT, ws0) ∧
    null_init (List.replicate L nonogram_BLANK) [] =
      (false, 1, List.replicate L nonogram_BOTH) :=
  ⟨fast_solve_empty_blank L, complete_empty_blank L hL1, olsak_empty_blank L,
    fcomp_empty_blank ws0 L res0 hres, null_empty_blank L⟩

theorem empty_rule_all_blank_witness :
    1 ≤ 5 ∧ 5 < 2 ^ 31 ∧ [7, 7, 7, 7, 7].length = 5 ∧
    (fast_solve (List.replicate 5 nonogram_BLANK) [] =
      some (some (List.replicate 5 nonogram_DOT)) ∧
    complete_run (List.replicate 5 nonogram_BLANK) [] =
      some (1, List.replicate 5 nonogram_DOT) ∧
    olsak_compinit (List.replicate 5 nonogram_BLANK) [] =
      some (some (List.replicate 5 nonogram_DOT)) ∧
    fcomp_init fcompZero (List.replicate 5 nonogram_BLANK) [] [7, 7, 7, 7, 7] =
      (false, 1, List.replicate 5 nonogram_DOT, fcompZero) ∧
    null_init (List.replicate 5 nonogram_BLANK) [] =
      (false, 1, List.replicate 5 nonogram_BOTH)) :=
  ⟨by decide, by decide, rfl,
    empty_rule_all_blank 5 (by decide) (by decide) fcompZero [7, 7, 7, 7, 7] rfl⟩

theorem needRev_eq_sum (rule : List Nat) (d : Nat) (hd : d < rule.length) :
    needRev rule d = (rule.drop (rule.length - 1 - d)).sum + (d + 1) := by
  induction d with
  | zero =>
    simp only [needRev, Nat.sub_zero]
    rw [drop_eq_cons_ruleAt rule (rule.length - 1) (by omega),
      show rule.length - 1 + 1 = rule.length by omega, List.drop_length]
    simp
  | succ d ih =>
    simp only [needRev]
    rw [ih (by omega), drop_eq_cons_ruleAt rule (rule.length - 1 - (d + 1)) (by omega),
      show rule.length - 1 - (d + 1) + 1 = rule.length - 1 - d by omega, List.sum_cons]
    omega

theorem needRev_le_of_fits {line rule : List Nat} (hfit : RuleFits line rule) (d : Nat)
    (hd : d < rule.length) : needRev rule d ≤ line.length + 1 := by
  have h1 := needRev_mono rule d (rule.length - 1) (by omega)
  have h2 := needRev_eq_sum rule (rule.length - 1) (by omega)
  rw [show rule.length - 1 - (rule.length - 1) = 0 by omega, List.drop_zero] at h2
  unfold RuleFits at hfit
  omega

/-- A rule that has a valid placement fits the line. -/
theorem ruleFits_of_valid {line rule : List Nat} {q : Nat → Nat}
    (hq : ValidPlacement line rule q) : RuleFits line rule := by
  unfold RuleFits
  by_cases hk : rule.length = 0
  · have : rule = [] := List.length_eq_zero.1 hk
    subst this
    simp
  · have h1 := validPlacement_need hq (rule.length - 1) (by omega)
    have h2 := needRev_eq_sum rule (rule.length - 1) (by omega)
    rw [show rule.length - 1 - (rule.length - 1) = 0 by omega, List.drop_zero] at h2
    omega

/-- What the proofs need to know about `limit[]` when the rule fits the
line: no wrap-around has happened, a block starting before its limit ends
inside the line, and every valid placement starts each block before its
limit. -/
theorem completeLimit_facts_fit {line rule : List Nat} (hL : line.length < 2 ^ 64)
    (hpos : PositiveRule rule) (hfit : RuleFits line rule) (i : Nat) (hi : i < rule.length) :
    1 ≤ completeLimit line.length rule i ∧
    completeLimit line.length rule i + ruleAt rule i ≤ line.length + 1 ∧
    (∀ q, ValidPlacement line rule q → q i < completeLimit line.length rule i) := by
  have h0 := needRev_le_of_fits hfit (rule.length - 1 - i) (by omega)
  have h1 := completeLimitRev_eq line.length rule hL hpos (rule.length - 1 - i) (by omega) h0
  have h2 := needRev_ge rule (rule.length - 1 - i)
  rw [show rule.length - 1 - (rule.length - 1 - i) = i by omega] at h2
  unfold completeLimit
  refine ⟨by omega, by omega, ?_⟩
  intro q hq
  have h3 := validPlacement_need hq (rule.length - 1 - i) (by omega)
  rw [show rule.length - 1 - (rule.length - 1 - i) = i by omega] at h3
  omega

/-- The branches of `step` that try to place block `blockno`
(complete.c 216-298). -/
theorem completeAdvance_block_fit {line rule : List Nat} (hL : line.length < 2 ^ 64)
    (hpos : PositiveRule rule) (hfit : RuleFits line rule)
    {c : CompleteState} (h : CInv line rule c) (hmb : c.move_back = false)
    (hdk : c.blockno < rule.length) :
    CInv line rule (completeAdvance line rule c) ∧
      completeMeasure line rule c < completeMeasure line rule (completeAdvance line rule c) := by
  unfold completeAdvance
  simp only []
  rw [if_neg (by simp only [beq_iff_eq]; omega)]
  obtain ⟨hl1, hl2, hl3⟩ := completeLimit_facts_fit hL hpos hfit c.blockno hdk
  have hr := hpos c.blockno hdk
  have hcand := h.cand hmb hdk
  have hms : mergeStart rule c.pos c.blockno ≤ c.pos c.blockno := by
    unfold mergeStart
    split
    · omega
    · have := hcand.gap (by omega); omega
  have hdone : ∀ q, ValidPlacement line rule q → AgreeBefore c.pos q c.blockno →
      q c.blockno < c.pos c.blockno → SeenAll line rule c.re q := by
    intro q hq hpre hlt
    exact h.seen q hq ⟨c.blockno, Nat.le_refl _, hpre, fun hf => absurd hf (Nat.lt_irrefl _),
      fun _ => Or.inr ⟨hdk, hlt⟩⟩
  have hskipOf : ∀ P, (∀ q, ValidPlacement line rule q → AgreeBefore c.pos q c.blockno →
      c.pos c.blockno ≤ q c.blockno → P ≤ q c.blockno) →
      ∀ q, ValidPlacement line rule q → AgreeBefore c.pos q c.blockno →
        q c.blockno < P → SeenAll line rule c.re q := by
    intro P hlow q hq hpre hlt
    by_cases hq1 : q c.blockno < c.pos c.blockno
    · exact hdone q hq hpre hq1
    · have := hlow q hq hpre (by omega)
      omega
  have hexOf : (∀ q, ValidPlacement line rule q → AgreeBefore c.pos q c.blockno →
      c.pos c.blockno ≤ q c.blockno → False) →
      ∀ q, ValidPlacement line rule q → AgreeBefore c.pos q c.blockno → SeenAll line rule c.re q := by
    intro hno q hq hpre
    by_cases hq1 : q c.blockno < c.pos c.blockno
    · exact hdone q hq hpre hq1
    · exact absurd (hno q hq hpre (by omega)) id
  generalize completeLimit line.length rule c.blockno = lim at hl1 hl2 hl3 ⊢
  -- the loop that skips dots
  have g1 := whileInc_ge (fun p => decide (p < lim) && cellAt line p == nonogram_DOT)
    (line.length + 1) (c.pos c.blockno)
  have g2 : ∀ y, c.pos c.blockno ≤ y →
      y < whileInc (fun p => decide (p < lim) && cellAt line p == nonogram_DOT)
        (line.length + 1) (c.pos c.blockno) → cellAt line y = nonogram_DOT := by
    intro y h1 h2
    have := whileInc_all _ _ _ y h1 h2
    simp only [Bool.and_eq_true, decide_eq_true_eq, beq_iff_eq] at this
    exact this.2
  have g3 := whileInc_stop (fun p => decide (p < lim) && cellAt line p == nonogram_DOT)
    (line.length + 1) (c.pos c.blockno) ⟨max (c.pos c.blockno) lim, by omega, by omega, by
      simp only [Bool.and_eq_false_iff, decide_eq_false_iff_not]; left; omega⟩
  generalize whileInc (fun p => decide (p < lim) && cellAt line p == nonogram_DOT)
    (line.length + 1) (c.pos c.blockno) = p1 at g1 g2 g3 ⊢
  have hlow1 : ∀ q, ValidPlacement line rule q → AgreeBefore c.pos q c.blockno →
      c.pos c.blockno ≤ q c.blockno → p1 ≤ q c.blockno := by
    intro q hq _ hge
    by_contra hlt
    exact hq.start_nodot hdk (Nat.le_refl _) (by omega) (g2 _ hge (by omega))
  have hns1 : ∀ j, mergeStart rule c.pos c.blockno ≤ j → j < p1 →
      cellAt line j ≠ nonogram_SOLID := by
    intro j h1 h2
    by_cases hj : j < c.pos c.blockno
    · exact hcand.nosolid j h1 hj
    · rw [g2 j (by omega) h2]; decide
  have hupd : ∀ P i, i < c.blockno → Function.update c.pos c.blockno P i = c.pos i := by
    intro P i hi
    exact Function.update_noteq (by omega) _ _
  by_cases hA : p1 ≥ lim
  · rw [if_pos hA]
    refine cinv_back h _ (Nat.le_refl _) rfl (hupd p1) rfl rfl (Or.inr hmb) ?_
    apply hexOf
    intro q hq hpre hge
    have := hlow1 q hq hpre hge
    have := hl3 q hq
    omega
  · rw [if_neg hA]
    have hnd1 : cellAt line p1 ≠ nonogram_DOT := by
      simp only [Bool.and_eq_false_iff, decide_eq_false_iff_not, beq_eq_false_iff_ne,
        ne_eq] at g3
      rcases g3 with g3 | g3
      · omega
      · exact g3
    obtain ⟨s1, s2, s3, s4, s5⟩ := completeScan_spec line (p1 + ruleAt rule c.blockno)
      (ruleAt rule c.blockno) p1 false (Nat.le_refl _) (by omega)
    generalize completeScan line (p1 + ruleAt rule c.blockno) (ruleAt rule c.blockno) p1 false
      = sc at s1 s2 s3 s4 s5 ⊢
    by_cases hB : sc.1 < p1 + ruleAt rule c.blockno
    · rw [if_pos hB]
      have hdot := s4 hB
      -- a valid placement with block `blockno` in `[p1, sc.1]` covers the dot
      have hcov : ∀ q, ValidPlacement line rule q → p1 ≤ q c.blockno →
          q c.blockno ≤ sc.1 → False := by
        intro q hq h1 h2
        exact hq.start_nodot hdk h2 (by omega) hdot
      by_cases hS : sc.2 = true
      · rw [if_pos hS]
        obtain ⟨s, hs1, hs2, hs3⟩ : ∃ j, p1 ≤ j ∧ j < sc.1 ∧ cellAt line j = nonogram_SOLID := by
          rcases s5.1 hS with hf | hf
          · exact absurd hf (by decide)
          · exact hf
        refine cinv_back h _ (Nat.le_refl _) rfl (hupd p1) rfl rfl (Or.inr hmb) ?_
        apply hexOf
        intro q hq hpre hge
        have hle := path_cover_le hq hpre hdk hs3 (by omega)
        exact hcov q hq (hlow1 q hq hpre hge) (by omega)
      · rw [if_neg hS]
        have hnosol : ∀ j, p1 ≤ j → j < sc.1 → cellAt line j ≠ nonogram_SOLID := by
          intro j h1 h2 h3
          exact hS (s5.2 (Or.inr ⟨j, h1, h2, h3⟩))
        refine cinv_move h _ (Nat.le_refl _) hdk hmb (hupd _) rfl rfl (Or.inr hmb) ?_ ?_ ?_ ?_ ?_
        · show c.pos c.blockno < Function.update c.pos c.blockno (sc.1 + 1) c.blockno
          rw [Function.update_same]; omega
        · show Function.update c.pos c.blockno (sc.1 + 1) c.blockno ≤ line.length + 1
          rw [Function.update_same]; omega
        · intro h0
          show c.pos (c.blockno - 1) + ruleAt rule (c.blockno - 1) + 1
            ≤ Function.update c.pos c.blockno (sc.1 + 1) c.blockno
          rw [Function.update_same]
          have := hcand.gap h0
          omega
        · intro j h1 h2
          have h2' : j < Function.update c.pos c.blockno (sc.1 + 1) c.blockno := h2
          rw [Function.update_same] at h2'
          by_cases hj1 : j < p1
          · exact hns1 j h1 hj1
          · by_cases hj2 : j < sc.1
            · exact hnosol j (by omega) hj2
            · have : j = sc.1 := by omega
              subst this
              rw [hdot]; decide
        · intro q hq hpre hlt
          have hlt' : q c.blockno < Function.update c.pos c.blockno (sc.1 + 1) c.blockno := hlt
          rw [Function.update_same] at hlt'
          refine hskipOf (sc.1 + 1) ?_ q hq hpre hlt'
          intro q' hq' hpre' hge'
          by_contra hc
          exact hcov q' hq' (hlow1 q' hq' hpre' hge') (by omega)
    · rw [if_neg hB]
      have hsc : sc.1 = p1 + ruleAt rule c.blockno := by omega
      have hW : wrap ((lim : Int) - 1) = lim - 1 :=
        wrap_of_nat (n := lim - 1) (by omega) _ (by omega)
      rw [hW]
      -- the loop that moves the block on while a solid follows it
      have t1 := whileInc_ge (fun p => decide (p < lim - 1)
        && cellAt line (p + ruleAt rule c.blockno) == nonogram_SOLID
        && cellAt line p != nonogram_SOLID) line.length p1
      have t2 : ∀ y, p1 ≤ y → y < whileInc (fun p => decide (p < lim - 1)
          && cellAt line (p + ruleAt rule c.blockno) == nonogram_SOLID
          && cellAt line p != nonogram_SOLID) line.length p1 →
          y < lim - 1 ∧ cellAt line (y + ruleAt rule c.blockno) = nonogram_SOLID ∧
            cellAt line y ≠ nonogram_SOLID := by
        intro y h1 h2
        have := whileInc_all _ _ _ y h1 h2
        simp only [Bool.and_eq_true, decide_eq_true_eq, beq_iff_eq, bne_iff_ne, ne_eq] at this
        exact ⟨this.1.1, this.1.2, this.2⟩
      have t3 := whileInc_stop (fun p => decide (p < lim - 1)
        && cellAt line (p + ruleAt rule c.blockno) == nonogram_SOLID
        && cellAt line p != nonogram_SOLID) line.length p1 ⟨lim - 1, by omega, by omega, by
          simp only [Bool.and_eq_false_iff, decide_eq_false_iff_not]; left; left; omega⟩
      generalize whileInc (fun p => decide (p < lim - 1)
        && cellAt line (p + ruleAt rule c.blockno) == nonogram_SOLID
        && cellAt line p != nonogram_SOLID) line.length p1 = p2 at t1 t2 t3 ⊢
      have hp2 : p2 ≤ lim - 1 := by
        by_cases he : p2 = p1
        · omega
        · have := (t2 (p2 - 1) (by omega) (by omega)).1
          omega
      have hlow2 : ∀ q, ValidPlacement line rule q → AgreeBefore c.pos q c.blockno →
          c.pos c.blockno ≤ q c.blockno → p2 ≤ q c.blockno := by
        intro q hq hpre hge
        have h1 := hlow1 q hq hpre hge
        by_contra hlt
        exact hq.no_touch hdk (t2 _ h1 (by omega)).2.1
      have hns2 : ∀ j, mergeStart rule c.pos c.blockno ≤ j → j < p2 →
          cellAt line j ≠ nonogram_SOLID := by
        intro j h1 h2
        by_cases hj : j < p1
        · exact hns1 j h1 hj
        · exact (t2 j (by omega) h2).2.2
      have hnd2 : ∀ j, p2 ≤ j → j < p2 + ruleAt rule c.blockno →
          cellAt line j ≠ nonogram_DOT := by
        intro j h1 h2
        by_cases hj : j < p1 + ruleAt rule c.blockno
        · exact s3 j (by omega) (by omega)
        · have := (t2 (j - ruleAt rule c.blockno) (by omega) (by omega)).2.1
          rw [show j - ruleAt rule c.blockno + ruleAt rule c.blockno = j by omega] at this
          rw [this]; decide
      by_cases hD : (decide (p2 + ruleAt rule c.blockno < line.length)
          && cellAt line (p2 + ruleAt rule c.blockno) == nonogram_SOLID) = true
      · rw [if_pos hD]
        simp only [Bool.and_eq_true, decide_eq_true_eq, beq_iff_eq] at hD
        refine cinv_back h _ (Nat.le_refl _) rfl (hupd _) rfl rfl (Or.inr hmb) ?_
        apply hexOf
        intro q hq hpre hge
        have h2 := hlow2 q hq hpre hge
        have hne : q c.blockno ≠ p2 := by
          intro he
          have := hq.no_touch hdk
          rw [he] at this
          exact this hD.2
        simp only [Bool.and_eq_false_iff, decide_eq_false_iff_not, beq_eq_false_iff_ne,
          bne_eq_false_iff_eq, ne_eq] at t3
        rcases t3 with (t3 | t3) | t3
        · have := hl3 q hq; omega
        · exact t3 hD.2
        · have := path_cover_le hq hpre hdk t3 (by omega)
          omega
      · rw [if_neg hD]
        have hafter : cellAt line (p2 + ruleAt rule c.blockno) ≠ nonogram_SOLID := by
          intro hs
          apply hD
          have : p2 + ruleAt rule c.blockno < line.length :=
            lt_of_cellAt_ne_zero (by rw [hs]; decide)
          simp [this, hs]
        by_cases hE : c.blockno + 1 < rule.length
        · rw [if_pos hE]
          have e1 : Function.update (Function.update c.pos c.blockno p2) (c.blockno + 1)
              (p2 + ruleAt rule c.blockno + 1) c.blockno = p2 := by
            rw [Function.update_noteq (by omega), Function.update_same]
          refine cinv_descend h _ hmb hdk rfl hmb ?_ rfl rfl ?_ ?_ ?_ ?_ ?_ ?_ ?_
          · intro i hi
            show Function.update (Function.update c.pos c.blockno p2) (c.blockno + 1)
              (p2 + ruleAt rule c.blockno + 1) i = c.pos i
            rw [Function.update_noteq (by omega), Function.update_noteq (by omega)]
          · show c.pos c.blockno ≤ Function.update (Function.update c.pos c.blockno p2)
              (c.blockno + 1) (p2 + ruleAt rule c.blockno + 1) c.blockno
            rw [e1]; omega
          · intro _
            show Function.update (Function.update c.pos c.blockno p2) (c.blockno + 1)
              (p2 + ruleAt rule c.blockno + 1) (c.blockno + 1) =
              Function.update (Function.update c.pos c.blockno p2) (c.blockno + 1)
              (p2 + ruleAt rule c.blockno + 1) c.blockno + ruleAt rule c.blockno + 1
            rw [e1, Function.update_same]
          · show Function.update (Function.update c.pos c.blockno p2) (c.blockno + 1)
              (p2 + ruleAt rule c.blockno + 1) c.blockno + ruleAt rule c.blockno ≤ line.length
            rw [e1]; omega
          · show ∀ j, Function.update (Function.update c.pos c.blockno p2) (c.blockno + 1)
              (p2 + ruleAt rule c.blockno + 1) c.blockno ≤ j →
              j < Function.update (Function.update c.pos c.blockno p2) (c.blockno + 1)
              (p2 + ruleAt rule c.blockno + 1) c.blockno + ruleAt rule c.blockno →
              cellAt line j ≠ nonogram_DOT
            rw [e1]; exact hnd2
          · show ∀ j, mergeStart rule c.pos c.blockno ≤ j →
              j < Function.update (Function.update c.pos c.blockno p2) (c.blockno + 1)
              (p2 + ruleAt rule c.blockno + 1) c.blockno → cellAt line j ≠ nonogram_SOLID
            rw [e1]; exact hns2
          · show cellAt line (Function.update (Function.update c.pos c.blockno p2)
              (c.blockno + 1) (p2 + ruleAt rule c.blockno + 1) c.blockno
              + ruleAt rule c.blockno) ≠ nonogram_SOLID
            rw [e1]; exact hafter
          · show ∀ q, ValidPlacement line rule q → AgreeBefore c.pos q c.blockno →
              q c.blockno < Function.update (Function.update c.pos c.blockno p2)
              (c.blockno + 1) (p2 + ruleAt rule c.blockno + 1) c.blockno →
              SeenAll line rule c.re q
            rw [e1]; exact hskipOf p2 hlow2
        · rw [if_neg hE]
          have e1 : Function.update c.pos c.blockno p2 c.blockno = p2 := Function.update_same _ _ _
          refine cinv_descend h _ hmb hdk rfl hmb (hupd p2) rfl rfl ?_ ?_ ?_ ?_ ?_ ?_ ?_
          · show c.pos c.blockno ≤ Function.update c.pos c.blockno p2 c.blockno
            rw [e1]; omega
          · intro hf; exact absurd hf hE
          · show Function.update c.pos c.blockno p2 c.blockno + ruleAt rule c.blockno
              ≤ line.length
            rw [e1]; omega
          · show ∀ j, Function.update c.pos c.blockno p2 c.blockno ≤ j →
              j < Function.update c.pos c.blockno p2 c.blockno + ruleAt rule c.blockno →
              cellAt line j ≠ nonogram_DOT
            rw [e1]; exact hnd2
          · show ∀ j, mergeStart rule c.pos c.blockno ≤ j →
              j < Function.update c.pos c.blockno p2 c.blockno → cellAt line j ≠ nonogram_SOLID
            rw [e1]; exact hns2
          · show cellAt line (Function.update c.pos c.blockno p2 c.blockno
              + ruleAt rule c.blockno) ≠ nonogram_SOLID
            rw [e1]; exact hafter
          · show ∀ q, ValidPlacement line rule q → AgreeBefore c.pos q c.blockno →
              q c.blockno < Function.update c.pos c.blockno p2 c.blockno →
              SeenAll line rule c.re q
            rw [e1]; exact hskipOf p2 hlow2

theorem completeAdvance_spec_fit {line rule : List Nat} (hL : line.length < 2 ^ 64)
    (hcells : ∀ j, j < line.length → cellAt line j ≤ 2) (hpos : PositiveRule rule)
    (hrf : RuleFits line rule)
    {c : CompleteState} (h : CInv line rule c) (hmb : c.move_back = false) :
    CInv line rule (completeAdvance line rule c) ∧
      completeMeasure line rule c < completeMeasure line rule (completeAdvance line rule c) := by
  by_cases hd : c.blockno = rule.length
  · exact completeAdvance_last hcells h hmb hd
  · have := h.blk
    exact completeAdvance_block_fit hL hpos hrf h hmb (by omega)

theorem complete_step_spec_fit {line rule : List Nat} (hL : line.length < 2 ^ 64)
    (hcells : ∀ j, j < line.length → cellAt line j ≤ 2) (hpos : PositiveRule rule)
    (hrf : RuleFits line rule)
    {c : CompleteState} (h : CInv line rule c) :
    ((complete_step line rule c).1 = true →
      CInv line rule (complete_step line rule c).2 ∧
        completeMeasure line rule c < completeMeasure line rule (complete_step line rule c).2) ∧
    ((complete_step line rule c).1 = false →
      CompleteFinal c ∧ (complete_step line rule c).2.re = c.re ∧
        (complete_step line rule c).2.fits = c.fits) := by
  have hk := h.blk
  unfold complete_step
  simp only []
  by_cases hcond : (c.move_back || decide (c.remunk ≤ 0)) = true
  · rw [if_pos hcond]
    simp only [Bool.or_eq_true, decide_eq_true_eq] at hcond
    by_cases hd : c.blockno > 0
    · rw [if_pos hd]
      have hb : c.blockno - 1 < c.blockno := by omega
      have hbk : c.blockno - 1 < rule.length := by omega
      have hstart := h.placed.start_le hb
      have hdoneB : ∀ q, ValidPlacement line rule q → AgreeBefore c.pos q (c.blockno - 1) →
          q (c.blockno - 1) < c.pos (c.blockno - 1) → SeenAll line rule c.re q := by
        intro q hq hpre hlt
        exact h.seen q hq ⟨c.blockno - 1, by omega, hpre, fun _ => hlt, fun he => by omega⟩
      have hdoneD : c.move_back = true → ∀ q, ValidPlacement line rule q →
          AgreeBefore c.pos q (c.blockno - 1) →
          q (c.blockno - 1) = c.pos (c.blockno - 1) → SeenAll line rule c.re q := by
        intro hm q hq hpre he
        refine h.seen q hq ⟨c.blockno, Nat.le_refl _, ?_, fun hf => absurd hf (Nat.lt_irrefl _),
          fun _ => Or.inl hm⟩
        intro i hi
        by_cases hib : i = c.blockno - 1
        · subst hib; exact he
        · exact hpre i (by omega)
      by_cases hc2 : (decide (c.remunk ≤ 0)
          || cellAt line (c.pos (c.blockno - 1)) == nonogram_SOLID) = true
      · rw [if_pos hc2]
        simp only [Bool.or_eq_true, decide_eq_true_eq, beq_iff_eq] at hc2
        refine ⟨fun _ => ?_, fun hf => Bool.noConfusion (show true = false from hf)⟩
        refine cinv_back h _ (Nat.le_of_lt hb) rfl (fun _ _ => rfl) rfl rfl (Or.inl hb) ?_
        intro q hq hpre
        have hpre' : AgreeBefore c.pos q (c.blockno - 1) := hpre
        by_cases hrem : c.remunk ≤ 0
        · exact seenAll_of_remunk hcells h.record hrem q
        · have hm : c.move_back = true := by
            rcases hcond with h1 | h1
            · exact h1
            · exact absurd h1 hrem
          have hs : cellAt line (c.pos (c.blockno - 1)) = nonogram_SOLID := by
            rcases hc2 with h1 | h1
            · exact absurd h1 hrem
            · exact h1
          have hle := path_cover_le hq hpre' hbk hs hstart
          by_cases he : q (c.blockno - 1) = c.pos (c.blockno - 1)
          · exact hdoneD hm q hq hpre' he
          · exact hdoneB q hq hpre' (by omega)
      · rw [if_neg hc2]
        simp only [Bool.or_eq_true, decide_eq_true_eq, beq_iff_eq, not_or] at hc2
        have hm : c.move_back = true := by
          rcases hcond with h1 | h1
          · exact h1
          · exact absurd h1 hc2.1
        refine ⟨fun _ => ?_, fun hf => Bool.noConfusion (show true = false from hf)⟩
        have e1 : Function.update c.pos (c.blockno - 1) (c.pos (c.blockno - 1) + 1)
            (c.blockno - 1) = c.pos (c.blockno - 1) + 1 := Function.update_same _ _ _
        have hfit := h.placed.fit (c.blockno - 1) hb
        obtain ⟨hi1, hm1⟩ := cinv_move h
          { c with blockno := c.blockno - 1, move_back := false,
                   pos := Function.update c.pos (c.blockno - 1) (c.pos (c.blockno - 1) + 1) }
          (Nat.le_of_lt hb) hbk rfl
          (fun i hi => Function.update_noteq (Nat.ne_of_lt hi) _ _) rfl rfl (Or.inl hb)
          (by
            show c.pos (c.blockno - 1) < Function.update c.pos (c.blockno - 1)
              (c.pos (c.blockno - 1) + 1) (c.blockno - 1)
            rw [e1]; omega)
          (by
            show Function.update c.pos (c.blockno - 1)
              (c.pos (c.blockno - 1) + 1) (c.blockno - 1) ≤ line.length + 1
            rw [e1]
            have := hpos (c.blockno - 1) hbk
            omega)
          (by
            intro h0
            show c.pos (c.blockno - 1 - 1) + ruleAt rule (c.blockno - 1 - 1) + 1 ≤
              Function.update c.pos (c.blockno - 1) (c.pos (c.blockno - 1) + 1) (c.blockno - 1)
            rw [e1]
            have h0' : 0 < c.blockno - 1 := h0
            have := h.placed.gap (c.blockno - 1 - 1) (by omega)
            rw [show c.blockno - 1 - 1 + 1 = c.blockno - 1 by omega] at this
            omega)
          (by
            intro j h1 h2
            have h2' : j < Function.update c.pos (c.blockno - 1)
              (c.pos (c.blockno - 1) + 1) (c.blockno - 1) := h2
            rw [e1] at h2'
            by_cases hj : j < c.pos (c.blockno - 1)
            · exact h.placed.nosolid (c.blockno - 1) hb j h1 hj
            · have : j = c.pos (c.blockno - 1) := by omega
              subst this
              exact hc2.2)
          (by
            intro q hq hpre hlt
            have hpre' : AgreeBefore c.pos q (c.blockno - 1) := hpre
            have hlt' : q (c.blockno - 1) < Function.update c.pos (c.blockno - 1)
              (c.pos (c.blockno - 1) + 1) (c.blockno - 1) := hlt
            rw [e1] at hlt'
            by_cases he : q (c.blockno - 1) = c.pos (c.blockno - 1)
            · exact hdoneD hm q hq hpre' he
            · exact hdoneB q hq hpre' (by omega))
        obtain ⟨hi2, hm2⟩ := completeAdvance_spec_fit hL hcells hpos hrf hi1 rfl
        exact ⟨hi2, Nat.lt_trans hm1 hm2⟩
    · rw [if_neg hd]
      refine ⟨fun hf => Bool.noConfusion (show false = true from hf), fun _ => ⟨⟨?_, by omega⟩, rfl, rfl⟩⟩
      rcases hcond with h1 | h1
      · exact Or.inl h1
      · exact Or.inr h1
  · rw [if_neg hcond]
    simp only [Bool.or_eq_true, decide_eq_true_eq, not_or, Bool.not_eq_true] at hcond
    exact ⟨fun _ => completeAdvance_spec_fit hL hcells hpos hrf h hcond.1,
      fun hf => Bool.noConfusion (show true = false from hf)⟩

/-- The cells written by one loop of `merge`. -/
theorem mergeSpan_cells (v : Nat) (n i : Nat) (rec : List Nat) (blank : Int) :
    (mergeSpan v n i rec blank).1.length = rec.length ∧
    ∀ j, cellAt (mergeSpan v n i rec blank).1 j =
      if i ≤ j ∧ j < i + n ∧ j < rec.length then cellAt rec j ||| v else cellAt rec j := by
  induction n generalizing i rec blank with
  | zero =>
    rw [show mergeSpan v 0 i rec blank = (rec, blank) from rfl]
    refine ⟨rfl, fun j => ?_⟩
    rw [if_neg (by omega)]
  | succ n ih =>
    simp only [mergeSpan]
    obtain ⟨h1, h2⟩ := ih (i + 1) (rec.set i (cellAt rec i ||| v))
      (if (cellAt rec i ||| v) == nonogram_BOTH && cellAt rec i != nonogram_BOTH
        then blank - 1 else blank)
    refine ⟨by rw [h1, List.length_set], fun j => ?_⟩
    rw [h2 j, List.length_set]
    have hs : cellAt (rec.set i (cellAt rec i ||| v)) j =
        if i = j ∧ i < rec.length then cellAt rec i ||| v else cellAt rec j := cellAt_set _ _ _ _
    rw [hs]
    by_cases c1 : i + 1 ≤ j ∧ j < i + 1 + n ∧ j < rec.length
    · have c3 : ¬ (i = j ∧ i < rec.length) := by omega
      have c4 : i ≤ j ∧ j < i + (n + 1) ∧ j < rec.length := by omega
      rw [if_pos c1, if_neg c3, if_pos c4]
    · rw [if_neg c1]
      by_cases c2 : i = j ∧ i < rec.length
      · have c4 : i ≤ j ∧ j < i + (n + 1) ∧ j < rec.length := by omega
        rw [if_pos c2, if_pos c4, c2.1]
      · rw [if_neg c2, if_neg (by omega)]

theorem or_ne_zero (x v : Nat) (hv : v = nonogram_DOT ∨ v = nonogram_SOLID) : x ||| v ≠ 0 := by
  intro h
  have h1 : (x ||| v) &&& v = v := by
    apply Nat.eq_of_testBit_eq
    intro i
    simp only [Nat.testBit_and, Nat.testBit_or]
    cases x.testBit i <;> cases v.testBit i <;> rfl
  rw [h] at h1
  rcases hv with hv | hv <;> subst hv <;> simp at h1

theorem mergeSpan_mergedTo (v : Nat) (hv : v = nonogram_DOT ∨ v = nonogram_SOLID)
    (n i : Nat) (rec : List Nat) (blank : Int) (h : MergedTo rec i) :
    MergedTo (mergeSpan v n i rec blank).1 (i + n) := by
  obtain ⟨h1, h2⟩ := mergeSpan_cells v n i rec blank
  intro j hj hl
  rw [h1] at hl
  rw [h2 j]
  by_cases c : i ≤ j
  · rw [if_pos ⟨c, hj, hl⟩]
    exact or_ne_zero _ v hv
  · rw [if_neg (by omega)]
    exact h j (by omega) hl

theorem MergedTo.shrink {rec : List Nat} {m m' : Nat} (h : MergedTo rec m) (hm : m' ≤ m) :
    MergedTo rec m' := fun j hj hl => h j (by omega) hl

theorem mergeBlocks_mergedTo (rule : List Nat) (p : Nat → Nat) (n b i : Nat) (rec : List Nat)
    (blank : Int) (h : MergedTo rec i) :
    (mergeBlocks rule p n b i rec blank).2.1.length = rec.length ∧
    MergedTo (mergeBlocks rule p n b i rec blank).2.1 (mergeBlocks rule p n b i rec blank).1 := by
  induction n generalizing b i rec blank with
  | zero => exact ⟨rfl, h⟩
  | succ n ih =>
    simp only [mergeBlocks]
    have s1 := mergeSpan_mergedTo nonogram_DOT (Or.inl rfl) (p b - i) i rec blank h
    have l1 := (mergeSpan_cells nonogram_DOT (p b - i) i rec blank).1
    have e1 : i + (p b - i) = max i (p b) := by omega
    rw [e1] at s1
    generalize mergeSpan nonogram_DOT (p b - i) i rec blank = r1 at s1 l1 ⊢
    have s2 := mergeSpan_mergedTo nonogram_SOLID (Or.inr rfl)
      (p b + ruleAt rule b - max i (p b)) (max i (p b)) r1.1 r1.2 s1
    have l2 := (mergeSpan_cells nonogram_SOLID
      (p b + ruleAt rule b - max i (p b)) (max i (p b)) r1.1 r1.2).1
    have e2 : max i (p b) + (p b + ruleAt rule b - max i (p b))
        = max (max i (p b)) (p b + ruleAt rule b) := by omega
    rw [e2] at s2
    generalize mergeSpan nonogram_SOLID (p b + ruleAt rule b - max i (p b)) (max i (p b))
      r1.1 r1.2 = r2 at s2 l2 ⊢
    obtain ⟨a1, a2⟩ := ih (b + 1) (max (max i (p b)) (p b + ruleAt rule b)) r2.1 r2.2 s2
    exact ⟨by rw [a1, l2, l1], a2⟩

/-- After `merge` no cell of the record is BLANK. -/
theorem merge_ne_blank (rec : List Nat) (len : Nat) (blank : Int) (rule : List Nat)
    (p : Nat → Nat) (hlen : rec.length = len) (j : Nat) (hj : j < len) :
    cellAt (merge rec len blank rule p).1 j ≠ nonogram_BLANK := by
  unfold merge
  simp only []
  obtain ⟨a1, a2⟩ := mergeBlocks_mergedTo rule p rule.length 0 0 rec blank
    (fun j hj _ => absurd hj (Nat.not_lt_zero _))
  generalize mergeBlocks rule p rule.length 0 0 rec blank = r at a1 a2 ⊢
  have s := mergeSpan_mergedTo nonogram_DOT (Or.inl rfl) (len - r.1) r.1 r.2.1 r.2.2 a2
  have l := (mergeSpan_cells nonogram_DOT (len - r.1) r.1 r.2.1 r.2.2).1
  exact s j (by omega) (by rw [l, a1, hlen]; exact hj)

theorem completeAdvance_frame (line rule : List Nat) (c : CompleteState) :
    ((completeAdvance line rule c).fits = c.fits ∧ (completeAdvance line rule c).re = c.re) ∨
    ((completeAdvance line rule c).fits = c.fits + 1 ∧
      (completeAdvance line rule c).re = (merge c.re line.length c.remunk rule c.pos).1) := by
  unfold completeAdvance
  simp only []
  split_ifs <;> first | exact Or.inl ⟨rfl, rfl⟩ | exact Or.inr ⟨rfl, rfl⟩

/-- One call of `step` either leaves `*fits` and the record alone or merges
one placement into the record and counts it. -/
theorem complete_step_frame (line rule : List Nat) (c : CompleteState) :
    ((complete_step line rule c).2.fits = c.fits ∧ (complete_step line rule c).2.re = c.re) ∨
    ((complete_step line rule c).2.fits = c.fits + 1 ∧
      ∃ p, (complete_step line rule c).2.re = (merge c.re line.length c.remunk rule p).1) := by
  unfold complete_step
  simp only []
  split_ifs
  · exact Or.inl ⟨rfl, rfl⟩
  · rcases completeAdvance_frame line rule
      { c with blockno := c.blockno - 1, move_back := false,
               pos := Function.update c.pos (c.blockno - 1) (c.pos (c.blockno - 1) + 1) }
      with h | h
    · exact Or.inl h
    · exact Or.inr ⟨h.1, _, h.2⟩
  · exact Or.inl ⟨rfl, rfl⟩
  · rcases completeAdvance_frame line rule c with h | h
    · exact Or.inl h
    · exact Or.inr ⟨h.1, _, h.2⟩

theorem cfits_step {line rule : List Nat}
    (hblank : ∃ j, j < line.length ∧ cellAt line j = nonogram_BLANK)
    {c : CompleteState} (hlen : c.re.length = line.length) (hf : CFits line rule c)
    (h' : CInv line rule (complete_step line rule c).2) :
    CFits line rule (complete_step line rule c).2 := by
  rcases complete_step_frame line rule c with ⟨e1, e2⟩ | ⟨e1, p, e2⟩
  · exact ⟨by rw [e1]; exact hf.nonneg, by rw [e1]; exact hf.valid,
      by rw [e1, e2]; exact hf.untouched⟩
  · have hn := hf.nonneg
    refine ⟨by rw [e1]; omega, fun _ => ?_, fun h0 => by rw [e1] at h0; omega⟩
    obtain ⟨j, hj, hbl⟩ := hblank
    have hne : cellAt (complete_step line rule c).2.re j ≠ nonogram_BLANK := by
      rw [e2]
      exact merge_ne_blank c.re line.length c.remunk rule p hlen j hj
    have hr := h'.record.range j hj
    by_cases hd : HasDot (cellAt (complete_step line rule c).2.re j)
    · obtain ⟨q, hq, _⟩ := h'.record.dotw j hj hbl hd
      exact ⟨q, hq⟩
    · have hs : HasSolid (cellAt (complete_step line rule c).2.re j) := by
        unfold HasDot at hd
        unfold HasSolid
        have h0 : cellAt (complete_step line rule c).2.re j ≠ 0 := hne
        simp only [not_or] at hd
        have h1 : cellAt (complete_step line rule c).2.re j ≠ 1 := hd.1
        have h3 : cellAt (complete_step line rule c).2.re j ≠ 3 := hd.2
        left
        show cellAt (complete_step line rule c).2.re j = 2
        omega
      obtain ⟨q, hq, _⟩ := h'.record.solw j hj hbl hs
      exact ⟨q, hq⟩

/-- With enough fuel the calls of `step` come to an end, for every rule
that fits the line. -/
theorem completeSteps_spec_fit {line rule : List Nat} (hL : line.length < 2 ^ 64)
    (hcells : ∀ j, j < line.length → cellAt line j ≤ 2) (hpos : PositiveRule rule)
    (hrf : RuleFits line rule)
    (hblank : ∃ j, j < line.length ∧ cellAt line j = nonogram_BLANK)
    (fuel : Nat) (c : CompleteState)
    (h : CInv line rule c) (hf : CFits line rule c)
    (hfuel : (line.length + 4) ^ (rule.length + 1) + 1 ≤ completeMeasure line rule c + fuel) :
    ∃ c' cl, completeSteps line rule fuel c = some c' ∧ c'.re = cl.re ∧ c'.fits = cl.fits ∧
      CInv line rule cl ∧ CFits line rule cl ∧ CompleteFinal cl := by
  induction fuel generalizing c with
  | zero =>
    have := completeMeasure_lt h
    omega
  | succ fuel ih =>
    have hstep := complete_step_spec_fit hL hcells hpos hrf h
    have hfs := cfits_step hblank h.record.len hf
    unfold completeSteps
    revert hstep hfs
    rcases complete_step line rule c with ⟨b, c2⟩
    cases b with
    | true =>
      intro hstep hfs
      obtain ⟨h1, h2⟩ := hstep.1 rfl
      simp only []
      exact ih c2 h1 (hfs h1) (by simp only [] at h2; omega)
    | false =>
      intro hstep _
      obtain ⟨h1, h2, h3⟩ := hstep.2 rfl
      exact ⟨c2, c, rfl, h2, h3, h, hf, h1⟩

theorem complete_init_true {line rule : List Nat} {c : CompleteState}
    (h : complete_init line rule = (true, c)) :
    c.fits = 0 ∧ c.re = (List.range line.length).map (cellAt line) := by
  unfold complete_init at h
  simp only [] at h
  split at h
  · exact Bool.noConfusion (Prod.mk.inj h).1
  · have := (Prod.mk.inj h).2
    subst this
    exact ⟨rfl, rfl⟩

/-- The complete suite on a line with a BLANK cell and a rule that fits:
the run ends, and `fits` is zero exactly when the rule has no valid
placement. -/
theorem complete_fits_blank {line rule : List Nat} (hL : line.length < 2 ^ 31)
    (hcells : ∀ j, j < line.length → cellAt line j ≤ 2)
    (hblank : ∃ j, j < line.length ∧ cellAt line j = nonogram_BLANK)
    (hpos : PositiveRule rule) (hrf : RuleFits line rule) :
    ∃ fits re, complete_run line rule = some (fits, re) ∧
      (fits = 0 ↔ ¬ ∃ q, ValidPlacement line rule q) := by
  have hL64 : line.length < 2 ^ 64 := Nat.lt_trans hL (by norm_num)
  obtain ⟨c0, hinit, hinv0⟩ : ∃ c, complete_init line rule = (true, c) ∧ CInv line rule c :=
    complete_init_spec hcells hblank
  obtain ⟨hz, hre0⟩ := complete_init_true hinit
  have hf0 : CFits line rule c0 := by
    refine ⟨by omega, fun hp => by omega, fun _ j hj => ?_⟩
    rw [hre0, cellAt_range_map line j hj]
  obtain ⟨c', cl, hrun, hre, hfits, hinvl, hfl, hfin⟩ := completeSteps_spec_fit hL64 hcells hpos
    hrf hblank (completeFuel line rule) c0 hinv0 hf0 (by unfold completeFuel; omega)
  refine ⟨c'.fits, c'.re, ?_, ?_⟩
  · unfold complete_run
    rw [hinit]
    simp only []
    rw [hrun]
    rfl
  · rw [hfits]
    constructor
    · rintro h0 ⟨q, hq⟩
      obtain ⟨j, hj, hbl⟩ := hblank
      have hseen := completeFinal_seen hcells hinvl hfin q hq j hj hbl
      have hu := hfl.untouched h0 j hj
      rw [hbl] at hu
      unfold Seen at hseen
      rw [hu] at hseen
      by_cases hc : Covered rule q j
      · exact absurd (hseen.1 hc) (by unfold HasSolid; decide)
      · exact absurd (hseen.2 hc) (by unfold HasDot; decide)
    · intro hno
      by_contra hne
      have hn := hfl.nonneg
      exact hno (hfl.valid (by omega))

theorem cellAt_append_left (l m : List Nat) (j : Nat) (h : j < l.length) :
    cellAt (l ++ m) j = cellAt l j := by
  unfold cellAt
  rw [List.getD_eq_getElem?_getD, List.getD_eq_getElem?_getD, List.getElem?_append_left h]

theorem cellAt_append_right (l m : List Nat) (j : Nat) (h : l.length ≤ j) :
    cellAt (l ++ m) j = cellAt m (j - l.length) := by
  unfold cellAt
  rw [List.getD_eq_getElem?_getD, List.getD_eq_getElem?_getD, List.getElem?_append_right h]

theorem cellAt_tail (l : List Nat) (j : Nat) : cellAt l.tail j = cellAt l (j + 1) := by
  cases l with
  | nil => rfl
  | cons c l => rw [List.tail_cons, cellAt_cons_succ]

theorem ruleAt_cons_succ (a : Nat) (l : List Nat) (i : Nat) :
    ruleAt (a :: l) (i + 1) = ruleAt l i := by
  unfold ruleAt; simp

theorem ruleAt_cons_zero (a : Nat) (l : List Nat) : ruleAt (a :: l) 0 = a := by
  unfold ruleAt; simp

theorem positiveRule_tail {a : Nat} {l : List Nat} (h : PositiveRule (a :: l)) :
    PositiveRule l := by
  intro i hi
  have := h (i + 1) (by simp; omega)
  rwa [ruleAt_cons_succ] at this

/-- On the empty line only the empty rule has a valid placement. -/
theorem valid_nil_iff (rule : List Nat) (hpos : PositiveRule rule) :
    (∃ q, ValidPlacement [] rule q) ↔ rule = [] := by
  constructor
  · rintro ⟨q, hq⟩
    cases rule with
    | nil => rfl
    | cons a l =>
      have h1 := hq.1 0 (by simp)
      have h2 := hpos 0 (by simp)
      simp only [List.length_nil] at h1
      omega
  · rintro rfl
    exact ⟨fun _ => 0, by decide⟩

/-- A leading DOT can be dropped from the line. -/
theorem valid_cons_dot (st rule : List Nat) (hpos : PositiveRule rule) :
    (∃ q, ValidPlacement (nonogram_DOT :: st) rule q) ↔ ∃ q, ValidPlacement st rule q := by
  constructor
  · rintro ⟨q, hq⟩
    have hge : ∀ i, i < rule.length → 1 ≤ q i := by
      intro i hi
      by_contra hc
      have h0 : q i = 0 := by omega
      have hp := hpos i hi
      have := hq.2.2.1 i hi 0 (by simp) (by omega) (by omega)
      rw [cellAt_cons_zero] at this
      exact this rfl
    refine ⟨fun i => q i - 1, ?_, ?_, ?_, ?_⟩
    · intro i hi
      have := hq.1 i hi
      have := hge i hi
      simp only [List.length_cons] at *
      omega
    · intro i hi hi2
      have := hq.2.1 i hi hi2
      have := hge i hi
      have := hge (i + 1) hi2
      show q i - 1 + ruleAt rule i + 1 ≤ q (i + 1) - 1
      omega
    · intro i hi j hj h1 h2
      have hg := hge i hi
      have h1' : q i - 1 ≤ j := h1
      have h2' : j < q i - 1 + ruleAt rule i := h2
      have := hq.2.2.1 i hi (j + 1) (by simp only [List.length_cons]; omega) (by omega) (by omega)
      rwa [cellAt_cons_succ] at this
    · intro j hj hs
      obtain ⟨i, hi, h1, h2⟩ := hq.2.2.2 (j + 1) (by simp only [List.length_cons]; omega)
        (by rw [cellAt_cons_succ]; exact hs)
      have hg := hge i hi
      refine ⟨i, hi, ?_, ?_⟩
      · show q i - 1 ≤ j
        omega
      · show j < q i - 1 + ruleAt rule i
        omega
  · rintro ⟨q, hq⟩
    refine ⟨fun i => q i + 1, ?_, ?_, ?_, ?_⟩
    · intro i hi
      have := hq.1 i hi
      simp only [List.length_cons]
      omega
    · intro i hi hi2
      have := hq.2.1 i hi hi2
      show q i + 1 + ruleAt rule i + 1 ≤ q (i + 1) + 1
      omega
    · intro i hi j hj h1 h2
      have h1' : q i + 1 ≤ j := h1
      have h2' : j < q i + 1 + ruleAt rule i := h2
      obtain ⟨j', rfl⟩ : ∃ j', j = j' + 1 := ⟨j - 1, by omega⟩
      rw [cellAt_cons_succ]
      simp only [List.length_cons] at hj
      exact hq.2.2.1 i hi j' (by omega) (by omega) (by omega)
    · intro j hj hs
      cases j with
      | zero =>
        rw [cellAt_cons_zero] at hs
        exact absurd hs (by decide)
      | succ j' =>
        rw [cellAt_cons_succ] at hs
        simp only [List.length_cons] at hj
        obtain ⟨i, hi, h1, h2⟩ := hq.2.2.2 j' (by omega) hs
        refine ⟨i, hi, ?_, ?_⟩
        · show q i + 1 ≤ j' + 1
          omega
        · show j' + 1 < q i + 1 + ruleAt rule i
          omega

/-- A line that starts with a run of `cur` solids, followed by a DOT or by
the end of the line: the first block is that run, and the other blocks are
placed on the rest of the line. -/
theorem valid_solid_run (cur : Nat) (hcur : 0 < cur) (rest rule : List Nat)
    (hrest : rest = [] ∨ cellAt rest 0 = nonogram_DOT) (hpos : PositiveRule rule) :
    (∃ q, ValidPlacement (List.replicate cur nonogram_SOLID ++ rest) rule q) ↔
      ∃ rule', rule = cur :: rule' ∧ ∃ q', ValidPlacement rest.tail rule' q' := by
  have hlen : (List.replicate cur nonogram_SOLID ++ rest).length = cur + rest.length := by
    simp
  have hsol : ∀ j, j < cur → cellAt (List.replicate cur nonogram_SOLID ++ rest) j
      = nonogram_SOLID := by
    intro j hj
    rw [cellAt_append_left _ _ _ (by simpa using hj), cellAt_replicate cur _ j hj]
  have hright : ∀ j, cellAt (List.replicate cur nonogram_SOLID ++ rest) (j + cur)
      = cellAt rest j := by
    intro j
    rw [cellAt_append_right _ _ _ (by simp), List.length_replicate, Nat.add_sub_cancel]
  have hcurcell : cellAt (List.replicate cur nonogram_SOLID ++ rest) cur ≠ nonogram_SOLID := by
    have := hright 0
    rw [Nat.zero_add] at this
    rw [this]
    rcases hrest with h | h
    · rw [h]; decide
    · rw [h]; decide
  have htail : rest.tail.length = rest.length - 1 := List.length_tail rest
  constructor
  · rintro ⟨q, hq⟩
    -- the first solid is covered by block 0, which starts at 0
    have h0L : 0 < (List.replicate cur nonogram_SOLID ++ rest).length := by rw [hlen]; omega
    obtain ⟨b, hb, hb1, hb2⟩ := hq.2.2.2 0 h0L (hsol 0 hcur)
    have hq0 : q 0 = 0 := by
      have := (validPlacement_le hq (b := 0) (c := b) (Nat.zero_le _) hb).1
      omega
    have hk : 0 < rule.length := by omega
    have hr0 : ruleAt rule 0 = cur := by
      have hle : ruleAt rule 0 ≤ cur := by
        by_contra hc
        rcases hrest with h | h
        · have := hq.1 0 hk
          rw [hlen, h] at this
          simp only [List.length_nil] at this
          omega
        · have hd := hq.2.2.1 0 hk cur (by
            rw [hlen]
            have := hq.1 0 hk
            rw [hlen] at this
            omega) (by omega) (by omega)
          have := hright 0
          rw [Nat.zero_add] at this
          rw [this] at hd
          exact hd h
      have hge : cur ≤ ruleAt rule 0 := by
        by_contra hc
        have := hq.no_touch hk
        rw [hq0, Nat.zero_add] at this
        exact this (hsol _ (by omega))
      omega
    obtain ⟨a, rule', hrule⟩ : ∃ a rule', rule = a :: rule' := by
      cases rule with
      | nil => simp at hk
      | cons a l => exact ⟨a, l, rfl⟩
    subst hrule
    rw [ruleAt_cons_zero] at hr0
    subst hr0
    have hge : ∀ i, i < rule'.length → a + 1 ≤ q (i + 1) := by
      intro i hi
      have := hq.mono (b := 0) (c := i + 1) (by omega) (by simp only [List.length_cons]; omega)
      rw [hq0, ruleAt_cons_zero] at this
      omega
    refine ⟨rule', rfl, fun i => q (i + 1) - (a + 1), ?_, ?_, ?_, ?_⟩
    · intro i hi
      have := hq.1 (i + 1) (by simp only [List.length_cons]; omega)
      rw [hlen, ruleAt_cons_succ] at this
      have := hge i hi
      rw [htail]
      show q (i + 1) - (a + 1) + ruleAt rule' i ≤ rest.length - 1
      omega
    · intro i hi hi2
      have := hq.2.1 (i + 1) (by simp only [List.length_cons]; omega)
        (by simp only [List.length_cons]; omega)
      rw [ruleAt_cons_succ] at this
      have := hge i hi
      show q (i + 1) - (a + 1) + ruleAt rule' i + 1 ≤ q (i + 1 + 1) - (a + 1)
      omega
    · intro i hi j hj h1 h2
      have hg := hge i hi
      have h1' : q (i + 1) - (a + 1) ≤ j := h1
      have h2' : j < q (i + 1) - (a + 1) + ruleAt rule' i := h2
      rw [htail] at hj
      have := hq.2.2.1 (i + 1) (by simp only [List.length_cons]; omega) (j + 1 + a)
        (by rw [hlen]; omega) (by omega) (by rw [ruleAt_cons_succ]; omega)
      rw [hright] at this
      rw [cellAt_tail]
      exact this
    · intro j hj hs
      rw [htail] at hj
      rw [cellAt_tail] at hs
      obtain ⟨b', hb', h1, h2⟩ := hq.2.2.2 (j + 1 + a) (by rw [hlen]; omega)
        (by rw [hright]; exact hs)
      cases b' with
      | zero =>
        rw [hq0, ruleAt_cons_zero] at h2
        omega
      | succ i =>
        rw [ruleAt_cons_succ] at h2
        simp only [List.length_cons] at hb'
        have hg := hge i (by omega)
        refine ⟨i, by omega, ?_, ?_⟩
        · show q (i + 1) - (a + 1) ≤ j
          omega
        · show j < q (i + 1) - (a + 1) + ruleAt rule' i
          omega
  · rintro ⟨rule', rfl, q', hq'⟩
    obtain ⟨Q, hQ0, hQs⟩ : ∃ Q : Nat → Nat, Q 0 = 0 ∧ ∀ i, Q (i + 1) = q' i + (cur + 1) :=
      ⟨fun i => if i = 0 then 0 else q' (i - 1) + (cur + 1), rfl, fun i => rfl⟩
    refine ⟨Q, ?_, ?_, ?_, ?_⟩
    · intro i hi
      rw [hlen]
      cases i with
      | zero =>
        rw [ruleAt_cons_zero, hQ0]
        omega
      | succ i =>
        simp only [List.length_cons] at hi
        rw [ruleAt_cons_succ, hQs]
        have := hq'.1 i (by omega)
        rw [htail] at this
        have hp := hpos (i + 1) (by simp only [List.length_cons]; omega)
        rw [ruleAt_cons_succ] at hp
        omega
    · intro i hi hi2
      simp only [List.length_cons] at hi hi2
      cases i with
      | zero =>
        rw [ruleAt_cons_zero, hQ0, hQs]
        omega
      | succ i =>
        rw [ruleAt_cons_succ, hQs, hQs]
        have := hq'.2.1 i (by omega) (by omega)
        omega
    · intro i hi j hj h1 h2
      rw [hlen] at hj
      simp only [List.length_cons] at hi
      cases i with
      | zero =>
        rw [ruleAt_cons_zero, hQ0] at h2
        rw [hsol j (by omega)]
        decide
      | succ i =>
        rw [ruleAt_cons_succ, hQs] at h2
        rw [hQs] at h1
        obtain ⟨j', rfl⟩ : ∃ j', j = j' + 1 + cur := ⟨j - 1 - cur, by omega⟩
        rw [hright, ← cellAt_tail]
        exact hq'.2.2.1 i (by omega) j' (by rw [htail]; omega) (by omega) (by omega)
    · intro j hj hs
      rw [hlen] at hj
      by_cases hjc : j < cur
      · refine ⟨0, by simp, ?_, ?_⟩
        · rw [hQ0]; omega
        · rw [ruleAt_cons_zero, hQ0]
          omega
      · by_cases hje : j = cur
        · subst hje
          exact absurd hs hcurcell
        · obtain ⟨j', rfl⟩ : ∃ j', j = j' + 1 + cur := ⟨j - 1 - cur, by omega⟩
          rw [hright, ← cellAt_tail] at hs
          obtain ⟨i, hi, h1, h2⟩ := hq'.2.2.2 j' (by rw [htail]; omega) hs
          refine ⟨i + 1, by simp only [List.length_cons]; omega, ?_, ?_⟩
          · rw [hQs]; omega
          · rw [ruleAt_cons_succ, hQs]
            omega

theorem runsAux_iff_valid (st : List Nat) (hdet : Determined st) (cur : Nat) (rule : List Nat)
    (hpos : PositiveRule rule) :
    runsAux st cur = rule ↔
      ∃ q, ValidPlacement (List.replicate cur nonogram_SOLID ++ st) rule q := by
  induction st generalizing cur rule with
  | nil =>
    by_cases hc : cur = 0
    · subst hc
      rw [List.replicate_zero, List.nil_append, valid_nil_iff rule hpos]
      simp only [runsAux, if_true]
      exact eq_comm
    · rw [valid_solid_run cur (by omega) [] rule (Or.inl rfl) hpos]
      simp only [runsAux, if_neg hc, List.tail_nil]
      constructor
      · intro h
        exact ⟨[], h.symm, fun _ => 0, by decide⟩
      · rintro ⟨rule', rfl, hq⟩
        rw [(valid_nil_iff rule' (positiveRule_tail hpos)).1 hq]
  | cons c st ih =>
    have hdet' : Determined st := fun x hx => hdet x (List.mem_cons_of_mem _ hx)
    rcases hdet c (List.mem_cons_self _ _) with hcd | hcs
    · subst hcd
      by_cases hc : cur = 0
      · subst hc
        rw [List.replicate_zero, List.nil_append, valid_cons_dot st rule hpos]
        have := ih hdet' 0 rule hpos
        rw [List.replicate_zero, List.nil_append] at this
        rw [← this]
        simp [runsAux]
      · rw [valid_solid_run cur (by omega) (nonogram_DOT :: st) rule
          (Or.inr (cellAt_cons_zero _ _)) hpos, List.tail_cons]
        have hr : runsAux (nonogram_DOT :: st) cur = cur :: runsAux st 0 := by
          simp [runsAux, hc]
        rw [hr]
        constructor
        · intro h
          subst h
          have hp' := positiveRule_tail hpos
          have := (ih hdet' 0 _ hp').1 rfl
          rw [List.replicate_zero, List.nil_append] at this
          exact ⟨_, rfl, this⟩
        · rintro ⟨rule', rfl, hq⟩
          have := ih hdet' 0 rule' (positiveRule_tail hpos)
          rw [List.replicate_zero, List.nil_append] at this
          rw [this.2 hq]
    · subst hcs
      have hr : runsAux (nonogram_SOLID :: st) cur = runsAux st (cur + 1) := by
        simp [runsAux]
      have hl : List.replicate cur nonogram_SOLID ++ nonogram_SOLID :: st
          = List.replicate (cur + 1) nonogram_SOLID ++ st := by
        rw [List.replicate_succ', List.append_assoc]
        rfl
      rw [hr, hl]
      exact ih hdet' (cur + 1) rule hpos

/-- On a line of DOT and SOLID cells a rule of positive blocks has a valid
placement exactly when it is the sequence of the runs of solids. -/
theorem solidRuns_iff_valid (line rule : List Nat) (hdet : Determined line)
    (hpos : PositiveRule rule) :
    solidRuns line = rule ↔ ∃ q, ValidPlacement line rule q := by
  have := runsAux_iff_valid line hdet 0 rule hpos
  rw [List.replicate_zero, List.nil_append] at this
  exact this

/-- The complete suite on a rule that fits the line: the run ends, and
`fits` is zero exactly when the rule has no valid placement. -/
theorem complete_fits_iff (line rule : List Nat) (hL : line.length < 2 ^ 31)
    (hcells : ∀ j, j < line.length → cellAt line j = nonogram_BLANK ∨
      cellAt line j = nonogram_DOT ∨ cellAt line j = nonogram_SOLID)
    (hpos : PositiveRule rule) (hrf : RuleFits line rule) :
    ∃ fits re, complete_run line rule = some (fits, re) ∧
      (fits = 0 ↔ ¬ ∃ q, ValidPlacement line rule q) := by
  have hcells2 : ∀ j, j < line.length → cellAt line j ≤ 2 := by
    intro j hj
    rcases hcells j hj with h | h | h <;> rw [h] <;> decide
  by_cases hblank : ∃ j, j < line.length ∧ cellAt line j = nonogram_BLANK
  · exact complete_fits_blank hL hcells2 hblank hpos hrf
  · have hdet : Determined line := by
      intro c hc
      obtain ⟨j, hj, e⟩ := mem_cellAt hc
      rcases hcells j hj with h | h | h
      · exact absurd ⟨j, hj, h⟩ hblank
      · left; rw [← e, h]
      · right; rw [← e, h]
    have hcnt : line.count nonogram_BLANK = 0 := by
      rw [List.count_eq_zero]
      intro hmem
      obtain ⟨j, hj, e⟩ := mem_cellAt hmem
      exact hblank ⟨j, hj, e⟩
    have hc4 := nonogram_checkline_determined rule line hdet
    have hsv := solidRuns_iff_valid line rule hdet hpos
    unfold complete_run complete_init
    simp only [hcnt]
    rw [if_pos (by decide)]
    simp only []
    refine ⟨_, _, rfl, ?_⟩
    by_cases h0 : nonogram_checkline rule line = 0
    · rw [if_pos (by simpa using h0)]
      constructor
      · intro h; exact absurd h (by decide)
      · intro h; exact absurd (hsv.1 (hc4.1.1 h0)) h
    · rw [if_neg (by simpa using h0)]
      constructor
      · rintro _ hq
        exact h0 (hc4.1.2 (hsv.2 hq))
      · intro _; rfl

/-- C11 fails when the rule does not fit the line: on the one-cell BLANK line
with rule `[3]` the bound `limit[0] = 1 - 3 + 1` wraps around to `2^64 - 1`,
`step` takes cells beyond the end of the line for free cells, and the suite
finishes with `fits = 2` although the rule has no valid placement.  (In
this embedding a read beyond the line yields BLANK and a write beyond the
result buffer is dropped.) -/
theorem complete_rule_too_long :
    PositiveRule [3] ∧ completeLimit 1 [3] 0 = 2 ^ 64 - 1 ∧
    complete_run [nonogram_BLANK] [3] = some (2, [nonogram_BOTH]) ∧
    ¬ ∃ q, ValidPlacement [nonogram_BLANK] [3] q := by
  refine ⟨by decide, by decide, by decide, ?_⟩
  rintro ⟨q, hq⟩
  have := hq.1 0 (by decide)
  simp [ruleAt] at this

theorem decode_safeChar (u : Nat) (hu : u < 64) : decode_char (safeChar u) = (u : Int) := by
  have h : ∀ i : Fin 64, decode_char (safeChar i) = ((i : Nat) : Int) := by decide
  exact h ⟨u, hu⟩

theorem key_safeChar (u : Nat) (hu : u < 64) : toUnsigned (decode_char (safeChar u)) = u := by
  rw [decode_safeChar u hu]
  unfold toUnsigned
  have : ((u : Int) % 2 ^ 32) = (u : Int) := Int.emod_eq_of_lt (by omega) (by omega)
  rw [this]
  simp

theorem or_mark20 : ∀ a, a < 16 → a ||| 0x20 = a + 32 := by decide

theorem or_mark30 : ∀ a, a < 8 → a ||| 0x30 = a + 48 := by decide

theorem or_mark38 : ∀ a, a < 4 → a ||| 0x38 = a + 56 := by decide

theorem or_mark3c : ∀ a, a < 2 → a ||| 0x3c = a + 60 := by decide

theorem and_mark20 : ∀ a, a < 16 → (a + 32) &&& 0x30 = 0x20 ∧ (a + 32) &&& 0xf = a := by decide

theorem and_mark30 : ∀ a, a < 8 → (a + 48) &&& 0x7 = a := by decide

theorem and_mark38 : ∀ a, a < 4 → (a + 56) &&& 0x3 = a := by decide

theorem and_mark3c : ∀ a, a < 2 → (a + 60) &&& 0x1 = a := by decide

theorem and_mark00 : ∀ a, a < 32 → a &&& 0x1f = a := by decide

theorem shift_or (r y : Nat) (hr : r < 2 ^ 28) (hy : y < 16) :
    ((r <<< 4) % 2 ^ 32) ||| y = r * 16 + y := by
  rw [Nat.shiftLeft_eq, Nat.mod_eq_of_lt (by omega)]
  have := Nat.mul_add_lt_is_or (show y < 2 ^ 4 by omega) r
  rw [Nat.mul_comm r, ← this]

theorem lenDigits_length (v : Nat) : 1 ≤ (lenDigits v).length ∧ (lenDigits v).length ≤ 4 := by
  unfold lenDigits
  split_ifs <;> simp

theorem shr_and (v k m : Nat) : (v >>> k) &&& (2 ^ m - 1) = v / 2 ^ k % 2 ^ m := by
  rw [Nat.and_pow_two_sub_one_eq_mod, Nat.shiftRight_eq_div_pow]

theorem encode_len_spec (W : List Char) (R v : Nat) (hR : (lenDigits v).length ≤ R) :
    encode_len { isNull := false, written := W, rem := R } v =
      (0, { isNull := false, written := W ++ (lenDigits v).map safeChar,
            rem := R - (lenDigits v).length }) := by
  have e1 : (v >>> 12) &&& 1 = v / 4096 % 2 := by
    rw [Nat.and_one_is_mod, Nat.shiftRight_eq_div_pow]
  have e2 : (v >>> 8) &&& 15 = v / 256 % 16 := shr_and v 8 4
  have e3 : (v >>> 4) &&& 15 = v / 16 % 16 := shr_and v 4 4
  have e4 : v &&& 15 = v % 16 := Nat.and_pow_two_sub_one_eq_mod v 4
  have e5 : (v >>> 8) &&& 3 = v / 256 % 4 := shr_and v 8 2
  have e6 : (v >>> 4) &&& 7 = v / 16 % 8 := shr_and v 4 3
  have e7 : v &&& 31 = v % 32 := Nat.and_pow_two_sub_one_eq_mod v 5
  unfold encode_len lenDigits at *
  by_cases h1 : v > 1023
  · simp only [h1, if_true] at hR ⊢
    simp only [List.length_cons, List.length_nil] at hR
    rw [if_neg (by simp), if_neg (by simp; omega)]
    simp only [encodeLoop, Nat.shiftRight_zero, e1, e2, e3, e4, Nat.reduceMul, List.append_assoc,
      List.singleton_append, List.map_cons, List.map_nil, List.length_cons, List.length_nil,
      List.cons_append, List.nil_append]
    rw [or_mark3c _ (Nat.mod_lt _ (by decide)), or_mark20 _ (Nat.mod_lt _ (by decide)),
      or_mark20 _ (Nat.mod_lt _ (by decide)), or_mark20 _ (Nat.mod_lt _ (by decide))]
    congr 2
  · by_cases h2 : v > 127
    · simp only [h1, h2, if_true, if_false] at hR ⊢
      simp only [List.length_cons, List.length_nil] at hR
      rw [if_neg (by simp), if_neg (by simp; omega)]
      simp only [encodeLoop, Nat.shiftRight_zero, e5, e3, e4, Nat.reduceMul, List.append_assoc,
        List.singleton_append, List.map_cons, List.map_nil, List.length_cons, List.length_nil,
        List.cons_append, List.nil_append]
      rw [or_mark38 _ (Nat.mod_lt _ (by decide)), or_mark20 _ (Nat.mod_lt _ (by decide)),
        or_mark20 _ (Nat.mod_lt _ (by decide))]
      congr 2
    · by_cases h3 : v > 31
      · simp only [h1, h2, h3, if_true, if_false] at hR ⊢
        simp only [List.length_cons, List.length_nil] at hR
        rw [if_neg (by simp), if_neg (by simp; omega)]
        simp only [encodeLoop, Nat.shiftRight_zero, e6, e4, Nat.reduceMul, List.append_assoc,
          List.singleton_append, List.map_cons, List.map_nil, List.length_cons, List.length_nil,
          List.cons_append, List.nil_append]
        rw [or_mark30 _ (Nat.mod_lt _ (by decide)), or_mark20 _ (Nat.mod_lt _ (by decide))]
        congr 2
      · simp only [h1, h2, h3, if_true, if_false] at hR ⊢
        simp only [List.length_cons, List.length_nil] at hR
        rw [if_neg (by simp), if_neg (by simp; omega)]
        simp only [encodeLoop, Nat.shiftRight_zero, e7, Nat.reduceMul, List.append_assoc,
          List.singleton_append, List.map_cons, List.map_nil, List.length_cons, List.length_nil,
          List.cons_append, List.nil_append, Nat.or_zero]
        rw [Nat.mod_eq_of_lt (by omega)]

theorem decode_len_spec4 (v : Nat) (h1 : v > 1023) (hv : v ≤ 8191) (rest : List Char) (R : Nat)
    (hR : (lenDigits v).length ≤ R) (vp0 : Nat) :
    decode_len { data := (lenDigits v).map safeChar ++ rest, rem := R } vp0 =
      .ret (0, { data := rest, rem := R - (lenDigits v).length }, v) := by
  unfold lenDigits at *
  simp only [h1, if_true] at hR ⊢
  simp only [List.length_cons, List.length_nil] at hR
  have ha : v / 4096 % 2 < 2 := Nat.mod_lt _ (by decide)
  have hb : v / 256 % 16 < 16 := Nat.mod_lt _ (by decide)
  have hc : v / 16 % 16 < 16 := Nat.mod_lt _ (by decide)
  have hd : v % 16 < 16 := Nat.mod_lt _ (by decide)
  have k0 := key_safeChar (v / 4096 % 2 + 60) (by omega)
  have k1 := key_safeChar (v / 256 % 16 + 32) (by omega)
  have k2 := key_safeChar (v / 16 % 16 + 32) (by omega)
  have k3 := key_safeChar (v % 16 + 32) (by omega)
  have d0 := decode_safeChar (v / 4096 % 2 + 60) (by omega)
  rw [d0] at k0
  unfold decode_len
  simp only [inAt, List.map_cons, List.map_nil, List.cons_append, List.nil_append,
    List.getD_cons_zero, List.getD_cons_succ, k0, d0]
  have c1 : ¬ (R = 0) := by omega
  have c2 : ¬ (((v / 4096 % 2 + 60 : Nat) : Int) < 0) := by omega
  have c3 : v / 4096 % 2 + 60 < 64 := by omega
  have c4 : ¬ (v / 4096 % 2 + 60 ≥ 0x3e) := by omega
  have c5 : v / 4096 % 2 + 60 ≥ 0x3c := by omega
  have c6 : ¬ (4 > R) := by omega
  simp only [c1, c2, c3, c4, c5, c6, if_true, if_false, not_true_eq_false, not_false_eq_true]
  simp only [decodeCont, inAt, List.getD_cons_zero, List.getD_cons_succ, k1, k2, k3,
    (and_mark20 _ hb).1, (and_mark20 _ hb).2, (and_mark20 _ hc).1, (and_mark20 _ hc).2,
    (and_mark20 _ hd).1, (and_mark20 _ hd).2, and_mark3c _ ha, ne_eq, not_true_eq_false,
    if_false]
  rw [shift_or _ _ (by omega) hb, shift_or _ _ (by omega) hc, shift_or _ _ (by omega) hd]
  simp only [List.drop_succ_cons, List.drop_zero, List.length_cons, List.length_nil]
  congr 4
  omega

theorem decode_len_spec3 (v : Nat) (h1 : ¬ v > 1023) (h2 : v > 127) (rest : List Char) (R : Nat)
    (hR : (lenDigits v).length ≤ R) (vp0 : Nat) :
    decode_len { data := (lenDigits v).map safeChar ++ rest, rem := R } vp0 =
      .ret (0, { data := rest, rem := R - (lenDigits v).length }, v) := by
  unfold lenDigits at *
  simp only [h1, h2, if_true, if_false] at hR ⊢
  simp only [List.length_cons, List.length_nil] at hR
  have ha : v / 256 % 4 < 4 := Nat.mod_lt _ (by decide)
  have hc : v / 16 % 16 < 16 := Nat.mod_lt _ (by decide)
  have hd : v % 16 < 16 := Nat.mod_lt _ (by decide)
  have k0 := key_safeChar (v / 256 % 4 + 56) (by omega)
  have k2 := key_safeChar (v / 16 % 16 + 32) (by omega)
  have k3 := key_safeChar (v % 16 + 32) (by omega)
  have d0 := decode_safeChar (v / 256 % 4 + 56) (by omega)
  rw [d0] at k0
  unfold decode_len
  simp only [inAt, List.map_cons, List.map_nil, List.cons_append, List.nil_append,
    List.getD_cons_zero, List.getD_cons_succ, k0, d0]
  have c1 : ¬ (R = 0) := by omega
  have c2 : ¬ (((v / 256 % 4 + 56 : Nat) : Int) < 0) := by omega
  have c3 : v / 256 % 4 + 56 < 64 := by omega
  have c4 : ¬ (v / 256 % 4 + 56 ≥ 0x3e) := by omega
  have c5 : ¬ (v / 256 % 4 + 56 ≥ 0x3c) := by omega
  have c5' : v / 256 % 4 + 56 ≥ 0x38 := by omega
  have c6 : ¬ (3 > R) := by omega
  simp only [c1, c2, c3, c4, c5, c5', c6, if_true, if_false, not_true_eq_false,
    not_false_eq_true]
  simp only [decodeCont, inAt, List.getD_cons_zero, List.getD_cons_succ, k2, k3,
    (and_mark20 _ hc).1, (and_mark20 _ hc).2,
    (and_mark20 _ hd).1, (and_mark20 _ hd).2, and_mark38 _ ha, ne_eq, not_true_eq_false,
    if_false]
  rw [shift_or _ _ (by omega) hc, shift_or _ _ (by omega) hd]
  simp only [List.drop_succ_cons, List.drop_zero, List.length_cons, List.length_nil]
  congr 4
  omega

theorem decode_len_spec2 (v : Nat) (h1 : ¬ v > 1023) (h2 : ¬ v > 127) (h3 : v > 31) (rest : List Char) (R : Nat)
    (hR : (lenDigits v).length ≤ R) (vp0 : Nat) :
    decode_len { data := (lenDigits v).map safeChar ++ rest, rem := R } vp0 =
      .ret (0, { data := rest, rem := R - (lenDigits v).length }, v) := by
  unfold lenDigits at *
  simp only [h1, h2, h3, if_true, if_false] at hR ⊢
  simp only [List.length_cons, List.length_nil] at hR
  have ha : v / 16 % 8 < 8 := Nat.mod_lt _ (by decide)
  have hd : v % 16 < 16 := Nat.mod_lt _ (by decide)
  have k0 := key_safeChar (v / 16 % 8 + 48) (by omega)
  have k3 := key_safeChar (v % 16 + 32) (by omega)
  have d0 := decode_safeChar (v / 16 % 8 + 48) (by omega)
  rw [d0] at k0
  unfold decode_len
  simp only [inAt, List.map_cons, List.map_nil, List.cons_append, List.nil_append,
    List.getD_cons_zero, List.getD_cons_succ, k0, d0]
  have c1 : ¬ (R = 0) := by omega
  have c2 : ¬ (((v / 16 % 8 + 48 : Nat) : Int) < 0) := by omega
  have c3 : v / 16 % 8 + 48 < 64 := by omega
  have c4 : ¬ (v / 16 % 8 + 48 ≥ 0x3e) := by omega
  have c5 : ¬ (v / 16 % 8 + 48 ≥ 0x3c) := by omega
  have c5' : ¬ (v / 16 % 8 + 48 ≥ 0x38) := by omega
  have c5'' : v / 16 % 8 + 48 ≥ 0x30 := by omega
  have c6 : ¬ (2 > R) := by omega
  simp only [c1, c2, c3, c4, c5, c5', c5'', c6, if_true, if_false, not_true_eq_false,
    not_false_eq_true]
  simp only [decodeCont, inAt, List.getD_cons_zero, List.getD_cons_succ, k3,
    (and_mark20 _ hd).1, (and_mark20 _ hd).2, and_mark30 _ ha, ne_eq, not_true_eq_false,
    if_false]
  rw [shift_or _ _ (by omega) hd]
  simp only [List.drop_succ_cons, List.drop_zero, List.length_cons, List.length_nil]
  congr 4
  omega

theorem decode_len_spec1 (v : Nat) (h1 : ¬ v > 1023) (h2 : ¬ v > 127) (h3 : ¬ v > 31) (rest : List Char) (R : Nat)
    (hR : (lenDigits v).length ≤ R) (vp0 : Nat) :
    decode_len { data := (lenDigits v).map safeChar ++ rest, rem := R } vp0 =
      .ret (0, { data := rest, rem := R - (lenDigits v).length }, v) := by
  unfold lenDigits at *
  simp only [h1, h2, h3, if_true, if_false] at hR ⊢
  simp only [List.length_cons, List.length_nil] at hR
  have k0 := key_safeChar v (by omega)
  have d0 := decode_safeChar v (by omega)
  rw [d0] at k0
  unfold decode_len
  simp only [inAt, List.map_cons, List.map_nil, List.cons_append, List.nil_append,
    List.getD_cons_zero, List.getD_cons_succ, k0, d0]
  have c1 : ¬ (R = 0) := by omega
  have c2 : ¬ (((v : Nat) : Int) < 0) := by omega
  have c3 : v < 64 := by omega
  have c4 : ¬ (v ≥ 0x3e) := by omega
  have c5 : ¬ (v ≥ 0x3c) := by omega
  have c5' : ¬ (v ≥ 0x38) := by omega
  have c5'' : ¬ (v ≥ 0x30) := by omega
  have c6 : ¬ (1 > R) := by omega
  simp only [c1, c2, c3, c4, c5, c5', c5'', c6, if_true, if_false, not_true_eq_false,
    not_false_eq_true]
  simp only [decodeCont, and_mark00 _ (show v < 32 by omega), List.drop_succ_cons,
    List.drop_zero, List.length_cons, List.length_nil, Nat.sub_self]

theorem decode_len_spec (v : Nat) (hv : v ≤ 8191) (rest : List Char) (R : Nat)
    (hR : (lenDigits v).length ≤ R) (vp0 : Nat) :
    decode_len { data := (lenDigits v).map safeChar ++ rest, rem := R } vp0 =
      .ret (0, { data := rest, rem := R - (lenDigits v).length }, v) := by
  by_cases h1 : v > 1023
  · exact decode_len_spec4 v h1 hv rest R hR vp0
  · by_cases h2 : v > 127
    · exact decode_len_spec3 v h1 h2 rest R hR vp0
    · by_cases h3 : v > 31
      · exact decode_len_spec2 v h1 h2 h3 rest R hR vp0
      · exact decode_len_spec1 v h1 h2 h3 rest R hR vp0

theorem ruleChars_length (r : List Nat) :
    r.length + 1 ≤ (ruleChars r).length ∧ (ruleChars r).length ≤ 4 * (r.length + 1) := by
  induction r with
  | nil => simp [ruleChars]
  | cons b bs ih =>
    have := lenDigits_length (b % 2 ^ 32)
    simp only [ruleChars, List.length_append, List.length_map, List.length_cons]
    omega

theorem linesChars_length (rs : List (List Nat)) :
    (linesChars rs).length ≤ 4 * (rs.map (fun r => r.length + 1)).sum := by
  induction rs with
  | nil => simp [linesChars]
  | cons r rs ih =>
    have := (ruleChars_length r).2
    simp only [linesChars, List.length_append, List.map_cons, List.sum_cons]
    omega

theorem lenDigits_zero : lenDigits 0 = [0] := by decide

theorem encodeRule_spec (r : List Nat) (hr : ∀ b ∈ r, b ≠ 0) (W : List Char) (R : Nat)
    (hR : (ruleChars r).length ≤ R) :
    encodeRule { isNull := false, written := W, rem := R } r =
      .ret (0, { isNull := false, written := W ++ ruleChars r,
                 rem := R - (ruleChars r).length }) := by
  induction r generalizing W R with
  | nil =>
    have h := encode_len_spec W R 0 (by rw [lenDigits_zero]; simpa [ruleChars] using hR)
    simp only [encodeRule, h, lenDigits_zero, ruleChars]
    simp
  | cons b bs ih =>
    have hb : b ≠ 0 := hr b (List.mem_cons_self _ _)
    have hl := lenDigits_length (b % 2 ^ 32)
    simp only [ruleChars, List.length_append, List.length_map] at hR
    have h := encode_len_spec W R (b % 2 ^ 32) (by omega)
    simp only [encodeRule, if_neg hb, h]
    rw [if_neg (by decide)]
    rw [ih (fun x hx => hr x (List.mem_cons_of_mem _ hx)) _ _ (by omega)]
    simp only [ruleChars, List.append_assoc, List.length_append, List.length_map]
    rw [Nat.sub_sub]

theorem encodeLines_spec (rs : List (List Nat)) (hr : ∀ r ∈ rs, ∀ b ∈ r, b ≠ 0)
    (W : List Char) (R : Nat) (hR : (linesChars rs).length ≤ R) :
    encodeLines { isNull := false, written := W, rem := R } rs =
      .ret (0, { isNull := false, written := W ++ linesChars rs,
                 rem := R - (linesChars rs).length }) := by
  induction rs generalizing W R with
  | nil => simp [encodeLines, linesChars]
  | cons r rs ih =>
    simp only [linesChars, List.length_append] at hR
    have h := encodeRule_spec r (hr r (List.mem_cons_self _ _)) W R (by omega)
    simp only [encodeLines, h]
    rw [if_neg (by decide)]
    rw [ih (fun x hx => hr x (List.mem_cons_of_mem _ hx)) _ _ (by omega)]
    simp only [linesChars, List.append_assoc, List.length_append]
    rw [Nat.sub_sub]

theorem decodeRule_spec (r : List Nat) (hr : ∀ b ∈ r, 1 ≤ b ∧ b ≤ 8191) (acc : List Nat)
    (rest : List Char) (R f : Nat) (hR : (ruleChars r).length ≤ R) (hf : r.length + 1 ≤ f) :
    decodeRule f { data := ruleChars r ++ rest, rem := R } acc =
      .ret (0, { data := rest, rem := R - (ruleChars r).length }, acc ++ r) := by
  induction r generalizing acc R f with
  | nil =>
    obtain ⟨f, rfl⟩ : ∃ g, f = g + 1 := ⟨f - 1, by simp at hf; omega⟩
    have h := decode_len_spec 0 (by decide) rest R
      (by rw [lenDigits_zero]; simpa [ruleChars] using hR) 0
    rw [lenDigits_zero] at h
    simp only [List.map_cons, List.map_nil, List.singleton_append] at h
    simp only [decodeRule, ruleChars, List.singleton_append, h]
    simp
  | cons b bs ih =>
    obtain ⟨f, rfl⟩ : ∃ g, f = g + 1 := ⟨f - 1, by simp at hf; omega⟩
    obtain ⟨hb1, hb2⟩ := hr b (List.mem_cons_self _ _)
    have hbm : b % 2 ^ 32 = b := Nat.mod_eq_of_lt (by omega)
    have hl := lenDigits_length b
    simp only [ruleChars, hbm, List.length_append, List.length_map] at hR
    have h := decode_len_spec b hb2 (ruleChars bs ++ rest) R (by omega) 0
    simp only [decodeRule, ruleChars, hbm, List.append_assoc, h]
    rw [if_neg (by decide), if_pos (by omega)]
    simp only [List.length_cons] at hf
    rw [ih (fun x hx => hr x (List.mem_cons_of_mem _ hx)) _ _ _ (by omega) (by omega)]
    simp only [List.append_assoc, List.singleton_append, List.length_append, List.length_map]
    rw [Nat.sub_sub]

theorem decodeLines_spec (rs : List (List Nat)) (hr : ∀ r ∈ rs, ∀ b ∈ r, 1 ≤ b ∧ b ≤ 8191)
    (rest : List Char) (R : Nat) (hR : (linesChars rs).length ≤ R) :
    decodeLines { data := linesChars rs ++ rest, rem := R } (List.replicate rs.length []) =
      .ret (0, { data := rest, rem := R - (linesChars rs).length }, rs) := by
  induction rs generalizing R with
  | nil => simp [decodeLines, linesChars]
  | cons r rs ih =>
    simp only [linesChars, List.length_append] at hR
    have hl := ruleChars_length r
    have h := decodeRule_spec r (hr r (List.mem_cons_self _ _)) [] (linesChars rs ++ rest) R
      (R + 1) (by omega) (by omega)
    simp only [decodeLines, List.length_cons, List.replicate_succ, linesChars,
      List.append_assoc, h]
    rw [if_neg (by decide)]
    rw [ih (fun x hx => hr x (List.mem_cons_of_mem _ hx)) _ (by omega)]
    simp only [List.nil_append, List.length_append]
    rw [Nat.sub_sub]

/-- The codec of puzzles: encoding into a buffer of at least four characters
per block and per line succeeds, and decoding the characters written into a
puzzle of the same size with empty rules yields the rules encoded, provided
every block is between 1 and 8191. -/
theorem puzzle_codec (p : Puzzle)
    (hblocks : ∀ r ∈ p.col ++ p.row, ∀ b ∈ r, 1 ≤ b ∧ b ≤ 8191) (R : Nat)
    (hR : 4 * ((p.col ++ p.row).map (fun r => r.length + 1)).sum ≤ R) :
    ∃ s, nonocache_encodepuzzle { isNull := false, written := [], rem := R } p =
        .ret (0, { isNull := false, written := s, rem := R - s.length }) ∧
      nonocache_decodepuzzle { data := s, rem := s.length }
          (emptyPuzzle p.col.length p.row.length) =
        .ret (0, { data := [], rem := 0 }, p) := by
  have hc : ∀ r ∈ p.col, ∀ b ∈ r, 1 ≤ b ∧ b ≤ 8191 :=
    fun r hr => hblocks r (List.mem_append_left _ hr)
  have hw : ∀ r ∈ p.row, ∀ b ∈ r, 1 ≤ b ∧ b ≤ 8191 :=
    fun r hr => hblocks r (List.mem_append_right _ hr)
  have l1 := linesChars_length p.col
  have l2 := linesChars_length p.row
  simp only [List.map_append, List.sum_append] at hR
  refine ⟨linesChars p.col ++ linesChars p.row, ?_, ?_⟩
  · unfold nonocache_encodepuzzle
    have h1 := encodeLines_spec p.col (fun r hr b hb => by have := (hc r hr b hb).1; omega)
      [] R (by omega)
    simp only [h1]
    rw [if_neg (by decide)]
    rw [encodeLines_spec p.row (fun r hr b hb => by have := (hw r hr b hb).1; omega)
      _ _ (by omega)]
    simp only [List.nil_append, List.length_append]
    rw [Nat.sub_sub]
  · unfold nonocache_decodepuzzle emptyPuzzle
    have h1 := decodeLines_spec p.col hc (linesChars p.row)
      (linesChars p.col ++ linesChars p.row).length (by simp)
    simp only [h1]
    rw [if_neg (by decide)]
    have h2 := decodeLines_spec p.row hw []
      ((linesChars p.col ++ linesChars p.row).length - (linesChars p.col).length) (by simp)
    rw [List.append_nil] at h2
    simp only [h2]
    simp

theorem linesChars_append (a b : List (List Nat)) :
    linesChars (a ++ b) = linesChars a ++ linesChars b := by
  induction a with
  | nil => rfl
  | cons r rs ih =>
    show ruleChars r ++ linesChars (rs ++ b) = (ruleChars r ++ linesChars rs) ++ linesChars b
    rw [ih, List.append_assoc]

theorem decode_len_overlong (rest : List Char) (R : Nat) (hR : 4 ≤ R) (vp0 : Nat) :
    decode_len { data := safeChar 60 :: safeChar 32 :: safeChar 32 :: safeChar 32 :: rest,
                 rem := R } vp0 =
      .ret (0, { data := rest, rem := R - 4 }, 0) := by
  have k0 := key_safeChar 60 (by decide)
  have k1 := key_safeChar 32 (by decide)
  have d0 := decode_safeChar 60 (by decide)
  rw [d0] at k0
  unfold decode_len
  simp only [inAt, List.getD_cons_zero, List.getD_cons_succ, k0, d0]
  have c1 : ¬ (R = 0) := by omega
  have c6 : ¬ (4 > R) := by omega
  simp only [c1, c6, if_true, if_false, not_true_eq_false, not_false_eq_true, Nat.cast_ofNat,
    show ¬ ((60 : Int) < 0) by decide, show (60 : Nat) < 64 by decide,
    show ¬ ((60 : Nat) ≥ 0x3e) by decide, show (60 : Nat) ≥ 0x3c by decide]
  simp only [decodeCont, inAt, List.getD_cons_zero, List.getD_cons_succ, k1]
  simp only [show (32 : Nat) &&& 0x30 = 0x20 by decide, ne_eq, not_true_eq_false, if_false,
    show (60 : Nat) &&& 0x1 = 0 by decide, show (32 : Nat) &&& 0xf = 0 by decide,
    show ((0 : Nat) <<< 4) % 2 ^ 32 ||| 0 = 0 by decide]
  simp only [List.drop_succ_cons, List.drop_zero]

theorem decodeLines_overlong (rest : List Char) (R : Nat) (hR : 4 ≤ R) :
    decodeLines { data := safeChar 60 :: safeChar 32 :: safeChar 32 :: safeChar 32 :: rest,
                  rem := R } [[]] =
      .ret (0, { data := rest, rem := R - 4 }, [[]]) := by
  simp only [decodeLines, decodeRule]
  rw [decode_len_overlong _ _ hR]
  simp only []
  rw [if_neg (by decide), if_neg (by simp)]
  simp only []
  rw [if_neg (by decide)]

/-- A column block of 8192 on top of `n + 1` rows `[1]`: the encoder succeeds,
and the decoder succeeds as well but reads the block as the terminator of the
column rule, so every later rule is shifted by one line. -/
theorem overlong_block (n R : Nat) (hR : 8 * n + 16 ≤ R) :
    ∃ s, nonocache_encodepuzzle { isNull := false, written := [], rem := R }
          { col := [[8192]], row := List.replicate (n + 1) [1] } =
        .ret (0, { isNull := false, written := s, rem := R - s.length }) ∧
      nonocache_decodepuzzle { data := s, rem := s.length } (emptyPuzzle 1 (n + 1)) =
        .ret (0, { data := [safeChar 1, safeChar 0], rem := 2 },
          { col := [[]], row := [] :: List.replicate n [1] }) := by
  have hrows : ∀ r ∈ List.replicate (n + 1) [1], ∀ b ∈ r, b ≠ 0 := by
    intro r hr b hb
    rw [List.eq_of_mem_replicate hr] at hb
    simp at hb
    omega
  have hrows' : ∀ r ∈ ([] : List Nat) :: List.replicate n [1], ∀ b ∈ r, 1 ≤ b ∧ b ≤ 8191 := by
    intro r hr b hb
    rcases List.mem_cons.1 hr with h | h
    · rw [h] at hb; simp at hb
    · rw [List.eq_of_mem_replicate h] at hb
      simp at hb
      omega
  have hcol : ∀ r ∈ [[8192]], ∀ b ∈ r, b ≠ 0 := by
    intro r hr b hb
    simp at hr
    rw [hr] at hb
    simp at hb
    omega
  have lrow := linesChars_length (List.replicate (n + 1) [1])
  have lcol := linesChars_length [[8192]]
  simp only [List.map_replicate, List.sum_replicate, List.length_cons, List.length_nil,
    smul_eq_mul, List.map_cons, List.map_nil, List.sum_cons, List.sum_nil] at lrow lcol
  have hd8 : lenDigits (8192 % 2 ^ 32) = [60, 32, 32, 32] := by decide
  have hd1 : lenDigits (1 % 2 ^ 32) = [1] := by decide
  have hc8 : linesChars [[8192]] =
      [safeChar 60, safeChar 32, safeChar 32, safeChar 32, safeChar 0] := by
    simp only [linesChars, ruleChars, hd8, List.map_cons, List.map_nil, List.append_nil,
      List.cons_append, List.nil_append]
  have hsplit : linesChars (List.replicate (n + 1) [1]) =
      linesChars (List.replicate n [1]) ++ [safeChar 1, safeChar 0] := by
    rw [List.replicate_succ', linesChars_append]
    simp only [linesChars, ruleChars, hd1, List.map_cons, List.map_nil, List.append_nil,
      List.cons_append, List.nil_append]
  refine ⟨linesChars [[8192]] ++ linesChars (List.replicate (n + 1) [1]), ?_, ?_⟩
  · unfold nonocache_encodepuzzle
    have h1 := encodeLines_spec [[8192]] hcol [] R (by omega)
    simp only [h1]
    rw [if_neg (by decide)]
    rw [encodeLines_spec _ hrows _ _ (by omega)]
    simp only [List.nil_append, List.length_append]
    rw [Nat.sub_sub]
  · unfold nonocache_decodepuzzle emptyPuzzle
    rw [hc8, hsplit]
    simp only [List.replicate_one, List.cons_append]
    rw [decodeLines_overlong _ _ (by simp)]
    simp only []
    rw [if_neg (by decide)]
    have h2 := decodeLines_spec (([] : List Nat) :: List.replicate n [1]) hrows'
      [safeChar 1, safeChar 0]
      ((linesChars (([] : List Nat) :: List.replicate n [1])).length + 2) (by omega)
    simp only [List.length_cons, List.length_replicate, linesChars, ruleChars,
      List.singleton_append, List.cons_append, List.length_append, List.nil_append] at h2
    simp only [List.length_cons, List.length_append, List.length_nil, List.nil_append]
    have e : (linesChars (List.replicate n [1])).length + (0 + 1 + 1) + 1 + 1 + 1 + 1 + 1 - 4
        = (linesChars (List.replicate n [1])).length + 1 + 2 := by omega
    rw [e, h2]
    simp

/-- C16 as stated fails for blocks longer than 8191, which `encode_len` cannot
represent: for the valid puzzle of width 1 and height 8192 whose column rule
is `[8192]` and whose row rules are all `[1]`, encoding succeeds, and decoding
succeeds too but yields the empty column rule and shifted row rules. -/
theorem puzzle_codec_counterexample :
    (∀ r ∈ ([[8192]] : List (List Nat)) ++ List.replicate 8192 [1], ∀ b ∈ r, 0 < b) ∧
    ∃ s, nonocache_encodepuzzle { isNull := false, written := [], rem := 70000 }
          { col := [[8192]], row := List.replicate 8192 [1] } =
        .ret (0, { isNull := false, written := s, rem := 70000 - s.length }) ∧
      nonocache_decodepuzzle { data := s, rem := s.length } (emptyPuzzle 1 8192) =
        .ret (0, { data := [safeChar 1, safeChar 0], rem := 2 },
          { col := [[]], row := [] :: List.replicate 8191 [1] }) := by
  refine ⟨?_, overlong_block 8191 70000 (by decide)⟩
  intro r hr b hb
  rcases List.mem_append.1 hr with h | h
  · simp at h
    rw [h] at hb
    simp at hb
    omega
  · rw [List.eq_of_mem_replicate h] at hb
    simp at hb
    omega

/-- C16, amended: for every puzzle all of whose blocks are between 1 and 8191,
`nonocache_encodepuzzle` into a buffer of at least four characters per block
and per line returns 0, and `nonocache_decodepuzzle` of the characters written,
into a puzzle of the same width and height with empty rules, returns 0 with
all characters consumed and with row and column rules equal to those
encoded. -/
theorem puzzle_codec_round_trip (p : Puzzle)
    (hblocks : ∀ r ∈ p.col ++ p.row, ∀ b ∈ r, 1 ≤ b ∧ b ≤ 8191) (R : Nat)
    (hR : 4 * ((p.col ++ p.row).map (fun r => r.length + 1)).sum ≤ R) :
    ∃ s, nonocache_encodepuzzle { isNull := false, written := [], rem := R } p =
        .ret (0, { isNull := false, written := s, rem := R - s.length }) ∧
      nonocache_decodepuzzle { data := s, rem := s.length }
          (emptyPuzzle p.col.length p.row.length) =
        .ret (0, { data := [], rem := 0 }, p) :=
  puzzle_codec p hblocks R hR

theorem puzzle_codec_round_trip_witness :
    (∀ r ∈ ([[2], [1], [1]] : List (List Nat)) ++ [[1], [2], [1]], ∀ b ∈ r, 1 ≤ b ∧ b ≤ 8191) ∧
    4 * ((([[2], [1], [1]] : List (List Nat)) ++ [[1], [2], [1]]).map (fun (r : List Nat) => r.length + 1)).sum ≤ 48 ∧
    ∃ s, nonocache_encodepuzzle { isNull := false, written := [], rem := 48 }
          { col := [[2], [1], [1]], row := [[1], [2], [1]] } =
        .ret (0, { isNull := false, written := s, rem := 48 - s.length }) ∧
      nonocache_decodepuzzle { data := s, rem := s.length } (emptyPuzzle 3 3) =
        .ret (0, { data := [], rem := 0 }, { col := [[2], [1], [1]], row := [[1], [2], [1]] }) :=
  ⟨by decide, by decide,
    puzzle_codec_round_trip { col := [[2], [1], [1]], row := [[1], [2], [1]] } (by decide) 48
      (by decide)⟩

theorem encodeList_append (a b : List Nat) (s : CellEnc) :
    encodeList (a ++ b) s =
      match encodeList a s with
      | .assertion => .assertion
      | .fuel => .fuel
      | .ret (rc, s1) => if rc < 0 then .ret (rc, s1) else encodeList b s1 := by
  induction a generalizing s with
  | nil => simp [encodeList]
  | cons c cs ih =>
    simp only [List.cons_append, encodeList]
    cases h : encodeCell c s with
    | assertion => rfl
    | fuel => rfl
    | ret r =>
      obtain ⟨rc, s1⟩ := r
      simp only []
      by_cases hrc : rc < 0
      · simp [hrc]
      · simp only [hrc, if_false]
        exact ih s1

theorem encodeCellsX_eq (wid y : Nat) (grid : List Nat) (k x : Nat) (s : CellEnc) :
    encodeCellsX wid y grid k x s =
      encodeList ((List.range k).map (fun t => cellAt grid (x + t + wid * y))) s := by
  induction k generalizing x s with
  | zero => rfl
  | succ k ih =>
    rw [List.range_succ_eq_map, List.map_cons, List.map_map]
    simp only [encodeCellsX, encodeList, Nat.add_zero]
    cases h : encodeCell (cellAt grid (x + wid * y)) s with
    | assertion => rfl
    | fuel => rfl
    | ret r =>
      obtain ⟨rc, s1⟩ := r
      simp only []
      by_cases hrc : rc < 0
      · simp [hrc]
      · simp only [hrc, if_false]
        rw [ih]
        congr 2
        funext t
        simp only [Function.comp]
        congr 1
        omega

theorem encodeCellsY_eq (wid : Nat) (grid : List Nat) (k y : Nat) (s : CellEnc) :
    encodeCellsY wid grid k y s =
      encodeList ((List.range (wid * k)).map (fun j => cellAt grid (wid * y + j))) s := by
  induction k generalizing y s with
  | zero => rfl
  | succ k ih =>
    have e : wid * (k + 1) = wid + wid * k := by rw [Nat.mul_succ, Nat.add_comm]
    rw [e, List.range_add, List.map_append, encodeList_append, List.map_map]
    simp only [encodeCellsY]
    rw [encodeCellsX_eq]
    have e1 : (List.range wid).map (fun t => cellAt grid (0 + t + wid * y)) =
        (List.range wid).map (fun j => cellAt grid (wid * y + j)) := by
      apply List.map_congr_left
      intro t _
      congr 1
      omega
    rw [e1]
    cases h : encodeList ((List.range wid).map (fun j => cellAt grid (wid * y + j))) s with
    | assertion => rfl
    | fuel => rfl
    | ret r =>
      obtain ⟨rc, s1⟩ := r
      simp only []
      by_cases hrc : rc < 0
      · simp [hrc]
      · simp only [hrc, if_false]
        rw [ih]
        congr 2
        funext t
        simp only [Function.comp]
        congr 1
        rw [Nat.mul_succ]
        omega

theorem encodeCellsY_grid (wid hei : Nat) (grid : List Nat) (hlen : grid.length = wid * hei)
    (s : CellEnc) : encodeCellsY wid grid hei 0 s = encodeList grid s := by
  rw [encodeCellsY_eq]
  congr 1
  apply list_eq_of_cellAt
  · simp [hlen]
  · intro j hj
    simp only [List.length_map, List.length_range] at hj
    rw [← hlen] at hj ⊢
    simp only [Nat.mul_zero, Nat.zero_add]
    exact cellAt_range_map grid j hj

theorem shl_one (v : Nat) (hv : v < 2 ^ 31) : (v <<< 1) % 2 ^ 32 = 2 * v := by
  rw [Nat.shiftLeft_eq, Nat.mod_eq_of_lt (by omega)]
  omega

theorem or_one (v : Nat) : (2 * v) ||| 1 = 2 * v + 1 := by
  have := Nat.mul_add_lt_is_or (show 1 < 2 ^ 1 by decide) v
  simpa using this.symm

theorem encodeCell_lt (c : Nat) (hc : c = nonogram_DOT ∨ c = nonogram_SOLID) (s : CellEnc)
    (hg : s.got < 5) (hv : s.v < 32) :
    encodeCell c s = .ret (0, { s with v := 2 * s.v + cellBit c, got := s.got + 1 }) := by
  unfold encodeCell cellBit
  rw [shl_one _ (by omega)]
  rcases hc with rfl | rfl
  · simp only [show ¬ (nonogram_DOT = nonogram_BLANK ∨ nonogram_DOT = nonogram_BOTH) by decide,
      show ¬ (nonogram_DOT = nonogram_SOLID) by decide, if_false]
    rw [if_neg (by omega), if_neg (by omega)]
    rfl
  · simp only [show ¬ (nonogram_SOLID = nonogram_BLANK ∨ nonogram_SOLID = nonogram_BOTH) by decide,
      if_true, if_false, or_one]
    rw [if_neg (by omega), if_neg (by omega)]

theorem encodeCell_six (c : Nat) (hc : c = nonogram_DOT ∨ c = nonogram_SOLID) (s : CellEnc)
    (hg : s.got = 5) (hv : s.v < 32) (hrem : s.o.rem ≠ 0) :
    encodeCell c s =
      .ret (0, { v := 0, got := 0,
                 o := { s.o with written := s.o.written ++ [safeChar (2 * s.v + cellBit c)],
                                 rem := s.o.rem - 1 } }) := by
  unfold encodeCell cellBit
  rw [shl_one _ (by omega)]
  rcases hc with rfl | rfl
  · simp only [show ¬ (nonogram_DOT = nonogram_BLANK ∨ nonogram_DOT = nonogram_BOTH) by decide,
      show ¬ (nonogram_DOT = nonogram_SOLID) by decide, if_false]
    rw [if_neg (by omega), if_pos (by omega), if_neg (by omega), if_neg hrem]
    rfl
  · simp only [show ¬ (nonogram_SOLID = nonogram_BLANK ∨ nonogram_SOLID = nonogram_BOTH) by decide,
      if_true, if_false, or_one]
    rw [if_neg (by omega), if_pos (by omega), if_neg (by omega), if_neg hrem]

theorem cellBit_le (c : Nat) : cellBit c ≤ 1 := by
  unfold cellBit; split_ifs <;> omega

theorem gval_lt (l : List Nat) (v g : Nat) (hv : v < 2 ^ g) : gval v l < 2 ^ (g + l.length) := by
  induction l generalizing v g with
  | nil => simpa [gval] using hv
  | cons c cs ih =>
    have hb := cellBit_le c
    have : 2 * v + cellBit c < 2 ^ (g + 1) := by rw [Nat.pow_succ]; omega
    have := ih _ _ this
    simp only [gval, List.foldl_cons, List.length_cons] at this ⊢
    rw [show g + (cs.length + 1) = g + 1 + cs.length by omega]
    exact this

theorem encodeList_part (l : List Nat) (hc : ∀ c ∈ l, c = nonogram_DOT ∨ c = nonogram_SOLID)
    (s : CellEnc) (hg : s.got + l.length ≤ 5) (hv : s.v < 2 ^ s.got) :
    encodeList l s = .ret (0, { s with v := gval s.v l, got := s.got + l.length }) := by
  induction l generalizing s with
  | nil => simp [encodeList, gval]
  | cons c cs ih =>
    simp only [List.length_cons] at hg
    have hv32 : s.v < 32 := by
      have : (2 : Nat) ^ s.got ≤ 2 ^ 5 := Nat.pow_le_pow_right (by decide) (by omega)
      omega
    simp only [encodeList, encodeCell_lt c (hc c (List.mem_cons_self _ _)) s (by omega) hv32]
    rw [if_neg (by decide)]
    have hb := cellBit_le c
    rw [ih (fun x hx => hc x (List.mem_cons_of_mem _ hx)) _ (by simp only []; omega)
      (by simp only []; rw [Nat.pow_succ]; omega)]
    simp only [gval, List.foldl_cons, List.length_cons]
    congr 3
    omega

theorem packAux_nil (n : Nat) : packAux n [] = [] := by
  cases n <;> simp [packAux]

theorem gval_append (v : Nat) (a b : List Nat) : gval v (a ++ b) = gval (gval v a) b := by
  simp [gval, List.foldl_append]

theorem groupVal_six (t : List Nat) (ht : t.length = 6) : groupVal t = gval 0 t := by
  unfold groupVal
  have := gval_lt t 0 0 (by decide)
  rw [ht] at this ⊢
  simp only [Nat.sub_self, Nat.shiftLeft_zero]
  exact Nat.mod_eq_of_lt (by omega)

theorem groupVal_lt (t : List Nat) (ht : t.length ≤ 6) : groupVal t < 64 := by
  unfold groupVal
  have h := gval_lt t 0 0 (by decide)
  rw [Nat.shiftLeft_eq]
  have h2 : gval 0 t * 2 ^ (6 - t.length) < 2 ^ (0 + t.length) * 2 ^ (6 - t.length) :=
    Nat.mul_lt_mul_of_pos_right h (Nat.two_pow_pos _)
  rw [← Nat.pow_add, show 0 + t.length + (6 - t.length) = 6 by omega] at h2
  rw [Nat.mod_eq_of_lt (by omega)]
  exact h2

theorem split_six (l : List Nat) (hl : 6 ≤ l.length) :
    ∃ a c rest, l = a ++ c :: rest ∧ a.length = 5 ∧ l.take 6 = a ++ [c] ∧ l.drop 6 = rest := by
  match l, hl with
  | c0 :: c1 :: c2 :: c3 :: c4 :: c5 :: rest, _ =>
    exact ⟨[c0, c1, c2, c3, c4], c5, rest, rfl, rfl, rfl, rfl⟩

theorem encode_flat (n : Nat) : ∀ (l : List Nat), l.length ≤ n →
    (∀ c ∈ l, c = nonogram_DOT ∨ c = nonogram_SOLID) → ∀ (W : List Char) (R : Nat),
    (l.length + 5) / 6 ≤ R →
    (packAux n l).length = (l.length + 5) / 6 ∧
    ∃ s, encodeList l { v := 0, got := 0, o := { isNull := false, written := W, rem := R } } =
        .ret (0, s) ∧
      encodeFlush s = .ret (0, { isNull := false, written := W ++ packAux n l,
                                 rem := R - (packAux n l).length }) := by
  induction n with
  | zero =>
    intro l hl _ W R _
    have : l = [] := List.length_eq_zero.1 (by omega)
    subst this
    refine ⟨rfl, _, rfl, ?_⟩
    simp [encodeFlush, packAux]
  | succ n ih =>
    intro l hl hc W R hR
    by_cases hnil : l = []
    · subst hnil
      refine ⟨by simp [packAux], _, rfl, ?_⟩
      simp [encodeFlush, packAux]
    · have hpos : 0 < l.length := List.length_pos.2 hnil
      by_cases h6 : 6 ≤ l.length
      · obtain ⟨a, c, rest, rfl, ha, htake, hdrop⟩ := split_six l h6
        simp only [List.length_append, List.length_cons] at hl hR h6 hpos
        have hca : ∀ x ∈ a, x = nonogram_DOT ∨ x = nonogram_SOLID :=
          fun x hx => hc x (List.mem_append_left _ hx)
        have hcc : c = nonogram_DOT ∨ c = nonogram_SOLID :=
          hc c (List.mem_append_right _ (List.mem_cons_self _ _))
        have hcr : ∀ x ∈ rest, x = nonogram_DOT ∨ x = nonogram_SOLID :=
          fun x hx => hc x (List.mem_append_right _ (List.mem_cons_of_mem _ hx))
        obtain ⟨hlen, s, hs, hflush⟩ := ih rest (by omega) hcr
          (W ++ [safeChar (2 * gval 0 a + cellBit c)]) (R - 1) (by omega)
        have hg6 : groupVal (a ++ [c]) = 2 * gval 0 a + cellBit c := by
          rw [groupVal_six _ (by simp [ha]), gval_append]
          simp [gval]
        have hpack : packAux (n + 1) (a ++ c :: rest) =
            safeChar (2 * gval 0 a + cellBit c) :: packAux n rest := by
          simp only [packAux, if_neg hnil, htake, hdrop, hg6]
        have hva := gval_lt a 0 0 (by decide)
        rw [ha] at hva
        refine ⟨by rw [hpack, List.length_cons, hlen, List.length_append, List.length_cons]; omega,
          s, ?_, ?_⟩
        · rw [encodeList_append, encodeList_part a hca _ (by simp only []; omega)
            (by simp only []; decide)]
          simp only []
          rw [if_neg (by decide)]
          simp only [encodeList]
          rw [encodeCell_six c hcc _ (by simp only []; omega) (by simp only []; omega)
            (by simp only []; omega)]
          simp only []
          rw [if_neg (by decide)]
          exact hs
        · rw [hflush, hpack]
          simp only [List.append_assoc, List.singleton_append, List.length_cons]
          rw [Nat.sub_sub, Nat.add_comm 1]
      · have htake : l.take 6 = l := List.take_of_length_le (by omega)
        have hdrop : l.drop 6 = [] := List.drop_of_length_le (by omega)
        have hpack : packAux (n + 1) l = [safeChar (groupVal l)] := by
          simp only [packAux, if_neg hnil, htake, hdrop, packAux_nil]
        have hgl := groupVal_lt l (by omega)
        refine ⟨by rw [hpack]; simp only [List.length_cons, List.length_nil]; omega,
          _, encodeList_part l hc _ (by simp only []; omega) (by simp only []; decide), ?_⟩
        unfold encodeFlush
        simp only [Nat.zero_add]
        rw [if_neg (by omega), if_pos (by omega)]
        unfold groupVal at hgl hpack
        rw [if_neg (by omega), if_neg (by omega), hpack]
        simp

theorem group_bits (t : List Nat) (ht : t.length ≤ 6)
    (hc : ∀ c ∈ t, c = nonogram_DOT ∨ c = nonogram_SOLID) (p : Nat) (hp : p < t.length) :
    bitCell (groupVal t) (5 - p) = cellAt t p := by
  have key : ∀ (b : List Bool), b.length ≤ 6 → ∀ p, p < b.length →
      bitCell (groupVal (b.map (fun x => if x then nonogram_SOLID else nonogram_DOT))) (5 - p) =
        cellAt (b.map (fun x => if x then nonogram_SOLID else nonogram_DOT)) p := by
    intro b hb p hp
    match b, hb with
    | [], _ => simp at hp
    | [b0], _ =>
      simp only [List.length_cons, List.length_nil] at hp
      interval_cases p
      all_goals (revert b0; decide)
    | [b0, b1], _ =>
      simp only [List.length_cons, List.length_nil] at hp
      interval_cases p
      all_goals (revert b0 b1; decide)
    | [b0, b1, b2], _ =>
      simp only [List.length_cons, List.length_nil] at hp
      interval_cases p
      all_goals (revert b0 b1 b2; decide)
    | [b0, b1, b2, b3], _ =>
      simp only [List.length_cons, List.length_nil] at hp
      interval_cases p
      all_goals (revert b0 b1 b2 b3; decide)
    | [b0, b1, b2, b3, b4], _ =>
      simp only [List.length_cons, List.length_nil] at hp
      interval_cases p
      all_goals (revert b0 b1 b2 b3 b4; decide)
    | [b0, b1, b2, b3, b4, b5], _ =>
      simp only [List.length_cons, List.length_nil] at hp
      interval_cases p
      all_goals (revert b0 b1 b2 b3 b4 b5; decide)
    | _ :: _ :: _ :: _ :: _ :: _ :: _ :: _, h => simp at h
  have e : t = (t.map (fun c => decide (c = nonogram_SOLID))).map
      (fun x => if x then nonogram_SOLID else nonogram_DOT) := by
    rw [List.map_map]
    conv_lhs => rw [← List.map_id t]
    apply List.map_congr_left
    intro c hcm
    rcases hc c hcm with rfl | rfl <;> decide
  rw [e]
  exact key _ (by simpa using ht) p (by simpa using hp)

theorem cellAt_take_drop (l : List Nat) (m q : Nat) (hq : q < 6) :
    cellAt ((l.drop m).take 6) q = cellAt l (m + q) := by
  unfold cellAt
  rw [List.getD_eq_getElem?_getD, List.getD_eq_getElem?_getD, List.getElem?_take_of_lt hq,
    List.getElem?_drop]

theorem pack_char (n : Nat) : ∀ (l : List Nat), l.length ≤ n → ∀ k, k < (l.length + 5) / 6 →
    (packAux n l).getD k (Char.ofNat 0) = safeChar (groupVal ((l.drop (6 * k)).take 6)) := by
  induction n with
  | zero =>
    intro l hl k hk
    omega
  | succ n ih =>
    intro l hl k hk
    have hnil : l ≠ [] := by
      intro h
      rw [h] at hk
      simp at hk
    simp only [packAux, if_neg hnil]
    cases k with
    | zero => simp
    | succ k =>
      rw [List.getD_cons_succ, ih (l.drop 6) (by rw [List.length_drop]; omega) k
        (by rw [List.length_drop]; omega), List.drop_drop]
      congr 4
      omega

theorem mul_succ_le {y h : Nat} (w : Nat) (hy : y < h) : y * w + w ≤ h * w := by
  have := Nat.mul_le_mul_right w (show y + 1 ≤ h from hy)
  rw [Nat.succ_mul] at this
  exact this

theorem decodeBits_spec (w h v : Nat) : ∀ (b x y : Nat) (g : List Nat), x < w → y < h →
    g.length = h * w →
    (decodeBits w h v b x y g).2.2.2.length = g.length ∧
    (∀ p, cellAt (decodeBits w h v b x y g).2.2.2 p =
      if x + y * w ≤ p ∧ p < x + y * w + b ∧ p < h * w then bitCell v (b - 1 - (p - (x + y * w)))
      else cellAt g p) ∧
    ((decodeBits w h v b x y g).1 = true ↔ (h * w ≤ x + y * w + b ∧ 0 < b)) ∧
    ((decodeBits w h v b x y g).1 = false →
      (decodeBits w h v b x y g).2.1 < w ∧ (decodeBits w h v b x y g).2.2.1 < h ∧
      (decodeBits w h v b x y g).2.1 + (decodeBits w h v b x y g).2.2.1 * w = x + y * w + b) := by
  intro b
  induction b with
  | zero =>
    intro x y g hx hy hg
    refine ⟨rfl, ?_, ?_, ?_⟩
    · intro p
      rw [if_neg (by omega)]
      rfl
    · simp [decodeBits]
    · intro _
      exact ⟨hx, hy, rfl⟩
  | succ b ih =>
    intro x y g hx hy hg
    have hyw := mul_succ_le w hy
    have hset : ∀ p, cellAt (g.set (x + y * w) (bitCell v b)) p =
        if x + y * w = p then bitCell v b else cellAt g p := by
      intro p
      rw [cellAt_set]
      by_cases hp : x + y * w = p
      · rw [if_pos ⟨hp, by omega⟩, if_pos hp]
      · rw [if_neg (fun hh => hp hh.1), if_neg hp]
    have hlen : (g.set (x + y * w) (bitCell v b)).length = h * w := by
      rw [List.length_set, hg]
    have hdef : decodeBits w h v (b + 1) x y g =
        if x + 1 = w then
          if y + 1 = h then (true, 0, y + 1, g.set (x + y * w) (bitCell v b))
          else decodeBits w h v b 0 (y + 1) (g.set (x + y * w) (bitCell v b))
        else decodeBits w h v b (x + 1) y (g.set (x + y * w) (bitCell v b)) := rfl
    rw [hdef]
    by_cases hxw : x + 1 = w
    · rw [if_pos hxw]
      by_cases hyh : y + 1 = h
      · rw [if_pos hyh]
        have hend : h * w = x + y * w + 1 := by
          rw [← hyh, Nat.succ_mul]
          omega
        refine ⟨by simp only []; rw [hlen, hg], ?_, ?_, ?_⟩
        · intro p
          simp only []
          rw [hset]
          by_cases hp : x + y * w = p
          · rw [if_pos hp, if_pos (by omega)]
            congr 1
            omega
          · rw [if_neg hp, if_neg (by omega)]
        · simp only [true_iff]
          omega
        · intro hf
          exact Bool.noConfusion (show true = false from hf)
      · rw [if_neg hyh]
        obtain ⟨i1, i2, i3, i4⟩ := ih 0 (y + 1) (g.set (x + y * w) (bitCell v b)) (by omega)
          (by omega) hlen
        have hj : 0 + (y + 1) * w = x + y * w + 1 := by rw [Nat.succ_mul]; omega
        rw [hj] at i2 i3 i4
        refine ⟨by rw [i1, hlen, hg], ?_, ?_, ?_⟩
        · intro p
          rw [i2 p, hset]
          by_cases hp : x + y * w = p
          · rw [if_neg (by omega), if_pos hp, if_pos (by omega)]
            congr 1
            omega
          · rw [if_neg hp]
            by_cases hp2 : x + y * w + 1 ≤ p ∧ p < x + y * w + 1 + b ∧ p < h * w
            · rw [if_pos hp2, if_pos (by omega)]
              congr 1
              omega
            · rw [if_neg hp2, if_neg (by omega)]
        · rw [i3]
          have hlt : x + y * w + 1 < h * w := by
            have := mul_succ_le w (show y + 1 < h by omega)
            rw [Nat.succ_mul] at this
            omega
          omega
        · intro hf
          have := i4 hf
          omega
    · rw [if_neg hxw]
      obtain ⟨i1, i2, i3, i4⟩ := ih (x + 1) y (g.set (x + y * w) (bitCell v b)) (by omega)
        hy hlen
      have hj : x + 1 + y * w = x + y * w + 1 := by omega
      rw [hj] at i2 i3 i4
      refine ⟨by rw [i1, hlen, hg], ?_, ?_, ?_⟩
      · intro p
        rw [i2 p, hset]
        by_cases hp : x + y * w = p
        · rw [if_neg (by omega), if_pos hp, if_pos (by omega)]
          congr 1
          omega
        · rw [if_neg hp]
          by_cases hp2 : x + y * w + 1 ≤ p ∧ p < x + y * w + 1 + b ∧ p < h * w
          · rw [if_pos hp2, if_pos (by omega)]
            congr 1
            omega
          · rw [if_neg hp2, if_neg (by omega)]
      · rw [i3]
        omega
      · intro hf
        have := i4 hf
        omega

theorem decodeChars_spec (i : InBuf) (w h : Nat) : ∀ (n k x y : Nat) (g : List Nat),
    x < w → y < h → g.length = h * w →
    (∀ t, t < n → 0 ≤ decode_char (inAt i (k + t))) → h * w ≤ x + y * w + 6 * n →
    (decodeChars i w h n k x y g).1 = 0 ∧
    (decodeChars i w h n k x y g).2.length = g.length ∧
    ∀ p, cellAt (decodeChars i w h n k x y g).2 p =
      if x + y * w ≤ p ∧ p < h * w then
        bitCell (toUnsigned (decode_char (inAt i (k + (p - (x + y * w)) / 6))))
          (5 - (p - (x + y * w)) % 6)
      else cellAt g p := by
  intro n
  induction n with
  | zero =>
    intro k x y g hx hy _ _ hb
    have := mul_succ_le w hy
    omega
  | succ n ih =>
    intro k x y g hx hy hg hch hb
    have hyw := mul_succ_le w hy
    have h0 := hch 0 (by omega)
    rw [Nat.add_zero] at h0
    obtain ⟨d1, d2, d3, d4⟩ :=
      decodeBits_spec w h (toUnsigned (decode_char (inAt i k))) 6 x y g hx hy hg
    have hdef : decodeChars i w h (n + 1) k x y g =
        if decode_char (inAt i k) < 0 then (-1, g)
        else
          if (decodeBits w h (toUnsigned (decode_char (inAt i k))) 6 x y g).1 then
            (0, (decodeBits w h (toUnsigned (decode_char (inAt i k))) 6 x y g).2.2.2)
          else decodeChars i w h n (k + 1)
            (decodeBits w h (toUnsigned (decode_char (inAt i k))) 6 x y g).2.1
            (decodeBits w h (toUnsigned (decode_char (inAt i k))) 6 x y g).2.2.1
            (decodeBits w h (toUnsigned (decode_char (inAt i k))) 6 x y g).2.2.2 := rfl
    rw [hdef, if_neg (by omega)]
    by_cases hr : (decodeBits w h (toUnsigned (decode_char (inAt i k))) 6 x y g).1 = true
    · rw [if_pos hr]
      have hend := (d3.1 hr).1
      refine ⟨rfl, d1, ?_⟩
      intro p
      simp only []
      rw [d2 p]
      by_cases hp : x + y * w ≤ p ∧ p < h * w
      · rw [if_pos (by omega), if_pos hp]
        have e1 : (p - (x + y * w)) / 6 = 0 := by omega
        have e2 : (p - (x + y * w)) % 6 = p - (x + y * w) := by omega
        rw [e1, e2, Nat.add_zero]
      · rw [if_neg (by omega), if_neg hp]
    · rw [if_neg hr]
      have hf : (decodeBits w h (toUnsigned (decode_char (inAt i k))) 6 x y g).1 = false := by
        simpa using hr
      obtain ⟨hx', hy', hj'⟩ := d4 hf
      have hnot : ¬ (h * w ≤ x + y * w + 6 ∧ 0 < 6) := fun hh => hr (d3.2 hh)
      obtain ⟨r1, r2, r3⟩ := ih (k + 1) _ _ _ hx' hy' (by rw [d1, hg])
        (fun t ht => by
          have := hch (t + 1) (by omega)
          rw [show k + 1 + t = k + (t + 1) by omega]
          exact this)
        (by rw [hj']; omega)
      refine ⟨r1, by rw [r2, d1], ?_⟩
      intro p
      rw [r3 p, hj', d2 p]
      by_cases hp : x + y * w ≤ p ∧ p < h * w
      · rw [if_pos hp]
        by_cases hp6 : x + y * w + 6 ≤ p
        · rw [if_pos ⟨hp6, hp.2⟩]
          have e1 : k + 1 + (p - (x + y * w + 6)) / 6 = k + (p - (x + y * w)) / 6 := by omega
          have e2 : (p - (x + y * w + 6)) % 6 = (p - (x + y * w)) % 6 := by omega
          rw [e1, e2]
        · rw [if_neg (by omega), if_pos (by omega)]
          have e1 : (p - (x + y * w)) / 6 = 0 := by omega
          have e2 : (p - (x + y * w)) % 6 = p - (x + y * w) := by omega
          rw [e1, e2, Nat.add_zero]
      · rw [if_neg (by omega), if_neg (by omega), if_neg hp]

/-- The codec of cell grids on grids of DOT and SOLID cells. -/
theorem cells_codec (w h : Nat) (grid : List Nat) (hlen : grid.length = w * h)
    (hcells : ∀ c ∈ grid, c = nonogram_DOT ∨ c = nonogram_SOLID) (hsz : w * h + 5 < 2 ^ 64)
    (R : Nat) (hR : (w * h + 5) / 6 ≤ R) (grid0 : List Nat) (hlen0 : grid0.length = w * h) :
    ∃ s, s.length = (w * h + 5) / 6 ∧
      nonocache_encodecells { isNull := false, written := [], rem := R } w h grid =
        .ret (0, { isNull := false, written := s, rem := R - s.length }) ∧
      nonocache_decodecells { data := s, rem := s.length } w h grid0 =
        (0, { data := s, rem := s.length }, grid) := by
  obtain ⟨hplen, st, hst, hflush⟩ := encode_flat grid.length grid (Nat.le_refl _) hcells []
    R (by rw [hlen]; exact hR)
  rw [List.nil_append] at hflush
  have hplen' : (packAux grid.length grid).length = (w * h + 5) / 6 := by rw [hplen, hlen]
  refine ⟨packAux grid.length grid, hplen', ?_, ?_⟩
  · unfold nonocache_encodecells
    simp only [Bool.false_eq_true, if_false]
    rw [encodeCellsY_grid w h grid hlen, hst]
    simp only []
    rw [if_neg (by decide)]
    exact hflush
  · unfold nonocache_decodecells
    have hreq : ((w * h) % 2 ^ 64 + 5) % 2 ^ 64 / 6 = (w * h + 5) / 6 := by
      rw [Nat.mod_eq_of_lt (by omega), Nat.mod_eq_of_lt (by omega)]
    simp only [hreq, hplen', Nat.lt_irrefl, if_false]
    by_cases hz : w * h = 0
    · have e1 : grid = [] := List.length_eq_zero.1 (by omega)
      have e2 : grid0 = [] := List.length_eq_zero.1 (by omega)
      rw [hz, e1, e2]
      rfl
    · have hw : 0 < w := Nat.pos_of_ne_zero (fun hh => hz (by rw [hh, Nat.zero_mul]))
      have hh : 0 < h := Nat.pos_of_ne_zero (fun hh => hz (by rw [hh, Nat.mul_zero]))
      have hcomm : h * w = w * h := Nat.mul_comm h w
      have hch : ∀ t, t < (w * h + 5) / 6 →
          (packAux grid.length grid).getD t (Char.ofNat 0) =
            safeChar (groupVal ((grid.drop (6 * t)).take 6)) :=
        fun t ht => pack_char grid.length grid (Nat.le_refl _) t (by rw [hlen]; exact ht)
      have hgl : ∀ t, groupVal ((grid.drop (6 * t)).take 6) < 64 :=
        fun t => groupVal_lt _ (by rw [List.length_take]; omega)
      obtain ⟨r1, r2, r3⟩ := decodeChars_spec
        { data := packAux grid.length grid, rem := (w * h + 5) / 6 } w h ((w * h + 5) / 6)
        0 0 0 grid0 hw hh (by rw [hlen0, hcomm])
        (fun t ht => by
          simp only [inAt, Nat.zero_add]
          rw [hch t ht, decode_safeChar _ (hgl t)]
          omega)
        (by rw [hcomm]; omega)
      have hgrid : (decodeChars { data := packAux grid.length grid, rem := (w * h + 5) / 6 }
          w h ((w * h + 5) / 6) 0 0 0 grid0).2 = grid := by
        apply list_eq_of_cellAt
        · rw [r2, hlen0, hlen]
        · intro p hp
          rw [r2, hlen0] at hp
          rw [r3 p, if_pos ⟨by omega, by rw [hcomm]; exact hp⟩]
          simp only [Nat.zero_mul, Nat.add_zero, Nat.sub_zero, Nat.zero_add, inAt]
          rw [hch (p / 6) (by omega), key_safeChar _ (hgl _)]
          rw [group_bits _ (by rw [List.length_take]; omega)
            (fun c hc => hcells c (List.mem_of_mem_drop (List.mem_of_mem_take hc))) (p % 6)
            (by rw [List.length_take, List.length_drop]; omega)]
          rw [cellAt_take_drop _ _ _ (Nat.mod_lt _ (by decide))]
          congr 1
          omega
      rw [show (decodeChars { data := packAux grid.length grid, rem := (w * h + 5) / 6 }
          w h ((w * h + 5) / 6) 0 0 0 grid0) = (0, grid) from Prod.ext r1 hgrid]

/-- C17: the codec of cell grids.  For every width `w`, height `h` (with
`w * h + 5` in the range of `size_t`) and grid of `w * h` cells each DOT or
SOLID, `nonocache_encodecells` into a buffer of at least `ceil(w * h / 6)`
characters returns 0 having written exactly `(w * h + 5) / 6` characters, and
`nonocache_decodecells` of those characters with the same `w` and `h` returns
0 and leaves exactly the grid encoded, whatever the grid held before. -/
theorem cells_codec_round_trip (w h : Nat) (grid : List Nat) (hlen : grid.length = w * h)
    (hcells : ∀ c ∈ grid, c = nonogram_DOT ∨ c = nonogram_SOLID) (hsz : w * h + 5 < 2 ^ 64)
    (R : Nat) (hR : (w * h + 5) / 6 ≤ R) (grid0 : List Nat) (hlen0 : grid0.length = w * h) :
    ∃ s, s.length = (w * h + 5) / 6 ∧
      nonocache_encodecells { isNull := false, written := [], rem := R } w h grid =
        .ret (0, { isNull := false, written := s, rem := R - s.length }) ∧
      nonocache_decodecells { data := s, rem := s.length } w h grid0 =
        (0, { data := s, rem := s.length }, grid) :=
  cells_codec w h grid hlen hcells hsz R hR grid0 hlen0

theorem cells_codec_round_trip_witness :
    [1, 2, 1, 2, 2, 2, 1, 2, 1].length = 3 * 3 ∧
    (∀ c ∈ [1, 2, 1, 2, 2, 2, 1, 2, 1], c = nonogram_DOT ∨ c = nonogram_SOLID) ∧
    3 * 3 + 5 < 2 ^ 64 ∧ (3 * 3 + 5) / 6 ≤ 2 ∧ (List.replicate 9 nonogram_BLANK).length = 3 * 3 ∧
    ∃ s, s.length = (3 * 3 + 5) / 6 ∧
      nonocache_encodecells { isNull := false, written := [], rem := 2 } 3 3
          [1, 2, 1, 2, 2, 2, 1, 2, 1] =
        .ret (0, { isNull := false, written := s, rem := 2 - s.length }) ∧
      nonocache_decodecells { data := s, rem := s.length } 3 3
          (List.replicate 9 nonogram_BLANK) =
        (0, { data := s, rem := s.length }, [1, 2, 1, 2, 2, 2, 1, 2, 1]) :=
  ⟨rfl, by decide, by decide, by decide, rfl,
    cells_codec_round_trip 3 3 [1, 2, 1, 2, 2, 2, 1, 2, 1] rfl (by decide) (by decide) 2
      (by decide) (List.replicate 9 nonogram_BLANK) rfl⟩

theorem encodeCell_cases (c : Nat) (s : CellEnc) (hg : s.got ≤ 5) (hv : s.v < 2 ^ s.got) :
    ((c = nonogram_BLANK ∨ c = nonogram_BOTH) → ∃ s1, encodeCell c s = .ret (-1, s1)) ∧
    ((∃ s1, encodeCell c s = .ret (-1, s1)) ∨
      ∃ s1, encodeCell c s = .ret (0, s1) ∧ s1.got ≤ 5 ∧ s1.v < 2 ^ s1.got) := by
  have hv32 : s.v < 32 := by
    have : (2 : Nat) ^ s.got ≤ 2 ^ 5 := Nat.pow_le_pow_right (by decide) hg
    omega
  have h2 : (2 : Nat) ^ (s.got + 1) = 2 * 2 ^ s.got := by rw [Nat.pow_succ, Nat.mul_comm]
  unfold encodeCell
  rw [shl_one _ (by omega)]
  by_cases hbad : c = nonogram_BLANK ∨ c = nonogram_BOTH
  · rw [if_pos hbad]
    exact ⟨fun _ => ⟨_, rfl⟩, Or.inl ⟨_, rfl⟩⟩
  · rw [if_neg hbad]
    refine ⟨fun hh => absurd hh hbad, ?_⟩
    simp only []
    rw [if_neg (by omega)]
    have hv2 : (if c = nonogram_SOLID then 2 * s.v ||| 1 else 2 * s.v) < 2 * 2 ^ s.got := by
      split_ifs
      · rw [or_one]; omega
      · omega
    by_cases h6 : s.got + 1 = 6
    · rw [if_pos h6]
      have h5 : s.got = 5 := by omega
      rw [h5] at hv2
      rw [if_neg (by simp only [Nat.reducePow, Nat.reduceMul] at hv2; omega)]
      by_cases hrem : s.o.rem = 0
      · rw [if_pos hrem]
        exact Or.inl ⟨_, rfl⟩
      · rw [if_neg hrem]
        exact Or.inr ⟨_, rfl, by simp only []; omega, by simp only []; omega⟩
    · rw [if_neg h6]
      refine Or.inr ⟨_, rfl, ?_, ?_⟩
      · simp only []; omega
      · simp only []; rw [h2]; exact hv2

theorem encodeList_bad (l : List Nat) : ∀ (s : CellEnc), s.got ≤ 5 → s.v < 2 ^ s.got →
    (∃ c ∈ l, c = nonogram_BLANK ∨ c = nonogram_BOTH) →
    ∃ s1, encodeList l s = .ret (-1, s1) := by
  induction l with
  | nil =>
    intro s _ _ hbad
    obtain ⟨c, hc, _⟩ := hbad
    simp at hc
  | cons c cs ih =>
    intro s hg hv hbad
    obtain ⟨e1, e2⟩ := encodeCell_cases c s hg hv
    simp only [encodeList]
    rcases e2 with ⟨s1, h1⟩ | ⟨s1, h1, hg1, hv1⟩
    · rw [h1]
      exact ⟨s1, by simp⟩
    · rw [h1]
      simp only []
      rw [if_neg (by decide)]
      obtain ⟨x, hx, hxb⟩ := hbad
      rcases List.mem_cons.1 hx with rfl | hx'
      · obtain ⟨s2, h2⟩ := e1 hxb
        rw [h1] at h2
        have := Run.ret.inj h2
        have h3 : (0 : Int) = -1 := congrArg Prod.fst this
        omega
      · exact ih s1 hg1 hv1 ⟨x, hx', hxb⟩

/-- C18 as stated fails in the counting mode of `nonocache_encodecells`: called
with a null `out` on the one-cell grid holding BLANK it returns 0, having added
the length 1 to `*rem`, without looking at the grid. -/
theorem encodecells_counting_counterexample :
    nonocache_encodecells { isNull := true, written := [], rem := 0 } 1 1 [nonogram_BLANK] =
      .ret (0, { isNull := true, written := [], rem := 1 }) := by
  decide

/-- C18, amended: when an output buffer is supplied (`out` is not null), for
every grid of `w * h` cells that holds a BLANK or BOTH cell,
`nonocache_encodecells` returns -1, whatever the size of the buffer. -/
theorem encodecells_blank_fails (o : OutBuf) (ho : o.isNull = false) (w h : Nat)
    (grid : List Nat) (hlen : grid.length = w * h)
    (hbad : ∃ c ∈ grid, c = nonogram_BLANK ∨ c = nonogram_BOTH) :
    ∃ o1, nonocache_encodecells o w h grid = .ret (-1, o1) := by
  unfold nonocache_encodecells
  rw [ho]
  simp only [Bool.false_eq_true, if_false]
  rw [encodeCellsY_grid w h grid hlen]
  obtain ⟨s1, h1⟩ := encodeList_bad grid { v := 0, got := 0, o := o } (by simp only []; omega)
    (by simp only []; omega) hbad
  rw [h1]
  exact ⟨s1.o, by simp⟩

theorem encodecells_blank_fails_witness :
    ∃ o1, nonocache_encodecells { isNull := false, written := [], rem := 8 } 2 2
      [nonogram_DOT, nonogram_SOLID, nonogram_BLANK, nonogram_SOLID] = .ret (-1, o1) :=
  encodecells_blank_fails { isNull := false, written := [], rem := 8 } rfl 2 2
    [nonogram_DOT, nonogram_SOLID, nonogram_BLANK, nonogram_SOLID] rfl
    ⟨nonogram_BLANK, by decide, Or.inl rfl⟩

theorem toInt32_id (z : Int) (h1 : -2 ^ 31 ≤ z) (h2 : z < 2 ^ 31) : toInt32 z = z := by
  unfold toInt32
  omega

theorem toInt32_wrap (z : Int) : toInt32 (wrap z) = toInt32 z := by
  unfold toInt32 wrap
  omega

theorem toInt32_add (a b : Int) : toInt32 (wrap (toInt32 (wrap a) + wrap b)) = toInt32 (a + b) := by
  unfold toInt32 wrap
  omega

theorem makescoreSum_eq (rule : List Nat) (s : Int) (hs : 0 ≤ s)
    (h : s + (rule.sum : Int) < 2 ^ 31) : makescoreSum rule s = s + (rule.sum : Int) := by
  unfold makescoreSum
  induction rule generalizing s with
  | nil => simp only [List.foldl_nil, List.sum_nil, Nat.cast_zero, Int.add_zero]
  | cons v vs ih =>
    simp only [List.sum_cons, Nat.cast_add] at h
    have hv : (0 : Int) ≤ (v : Int) := Int.natCast_nonneg v
    have hvs : (0 : Int) ≤ (vs.sum : Int) := Int.natCast_nonneg _
    rw [List.foldl_cons, toInt32_wrap, toInt32_id _ (by omega) (by omega),
      ih _ (by omega) (by omega)]
    simp only [List.sum_cons, Nat.cast_add]
    omega

/-- What `makescore` stores, for lengths and block sums below `2^31`: the
score is the exact value reduced into the range of `int`. -/
theorem makescore_stored (rule : List Nat) (L : Nat) (hL : (L : Int) < 2 ^ 31)
    (hS : (rule.sum : Int) < 2 ^ 31) :
    makescore rule (toInt32 L) =
      { score := if rule.sum = 0 then (L : Int)
                 else toInt32 ((rule.sum : Int) * ((rule.length : Int) + 1) +
                   (rule.length : Int) * ((rule.length : Int) - L - 1)),
        dot := (L : Int) - rule.sum,
        solid := rule.sum } := by
  have hL0 : (0 : Int) ≤ (L : Int) := Int.natCast_nonneg L
  have hS0 : (0 : Int) ≤ (rule.sum : Int) := Int.natCast_nonneg _
  have hlen : toInt32 (L : Int) = L := toInt32_id _ (by omega) hL
  have hs : makescoreSum rule 0 = (rule.sum : Int) := by
    rw [makescoreSum_eq rule 0 (Int.le_refl 0) (by omega)]
    omega
  unfold makescore
  simp only [hs, hlen]
  rw [toInt32_id ((L : Int) - rule.sum) (by omega) (by omega)]
  by_cases h0 : rule.sum = 0
  · rw [if_pos (by rw [h0]; rfl), if_pos h0]
  · rw [if_neg (by omega), if_neg h0, toInt32_add]

/-- C19 as stated fails when the exact score leaves the range of `int`: for a
row of width 200000 whose rule is 50000 blocks of length 1 (sum 50000, which
fits the row), the exact value `S*(k+1) + k*(k - L - 1)` is -5000000000, but
`makescore` stores -705032704. -/
theorem makescore_counterexample :
    (List.replicate 50000 1).sum + (List.replicate 50000 1).length ≤ 200000 + 1 ∧
    (makescore (List.replicate 50000 1) (toInt32 ((200000 : Nat) : Int))).score = -705032704 ∧
    ((List.replicate 50000 1).sum : Int) * (((List.replicate 50000 1).length : Int) + 1) +
      ((List.replicate 50000 1).length : Int) *
        (((List.replicate 50000 1).length : Int) - ((200000 : Nat) : Int) - 1) = -5000000000 := by
  have hsum : (List.replicate 50000 1).sum = 50000 := by
    simp only [List.sum_replicate, smul_eq_mul, Nat.mul_one]
  have hlen : (List.replicate 50000 1).length = 50000 := List.length_replicate _ _
  have h := makescore_stored (List.replicate 50000 1) 200000 (by decide) (by rw [hsum]; decide)
  rw [h, hsum, hlen]
  refine ⟨by decide, ?_, by norm_num⟩
  norm_num [toInt32]

/-- C19, amended: for every rule of length `k` with block sum `S` on a line of
length `L`, when `L` and `S` are below `2^31` and the exact value
`S*(k+1) + k*(k - L - 1)` lies in the range of `int`, `makescore` sets
`solid = S`, `dot = L - S`, and `score` to that value when `S > 0` and to `L`
when `S = 0`. -/
theorem makescore_exact (rule : List Nat) (L : Nat) (hL : (L : Int) < 2 ^ 31)
    (hS : (rule.sum : Int) < 2 ^ 31)
    (hlo : -2 ^ 31 ≤ (rule.sum : Int) * ((rule.length : Int) + 1) +
      (rule.length : Int) * ((rule.length : Int) - L - 1))
    (hhi : (rule.sum : Int) * ((rule.length : Int) + 1) +
      (rule.length : Int) * ((rule.length : Int) - L - 1) < 2 ^ 31) :
    makescore rule (toInt32 L) =
      { score := if rule.sum = 0 then (L : Int)
                 else (rule.sum : Int) * ((rule.length : Int) + 1) +
                   (rule.length : Int) * ((rule.length : Int) - L - 1),
        dot := (L : Int) - rule.sum,
        solid := rule.sum } := by
  rw [makescore_stored rule L hL hS, toInt32_id _ hlo hhi]

theorem makescore_exact_witness :
    ((7 : Nat) : Int) < 2 ^ 31 ∧ (([2, 1] : List Nat).sum : Int) < 2 ^ 31 ∧
    makescore [2, 1] (toInt32 ((7 : Nat) : Int)) = { score := -3, dot := 4, solid := 3 } :=
  ⟨by decide, by decide, by
    have := makescore_exact [2, 1] 7 (by decide) (by decide) (by decide) (by decide)
    rw [this]
    decide⟩

theorem RedeemFrame.refl (c : nonogram_solver) : RedeemFrame c c :=
  ⟨rfl, rfl, rfl, rfl, rfl, rfl, rfl, rfl, rfl, rfl, rfl, rfl, rfl, rfl, fun _ => rfl,
    fun _ => rfl, rfl, rfl, rfl, rfl, rfl⟩

theorem RedeemFrame.trans {a b c : nonogram_solver} (h1 : RedeemFrame a b)
    (h2 : RedeemFrame b c) : RedeemFrame a c where
  loaded := h2.loaded.trans h1.loaded
  puzzle := h2.puzzle.trans h1.puzzle
  levels := h2.levels.trans h1.levels
  suiteInit := h2.suiteInit.trans h1.suiteInit
  suiteStep := h2.suiteStep.trans h1.suiteStep
  work := h2.work.trans h1.work
  stack := h2.stack.trans h1.stack
  unkarea := h2.unkarea.trans h1.unkarea
  fits := h2.fits.trans h1.fits
  lineno := h2.lineno.trans h1.lineno
  level := h2.level.trans h1.level
  on_row := h2.on_row.trans h1.on_row
  status := h2.status.trans h1.status
  presented := h2.presented.trans h1.presented
  rowflag := fun h => (h2.rowflag (h1.on_row.trans h)).trans (h1.rowflag h)
  colflag := fun h => (h2.colflag (h1.on_row.trans h)).trans (h1.colflag h)
  rowflagLen := h2.rowflagLen.trans h1.rowflagLen
  colflagLen := h2.colflagLen.trans h1.colflagLen
  rowattrLen := h2.rowattrLen.trans h1.rowattrLen
  colattrLen := h2.colattrLen.trans h1.colattrLen
  gridLen := h2.gridLen.trans h1.gridLen

theorem redeemCell_frame (c : nonogram_solver) (ch : Bool) (i : Nat) :
    RedeemFrame c (redeemCell c ch i).1 := by
  unfold redeemCell
  by_cases h : cellAt c.grid (lineIndex c i) = nonogram_BLANK ∧
      (cellAt c.work i = nonogram_DOT ∨ cellAt c.work i = nonogram_SOLID)
  · rw [if_pos h]
    by_cases hr : c.on_row = true
    · rw [if_pos hr]
      refine ⟨rfl, rfl, rfl, rfl, rfl, rfl, rfl, rfl, rfl, rfl, rfl, rfl, rfl, rfl, fun _ => rfl,
        fun hh => ?_, rfl, ?_, ?_, ?_, ?_⟩
      · rw [hr] at hh; exact Bool.noConfusion hh
      · simp only []; split_ifs <;> simp
      · simp
      · simp
      · simp
    · rw [if_neg hr]
      refine ⟨rfl, rfl, rfl, rfl, rfl, rfl, rfl, rfl, rfl, rfl, rfl, rfl, rfl, rfl,
        fun hh => absurd hh hr, fun _ => rfl, ?_, rfl, ?_, ?_, ?_⟩
      · simp only []; split_ifs <;> simp
      · simp
      · simp
      · simp
  · rw [if_neg h]
    exact RedeemFrame.refl c

theorem redeemLoop_frame (k : Nat) : ∀ (i : Nat) (s : nonogram_solver × Bool),
    RedeemFrame s.1 (redeemLoop k i s).1 := by
  induction k with
  | zero => intro i s; exact RedeemFrame.refl _
  | succ k ih =>
    intro i s
    exact (redeemCell_frame s.1 s.2 i).trans (ih (i + 1) _)

theorem redeemstep_frame (c : nonogram_solver) : RedeemFrame c (redeemstep c).1 :=
  redeemLoop_frame _ 0 (c, false)

theorem flagAt_set (l : List Nat) (i j v : Nat) :
    flagAt (l.set i v) j = if i = j ∧ i < l.length then v else flagAt l j :=
  cellAt_set l i j v

/-- C30: contradiction handling in the driver.  When a tick runs on a loaded
solver whose status is DONE and whose line solver reported `fits == 0`, it
returns `nonogram_LINE`, `remcells` becomes -1, the status becomes EMPTY, and
nothing else of the solver (grid cells, line attributes, line flags) is
modified. -/
theorem runcycles_contradiction (c : nonogram_solver) (env : TickEnv)
    (hl : c.loaded = true) (hs : c.status = nonogram_DONE) (hf : c.fits = 0) :
    nonogram_runcycles c env =
      .ret (nonogram_LINE, { c with remcells := -1, status := nonogram_EMPTY }) := by
  unfold nonogram_runcycles runDone
  rw [if_neg (by simp [hl]), if_neg (by rw [hs]; decide), if_pos hs, if_pos hf]

theorem runcycles_contradiction_witness :
    nonogram_runcycles
      { (nonogram_load nonogram_initsolver { col := [[1], [1]], row := [[1], [1]] }
          [0, 0, 0, 0] 4).2 with status := nonogram_DONE, fits := 0 }
      { init := { again := false, fits := 0, work := [] }, steps := [], nomem := false } =
    .ret (nonogram_LINE,
      { (nonogram_load nonogram_initsolver { col := [[1], [1]], row := [[1], [1]] }
          [0, 0, 0, 0] 4).2 with status := nonogram_EMPTY, fits := 0, remcells := -1 }) :=
  runcycles_contradiction _ _ rfl rfl rfl

/-- The flag rule of the DONE branch: after a tick on a solved line with
`fits != 0`, the flag of that line is 0 when both remaining counts are zero,
`levels` when `fits < 0` and redemption changed a cell, and the old flag
minus one (as `unsigned`) otherwise. -/
theorem runDone_flag (c : nonogram_solver) (hf : c.fits ≠ 0)
    (hidx : c.lineno < (if c.on_row then c.rowflag.length else c.colflag.length)) :
    (runDone c).1 = nonogram_LINE ∧
    lineAttr (runDone c).2 = lineAttr (redeemstep c).1 ∧
    lineFlag (runDone c).2 =
      if (lineAttr (runDone c).2).dot = 0 ∧ (lineAttr (runDone c).2).solid = 0 then 0
      else if c.fits < 0 ∧ (redeemstep c).2 = true then c.levels
      else (lineFlag c + 2 ^ 32 - 1) % 2 ^ 32 := by
  have fr := redeemstep_frame c
  unfold runDone
  rw [if_neg hf]
  simp only []
  by_cases hr : c.on_row = true
  · have hr1 : (redeemstep c).1.on_row = true := fr.on_row.trans hr
    rw [if_pos hr1]
    rw [if_pos hr] at hidx
    have hfl : (redeemstep c).1.rowflag = c.rowflag := fr.rowflag hr
    refine ⟨rfl, ?_, ?_⟩
    · unfold lineAttr
      simp only [hr1, if_true]
    · unfold lineFlag lineAttr doneFlag
      simp only [hr1, hr, if_true, fr.lineno, hfl, flagAt_set, fr.fits, fr.levels]
      rw [if_pos ⟨trivial, hidx⟩]
  · have hr0 : c.on_row = false := by simpa using hr
    have hr1 : (redeemstep c).1.on_row = false := fr.on_row.trans hr0
    rw [if_neg (by rw [hr1]; decide)]
    rw [if_neg hr] at hidx
    have hfl : (redeemstep c).1.colflag = c.colflag := fr.colflag hr0
    refine ⟨rfl, ?_, ?_⟩
    · unfold lineAttr
      simp only [hr1, Bool.false_eq_true, if_false]
    · unfold lineFlag lineAttr doneFlag
      simp only [hr1, hr0, Bool.false_eq_true, if_false, fr.lineno, hfl, flagAt_set, fr.fits,
        fr.levels]
      rw [if_pos ⟨trivial, hidx⟩]

theorem chooseY_spec (grid : List Nat) (pw x : Nat) : ∀ (k y0 y : Nat),
    chooseY grid pw x k y0 = some y →
    y0 ≤ y ∧ y < y0 + k ∧ cellAt grid (x + y * pw) = nonogram_BLANK ∧
      ∀ y1, y0 ≤ y1 → y1 < y → cellAt grid (x + y1 * pw) ≠ nonogram_BLANK := by
  intro k
  induction k with
  | zero => intro y0 y h; simp [chooseY] at h
  | succ k ih =>
    intro y0 y h
    unfold chooseY at h
    by_cases hb : cellAt grid (x + y0 * pw) = nonogram_BLANK
    · rw [if_pos hb] at h
      have : y0 = y := Option.some.inj h
      subst this
      exact ⟨Nat.le_refl _, by omega, hb, fun y1 h1 h2 => by omega⟩
    · rw [if_neg hb] at h
      obtain ⟨h1, h2, h3, h4⟩ := ih (y0 + 1) y h
      refine ⟨by omega, by omega, h3, ?_⟩
      intro y1 hy1 hy2
      by_cases e : y1 = y0
      · rw [e]; exact hb
      · exact h4 y1 (by omega) hy2

theorem chooseY_none (grid : List Nat) (pw x : Nat) : ∀ (k y0 : Nat),
    chooseY grid pw x k y0 = none →
    ∀ y1, y0 ≤ y1 → y1 < y0 + k → cellAt grid (x + y1 * pw) ≠ nonogram_BLANK := by
  intro k
  induction k with
  | zero => intro y0 _ y1 h1 h2; omega
  | succ k ih =>
    intro y0 h y1 h1 h2
    unfold chooseY at h
    by_cases hb : cellAt grid (x + y0 * pw) = nonogram_BLANK
    · rw [if_pos hb] at h; exact Option.noConfusion h
    · rw [if_neg hb] at h
      by_cases e : y1 = y0
      · rw [e]; exact hb
      · exact ih (y0 + 1) h y1 (by omega) (by omega)

theorem chooseX_spec (grid : List Nat) (pw : Nat) (frm : nonogram_rect) :
    ∀ (k x0 : Nat) (pos : nonogram_point), chooseX grid pw frm k x0 = some pos →
    x0 ≤ pos.x ∧ pos.x < x0 + k ∧ frm.min.y ≤ pos.y ∧
      pos.y < frm.min.y + (frm.max.y - frm.min.y) ∧
      cellAt grid (pos.x + pos.y * pw) = nonogram_BLANK := by
  intro k
  induction k with
  | zero => intro x0 pos h; simp [chooseX] at h
  | succ k ih =>
    intro x0 pos h
    unfold chooseX at h
    cases hy : chooseY grid pw x0 (frm.max.y - frm.min.y) frm.min.y with
    | some y =>
      rw [hy] at h
      have e : ({ x := x0, y := y } : nonogram_point) = pos := Option.some.inj h
      obtain ⟨h1, h2, h3, _⟩ := chooseY_spec grid pw x0 _ _ _ hy
      rw [← e]
      exact ⟨Nat.le_refl _, by show x0 < x0 + (k + 1); omega, h1, h2, h3⟩
    | none =>
      rw [hy] at h
      obtain ⟨h1, h2, h3⟩ := ih (x0 + 1) pos h
      exact ⟨by omega, by omega, h3⟩

theorem noBlankOutside_spec (grid : List Nat) (pw ph : Nat) (b : nonogram_rect)
    (h : noBlankOutside grid pw ph b = true) (x y : Nat) (hx : x < pw) (hy : y < ph)
    (hb : cellAt grid (x + y * pw) = nonogram_BLANK) :
    b.min.x ≤ x ∧ x < b.max.x ∧ b.min.y ≤ y ∧ y < b.max.y := by
  unfold noBlankOutside at h
  rw [List.all_eq_true] at h
  have h1 := h y (List.mem_range.2 hy)
  rw [List.all_eq_true] at h1
  have h2 := h1 x (List.mem_range.2 hx)
  simp only [nonogram_rect.has, Bool.or_eq_true, Bool.and_eq_true, decide_eq_true_eq] at h2
  rcases h2 with ⟨⟨⟨a, b1⟩, c1⟩, d⟩ | h2
  · exact ⟨a, b1, c1, d⟩
  · exact absurd hb h2

/-- What the assertions of `findminrect` guarantee when it returns: the
rectangle lies inside `orig` and no BLANK cell of the grid lies outside. -/
theorem findminrect_ret (grid : List Nat) (pw ph : Nat) (orig b : nonogram_rect)
    (h : findminrect grid pw ph orig = .ret b) :
    orig.min.x ≤ b.min.x ∧ orig.min.y ≤ b.min.y ∧ b.max.x ≤ orig.max.x ∧
      b.max.y ≤ orig.max.y ∧ noBlankOutside grid pw ph b = true := by
  unfold findminrect at h
  split_ifs at h
  split at h
  · exact Run.noConfusion h
  · exact Run.noConfusion h
  · exact Run.noConfusion h
  · split_ifs at h with h1 h2 h3 h4 h5
    have e := Run.ret.inj h
    subst e
    exact ⟨by omega, by omega, by omega, by omega, by simpa using h5⟩

theorem cellAt_range (n j : Nat) (hj : j < n) : cellAt (List.range n) j = j := by
  unfold cellAt
  rw [List.getD_eq_getElem?_getD, List.getElem?_range hj]
  rfl

theorem flatMap_range_length (w : Nat) (g : Nat → Nat → Nat) (h : Nat) :
    ((List.range h).flatMap (fun y => (List.range w).map (g y))).length = h * w := by
  induction h with
  | zero => simp
  | succ h ih =>
    rw [List.range_succ, List.flatMap_append, List.length_append, ih]
    simp [Nat.succ_mul]

theorem cellAt_flatMap_range (w : Nat) (g : Nat → Nat → Nat) (h : Nat) :
    ∀ y x, y < h → x < w →
    cellAt ((List.range h).flatMap (fun y => (List.range w).map (g y))) (y * w + x) = g y x := by
  induction h with
  | zero => intro y x hy; omega
  | succ h ih =>
    intro y x hy hx
    rw [List.range_succ, List.flatMap_append]
    by_cases hyh : y < h
    · have hlt : y * w + x < h * w := by
        have := mul_succ_le w hyh
        omega
      rw [cellAt_append_left _ _ _ (by rw [flatMap_range_length]; exact hlt)]
      exact ih y x hyh hx
    · have e : y = h := by omega
      subst e
      rw [cellAt_append_right _ _ _ (by rw [flatMap_range_length]; omega), flatMap_range_length]
      simp only [List.flatMap_cons, List.flatMap_nil, List.append_nil]
      rw [show y * w + x - y * w = x by omega, cellAt_map _ _ _ (by simpa using hx),
        cellAt_range _ _ hx]

theorem cellAt_snapshot (c : nonogram_solver) (area : nonogram_rect) (pos : nonogram_point)
    (x y : Nat) (hx : x < area.w) (hy : y < area.h) :
    cellAt (snapshot c area pos).grid (y * area.w + x) =
      cellAt c.grid (area.min.x + (y + area.min.y) * c.puzzle.width + x) :=
  cellAt_flatMap_range area.w
    (fun y x => cellAt c.grid (area.min.x + (y + area.min.y) * c.puzzle.width + x)) area.h y x
    hy hx

theorem index_lt {x y w h : Nat} (hx : x < w) (hy : y < h) : x + y * w < w * h := by
  have := mul_succ_le w hy
  rw [Nat.mul_comm w h]
  omega

theorem guessChoice_cases (c : nonogram_solver) (pos : nonogram_point) :
    guessChoice c pos = nonogram_DOT ∨ guessChoice c pos = nonogram_SOLID := by
  unfold guessChoice
  split_ifs
  · left; rfl
  · right; rfl

/-- The guess tick in terms of its parts. -/
theorem runGuess_ret (c : nonogram_solver) (rc : Int) (d : nonogram_solver)
    (h : runGuess c false = .ret (rc, d)) :
    ∃ area pos,
      findminrect c.grid c.puzzle.width c.puzzle.height c.unkarea = .ret area ∧
      chooseX c.grid c.puzzle.width area (area.max.x - area.min.x) area.min.x = some pos ∧
      rc = nonogram_LINE ∧ d = guessResult c area pos := by
  unfold runGuess at h
  cases hf : findminrect c.grid c.puzzle.width c.puzzle.height c.unkarea with
  | assertion => rw [hf] at h; exact Run.noConfusion h
  | fuel => rw [hf] at h; exact Run.noConfusion h
  | ret area =>
    rw [hf] at h
    simp only [] at h
    unfold chooseguess at h
    simp only [] at h
    cases hx : chooseX c.grid c.puzzle.width area (area.max.x - area.min.x) area.min.x with
    | none => rw [hx] at h; exact Run.noConfusion h
    | some pos =>
      rw [hx] at h
      simp only [] at h
      have hg := guessChoice_cases c pos
      unfold guessChoice at hg
      unfold makeguess at h
      rw [if_neg (fun hn => hn hg)] at h
      simp only [Bool.false_eq_true, if_false] at h
      have e := Run.ret.inj h
      exact ⟨area, pos, rfl, hx, (congrArg Prod.fst e).symm, (congrArg Prod.snd e).symm⟩

theorem runcycles_guess (c : nonogram_solver) (env : TickEnv) (hl : c.loaded = true)
    (hst : c.status = nonogram_EMPTY) (hrc : 0 < c.remcells) (hri : ¬ c.reminfo > 0) :
    nonogram_runcycles c env = runGuess c env.nomem := by
  unfold nonogram_runcycles
  rw [if_neg (by simp [hl]), if_neg (by rw [hst]; decide), if_neg (by rw [hst]; decide),
    if_neg (by omega), if_neg hri, if_neg (by omega)]

/-- C24, amended: after a driver tick that makes a guess (status EMPTY, no
pending line, `remcells > 0`, the stack element allocated), the tick returns
`nonogram_LINE`, the cell at the guess position was BLANK before the tick, and
the colour chosen for it (DOT if the remaining dots of its row plus its column
exceed the remaining solids, SOLID otherwise) is stored in the pushed
snapshot, while the grid now holds the alternative colour: SOLID if the dots
exceeded the solids, and DOT otherwise. -/
theorem guess_tick_colour (c : nonogram_solver) (env : TickEnv) (hl : c.loaded = true)
    (hst : c.status = nonogram_EMPTY) (hrc : 0 < c.remcells) (hri : ¬ c.reminfo > 0)
    (hmem : env.nomem = false) (hgrid : c.grid.length = c.puzzle.width * c.puzzle.height)
    (hux : c.unkarea.max.x ≤ c.puzzle.width) (huy : c.unkarea.max.y ≤ c.puzzle.height)
    (rc : Int) (d : nonogram_solver) (hrun : nonogram_runcycles c env = .ret (rc, d)) :
    ∃ st pos, rc = nonogram_LINE ∧ d.stack = st :: c.stack ∧ st.guesspos = pos ∧
      pos.x < c.puzzle.width ∧ pos.y < c.puzzle.height ∧
      cellAt c.grid (pos.x + pos.y * c.puzzle.width) = nonogram_BLANK ∧
      cellAt st.grid ((pos.y - st.unkarea.min.y) * st.unkarea.w + (pos.x - st.unkarea.min.x)) =
        (if (attrAt c.colattr pos.x).dot + (attrAt c.rowattr pos.y).dot >
            (attrAt c.colattr pos.x).solid + (attrAt c.rowattr pos.y).solid
          then nonogram_DOT else nonogram_SOLID) ∧
      cellAt d.grid (pos.x + pos.y * c.puzzle.width) =
        (if (attrAt c.colattr pos.x).dot + (attrAt c.rowattr pos.y).dot >
            (attrAt c.colattr pos.x).solid + (attrAt c.rowattr pos.y).solid
          then nonogram_SOLID else nonogram_DOT) := by
  rw [runcycles_guess c env hl hst hrc hri, hmem] at hrun
  obtain ⟨area, pos, hfind, hchoose, hrcv, hd⟩ := runGuess_ret c rc d hrun
  obtain ⟨b1, b2, b3, b4, _⟩ := findminrect_ret _ _ _ _ _ hfind
  obtain ⟨p1, p2, p3, p4, p5⟩ := chooseX_spec _ _ _ _ _ _ hchoose
  have hpx : pos.x < c.puzzle.width := by omega
  have hpy : pos.y < c.puzzle.height := by omega
  have hidx : pos.x + pos.y * c.puzzle.width < c.grid.length := by
    rw [hgrid]; exact index_lt hpx hpy
  have hchoice : guessChoice c pos =
      (if (attrAt c.colattr pos.x).dot + (attrAt c.rowattr pos.y).dot >
          (attrAt c.colattr pos.x).solid + (attrAt c.rowattr pos.y).solid
        then nonogram_DOT else nonogram_SOLID) := rfl
  have halt : guessChoice c pos ^^^ nonogram_BOTH =
      (if (attrAt c.colattr pos.x).dot + (attrAt c.rowattr pos.y).dot >
          (attrAt c.colattr pos.x).solid + (attrAt c.rowattr pos.y).solid
        then nonogram_SOLID else nonogram_DOT) := by
    rw [hchoice]
    split_ifs <;> decide
  refine ⟨snapshot (makeguessState { c with unkarea := area } pos (guessChoice c pos)) area pos,
    pos, hrcv, ?_, rfl, hpx, hpy, p5, ?_, ?_⟩
  · rw [hd]; rfl
  · rw [← hchoice]
    have hsx : pos.x - area.min.x < area.w := by unfold nonogram_rect.w; omega
    have hsy : pos.y - area.min.y < area.h := by unfold nonogram_rect.h; omega
    show cellAt (snapshot _ area pos).grid ((pos.y - area.min.y) * area.w + (pos.x - area.min.x))
      = _
    rw [cellAt_snapshot _ area pos _ _ hsx hsy]
    show cellAt (c.grid.set (pos.x + pos.y * c.puzzle.width) (guessChoice c pos)) _ = _
    rw [cellAt_set, if_pos ⟨by
      show pos.x + pos.y * c.puzzle.width =
        area.min.x + (pos.y - area.min.y + area.min.y) * c.puzzle.width + (pos.x - area.min.x)
      rw [Nat.sub_add_cancel p3]
      omega, hidx⟩]
  · rw [← halt, hd]
    show cellAt ((c.grid.set (pos.x + pos.y * c.puzzle.width) (guessChoice c pos)).set
      (pos.x + pos.y * c.puzzle.width) (guessChoice c pos ^^^ nonogram_BOTH)) _ = _
    rw [cellAt_set, if_pos ⟨rfl, by rw [List.length_set]; exact hidx⟩]

/-- C24 as stated fails: on the two-by-two puzzle with rule `[1]` on every
line, once every line has been tried without a deduction, the guess tick
picks the BLANK cell (0,0); the remaining dots of its row and column (2) do
not exceed the remaining solids (2), so the claim expects SOLID in the grid,
but the grid holds DOT afterwards (the colour SOLID is in the snapshot). -/
theorem guess_colour_counterexample :
    runTicks (List.replicate 8 noInfo2)
      (nonogram_load nonogram_initsolver puzzle22 [0, 0, 0, 0] 4).2 = .ret stalled22 ∧
    cellAt stalled22.grid 0 = nonogram_BLANK ∧
    ¬ ((attrAt stalled22.colattr 0).dot + (attrAt stalled22.rowattr 0).dot >
      (attrAt stalled22.colattr 0).solid + (attrAt stalled22.rowattr 0).solid) ∧
    ∃ d, nonogram_runcycles stalled22 noInfo2 = .ret (nonogram_LINE, d) ∧
      d.grid = [nonogram_DOT, nonogram_BLANK, nonogram_BLANK, nonogram_BLANK] ∧
      (d.stack.map (fun st => (st.guesspos, st.grid))) =
        [({ x := 0, y := 0 }, [nonogram_SOLID, nonogram_BLANK, nonogram_BLANK, nonogram_BLANK])] := by
  refine ⟨by decide, by decide, by decide, _, rfl, by decide, by decide⟩

theorem guess_tick_colour_witness :
    ∃ st pos d, nonogram_runcycles stalled22 noInfo2 = .ret (nonogram_LINE, d) ∧
      d.stack = st :: stalled22.stack ∧ st.guesspos = pos ∧
      cellAt stalled22.grid (pos.x + pos.y * stalled22.puzzle.width) = nonogram_BLANK ∧
      cellAt d.grid (pos.x + pos.y * stalled22.puzzle.width) =
        (if (attrAt stalled22.colattr pos.x).dot + (attrAt stalled22.rowattr pos.y).dot >
            (attrAt stalled22.colattr pos.x).solid + (attrAt stalled22.rowattr pos.y).solid
          then nonogram_SOLID else nonogram_DOT) := by
  obtain ⟨st, pos, h1, h2, h3, _, _, h6, _, h8⟩ :=
    guess_tick_colour stalled22 noInfo2 rfl rfl (by decide) (by decide) rfl rfl (by decide)
      (by decide) nonogram_LINE _ rfl
  exact ⟨st, pos, _, rfl, h2, h3, h6, h8⟩

/-- The flag of the line that a tick has just redeemed, in the three cases of
solver.c 368-392. -/
theorem done_flag_cases (c : nonogram_solver) (env : TickEnv) (hl : c.loaded = true)
    (hs : c.status = nonogram_DONE) (hf : c.fits ≠ 0)
    (hidx : c.lineno < (if c.on_row then c.rowflag.length else c.colflag.length)) :
    ∃ d, nonogram_runcycles c env = .ret (nonogram_LINE, d) ∧
      lineAttr d = lineAttr (redeemstep c).1 ∧
      lineFlag d =
        if (lineAttr d).dot = 0 ∧ (lineAttr d).solid = 0 then 0
        else if c.fits < 0 ∧ (redeemstep c).2 = true then c.levels
        else (lineFlag c + 2 ^ 32 - 1) % 2 ^ 32 := by
  obtain ⟨h1, h2, h3⟩ := runDone_flag c hf hidx
  refine ⟨(runDone c).2, ?_, h2, h3⟩
  unfold nonogram_runcycles
  rw [if_neg (by simp [hl]), if_neg (by rw [hs]; decide), if_pos hs, ← h1]

/-- C25 as stated fails in its second half: with two levels of line solvers,
on the row `[2]` of width 2 (2 solids and 0 dots remaining), a line solver at
level 2 that reports a fit without any deduction leaves the flag of the row
at 1: it is decremented, not cleared, although one of the two counts is
zero. -/
theorem done_flag_counterexample :
    ∃ d, runTicks [noInfo2, noInfo2]
        (nonogram_load (solverWithLevels 2) puzzle21 [0, 0] 2).2 = .ret d ∧
      d.on_row = true ∧ d.lineno = 0 ∧ d.grid = [nonogram_BLANK, nonogram_BLANK] ∧
      (lineAttr d).dot = 0 ∧ (lineAttr d).solid = 2 ∧ lineFlag d = 1 := by
  refine ⟨_, rfl, by decide, by decide, by decide, by decide, by decide, by decide⟩

/-- C25, amended: after a tick on a loaded solver whose status is DONE and
whose line solver reported `fits != 0`, the flag of the solved line is cleared
to 0 if its remaining dot and solid counts are both zero; otherwise, if
redemption changed no cell (or `fits` is positive), the flag is decremented
by one (as `unsigned`), and it is set to `levels` only when `fits < 0` and a
cell changed. -/
theorem done_flag_update (c : nonogram_solver) (env : TickEnv) (hl : c.loaded = true)
    (hs : c.status = nonogram_DONE) (hf : c.fits ≠ 0)
    (hidx : c.lineno < (if c.on_row then c.rowflag.length else c.colflag.length)) :
    ∃ d, nonogram_runcycles c env = .ret (nonogram_LINE, d) ∧
      ((lineAttr d).dot = 0 ∧ (lineAttr d).solid = 0 → lineFlag d = 0) ∧
      (¬ ((lineAttr d).dot = 0 ∧ (lineAttr d).solid = 0) →
        ((redeemstep c).2 = false ∨ 0 < c.fits) →
        lineFlag d = (lineFlag c + 2 ^ 32 - 1) % 2 ^ 32) ∧
      (¬ ((lineAttr d).dot = 0 ∧ (lineAttr d).solid = 0) →
        (redeemstep c).2 = true → c.fits < 0 → lineFlag d = c.levels) := by
  obtain ⟨d, h1, _, h3⟩ := done_flag_cases c env hl hs hf hidx
  refine ⟨d, h1, ?_, ?_, ?_⟩
  · intro h
    rw [h3, if_pos h]
  · intro h hc
    rw [h3, if_neg h, if_neg]
    rintro ⟨a, b⟩
    rcases hc with hc | hc
    · rw [hc] at b; exact Bool.noConfusion b
    · omega
  · intro h hc hfn
    rw [h3, if_neg h, if_pos ⟨hfn, hc⟩]

theorem done_flag_update_witness :
    ∃ d, nonogram_runcycles doneState21 noInfo2 = .ret (nonogram_LINE, d) ∧
      ((lineAttr d).dot = 0 ∧ (lineAttr d).solid = 0 → lineFlag d = 0) ∧
      (¬ ((lineAttr d).dot = 0 ∧ (lineAttr d).solid = 0) →
        ((redeemstep doneState21).2 = false ∨ 0 < doneState21.fits) →
        lineFlag d = (lineFlag doneState21 + 2 ^ 32 - 1) % 2 ^ 32) ∧
      (¬ ((lineAttr d).dot = 0 ∧ (lineAttr d).solid = 0) →
        (redeemstep doneState21).2 = true → doneState21.fits < 0 →
        lineFlag d = doneState21.levels) :=
  done_flag_update doneState21 noInfo2 rfl rfl (by decide) (by decide)

theorem attrAt_set (l : List nonogram_lineattr) (i j : Nat) (v : nonogram_lineattr) :
    attrAt (l.set i v) j = if i = j ∧ i < l.length then v else attrAt l j := by
  unfold attrAt
  rw [List.getD_eq_getElem?_getD, List.getD_eq_getElem?_getD, List.getElem?_set]
  by_cases h1 : i = j
  · subst h1
    by_cases h2 : i < l.length
    · simp [h2]
    · simp [h2, List.getElem?_eq_none (Nat.le_of_not_lt h2)]
  · simp [h1]

/-- Two cells of a grid of width `pw` have the same index only if they are the
same cell. -/
theorem index_inj {pw x y x1 y1 : Nat} (hx : x < pw) (hx1 : x1 < pw)
    (h : x + y * pw = x1 + y1 * pw) : x = x1 ∧ y = y1 := by
  have hy : y = y1 := by
    rcases Nat.lt_trichotomy y y1 with h1 | h1 | h1
    · have := mul_succ_le pw h1
      omega
    · exact h1
    · have := mul_succ_le pw h1
      omega
  subst hy
  exact ⟨by omega, rfl⟩

/-- The cells `a, ..., a + n - 1` of row `r` are the cells of that row with
column in that range. -/
theorem index_row_iff {pw x y a n r : Nat} (hx : x < pw) (han : a + n ≤ pw) :
    (a + r * pw ≤ x + y * pw ∧ x + y * pw < a + r * pw + n) ↔ (y = r ∧ a ≤ x ∧ x < a + n) := by
  constructor
  · rintro ⟨h1, h2⟩
    have hy : y = r := by
      rcases Nat.lt_trichotomy y r with h3 | h3 | h3
      · have := mul_succ_le pw h3
        omega
      · exact h3
      · have := mul_succ_le pw h3
        omega
    subst hy
    exact ⟨rfl, by omega, by omega⟩
  · rintro ⟨rfl, h1, h2⟩
    exact ⟨by omega, by omega⟩

theorem memcpyCells_length (dst : List Nat) (doff : Nat) (src : List Nat) (soff n : Nat) :
    (memcpyCells dst doff src soff n).length = dst.length := by
  unfold memcpyCells
  simp

theorem cellAt_memcpyCells (dst : List Nat) (doff : Nat) (src : List Nat) (soff n j : Nat)
    (hj : j < dst.length) :
    cellAt (memcpyCells dst doff src soff n) j =
      if doff ≤ j ∧ j < doff + n then cellAt src (soff + (j - doff)) else cellAt dst j := by
  unfold memcpyCells
  have := posFn_map_range
    (fun j => if doff ≤ j ∧ j < doff + n then cellAt src (soff + (j - doff)) else cellAt dst j)
    dst.length j hj
  exact this

/-- What the loop "Restore rows" does to the grid, the row flags and the row
attributes. -/
theorem restoreRows_spec (pw : Nat) (st : nonogram_stack)
    (hw : st.unkarea.min.x + st.unkarea.w ≤ pw) :
    ∀ (k y : Nat) (grid rowflag : List Nat) (rowattr : List nonogram_lineattr),
      (restoreRows pw st k y (grid, rowflag, rowattr)).1.length = grid.length ∧
      (restoreRows pw st k y (grid, rowflag, rowattr)).2.1.length = rowflag.length ∧
      (restoreRows pw st k y (grid, rowflag, rowattr)).2.2.length = rowattr.length ∧
      (∀ x yy, x < pw → x + yy * pw < grid.length →
        cellAt (restoreRows pw st k y (grid, rowflag, rowattr)).1 (x + yy * pw) =
          if st.unkarea.min.y + y ≤ yy ∧ yy < st.unkarea.min.y + y + k ∧
              st.unkarea.min.x ≤ x ∧ x < st.unkarea.min.x + st.unkarea.w
          then cellAt st.grid ((yy - st.unkarea.min.y) * st.unkarea.w + (x - st.unkarea.min.x))
          else cellAt grid (x + yy * pw)) ∧
      (∀ i, flagAt (restoreRows pw st k y (grid, rowflag, rowattr)).2.1 i =
          if st.unkarea.min.y + y ≤ i ∧ i < st.unkarea.min.y + y + k ∧ i < rowflag.length
          then 0 else flagAt rowflag i) ∧
      (∀ i, attrAt (restoreRows pw st k y (grid, rowflag, rowattr)).2.2 i =
          if st.unkarea.min.y + y ≤ i ∧ i < st.unkarea.min.y + y + k ∧ i < rowattr.length
          then attrAt st.rowattr (i - st.unkarea.min.y) else attrAt rowattr i) := by
  intro k
  induction k with
  | zero =>
    intro y grid rowflag rowattr
    refine ⟨rfl, rfl, rfl, ?_, ?_, ?_⟩
    · intro x yy _ _
      rw [if_neg (by omega)]
      rfl
    · intro i
      rw [if_neg (by omega)]
      rfl
    · intro i
      rw [if_neg (by omega)]
      rfl
  | succ k ih =>
    intro y grid rowflag rowattr
    unfold restoreRows
    obtain ⟨h1, h2, h3, h4, h5, h6⟩ := ih (y + 1)
      (memcpyCells grid (st.unkarea.min.x + (y + st.unkarea.min.y) * pw) st.grid
        (y * st.unkarea.w) st.unkarea.w)
      (rowflag.set (y + st.unkarea.min.y) 0)
      (rowattr.set (y + st.unkarea.min.y) (attrAt st.rowattr y))
    rw [memcpyCells_length] at h1 h4
    rw [List.length_set] at h2 h3 h5 h6
    refine ⟨h1, h2, h3, ?_, ?_, ?_⟩
    · intro x yy hx hidx
      rw [h4 x yy hx hidx, cellAt_memcpyCells _ _ _ _ _ _ hidx]
      have hiff := @index_row_iff pw x yy st.unkarea.min.x st.unkarea.w (y + st.unkarea.min.y)
        hx hw
      by_cases hc : yy = y + st.unkarea.min.y ∧ st.unkarea.min.x ≤ x ∧
          x < st.unkarea.min.x + st.unkarea.w
      · obtain ⟨e, hc1, hc2⟩ := hc
        subst e
        rw [if_neg (by omega), if_pos (hiff.2 ⟨rfl, hc1, hc2⟩), if_pos (by omega)]
        congr 1
        have e1 : y + st.unkarea.min.y - st.unkarea.min.y = y := by omega
        rw [e1]
        omega
      · rw [if_neg (fun hn => hc (hiff.1 hn))]
        by_cases hd : st.unkarea.min.y + (y + 1) ≤ yy ∧ yy < st.unkarea.min.y + (y + 1) + k ∧
            st.unkarea.min.x ≤ x ∧ x < st.unkarea.min.x + st.unkarea.w
        · rw [if_pos hd, if_pos (by omega)]
        · rw [if_neg hd, if_neg]
          rintro ⟨a1, a2, a3, a4⟩
          by_cases e : yy = y + st.unkarea.min.y
          · exact hc ⟨e, a3, a4⟩
          · exact hd ⟨by omega, by omega, a3, a4⟩
    · intro i
      rw [h5 i, flagAt_set]
      split_ifs <;> first | rfl | (exfalso; omega)
    · intro i
      rw [h6 i, attrAt_set]
      split_ifs <;> first | rfl | (exfalso; omega) | (congr 1; omega)

/-- What the loop "Restore columns" does to the column flags and attributes. -/
theorem restoreCols_spec (st : nonogram_stack) :
    ∀ (k x : Nat) (colflag : List Nat) (colattr : List nonogram_lineattr),
      (restoreCols st k x (colflag, colattr)).1.length = colflag.length ∧
      (restoreCols st k x (colflag, colattr)).2.length = colattr.length ∧
      (∀ i, flagAt (restoreCols st k x (colflag, colattr)).1 i =
          if st.unkarea.min.x + x ≤ i ∧ i < st.unkarea.min.x + x + k ∧ i < colflag.length
          then 0 else flagAt colflag i) ∧
      (∀ i, attrAt (restoreCols st k x (colflag, colattr)).2 i =
          if st.unkarea.min.x + x ≤ i ∧ i < st.unkarea.min.x + x + k ∧ i < colattr.length
          then attrAt st.colattr (i - st.unkarea.min.x) else attrAt colattr i) := by
  intro k
  induction k with
  | zero =>
    intro x colflag colattr
    refine ⟨rfl, rfl, ?_, ?_⟩
    · intro i
      rw [if_neg (by omega)]
      rfl
    · intro i
      rw [if_neg (by omega)]
      rfl
  | succ k ih =>
    intro x colflag colattr
    unfold restoreCols
    obtain ⟨h2, h3, h5, h6⟩ := ih (x + 1)
      (colflag.set (x + st.unkarea.min.x) 0)
      (colattr.set (x + st.unkarea.min.x) (attrAt st.colattr x))
    rw [List.length_set] at h2 h3 h5 h6
    refine ⟨h2, h3, ?_, ?_⟩
    · intro i
      rw [h5 i, flagAt_set]
      split_ifs <;> first | rfl | (exfalso; omega)
    · intro i
      rw [h6 i, attrAt_set]
      split_ifs <;> first | rfl | (exfalso; omega) | (congr 1; omega)

theorem countP_range_congr (p q : Nat → Bool) (n : Nat) (h : ∀ j, j < n → p j = q j) :
    (List.range n).countP p = (List.range n).countP q := by
  apply List.countP_congr
  intro j hj
  rw [h j (List.mem_range.1 hj)]

theorem countP_range_update (p q : Nat → Bool) : ∀ (n i : Nat), i < n → p i = true → q i = false →
    (∀ j, j ≠ i → q j = p j) → (List.range n).countP q + 1 = (List.range n).countP p := by
  intro n
  induction n with
  | zero => intro i hi; omega
  | succ n ih =>
    intro i hi hp hq h
    rw [List.range_succ, List.countP_append, List.countP_append]
    by_cases e : i = n
    · subst e
      rw [countP_range_congr q p i (fun j hj => h j (by omega))]
      simp [hp, hq]
    · have := ih i (by omega) hp hq h
      have e2 : List.countP q [n] = List.countP p [n] := by
        simp only [List.countP_cons, List.countP_nil]
        rw [h n (fun hn => e hn.symm)]
      omega

/-- A predicate that holds only inside the window `a, ..., a + w - 1` is
counted over the window. -/
theorem countP_range_window (p : Nat → Bool) (a w n : Nat) (han : a + w ≤ n)
    (h : ∀ j, j < n → ¬ (a ≤ j ∧ j < a + w) → p j = false) :
    (List.range n).countP p = (List.range w).countP (fun j => p (a + j)) := by
  obtain ⟨r, rfl⟩ : ∃ r, n = a + w + r := ⟨n - (a + w), by omega⟩
  rw [List.range_add, List.range_add, List.countP_append, List.countP_append,
    List.countP_map, List.countP_map]
  have h1 : (List.range a).countP p = 0 := by
    rw [List.countP_eq_zero]
    intro j hj
    have := List.mem_range.1 hj
    rw [h j (by omega) (by omega)]
    exact Bool.false_ne_true
  have h2 : (List.range r).countP (p ∘ fun x => a + w + x) = 0 := by
    rw [List.countP_eq_zero]
    intro j hj
    have := List.mem_range.1 hj
    show ¬ p (a + w + j) = true
    rw [h (a + w + j) (by omega) (by omega)]
    exact Bool.false_ne_true
  rw [h1, h2]
  simp only [Nat.zero_add, Nat.add_zero]
  rfl

theorem rowBlanks_set_other (g : List Nat) (pw x0 y0 v y : Nat) (hx0 : x0 < pw) (hy : y ≠ y0) :
    rowBlanks (g.set (x0 + y0 * pw) v) pw y = rowBlanks g pw y := by
  unfold rowBlanks
  apply countP_range_congr
  intro x hx
  rw [cellAt_set, if_neg]
  rintro ⟨e, _⟩
  exact hy (index_inj hx0 hx e).2.symm

theorem colBlanks_set_other (g : List Nat) (pw ph x0 y0 v x : Nat) (hx0 : x0 < pw) (hx : x < pw)
    (hxx : x ≠ x0) : colBlanks (g.set (x0 + y0 * pw) v) pw ph x = colBlanks g pw ph x := by
  unfold colBlanks
  apply countP_range_congr
  intro y _
  rw [cellAt_set, if_neg]
  rintro ⟨e, _⟩
  exact hxx (index_inj hx0 hx e).1.symm

theorem rowBlanks_set_blank (g : List Nat) (pw x0 y0 v : Nat) (hx0 : x0 < pw)
    (hidx : x0 + y0 * pw < g.length) (hb : cellAt g (x0 + y0 * pw) = nonogram_BLANK)
    (hv : v ≠ nonogram_BLANK) :
    rowBlanks (g.set (x0 + y0 * pw) v) pw y0 + 1 = rowBlanks g pw y0 := by
  unfold rowBlanks
  apply countP_range_update _ _ pw x0 hx0
  · simp [hb]
  · rw [cellAt_set, if_pos ⟨rfl, hidx⟩]
    simp [hv]
  · intro x hx
    rw [cellAt_set, if_neg]
    rintro ⟨e, _⟩
    omega

theorem colBlanks_set_blank (g : List Nat) (pw ph x0 y0 v : Nat) (hx0 : x0 < pw) (hy0 : y0 < ph)
    (hidx : x0 + y0 * pw < g.length) (hb : cellAt g (x0 + y0 * pw) = nonogram_BLANK)
    (hv : v ≠ nonogram_BLANK) :
    colBlanks (g.set (x0 + y0 * pw) v) pw ph x0 + 1 = colBlanks g pw ph x0 := by
  unfold colBlanks
  apply countP_range_update _ _ ph y0 hy0
  · simp [hb]
  · rw [cellAt_set, if_pos ⟨rfl, hidx⟩]
    simp [hv]
  · intro y hy
    rw [cellAt_set, if_neg]
    rintro ⟨e, _⟩
    exact hy (index_inj hx0 hx0 e).2.symm

theorem rowBlanks_set_nonblank (g : List Nat) (pw x0 y0 v y : Nat)
    (hb : cellAt g (x0 + y0 * pw) ≠ nonogram_BLANK) (hv : v ≠ nonogram_BLANK) :
    rowBlanks (g.set (x0 + y0 * pw) v) pw y = rowBlanks g pw y := by
  unfold rowBlanks
  apply countP_range_congr
  intro x hx
  rw [cellAt_set]
  by_cases e : x0 + y0 * pw = x + y * pw ∧ x0 + y0 * pw < g.length
  · rw [if_pos e, ← e.1]
    simp [hb, hv]
  · rw [if_neg e]

theorem colBlanks_set_nonblank (g : List Nat) (pw ph x0 y0 v x : Nat)
    (hb : cellAt g (x0 + y0 * pw) ≠ nonogram_BLANK) (hv : v ≠ nonogram_BLANK) :
    colBlanks (g.set (x0 + y0 * pw) v) pw ph x = colBlanks g pw ph x := by
  unfold colBlanks
  apply countP_range_congr
  intro y _
  rw [cellAt_set]
  by_cases e : x0 + y0 * pw = x + y * pw ∧ x0 + y0 * pw < g.length
  · rw [if_pos e, ← e.1]
    simp [hb, hv]
  · rw [if_neg e]

theorem decAttr_sum (a : nonogram_lineattr) (w : Nat) (len : Int) :
    (decAttr a w len).solid + (decAttr a w len).dot = a.solid + a.dot - 1 := by
  unfold decAttr
  split_ifs <;> simp only [] <;> omega

theorem flipAttr_sum (a : nonogram_lineattr) (w : Nat) :
    (flipAttr a w).solid + (flipAttr a w).dot = a.solid + a.dot := by
  unfold flipAttr
  split_ifs <;> simp only [] <;> omega

/-- Writing a colour on a BLANK cell and decrementing a counter of its row
and of its column keeps the line-attribute invariant. -/
theorem AttrInv.write_cell {pw ph : Nat} {g : List Nat} {ra ca : List nonogram_lineattr}
    (h : AttrInv pw ph g ra ca) (x0 y0 v : Nat) (l1 l2 : Int) (hx0 : x0 < pw) (hy0 : y0 < ph)
    (hg : g.length = pw * ph) (hra : ra.length = ph) (hca : ca.length = pw)
    (hb : cellAt g (x0 + y0 * pw) = nonogram_BLANK) (hv : v ≠ nonogram_BLANK) :
    AttrInv pw ph (g.set (x0 + y0 * pw) v) (ra.set y0 (decAttr (attrAt ra y0) v l1))
      (ca.set x0 (decAttr (attrAt ca x0) v l2)) := by
  have hidx : x0 + y0 * pw < g.length := by rw [hg]; exact index_lt hx0 hy0
  constructor
  · intro y hy
    rw [attrAt_set]
    by_cases e : y0 = y
    · subst e
      rw [if_pos ⟨rfl, by omega⟩, decAttr_sum, h.1 y0 hy0]
      have := rowBlanks_set_blank g pw x0 y0 v hx0 hidx hb hv
      omega
    · rw [if_neg (fun hn => e hn.1), rowBlanks_set_other g pw x0 y0 v y hx0 (fun hn => e hn.symm)]
      exact h.1 y hy
  · intro x hx
    rw [attrAt_set]
    by_cases e : x0 = x
    · subst e
      rw [if_pos ⟨rfl, by omega⟩, decAttr_sum, h.2 x0 hx0]
      have := colBlanks_set_blank g pw ph x0 y0 v hx0 hy0 hidx hb hv
      omega
    · rw [if_neg (fun hn => e hn.1),
        colBlanks_set_other g pw ph x0 y0 v x hx0 hx (fun hn => e hn.symm)]
      exact h.2 x hx

/-- Replacing a colour by another one and moving one unit between the two
counters of its row and of its column keeps the line-attribute invariant. -/
theorem AttrInv.flip {pw ph : Nat} {g : List Nat} {ra ca : List nonogram_lineattr}
    (h : AttrInv pw ph g ra ca) (x0 y0 v : Nat)
    (hb : cellAt g (x0 + y0 * pw) ≠ nonogram_BLANK) (hv : v ≠ nonogram_BLANK) :
    AttrInv pw ph (g.set (x0 + y0 * pw) v) (ra.set y0 (flipAttr (attrAt ra y0) v))
      (ca.set x0 (flipAttr (attrAt ca x0) v)) := by
  constructor
  · intro y hy
    rw [attrAt_set, rowBlanks_set_nonblank g pw x0 y0 v y hb hv]
    by_cases e : y0 = y ∧ y0 < ra.length
    · rw [if_pos e, flipAttr_sum, e.1]
      exact h.1 y hy
    · rw [if_neg e]
      exact h.1 y hy
  · intro x hx
    rw [attrAt_set, colBlanks_set_nonblank g pw ph x0 y0 v x hb hv]
    by_cases e : x0 = x ∧ x0 < ca.length
    · rw [if_pos e, flipAttr_sum, e.1]
      exact h.2 x hx
    · rw [if_neg e]
      exact h.2 x hx

theorem rect_has_iff (b : nonogram_rect) (x y : Nat) :
    b.has x y = true ↔ b.min.x ≤ x ∧ x < b.max.x ∧ b.min.y ≤ y ∧ y < b.max.y := by
  unfold nonogram_rect.has
  simp only [Bool.and_eq_true, decide_eq_true_eq]
  tauto

/-- The stack invariant survives when the unknown area shrinks and cells that
were BLANK inside it change. -/
theorem StackInv.update {pw ph : Nat} {u u1 : nonogram_rect} {g g1 : Nat → Nat → Nat}
    {stack : List nonogram_stack} (h : StackInv pw ph u g stack)
    (hx0 : u.min.x ≤ u1.min.x) (hx1 : u1.max.x ≤ u.max.x)
    (hy0 : u.min.y ≤ u1.min.y) (hy1 : u1.max.y ≤ u.max.y)
    (hg : ∀ x y, g1 x y ≠ g x y → u.has x y = true ∧ g x y = nonogram_BLANK) :
    StackInv pw ph u1 g1 stack := by
  cases stack with
  | nil => trivial
  | cons st rest =>
    obtain ⟨a1, a2, a3, a4, a5, a6, a7, a8, a9, a10, a11, a12, a13⟩ := h
    have hgp : g1 st.guesspos.x st.guesspos.y = g st.guesspos.x st.guesspos.y := by
      by_contra hn
      have := (hg _ _ hn).2
      rw [this] at a10
      revert a10
      decide
    have hr : restoredCell st g1 = restoredCell st g := by
      funext x y
      unfold restoredCell
      by_cases e : st.unkarea.has x y = true
      · rw [if_pos e, if_pos e]
      · rw [if_neg e, if_neg e]
        by_contra hn
        have := (hg _ _ hn).1
        rw [rect_has_iff] at this e
        omega
    refine ⟨by omega, by omega, by omega, by omega, a5, a6, a7, a8, a9, ?_, ?_, a12, ?_⟩
    · rw [hgp]; exact a10
    · rw [hgp]; exact a11
    · rw [hr]; exact a13

theorem gridFn_of_set (c d : nonogram_solver) (x0 y0 v : Nat) (hp : d.puzzle = c.puzzle)
    (hg : d.grid = c.grid.set (x0 + y0 * c.puzzle.width) v) (hx0 : x0 < c.puzzle.width)
    (x y : Nat) (hne : gridFn d x y ≠ gridFn c x y) :
    x = x0 ∧ y = y0 ∧ x < c.puzzle.width ∧ y < c.puzzle.height := by
  unfold gridFn at hne
  rw [hp, hg] at hne
  by_cases hr : x < c.puzzle.width ∧ y < c.puzzle.height
  · rw [if_pos hr, if_pos hr, cellAt_set] at hne
    by_cases e : x0 + y0 * c.puzzle.width = x + y * c.puzzle.width
    · obtain ⟨e1, e2⟩ := index_inj hx0 hr.1 e
      exact ⟨e1.symm, e2.symm, hr.1, hr.2⟩
    · rw [if_neg (fun hn => e hn.1)] at hne
      exact absurd rfl hne
  · rw [if_neg hr, if_neg hr] at hne
    exact absurd rfl hne

/-- The driver invariant is kept by a step that writes a colour on a BLANK
cell, decrements a counter of its row and of its column, and possibly shrinks
the unknown area to a rectangle that still holds every BLANK cell. -/
theorem DriverInv.write {c d : nonogram_solver} (h : DriverInv c) (x0 y0 v : Nat) (l1 l2 : Int)
    (hx0 : x0 < c.puzzle.width) (hy0 : y0 < c.puzzle.height)
    (hb : cellAt c.grid (x0 + y0 * c.puzzle.width) = nonogram_BLANK)
    (hv : v ≠ nonogram_BLANK)
    (e1 : d.loaded = c.loaded) (e2 : d.puzzle = c.puzzle)
    (e3 : d.grid = c.grid.set (x0 + y0 * c.puzzle.width) v)
    (e4 : d.rowattr = c.rowattr.set y0 (decAttr (attrAt c.rowattr y0) v l1))
    (e5 : d.colattr = c.colattr.set x0 (decAttr (attrAt c.colattr x0) v l2))
    (e6 : d.rowflag.length = c.rowflag.length) (e7 : d.colflag.length = c.colflag.length)
    (e8 : d.stack = c.stack)
    (u1 : c.unkarea.min.x ≤ d.unkarea.min.x) (u2 : d.unkarea.max.x ≤ c.unkarea.max.x)
    (u3 : c.unkarea.min.y ≤ d.unkarea.min.y) (u4 : d.unkarea.max.y ≤ c.unkarea.max.y)
    (u5 : ∀ x y, x < c.puzzle.width → y < c.puzzle.height →
      cellAt c.grid (x + y * c.puzzle.width) = nonogram_BLANK → d.unkarea.has x y = true)
    (e9 : d.status ≠ nonogram_EMPTY →
      if d.on_row then d.lineno < c.puzzle.height else d.lineno < c.puzzle.width) :
    DriverInv d := by
  refine ⟨?_, ?_, ?_, ?_, ?_, ?_, ?_, ?_, ?_, ?_, ?_, ?_, ?_⟩
  · rw [e1]; exact h.loaded
  · rw [e2]; exact h.hpos
  · rw [e2, e3, List.length_set]; exact h.grid_len
  · rw [e2, e4, List.length_set]; exact h.rowattr_len
  · rw [e2, e5, List.length_set]; exact h.colattr_len
  · rw [e2, e6]; exact h.rowflag_len
  · rw [e2, e7]; exact h.colflag_len
  · rw [e2, e3, e4, e5]
    exact h.attr.write_cell x0 y0 v l1 l2 hx0 hy0 h.grid_len h.rowattr_len h.colattr_len hb hv
  · rw [e2]; have := h.area_x; omega
  · rw [e2]; have := h.area_y; omega
  · intro x y hx hy hc
    rw [e2] at hx hy hc
    rw [e3, cellAt_set] at hc
    by_cases e : x0 + y0 * c.puzzle.width = x + y * c.puzzle.width ∧
        x0 + y0 * c.puzzle.width < c.grid.length
    · rw [if_pos e] at hc
      exact absurd hc hv
    · rw [if_neg e] at hc
      exact u5 x y hx hy hc
  · rw [e2]; exact e9
  · rw [e2, e8]
    apply h.stack.update u1 u2 u3 u4
    intro x y hne
    obtain ⟨a1, a2, a3, a4⟩ := gridFn_of_set c d x0 y0 v e2 e3 hx0 x y hne
    subst a1 a2
    refine ⟨h.blanks x y a3 a4 hb, ?_⟩
    unfold gridFn
    rw [if_pos ⟨a3, a4⟩]
    exact hb

/-- Each pass of the loop of `redeemstep` keeps the driver invariant. -/
theorem redeemCell_inv (c : nonogram_solver) (changed : Bool) (i : Nat) (h : DriverInv c)
    (hs : c.status ≠ nonogram_EMPTY) (hi : i < lineLen c) :
    DriverInv (redeemCell c changed i).1 := by
  have hline := h.line hs
  unfold redeemCell
  by_cases hc : cellAt c.grid (lineIndex c i) = nonogram_BLANK ∧
      (cellAt c.work i = nonogram_DOT ∨ cellAt c.work i = nonogram_SOLID)
  · rw [if_pos hc]
    have hv : cellAt c.work i ≠ nonogram_BLANK := by
      rcases hc.2 with e | e <;> rw [e] <;> decide
    by_cases hr : c.on_row = true
    · rw [if_pos hr]
      rw [if_pos hr] at hline
      have hi2 : i < c.puzzle.width := by
        unfold lineLen at hi; rw [if_pos hr] at hi; exact hi
      have eidx : lineIndex c i = i + c.lineno * c.puzzle.width := by
        unfold lineIndex; rw [if_pos hr, Nat.mul_comm, Nat.add_comm]
      rw [eidx] at hc ⊢
      refine h.write i c.lineno (cellAt c.work i) c.puzzle.width c.puzzle.height hi2 hline hc.1 hv
        rfl rfl rfl rfl rfl rfl ?_ rfl (Nat.le_refl _) (Nat.le_refl _) (Nat.le_refl _)
        (Nat.le_refl _) h.blanks ?_
      · show (if flagAt c.colflag i < c.levels then c.colflag.set i c.levels
          else c.colflag).length = _
        split_ifs
        · rw [List.length_set]
        · rfl
      · intro _
        show if c.on_row then c.lineno < c.puzzle.height else c.lineno < c.puzzle.width
        rw [if_pos hr]; exact hline
    · rw [if_neg hr]
      rw [if_neg hr] at hline
      have hi2 : i < c.puzzle.height := by
        unfold lineLen at hi; rw [if_neg hr] at hi; exact hi
      have eidx : lineIndex c i = c.lineno + i * c.puzzle.width := by
        unfold lineIndex; rw [if_neg hr]
      rw [eidx] at hc ⊢
      refine h.write c.lineno i (cellAt c.work i) c.puzzle.width c.puzzle.height hline hi2 hc.1 hv
        rfl rfl rfl rfl rfl ?_ rfl rfl (Nat.le_refl _) (Nat.le_refl _) (Nat.le_refl _)
        (Nat.le_refl _) h.blanks ?_
      · show (if flagAt c.rowflag i < c.levels then c.rowflag.set i c.levels
          else c.rowflag).length = _
        split_ifs
        · rw [List.length_set]
        · rfl
      · intro _
        show if c.on_row then c.lineno < c.puzzle.height else c.lineno < c.puzzle.width
        rw [if_neg hr]; exact hline
  · rw [if_neg hc]
    exact h

theorem redeemLoop_inv (k : Nat) : ∀ (i : Nat) (s : nonogram_solver × Bool), DriverInv s.1 →
    s.1.status ≠ nonogram_EMPTY → i + k ≤ lineLen s.1 → DriverInv (redeemLoop k i s).1 := by
  induction k with
  | zero => intro i s h _ _; exact h
  | succ k ih =>
    intro i s h hs hi
    unfold redeemLoop
    have hf := redeemCell_frame s.1 s.2 i
    apply ih (i + 1) _ (redeemCell_inv s.1 s.2 i h hs (by omega))
    · rw [hf.status]; exact hs
    · have e : lineLen (redeemCell s.1 s.2 i).1 = lineLen s.1 := by
        unfold lineLen
        rw [hf.on_row, hf.puzzle]
      rw [e]; omega

theorem redeemstep_inv (c : nonogram_solver) (h : DriverInv c) (hs : c.status ≠ nonogram_EMPTY) :
    DriverInv (redeemstep c).1 :=
  redeemLoop_inv (lineLen c) 0 (c, false) h hs (Nat.le_of_eq (Nat.zero_add _))

/-- The driver invariant does not depend on the fields that the bookkeeping
of a tick changes: flags (as long as the arrays keep their lengths), work
buffer, counters, current line (as long as it stays in range) and the record
of presented grids. -/
theorem DriverInv.frame {c d : nonogram_solver} (h : DriverInv c)
    (e1 : d.loaded = c.loaded) (e2 : d.puzzle = c.puzzle) (e3 : d.grid = c.grid)
    (e4 : d.rowattr = c.rowattr) (e5 : d.colattr = c.colattr)
    (e6 : d.rowflag.length = c.rowflag.length) (e7 : d.colflag.length = c.colflag.length)
    (e8 : d.stack = c.stack) (e9 : d.unkarea = c.unkarea)
    (e10 : d.status ≠ nonogram_EMPTY →
      if d.on_row then d.lineno < c.puzzle.height else d.lineno < c.puzzle.width) :
    DriverInv d := by
  have eg : gridFn d = gridFn c := by
    unfold gridFn
    rw [e2, e3]
  refine ⟨?_, ?_, ?_, ?_, ?_, ?_, ?_, ?_, ?_, ?_, ?_, ?_, ?_⟩
  · rw [e1]; exact h.loaded
  · rw [e2]; exact h.hpos
  · rw [e2, e3]; exact h.grid_len
  · rw [e2, e4]; exact h.rowattr_len
  · rw [e2, e5]; exact h.colattr_len
  · rw [e2, e6]; exact h.rowflag_len
  · rw [e2, e7]; exact h.colflag_len
  · rw [e2, e3, e4, e5]; exact h.attr
  · rw [e2, e9]; exact h.area_x
  · rw [e2, e9]; exact h.area_y
  · rw [e2, e3, e9]; exact h.blanks
  · rw [e2]; exact e10
  · rw [e2, e8, e9, eg]; exact h.stack

theorem runDone_inv (c : nonogram_solver) (h : DriverInv c) (hs : c.status ≠ nonogram_EMPTY) :
    DriverInv (runDone c).2 := by
  unfold runDone
  by_cases hf : c.fits = 0
  · rw [if_pos hf]
    exact h.frame rfl rfl rfl rfl rfl rfl rfl rfl rfl (fun hn => absurd rfl hn)
  · rw [if_neg hf]
    have h1 := redeemstep_inv c h hs
    simp only []
    by_cases hr : (redeemstep c).1.on_row = true
    · rw [if_pos hr]
      exact h1.frame rfl rfl rfl rfl rfl (by simp) rfl rfl rfl (fun hn => absurd rfl hn)
    · rw [if_neg hr]
      exact h1.frame rfl rfl rfl rfl rfl rfl (by simp) rfl rfl (fun hn => absurd rfl hn)

theorem step_inv (c : nonogram_solver) (r : LineCall) (h : DriverInv c)
    (hs : c.status ≠ nonogram_EMPTY) :
    DriverInv (step c r) ∧ (step c r).status ≠ nonogram_EMPTY := by
  have hl := h.line hs
  unfold step
  split_ifs with h1 h2
  · exact ⟨h.frame rfl rfl rfl rfl rfl rfl rfl rfl rfl (fun _ => hl), by
      show nonogram_DONE ≠ nonogram_EMPTY
      decide⟩
  · exact ⟨h.frame rfl rfl rfl rfl rfl rfl rfl rfl rfl (fun _ => hl), by
      show nonogram_WORKING ≠ nonogram_EMPTY
      decide⟩
  · exact ⟨h.frame rfl rfl rfl rfl rfl rfl rfl rfl rfl (fun _ => hl), by
      show nonogram_DONE ≠ nonogram_EMPTY
      decide⟩

theorem stepLoop_inv : ∀ (rs : List LineCall) (c : nonogram_solver), DriverInv c →
    c.status ≠ nonogram_EMPTY → DriverInv (stepLoop rs c) := by
  intro rs
  induction rs with
  | nil => intro c h _; exact h
  | cons r rs ih =>
    intro c h hs
    unfold stepLoop
    split_ifs
    · exact ih _ (step_inv c r h hs).1 (step_inv c r h hs).2
    · exact h

/-- The line that the loop of `findeasiest` holds is the one it started with
or one of the lines it went through. -/
theorem findeasiestLoop_range (flag : List Nat) (attr : List nonogram_lineattr) (row : Bool) :
    ∀ (k i : Nat) (s : Nat × Int × Nat × Bool),
      findeasiestLoop flag attr row k i s = s ∨
      ((findeasiestLoop flag attr row k i s).2.2.2 = row ∧
        (findeasiestLoop flag attr row k i s).2.2.1 < i + k) := by
  intro k
  induction k with
  | zero => intro i s; left; rfl
  | succ k ih =>
    intro i s
    obtain ⟨level, score, lineno, on_row⟩ := s
    unfold findeasiestLoop
    split_ifs
    · rcases ih (i + 1) (flagAt flag i, (attrAt attr i).score, i, row) with e | e
      · rw [e]; right; exact ⟨rfl, by show i < i + (k + 1); omega⟩
      · right; exact ⟨e.1, by omega⟩
    · rcases ih (i + 1) (level, score, lineno, on_row) with e | e
      · left; exact e
      · right; exact ⟨e.1, by omega⟩

theorem findeasiest_range (c : nonogram_solver) (hpos : 0 < c.puzzle.height) :
    if (findeasiest c).on_row then (findeasiest c).lineno < c.puzzle.height
    else (findeasiest c).lineno < c.puzzle.width := by
  unfold findeasiest
  simp only []
  rcases findeasiestLoop_range c.colflag c.colattr false c.puzzle.width 0
      (findeasiestLoop c.rowflag c.rowattr true c.puzzle.height 0
        (flagAt c.rowflag 0, (attrAt c.rowattr 0).score, 0, true)) with e | e
  · rw [e]
    rcases findeasiestLoop_range c.rowflag c.rowattr true c.puzzle.height 0
        (flagAt c.rowflag 0, (attrAt c.rowattr 0).score, 0, true) with e1 | e1
    · rw [e1]
      simpa using hpos
    · rw [e1.1, if_pos rfl]
      have := e1.2
      omega
  · rw [e.1]
    simp only [Bool.false_eq_true, if_false]
    have := e.2
    omega

theorem setupstep_inv (c : nonogram_solver) (r : LineCall) (h : DriverInv c) :
    DriverInv (setupstep (findeasiest c) r) := by
  have hr := findeasiest_range c h.hpos
  have h1 : DriverInv (findeasiest c) :=
    h.frame rfl rfl rfl rfl rfl rfl rfl rfl rfl (fun _ => hr)
  have hp : (findeasiest c).puzzle = c.puzzle := rfl
  unfold setupstep
  split_ifs
  · exact h1.frame rfl rfl rfl rfl rfl rfl rfl rfl rfl (fun _ => by rw [hp]; exact hr)
  · exact h1.frame rfl rfl rfl rfl rfl rfl rfl rfl rfl (fun _ => by rw [hp]; exact hr)
  · exact h1.frame rfl rfl rfl rfl rfl rfl rfl rfl rfl (fun _ => by rw [hp]; exact hr)

/-- What the restore branch of a tick does, by cell, by line attribute and by
line flag, for a saved rectangle that lies in the grid. -/
theorem runRestore_spec (c : nonogram_solver) (st : nonogram_stack) (rest : List nonogram_stack)
    (hx : st.unkarea.min.x ≤ st.unkarea.max.x) (hxw : st.unkarea.max.x ≤ c.puzzle.width)
    (hy : st.unkarea.min.y ≤ st.unkarea.max.y) (hyh : st.unkarea.max.y ≤ c.puzzle.height)
    (hg : c.grid.length = c.puzzle.width * c.puzzle.height)
    (hra : c.rowattr.length = c.puzzle.height) (hca : c.colattr.length = c.puzzle.width)
    (hrf : c.rowflag.length = c.puzzle.height) (hcf : c.colflag.length = c.puzzle.width) :
    (runRestore c st rest).2.grid.length = c.grid.length ∧
    (runRestore c st rest).2.rowattr.length = c.rowattr.length ∧
    (runRestore c st rest).2.colattr.length = c.colattr.length ∧
    (runRestore c st rest).2.rowflag.length = c.rowflag.length ∧
    (runRestore c st rest).2.colflag.length = c.colflag.length ∧
    (∀ x y, x < c.puzzle.width → y < c.puzzle.height →
      cellAt (runRestore c st rest).2.grid (x + y * c.puzzle.width) =
        if st.unkarea.has x y = true then st.cell x y
        else cellAt c.grid (x + y * c.puzzle.width)) ∧
    (∀ y, attrAt (runRestore c st rest).2.rowattr y =
      if st.unkarea.min.y ≤ y ∧ y < st.unkarea.max.y then
        attrAt st.rowattr (y - st.unkarea.min.y) else attrAt c.rowattr y) ∧
    (∀ x, attrAt (runRestore c st rest).2.colattr x =
      if st.unkarea.min.x ≤ x ∧ x < st.unkarea.max.x then
        attrAt st.colattr (x - st.unkarea.min.x) else attrAt c.colattr x) ∧
    (∀ y, flagAt (runRestore c st rest).2.rowflag y =
      if y = st.guesspos.y ∧ y < c.puzzle.height then c.levels
      else if st.unkarea.min.y ≤ y ∧ y < st.unkarea.max.y then 0 else flagAt c.rowflag y) ∧
    (∀ x, flagAt (runRestore c st rest).2.colflag x =
      if x = st.guesspos.x ∧ x < c.puzzle.width then c.levels
      else if st.unkarea.min.x ≤ x ∧ x < st.unkarea.max.x then 0 else flagAt c.colflag x) := by
  have hw : st.unkarea.min.x + st.unkarea.w ≤ c.puzzle.width := by
    unfold nonogram_rect.w; omega
  have ew : st.unkarea.min.x + st.unkarea.w = st.unkarea.max.x := by
    unfold nonogram_rect.w; omega
  have eh : st.unkarea.min.y + st.unkarea.h = st.unkarea.max.y := by
    unfold nonogram_rect.h; omega
  obtain ⟨r1, r2, r3, r4, r5, r6⟩ := restoreRows_spec c.puzzle.width st hw st.unkarea.h 0
    c.grid c.rowflag c.rowattr
  obtain ⟨q1, q2, q3, q4⟩ := restoreCols_spec st st.unkarea.w 0 c.colflag c.colattr
  unfold runRestore
  simp only []
  refine ⟨r1, r3, q2, ?_, ?_, ?_, ?_, ?_, ?_, ?_⟩
  · rw [List.length_set]; exact r2
  · rw [List.length_set]; exact q1
  · intro x y hx1 hy1
    rw [r4 x y hx1 (by rw [hg]; exact index_lt hx1 hy1)]
    unfold nonogram_stack.cell
    by_cases e : st.unkarea.has x y = true
    · rw [if_pos e]
      rw [rect_has_iff] at e
      rw [if_pos (by omega)]
    · rw [if_neg e]
      rw [rect_has_iff] at e
      rw [if_neg (by omega)]
  · intro y
    rw [r6 y]
    split_ifs <;> first | rfl | (exfalso; omega)
  · intro x
    rw [q4 x]
    split_ifs <;> first | rfl | (exfalso; omega)
  · intro y
    rw [flagAt_set, r5 y, r2]
    split_ifs <;> first | rfl | (exfalso; omega)
  · intro x
    rw [flagAt_set, q3 x, q1]
    split_ifs <;> first | rfl | (exfalso; omega)

/-- The restore branch keeps the driver invariant. -/
theorem runRestore_inv (c : nonogram_solver) (st : nonogram_stack) (rest : List nonogram_stack)
    (h : DriverInv c) (hst : c.stack = st :: rest) : DriverInv (runRestore c st rest).2 := by
  have hs := h.stack
  rw [hst] at hs
  obtain ⟨a1, a2, a3, a4, a5, a6, a7, a8, a9, a10, a11, a12, a13⟩ := hs
  obtain ⟨s1, s2, s3, s4, s5, s6, s7, s8, _, _⟩ := runRestore_spec c st rest a5 a7 a6 a8
    h.grid_len h.rowattr_len h.colattr_len h.rowflag_len h.colflag_len
  have ew : st.unkarea.min.x + st.unkarea.w = st.unkarea.max.x := by
    unfold nonogram_rect.w; omega
  have eh : st.unkarea.min.y + st.unkarea.h = st.unkarea.max.y := by
    unfold nonogram_rect.h; omega
  have hp : (runRestore c st rest).2.puzzle = c.puzzle := rfl
  have hu : (runRestore c st rest).2.unkarea = st.unkarea := rfl
  -- a BLANK cell of the working grid lies in the saved rectangle
  have hin : ∀ x y, x < c.puzzle.width → y < c.puzzle.height →
      cellAt c.grid (x + y * c.puzzle.width) = nonogram_BLANK → st.unkarea.has x y = true := by
    intro x y hx hy hb
    have := h.blanks x y hx hy hb
    rw [rect_has_iff] at this ⊢
    omega
  refine ⟨h.loaded, h.hpos, ?_, ?_, ?_, ?_, ?_, ?_, ?_, ?_, ?_, ?_, ?_⟩
  · rw [hp, s1]; exact h.grid_len
  · rw [hp, s2]; exact h.rowattr_len
  · rw [hp, s3]; exact h.colattr_len
  · rw [hp, s4]; exact h.rowflag_len
  · rw [hp, s5]; exact h.colflag_len
  · rw [hp]
    constructor
    · intro y hy
      rw [s7 y]
      by_cases e : st.unkarea.min.y ≤ y ∧ y < st.unkarea.max.y
      · rw [if_pos e, a12.1 (y - st.unkarea.min.y) (by unfold nonogram_rect.h; omega)]
        unfold rowBlanks
        rw [countP_range_window _ st.unkarea.min.x st.unkarea.w c.puzzle.width (by omega)]
        · congr 1
          apply countP_range_congr
          intro j hj
          rw [s6 (st.unkarea.min.x + j) y (by omega) hy,
            if_pos (by rw [rect_has_iff]; omega)]
          unfold nonogram_stack.cell
          rw [show st.unkarea.min.x + j - st.unkarea.min.x = j by omega]
        · intro x hx hout
          rw [s6 x y hx hy, if_neg (by rw [rect_has_iff]; omega)]
          have : ¬ cellAt c.grid (x + y * c.puzzle.width) = nonogram_BLANK := by
            intro hb
            have := hin x y hx hy hb
            rw [rect_has_iff] at this
            omega
          simpa using this
      · rw [if_neg e, h.attr.1 y hy]
        unfold rowBlanks
        congr 1
        apply countP_range_congr
        intro x hx
        rw [s6 x y hx hy, if_neg (by rw [rect_has_iff]; omega)]
    · intro x hx
      rw [s8 x]
      by_cases e : st.unkarea.min.x ≤ x ∧ x < st.unkarea.max.x
      · rw [if_pos e, a12.2 (x - st.unkarea.min.x) (by unfold nonogram_rect.w; omega)]
        unfold colBlanks
        rw [countP_range_window _ st.unkarea.min.y st.unkarea.h c.puzzle.height (by omega)]
        · congr 1
          apply countP_range_congr
          intro j hj
          rw [s6 x (st.unkarea.min.y + j) hx (by omega),
            if_pos (by rw [rect_has_iff]; omega)]
          unfold nonogram_stack.cell
          rw [show st.unkarea.min.y + j - st.unkarea.min.y = j by omega]
        · intro y hy hout
          rw [s6 x y hx hy, if_neg (by rw [rect_has_iff]; omega)]
          have : ¬ cellAt c.grid (x + y * c.puzzle.width) = nonogram_BLANK := by
            intro hb
            have := hin x y hx hy hb
            rw [rect_has_iff] at this
            omega
          simpa using this
      · rw [if_neg e, h.attr.2 x hx]
        unfold colBlanks
        congr 1
        apply countP_range_congr
        intro y hy
        rw [s6 x y hx hy, if_neg (by rw [rect_has_iff]; omega)]
  · rw [hp, hu]; exact a7
  · rw [hp, hu]; exact a8
  · intro x y hx hy hb
    rw [hp] at hx hy hb
    rw [hu]
    rw [s6 x y hx hy] at hb
    by_cases e : st.unkarea.has x y = true
    · exact e
    · rw [if_neg e] at hb
      exact hin x y hx hy hb
  · exact h.line
  · rw [hp, hu]
    have eg : gridFn (runRestore c st rest).2 = restoredCell st (gridFn c) := by
      funext x y
      show (if x < c.puzzle.width ∧ y < c.puzzle.height
          then cellAt (runRestore c st rest).2.grid (x + y * c.puzzle.width)
          else nonogram_BLANK) =
        if st.unkarea.has x y = true then st.cell x y
        else if x < c.puzzle.width ∧ y < c.puzzle.height
          then cellAt c.grid (x + y * c.puzzle.width) else nonogram_BLANK
      by_cases hr : x < c.puzzle.width ∧ y < c.puzzle.height
      · rw [if_pos hr, if_pos hr, s6 x y hr.1 hr.2]
      · rw [if_neg hr, if_neg hr, if_neg]
        rw [rect_has_iff]
        omega
    rw [eg]
    exact a13

theorem attrAt_map_range (f : Nat → nonogram_lineattr) (n i : Nat) (hi : i < n) :
    attrAt ((List.range n).map f) i = f i := by
  unfold attrAt
  rw [List.getD_eq_getElem?_getD, List.getElem?_map, List.getElem?_range hi]
  rfl

theorem xor_both (v : Nat) (h : v = nonogram_DOT ∨ v = nonogram_SOLID) :
    (v ^^^ nonogram_BOTH = nonogram_DOT ∨ v ^^^ nonogram_BOTH = nonogram_SOLID) ∧
      (v ^^^ nonogram_BOTH) ^^^ nonogram_BOTH = v ∧ v ≠ nonogram_BLANK ∧
      v ^^^ nonogram_BOTH ≠ nonogram_BLANK := by
  rcases h with e | e <;> subst e <;> decide

/-- The two ways in which the guess branch returns: with the guess made but
nothing pushed when `malloc` fails, and with the complete guess otherwise. -/
theorem runGuess_cases (c : nonogram_solver) (nomem : Bool) (rc : Int) (d : nonogram_solver)
    (h : runGuess c nomem = .ret (rc, d)) :
    ∃ area pos,
      findminrect c.grid c.puzzle.width c.puzzle.height c.unkarea = .ret area ∧
      chooseX c.grid c.puzzle.width area (area.max.x - area.min.x) area.min.x = some pos ∧
      ((nomem = true ∧ rc = nonogram_ERROR ∧
          d = makeguessState { c with unkarea := area } pos (guessChoice c pos)) ∨
        (nomem = false ∧ rc = nonogram_LINE ∧ d = guessResult c area pos)) := by
  cases nomem with
  | false =>
    obtain ⟨area, pos, h1, h2, h3, h4⟩ := runGuess_ret c rc d h
    exact ⟨area, pos, h1, h2, Or.inr ⟨rfl, h3, h4⟩⟩
  | true =>
    unfold runGuess at h
    cases hf : findminrect c.grid c.puzzle.width c.puzzle.height c.unkarea with
    | assertion => rw [hf] at h; exact Run.noConfusion h
    | fuel => rw [hf] at h; exact Run.noConfusion h
    | ret area =>
      rw [hf] at h
      simp only [] at h
      unfold chooseguess at h
      simp only [] at h
      cases hx : chooseX c.grid c.puzzle.width area (area.max.x - area.min.x) area.min.x with
      | none => rw [hx] at h; exact Run.noConfusion h
      | some pos =>
        rw [hx] at h
        simp only [] at h
        have hg := guessChoice_cases c pos
        unfold guessChoice at hg
        unfold makeguess at h
        rw [if_neg (fun hn => hn hg)] at h
        simp only [if_true] at h
        have e := Run.ret.inj h
        exact ⟨area, pos, rfl, hx,
          Or.inl ⟨rfl, (congrArg Prod.fst e).symm, (congrArg Prod.snd e).symm⟩⟩

/-- What a guess tick knows about the rectangle and the position it found. -/
theorem guess_facts (c : nonogram_solver) (area : nonogram_rect) (pos : nonogram_point)
    (h1 : findminrect c.grid c.puzzle.width c.puzzle.height c.unkarea = .ret area)
    (h2 : chooseX c.grid c.puzzle.width area (area.max.x - area.min.x) area.min.x = some pos) :
    c.unkarea.min.x ≤ area.min.x ∧ c.unkarea.min.y ≤ area.min.y ∧
    area.max.x ≤ c.unkarea.max.x ∧ area.max.y ≤ c.unkarea.max.y ∧
    (∀ x y, x < c.puzzle.width → y < c.puzzle.height →
      cellAt c.grid (x + y * c.puzzle.width) = nonogram_BLANK → area.has x y = true) ∧
    area.min.x ≤ pos.x ∧ pos.x < area.max.x ∧ area.min.y ≤ pos.y ∧ pos.y < area.max.y ∧
    cellAt c.grid (pos.x + pos.y * c.puzzle.width) = nonogram_BLANK := by
  obtain ⟨f1, f2, f3, f4, f5⟩ := findminrect_ret _ _ _ _ _ h1
  obtain ⟨g1, g2, g3, g4, g5⟩ := chooseX_spec _ _ _ _ _ _ h2
  refine ⟨f1, f2, f3, f4, ?_, g1, by omega, g3, by omega, g5⟩
  intro x y hx hy hb
  rw [rect_has_iff]
  exact noBlankOutside_spec _ _ _ _ f5 x y hx hy hb

/-- The guess made by `makeguess` keeps the driver invariant. -/
theorem makeguess_inv (c : nonogram_solver) (area : nonogram_rect) (pos : nonogram_point)
    (h : DriverInv c)
    (h1 : findminrect c.grid c.puzzle.width c.puzzle.height c.unkarea = .ret area)
    (h2 : chooseX c.grid c.puzzle.width area (area.max.x - area.min.x) area.min.x = some pos) :
    DriverInv (makeguessState { c with unkarea := area } pos (guessChoice c pos)) := by
  obtain ⟨f1, f2, f3, f4, f5, g1, g2, g3, g4, g5⟩ := guess_facts c area pos h1 h2
  have hax := h.area_x
  have hay := h.area_y
  exact h.write pos.x pos.y (guessChoice c pos) c.puzzle.height c.puzzle.width (by omega)
    (by omega) g5 (xor_both _ (guessChoice_cases c pos)).2.2.1 rfl rfl rfl rfl rfl rfl rfl rfl
    f1 f3 f2 f4 f5 h.line

/-- Pushing the snapshot and flipping the guess keeps the driver invariant. -/
theorem flip_push_inv (c2 : nonogram_solver) (pos : nonogram_point) (v : Nat)
    (h2 : DriverInv c2)
    (hv : v = nonogram_DOT ∨ v = nonogram_SOLID)
    (g1 : c2.unkarea.min.x ≤ pos.x) (g2 : pos.x < c2.unkarea.max.x)
    (g3 : c2.unkarea.min.y ≤ pos.y) (g4 : pos.y < c2.unkarea.max.y)
    (hc : cellAt c2.grid (pos.x + pos.y * c2.puzzle.width) = v) :
    DriverInv (flipguess { c2 with stack := snapshot c2 c2.unkarea pos :: c2.stack } pos
      (v ^^^ nonogram_BOTH)) := by
  obtain ⟨x1, x2, x3, x4⟩ := xor_both v hv
  have hax := h2.area_x
  have hay := h2.area_y
  have hpx : pos.x < c2.puzzle.width := by omega
  have hpy : pos.y < c2.puzzle.height := by omega
  have hidx : pos.x + pos.y * c2.puzzle.width < c2.grid.length := by
    rw [h2.grid_len]; exact index_lt hpx hpy
  have hcb : cellAt c2.grid (pos.x + pos.y * c2.puzzle.width) ≠ nonogram_BLANK := by
    rw [hc]; exact x3
  have ew : c2.unkarea.min.x + c2.unkarea.w = c2.unkarea.max.x := by
    unfold nonogram_rect.w; omega
  have eh : c2.unkarea.min.y + c2.unkarea.h = c2.unkarea.max.y := by
    unfold nonogram_rect.h; omega
  -- a BLANK cell lies in the rectangle
  have hout : ∀ x y, x < c2.puzzle.width → y < c2.puzzle.height →
      ¬ (c2.unkarea.min.x ≤ x ∧ x < c2.unkarea.max.x ∧ c2.unkarea.min.y ≤ y ∧
        y < c2.unkarea.max.y) →
      decide (cellAt c2.grid (x + y * c2.puzzle.width) = nonogram_BLANK) = false := by
    intro x y hx hy hn
    have : ¬ cellAt c2.grid (x + y * c2.puzzle.width) = nonogram_BLANK := by
      intro hb
      have := h2.blanks x y hx hy hb
      rw [rect_has_iff] at this
      exact hn this
    simpa using this
  refine ⟨h2.loaded, h2.hpos, ?_, ?_, ?_, ?_, ?_, ?_, h2.area_x, h2.area_y, ?_, h2.line, ?_⟩
  · show (c2.grid.set _ _).length = _
    rw [List.length_set]; exact h2.grid_len
  · show (c2.rowattr.set _ _).length = _
    rw [List.length_set]; exact h2.rowattr_len
  · show (c2.colattr.set _ _).length = _
    rw [List.length_set]; exact h2.colattr_len
  · show (c2.rowflag.set _ _).length = _
    rw [List.length_set]; exact h2.rowflag_len
  · show (c2.colflag.set _ _).length = _
    rw [List.length_set]; exact h2.colflag_len
  · exact h2.attr.flip pos.x pos.y (v ^^^ nonogram_BOTH) hcb x4
  · intro x y hx hy hb
    apply h2.blanks x y hx hy
    have hb2 : cellAt (c2.grid.set (pos.x + pos.y * c2.puzzle.width) (v ^^^ nonogram_BOTH))
        (x + y * c2.puzzle.width) = nonogram_BLANK := hb
    rw [cellAt_set] at hb2
    split_ifs at hb2 with e
    · exact absurd hb2 x4
    · exact hb2
  · show StackInv c2.puzzle.width c2.puzzle.height c2.unkarea _
      (snapshot c2 c2.unkarea pos :: c2.stack)
    have hsnap : ∀ x y, c2.unkarea.has x y = true →
        (snapshot c2 c2.unkarea pos).cell x y = cellAt c2.grid (x + y * c2.puzzle.width) := by
      intro x y hh
      rw [rect_has_iff] at hh
      unfold nonogram_stack.cell
      show cellAt (snapshot c2 c2.unkarea pos).grid
        ((y - c2.unkarea.min.y) * c2.unkarea.w + (x - c2.unkarea.min.x)) = _
      rw [cellAt_snapshot c2 c2.unkarea pos _ _ (by unfold nonogram_rect.w; omega)
        (by unfold nonogram_rect.h; omega)]
      congr 1
      rw [show y - c2.unkarea.min.y + c2.unkarea.min.y = y by omega]
      omega
    have hgd : ∀ x y, gridFn (flipguess
        { c2 with stack := snapshot c2 c2.unkarea pos :: c2.stack } pos (v ^^^ nonogram_BOTH))
        x y = if x = pos.x ∧ y = pos.y then v ^^^ nonogram_BOTH else gridFn c2 x y := by
      intro x y
      show (if x < c2.puzzle.width ∧ y < c2.puzzle.height then
          cellAt (c2.grid.set (pos.x + pos.y * c2.puzzle.width) (v ^^^ nonogram_BOTH))
            (x + y * c2.puzzle.width) else nonogram_BLANK) =
        if x = pos.x ∧ y = pos.y then v ^^^ nonogram_BOTH
        else if x < c2.puzzle.width ∧ y < c2.puzzle.height then
          cellAt c2.grid (x + y * c2.puzzle.width) else nonogram_BLANK
      by_cases e : x = pos.x ∧ y = pos.y
      · rw [if_pos e, e.1, e.2, if_pos ⟨hpx, hpy⟩, cellAt_set, if_pos ⟨rfl, hidx⟩]
      · rw [if_neg e]
        by_cases hr : x < c2.puzzle.width ∧ y < c2.puzzle.height
        · rw [if_pos hr, if_pos hr, cellAt_set, if_neg]
          rintro ⟨e1, _⟩
          obtain ⟨e2, e3⟩ := index_inj hpx hr.1 e1
          exact e ⟨e2.symm, e3.symm⟩
        · rw [if_neg hr, if_neg hr]
    refine ⟨Nat.le_refl _, Nat.le_refl _, Nat.le_refl _, Nat.le_refl _, by
      show c2.unkarea.min.x ≤ c2.unkarea.max.x
      omega, by
      show c2.unkarea.min.y ≤ c2.unkarea.max.y
      omega, hax, hay, ?_, ?_, ?_, ?_, ?_⟩
    · show c2.unkarea.has pos.x pos.y = true
      rw [rect_has_iff]; exact ⟨g1, g2, g3, g4⟩
    · show gridFn _ pos.x pos.y = _ ∨ gridFn _ pos.x pos.y = _
      rw [hgd, if_pos ⟨rfl, rfl⟩]
      exact x1
    · show (snapshot c2 c2.unkarea pos).cell pos.x pos.y = gridFn _ pos.x pos.y ^^^ _
      rw [hgd, if_pos ⟨rfl, rfl⟩, x2, hsnap _ _ (by rw [rect_has_iff]; exact ⟨g1, g2, g3, g4⟩),
        hc]
    · constructor
      · intro y hy
        have hy2 : y + c2.unkarea.min.y < c2.puzzle.height := by
          have : y < c2.unkarea.h := hy
          omega
        have hy1 : y < c2.unkarea.h := hy
        show (attrAt ((List.range c2.unkarea.h).map
            (fun y => attrAt c2.rowattr (y + c2.unkarea.min.y))) y).solid +
          (attrAt ((List.range c2.unkarea.h).map
            (fun y => attrAt c2.rowattr (y + c2.unkarea.min.y))) y).dot =
          (((List.range c2.unkarea.w).countP (fun x => decide
            (cellAt (snapshot c2 c2.unkarea pos).grid (y * c2.unkarea.w + x) =
              nonogram_BLANK)) : Nat) : Int)
        rw [attrAt_map_range _ _ _ hy1, h2.attr.1 _ hy2]
        unfold rowBlanks
        rw [countP_range_window _ c2.unkarea.min.x c2.unkarea.w c2.puzzle.width (by omega)]
        · congr 1
          apply countP_range_congr
          intro j hj
          show decide (cellAt c2.grid _ = nonogram_BLANK) =
            decide (cellAt (snapshot c2 c2.unkarea pos).grid (y * c2.unkarea.w + j) = _)
          rw [cellAt_snapshot c2 c2.unkarea pos j y hj hy1,
            show c2.unkarea.min.x + j + (y + c2.unkarea.min.y) * c2.puzzle.width =
              c2.unkarea.min.x + (y + c2.unkarea.min.y) * c2.puzzle.width + j by omega]
        · intro x hx hn
          exact hout x _ hx hy2 (by omega)
      · intro x hx
        have hx2 : x + c2.unkarea.min.x < c2.puzzle.width := by
          have : x < c2.unkarea.w := hx
          omega
        have hx1 : x < c2.unkarea.w := hx
        show (attrAt ((List.range c2.unkarea.w).map
            (fun x => attrAt c2.colattr (x + c2.unkarea.min.x))) x).solid +
          (attrAt ((List.range c2.unkarea.w).map
            (fun x => attrAt c2.colattr (x + c2.unkarea.min.x))) x).dot =
          (((List.range c2.unkarea.h).countP (fun y => decide
            (cellAt (snapshot c2 c2.unkarea pos).grid (y * c2.unkarea.w + x) =
              nonogram_BLANK)) : Nat) : Int)
        rw [attrAt_map_range _ _ _ hx1, h2.attr.2 _ hx2]
        unfold colBlanks
        rw [countP_range_window _ c2.unkarea.min.y c2.unkarea.h c2.puzzle.height (by omega)]
        · congr 1
          apply countP_range_congr
          intro j hj
          show decide (cellAt c2.grid _ = nonogram_BLANK) =
            decide (cellAt (snapshot c2 c2.unkarea pos).grid (j * c2.unkarea.w + x) = _)
          rw [cellAt_snapshot c2 c2.unkarea pos x j hx1 hj, Nat.add_comm c2.unkarea.min.y j,
            show x + c2.unkarea.min.x + (j + c2.unkarea.min.y) * c2.puzzle.width =
              c2.unkarea.min.x + (j + c2.unkarea.min.y) * c2.puzzle.width + x by omega]
        · intro y hy hn
          exact hout _ y hx2 hy (by omega)
    · have eg : restoredCell (snapshot c2 c2.unkarea pos) (gridFn (flipguess
          { c2 with stack := snapshot c2 c2.unkarea pos :: c2.stack } pos
          (v ^^^ nonogram_BOTH))) = gridFn c2 := by
        funext x y
        unfold restoredCell
        by_cases e : c2.unkarea.has x y = true
        · have e1 : (snapshot c2 c2.unkarea pos).unkarea.has x y = true := e
          rw [if_pos e1, hsnap x y e]
          rw [rect_has_iff] at e
          unfold gridFn
          rw [if_pos ⟨by omega, by omega⟩]
        · have e1 : ¬ (snapshot c2 c2.unkarea pos).unkarea.has x y = true := e
          rw [if_neg e1, hgd, if_neg]
          rintro ⟨rfl, rfl⟩
          exact e (by rw [rect_has_iff]; exact ⟨g1, g2, g3, g4⟩)
      show StackInv c2.puzzle.width c2.puzzle.height c2.unkarea _ c2.stack
      rw [eg]
      exact h2.stack

theorem guessResult_inv (c : nonogram_solver) (area : nonogram_rect) (pos : nonogram_point)
    (h : DriverInv c)
    (h1 : findminrect c.grid c.puzzle.width c.puzzle.height c.unkarea = .ret area)
    (h2 : chooseX c.grid c.puzzle.width area (area.max.x - area.min.x) area.min.x = some pos) :
    DriverInv (guessResult c area pos) := by
  obtain ⟨f1, f2, f3, f4, f5, g1, g2, g3, g4, g5⟩ := guess_facts c area pos h1 h2
  have hi := makeguess_inv c area pos h h1 h2
  have hax := h.area_x
  have hay := h.area_y
  have hidx : pos.x + pos.y * c.puzzle.width < c.grid.length := by
    rw [h.grid_len]; exact index_lt (by omega) (by omega)
  exact flip_push_inv (makeguessState { c with unkarea := area } pos (guessChoice c pos)) pos
    (guessChoice c pos) hi (guessChoice_cases c pos) g1 g2 g3 g4 (by
      show cellAt (c.grid.set (pos.x + pos.y * c.puzzle.width) (guessChoice c pos))
        (pos.x + pos.y * c.puzzle.width) = _
      rw [cellAt_set, if_pos ⟨rfl, hidx⟩])

theorem findBelowLeft_fuel (grid : List Nat) (pw : Nat) (orig : nonogram_rect) :
    ∀ (k y xlim : Nat) (s : Nat × Nat), findBelowLeft grid pw orig k y xlim s ≠ .fuel := by
  intro k
  induction k with
  | zero => intro y xlim s; unfold findBelowLeft; exact fun hn => Run.noConfusion hn
  | succ k ih =>
    intro y xlim s
    obtain ⟨minx, maxy⟩ := s
    unfold findBelowLeft
    split_ifs <;> first
      | exact fun hn => Run.noConfusion hn
      | (split <;> exact ih _ _ _)

theorem findBottomRight_fuel (grid : List Nat) (pw : Nat) (orig : nonogram_rect) (old : Nat) :
    ∀ (k y xlim : Nat) (s : Nat × Nat),
      findBottomRight grid pw orig old k y xlim s ≠ .fuel := by
  intro k
  induction k with
  | zero => intro y xlim s; unfold findBottomRight; exact fun hn => Run.noConfusion hn
  | succ k ih =>
    intro y xlim s
    obtain ⟨maxx, maxy⟩ := s
    unfold findBottomRight
    split_ifs <;> first
      | exact fun hn => Run.noConfusion hn
      | (split <;> exact ih _ _ _)

theorem findRight_fuel (grid : List Nat) (pw : Nat) (orig : nonogram_rect) (miny : Nat) :
    ∀ (k y xlim maxx : Nat), findRight grid pw orig miny k y xlim maxx ≠ .fuel := by
  intro k
  induction k with
  | zero => intro y xlim s; unfold findRight; exact fun hn => Run.noConfusion hn
  | succ k ih =>
    intro y xlim maxx
    unfold findRight
    split_ifs <;> first
      | exact fun hn => Run.noConfusion hn
      | (split <;> exact ih _ _ _)

theorem findminrectLoops_fuel (grid : List Nat) (pw : Nat) (orig : nonogram_rect) :
    findminrectLoops grid pw orig ≠ .fuel := by
  unfold findminrectLoops
  cases findFirst grid pw orig (orig.max.y - orig.min.y) orig.min.y with
  | none => exact fun hn => Run.noConfusion hn
  | some p =>
    obtain ⟨ls, miny⟩ := p
    simp only []
    cases h1 : findBelowLeft grid pw orig (orig.max.y - (miny + 1)) (miny + 1)
        (ls % pw + (miny + 1) * pw) (ls % pw, miny + 1) with
    | assertion => exact fun hn => Run.noConfusion hn
    | fuel => exact absurd h1 (findBelowLeft_fuel _ _ _ _ _ _ _)
    | ret s =>
      obtain ⟨minx, maxy2⟩ := s
      simp only []
      cases h2 : findBottomRight grid pw orig (ls % pw + 1) orig.max.y orig.max.y
          (ls % pw + 1 + (orig.max.y - 1) * pw) (ls % pw + 1, maxy2) with
      | assertion => exact fun hn => Run.noConfusion hn
      | fuel => exact absurd h2 (findBottomRight_fuel _ _ _ _ _ _ _ _)
      | ret s =>
        obtain ⟨maxx3, maxy⟩ := s
        simp only []
        cases h3 : findRight grid pw orig miny maxy maxy (maxx3 + (maxy - 1) * pw) maxx3 with
        | assertion => exact fun hn => Run.noConfusion hn
        | fuel => exact absurd h3 (findRight_fuel _ _ _ _ _ _ _ _)
        | ret maxx => exact fun hn => Run.noConfusion hn

theorem findminrect_fuel (grid : List Nat) (pw ph : Nat) (orig : nonogram_rect) :
    findminrect grid pw ph orig ≠ .fuel := by
  unfold findminrect
  cases hh : findminrectLoops grid pw orig with
  | assertion => simp only []; split_ifs <;> exact fun hn => Run.noConfusion hn
  | fuel => exact absurd hh (findminrectLoops_fuel _ _ _)
  | ret o =>
    cases o with
    | none => simp only []; split_ifs <;> exact fun hn => Run.noConfusion hn
    | some b => simp only []; split_ifs <;> exact fun hn => Run.noConfusion hn

theorem runGuess_fuel (c : nonogram_solver) (nomem : Bool) : runGuess c nomem ≠ .fuel := by
  intro hn
  unfold runGuess at hn
  cases hf : findminrect c.grid c.puzzle.width c.puzzle.height c.unkarea with
  | assertion => rw [hf] at hn; exact Run.noConfusion hn
  | fuel => exact absurd hf (findminrect_fuel _ _ _ _)
  | ret area =>
    rw [hf] at hn
    simp only [] at hn
    unfold chooseguess at hn
    simp only [] at hn
    cases hx : chooseX c.grid c.puzzle.width area (area.max.x - area.min.x) area.min.x with
    | none => rw [hx] at hn; exact Run.noConfusion hn
    | some pos =>
      rw [hx] at hn
      simp only [] at hn
      have hg := guessChoice_cases c pos
      unfold guessChoice at hg
      unfold makeguess at hn
      rw [if_neg (fun h => h hg)] at hn
      simp only [] at hn
      split_ifs at hn

/-- A tick never stops for want of fuel: every loop of the driver is bounded
by the size of the grid. -/
theorem runcycles_fuel (c : nonogram_solver) (env : TickEnv) :
    nonogram_runcycles c env ≠ .fuel := by
  unfold nonogram_runcycles
  split_ifs <;> first
    | exact fun hn => Run.noConfusion hn
    | exact runGuess_fuel _ _
    | (split <;> exact fun hn => Run.noConfusion hn)

/-- Every tick keeps the driver invariant. -/
theorem runcycles_inv (c : nonogram_solver) (env : TickEnv) (rc : Int) (d : nonogram_solver)
    (h : DriverInv c) (hr : nonogram_runcycles c env = .ret (rc, d)) : DriverInv d := by
  unfold nonogram_runcycles at hr
  rw [if_neg (fun hn => hn h.loaded)] at hr
  by_cases h2 : c.status = nonogram_WORKING
  · rw [if_pos h2] at hr
    have e : stepLoop env.steps c = d := congrArg Prod.snd (Run.ret.inj hr)
    rw [← e]
    exact stepLoop_inv _ _ h (by rw [h2]; decide)
  rw [if_neg h2] at hr
  by_cases h3 : c.status = nonogram_DONE
  · rw [if_pos h3] at hr
    have e : (runDone c).2 = d := congrArg Prod.snd (Run.ret.inj hr)
    rw [← e]
    exact runDone_inv c h (by rw [h3]; decide)
  rw [if_neg h3] at hr
  by_cases h4 : c.remcells < 0
  · rw [if_pos h4] at hr
    cases hst : c.stack with
    | nil =>
      rw [hst] at hr
      have e : c = d := congrArg Prod.snd (Run.ret.inj hr)
      rw [← e]
      exact h
    | cons st rest =>
      rw [hst] at hr
      have e : (runRestore c st rest).2 = d := congrArg Prod.snd (Run.ret.inj hr)
      rw [← e]
      exact runRestore_inv c st rest h hst
  rw [if_neg h4] at hr
  by_cases h5 : c.reminfo > 0
  · rw [if_pos h5] at hr
    have e : setupstep (findeasiest c) env.init = d := congrArg Prod.snd (Run.ret.inj hr)
    rw [← e]
    exact setupstep_inv c env.init h
  rw [if_neg h5] at hr
  by_cases h6 : c.remcells = 0
  · rw [if_pos h6] at hr
    have e : { c with presented := c.presented ++ [c.grid], remcells := -1 } = d :=
      congrArg Prod.snd (Run.ret.inj hr)
    rw [← e]
    exact h.frame rfl rfl rfl rfl rfl rfl rfl rfl rfl h.line
  rw [if_neg h6] at hr
  obtain ⟨area, pos, g1, g2, g3⟩ := runGuess_cases c env.nomem rc d hr
  rcases g3 with ⟨_, _, e⟩ | ⟨_, _, e⟩
  · rw [e]; exact makeguess_inv c area pos h g1 g2
  · rw [e]; exact guessResult_inv c area pos h g1 g2

theorem runTicks_fuel : ∀ (envs : List TickEnv) (c : nonogram_solver),
    runTicks envs c ≠ .fuel := by
  intro envs
  induction envs with
  | nil => intro c; exact fun hn => Run.noConfusion hn
  | cons env envs ih =>
    intro c
    unfold runTicks
    split
    · exact fun hn => Run.noConfusion hn
    · rename_i hh
      exact absurd hh (runcycles_fuel c env)
    · exact ih _

theorem runTicks_inv : ∀ (envs : List TickEnv) (c d : nonogram_solver), DriverInv c →
    runTicks envs c = .ret d → DriverInv d := by
  intro envs
  induction envs with
  | nil =>
    intro c d h hr
    rw [← Run.ret.inj hr]
    exact h
  | cons env envs ih =>
    intro c d h hr
    unfold runTicks at hr
    split at hr
    · exact Run.noConfusion hr
    · exact Run.noConfusion hr
    · rename_i rc c1 hh
      exact ih c1 d (runcycles_inv c env rc c1 h hh) hr

theorem attrAt_map (l : List (List Nat)) (f : List Nat → nonogram_lineattr) (i : Nat)
    (hi : i < l.length) : ∃ r, r ∈ l ∧ attrAt (l.map f) i = f r := by
  refine ⟨l.get ⟨i, hi⟩, List.get_mem _ _ _, ?_⟩
  unfold attrAt
  rw [List.getD_eq_getElem?_getD, List.getElem?_map, List.getElem?_eq_getElem hi]
  rfl

theorem rowBlanks_replicate (pw ph y : Nat) (hy : y < ph) :
    rowBlanks (List.replicate (pw * ph) nonogram_BLANK) pw y = pw := by
  unfold rowBlanks
  rw [List.countP_eq_length.2, List.length_range]
  intro x hx
  rw [cellAt_replicate _ _ _ (index_lt (List.mem_range.1 hx) hy)]
  rfl

theorem colBlanks_replicate (pw ph x : Nat) (hx : x < pw) :
    colBlanks (List.replicate (pw * ph) nonogram_BLANK) pw ph x = ph := by
  unfold colBlanks
  rw [List.countP_eq_length.2, List.length_range]
  intro y hy
  rw [cellAt_replicate _ _ _ (index_lt hx (List.mem_range.1 hy))]
  rfl

/-- The state after `nonogram_load` with an all-BLANK grid satisfies the
driver invariant. -/
theorem load_inv (c0 : nonogram_solver) (puzzle : Puzzle) (remcells : Int)
    (hnl : c0.loaded = false) (hpos : 0 < puzzle.height)
    (hW : (puzzle.width : Int) < 2 ^ 31) (hH : (puzzle.height : Int) < 2 ^ 31)
    (hrow : ∀ r, r ∈ puzzle.row → (r.sum : Int) < 2 ^ 31)
    (hcol : ∀ r, r ∈ puzzle.col → (r.sum : Int) < 2 ^ 31) :
    DriverInv (nonogram_load c0 puzzle
      (List.replicate (puzzle.width * puzzle.height) nonogram_BLANK) remcells).2 := by
  unfold nonogram_load
  rw [hnl]
  simp only [Bool.false_eq_true, if_false]
  refine ⟨rfl, hpos, ?_, ?_, ?_, ?_, ?_, ?_, ?_, ?_, ?_, ?_, ?_⟩
  · show (List.replicate _ _).length = _
    rw [List.length_replicate]
  · show (puzzle.row.map _).length = _
    rw [List.length_map]; rfl
  · show (puzzle.col.map _).length = _
    rw [List.length_map]; rfl
  · show (List.replicate _ _).length = _
    rw [List.length_replicate]
  · show (List.replicate _ _).length = _
    rw [List.length_replicate]
  · constructor
    · intro y hy
      obtain ⟨r, hr, e⟩ := attrAt_map puzzle.row
        (fun rule => makescore rule (toInt32 puzzle.width)) y hy
      show (attrAt (puzzle.row.map _) y).solid + (attrAt (puzzle.row.map _) y).dot =
        (rowBlanks (List.replicate _ _) puzzle.width y : Int)
      rw [e, rowBlanks_replicate _ _ _ hy, makescore_stored r puzzle.width hW (hrow r hr)]
      show (r.sum : Int) + ((puzzle.width : Int) - r.sum) = _
      omega
    · intro x hx
      obtain ⟨r, hr, e⟩ := attrAt_map puzzle.col
        (fun rule => makescore rule (toInt32 puzzle.height)) x hx
      show (attrAt (puzzle.col.map _) x).solid + (attrAt (puzzle.col.map _) x).dot =
        (colBlanks (List.replicate _ _) puzzle.width puzzle.height x : Int)
      rw [e, colBlanks_replicate _ _ _ hx, makescore_stored r puzzle.height hH (hcol r hr)]
      show (r.sum : Int) + ((puzzle.height : Int) - r.sum) = _
      omega
  · exact Nat.le_refl _
  · exact Nat.le_refl _
  · intro x y hx hy _
    rw [rect_has_iff]
    exact ⟨Nat.zero_le _, hx, Nat.zero_le _, hy⟩
  · intro hn
    exact absurd rfl hn
  · trivial

theorem step_puzzle (c : nonogram_solver) (r : LineCall) : (step c r).puzzle = c.puzzle := by
  unfold step
  split_ifs <;> rfl

theorem stepLoop_puzzle : ∀ (rs : List LineCall) (c : nonogram_solver),
    (stepLoop rs c).puzzle = c.puzzle := by
  intro rs
  induction rs with
  | nil => intro c; rfl
  | cons r rs ih =>
    intro c
    unfold stepLoop
    split_ifs
    · rw [ih, step_puzzle]
    · rfl

theorem runDone_puzzle (c : nonogram_solver) : (runDone c).2.puzzle = c.puzzle := by
  unfold runDone
  have := (redeemstep_frame c).puzzle
  by_cases hf : c.fits = 0
  · rw [if_pos hf]
  · rw [if_neg hf]
    simp only []
    split_ifs <;> exact this

theorem setupstep_puzzle (c : nonogram_solver) (r : LineCall) :
    (setupstep c r).puzzle = c.puzzle := by
  unfold setupstep
  split_ifs <;> rfl

/-- No tick changes the puzzle of the solver. -/
theorem runcycles_puzzle (c : nonogram_solver) (env : TickEnv) (rc : Int) (d : nonogram_solver)
    (hr : nonogram_runcycles c env = .ret (rc, d)) : d.puzzle = c.puzzle := by
  unfold nonogram_runcycles at hr
  by_cases h1 : ¬ (c.loaded = true)
  · rw [if_pos h1] at hr
    have e : c = d := congrArg Prod.snd (Run.ret.inj hr)
    rw [← e]
  rw [if_neg h1] at hr
  by_cases h2 : c.status = nonogram_WORKING
  · rw [if_pos h2] at hr
    have e : stepLoop env.steps c = d := congrArg Prod.snd (Run.ret.inj hr)
    rw [← e, stepLoop_puzzle]
  rw [if_neg h2] at hr
  by_cases h3 : c.status = nonogram_DONE
  · rw [if_pos h3] at hr
    have e : (runDone c).2 = d := congrArg Prod.snd (Run.ret.inj hr)
    rw [← e, runDone_puzzle]
  rw [if_neg h3] at hr
  by_cases h4 : c.remcells < 0
  · rw [if_pos h4] at hr
    cases hst : c.stack with
    | nil =>
      rw [hst] at hr
      have e : c = d := congrArg Prod.snd (Run.ret.inj hr)
      rw [← e]
    | cons st rest =>
      rw [hst] at hr
      have e : (runRestore c st rest).2 = d := congrArg Prod.snd (Run.ret.inj hr)
      rw [← e]
      rfl
  rw [if_neg h4] at hr
  by_cases h5 : c.reminfo > 0
  · rw [if_pos h5] at hr
    have e : setupstep (findeasiest c) env.init = d := congrArg Prod.snd (Run.ret.inj hr)
    rw [← e, setupstep_puzzle]
    rfl
  rw [if_neg h5] at hr
  by_cases h6 : c.remcells = 0
  · rw [if_pos h6] at hr
    have e : { c with presented := c.presented ++ [c.grid], remcells := -1 } = d :=
      congrArg Prod.snd (Run.ret.inj hr)
    rw [← e]
  rw [if_neg h6] at hr
  obtain ⟨area, pos, _, _, g3⟩ := runGuess_cases c env.nomem rc d hr
  rcases g3 with ⟨_, _, e⟩ | ⟨_, _, e⟩
  · rw [e]; rfl
  · rw [e]; rfl

theorem runTicks_puzzle : ∀ (envs : List TickEnv) (c d : nonogram_solver),
    runTicks envs c = .ret d → d.puzzle = c.puzzle := by
  intro envs
  induction envs with
  | nil =>
    intro c d hr
    rw [← Run.ret.inj hr]
  | cons env envs ih =>
    intro c d hr
    unfold runTicks at hr
    split at hr
    · exact Run.noConfusion hr
    · exact Run.noConfusion hr
    · rename_i rc c1 hh
      rw [ih c1 d hr, runcycles_puzzle c env rc c1 hh]

/-- C20: for a solver loaded with an all-BLANK grid (of a puzzle with at
least one row, whose width, height and rule totals are representable as
`int`), whatever the line solvers report, every sequence of ticks ends (by
returning or by a failed assertion, never by exhausting the model's fuel),
and in the state after the ticks every row and every column satisfies
`attr.solid + attr.dot` = number of BLANK cells on that line. -/
theorem line_attr_invariant (c0 : nonogram_solver) (puzzle : Puzzle) (remcells : Int)
    (envs : List TickEnv)
    (hnl : c0.loaded = false) (hpos : 0 < puzzle.height)
    (hW : (puzzle.width : Int) < 2 ^ 31) (hH : (puzzle.height : Int) < 2 ^ 31)
    (hrow : ∀ r, r ∈ puzzle.row → (r.sum : Int) < 2 ^ 31)
    (hcol : ∀ r, r ∈ puzzle.col → (r.sum : Int) < 2 ^ 31) :
    runTicks envs (nonogram_load c0 puzzle
      (List.replicate (puzzle.width * puzzle.height) nonogram_BLANK) remcells).2 ≠ .fuel ∧
    ∀ d, runTicks envs (nonogram_load c0 puzzle
        (List.replicate (puzzle.width * puzzle.height) nonogram_BLANK) remcells).2 = .ret d →
      (∀ y, y < puzzle.height →
        (attrAt d.rowattr y).solid + (attrAt d.rowattr y).dot =
          (rowBlanks d.grid puzzle.width y : Int)) ∧
      (∀ x, x < puzzle.width →
        (attrAt d.colattr x).solid + (attrAt d.colattr x).dot =
          (colBlanks d.grid puzzle.width puzzle.height x : Int)) := by
  refine ⟨runTicks_fuel _ _, ?_⟩
  intro d hd
  have hi := runTicks_inv envs _ d (load_inv c0 puzzle remcells hnl hpos hW hH hrow hcol) hd
  have hp : d.puzzle = puzzle := by
    rw [runTicks_puzzle envs _ d hd]
    unfold nonogram_load
    rw [hnl]
    rfl
  have := hi.attr
  rw [hp] at this
  exact this

theorem line_attr_invariant_witness :
    runTicks (List.replicate 9 noInfo2) (nonogram_load nonogram_initsolver puzzle22
      (List.replicate (puzzle22.width * puzzle22.height) nonogram_BLANK) 4).2 ≠ .fuel ∧
    ∀ d, runTicks (List.replicate 9 noInfo2) (nonogram_load nonogram_initsolver puzzle22
        (List.replicate (puzzle22.width * puzzle22.height) nonogram_BLANK) 4).2 = .ret d →
      (∀ y, y < puzzle22.height →
        (attrAt d.rowattr y).solid + (attrAt d.rowattr y).dot =
          (rowBlanks d.grid puzzle22.width y : Int)) ∧
      (∀ x, x < puzzle22.width →
        (attrAt d.colattr x).solid + (attrAt d.colattr x).dot =
          (colBlanks d.grid puzzle22.width puzzle22.height x : Int)) :=
  line_attr_invariant nonogram_initsolver puzzle22 4 (List.replicate 9 noInfo2) rfl (by decide)
    (by decide) (by decide) (by decide) (by decide)

/-- C26: along every run of ticks from a load with an all-BLANK grid (of a
puzzle with at least one row, whose width, height and rule totals are
representable as `int`), a tick that starts with status EMPTY, `remcells < 0`
and a stack element `st` on top returns `nonogram_LINE`; afterwards the stack
is one shorter, `remcells` is the saved one, `reminfo = 2`, every cell of the
saved rectangle holds its saved copy and every other cell is unchanged, the
guess cell holds the colour opposite to the one it held before the tick, the
attributes of the rows and columns of the rectangle are the saved ones, the
flags of the guess row and guess column are `levels`, and the flags of the
other rows and columns of the rectangle are 0. -/
theorem backtrack_restore (c0 : nonogram_solver) (puzzle : Puzzle) (remcells : Int)
    (envs : List TickEnv) (env : TickEnv) (c : nonogram_solver) (st : nonogram_stack)
    (rest : List nonogram_stack)
    (hnl : c0.loaded = false) (hpos : 0 < puzzle.height)
    (hW : (puzzle.width : Int) < 2 ^ 31) (hH : (puzzle.height : Int) < 2 ^ 31)
    (hrow : ∀ r, r ∈ puzzle.row → (r.sum : Int) < 2 ^ 31)
    (hcol : ∀ r, r ∈ puzzle.col → (r.sum : Int) < 2 ^ 31)
    (hrun : runTicks envs (nonogram_load c0 puzzle
      (List.replicate (puzzle.width * puzzle.height) nonogram_BLANK) remcells).2 = .ret c)
    (hs : c.status = nonogram_EMPTY) (hr : c.remcells < 0) (hst : c.stack = st :: rest) :
    ∃ d, nonogram_runcycles c env = .ret (nonogram_LINE, d) ∧
      d.stack = rest ∧ d.remcells = st.remcells ∧ d.reminfo = 2 ∧
      st.unkarea.has st.guesspos.x st.guesspos.y = true ∧
      st.unkarea.max.x ≤ puzzle.width ∧ st.unkarea.max.y ≤ puzzle.height ∧
      (∀ x y, x < puzzle.width → y < puzzle.height →
        cellAt d.grid (x + y * puzzle.width) =
          if st.unkarea.has x y = true then st.cell x y
          else cellAt c.grid (x + y * puzzle.width)) ∧
      (cellAt c.grid (st.guesspos.x + st.guesspos.y * puzzle.width) = nonogram_DOT ∨
        cellAt c.grid (st.guesspos.x + st.guesspos.y * puzzle.width) = nonogram_SOLID) ∧
      cellAt d.grid (st.guesspos.x + st.guesspos.y * puzzle.width) =
        cellAt c.grid (st.guesspos.x + st.guesspos.y * puzzle.width) ^^^ nonogram_BOTH ∧
      (∀ y, y < puzzle.height → attrAt d.rowattr y =
        if st.unkarea.min.y ≤ y ∧ y < st.unkarea.max.y then
          attrAt st.rowattr (y - st.unkarea.min.y) else attrAt c.rowattr y) ∧
      (∀ x, x < puzzle.width → attrAt d.colattr x =
        if st.unkarea.min.x ≤ x ∧ x < st.unkarea.max.x then
          attrAt st.colattr (x - st.unkarea.min.x) else attrAt c.colattr x) ∧
      (∀ y, y < puzzle.height → flagAt d.rowflag y =
        if y = st.guesspos.y then c.levels
        else if st.unkarea.min.y ≤ y ∧ y < st.unkarea.max.y then 0 else flagAt c.rowflag y) ∧
      (∀ x, x < puzzle.width → flagAt d.colflag x =
        if x = st.guesspos.x then c.levels
        else if st.unkarea.min.x ≤ x ∧ x < st.unkarea.max.x then 0
        else flagAt c.colflag x) := by
  have hi := runTicks_inv envs _ c (load_inv c0 puzzle remcells hnl hpos hW hH hrow hcol) hrun
  have hp : c.puzzle = puzzle := by
    rw [runTicks_puzzle envs _ c hrun]
    unfold nonogram_load
    rw [hnl]
    rfl
  have hsk := hi.stack
  rw [hst] at hsk
  obtain ⟨a1, a2, a3, a4, a5, a6, a7, a8, a9, a10, a11, a12, a13⟩ := hsk
  obtain ⟨s1, s2, s3, s4, s5, s6, s7, s8, s9, s10⟩ := runRestore_spec c st rest a5 a7 a6 a8
    hi.grid_len hi.rowattr_len hi.colattr_len hi.rowflag_len hi.colflag_len
  have hg := a9
  rw [rect_has_iff] at hg
  have hgf : gridFn c st.guesspos.x st.guesspos.y =
      cellAt c.grid (st.guesspos.x + st.guesspos.y * c.puzzle.width) := by
    unfold gridFn
    rw [if_pos ⟨by omega, by omega⟩]
  rw [hgf] at a10 a11
  rw [hp] at a7 a8 a10 a11 s6 s9 s10
  refine ⟨(runRestore c st rest).2, ?_, rfl, rfl, rfl, a9, a7, a8, s6, a10, ?_,
    fun y _ => s7 y, fun x _ => s8 x, ?_, ?_⟩
  · unfold nonogram_runcycles
    rw [if_neg (fun hn => hn hi.loaded), if_neg (by rw [hs]; decide),
      if_neg (by rw [hs]; decide), if_pos hr, hst]
    rfl
  · rw [s6 _ _ (by omega) (by omega), if_pos a9, a11]
  · intro y hy
    rw [s9 y]
    by_cases e : y = st.guesspos.y
    · rw [if_pos ⟨e, hy⟩, if_pos e]
    · rw [if_neg (fun hn => e hn.1), if_neg e]
  · intro x hx
    rw [s10 x]
    by_cases e : x = st.guesspos.x
    · rw [if_pos ⟨e, hx⟩, if_pos e]
    · rw [if_neg (fun hn => e hn.1), if_neg e]

theorem backtrack_restore_witness :
    ∃ d, nonogram_runcycles contra22 noInfo2 = .ret (nonogram_LINE, d) ∧
      d.stack = [] ∧ d.remcells = 3 ∧ d.reminfo = 2 ∧
      cellAt d.grid (snap22.guesspos.x + snap22.guesspos.y * puzzle22.width) =
        cellAt contra22.grid (snap22.guesspos.x + snap22.guesspos.y * puzzle22.width) ^^^
          nonogram_BOTH := by
  obtain ⟨d, h1, h2, h3, h4, _, _, _, _, _, h10, _⟩ :=
    backtrack_restore nonogram_initsolver puzzle22 4
      (List.replicate 9 noInfo2 ++ [contraEnv, contraEnv]) noInfo2 contra22 snap22 []
      rfl (by decide) (by decide) (by decide) (by decide) (by decide) (by decide) rfl
      (by decide) rfl
  exact ⟨d, h1, h2, h3, h4, h10⟩

/-- The loop of `findeasiest` over one array: either it keeps its state, or
it ends on a line `m` of the array that is strictly better than the state it
started with and than every earlier line of the array; and every line of the
array is at most as good as the final state. -/
theorem findeasiestLoop_spec (flag : List Nat) (attr : List nonogram_lineattr) (row : Bool) :
    ∀ (k i : Nat) (s : Nat × Int × Nat × Bool),
      (findeasiestLoop flag attr row k i s = s ∨
        ∃ m, i ≤ m ∧ m < i + k ∧
          findeasiestLoop flag attr row k i s = (flagAt flag m, (attrAt attr m).score, m, row) ∧
          (s.1 < flagAt flag m ∨
            (s.1 = flagAt flag m ∧ 0 < s.1 ∧ s.2.1 < (attrAt attr m).score)) ∧
          ∀ j, i ≤ j → j < m → flagAt flag j < flagAt flag m ∨
            (flagAt flag j = flagAt flag m ∧ (attrAt attr j).score < (attrAt attr m).score)) ∧
      ∀ j, i ≤ j → j < i + k →
        flagAt flag j < (findeasiestLoop flag attr row k i s).1 ∨
        (flagAt flag j = (findeasiestLoop flag attr row k i s).1 ∧
          ((findeasiestLoop flag attr row k i s).1 = 0 ∨
            (attrAt attr j).score ≤ (findeasiestLoop flag attr row k i s).2.1)) := by
  intro k
  induction k with
  | zero =>
    intro i s
    exact ⟨Or.inl rfl, fun j h1 h2 => by omega⟩
  | succ k ih =>
    intro i s
    obtain ⟨level, score, lineno, on_row⟩ := s
    unfold findeasiestLoop
    by_cases hc : flagAt flag i > level ∨
        (level > 0 ∧ flagAt flag i = level ∧ (attrAt attr i).score > score)
    · rw [if_pos hc]
      obtain ⟨h1, h2⟩ := ih (i + 1) (flagAt flag i, (attrAt attr i).score, i, row)
      rcases h1 with e | ⟨m, m1, m2, e, m3, m4⟩
      · rw [e]
        refine ⟨Or.inr ⟨i, Nat.le_refl _, by omega, rfl, ?_, fun j j1 j2 => by omega⟩, ?_⟩
        · simp only []
          omega
        · intro j j1 j2
          by_cases ej : j = i
          · subst ej
            right
            exact ⟨rfl, Or.inr (Int.le_refl _)⟩
          · have := h2 j (by omega) (by omega)
            rw [e] at this
            exact this
      · rw [e]
        simp only [] at m3
        refine ⟨Or.inr ⟨m, by omega, by omega, rfl, ?_, ?_⟩, ?_⟩
        · simp only []
          omega
        · intro j j1 j2
          by_cases ej : j = i
          · subst ej
            omega
          · exact m4 j (by omega) j2
        · intro j j1 j2
          by_cases ej : j = i
          · subst ej
            simp only []
            omega
          · have := h2 j (by omega) (by omega)
            rw [e] at this
            exact this
    · rw [if_neg hc]
      obtain ⟨h1, h2⟩ := ih (i + 1) (level, score, lineno, on_row)
      rcases h1 with e | ⟨m, m1, m2, e, m3, m4⟩
      · rw [e]
        refine ⟨Or.inl rfl, ?_⟩
        intro j j1 j2
        by_cases ej : j = i
        · subst ej
          simp only []
          omega
        · have := h2 j (by omega) (by omega)
          rw [e] at this
          exact this
      · rw [e]
        simp only [] at m3
        refine ⟨Or.inr ⟨m, by omega, by omega, rfl, m3, ?_⟩, ?_⟩
        · intro j j1 j2
          by_cases ej : j = i
          · subst ej
            omega
          · exact m4 j (by omega) j2
        · intro j j1 j2
          by_cases ej : j = i
          · subst ej
            simp only []
            omega
          · have := h2 j (by omega) (by omega)
            rw [e] at this
            exact this

/-- C21: when the puzzle has a row and some line flag is positive,
`findeasiest` selects a line of the puzzle; `c->level` is that line's flag,
which is positive and the greatest flag of all rows and columns; the line's
score is the greatest among the lines with that flag; if a row is selected,
no earlier row has the same flag and score; if a column is selected, no row
and no earlier column has the same flag and score. -/
theorem findeasiest_spec (c : nonogram_solver) (hH : 0 < c.puzzle.height)
    (hpos : (∃ y, y < c.puzzle.height ∧ 0 < flagAt c.rowflag y) ∨
      (∃ x, x < c.puzzle.width ∧ 0 < flagAt c.colflag x)) :
    (if (findeasiest c).on_row then (findeasiest c).lineno < c.puzzle.height
      else (findeasiest c).lineno < c.puzzle.width) ∧
    (findeasiest c).level = lineFlag (findeasiest c) ∧
    0 < (findeasiest c).level ∧
    (∀ y, y < c.puzzle.height → flagAt c.rowflag y ≤ (findeasiest c).level) ∧
    (∀ x, x < c.puzzle.width → flagAt c.colflag x ≤ (findeasiest c).level) ∧
    (∀ y, y < c.puzzle.height → flagAt c.rowflag y = (findeasiest c).level →
      (attrAt c.rowattr y).score ≤ (lineAttr (findeasiest c)).score) ∧
    (∀ x, x < c.puzzle.width → flagAt c.colflag x = (findeasiest c).level →
      (attrAt c.colattr x).score ≤ (lineAttr (findeasiest c)).score) ∧
    ((findeasiest c).on_row = true → ∀ y, y < (findeasiest c).lineno →
      ¬ (flagAt c.rowflag y = (findeasiest c).level ∧
        (attrAt c.rowattr y).score = (lineAttr (findeasiest c)).score)) ∧
    ((findeasiest c).on_row = false →
      (∀ y, y < c.puzzle.height →
        ¬ (flagAt c.rowflag y = (findeasiest c).level ∧
          (attrAt c.rowattr y).score = (lineAttr (findeasiest c)).score)) ∧
      ∀ x, x < (findeasiest c).lineno →
        ¬ (flagAt c.colflag x = (findeasiest c).level ∧
          (attrAt c.colattr x).score = (lineAttr (findeasiest c)).score)) := by
  obtain ⟨r1, r2⟩ := findeasiestLoop_spec c.rowflag c.rowattr true c.puzzle.height 0
    (flagAt c.rowflag 0, (attrAt c.rowattr 0).score, 0, true)
  obtain ⟨q1, q2⟩ := findeasiestLoop_spec c.colflag c.colattr false c.puzzle.width 0
    (findeasiestLoop c.rowflag c.rowattr true c.puzzle.height 0
      (flagAt c.rowflag 0, (attrAt c.rowattr 0).score, 0, true))
  -- the state after the rows is a row `n` of the puzzle with its flag and score
  have hrow : ∃ n, n < c.puzzle.height ∧
      findeasiestLoop c.rowflag c.rowattr true c.puzzle.height 0
        (flagAt c.rowflag 0, (attrAt c.rowattr 0).score, 0, true) =
        (flagAt c.rowflag n, (attrAt c.rowattr n).score, n, true) ∧
      ∀ j, j < n → flagAt c.rowflag j < flagAt c.rowflag n ∨
        (flagAt c.rowflag j = flagAt c.rowflag n ∧
          (attrAt c.rowattr j).score < (attrAt c.rowattr n).score) := by
    rcases r1 with e | ⟨m, _, m2, e, _, m4⟩
    · exact ⟨0, hH, e, fun j hj => by omega⟩
    · exact ⟨m, by omega, e, fun j hj => m4 j (Nat.zero_le _) hj⟩
  obtain ⟨n, hn, en, hbefore⟩ := hrow
  rw [en] at r2 q1 q2
  simp only [] at r2
  have hd : findeasiest c = { c with
      level := (findeasiestLoop c.colflag c.colattr false c.puzzle.width 0
        (flagAt c.rowflag n, (attrAt c.rowattr n).score, n, true)).1
      lineno := (findeasiestLoop c.colflag c.colattr false c.puzzle.width 0
        (flagAt c.rowflag n, (attrAt c.rowattr n).score, n, true)).2.2.1
      on_row := (findeasiestLoop c.colflag c.colattr false c.puzzle.width 0
        (flagAt c.rowflag n, (attrAt c.rowattr n).score, n, true)).2.2.2 } := by
    unfold findeasiest
    simp only []
    rw [en]
  rw [hd]
  rcases q1 with e | ⟨m, _, m2, e, m3, m4⟩
  · -- a row is selected
    rw [e] at q2 ⊢
    simp only [] at q2
    have hlev : 0 < flagAt c.rowflag n := by
      rcases hpos with ⟨y, hy, hp⟩ | ⟨x, hx, hp⟩
      · have := r2 y (Nat.zero_le _) (by omega)
        omega
      · have := q2 x (Nat.zero_le _) (by omega)
        omega
    unfold lineFlag lineAttr
    simp only [if_true]
    refine ⟨hn, trivial, hlev, ?_, ?_, ?_, ?_, ?_, ?_⟩
    · intro y hy
      have := r2 y (Nat.zero_le _) (by omega)
      omega
    · intro x hx
      have := q2 x (Nat.zero_le _) (by omega)
      omega
    · intro y hy hf
      have := r2 y (Nat.zero_le _) (by omega)
      omega
    · intro x hx hf
      have := q2 x (Nat.zero_le _) (by omega)
      omega
    · intro _ y hy
      have := hbefore y hy
      omega
    · intro hf
      exact Bool.noConfusion hf
  · -- a column is selected
    rw [e] at q2 ⊢
    simp only [] at q2 m3
    have hlev : 0 < flagAt c.colflag m := by
      rcases hpos with ⟨y, hy, hp⟩ | ⟨x, hx, hp⟩
      · have := r2 y (Nat.zero_le _) (by omega)
        omega
      · have := q2 x (Nat.zero_le _) (by omega)
        omega
    unfold lineFlag lineAttr
    simp only [Bool.false_eq_true, if_false]
    refine ⟨by omega, trivial, hlev, ?_, ?_, ?_, ?_, ?_, ?_⟩
    · intro y hy
      have := r2 y (Nat.zero_le _) (by omega)
      omega
    · intro x hx
      have := q2 x (Nat.zero_le _) (by omega)
      omega
    · intro y hy hf
      have := r2 y (Nat.zero_le _) (by omega)
      omega
    · intro x hx hf
      have := q2 x (Nat.zero_le _) (by omega)
      omega
    · intro hf
      exact hf.elim
    · intro _
      constructor
      · intro y hy
        have := r2 y (Nat.zero_le _) (by omega)
        omega
      · intro x hx
        have := m4 x (Nat.zero_le _) hx
        omega

theorem findeasiest_spec_witness :
    (findeasiest easiestDemo).on_row = false ∧ (findeasiest easiestDemo).lineno = 1 ∧
    (findeasiest easiestDemo).level = 1 ∧
    (findeasiest { easiestDemo with colflag := [1, 0] }).on_row = true ∧
    (findeasiest { easiestDemo with colflag := [1, 0] }).lineno = 0 ∧
    (findeasiest easiestDemo).level = lineFlag (findeasiest easiestDemo) :=
  ⟨by decide, by decide, by decide, by decide, by decide,
    (findeasiest_spec easiestDemo (by decide) (Or.inl ⟨0, by decide, by decide⟩)).2.1⟩

theorem redeemCell_solved (g : List Nat) (hg : ∀ i, i < g.length → cellAt g i ≠ nonogram_BLANK)
    (c : nonogram_solver) (changed : Bool) (i : Nat) (h : SolvedInv g c) :
    SolvedInv g (redeemCell c changed i).1 := by
  have hf := redeemCell_frame c changed i
  refine ⟨hf.loaded.trans h.loaded, ?_, ?_, hf.stack.trans h.stack⟩
  · unfold redeemCell
    by_cases hc : cellAt c.grid (lineIndex c i) = nonogram_BLANK ∧
        (cellAt c.work i = nonogram_DOT ∨ cellAt c.work i = nonogram_SOLID)
    · rw [if_pos hc]
      have hlen : c.grid.length ≤ lineIndex c i := by
        by_contra hn
        rw [h.grid] at hn hc
        exact hg _ (by omega) hc.1
      split_ifs <;>
        (show c.grid.set (lineIndex c i) _ = g
         rw [List.set_eq_of_length_le hlen, h.grid])
    · rw [if_neg hc]
      exact h.grid
  · unfold redeemCell
    have := h.remcells
    split_ifs <;> first
      | exact this
      | (show c.remcells - 1 ≤ 0
         omega)

theorem redeemLoop_solved (g : List Nat) (hg : ∀ i, i < g.length → cellAt g i ≠ nonogram_BLANK)
    (k : Nat) : ∀ (i : Nat) (s : nonogram_solver × Bool), SolvedInv g s.1 →
      SolvedInv g (redeemLoop k i s).1 := by
  induction k with
  | zero => intro i s h; exact h
  | succ k ih =>
    intro i s h
    unfold redeemLoop
    exact ih (i + 1) _ (redeemCell_solved g hg s.1 s.2 i h)

theorem runDone_solved (g : List Nat) (hg : ∀ i, i < g.length → cellAt g i ≠ nonogram_BLANK)
    (c : nonogram_solver) (h : SolvedInv g c) : SolvedInv g (runDone c).2 := by
  unfold runDone
  by_cases hf : c.fits = 0
  · rw [if_pos hf]
    exact ⟨h.loaded, h.grid, by show (-1 : Int) ≤ 0; omega, h.stack⟩
  · rw [if_neg hf]
    have h1 : SolvedInv g (redeemstep c).1 := redeemLoop_solved g hg _ 0 (c, false) h
    simp only []
    split_ifs <;> exact ⟨h1.loaded, h1.grid, h1.remcells, h1.stack⟩

theorem step_solved (g : List Nat) (c : nonogram_solver) (r : LineCall) (h : SolvedInv g c) :
    SolvedInv g (step c r) := by
  unfold step
  split_ifs <;> exact ⟨h.loaded, h.grid, h.remcells, h.stack⟩

theorem stepLoop_solved (g : List Nat) : ∀ (rs : List LineCall) (c : nonogram_solver),
    SolvedInv g c → SolvedInv g (stepLoop rs c) := by
  intro rs
  induction rs with
  | nil => intro c h; exact h
  | cons r rs ih =>
    intro c h
    unfold stepLoop
    split_ifs
    · exact ih _ (step_solved g c r h)
    · exact h

theorem setupstep_solved (g : List Nat) (c : nonogram_solver) (r : LineCall)
    (h : SolvedInv g c) : SolvedInv g (setupstep (findeasiest c) r) := by
  have h1 : SolvedInv g (findeasiest c) := ⟨h.loaded, h.grid, h.remcells, h.stack⟩
  unfold setupstep
  split_ifs <;> exact ⟨h1.loaded, h1.grid, h1.remcells, h1.stack⟩

/-- On a grid without BLANK cells every tick returns and keeps the grid. -/
theorem runcycles_solved (g : List Nat) (hg : ∀ i, i < g.length → cellAt g i ≠ nonogram_BLANK)
    (c : nonogram_solver) (env : TickEnv) (h : SolvedInv g c) :
    ∃ rc d, nonogram_runcycles c env = .ret (rc, d) ∧ SolvedInv g d := by
  unfold nonogram_runcycles
  rw [if_neg (fun hn => hn h.loaded)]
  by_cases h2 : c.status = nonogram_WORKING
  · rw [if_pos h2]
    exact ⟨_, _, rfl, stepLoop_solved g _ c h⟩
  rw [if_neg h2]
  by_cases h3 : c.status = nonogram_DONE
  · rw [if_pos h3]
    exact ⟨_, _, rfl, runDone_solved g hg c h⟩
  rw [if_neg h3]
  by_cases h4 : c.remcells < 0
  · rw [if_pos h4, h.stack]
    exact ⟨_, _, rfl, h⟩
  rw [if_neg h4]
  by_cases h5 : c.reminfo > 0
  · rw [if_pos h5]
    exact ⟨_, _, rfl, setupstep_solved g c env.init h⟩
  rw [if_neg h5]
  have h6 : c.remcells = 0 := by
    have := h.remcells
    omega
  rw [if_pos h6]
  exact ⟨_, _, rfl, h.loaded, h.grid, by show (-1 : Int) ≤ 0; omega, h.stack⟩

theorem runTicks_solved (g : List Nat) (hg : ∀ i, i < g.length → cellAt g i ≠ nonogram_BLANK) :
    ∀ (envs : List TickEnv) (c : nonogram_solver), SolvedInv g c →
      ∃ d, runTicks envs c = .ret d ∧ SolvedInv g d := by
  intro envs
  induction envs with
  | nil => intro c h; exact ⟨c, rfl, h⟩
  | cons env envs ih =>
    intro c h
    obtain ⟨rc, c1, e, h1⟩ := runcycles_solved g hg c env h
    obtain ⟨d, e2, h2⟩ := ih c1 h1
    refine ⟨d, ?_, h2⟩
    unfold runTicks
    rw [e]
    exact e2

/-- C29 as stated fails in its second half: the default solver loaded with
the solved grid of the one-cell puzzle and `remcells = 0` returns
`nonogram_UNFINISHED` from its first tick, because `nonogram_load` has marked
every line as pending. -/
theorem solved_grid_counterexample :
    nonogram_checkgrid puzzle11 [nonogram_SOLID] = 0 ∧
    ∃ d, nonogram_runcycles (nonogram_load nonogram_initsolver puzzle11 [nonogram_SOLID] 0).2
        noInfo2 = .ret (nonogram_UNFINISHED, d) ∧
      nonogram_UNFINISHED ≠ nonogram_FINISHED := by
  refine ⟨by decide, _, rfl, by decide⟩

/-- C29, amended: for every puzzle and every grid without BLANK cells (in
particular every solution), after `nonogram_load` with that grid and
`remcells = 0` every sequence of ticks returns and leaves the grid as it
was, whatever the line solvers report; the first tick returns
`nonogram_FINISHED` only if the solver has no levels or the puzzle has no
lines, and `nonogram_UNFINISHED` otherwise. -/
theorem solved_grid_unchanged (c0 : nonogram_solver) (puzzle : Puzzle) (grid : List Nat)
    (envs : List TickEnv) (hnl : c0.loaded = false)
    (hg : ∀ i, i < grid.length → cellAt grid i ≠ nonogram_BLANK) :
    (∃ d, runTicks envs (nonogram_load c0 puzzle grid 0).2 = .ret d ∧ d.grid = grid) ∧
    ∀ env, ∃ d, nonogram_runcycles (nonogram_load c0 puzzle grid 0).2 env =
      .ret (if c0.levels = 0 ∨ (puzzle.width = 0 ∧ puzzle.height = 0) then nonogram_FINISHED
        else nonogram_UNFINISHED, d) := by
  have hload : SolvedInv grid (nonogram_load c0 puzzle grid 0).2 := by
    unfold nonogram_load
    rw [hnl]
    exact ⟨rfl, rfl, Int.le_refl 0, rfl⟩
  constructor
  · obtain ⟨d, e, h⟩ := runTicks_solved grid hg envs _ hload
    exact ⟨d, e, h.grid⟩
  · intro env
    have f1 : (nonogram_load c0 puzzle grid 0).2.status = nonogram_EMPTY := by
      unfold nonogram_load; rw [hnl]; rfl
    have f2 : (nonogram_load c0 puzzle grid 0).2.remcells = 0 := by
      unfold nonogram_load; rw [hnl]; rfl
    have f3 : (nonogram_load c0 puzzle grid 0).2.reminfo =
        if c0.levels = 0 then 0 else (puzzle.width : Int) + puzzle.height := by
      unfold nonogram_load; rw [hnl]; rfl
    unfold nonogram_runcycles
    rw [if_neg (fun hn => hn hload.loaded), if_neg (by rw [f1]; decide),
      if_neg (by rw [f1]; decide), if_neg (by rw [f2]; decide), if_pos f2, hload.stack, f3]
    by_cases hc : c0.levels = 0 ∨ (puzzle.width = 0 ∧ puzzle.height = 0)
    · rw [if_pos hc, if_neg, if_neg (fun hn => hn rfl)]
      · exact ⟨_, rfl⟩
      · rcases hc with e | ⟨e1, e2⟩
        · rw [if_pos e]; decide
        · rw [e1, e2]; split_ifs <;> decide
    · rw [if_neg hc, if_pos]
      · exact ⟨_, rfl⟩
      · rw [if_neg (fun hn => hc (Or.inl hn))]
        show (0 : Int) < (puzzle.width : Int) + (puzzle.height : Int)
        omega

theorem solved_grid_unchanged_witness :
    (∃ d, runTicks (List.replicate 5 noInfo2)
        (nonogram_load nonogram_initsolver puzzle11 [nonogram_SOLID] 0).2 = .ret d ∧
      d.grid = [nonogram_SOLID]) ∧
    ∀ env, ∃ d, nonogram_runcycles
      (nonogram_load nonogram_initsolver puzzle11 [nonogram_SOLID] 0).2 env =
      .ret (if nonogram_initsolver.levels = 0 ∨ (puzzle11.width = 0 ∧ puzzle11.height = 0)
        then nonogram_FINISHED else nonogram_UNFINISHED, d) :=
  solved_grid_unchanged nonogram_initsolver puzzle11 [nonogram_SOLID]
    (List.replicate 5 noInfo2) rfl (by decide)

/-- C22 fails: on the grid of width 1 and height 2 whose two cells are BLANK,
with `orig` the whole grid, the search loops of `findminrect` compute the
rectangle `[0,0]-(1,1)`, which leaves the BLANK cell `(0, 1)` outside: the
second loop scans only columns to the left of the first BLANK found, the
third only columns to its right.  With assertions enabled the final check
"no blanks outside the chosen rectangle" then fails. -/
theorem findminrect_misses_blank :
    findminrectLoops [nonogram_BLANK, nonogram_BLANK] 1
        { min := { x := 0, y := 0 }, max := { x := 1, y := 2 } } =
      .ret (some { min := { x := 0, y := 0 }, max := { x := 1, y := 1 } }) ∧
    cellAt [nonogram_BLANK, nonogram_BLANK] (0 + 1 * 1) = nonogram_BLANK ∧
    ({ min := { x := 0, y := 0 }, max := { x := 1, y := 1 } } : nonogram_rect).has 0 1 = false ∧
    findminrect [nonogram_BLANK, nonogram_BLANK] 1 2
        { min := { x := 0, y := 0 }, max := { x := 1, y := 2 } } = .assertion ∧
    findminrectLoops [nonogram_BLANK, nonogram_DOT, nonogram_BLANK, nonogram_DOT] 2
        { min := { x := 0, y := 0 }, max := { x := 2, y := 2 } } =
      .ret (some { min := { x := 0, y := 0 }, max := { x := 1, y := 1 } }) := by
  refine ⟨by decide, by decide, by decide, by decide, by decide⟩

theorem scanUp_some (grid : List Nat) : ∀ (k ls p : Nat), scanUp grid k ls = some p →
    ls ≤ p ∧ p < ls + k ∧ cellAt grid p = nonogram_BLANK := by
  intro k
  induction k with
  | zero => intro ls p h; simp [scanUp] at h
  | succ k ih =>
    intro ls p h
    unfold scanUp at h
    by_cases hb : cellAt grid ls = nonogram_BLANK
    · rw [if_pos hb] at h
      have e : ls = p := Option.some.inj h
      subst e
      exact ⟨Nat.le_refl _, by omega, hb⟩
    · rw [if_neg hb] at h
      obtain ⟨h1, h2, h3⟩ := ih (ls + 1) p h
      exact ⟨by omega, by omega, h3⟩

theorem scanUp_none (grid : List Nat) : ∀ (k ls : Nat), scanUp grid k ls = none →
    ∀ p, ls ≤ p → p < ls + k → cellAt grid p ≠ nonogram_BLANK := by
  intro k
  induction k with
  | zero => intro ls _ p h1 h2; omega
  | succ k ih =>
    intro ls h p h1 h2
    unfold scanUp at h
    by_cases hb : cellAt grid ls = nonogram_BLANK
    · rw [if_pos hb] at h
      exact Option.noConfusion h
    · rw [if_neg hb] at h
      by_cases e : p = ls
      · rw [e]; exact hb
      · exact ih (ls + 1) h p (by omega) (by omega)

theorem scanDown_some (grid : List Nat) : ∀ (k ls p : Nat), scanDown grid k ls = some p →
    p ≤ ls ∧ ls < p + k ∧ cellAt grid (p - 1) = nonogram_BLANK := by
  intro k
  induction k with
  | zero => intro ls p h; simp [scanDown] at h
  | succ k ih =>
    intro ls p h
    unfold scanDown at h
    by_cases hb : cellAt grid (ls - 1) = nonogram_BLANK
    · rw [if_pos hb] at h
      have e : ls = p := Option.some.inj h
      subst e
      exact ⟨Nat.le_refl _, by omega, hb⟩
    · rw [if_neg hb] at h
      obtain ⟨h1, h2, h3⟩ := ih (ls - 1) p h
      exact ⟨by omega, by omega, h3⟩

theorem findFirst_some (grid : List Nat) (pw : Nat) (orig : nonogram_rect) :
    ∀ (k y ls my : Nat), findFirst grid pw orig k y = some (ls, my) →
      y ≤ my ∧ my < y + k ∧ orig.min.x + my * pw ≤ ls ∧ ls < orig.max.x + my * pw ∧
        cellAt grid ls = nonogram_BLANK := by
  intro k
  induction k with
  | zero => intro y ls my h; simp [findFirst] at h
  | succ k ih =>
    intro y ls my h
    unfold findFirst at h
    cases hs : scanUp grid (orig.max.x + y * pw - (orig.min.x + y * pw))
        (orig.min.x + y * pw) with
    | some p =>
      rw [hs] at h
      have e : (p, y) = (ls, my) := Option.some.inj h
      have e1 : p = ls := congrArg Prod.fst e
      have e2 : y = my := congrArg Prod.snd e
      subst e1 e2
      obtain ⟨h1, h2, h3⟩ := scanUp_some grid _ _ _ hs
      exact ⟨Nat.le_refl _, by omega, h1, by omega, h3⟩
    | none =>
      rw [hs] at h
      obtain ⟨h1, h2, h3⟩ := ih (y + 1) ls my h
      exact ⟨by omega, by omega, h3⟩

theorem findFirst_none (grid : List Nat) (pw : Nat) (orig : nonogram_rect) :
    ∀ (k y : Nat), findFirst grid pw orig k y = none →
      ∀ yy x, y ≤ yy → yy < y + k → orig.min.x ≤ x → x < orig.max.x →
        cellAt grid (x + yy * pw) ≠ nonogram_BLANK := by
  intro k
  induction k with
  | zero => intro y _ yy x h1 h2; omega
  | succ k ih =>
    intro y h yy x h1 h2 h3 h4
    unfold findFirst at h
    cases hs : scanUp grid (orig.max.x + y * pw - (orig.min.x + y * pw))
        (orig.min.x + y * pw) with
    | some p =>
      rw [hs] at h
      exact Option.noConfusion h
    | none =>
      rw [hs] at h
      by_cases e : yy = y
      · subst e
        exact scanUp_none grid _ _ hs (x + yy * pw) (by omega) (by omega)
      · exact ih (y + 1) h yy x (by omega) (by omega) h3 h4

theorem add_mul_mod_lt {x y pw : Nat} (hx : x < pw) : (x + y * pw) % pw = x := by
  rw [Nat.add_mul_mod_self_right, Nat.mod_eq_of_lt hx]

/-- The second loop of `findminrect`: its assertions hold, and it keeps a
BLANK cell in the left-most column and one in the bottom row. -/
theorem findBelowLeft_spec (grid : List Nat) (pw : Nat) (orig : nonogram_rect) (x0 miny : Nat)
    (hx0 : orig.min.x ≤ x0) (hx1 : x0 < orig.max.x) (hpw : orig.max.x ≤ pw) :
    ∀ (k y minx maxy : Nat), miny < maxy → maxy ≤ y → orig.min.x ≤ minx → minx ≤ x0 →
      (∃ yy, miny ≤ yy ∧ yy < maxy ∧ cellAt grid (minx + yy * pw) = nonogram_BLANK) →
      (∃ x, minx ≤ x ∧ x ≤ x0 ∧ cellAt grid (x + (maxy - 1) * pw) = nonogram_BLANK) →
      ∃ minx1 maxy1,
        findBelowLeft grid pw orig k y (x0 + y * pw) (minx, maxy) = .ret (minx1, maxy1) ∧
        miny < maxy1 ∧ maxy1 ≤ y + k ∧ orig.min.x ≤ minx1 ∧ minx1 ≤ x0 ∧
        (∃ yy, miny ≤ yy ∧ yy < maxy1 ∧ cellAt grid (minx1 + yy * pw) = nonogram_BLANK) ∧
        (∃ x, minx1 ≤ x ∧ x ≤ x0 ∧ cellAt grid (x + (maxy1 - 1) * pw) = nonogram_BLANK) := by
  intro k
  induction k with
  | zero =>
    intro y minx maxy h1 h2 h3 h4 h5 h6
    exact ⟨minx, maxy, rfl, h1, by omega, h3, h4, h5, h6⟩
  | succ k ih =>
    intro y minx maxy h1 h2 h3 h4 h5 h6
    unfold findBelowLeft
    rw [if_neg (by omega), if_neg (by omega)]
    have e : x0 + y * pw + pw = x0 + (y + 1) * pw := by ring
    rw [e]
    cases hs : scanUp grid (x0 + y * pw - (orig.min.x + y * pw)) (orig.min.x + y * pw) with
    | none =>
      simp only []
      obtain ⟨a, b, r1, r2, r3, r4, r5, r6, r7⟩ := ih (y + 1) minx maxy h1 (by omega) h3 h4 h5 h6
      exact ⟨a, b, r1, r2, by omega, r4, r5, r6, r7⟩
    | some ls =>
      simp only []
      obtain ⟨s1, s2, s3⟩ := scanUp_some grid _ _ _ hs
      obtain ⟨xx, rfl⟩ : ∃ xx, ls = xx + y * pw := ⟨ls - y * pw, by omega⟩
      have hxx : xx < x0 := by omega
      rw [add_mul_mod_lt (by omega : xx < pw)]
      obtain ⟨yy, y1, y2, y3⟩ := h5
      have hleft : ∃ yy, miny ≤ yy ∧ yy < y + 1 ∧
          cellAt grid ((if xx < minx then xx else minx) + yy * pw) = nonogram_BLANK := by
        by_cases hlt : xx < minx
        · rw [if_pos hlt]
          exact ⟨y, by omega, by omega, s3⟩
        · rw [if_neg hlt]
          exact ⟨yy, y1, by omega, y3⟩
      have hbot : ∃ x, (if xx < minx then xx else minx) ≤ x ∧ x ≤ x0 ∧
          cellAt grid (x + (y + 1 - 1) * pw) = nonogram_BLANK := by
        refine ⟨xx, ?_, by omega, ?_⟩
        · split_ifs <;> omega
        · rw [Nat.add_sub_cancel]; exact s3
      obtain ⟨a, b, r1, r2, r3, r4, r5, r6, r7⟩ := ih (y + 1)
        (if xx < minx then xx else minx) (y + 1) (by omega) (Nat.le_refl _)
        (by split_ifs <;> omega) (by split_ifs <;> omega) hleft hbot
      exact ⟨a, b, r1, r2, by omega, r4, r5, r6, r7⟩

theorem findBottomRight_done (grid : List Nat) (pw : Nat) (orig : nonogram_rect) (old : Nat) :
    ∀ (k y xlim mx my : Nat), y ≤ my →
      findBottomRight grid pw orig old k y xlim (mx, my) = .ret (mx, my) := by
  intro k y xlim mx my h
  cases k with
  | zero => rfl
  | succ k =>
    unfold findBottomRight
    rw [if_pos (by omega)]

theorem wrap_sub_row {X y pw : Nat} (hy : 2 ≤ y) (hb : X + (y - 1) * pw < 2 ^ 64) :
    wrap (((X + (y - 1) * pw : Nat) : Int) - (pw : Int)) = X + (y - 1 - 1) * pw := by
  obtain ⟨z, rfl⟩ : ∃ z, y = z + 2 := ⟨y - 2, by omega⟩
  have e1 : z + 2 - 1 = z + 1 := by omega
  rw [e1] at hb ⊢
  rw [Nat.add_sub_cancel]
  have e3 : (z + 1) * pw = z * pw + pw := by ring
  rw [e3] at hb ⊢
  apply wrap_of_nat (by omega)
  push_cast
  ring

/-- The third loop of `findminrect`: its assertions hold, and either it finds
nothing, or it stops at the first row from the bottom with a BLANK cell to
the right of column `x0`, at the right-most such cell. -/
theorem findBottomRight_spec (grid : List Nat) (pw : Nat) (orig : nonogram_rect) (x0 maxy2 : Nat)
    (hx1 : x0 + 1 ≤ orig.max.x) (hpw : orig.max.x ≤ pw)
    (hb : orig.max.x + orig.max.y * pw < 2 ^ 64) (hm : 1 ≤ maxy2) :
    ∀ (k y xlim : Nat), y ≤ orig.max.y → (maxy2 < y → xlim = x0 + 1 + (y - 1) * pw) →
      findBottomRight grid pw orig (x0 + 1) k y xlim (x0 + 1, maxy2) = .ret (x0 + 1, maxy2) ∨
      ∃ col yf, findBottomRight grid pw orig (x0 + 1) k y xlim (x0 + 1, maxy2) =
          .ret (col + 1, yf) ∧
        x0 + 1 ≤ col ∧ col < orig.max.x ∧ maxy2 < yf ∧ yf ≤ y ∧
        cellAt grid (col + (yf - 1) * pw) = nonogram_BLANK := by
  intro k
  induction k with
  | zero => intro y xlim _ _; left; rfl
  | succ k ih =>
    intro y xlim hy hxl
    unfold findBottomRight
    by_cases hgt : y > maxy2
    · rw [if_neg (fun hn => hn hgt)]
      have e := hxl hgt
      subst e
      rw [if_neg (by omega), if_neg (by omega)]
      have hle : (y - 1) * pw ≤ orig.max.y * pw := Nat.mul_le_mul_right pw (by omega)
      cases hs : scanDown grid (orig.max.x + (y - 1) * pw - (x0 + 1 + (y - 1) * pw))
          (orig.max.x + (y - 1) * pw) with
      | none =>
        simp only []
        rcases ih (y - 1) (wrap (((x0 + 1 + (y - 1) * pw : Nat) : Int) - (pw : Int)))
            (by omega) (fun h2 => wrap_sub_row (by omega) (by omega)) with r | ⟨col, yf, r⟩
        · left; exact r
        · right
          exact ⟨col, yf, r.1, r.2.1, r.2.2.1, r.2.2.2.1, by have := r.2.2.2.2.1; omega,
            r.2.2.2.2.2⟩
      | some p =>
        simp only []
        obtain ⟨s1, s2, s3⟩ := scanDown_some grid _ _ _ hs
        obtain ⟨col, rfl⟩ : ∃ col, p = col + 1 + (y - 1) * pw :=
          ⟨p - 1 - (y - 1) * pw, by omega⟩
        have hcol : col < pw := by omega
        have e1 : (col + 1 + (y - 1) * pw + pw - 1) % pw = col := by
          have : col + 1 + (y - 1) * pw + pw - 1 = col + (y - 1 + 1) * pw := by
            rw [Nat.add_mul, Nat.one_mul]; omega
          rw [this, add_mul_mod_lt hcol]
        rw [e1, findBottomRight_done _ _ _ _ _ _ _ _ _ (by omega)]
        right
        refine ⟨col, y, rfl, by omega, by omega, hgt, Nat.le_refl _, ?_⟩
        have e2 : col + 1 + (y - 1) * pw - 1 = col + (y - 1) * pw := by omega
        rw [e2] at s3
        exact s3
    · rw [if_pos hgt]
      left; rfl

/-- The fourth loop of `findminrect`: its assertions hold, and the right-most
column keeps a BLANK cell. -/
theorem findRight_spec (grid : List Nat) (pw : Nat) (orig : nonogram_rect) (miny maxy : Nat)
    (hpw : orig.max.x ≤ pw) (hb : orig.max.x + orig.max.y * pw < 2 ^ 64)
    (hmy : maxy ≤ orig.max.y) :
    ∀ (k y xlim maxx : Nat), y ≤ maxy → 1 ≤ maxx → maxx ≤ orig.max.x →
      (miny < y → xlim = maxx + (y - 1) * pw) →
      (∃ yy, miny ≤ yy ∧ yy < maxy ∧ cellAt grid (maxx - 1 + yy * pw) = nonogram_BLANK) →
      ∃ maxx1, findRight grid pw orig miny k y xlim maxx = .ret maxx1 ∧
        maxx ≤ maxx1 ∧ maxx1 ≤ orig.max.x ∧
        ∃ yy, miny ≤ yy ∧ yy < maxy ∧ cellAt grid (maxx1 - 1 + yy * pw) = nonogram_BLANK := by
  intro k
  induction k with
  | zero =>
    intro y xlim maxx _ _ h3 _ h5
    exact ⟨maxx, rfl, Nat.le_refl _, h3, h5⟩
  | succ k ih =>
    intro y xlim maxx h1 h2 h3 h4 h5
    unfold findRight
    by_cases hc : maxx < orig.max.x ∧ y > miny
    · rw [if_neg (fun hn => hn hc)]
      have e := h4 hc.2
      subst e
      rw [if_neg (by omega)]
      have hle : (y - 1) * pw ≤ orig.max.y * pw := Nat.mul_le_mul_right pw (by omega)
      cases hs : scanDown grid (orig.max.x + (y - 1) * pw - (maxx + (y - 1) * pw))
          (orig.max.x + (y - 1) * pw) with
      | none =>
        simp only []
        exact ih (y - 1) _ maxx (by omega) h2 h3
          (fun h6 => wrap_sub_row (by omega) (by omega)) h5
      | some p =>
        simp only []
        obtain ⟨s1, s2, s3⟩ := scanDown_some grid _ _ _ hs
        obtain ⟨col, rfl⟩ : ∃ col, p = col + 1 + (y - 1) * pw :=
          ⟨p - 1 - (y - 1) * pw, by omega⟩
        have hcol : col < pw := by omega
        have e1 : (col + 1 + (y - 1) * pw + pw - 1) % pw = col := by
          have : col + 1 + (y - 1) * pw + pw - 1 = col + (y - 1 + 1) * pw := by
            rw [Nat.add_mul, Nat.one_mul]; omega
          rw [this, add_mul_mod_lt hcol]
        rw [e1]
        have e2 : col + 1 + (y - 1) * pw - 1 = col + (y - 1) * pw := by omega
        rw [e2] at s3
        obtain ⟨m, r1, r2, r3, r4⟩ := ih (y - 1)
          (wrap (((col + 1 + (y - 1) * pw : Nat) : Int) - (pw : Int))) (col + 1) (by omega)
          (by omega) (by omega) (fun h6 => wrap_sub_row (by omega) (by omega))
          ⟨y - 1, by omega, by omega, by rw [Nat.add_sub_cancel]; exact s3⟩
        exact ⟨m, r1, by omega, r3, r4⟩
    · rw [if_pos hc]
      exact ⟨maxx, rfl, Nat.le_refl _, h3, h5⟩

/-- The edges of the rectangle found: for every grid of width `pw` and every
rectangle `orig` that is not empty, lies within the width of the grid (with
cell indices representable in `size_t`) and holds a BLANK cell, the four search loops of `findminrect` pass
their assertions and compute a rectangle `b` inside `orig` whose top row,
bottom row, left-most column and right-most column each contain a BLANK
cell of `b`; `findminrect` returns this rectangle unless its final check
"no blanks outside" fails. -/
theorem findminrect_edges (grid : List Nat) (pw ph : Nat) (orig : nonogram_rect)
    (hx : orig.min.x < orig.max.x) (hxw : orig.max.x ≤ pw) (hy : orig.min.y < orig.max.y)
    (hb : orig.max.x + orig.max.y * pw < 2 ^ 64)
    (hblank : ∃ x y, orig.has x y = true ∧ cellAt grid (x + y * pw) = nonogram_BLANK) :
    ∃ b, findminrectLoops grid pw orig = .ret (some b) ∧
      orig.min.x ≤ b.min.x ∧ b.min.x < b.max.x ∧ b.max.x ≤ orig.max.x ∧
      orig.min.y ≤ b.min.y ∧ b.min.y < b.max.y ∧ b.max.y ≤ orig.max.y ∧
      (∃ x, b.min.x ≤ x ∧ x < b.max.x ∧ cellAt grid (x + b.min.y * pw) = nonogram_BLANK) ∧
      (∃ x, b.min.x ≤ x ∧ x < b.max.x ∧
        cellAt grid (x + (b.max.y - 1) * pw) = nonogram_BLANK) ∧
      (∃ y, b.min.y ≤ y ∧ y < b.max.y ∧ cellAt grid (b.min.x + y * pw) = nonogram_BLANK) ∧
      (∃ y, b.min.y ≤ y ∧ y < b.max.y ∧
        cellAt grid (b.max.x - 1 + y * pw) = nonogram_BLANK) ∧
      (findminrect grid pw ph orig = .ret b ∨ findminrect grid pw ph orig = .assertion) := by
  obtain ⟨bx, by1, hin, hbl⟩ := hblank
  rw [rect_has_iff] at hin
  -- the first loop finds a BLANK cell
  have hfirst : ∃ x0 miny, findFirst grid pw orig (orig.max.y - orig.min.y) orig.min.y =
      some (x0 + miny * pw, miny) ∧ orig.min.y ≤ miny ∧ miny < orig.max.y ∧
      orig.min.x ≤ x0 ∧ x0 < orig.max.x ∧ cellAt grid (x0 + miny * pw) = nonogram_BLANK := by
    cases hf : findFirst grid pw orig (orig.max.y - orig.min.y) orig.min.y with
    | none =>
      exact absurd hbl (findFirst_none grid pw orig _ _ hf by1 bx (by omega) (by omega)
        (by omega) (by omega))
    | some r =>
      obtain ⟨ls, my⟩ := r
      obtain ⟨f1, f2, f3, f4, f5⟩ := findFirst_some grid pw orig _ _ _ _ hf
      obtain ⟨x0, rfl⟩ : ∃ x0, ls = x0 + my * pw := ⟨ls - my * pw, by omega⟩
      exact ⟨x0, my, rfl, f1, by omega, by omega, by omega, f5⟩
  obtain ⟨x0, miny, hf, m1, m2, m3, m4, m5⟩ := hfirst
  have hx0 : x0 < pw := by omega
  -- the second loop
  obtain ⟨minx, maxy2, p2, q1, q2, q3, q4, ⟨ly, l1, l2, l3⟩, ⟨bx2, b1, b2, b3⟩⟩ :=
    findBelowLeft_spec grid pw orig x0 miny m3 m4 hxw (orig.max.y - (miny + 1)) (miny + 1)
      x0 (miny + 1) (by omega) (Nat.le_refl _) m3 (Nat.le_refl _)
      ⟨miny, Nat.le_refl _, by omega, m5⟩
      ⟨x0, Nat.le_refl _, Nat.le_refl _, by rw [Nat.add_sub_cancel]; exact m5⟩
  have hq2 : maxy2 ≤ orig.max.y := by omega
  -- the third loop
  have p3 := findBottomRight_spec grid pw orig x0 maxy2 (by omega) hxw hb (by omega)
    orig.max.y orig.max.y (x0 + 1 + (orig.max.y - 1) * pw) (Nat.le_refl _) (fun _ => rfl)
  have hthird : ∃ maxx3 maxy,
      findBottomRight grid pw orig (x0 + 1) orig.max.y orig.max.y
        (x0 + 1 + (orig.max.y - 1) * pw) (x0 + 1, maxy2) = .ret (maxx3, maxy) ∧
      x0 + 1 ≤ maxx3 ∧ maxx3 ≤ orig.max.x ∧ maxy2 ≤ maxy ∧ maxy ≤ orig.max.y ∧
      (∃ x, minx ≤ x ∧ x < maxx3 ∧ cellAt grid (x + (maxy - 1) * pw) = nonogram_BLANK) ∧
      (∃ yy, miny ≤ yy ∧ yy < maxy ∧
        cellAt grid (maxx3 - 1 + yy * pw) = nonogram_BLANK) := by
    rcases p3 with r | ⟨col, yf, r, c1, c2, c3, c4, c5⟩
    · exact ⟨x0 + 1, maxy2, r, Nat.le_refl _, by omega, Nat.le_refl _, hq2,
        ⟨bx2, b1, by omega, b3⟩,
        ⟨miny, Nat.le_refl _, q1, by rw [Nat.add_sub_cancel]; exact m5⟩⟩
    · exact ⟨col + 1, yf, r, by omega, by omega, by omega, c4,
        ⟨col, by omega, by omega, c5⟩,
        ⟨yf - 1, by omega, by omega, by rw [Nat.add_sub_cancel]; exact c5⟩⟩
  obtain ⟨maxx3, maxy, p3e, t1, t2, t3, t4, ⟨bx3, b4, b5, b6⟩, hright⟩ := hthird
  -- the fourth loop
  obtain ⟨maxx, p4, u1, u2, ry, r1, r2, r3⟩ :=
    findRight_spec grid pw orig miny maxy hxw hb t4 maxy maxy (maxx3 + (maxy - 1) * pw) maxx3
      (Nat.le_refl _) (by omega) t2 (fun _ => rfl) hright
  have hloops : findminrectLoops grid pw orig =
      .ret (some { min := { x := minx, y := miny }, max := { x := maxx, y := maxy } }) := by
    unfold findminrectLoops
    rw [hf]
    simp only []
    rw [add_mul_mod_lt hx0, p2]
    simp only []
    rw [p3e]
    simp only []
    rw [p4]
  refine ⟨{ min := { x := minx, y := miny }, max := { x := maxx, y := maxy } }, hloops,
    q3, by show minx < maxx; omega, u2, m1, by show miny < maxy; omega, t4,
    ⟨x0, q4, by show x0 < maxx; omega, m5⟩,
    ⟨bx3, b4, by show bx3 < maxx; omega, b6⟩,
    ⟨ly, l1, by show ly < maxy; omega, l3⟩,
    ⟨ry, r1, r2, r3⟩, ?_⟩
  unfold findminrect
  rw [if_neg (fun hn => hn hx), if_neg (fun hn => hn hy), hloops]
  simp only []
  rw [if_neg (fun hn => hn q3), if_neg (fun hn => hn m1), if_neg (fun hn => hn u2),
    if_neg (fun hn => hn t4)]
  by_cases hnb : noBlankOutside grid pw ph
      { min := { x := minx, y := miny }, max := { x := maxx, y := maxy } } = true
  · rw [if_neg (fun hn => hn hnb)]
    left; rfl
  · rw [if_pos hnb]
    right; rfl

theorem findminrect_edges_witness :
    findminrect minrectDemo 3 3 { min := { x := 0, y := 0 }, max := { x := 3, y := 3 } } =
      .ret { min := { x := 0, y := 0 }, max := { x := 3, y := 2 } } ∧
    ∃ b, findminrectLoops minrectDemo 3
        { min := { x := 0, y := 0 }, max := { x := 3, y := 3 } } = .ret (some b) ∧
      (∃ x, b.min.x ≤ x ∧ x < b.max.x ∧ cellAt minrectDemo (x + b.min.y * 3) = nonogram_BLANK) ∧
      (∃ x, b.min.x ≤ x ∧ x < b.max.x ∧
        cellAt minrectDemo (x + (b.max.y - 1) * 3) = nonogram_BLANK) ∧
      (∃ y, b.min.y ≤ y ∧ y < b.max.y ∧ cellAt minrectDemo (b.min.x + y * 3) = nonogram_BLANK) ∧
      (∃ y, b.min.y ≤ y ∧ y < b.max.y ∧
        cellAt minrectDemo (b.max.x - 1 + y * 3) = nonogram_BLANK) := by
  obtain ⟨b, h1, _, _, _, _, _, _, h8, h9, h10, h11, _⟩ :=
    findminrect_edges minrectDemo 3 3 { min := { x := 0, y := 0 }, max := { x := 3, y := 3 } }
      (by decide) (by decide) (by decide) (by norm_num) ⟨1, 0, by decide, by decide⟩
  exact ⟨by decide, b, h1, h8, h9, h10, h11⟩

/-- C27 fails for the fast suite: on `puzzleBad`, loaded with an all-BLANK
grid and `remcells = 2`, the column is solved first and makes both cells
SOLID; the fast suite then accepts the first row, whose rule is empty,
although it holds a SOLID (`nonogram_push` returns 1 for an empty rule
without looking at the line); the seventh tick presents the grid
`[SOLID, SOLID]` and returns `nonogram_FINISHED`, but `nonogram_checkgrid`
returns -1 for that grid. -/
theorem fast_presents_non_solution :
    ∃ d, fastTicks 7 (nonogram_load solverFast puzzleBad
        [nonogram_BLANK, nonogram_BLANK] 2).2 =
        .ret ([nonogram_UNFINISHED, nonogram_LINE, nonogram_UNFINISHED, nonogram_LINE,
          nonogram_UNFINISHED, nonogram_LINE, nonogram_FINISHED], d) ∧
      d.presented = [[nonogram_SOLID, nonogram_SOLID]] ∧
      nonogram_checkgrid puzzleBad [nonogram_SOLID, nonogram_SOLID] = -1 := by
  refine ⟨_, rfl, by decide, by decide⟩

/-- C28: the default solver (fcomp suite) on the two-by-two puzzle with rule
`[1]` on every line, loaded with an all-BLANK grid and `remcells = 4`, with
50 cycles per tick, takes 40 ticks up to the first `nonogram_FINISHED`;
`present` is invoked exactly twice, with the two diagonal grids; the tick
that presents the first one (the 26th) returns `nonogram_FOUND`, the tick
that presents the second one (the last) returns `nonogram_FINISHED`, and
every other tick returns `nonogram_UNFINISHED` or `nonogram_LINE`.  With one
cycle per tick the same two grids are presented in 71 ticks. -/
theorem two_solution_puzzle :
    runSummary (fcompTicks 50 40
        ((nonogram_load nonogram_initsolver puzzle22
          [nonogram_BLANK, nonogram_BLANK, nonogram_BLANK, nonogram_BLANK] 4).2, fcompZero)) =
      some ([2, 2, 8, 2, 2, 8, 2, 2, 8, 2, 2, 8, 8, 2, 2, 8, 2, 2, 8, 2, 2, 8, 2, 2, 8,
          nonogram_FOUND, 8, 2, 2, 8, 2, 2, 8, 2, 2, 8, 2, 2, 8, nonogram_FINISHED],
        [[nonogram_DOT, nonogram_SOLID, nonogram_SOLID, nonogram_DOT],
          [nonogram_SOLID, nonogram_DOT, nonogram_DOT, nonogram_SOLID]]) ∧
    (runSummary (fcompTicks 1 71
        ((nonogram_load nonogram_initsolver puzzle22
          [nonogram_BLANK, nonogram_BLANK, nonogram_BLANK, nonogram_BLANK] 4).2,
          fcompZero))).map
        (fun s => (s.1.count nonogram_FOUND, s.1.count nonogram_FINISHED, s.1.length, s.2)) =
      some (1, 1, 71, [[nonogram_DOT, nonogram_SOLID, nonogram_SOLID, nonogram_DOT],
          [nonogram_SOLID, nonogram_DOT, nonogram_DOT, nonogram_SOLID]]) := by
  constructor
  · decide
  · decide

theorem w64_of_lt {n : Nat} (h : n < 2 ^ 64) : w64 n = n := by
  unfold w64
  exact Nat.mod_eq_of_lt h

theorem wrap_natCast (n : Nat) : wrap (n : Int) = w64 n := by
  unfold wrap w64
  have : ((n : Int) % 2 ^ 64) = ((n % 2 ^ 64 : Nat) : Int) := by
    push_cast
    rfl
  rw [this]
  exact Int.toNat_natCast _

theorem solI_of_lt {rule : List Nat} {solid : Nat → Nat} {b : Nat}
    (h : solid b < ruleAt rule b) : solI rule solid b = (solid b : Int) := by
  unfold solI
  rw [if_pos h]

theorem solI_of_ge {rule : List Nat} {solid : Nat → Nat} {b : Nat}
    (h : ¬ solid b < ruleAt rule b) : solI rule solid b = -1 := by
  unfold solI
  rw [if_neg h]

theorem drawLoop_succ (rule : List Nat) (c : FcompState) (hb0 : c.base = 0)
    (hm : c.mininv = 0) (b n t : Nat) (hs : c.solid (b + 1) < ruleAt rule (b + 1)) :
    drawLoop rule c (n + 1) (b + 1, t) =
      if c.solid b < ruleAt rule b ∧
          wrap ((c.pos (b + 1) : Int) + c.solid (b + 1) - ruleAt rule b + 1) >
            w64 (c.pos b + c.solid b) then
        drawLoop rule c n (b, b + 1)
      else .ret (.found b (b + 1)) := by
  show (if b + 1 ≤ c.base then Run.ret (DrawOut.stop (b + 1) t)
    else if c.mininv < c.max ∧ ¬ (b + 1 ≥ c.mininv) then Run.assertion
    else if c.mininv < c.max ∧ b + 1 = c.mininv then
      if ¬ (c.max > 0) then Run.assertion else Run.ret (DrawOut.restore t)
    else
      if c.solid (b + 1 - 1) < ruleAt rule (b + 1 - 1) ∧
          wrap ((c.pos (if c.solid (b + 1) < ruleAt rule (b + 1) then b + 1 else t) : Int) +
              c.solid (if c.solid (b + 1) < ruleAt rule (b + 1) then b + 1 else t) -
              ruleAt rule (b + 1 - 1) + 1) >
            w64 (c.pos (b + 1 - 1) + c.solid (b + 1 - 1)) then
        drawLoop rule c n (b + 1 - 1, if c.solid (b + 1) < ruleAt rule (b + 1) then b + 1 else t)
      else Run.ret (DrawOut.found (b + 1 - 1)
        (if c.solid (b + 1) < ruleAt rule (b + 1) then b + 1 else t))) = _
  rw [if_neg (show ¬ (b + 1 ≤ c.base) by omega),
    if_neg (show ¬ (c.mininv < c.max ∧ ¬ (b + 1 ≥ c.mininv)) by omega),
    if_neg (show ¬ (c.mininv < c.max ∧ b + 1 = c.mininv) by omega), if_pos hs,
    Nat.add_sub_cancel]

theorem findEarlier_succ (rule : List Nat) (pos : Nat → Nat) (solid : Nat → Int) (b : Nat) :
    findEarlier rule pos solid (b + 1) =
      if solid b ≥ 0 &&
          wrap ((pos (b + 1) : Int) + solid (b + 1) - (ruleAt rule b : Int) + 1)
            > wrap ((pos b : Int) + solid b) then
        findEarlier rule pos solid b
      else some b := rfl

/-- In the first phase (`BASE` and `MININV` are 0) the `do ... while` of
`step_drawing`, started on a block that covers a solid, is the backward
search of line.c. -/
theorem drawLoop_findEarlier (rule : List Nat) (c : FcompState) (hb0 : c.base = 0)
    (hm : c.mininv = 0) :
    ∀ (b n t : Nat), b < n → c.solid b < ruleAt rule b →
      match findEarlier rule c.pos (solI rule c.solid) b with
      | none => ∃ t', drawLoop rule c n (b, t) = .ret (.stop 0 t')
      | some b' => drawLoop rule c n (b, t) = .ret (.found b' (b' + 1)) := by
  intro b
  induction b with
  | zero =>
    intro n t hn _
    obtain ⟨n, rfl⟩ : ∃ m, n = m + 1 := ⟨n - 1, by omega⟩
    show ∃ t', drawLoop rule c (n + 1) (0, t) = .ret (.stop 0 t')
    refine ⟨t, ?_⟩
    show (if 0 ≤ c.base then Run.ret (DrawOut.stop 0 t) else _) = _
    rw [if_pos (by omega)]
  | succ b ih =>
    intro n t hn hs
    obtain ⟨n, rfl⟩ : ∃ m, n = m + 1 := ⟨n - 1, by omega⟩
    have e2 : solI rule c.solid (b + 1) = (c.solid (b + 1) : Int) := solI_of_lt hs
    by_cases h1 : c.solid b < ruleAt rule b
    · have e1 : solI rule c.solid b = (c.solid b : Int) := solI_of_lt h1
      have e3 : wrap ((c.pos b : Int) + (c.solid b : Int)) = w64 (c.pos b + c.solid b) := by
        rw [← wrap_natCast]
        push_cast
        rfl
      by_cases h2 : wrap ((c.pos (b + 1) : Int) + (c.solid (b + 1) : Int) - (ruleAt rule b : Int) + 1) >
          w64 (c.pos b + c.solid b)
      · have hD : drawLoop rule c (n + 1) (b + 1, t) = drawLoop rule c n (b, b + 1) := by
          rw [drawLoop_succ rule c hb0 hm b n t hs]
          exact if_pos ⟨h1, h2⟩
        have hF : findEarlier rule c.pos (solI rule c.solid) (b + 1) =
            findEarlier rule c.pos (solI rule c.solid) b := by
          rw [findEarlier_succ, e1, e2, e3]
          apply if_pos
          simp only [Bool.and_eq_true, decide_eq_true_eq]
          exact ⟨Int.natCast_nonneg _, h2⟩
        rw [hD, hF]
        exact ih n (b + 1) (by omega) h1
      · have hD : drawLoop rule c (n + 1) (b + 1, t) = .ret (.found b (b + 1)) := by
          rw [drawLoop_succ rule c hb0 hm b n t hs]
          exact if_neg (fun hn => h2 hn.2)
        have hF : findEarlier rule c.pos (solI rule c.solid) (b + 1) = some b := by
          rw [findEarlier_succ, e1, e2, e3]
          apply if_neg
          simp only [Bool.and_eq_true, decide_eq_true_eq]
          exact fun hn => h2 hn.2
        rw [hD, hF]
    · have hD : drawLoop rule c (n + 1) (b + 1, t) = .ret (.found b (b + 1)) := by
        rw [drawLoop_succ rule c hb0 hm b n t hs]
        exact if_neg (fun hn => h1 hn.1)
      have hF : findEarlier rule c.pos (solI rule c.solid) (b + 1) = some b := by
        rw [findEarlier_succ, solI_of_ge h1]
        apply if_neg
        simp
      rw [hD, hF]

/-- C31: while a puzzle is loaded, each of `nonogram_setlinesolver`,
`nonogram_setlinesolvers`, `nonogram_setclient`, `nonogram_setdisplay`,
`nonogram_setlog` and `nonogram_setalgo` returns -1 and leaves the solver as
it was, whatever its arguments, and so does `nonogram_load` on a solver that
has a puzzle loaded. -/
theorem config_rejected_while_loaded (c : SolverConf) (hc : c.puzzle ≠ 0)
    (s : nonogram_solver) (hs : s.loaded = true) :
    (∀ lvl n su conf, nonogram_setlinesolver c lvl n su conf = (-1, c)) ∧
    (∀ levels mem, nonogram_setlinesolvers c levels mem = (-1, c)) ∧
    (∀ client data, nonogram_setclient c client data = (-1, c)) ∧
    (∀ display data, nonogram_setdisplay c display data = (-1, c)) ∧
    (∀ file indent lvl, nonogram_setlog c file indent lvl = (-1, c)) ∧
    (∀ a i mem, nonogram_setalgo a c i mem = (-1, c)) ∧
    (∀ puzzle grid remcells, nonogram_load s puzzle grid remcells = (-1, s)) := by
  refine ⟨?_, ?_, ?_, ?_, ?_, ?_, ?_⟩
  · intro lvl n su conf
    unfold nonogram_setlinesolver
    rw [if_pos hc]
  · intro levels mem
    unfold nonogram_setlinesolvers
    rw [if_pos hc]
  · intro client data
    unfold nonogram_setclient
    rw [if_pos hc]
  · intro display data
    unfold nonogram_setdisplay
    rw [if_pos hc]
  · intro file indent lvl
    unfold nonogram_setlog
    rw [if_pos hc]
  · intro a i mem
    unfold nonogram_setalgo
    rw [if_pos hc]
  · intro puzzle grid remcells
    unfold nonogram_load
    rw [if_pos hs]

theorem config_rejected_while_loaded_witness :
    (nonogram_load nonogram_initsolver puzzle22
        (List.replicate 4 nonogram_BLANK) 4).2.loaded = true ∧
    nonogram_setalgo ⟨1, 2, 3, 4, 5, 6⟩ confLoaded nonogram_AFAST none = (-1, confLoaded) ∧
    nonogram_load (nonogram_load nonogram_initsolver puzzle22
        (List.replicate 4 nonogram_BLANK) 4).2 puzzle22 (List.replicate 4 nonogram_BLANK) 4 =
      (-1, (nonogram_load nonogram_initsolver puzzle22
        (List.replicate 4 nonogram_BLANK) 4).2) :=
  ⟨rfl,
    (config_rejected_while_loaded confLoaded (by decide)
      (nonogram_load nonogram_initsolver puzzle22 (List.replicate 4 nonogram_BLANK) 4).2
      rfl).2.2.2.2.2.1 _ _ _,
    (config_rejected_while_loaded confLoaded (by decide)
      (nonogram_load nonogram_initsolver puzzle22 (List.replicate 4 nonogram_BLANK) 4).2
      rfl).2.2.2.2.2.2 _ _ _⟩

/-- On failure `decode_len` leaves the cursor, the counter and `*vp` as they
were. -/
theorem decode_len_failure (i : InBuf) (vp0 : Nat) (rc : Int) (i1 : InBuf) (v : Nat)
    (h : decode_len i vp0 = .ret (rc, i1, v)) (hrc : rc < 0) : i1 = i ∧ v = vp0 := by
  unfold decode_len at h
  dsimp only at h
  have fin : ∀ {rc0 : Int} {j : InBuf} {w : Nat},
      Run.ret (rc0, j, w) = Run.ret (rc, i1, v) → (rc0 < 0 → j = i ∧ w = vp0) →
      i1 = i ∧ v = vp0 := by
    intro rc0 j w e hj
    have e1 := Run.ret.inj e
    simp only [Prod.mk.injEq] at e1
    obtain ⟨e2, e3, e4⟩ := e1
    subst e2 e3 e4
    exact hj hrc
  split_ifs at h
  all_goals first
    | exact fin h (fun _ => ⟨rfl, rfl⟩)
    | exact Run.noConfusion h
    | (split at h
       · exact fin h (fun _ => ⟨rfl, rfl⟩)
       · exact fin h (fun hn => absurd hn (by decide)))

/-- C39: `nonocache_decodecells` never moves the input cursor and never
changes the remaining-length counter: they are returned as they were passed,
also on success.  On a grid of one cell and an input of one character the
call succeeds, decodes the cell from that character, and still leaves the
cursor on it and the counter at 1, although one character (the grid needs
`(1 * 1 + 5) / 6 = 1`) has been decoded. -/
theorem decodecells_keeps_cursor :
    (∀ (i : InBuf) (wid hei : Nat) (grid : List Nat),
      (nonocache_decodecells i wid hei grid).2.1 = i) ∧
    ((1 * 1) % 2 ^ 64 + 5) % 2 ^ 64 / 6 = 1 ∧
    nonocache_decodecells { data := ['W'], rem := 1 } 1 1 [nonogram_BLANK] =
      (0, { data := ['W'], rem := 1 }, [nonogram_SOLID]) := by
  refine ⟨?_, by decide, by decide⟩
  intro i wid hei grid
  unfold nonocache_decodecells
  dsimp only
  split_ifs <;> rfl

theorem runsAux_nil_zero : runsAux [] 0 = [] := rfl

theorem runsAux_nil_pos (cur : Nat) (h : 0 < cur) : runsAux [] cur = [cur] := by
  show (if cur = 0 then [] else [cur]) = _
  rw [if_neg (by omega)]

theorem runsAux_solid (st : List Nat) (cur : Nat) :
    runsAux (nonogram_SOLID :: st) cur = runsAux st (cur + 1) := rfl

theorem runsAux_dot_zero (st : List Nat) : runsAux (nonogram_DOT :: st) 0 = runsAux st 0 := rfl

theorem runsAux_dot_pos (st : List Nat) (cur : Nat) (h : 0 < cur) :
    runsAux (nonogram_DOT :: st) cur = cur :: runsAux st 0 := by
  show (if nonogram_DOT = nonogram_SOLID then runsAux st (cur + 1)
    else if cur = 0 then runsAux st 0 else cur :: runsAux st 0) = _
  rw [if_neg (by decide), if_neg (by omega)]

theorem parselineLoop_dot_in (st : List Nat) (count : Nat) (v : Option (List Nat)) :
    parselineLoop (nonogram_DOT :: st) count true v = parselineLoop st (count + 1) false v := rfl

theorem parselineLoop_dot_out (st : List Nat) (count : Nat) (v : Option (List Nat)) :
    parselineLoop (nonogram_DOT :: st) count false v = parselineLoop st count false v := rfl

theorem parselineLoop_solid_in (st : List Nat) (count : Nat) (v : Option (List Nat)) :
    parselineLoop (nonogram_SOLID :: st) count true v =
      parselineLoop st count true (v.map (fun a => a.set count (ruleAt a count + 1))) := rfl

theorem parselineLoop_solid_out (st : List Nat) (count : Nat) (v : Option (List Nat)) :
    parselineLoop (nonogram_SOLID :: st) count false v =
      parselineLoop st count true
        ((v.map (fun a => a.set count 0)).map (fun a => a.set count (ruleAt a count + 1))) := rfl

theorem parselineLoop_other (c : Nat) (st : List Nat) (count : Nat) (inblock : Bool)
    (v : Option (List Nat)) (h1 : c ≠ nonogram_DOT) (h2 : c ≠ nonogram_SOLID) :
    parselineLoop (c :: st) count inblock v = (false, count, inblock, v) := by
  show (if c = nonogram_DOT then _ else if c = nonogram_SOLID then _ else _) = _
  rw [if_neg h1, if_neg h2]

/-- On a line of DOT and SOLID cells the loop of `nonogram_parseline` runs to
the end and counts the runs of solids. -/
theorem parselineLoop_count (st : List Nat) (hdet : Determined st) :
    ∀ (count : Nat) (inblock : Bool) (v : Option (List Nat)) (cur : Nat),
      (inblock = true → 0 < cur) → (inblock = false → cur = 0) →
      (parselineLoop st count inblock v).1 = true ∧
      (parselineLoop st count inblock v).2.1 +
          (if (parselineLoop st count inblock v).2.2.1 = true then 1 else 0) =
        count + (runsAux st cur).length := by
  induction st with
  | nil =>
    intro count inblock v cur h1 h2
    refine ⟨rfl, ?_⟩
    cases inblock with
    | true =>
      rw [runsAux_nil_pos cur (h1 rfl)]
      rfl
    | false =>
      rw [h2 rfl, runsAux_nil_zero]
      rfl
  | cons c st ih =>
    intro count inblock v cur h1 h2
    have hd : Determined st := fun x hx => hdet x (List.mem_cons_of_mem _ hx)
    rcases hdet c (List.mem_cons_self _ _) with hc | hc
    · subst hc
      cases inblock with
      | true =>
        rw [parselineLoop_dot_in, runsAux_dot_pos st cur (h1 rfl), List.length_cons]
        have := ih hd (count + 1) false v 0 (fun h => Bool.noConfusion h) (fun _ => rfl)
        refine ⟨this.1, ?_⟩
        rw [this.2]
        omega
      | false =>
        rw [parselineLoop_dot_out, h2 rfl, runsAux_dot_zero]
        exact ih hd count false v 0 (fun h => Bool.noConfusion h) (fun _ => rfl)
    · subst hc
      rw [runsAux_solid]
      cases inblock with
      | true =>
        rw [parselineLoop_solid_in]
        exact ih hd count true _ (cur + 1) (fun _ => Nat.succ_pos _)
          (fun h => Bool.noConfusion h)
      | false =>
        rw [parselineLoop_solid_out]
        exact ih hd count true _ (cur + 1) (fun _ => Nat.succ_pos _)
          (fun h => Bool.noConfusion h)

/-- A cell that is neither DOT nor SOLID makes the loop of
`nonogram_parseline` return -1. -/
theorem parselineLoop_fail (st : List Nat) (hnd : ¬ Determined st) :
    ∀ (count : Nat) (inblock : Bool) (v : Option (List Nat)),
      (parselineLoop st count inblock v).1 = false := by
  induction st with
  | nil =>
    exact absurd (fun c hc => absurd hc (List.not_mem_nil c)) hnd
  | cons c st ih =>
    intro count inblock v
    by_cases h1 : c = nonogram_DOT
    · subst h1
      have hd : ¬ Determined st := by
        intro hd
        apply hnd
        intro x hx
        rcases List.mem_cons.1 hx with e | e
        · rw [e]; exact Or.inl rfl
        · exact hd x e
      cases inblock with
      | true => rw [parselineLoop_dot_in]; exact ih hd _ _ _
      | false => rw [parselineLoop_dot_out]; exact ih hd _ _ _
    · by_cases h2 : c = nonogram_SOLID
      · subst h2
        have hd : ¬ Determined st := by
          intro hd
          apply hnd
          intro x hx
          rcases List.mem_cons.1 hx with e | e
          · rw [e]; exact Or.inr rfl
          · exact hd x e
        cases inblock with
        | true => rw [parselineLoop_solid_in]; exact ih hd _ _ _
        | false => rw [parselineLoop_solid_out]; exact ih hd _ _ _
      · rw [parselineLoop_other c st count inblock v h1 h2]

theorem runsAux_length_pos (st : List Nat) (hdet : Determined st) (cur : Nat) (h : 0 < cur) :
    0 < (runsAux st cur).length := by
  induction st generalizing cur with
  | nil =>
    rw [runsAux_nil_pos cur h]
    exact Nat.succ_pos _
  | cons c st ih =>
    have hd : Determined st := fun x hx => hdet x (List.mem_cons_of_mem _ hx)
    rcases hdet c (List.mem_cons_self _ _) with hc | hc
    · subst hc
      rw [runsAux_dot_pos st cur h]
      exact Nat.succ_pos _
    · subst hc
      rw [runsAux_solid]
      exact ih hd (cur + 1) (Nat.succ_pos _)

theorem ruleAt_set_self (a : List Nat) (i v : Nat) (h : i < a.length) :
    ruleAt (a.set i v) i = v := by
  unfold ruleAt
  rw [List.getD_eq_getElem?_getD, List.getElem?_set_self h]
  rfl

theorem take_succ_ruleAt (a : List Nat) (i : Nat) (h : i < a.length) :
    a.take (i + 1) = a.take i ++ [ruleAt a i] := by
  unfold ruleAt
  rw [List.getD_eq_getElem?_getD, List.getElem?_eq_getElem h, List.take_succ,
    List.getElem?_eq_getElem h]
  rfl

theorem take_set_self (a : List Nat) (i v : Nat) : (a.set i v).take i = a.take i := by
  induction a generalizing i with
  | nil => rfl
  | cons x xs ih =>
    cases i with
    | zero => rfl
    | succ i =>
      show x :: (xs.set i v).take i = x :: xs.take i
      rw [ih]

theorem drop_set_lt (a : List Nat) (i j v : Nat) (h : i < j) :
    (a.set i v).drop j = a.drop j := by
  induction a generalizing i j with
  | nil => rfl
  | cons x xs ih =>
    cases j with
    | zero => omega
    | succ j =>
      cases i with
      | zero => rfl
      | succ i =>
        show (xs.set i v).drop j = xs.drop j
        exact ih i j (by omega)

/-- On a line of DOT and SOLID cells the loop of `nonogram_parseline` writes
the lengths of the runs of solids from `v[count]` on. -/
theorem parselineLoop_fill (st : List Nat) (hdet : Determined st) :
    ∀ (count : Nat) (inblock : Bool) (a : List Nat) (cur : Nat),
      (inblock = true → 0 < cur ∧ ruleAt a count = cur) → (inblock = false → cur = 0) →
      count + (runsAux st cur).length ≤ a.length →
      (parselineLoop st count inblock (some a)).2.2.2 =
        some (a.take count ++ runsAux st cur ++ a.drop (count + (runsAux st cur).length)) := by
  induction st with
  | nil =>
    intro count inblock a cur h1 h2 hlen
    show some a = _
    cases inblock with
    | true =>
      obtain ⟨h3, h4⟩ := h1 rfl
      rw [runsAux_nil_pos cur h3] at hlen ⊢
      simp only [List.length_singleton] at hlen ⊢
      rw [← h4, ← take_succ_ruleAt a count (by omega), List.take_append_drop]
    | false =>
      rw [h2 rfl, runsAux_nil_zero]
      simp only [List.length_nil, Nat.add_zero, List.append_nil, List.take_append_drop]
  | cons c st ih =>
    intro count inblock a cur h1 h2 hlen
    have hd : Determined st := fun x hx => hdet x (List.mem_cons_of_mem _ hx)
    rcases hdet c (List.mem_cons_self _ _) with hc | hc
    · subst hc
      cases inblock with
      | true =>
        obtain ⟨h3, h4⟩ := h1 rfl
        rw [runsAux_dot_pos st cur h3] at hlen ⊢
        rw [List.length_cons] at hlen ⊢
        rw [parselineLoop_dot_in,
          ih hd (count + 1) false a 0 (fun h => Bool.noConfusion h) (fun _ => rfl) (by omega),
          take_succ_ruleAt a count (by omega), h4]
        simp only [List.append_assoc, List.singleton_append]
        congr 4
        omega
      | false =>
        rw [h2 rfl, runsAux_dot_zero] at hlen ⊢
        rw [parselineLoop_dot_out]
        exact ih hd count false a 0 (fun h => Bool.noConfusion h) (fun _ => rfl) hlen
    · subst hc
      rw [runsAux_solid] at hlen ⊢
      have hpos := runsAux_length_pos st hd (cur + 1) (Nat.succ_pos _)
      have hc : count < a.length := by omega
      cases inblock with
      | true =>
        obtain ⟨h3, h4⟩ := h1 rfl
        rw [parselineLoop_solid_in]
        show (parselineLoop st count true (some (a.set count (ruleAt a count + 1)))).2.2.2 = _
        rw [ih hd count true (a.set count (ruleAt a count + 1)) (cur + 1)
          (fun _ => ⟨Nat.succ_pos _, by rw [ruleAt_set_self _ _ _ hc, h4]⟩)
          (fun h => Bool.noConfusion h) (by rw [List.length_set]; exact hlen),
          take_set_self, drop_set_lt _ _ _ _ (by omega)]
      | false =>
        have h0 := h2 rfl
        subst h0
        rw [parselineLoop_solid_out]
        show (parselineLoop st count true
          (some ((a.set count 0).set count (ruleAt (a.set count 0) count + 1)))).2.2.2 = _
        rw [ih hd count true ((a.set count 0).set count (ruleAt (a.set count 0) count + 1)) (0 + 1)
          (fun _ => ⟨Nat.succ_pos _, by
            rw [ruleAt_set_self _ _ _ (by rw [List.length_set]; exact hc),
              ruleAt_set_self _ _ _ hc]⟩)
          (fun h => Bool.noConfusion h) (by rw [List.length_set, List.length_set]; exact hlen),
          take_set_self, take_set_self, drop_set_lt _ _ _ _ (by omega),
          drop_set_lt _ _ _ _ (by omega)]

theorem parseline_det (st : List Nat) (hdet : Determined st) (v : Option (List Nat)) :
    (nonogram_parseline st v).1 = ((solidRuns st).length : Int) := by
  obtain ⟨h1, h2⟩ := parselineLoop_count st hdet 0 false v 0 (fun h => Bool.noConfusion h)
    (fun _ => rfl)
  unfold nonogram_parseline
  dsimp only
  rw [if_pos h1]
  show ((parselineLoop st 0 false v).2.1 : Int) +
    (if (parselineLoop st 0 false v).2.2.1 = true then 1 else 0) = _
  unfold solidRuns
  rw [Nat.zero_add] at h2
  rw [← h2]
  split_ifs <;> simp

theorem parseline_fill (st : List Nat) (hdet : Determined st) :
    (nonogram_parseline st (some (List.replicate (solidRuns st).length 0))).2 =
      some (solidRuns st) := by
  have h := parselineLoop_fill st hdet 0 false (List.replicate (solidRuns st).length 0) 0
    (fun h => Bool.noConfusion h) (fun _ => rfl)
    (by rw [List.length_replicate, Nat.zero_add]; exact Nat.le_refl _)
  unfold nonogram_parseline
  dsimp only
  have e : (if (parselineLoop st 0 false (some (List.replicate (solidRuns st).length 0))).1 = true
      then (((parselineLoop st 0 false (some (List.replicate (solidRuns st).length 0))).2.1 : Int) +
        (if (parselineLoop st 0 false
          (some (List.replicate (solidRuns st).length 0))).2.2.1 = true then 1 else 0),
        (parselineLoop st 0 false (some (List.replicate (solidRuns st).length 0))).2.2.2)
      else ((-1 : Int),
        (parselineLoop st 0 false (some (List.replicate (solidRuns st).length 0))).2.2.2)).2 =
      (parselineLoop st 0 false (some (List.replicate (solidRuns st).length 0))).2.2.2 := by
    split_ifs <;> rfl
  rw [e, h]
  have e2 : List.drop (0 + (runsAux st 0).length) (List.replicate (solidRuns st).length 0) = [] := by
    apply List.drop_eq_nil_of_le
    rw [List.length_replicate, Nat.zero_add]
    exact Nat.le_refl _
  rw [e2, List.take_zero, List.nil_append, List.append_nil]
  rfl

theorem parseline_fail (st : List Nat) (hnd : ¬ Determined st) (v : Option (List Nat)) :
    (nonogram_parseline st v).1 = -1 := by
  have h := parselineLoop_fail st hnd 0 false v
  unfold nonogram_parseline
  dsimp only
  rw [if_neg (by rw [h]; exact Bool.false_ne_true)]

/-- When every `malloc` succeeds, the second pass of `nonogram_makepuzzle`
gives every line of DOT and SOLID cells the lengths of its runs of solids. -/
theorem fillRules_spec (mem : Nat → Bool) (hmem : ∀ k, mem k = true) :
    ∀ (lines : List (List Nat)) (k : Nat), (∀ st, st ∈ lines → Determined st) →
      fillRules mem lines k = .ret (some (lines.map solidRuns)) := by
  intro lines
  induction lines with
  | nil => intro k _; rfl
  | cons st rest ih =>
    intro k hdet
    have hd := hdet st (List.mem_cons_self _ _)
    have hr := ih (k + 1) (fun x hx => hdet x (List.mem_cons_of_mem _ hx))
    unfold fillRules
    dsimp only
    rw [if_neg (by rw [hmem k]; exact fun hn => hn rfl)]
    have e1 : (nonogram_parseline st none).1.toNat = (solidRuns st).length := by
      rw [parseline_det st hd none]
      exact Int.toNat_natCast _
    rw [e1, parseline_fill st hd,
      if_neg (by rw [parseline_det st hd]; exact fun hn => hn (Int.natCast_nonneg _)), hr]
    rfl

theorem any_parseline_false (lines : List (List Nat)) (hdet : ∀ st, st ∈ lines → Determined st) :
    lines.any (fun st => decide ((nonogram_parseline st none).1 < 0)) = false := by
  rw [List.any_eq_false]
  intro st hst
  rw [parseline_det st (hdet st hst) none]
  simp

theorem any_parseline_true (lines : List (List Nat)) (st : List Nat) (hst : st ∈ lines)
    (hnd : ¬ Determined st) :
    lines.any (fun st => decide ((nonogram_parseline st none).1 < 0)) = true := by
  rw [List.any_eq_true]
  refine ⟨st, hst, ?_⟩
  rw [parseline_fail st hnd none]
  decide

theorem lineCells_det (g : List Nat) (off len step : Nat)
    (h : ∀ i, i < len → cellAt g (off + i * step) = nonogram_DOT ∨
      cellAt g (off + i * step) = nonogram_SOLID) : Determined (lineCells g off len step) := by
  intro c hc
  unfold lineCells at hc
  obtain ⟨i, hi, e⟩ := List.mem_map.1 hc
  rw [← e]
  exact h i (List.mem_range.1 hi)

theorem index_lt_mul {w h x y : Nat} (hx : x < w) (hy : y < h) : x + y * w < w * h := by
  have : (y + 1) * w ≤ h * w := Nat.mul_le_mul_right w hy
  rw [Nat.add_mul, Nat.one_mul, Nat.mul_comm h w] at this
  omega

theorem gridRows_det (g : List Nat) (w h : Nat)
    (hg : ∀ j, j < w * h → cellAt g j = nonogram_DOT ∨ cellAt g j = nonogram_SOLID) :
    ∀ st, st ∈ gridRows g w h → Determined st := by
  intro st hst
  unfold gridRows at hst
  obtain ⟨n, hn, e⟩ := List.mem_map.1 hst
  rw [← e]
  apply lineCells_det
  intro i hi
  apply hg
  have := index_lt_mul hi (List.mem_range.1 hn)
  rw [Nat.mul_one, Nat.mul_comm w n, Nat.add_comm]
  exact this

theorem gridCols_det (g : List Nat) (w h : Nat)
    (hg : ∀ j, j < w * h → cellAt g j = nonogram_DOT ∨ cellAt g j = nonogram_SOLID) :
    ∀ st, st ∈ gridCols g w h → Determined st := by
  intro st hst
  unfold gridCols at hst
  obtain ⟨n, hn, e⟩ := List.mem_map.1 hst
  rw [← e]
  apply lineCells_det
  intro i hi
  apply hg
  exact index_lt_mul (List.mem_range.1 hn) hi

theorem makepuzzle_ok (mem : Nat → Bool) (hmem : ∀ k, mem k = true) (g : List Nat) (w h : Nat)
    (hg : ∀ j, j < w * h → cellAt g j = nonogram_DOT ∨ cellAt g j = nonogram_SOLID) :
    nonogram_makepuzzle mem g w h = .ret (0, some (gridPuzzle g w h)) := by
  unfold nonogram_makepuzzle
  rw [if_neg (fun hn => hn ⟨hmem 0, hmem 1⟩),
    any_parseline_false _ (gridRows_det g w h hg),
    any_parseline_false _ (gridCols_det g w h hg),
    fillRules_spec mem hmem _ _ (gridRows_det g w h hg),
    fillRules_spec mem hmem _ _ (gridCols_det g w h hg)]
  rfl

theorem makepuzzle_fail (mem : Nat → Bool) (g : List Nat) (w h : Nat) (j : Nat) (hj : j < w * h)
    (h1 : cellAt g j ≠ nonogram_DOT) (h2 : cellAt g j ≠ nonogram_SOLID) :
    nonogram_makepuzzle mem g w h = .ret (-1, none) := by
  have hw : 0 < w := by
    rcases Nat.eq_zero_or_pos w with e | e
    · rw [e, Nat.zero_mul] at hj; omega
    · exact e
  have hrow : (gridRows g w h).any (fun st => decide ((nonogram_parseline st none).1 < 0)) =
      true := by
    apply any_parseline_true _ (lineCells g (w * (j / w)) w 1)
    · unfold gridRows
      apply List.mem_map.2
      refine ⟨j / w, List.mem_range.2 ?_, rfl⟩
      exact Nat.div_lt_of_lt_mul hj
    · intro hd
      have hm : cellAt g (w * (j / w) + (j % w) * 1) ∈ lineCells g (w * (j / w)) w 1 := by
        unfold lineCells
        apply List.mem_map.2
        exact ⟨j % w, List.mem_range.2 (Nat.mod_lt _ hw), rfl⟩
      have e : w * (j / w) + (j % w) * 1 = j := by
        rw [Nat.mul_one]
        exact Nat.div_add_mod j w
      rw [e] at hm
      rcases hd _ hm with h3 | h3
      · exact h1 h3
      · exact h2 h3
  unfold nonogram_makepuzzle
  by_cases hm : mem 0 = true ∧ mem 1 = true
  · rw [if_neg (fun hn => hn hm), hrow]
    rfl
  · rw [if_pos hm]

theorem runsAux_sum (st : List Nat) (cur : Nat) :
    (runsAux st cur).sum = cur + st.count nonogram_SOLID := by
  induction st generalizing cur with
  | nil =>
    show (if cur = 0 then [] else [cur]).sum = _
    split_ifs with h
    · rw [h]; rfl
    · simp
  | cons c st ih =>
    show (if c = nonogram_SOLID then runsAux st (cur + 1)
      else if cur = 0 then runsAux st 0 else cur :: runsAux st 0).sum = _
    by_cases hc : c = nonogram_SOLID
    · rw [if_pos hc, ih, hc, List.count_cons_self]
      omega
    · rw [if_neg hc, List.count_cons_of_ne (fun e => hc e.symm)]
      by_cases h0 : cur = 0
      · rw [if_pos h0, ih, h0]
      · rw [if_neg h0, List.sum_cons, ih]
        omega

theorem runsAux_bound (st : List Nat) (cur : Nat) :
    (runsAux st cur).sum + (runsAux st cur).length ≤ st.length + cur + 1 := by
  induction st generalizing cur with
  | nil =>
    show (if cur = 0 then [] else [cur]).sum + (if cur = 0 then [] else [cur]).length ≤ _
    split_ifs with h
    · simp
    · simp
  | cons c st ih =>
    show (if c = nonogram_SOLID then runsAux st (cur + 1)
        else if cur = 0 then runsAux st 0 else cur :: runsAux st 0).sum +
      (if c = nonogram_SOLID then runsAux st (cur + 1)
        else if cur = 0 then runsAux st 0 else cur :: runsAux st 0).length ≤ _
    rw [List.length_cons]
    by_cases hc : c = nonogram_SOLID
    · rw [if_pos hc]
      have := ih (cur + 1)
      omega
    · rw [if_neg hc]
      by_cases h0 : cur = 0
      · rw [if_pos h0]
        have := ih 0
        omega
      · rw [if_neg h0, List.sum_cons, List.length_cons]
        have := ih 0
        omega

theorem toInt32_step (a x : Int) : toInt32 (wrap (toInt32 a + x)) = toInt32 (a + x) := by
  unfold toInt32 wrap
  omega

theorem verifyRule_eq (sign : Int) (r : List Nat) (a : Int) :
    r.foldl (fun (b : Int) (v : Nat) => toInt32 (wrap (b + sign * (v : Int)))) (toInt32 a) =
      toInt32 (a + sign * (r.sum : Int)) := by
  induction r generalizing a with
  | nil => simp
  | cons v vs ih =>
    rw [List.foldl_cons, toInt32_step, ih, List.sum_cons]
    congr 1
    push_cast
    ring

theorem verifySum_eq (sign : Int) (rules : List (List Nat)) (a : Int) :
    verifySum sign rules (toInt32 a) =
      toInt32 (a + sign * ((rules.map List.sum).sum : Int)) := by
  unfold verifySum
  induction rules generalizing a with
  | nil => simp
  | cons r rs ih =>
    rw [List.foldl_cons, verifyRule_eq, ih, List.map_cons, List.sum_cons]
    congr 1
    push_cast
    ring

theorem count_map_eq_sum (l : List Nat) (f : Nat → Nat) (a : Nat) :
    (l.map f).count a = (l.map (fun i => if f i = a then 1 else 0)).sum := by
  induction l with
  | nil => rfl
  | cons x xs ih =>
    rw [List.map_cons, List.map_cons, List.sum_cons, ← ih]
    by_cases h : f x = a
    · rw [if_pos h, h, List.count_cons_self]
      omega
    · rw [if_neg h, List.count_cons_of_ne (fun e => h e.symm)]
      omega

theorem sum_range_swap (f : Nat → Nat → Nat) (w h : Nat) :
    ((List.range h).map (fun y => ((List.range w).map (fun x => f x y)).sum)).sum =
      ((List.range w).map (fun x => ((List.range h).map (fun y => f x y)).sum)).sum := by
  induction h with
  | zero => simp
  | succ h ih =>
    rw [List.range_succ, List.map_append, List.sum_append, ih]
    simp only [List.map_cons, List.map_nil, List.sum_cons, List.sum_nil, Nat.add_zero]
    rw [← List.sum_map_add]
    congr 1
    apply List.map_congr_left
    intro x _
    rw [List.map_append, List.sum_append]
    simp

/-- The blocks of the rows of the puzzle built from a grid add up to the same
number as the blocks of its columns. -/
theorem gridPuzzle_sums (g : List Nat) (w h : Nat) :
    (((gridPuzzle g w h).row.map List.sum).sum) = (((gridPuzzle g w h).col.map List.sum).sum) := by
  have hr : ((gridPuzzle g w h).row.map List.sum) =
      (List.range h).map (fun y => ((List.range w).map
        (fun x => if cellAt g (x + y * w) = nonogram_SOLID then 1 else 0)).sum) := by
    unfold gridPuzzle gridRows
    simp only [List.map_map]
    apply List.map_congr_left
    intro y _
    show (solidRuns (lineCells g (w * y) w 1)).sum = _
    unfold solidRuns lineCells
    rw [runsAux_sum, Nat.zero_add, count_map_eq_sum]
    congr 1
    apply List.map_congr_left
    intro x _
    rw [show w * y + x * 1 = x + y * w by rw [Nat.mul_one, Nat.mul_comm, Nat.add_comm]]
  have hc : ((gridPuzzle g w h).col.map List.sum) =
      (List.range w).map (fun x => ((List.range h).map
        (fun y => if cellAt g (x + y * w) = nonogram_SOLID then 1 else 0)).sum) := by
    unfold gridPuzzle gridCols
    simp only [List.map_map]
    apply List.map_congr_left
    intro x _
    show (solidRuns (lineCells g x h w)).sum = _
    unfold solidRuns lineCells
    rw [runsAux_sum, Nat.zero_add, count_map_eq_sum]
  rw [hr, hc]
  exact sum_range_swap _ w h

theorem verifypuzzle_gridPuzzle (g : List Nat) (w h : Nat) :
    nonogram_verifypuzzle (gridPuzzle g w h) = 0 := by
  unfold nonogram_verifypuzzle
  have e0 : (0 : Int) = toInt32 0 := by
    unfold toInt32
    norm_num
  rw [e0, verifySum_eq, verifySum_eq, gridPuzzle_sums]
  have : (0 : Int) + 1 * (((gridPuzzle g w h).col.map List.sum).sum : Int) +
      -1 * (((gridPuzzle g w h).col.map List.sum).sum : Int) = 0 := by ring
  rw [this]

/-- C34: when every `malloc` succeeds, `nonogram_makepuzzle` on a grid of
`w * h` cells that are all DOT or SOLID returns 0 with a puzzle of width `w`
and height `h` on which `nonogram_verifypuzzle` returns 0 (the blocks of the
rows add up to the same as the blocks of the columns) and in which every rule
satisfies `sum(blocks) + (len - 1) <= length of its line`; and if a cell of
the grid is neither DOT nor SOLID (BLANK or BOTH for instance),
`nonogram_makepuzzle` returns -1. -/
theorem makepuzzle_spec (mem : Nat → Bool) (g : List Nat) (w h : Nat) :
    ((∀ k, mem k = true) →
      (∀ j, j < w * h → cellAt g j = nonogram_DOT ∨ cellAt g j = nonogram_SOLID) →
      ∃ p, nonogram_makepuzzle mem g w h = .ret (0, some p) ∧
        p.width = w ∧ p.height = h ∧ nonogram_verifypuzzle p = 0 ∧
        (∀ r, r ∈ p.row → (r.sum : Int) + ((r.length : Int) - 1) ≤ (w : Int)) ∧
        (∀ r, r ∈ p.col → (r.sum : Int) + ((r.length : Int) - 1) ≤ (h : Int))) ∧
    ((∃ j, j < w * h ∧ cellAt g j ≠ nonogram_DOT ∧ cellAt g j ≠ nonogram_SOLID) →
      nonogram_makepuzzle mem g w h = .ret (-1, none)) := by
  constructor
  · intro hmem hg
    refine ⟨gridPuzzle g w h, makepuzzle_ok mem hmem g w h hg, ?_, ?_,
      verifypuzzle_gridPuzzle g w h, ?_, ?_⟩
    · unfold Puzzle.width gridPuzzle gridCols
      simp
    · unfold Puzzle.height gridPuzzle gridRows
      simp
    · intro r hr
      unfold gridPuzzle gridRows at hr
      simp only [List.map_map] at hr
      obtain ⟨n, _, e⟩ := List.mem_map.1 hr
      rw [← e]
      have := runsAux_bound (lineCells g (w * n) w 1) 0
      have hl : (lineCells g (w * n) w 1).length = w := by
        unfold lineCells
        simp
      rw [hl] at this
      show ((solidRuns (lineCells g (w * n) w 1)).sum : Int) +
        (((solidRuns (lineCells g (w * n) w 1)).length : Int) - 1) ≤ _
      unfold solidRuns
      omega
    · intro r hr
      unfold gridPuzzle gridCols at hr
      simp only [List.map_map] at hr
      obtain ⟨n, _, e⟩ := List.mem_map.1 hr
      rw [← e]
      have := runsAux_bound (lineCells g n h w) 0
      have hl : (lineCells g n h w).length = h := by
        unfold lineCells
        simp
      rw [hl] at this
      show ((solidRuns (lineCells g n h w)).sum : Int) +
        (((solidRuns (lineCells g n h w)).length : Int) - 1) ≤ _
      unfold solidRuns
      omega
  · rintro ⟨j, hj, h1, h2⟩
    exact makepuzzle_fail mem g w h j hj h1 h2

theorem makepuzzle_spec_witness :
    (∃ p, nonogram_makepuzzle (fun _ => true)
        [nonogram_SOLID, nonogram_DOT, nonogram_SOLID,
          nonogram_SOLID, nonogram_SOLID, nonogram_DOT] 3 2 = .ret (0, some p) ∧
      p.width = 3 ∧ p.height = 2 ∧ nonogram_verifypuzzle p = 0 ∧
      (∀ r, r ∈ p.row → (r.sum : Int) + ((r.length : Int) - 1) ≤ ((3 : Nat) : Int)) ∧
      (∀ r, r ∈ p.col → (r.sum : Int) + ((r.length : Int) - 1) ≤ ((2 : Nat) : Int))) ∧
    nonogram_makepuzzle (fun _ => true) [nonogram_SOLID, nonogram_BLANK] 2 1 = .ret (-1, none) :=
  ⟨(makepuzzle_spec (fun _ => true)
      [nonogram_SOLID, nonogram_DOT, nonogram_SOLID,
        nonogram_SOLID, nonogram_SOLID, nonogram_DOT] 3 2).1 (fun _ => rfl) (by decide),
    (makepuzzle_spec (fun _ => true) [nonogram_SOLID, nonogram_BLANK] 2 1).2
      ⟨1, by decide, by decide, by decide⟩⟩

theorem whileInc_zero (c : Nat → Bool) (x : Nat) : whileInc c 0 x = x := rfl

theorem whileInc_succ (c : Nat → Bool) (n x : Nat) :
    whileInc c (n + 1) x = if c x then whileInc c n (x + 1) else x := rfl

/-- Where no sum wraps around, the checked loop over the leading dots reads
inside the line and ends where the unchecked loop ends. -/
theorem skipDotsC_eq (line : List Nat) (rulev : Nat) (hL : line.length < 2 ^ 62)
    (hR : rulev < 2 ^ 62) :
    ∀ (n p : Nat), line.length ≤ p + n → p ≤ line.length + 1 →
      skipDotsC line rulev (n + 1) p =
        .ok (whileInc (fun p => decide (p + rulev < line.length) &&
          cellAt line p == nonogram_DOT) n p) := by
  intro n
  induction n with
  | zero =>
    intro p h1 h2
    have e : w64 (p + rulev) = p + rulev := w64_of_lt (by omega)
    show (if w64 (p + rulev) < line.length then _ else Safe.ok p) = _
    rw [e, if_neg (by omega)]
    rfl
  | succ n ih =>
    intro p h1 h2
    have e : w64 (p + rulev) = p + rulev := w64_of_lt (by omega)
    have e1 : w64 (p + 1) = p + 1 := w64_of_lt (by omega)
    show (if w64 (p + rulev) < line.length then
        if ¬ (p < line.length) then Safe.oob
        else if cellAt line p = nonogram_DOT then skipDotsC line rulev (n + 1) (w64 (p + 1))
        else Safe.ok p
      else Safe.ok p) = _
    rw [whileInc_succ, e, e1]
    by_cases hc : p + rulev < line.length
    · rw [if_pos hc, if_neg (by omega)]
      by_cases hd : cellAt line p = nonogram_DOT
      · rw [if_pos hd, ih (p + 1) (by omega) (by omega)]
        have : (decide (p + rulev < line.length) && cellAt line p == nonogram_DOT) = true := by
          simp [hc, hd]
        rw [if_pos this]
      · rw [if_neg hd]
        have : ¬ (decide (p + rulev < line.length) && cellAt line p == nonogram_DOT) = true := by
          simp [hd]
        rw [if_neg this]
    · rw [if_neg hc]
      have : ¬ (decide (p + rulev < line.length) && cellAt line p == nonogram_DOT) = true := by
        simp [hc]
      rw [if_neg this]

theorem scanBlock_zero (line : List Nat) (posv rulev i : Nat) (sol : Int) :
    scanBlock line posv rulev 0 i sol = (i, sol) := rfl

theorem scanBlock_succ (line : List Nat) (posv rulev n i : Nat) (sol : Int) :
    scanBlock line posv rulev (n + 1) i sol =
      if i < rulev && cellAt line (posv + i) != nonogram_DOT then
        scanBlock line posv rulev n (i + 1)
          (if sol < 0 && cellAt line (posv + i) == nonogram_SOLID then (i : Int) else sol)
      else (i, sol) := rfl

/-- The checked scan under a block that lies inside the line reads inside the
line and ends as the unchecked scan. -/
theorem scanBlockC_eq (line : List Nat) (posv rulev : Nat) (hfit : posv + rulev ≤ line.length) :
    ∀ (n i : Nat) (sol : Int), rulev ≤ i + n →
      scanBlockC line posv rulev (n + 1) i sol = .ok (scanBlock line posv rulev n i sol) := by
  intro n
  induction n with
  | zero =>
    intro i sol h
    show (if i < rulev then _ else Safe.ok (i, sol)) = _
    rw [if_neg (by omega)]
    rfl
  | succ n ih =>
    intro i sol h
    show (if i < rulev then
        if ¬ (posv + i < line.length) then Safe.oob
        else if cellAt line (posv + i) ≠ nonogram_DOT then
          scanBlockC line posv rulev (n + 1) (i + 1)
            (if sol < 0 ∧ cellAt line (posv + i) = nonogram_SOLID then (i : Int) else sol)
        else Safe.ok (i, sol)
      else Safe.ok (i, sol)) = _
    rw [scanBlock_succ]
    by_cases hi : i < rulev
    · rw [if_pos hi, if_neg (by omega)]
      by_cases hd : cellAt line (posv + i) ≠ nonogram_DOT
      · rw [if_pos hd, ih (i + 1) _ (by omega)]
        have : (decide (i < rulev) && cellAt line (posv + i) != nonogram_DOT) = true := by
          simp [hi, hd]
        rw [if_pos this]
        congr 2
        by_cases hs : sol < 0 ∧ cellAt line (posv + i) = nonogram_SOLID
        · rw [if_pos hs]
          have : (decide (sol < 0) && cellAt line (posv + i) == nonogram_SOLID) = true := by
            simp [hs.1, hs.2]
          rw [if_pos this]
        · rw [if_neg hs]
          have : ¬ (decide (sol < 0) && cellAt line (posv + i) == nonogram_SOLID) = true := by
            simpa using hs
          rw [if_neg this]
      · rw [if_neg hd]
        have : ¬ (decide (i < rulev) && cellAt line (posv + i) != nonogram_DOT) = true := by
          simp only [ne_eq, not_not] at hd
          simp [hd]
        rw [if_neg this]
    · rw [if_neg hi]
      have : ¬ (decide (i < rulev) && cellAt line (posv + i) != nonogram_DOT) = true := by
        simp [hi]
      rw [if_neg this]

theorem shuffle_zero (line : List Nat) (rulev p : Nat) (sol : Int) :
    shuffle line rulev 0 p sol = (p, sol) := rfl

theorem shuffle_succ (line : List Nat) (rulev n p : Nat) (sol : Int) :
    shuffle line rulev (n + 1) p sol =
      if p + rulev < line.length && cellAt line (p + rulev) == nonogram_SOLID
          && cellAt line p != nonogram_SOLID then
        shuffle line rulev n (p + 1) (sol - 1)
      else (p, sol) := rfl

/-- Where no sum wraps around, the checked shuffle reads inside the line and
ends as the unchecked shuffle. -/
theorem shuffleC_eq (line : List Nat) (rulev : Nat) (hL : line.length < 2 ^ 62)
    (hR : rulev < 2 ^ 62) :
    ∀ (n p : Nat) (sol : Int), line.length ≤ p + rulev + n → p ≤ line.length →
      shuffleC line rulev (n + 1) p sol = .ok (shuffle line rulev n p sol) := by
  intro n
  induction n with
  | zero =>
    intro p sol h1 h2
    have e : w64 (p + rulev) = p + rulev := w64_of_lt (by omega)
    show (if w64 (p + rulev) < line.length then _ else Safe.ok (p, sol)) = _
    rw [e, if_neg (by omega)]
    rfl
  | succ n ih =>
    intro p sol h1 h2
    have e : w64 (p + rulev) = p + rulev := w64_of_lt (by omega)
    have e1 : w64 (p + 1) = p + 1 := w64_of_lt (by omega)
    show (if w64 (p + rulev) < line.length then
        if ¬ (p + rulev < line.length) then Safe.oob
        else if cellAt line (p + rulev) = nonogram_SOLID then
          if ¬ (p < line.length) then Safe.oob
          else if cellAt line p ≠ nonogram_SOLID then
            shuffleC line rulev (n + 1) (w64 (p + 1)) (sol - 1)
          else Safe.ok (p, sol)
        else Safe.ok (p, sol)
      else Safe.ok (p, sol)) = _
    rw [shuffle_succ, e, e1]
    by_cases hc : p + rulev < line.length
    · rw [if_pos hc, if_neg (fun hn => hn hc)]
      by_cases hs : cellAt line (p + rulev) = nonogram_SOLID
      · rw [if_pos hs, if_neg (by omega)]
        by_cases hp : cellAt line p ≠ nonogram_SOLID
        · rw [if_pos hp, ih (p + 1) _ (by omega) (by omega)]
          have : (decide (p + rulev < line.length) && cellAt line (p + rulev) == nonogram_SOLID
              && cellAt line p != nonogram_SOLID) = true := by
            simp [hc, hs, hp]
          rw [if_pos this]
        · rw [if_neg hp]
          have : ¬ (decide (p + rulev < line.length) && cellAt line (p + rulev) == nonogram_SOLID
              && cellAt line p != nonogram_SOLID) = true := by
            simp only [ne_eq, not_not] at hp
            simp [hp]
          rw [if_neg this]
      · rw [if_neg hs]
        have : ¬ (decide (p + rulev < line.length) && cellAt line (p + rulev) == nonogram_SOLID
            && cellAt line p != nonogram_SOLID) = true := by
          simp [hs]
        rw [if_neg this]
    · rw [if_neg hc]
      have : ¬ (decide (p + rulev < line.length) && cellAt line (p + rulev) == nonogram_SOLID
          && cellAt line p != nonogram_SOLID) = true := by
        simp [hc]
      rw [if_neg this]

/-- The checked loop over the cells behind the last block ends as the
unchecked loop. -/
theorem trailingC_eq (line : List Nat) (hL : line.length < 2 ^ 62) :
    ∀ (n p : Nat), line.length ≤ p + n →
      trailingC line (n + 1) p =
        .ok (whileInc (fun p => decide (p < line.length) && cellAt line p != nonogram_SOLID)
          n p) := by
  intro n
  induction n with
  | zero =>
    intro p h1
    show (if p < line.length then _ else Safe.ok p) = _
    rw [if_neg (by omega)]
    rfl
  | succ n ih =>
    intro p h1
    show (if p < line.length then
        if cellAt line p ≠ nonogram_SOLID then trailingC line (n + 1) (w64 (p + 1))
        else Safe.ok p
      else Safe.ok p) = _
    rw [whileInc_succ]
    by_cases hc : p < line.length
    · have e1 : w64 (p + 1) = p + 1 := w64_of_lt (by omega)
      rw [if_pos hc, e1]
      by_cases hs : cellAt line p ≠ nonogram_SOLID
      · rw [if_pos hs, ih (p + 1) (by omega)]
        have : (decide (p < line.length) && cellAt line p != nonogram_SOLID) = true := by
          simp [hc, hs]
        rw [if_pos this]
      · rw [if_neg hs]
        have : ¬ (decide (p < line.length) && cellAt line p != nonogram_SOLID) = true := by
          simp only [ne_eq, not_not] at hs
          simp [hs]
        rw [if_neg this]
    · rw [if_neg hc]
      have : ¬ (decide (p < line.length) && cellAt line p != nonogram_SOLID) = true := by
        simp [hc]
      rw [if_neg this]

/-- The checked backward search started below the number of blocks stays
inside the arrays and ends as the unchecked search. -/
theorem findEarlierC_eq (rule : List Nat) (pos : Nat → Nat) (solid : Nat → Int) :
    ∀ c, c < rule.length →
      findEarlierC rule pos solid c = .ok (findEarlier rule pos solid c) := by
  intro c
  induction c with
  | zero => intro _; rfl
  | succ b ih =>
    intro hc
    show (if ¬ (b + 1 < rule.length) then Safe.oob
      else if solid b ≥ 0 ∧
          wrap ((pos (b + 1) : Int) + solid (b + 1) - (ruleAt rule b : Int) + 1)
            > wrap ((pos b : Int) + solid b) then
        findEarlierC rule pos solid b
      else Safe.ok (some b)) = _
    rw [findEarlier_succ, if_neg (fun hn => hn hc)]
    by_cases h : solid b ≥ 0 ∧
        wrap ((pos (b + 1) : Int) + solid (b + 1) - (ruleAt rule b : Int) + 1)
          > wrap ((pos b : Int) + solid b)
    · rw [if_pos h, ih (by omega)]
      have : (decide (solid b ≥ 0) &&
          decide (wrap ((pos (b + 1) : Int) + solid (b + 1) - (ruleAt rule b : Int) + 1)
            > wrap ((pos b : Int) + solid b))) = true := by
        simp only [Bool.and_eq_true, decide_eq_true_eq]
        exact h
      rw [if_pos this]
    · rw [if_neg h]
      have : ¬ (decide (solid b ≥ 0) &&
          decide (wrap ((pos (b + 1) : Int) + solid (b + 1) - (ruleAt rule b : Int) + 1)
            > wrap ((pos b : Int) + solid b))) = true := by
        simp only [Bool.and_eq_true, decide_eq_true_eq]
        exact h
      rw [if_neg this]

/-- Every block that the backward search steps over covers a solid. -/
theorem findEarlier_solid (rule : List Nat) (pos : Nat → Nat) (solid : Nat → Int) :
    ∀ c b, findEarlier rule pos solid c = some b → b + 1 < c → solid (b + 1) ≥ 0 := by
  intro c
  induction c with
  | zero => intro b h; exact Option.noConfusion h
  | succ c ih =>
    intro b h hb
    rw [findEarlier_succ] at h
    by_cases hc : (decide (solid c ≥ 0) &&
        decide (wrap ((pos (c + 1) : Int) + solid (c + 1) - (ruleAt rule c : Int) + 1)
          > wrap ((pos c : Int) + solid c))) = true
    · rw [if_pos hc] at h
      simp only [Bool.and_eq_true, decide_eq_true_eq] at hc
      by_cases e : b + 1 = c
      · rw [e]; exact hc.1
      · exact ih b h (by omega)
    · rw [if_neg hc] at h
      have : c = b := Option.some.inj h
      omega

theorem wrap_neg_large (z : Int) (h1 : z < 0) (h2 : -(2 ^ 63) ≤ z) : 2 ^ 63 ≤ wrap z := by
  unfold wrap
  omega

/-- When the repositioned block ends up inside the line, the repositioning
has not wrapped around, and the checked backward move is the unchecked one. -/
theorem drawEarlierC_eq (rule : List Nat) (s : PushState) (hblk : s.block < rule.length)
    (hR : ∀ i, i < rule.length → ruleAt rule i < 2 ^ 62)
    (hsol : -(2 ^ 62) ≤ s.solid s.block)
    (hres : ∀ s', drawEarlier rule s = some s' → s'.block < rule.length →
      s'.pos s'.block < 2 ^ 63) :
    drawEarlierC rule s = .ok (drawEarlier rule s) := by
  unfold drawEarlierC
  rw [findEarlierC_eq rule s.pos s.solid s.block hblk]
  cases hf : findEarlier rule s.pos s.solid s.block with
  | none =>
    unfold drawEarlier
    rw [hf]
  | some b =>
    have hb := findEarlier_lt rule s.pos s.solid s.block b hf
    have hd : drawEarlier rule s = some
        { block := b,
          pos := Function.update s.pos b
            (wrap ((s.pos (b + 1) : Int) + s.solid (b + 1) - (ruleAt rule b : Int) + 1)),
          solid := s.solid } := by
      unfold drawEarlier
      rw [hf]
    have h1 := hres _ hd (by show b < rule.length; omega)
    have h2 : Function.update s.pos b
        (wrap ((s.pos (b + 1) : Int) + s.solid (b + 1) - (ruleAt rule b : Int) + 1)) b =
        wrap ((s.pos (b + 1) : Int) + s.solid (b + 1) - (ruleAt rule b : Int) + 1) :=
      Function.update_same _ _ _
    have h3 : wrap ((s.pos (b + 1) : Int) + s.solid (b + 1) - (ruleAt rule b : Int) + 1) <
        2 ^ 63 := by
      rw [← h2]; exact h1
    have h4 : -(2 ^ 62) ≤ s.solid (b + 1) := by
      by_cases e : b + 1 = s.block
      · rw [e]; exact hsol
      · have := findEarlier_solid rule s.pos s.solid s.block b hf (by omega)
        omega
    have h5 := hR b (by omega)
    have h6 : ¬ ((s.pos (b + 1) : Int) + s.solid (b + 1) - (ruleAt rule b : Int) + 1 < 0) := by
      intro hn
      have := wrap_neg_large _ hn (by omega)
      omega
    simp only []
    rw [if_neg h6, hd]

theorem stepOK_bound {line rule : List Nat} {s : PushState} {r : Option PushState}
    (hL : line.length < 2 ^ 62) (h : StepOK line rule s r) :
    ∀ s', r = some s' → s'.block < rule.length → s'.pos s'.block < 2 ^ 63 := by
  intro s' e hb
  subst e
  rcases h with ⟨h1, _⟩ | ⟨h1, _⟩
  · have := h1.bound
    omega
  · omega

/-- Where no sum wraps around and the block lies inside the line, the checked
second half of a round is the unchecked one. -/
theorem pushPlaceC_eq (line rule : List Nat) (s : PushState) (hL : line.length < 2 ^ 62)
    (hR : ∀ i, i < rule.length → ruleAt rule i < 2 ^ 62) (hblk : s.block < rule.length)
    (hfit : s.pos s.block + ruleAt rule s.block ≤ line.length)
    (hsol : -(2 ^ 62) ≤ s.solid s.block)
    (hres : ∀ s', pushPlace line rule s = some s' → s'.block < rule.length →
      s'.pos s'.block < 2 ^ 63) :
    pushPlaceC line rule s = .ok (pushPlace line rule s) := by
  have hRb := hR _ hblk
  have e : w64 (s.pos s.block + ruleAt rule s.block) = s.pos s.block + ruleAt rule s.block :=
    w64_of_lt (by omega)
  have e3 : w64 (w64 (s.pos s.block + 1) + ruleAt rule s.block) =
      s.pos s.block + 1 + ruleAt rule s.block := by
    rw [w64_of_lt (show s.pos s.block + 1 < 2 ^ 64 by omega), w64_of_lt (by omega)]
  by_cases h1 : s.pos s.block + ruleAt rule s.block < line.length ∧
      cellAt line (s.pos s.block + ruleAt rule s.block) = nonogram_SOLID
  · have hU : pushPlace line rule s = drawEarlier rule s := by
      unfold pushPlace
      dsimp only
      rw [if_pos (show (decide (s.pos s.block + ruleAt rule s.block < line.length) &&
        cellAt line (s.pos s.block + ruleAt rule s.block) == nonogram_SOLID) = true by
          simp [h1.1, h1.2])]
    have hC : pushPlaceC line rule s = drawEarlierC rule s := by
      unfold pushPlaceC
      dsimp only
      rw [e, if_neg (show ¬ (s.pos s.block + ruleAt rule s.block < line.length ∧
        ¬ (s.pos s.block + ruleAt rule s.block < line.length)) from fun hn => hn.2 hn.1),
        if_pos h1]
    rw [hU, hC]
    exact drawEarlierC_eq rule s hblk hR hsol (fun s' hs' => hres s' (by rw [hU]; exact hs'))
  · have hb1 : ¬ (decide (s.pos s.block + ruleAt rule s.block < line.length) &&
        cellAt line (s.pos s.block + ruleAt rule s.block) == nonogram_SOLID) = true := by
      simpa using h1
    by_cases h2 : s.block + 1 < rule.length
    · have hU : pushPlace line rule s = some
          { block := s.block + 1,
            pos := Function.update s.pos (s.block + 1)
              (s.pos s.block + 1 + ruleAt rule s.block),
            solid := s.solid } := by
        unfold pushPlace
        dsimp only
        rw [if_neg hb1, if_pos h2]
      unfold pushPlaceC
      dsimp only
      rw [e, e3, if_neg (show ¬ (s.pos s.block + ruleAt rule s.block < line.length ∧
        ¬ (s.pos s.block + ruleAt rule s.block < line.length)) from fun hn => hn.2 hn.1),
        if_neg h1, if_pos h2, hU]
    · have ht := trailingC_eq line hL line.length (s.pos s.block + 1 + ruleAt rule s.block)
        (by omega)
      have hge := whileInc_ge (fun p => decide (p < line.length) &&
        cellAt line p != nonogram_SOLID) line.length (s.pos s.block + 1 + ruleAt rule s.block)
      by_cases h3 : whileInc (fun p => decide (p < line.length) &&
          cellAt line p != nonogram_SOLID) line.length
            (s.pos s.block + 1 + ruleAt rule s.block) < line.length
      · by_cases h4 : s.solid s.block ≥ 0 ∧
            wrap (((whileInc (fun p => decide (p < line.length) &&
              cellAt line p != nonogram_SOLID) line.length
                (s.pos s.block + 1 + ruleAt rule s.block) : Nat) : Int) -
              (ruleAt rule s.block : Int) + 1) >
              wrap ((s.pos s.block : Int) + s.solid s.block)
        · have hU : pushPlace line rule s = drawEarlier rule s := by
            unfold pushPlace
            dsimp only
            rw [if_neg hb1, if_neg h2, if_pos h3,
              if_pos (by simp only [Bool.and_eq_true, decide_eq_true_eq]; exact h4)]
          have hC : pushPlaceC line rule s = drawEarlierC rule s := by
            unfold pushPlaceC
            dsimp only
            rw [e, e3, if_neg (show ¬ (s.pos s.block + ruleAt rule s.block < line.length ∧
              ¬ (s.pos s.block + ruleAt rule s.block < line.length)) from fun hn => hn.2 hn.1),
              if_neg h1, if_neg h2, ht]
            dsimp only
            rw [if_pos h3, if_pos h4]
          rw [hU, hC]
          exact drawEarlierC_eq rule s hblk hR hsol
            (fun s' hs' => hres s' (by rw [hU]; exact hs'))
        · have hU : pushPlace line rule s = some
              { block := s.block,
                pos := Function.update s.pos s.block
                  (wrap (((whileInc (fun p => decide (p < line.length) &&
                    cellAt line p != nonogram_SOLID) line.length
                      (s.pos s.block + 1 + ruleAt rule s.block) : Nat) : Int) -
                    (ruleAt rule s.block : Int) + 1)),
                solid := s.solid } := by
            unfold pushPlace
            dsimp only
            rw [if_neg hb1, if_neg h2, if_pos h3,
              if_neg (by simp only [Bool.and_eq_true, decide_eq_true_eq]; exact h4)]
          unfold pushPlaceC
          dsimp only
          rw [e, e3, if_neg (show ¬ (s.pos s.block + ruleAt rule s.block < line.length ∧
            ¬ (s.pos s.block + ruleAt rule s.block < line.length)) from fun hn => hn.2 hn.1),
            if_neg h1, if_neg h2, ht]
          dsimp only
          rw [if_pos h3, if_neg h4, if_neg (by omega), hU]
      · have hU : pushPlace line rule s = some
            { block := s.block + 1, pos := s.pos, solid := s.solid } := by
          unfold pushPlace
          dsimp only
          rw [if_neg hb1, if_neg h2, if_neg h3]
        unfold pushPlaceC
        dsimp only
        rw [e, e3, if_neg (show ¬ (s.pos s.block + ruleAt rule s.block < line.length ∧
          ¬ (s.pos s.block + ruleAt rule s.block < line.length)) from fun hn => hn.2 hn.1),
          if_neg h1, if_neg h2, ht]
        dsimp only
        rw [if_neg h3, hU]

theorem scanBlock_sol_ge (line : List Nat) (posv rulev : Nat) :
    ∀ (n i : Nat) (sol : Int), -1 ≤ sol → -1 ≤ (scanBlock line posv rulev n i sol).2 := by
  intro n
  induction n with
  | zero => intro i sol h; exact h
  | succ n ih =>
    intro i sol h
    rw [scanBlock_succ]
    split_ifs
    · exact ih _ _ (by omega)
    · exact ih _ _ h
    · exact h

theorem scanBlock_le (line : List Nat) (posv rulev : Nat) :
    ∀ (n i : Nat) (sol : Int), i ≤ rulev → (scanBlock line posv rulev n i sol).1 ≤ rulev := by
  intro n
  induction n with
  | zero => intro i sol h; exact h
  | succ n ih =>
    intro i sol h
    rw [scanBlock_succ]
    by_cases hc : (decide (i < rulev) && cellAt line (posv + i) != nonogram_DOT) = true
    · rw [if_pos hc]
      simp only [Bool.and_eq_true, decide_eq_true_eq] at hc
      exact ih _ _ (by omega)
    · rw [if_neg hc]
      exact h

/-- Where the loop over the leading dots stops: not before its start, and
after a move with the block still inside the line. -/
theorem skipDots_bound (line : List Nat) (rulev n x : Nat) :
    x ≤ whileInc (fun p => decide (p + rulev < line.length) &&
      cellAt line p == nonogram_DOT) n x ∧
    (whileInc (fun p => decide (p + rulev < line.length) &&
      cellAt line p == nonogram_DOT) n x = x ∨
     whileInc (fun p => decide (p + rulev < line.length) &&
      cellAt line p == nonogram_DOT) n x + rulev ≤ line.length) := by
  refine ⟨whileInc_ge _ n x, ?_⟩
  by_cases h : whileInc (fun p => decide (p + rulev < line.length) &&
      cellAt line p == nonogram_DOT) n x = x
  · exact Or.inl h
  · right
    have hge := whileInc_ge (fun p => decide (p + rulev < line.length) &&
      cellAt line p == nonogram_DOT) n x
    have := whileInc_all (fun p => decide (p + rulev < line.length) &&
      cellAt line p == nonogram_DOT) n x
      (whileInc (fun p => decide (p + rulev < line.length) &&
        cellAt line p == nonogram_DOT) n x - 1) (by omega) (by omega)
    simp only [Bool.and_eq_true, decide_eq_true_eq] at this
    omega

/-- Where the shuffle stops: not before its start, with the block still
inside the line. -/
theorem shuffle_bound (line : List Nat) (rulev n p : Nat) (sol : Int)
    (hfit : p + rulev ≤ line.length) :
    p ≤ (shuffle line rulev n p sol).1 ∧ (shuffle line rulev n p sol).1 + rulev ≤ line.length ∧
    (shuffle line rulev n p sol).2 = sol - ((shuffle line rulev n p sol).1 : Int) + (p : Int) := by
  rw [shuffle_eq]
  have hge := whileInc_ge (shuffleCond line rulev) n p
  refine ⟨hge, ?_, rfl⟩
  by_cases h : whileInc (shuffleCond line rulev) n p = p
  · rw [h]; exact hfit
  · have := whileInc_all (shuffleCond line rulev) n p
      (whileInc (shuffleCond line rulev) n p - 1) (by omega) (by omega)
    rw [shuffleCond_iff] at this
    show whileInc (shuffleCond line rulev) n p + rulev ≤ line.length
    omega

/-- Where no sum wraps around, one checked round of the main loop of
`nonogram_push` from a state that satisfies the loop invariant makes no
access outside the arrays, computes no negative position, and is the
unchecked round. -/
theorem pushBodyC_eq (line rule : List Nat) (s : PushState) (hL : line.length < 2 ^ 62)
    (hR : ∀ i, i < rule.length → ruleAt rule i < 2 ^ 62) (hpos : PositiveRule rule)
    (h : PushInv line rule s) :
    pushBodyC line rule s = .ok (pushBody line rule s) := by
  have hblk := h.blk
  have hRb := hR _ hblk
  have hr : 0 < ruleAt rule s.block := hpos _ hblk
  have hbound := h.bound
  have hres := stepOK_bound hL (pushBody_spec (Nat.lt_trans hL (by norm_num)) hpos h)
  have hsk := skipDotsC_eq line (ruleAt rule s.block) hL hRb line.length (s.pos s.block)
    (by omega) hbound
  obtain ⟨hge, hle⟩ := skipDots_bound line (ruleAt rule s.block) line.length (s.pos s.block)
  unfold pushBody at hres
  unfold pushBodyC pushBody
  dsimp only at hres ⊢
  rw [if_neg (fun hn => hn hblk), hsk]
  dsimp only
  generalize whileInc (fun p => decide (p + ruleAt rule s.block < line.length) &&
    cellAt line p == nonogram_DOT) line.length (s.pos s.block) = posv at hge hle hres ⊢
  clear hsk
  have hpv : posv ≤ line.length + 1 := by omega
  have e : w64 (posv + ruleAt rule s.block) = posv + ruleAt rule s.block :=
    w64_of_lt (by omega)
  rw [e]
  by_cases h1 : posv + ruleAt rule s.block > line.length
  · rw [if_pos h1, if_pos (show (decide (posv + ruleAt rule s.block > line.length) ||
      cellAt line posv == nonogram_DOT) = true by simp [h1])]
  · rw [if_neg h1, if_neg (show ¬ ¬ (posv < line.length) by omega)]
    by_cases h2 : cellAt line posv = nonogram_DOT
    · rw [if_pos h2, if_pos (show (decide (posv + ruleAt rule s.block > line.length) ||
        cellAt line posv == nonogram_DOT) = true by simp [h2])]
    · have hb2 : ¬ (decide (posv + ruleAt rule s.block > line.length) ||
          cellAt line posv == nonogram_DOT) = true := by simp [h1, h2]
      rw [if_neg h2, if_neg hb2] 
      rw [if_neg hb2] at hres
      rw [scanBlockC_eq line posv (ruleAt rule s.block) (by omega) (ruleAt rule s.block) 0 (-1)
        (by omega)]
      dsimp only
      have hs1 := scanBlock_sol_ge line posv (ruleAt rule s.block) (ruleAt rule s.block) 0 (-1)
        (Int.le_refl _)
      have hs2 := scanBlock_le line posv (ruleAt rule s.block) (ruleAt rule s.block) 0 (-1)
        (Nat.zero_le _)
      generalize scanBlock line posv (ruleAt rule s.block) (ruleAt rule s.block) 0 (-1) = r
        at hs1 hs2 hres ⊢
      by_cases h3 : r.1 < ruleAt rule s.block
      · rw [if_pos h3, if_pos h3]
        rw [if_pos h3] at hres
        by_cases h4 : r.2 ≥ 0
        · rw [if_pos h4, if_pos h4]
          rw [if_pos h4] at hres
          refine drawEarlierC_eq rule
            { block := s.block, pos := Function.update s.pos s.block posv,
              solid := Function.update s.solid s.block r.2 } hblk hR ?_ hres
          show -(2 ^ 62) ≤ Function.update s.solid s.block r.2 s.block
          rw [Function.update_same]
          omega
        · rw [if_neg h4, if_neg h4, w64_of_lt (show posv + r.1 < 2 ^ 64 by omega)]
      · rw [if_neg h3, if_neg h3]
        rw [if_neg h3] at hres
        rw [if_neg (show ¬ (posv + ruleAt rule s.block < line.length ∧
          ¬ (posv + ruleAt rule s.block < line.length)) from fun hn => hn.2 hn.1)]
        have esol : (if posv + ruleAt rule s.block < line.length ∧
              cellAt line (posv + ruleAt rule s.block) = nonogram_SOLID ∧ r.2 < 0
            then (ruleAt rule s.block : Int) else r.2) =
            (if (decide (posv + ruleAt rule s.block < line.length) &&
              cellAt line (posv + ruleAt rule s.block) == nonogram_SOLID &&
              decide (r.2 < 0)) = true then (ruleAt rule s.block : Int) else r.2) := by
          by_cases hc : posv + ruleAt rule s.block < line.length ∧
              cellAt line (posv + ruleAt rule s.block) = nonogram_SOLID ∧ r.2 < 0
          · rw [if_pos hc, if_pos (by simp [hc.1, hc.2.1, hc.2.2])]
          · rw [if_neg hc, if_neg (by simpa [and_assoc] using hc)]
        rw [esol]
        have hsol0 : -1 ≤ (if (decide (posv + ruleAt rule s.block < line.length) &&
              cellAt line (posv + ruleAt rule s.block) == nonogram_SOLID &&
              decide (r.2 < 0)) = true then (ruleAt rule s.block : Int) else r.2) := by
          split_ifs
          · omega
          · exact hs1
        generalize (if (decide (posv + ruleAt rule s.block < line.length) &&
              cellAt line (posv + ruleAt rule s.block) == nonogram_SOLID &&
              decide (r.2 < 0)) = true then (ruleAt rule s.block : Int) else r.2) = sol0
          at hsol0 hres ⊢
        rw [shuffleC_eq line (ruleAt rule s.block) hL hRb line.length posv sol0 (by omega)
          (by omega)]
        dsimp only
        obtain ⟨hsh1, hsh2, hsh3⟩ := shuffle_bound line (ruleAt rule s.block) line.length posv
          sol0 (by omega)
        generalize shuffle line (ruleAt rule s.block) line.length posv sol0 = sh
          at hsh1 hsh2 hsh3 hres ⊢
        refine pushPlaceC_eq line rule
          { block := s.block, pos := Function.update s.pos s.block sh.1,
            solid := Function.update s.solid s.block sh.2 } hL hR hblk ?_ ?_ hres
        · show Function.update s.pos s.block sh.1 s.block + ruleAt rule s.block ≤ line.length
          rw [Function.update_same]
          exact hsh2
        · show -(2 ^ 62) ≤ Function.update s.solid s.block sh.2 s.block
          rw [Function.update_same]
          omega

theorem pushLoopC_eq (line rule : List Nat) (hL : line.length < 2 ^ 62)
    (hR : ∀ i, i < rule.length → ruleAt rule i < 2 ^ 62) (hpos : PositiveRule rule) :
    ∀ (fuel : Nat) (s : PushState), (PushInv line rule s ∨ ¬ s.block < rule.length) →
      pushLoopC line rule fuel s = safeOfOption (pushLoop line rule fuel s) := by
  intro fuel
  induction fuel with
  | zero => intro s _; rfl
  | succ fuel ih =>
    intro s hs
    show (if s.block < rule.length then
        match pushBodyC line rule s with
        | .oob => Safe.oob
        | .wrapped => Safe.wrapped
        | .fuel => Safe.fuel
        | .ok none => Safe.ok none
        | .ok (some s') => pushLoopC line rule fuel s'
      else Safe.ok (some s.pos)) =
      safeOfOption (if s.block < rule.length then
        match pushBody line rule s with
        | none => some none
        | some s' => pushLoop line rule fuel s'
      else some (some s.pos))
    by_cases hb : s.block < rule.length
    · rw [if_pos hb, if_pos hb]
      rcases hs with hs | hs
      · rw [pushBodyC_eq line rule s hL hR hpos hs]
        have hstep := pushBody_spec (Nat.lt_trans hL (by norm_num)) hpos hs
        revert hstep
        cases pushBody line rule s with
        | none => intro _; rfl
        | some s' =>
          intro hstep
          dsimp only
          apply ih
          rcases hstep with ⟨h1, _⟩ | ⟨h1, _⟩
          · exact Or.inl h1
          · right; omega
      · exact absurd hb hs
    · rw [if_neg hb, if_neg hb]
      rfl

/-- C35: on every line shorter than `2^62` cells and every rule of positive
blocks that are each below `2^62`, `nonogram_push` returns within `pushFuel`
rounds of its main loop, every cell it reads has an index below the length of
the line, every access to `rule`, `pos` and `solid` has an index below the
number of blocks, and no repositioning computes a negative value before the
conversion to `unsigned long`: the checked embedding ends with a result,
which is the result of the unchecked embedding. -/
theorem push_terminates_in_bounds (line rule : List Nat) (hL : line.length < 2 ^ 62)
    (hR : ∀ i, i < rule.length → ruleAt rule i < 2 ^ 62) (hpos : PositiveRule rule) :
    ∃ r, nonogram_push_checked line rule = .ok r ∧ nonogram_push line rule = some r := by
  have hinit : PushInv line rule (pushInit (fun _ => 0)) ∨
      ¬ (pushInit (fun _ => 0)).block < rule.length := by
    by_cases hk : 0 < rule.length
    · left
      refine ⟨hk, ?_, ?_, ?_, ?_⟩
      · intro b hb; exact absurd hb (Nat.not_lt_zero _)
      · intro j hj; exact absurd hj (Nat.not_lt_zero _)
      · intro q _ b _; exact Nat.zero_le _
      · exact Nat.zero_le _
    · right; exact hk
  have heq := pushLoopC_eq line rule hL hR hpos (pushFuel line rule) (pushInit (fun _ => 0)) hinit
  have hne := nonogram_push_ne_none (Nat.lt_trans hL (by norm_num)) hpos
  unfold nonogram_push at hne ⊢
  unfold nonogram_push_checked
  rw [heq]
  revert hne
  cases pushLoop line rule (pushFuel line rule) (pushInit (fun _ => 0)) with
  | none => intro hne; exact absurd rfl hne
  | some r => intro _; exact ⟨_, rfl, rfl⟩

theorem push_terminates_in_bounds_witness :
    ∃ r, nonogram_push_checked [nonogram_BLANK, nonogram_DOT, nonogram_SOLID, nonogram_BLANK]
        [1, 1] = .ok r ∧
      nonogram_push [nonogram_BLANK, nonogram_DOT, nonogram_SOLID, nonogram_BLANK] [1, 1] =
        some r :=
  push_terminates_in_bounds [nonogram_BLANK, nonogram_DOT, nonogram_SOLID, nonogram_BLANK]
    [1, 1] (by norm_num) (by decide) (by decide)

/-- C35, counterexample: with the rule `[1, 2^64 - 1]` on the line
`[BLANK, DOT]` the second block is started at cell 2, the sum
`posv + rulev = 2 + (2^64 - 1)` wraps around to 1, which is below the length
of the line, and the loop over the leading dots reads `line[2]`, which lies
behind the end of the line. -/
theorem push_reads_behind_line :
    PositiveRule [1, 2 ^ 64 - 1] ∧
    nonogram_push_checked [nonogram_BLANK, nonogram_DOT] [1, 2 ^ 64 - 1] = .oob := by
  constructor
  · decide
  · decide

theorem count_eq_countP_range (l : List Nat) (a : Nat) :
    l.count a = (List.range l.length).countP (fun j => decide (cellAt l j = a)) := by
  induction l with
  | nil => rfl
  | cons x xs ih =>
    rw [List.length_cons, List.range_succ_eq_map, List.countP_cons, List.countP_map]
    have e : (List.range xs.length).countP
        ((fun j => decide (cellAt (x :: xs) j = a)) ∘ Nat.succ) =
        (List.range xs.length).countP (fun j => decide (cellAt xs j = a)) := by
      apply List.countP_congr
      intro j _
      show decide (cellAt (x :: xs) (j + 1) = a) = true ↔ decide (cellAt xs j = a) = true
      rw [cellAt_cons_succ]
    rw [e, ← ih, cellAt_cons_zero]
    by_cases h : x = a
    · rw [h, List.count_cons_self]
      simp
    · rw [List.count_cons_of_ne (fun e => h e.symm)]
      simp [h]

theorem div_mod_index {pw j : Nat} (_hpw : 0 < pw) : j % pw + j / pw * pw = j := by
  have := Nat.div_add_mod j pw
  rw [Nat.mul_comm] at this
  omega

theorem index_div_mod {pw x y : Nat} (hx : x < pw) :
    (x + y * pw) % pw = x ∧ (x + y * pw) / pw = y := by
  constructor
  · rw [Nat.add_mul_mod_self_right, Nat.mod_eq_of_lt hx]
  · rw [Nat.add_mul_div_right _ _ (by omega), Nat.div_eq_of_lt hx, Nat.zero_add]

theorem lt_mul_div {pw ph j : Nat} (hj : j < pw * ph) : j % pw < pw ∧ j / pw < ph := by
  have hpw : 0 < pw := by
    rcases Nat.eq_zero_or_pos pw with e | e
    · rw [e, Nat.zero_mul] at hj; omega
    · exact e
  exact ⟨Nat.mod_lt _ hpw, Nat.div_lt_of_lt_mul hj⟩

/-- The number of BLANK cells of the working grid. -/
theorem blankCount_gridFn (c : nonogram_solver)
    (hlen : c.grid.length = c.puzzle.width * c.puzzle.height) :
    blankCount (gridFn c) c.puzzle.width c.puzzle.height = c.grid.count nonogram_BLANK := by
  rw [count_eq_countP_range, hlen]
  unfold blankCount
  apply countP_range_congr
  intro j hj
  obtain ⟨h1, h2⟩ := lt_mul_div hj
  unfold gridFn
  rw [if_pos ⟨h1, h2⟩, div_mod_index (by omega)]

theorem blankCount_congr (g1 g2 : Nat → Nat → Nat) (pw ph : Nat)
    (h : ∀ x y, x < pw → y < ph → g1 x y = g2 x y) : blankCount g1 pw ph = blankCount g2 pw ph := by
  unfold blankCount
  apply countP_range_congr
  intro j hj
  obtain ⟨h1, h2⟩ := lt_mul_div hj
  rw [h _ _ h1 h2]

/-- Writing a colour on a BLANK cell takes one from the number of BLANK
cells. -/
theorem blankCount_update (g g1 : Nat → Nat → Nat) (pw ph x0 y0 : Nat) (hx0 : x0 < pw)
    (hy0 : y0 < ph) (hb : g x0 y0 = nonogram_BLANK) (hv : g1 x0 y0 ≠ nonogram_BLANK)
    (h : ∀ x y, (x ≠ x0 ∨ y ≠ y0) → g1 x y = g x y) :
    blankCount g1 pw ph + 1 = blankCount g pw ph := by
  unfold blankCount
  obtain ⟨e1, e2⟩ := @index_div_mod pw x0 y0 hx0
  apply countP_range_update _ _ (pw * ph) (x0 + y0 * pw) (index_lt_mul hx0 hy0)
  · rw [e1, e2]; simpa using hb
  · rw [e1, e2]; simpa using hv
  · intro j hj
    rw [h]
    by_contra hn
    simp only [not_or, not_not] at hn
    apply hj
    rw [← hn.1, ← hn.2]
    exact (div_mod_index (by omega)).symm

theorem posFlags_congr (f g : List Nat) (n : Nat)
    (h : ∀ i, i < n → (0 < flagAt f i ↔ 0 < flagAt g i)) : posFlags f n = posFlags g n := by
  unfold posFlags
  apply countP_range_congr
  intro i hi
  have := h i hi
  by_cases e : 0 < flagAt f i
  · simp [e, this.1 e]
  · have e2 : ¬ 0 < flagAt g i := fun hn => e (this.2 hn)
    simp [e, e2]

theorem posFlags_gain (f g : List Nat) (n i : Nat) (hi : i < n) (h0 : flagAt f i = 0)
    (hv : 0 < flagAt g i) (h : ∀ j, j ≠ i → flagAt g j = flagAt f j) :
    posFlags g n = posFlags f n + 1 := by
  unfold posFlags
  have := countP_range_update (fun j => decide (0 < flagAt g j))
    (fun j => decide (0 < flagAt f j)) n i hi (by simpa using hv) (by simp [h0])
    (fun j hj => by
      show decide (0 < flagAt f j) = decide (0 < flagAt g j)
      rw [h j hj])
  omega

theorem posFlags_lose (f g : List Nat) (n i : Nat) (hi : i < n) (h0 : 0 < flagAt f i)
    (hv : flagAt g i = 0) (h : ∀ j, j ≠ i → flagAt g j = flagAt f j) :
    posFlags g n + 1 = posFlags f n := by
  have := posFlags_gain g f n i hi hv h0 (fun j hj => (h j hj).symm)
  omega

theorem posFlags_zero (f : List Nat) (n : Nat) (h : ∀ i, i < n → flagAt f i = 0) :
    posFlags f n = 0 := by
  unfold posFlags
  rw [List.countP_eq_zero]
  intro i hi
  rw [h i (List.mem_range.1 hi)]
  simp

theorem posFlags_eq_zero (f : List Nat) (n : Nat) (h : posFlags f n = 0) :
    ∀ i, i < n → flagAt f i = 0 := by
  unfold posFlags at h
  rw [List.countP_eq_zero] at h
  intro i hi
  have := h i (List.mem_range.2 hi)
  simp only [decide_eq_true_eq] at this
  omega

theorem posFlags_pos (f : List Nat) (n : Nat) (h : 0 < posFlags f n) :
    ∃ i, i < n ∧ 0 < flagAt f i := by
  unfold posFlags at h
  rw [List.countP_pos_iff] at h
  obtain ⟨i, hi, hp⟩ := h
  exact ⟨i, List.mem_range.1 hi, by simpa using hp⟩

/-- One positive flag among zeros is counted once. -/
theorem posFlags_single (f : List Nat) (n p : Nat) (hp : p < n) (hv : 0 < flagAt f p)
    (h : ∀ i, i < n → i ≠ p → flagAt f i = 0) : posFlags f n = 1 := by
  have h0 : posFlags (List.replicate n 0) n = 0 := by
    apply posFlags_zero
    intro i hi
    unfold flagAt
    rw [List.getD_eq_getElem?_getD, List.getElem?_replicate]
    simp [hi]
  have e : posFlags f n = (List.range n).countP (fun j => decide (j = p)) := by
    unfold posFlags
    apply countP_range_congr
    intro i hi
    by_cases e : i = p
    · subst e; simp [hv]
    · rw [h i hi e]; simp [e]
  have := countP_range_update (fun j => decide (j = p)) (fun _ => false) n p hp (by simp) rfl
    (fun j hj => by simp [hj])
  rw [e]
  have hz : (List.range n).countP (fun _ => false) = 0 := by
    rw [List.countP_eq_zero]
    intro i _
    exact Bool.false_ne_true
  omega

/-- The counters of the stack survive when cells that were BLANK inside the
unknown area change. -/
theorem StackCnt.cnt_update {pw ph : Nat} {u : nonogram_rect} {g g1 : Nat → Nat → Nat}
    {stack : List nonogram_stack} (hs : StackInv pw ph u g stack) (h : StackCnt pw ph g stack)
    (hg : ∀ x y, g1 x y ≠ g x y → u.has x y = true) :
    StackCnt pw ph g1 stack := by
  cases stack with
  | nil => trivial
  | cons st rest =>
    obtain ⟨a1, a2, a3, a4, _⟩ := hs
    have hr : restoredCell st g1 = restoredCell st g := by
      funext x y
      unfold restoredCell
      by_cases e : st.unkarea.has x y = true
      · rw [if_pos e, if_pos e]
      · rw [if_neg e, if_neg e]
        by_contra hn
        have := hg _ _ hn
        rw [rect_has_iff] at this e
        omega
    show st.remcells = (blankCount (restoredCell st g1) pw ph : Int) ∧
      StackCnt pw ph (restoredCell st g1) rest
    rw [hr]
    exact h

/-- The counter invariant is kept by a step that writes a colour on a BLANK
cell and takes one from `remcells`, whatever it does to the flags as long as
`reminfo` counts them. -/
theorem InfoInv.info_write {c d : nonogram_solver} (hD : DriverInv c) (hI : InfoInv c)
    (x0 y0 v : Nat) (hx0 : x0 < c.puzzle.width) (hy0 : y0 < c.puzzle.height)
    (hb : cellAt c.grid (x0 + y0 * c.puzzle.width) = nonogram_BLANK)
    (hv : v ≠ nonogram_BLANK)
    (e2 : d.puzzle = c.puzzle) (e3 : d.grid = c.grid.set (x0 + y0 * c.puzzle.width) v)
    (elev : d.levels = c.levels) (erem : d.remcells = c.remcells - 1)
    (estack : d.stack = c.stack)
    (hinfo : d.reminfo =
      ((posFlags d.rowflag c.puzzle.height + posFlags d.colflag c.puzzle.width : Nat) : Int))
    (hor : ∀ y, y < c.puzzle.height → ¬ (d.unkarea.min.y ≤ y ∧ y < d.unkarea.max.y) →
      flagAt d.rowflag y = 0)
    (hoc : ∀ x, x < c.puzzle.width → ¬ (d.unkarea.min.x ≤ x ∧ x < d.unkarea.max.x) →
      flagAt d.colflag x = 0)
    (hcur : d.status = nonogram_WORKING ∨ d.status = nonogram_DONE → 1 ≤ lineFlag d) :
    InfoInv d := by
  have hidx : x0 + y0 * c.puzzle.width < c.grid.length := by
    rw [hD.grid_len]; exact index_lt hx0 hy0
  have hne : ∀ x y, gridFn d x y ≠ gridFn c x y → x = x0 ∧ y = y0 :=
    fun x y h => ⟨(gridFn_of_set c d x0 y0 v e2 e3 hx0 x y h).1,
      (gridFn_of_set c d x0 y0 v e2 e3 hx0 x y h).2.1⟩
  refine ⟨?_, ?_, ?_, ?_, ?_, hcur, ?_⟩
  · rw [elev]; exact hI.levels
  · rw [e2]; exact hinfo
  · intro h0
    rw [e2]
    have hc := hI.cells (by omega)
    have hu := blankCount_update (gridFn c) (gridFn d) c.puzzle.width c.puzzle.height x0 y0
      hx0 hy0 (by unfold gridFn; rw [if_pos ⟨hx0, hy0⟩]; exact hb)
      (by
        unfold gridFn
        rw [e2, e3, if_pos ⟨hx0, hy0⟩, cellAt_set, if_pos ⟨rfl, hidx⟩]
        exact hv)
      (fun x y hxy => by
        by_contra hn
        obtain ⟨h1, h2⟩ := hne x y hn
        rcases hxy with h | h
        · exact h h1
        · exact h h2)
    omega
  · rw [e2]; exact hor
  · rw [e2]; exact hoc
  · rw [e2, estack]
    apply StackCnt.cnt_update hD.stack hI.stack
    intro x y hn
    obtain ⟨h1, h2⟩ := hne x y hn
    rw [h1, h2]
    exact hD.blanks x0 y0 hx0 hy0 hb

/-- What raising a flag to `levels` does to the number of positive flags: it
grows by one exactly when the flag was zero and `levels` is not. -/
theorem posFlags_raise (flag : List Nat) (n i levels : Nat) (hi : i < n)
    (hlen : flag.length = n) :
    ((posFlags (if flagAt flag i < levels then flag.set i levels else flag) n : Nat) : Int) =
      (if flagAt flag i < levels ∧ flagAt flag i = 0
        then ((posFlags flag n : Nat) : Int) + 1 else ((posFlags flag n : Nat) : Int)) := by
  by_cases h1 : flagAt flag i < levels
  · rw [if_pos h1]
    by_cases h2 : flagAt flag i = 0
    · rw [if_pos ⟨h1, h2⟩]
      have := posFlags_gain flag (flag.set i levels) n i hi h2
        (by rw [flagAt_set, if_pos ⟨rfl, by omega⟩]; omega)
        (fun j hj => by rw [flagAt_set, if_neg (fun hn => hj hn.1.symm)])
      omega
    · rw [if_neg (fun hn => h2 hn.2)]
      congr 1
      apply posFlags_congr
      intro j _
      rw [flagAt_set]
      by_cases e : i = j
      · subst e
        rw [if_pos ⟨rfl, by omega⟩]
        omega
      · rw [if_neg (fun hn => e hn.1)]
  · rw [if_neg h1, if_neg (fun hn => h1 hn.1)]

theorem flagAt_raise (flag : List Nat) (i levels j : Nat) (hj : j ≠ i) :
    flagAt (if flagAt flag i < levels then flag.set i levels else flag) j = flagAt flag j := by
  split_ifs
  · rw [flagAt_set, if_neg (fun hn => hj hn.1.symm)]
  · rfl

/-- Each pass of the loop of `redeemstep` keeps the counter invariant. -/
theorem redeemCell_info (c : nonogram_solver) (changed : Bool) (i : Nat) (hD : DriverInv c)
    (hI : InfoInv c) (hs : c.status ≠ nonogram_EMPTY)
    (hs2 : c.status = nonogram_WORKING ∨ c.status = nonogram_DONE) (hi : i < lineLen c) :
    InfoInv (redeemCell c changed i).1 := by
  have hline := hD.line hs
  have hcur := hI.cur hs2
  unfold redeemCell
  by_cases hc : cellAt c.grid (lineIndex c i) = nonogram_BLANK ∧
      (cellAt c.work i = nonogram_DOT ∨ cellAt c.work i = nonogram_SOLID)
  · rw [if_pos hc]
    have hv : cellAt c.work i ≠ nonogram_BLANK := by
      rcases hc.2 with e | e <;> rw [e] <;> decide
    by_cases hr : c.on_row = true
    · rw [if_pos hr]
      rw [if_pos hr] at hline
      have hi2 : i < c.puzzle.width := by
        unfold lineLen at hi; rw [if_pos hr] at hi; exact hi
      have eidx : lineIndex c i = i + c.lineno * c.puzzle.width := by
        unfold lineIndex; rw [if_pos hr, Nat.mul_comm, Nat.add_comm]
      rw [eidx] at hc ⊢
      have hin := (rect_has_iff _ _ _).1 (hD.blanks i c.lineno hi2 hline hc.1)
      refine hI.info_write hD i c.lineno (cellAt c.work i) hi2 hline hc.1 hv rfl rfl rfl rfl rfl
        ?_ ?_ ?_ ?_
      · show (if flagAt c.colflag i < c.levels ∧ flagAt c.colflag i = 0
          then c.reminfo + 1 else c.reminfo) =
          ((posFlags c.rowflag c.puzzle.height +
            posFlags (if flagAt c.colflag i < c.levels then c.colflag.set i c.levels
              else c.colflag) c.puzzle.width : Nat) : Int)
        have := posFlags_raise c.colflag c.puzzle.width i c.levels hi2 hD.colflag_len
        have h0 := hI.info
        push_cast
        rw [this, h0]
        push_cast
        split_ifs <;> ring
      · exact hI.out_row
      · intro x hx hout
        show flagAt (if flagAt c.colflag i < c.levels then c.colflag.set i c.levels
          else c.colflag) x = 0
        rw [flagAt_raise _ _ _ _ (by intro e; rw [e] at hout; exact hout ⟨hin.1, hin.2.1⟩)]
        exact hI.out_col x hx hout
      · intro _
        show 1 ≤ (if c.on_row then flagAt c.rowflag c.lineno
          else flagAt (if flagAt c.colflag i < c.levels then c.colflag.set i c.levels
            else c.colflag) c.lineno)
        rw [if_pos hr]
        unfold lineFlag at hcur
        rw [if_pos hr] at hcur
        exact hcur
    · rw [if_neg hr]
      rw [if_neg hr] at hline
      have hi2 : i < c.puzzle.height := by
        unfold lineLen at hi; rw [if_neg hr] at hi; exact hi
      have eidx : lineIndex c i = c.lineno + i * c.puzzle.width := by
        unfold lineIndex; rw [if_neg hr]
      rw [eidx] at hc ⊢
      have hin := (rect_has_iff _ _ _).1 (hD.blanks c.lineno i hline hi2 hc.1)
      refine hI.info_write hD c.lineno i (cellAt c.work i) hline hi2 hc.1 hv rfl rfl rfl rfl rfl
        ?_ ?_ ?_ ?_
      · show (if flagAt c.rowflag i < c.levels ∧ flagAt c.rowflag i = 0
          then c.reminfo + 1 else c.reminfo) =
          ((posFlags (if flagAt c.rowflag i < c.levels then c.rowflag.set i c.levels
              else c.rowflag) c.puzzle.height +
            posFlags c.colflag c.puzzle.width : Nat) : Int)
        have := posFlags_raise c.rowflag c.puzzle.height i c.levels hi2 hD.rowflag_len
        have h0 := hI.info
        push_cast
        rw [this, h0]
        push_cast
        split_ifs <;> ring
      · intro y hy hout
        show flagAt (if flagAt c.rowflag i < c.levels then c.rowflag.set i c.levels
          else c.rowflag) y = 0
        rw [flagAt_raise _ _ _ _ (by intro e; rw [e] at hout; exact hout ⟨hin.2.2.1, hin.2.2.2⟩)]
        exact hI.out_row y hy hout
      · exact hI.out_col
      · intro _
        show 1 ≤ (if c.on_row then flagAt (if flagAt c.rowflag i < c.levels
            then c.rowflag.set i c.levels else c.rowflag) c.lineno
          else flagAt c.colflag c.lineno)
        rw [if_neg hr]
        unfold lineFlag at hcur
        rw [if_neg hr] at hcur
        exact hcur
  · rw [if_neg hc]
    exact hI

theorem not_busy_empty :
    ¬ (nonogram_EMPTY = nonogram_WORKING ∨ nonogram_EMPTY = nonogram_DONE) := by decide

/-- The counter invariant does not depend on the fields that the bookkeeping
of a tick changes, as long as `reminfo` counts the flags, the flags outside
the unknown area stay zero and the current line keeps a positive flag. -/
theorem InfoInv.info_frame {c d : nonogram_solver} (hI : InfoInv c)
    (e2 : d.puzzle = c.puzzle) (e3 : d.grid = c.grid) (elev : d.levels = c.levels)
    (estack : d.stack = c.stack)
    (erem : 0 ≤ d.remcells → d.remcells = c.remcells)
    (hinfo : d.reminfo =
      ((posFlags d.rowflag c.puzzle.height + posFlags d.colflag c.puzzle.width : Nat) : Int))
    (hor : ∀ y, y < c.puzzle.height → ¬ (d.unkarea.min.y ≤ y ∧ y < d.unkarea.max.y) →
      flagAt d.rowflag y = 0)
    (hoc : ∀ x, x < c.puzzle.width → ¬ (d.unkarea.min.x ≤ x ∧ x < d.unkarea.max.x) →
      flagAt d.colflag x = 0)
    (hcur : d.status = nonogram_WORKING ∨ d.status = nonogram_DONE → 1 ≤ lineFlag d) :
    InfoInv d := by
  have eg : gridFn d = gridFn c := by
    unfold gridFn
    rw [e2, e3]
  refine ⟨?_, ?_, ?_, ?_, ?_, hcur, ?_⟩
  · rw [elev]; exact hI.levels
  · rw [e2]; exact hinfo
  · intro h0
    rw [e2, eg, erem h0]
    exact hI.cells (by rw [← erem h0]; exact h0)
  · rw [e2]; exact hor
  · rw [e2]; exact hoc
  · rw [e2, estack, eg]; exact hI.stack

theorem redeemLoop_info (k : Nat) : ∀ (i : Nat) (s : nonogram_solver × Bool), DriverInv s.1 →
    InfoInv s.1 → s.1.status ≠ nonogram_EMPTY →
    (s.1.status = nonogram_WORKING ∨ s.1.status = nonogram_DONE) → i + k ≤ lineLen s.1 →
    InfoInv (redeemLoop k i s).1 := by
  induction k with
  | zero => intro i s _ h _ _ _; exact h
  | succ k ih =>
    intro i s hD hI hs hs2 hi
    unfold redeemLoop
    have hf := redeemCell_frame s.1 s.2 i
    apply ih (i + 1) _ (redeemCell_inv s.1 s.2 i hD hs (by omega))
      (redeemCell_info s.1 s.2 i hD hI hs hs2 (by omega))
    · rw [hf.status]; exact hs
    · rw [hf.status]; exact hs2
    · have e : lineLen (redeemCell s.1 s.2 i).1 = lineLen s.1 := by
        unfold lineLen
        rw [hf.on_row, hf.puzzle]
      rw [e]; omega

theorem redeemstep_info (c : nonogram_solver) (hD : DriverInv c) (hI : InfoInv c)
    (hs : c.status ≠ nonogram_EMPTY)
    (hs2 : c.status = nonogram_WORKING ∨ c.status = nonogram_DONE) : InfoInv (redeemstep c).1 :=
  redeemLoop_info (lineLen c) 0 (c, false) hD hI hs hs2 (Nat.le_of_eq (Nat.zero_add _))

/-- What the new flag of the line just solved does to the number of positive
flags, when the old flag was positive. -/
theorem posFlags_done (flag : List Nat) (n i f : Nat) (hi : i < n) (hlen : flag.length = n)
    (hpos : 1 ≤ flagAt flag i) :
    ((posFlags (flag.set i f) n : Nat) : Int) =
      (if f = 0 then ((posFlags flag n : Nat) : Int) - 1 else ((posFlags flag n : Nat) : Int)) := by
  by_cases h : f = 0
  · rw [if_pos h]
    have := posFlags_lose flag (flag.set i f) n i hi (by omega)
      (by rw [flagAt_set, if_pos ⟨rfl, by omega⟩]; exact h)
      (fun j hj => by rw [flagAt_set, if_neg (fun hn => hj hn.1.symm)])
    omega
  · rw [if_neg h]
    congr 1
    apply posFlags_congr
    intro j _
    rw [flagAt_set]
    by_cases e : i = j
    · subst e
      rw [if_pos ⟨rfl, by omega⟩]
      omega
    · rw [if_neg (fun hn => e hn.1)]

/-- The branch for a solved line keeps the counter invariant. -/
theorem runDone_info (c : nonogram_solver) (hD : DriverInv c) (hI : InfoInv c)
    (hs : c.status ≠ nonogram_EMPTY)
    (hs2 : c.status = nonogram_WORKING ∨ c.status = nonogram_DONE) : InfoInv (runDone c).2 := by
  unfold runDone
  by_cases hf : c.fits = 0
  · rw [if_pos hf]
    exact hI.info_frame rfl rfl rfl rfl (fun h0 => absurd h0 (show ¬ (0 : Int) ≤ -1 by decide))
      hI.info hI.out_row hI.out_col (fun hn => absurd hn not_busy_empty)
  · rw [if_neg hf]
    have hD1 := redeemstep_inv c hD hs
    have hI1 := redeemstep_info c hD hI hs hs2
    have hfr := redeemLoop_frame (lineLen c) 0 (c, false)
    have hs1 : (redeemstep c).1.status ≠ nonogram_EMPTY := by
      unfold redeemstep; rw [hfr.status]; exact hs
    have hs3 : (redeemstep c).1.status = nonogram_WORKING ∨
        (redeemstep c).1.status = nonogram_DONE := by
      unfold redeemstep; rw [hfr.status]; exact hs2
    have hline := hD1.line hs1
    have hcur := hI1.cur hs3
    unfold lineFlag at hcur
    simp only []
    by_cases hr : (redeemstep c).1.on_row = true
    · rw [if_pos hr]
      rw [if_pos hr] at hline hcur
      refine hI1.info_frame rfl rfl rfl rfl (fun _ => rfl) ?_ ?_ hI1.out_col
        (fun hn => absurd hn not_busy_empty)
      · show (if doneFlag (redeemstep c).1 (attrAt (redeemstep c).1.rowattr (redeemstep c).1.lineno)
            (flagAt (redeemstep c).1.rowflag (redeemstep c).1.lineno) (redeemstep c).2 = 0
          then (redeemstep c).1.reminfo - 1 else (redeemstep c).1.reminfo) =
          ((posFlags ((redeemstep c).1.rowflag.set (redeemstep c).1.lineno
            (doneFlag (redeemstep c).1 (attrAt (redeemstep c).1.rowattr (redeemstep c).1.lineno)
              (flagAt (redeemstep c).1.rowflag (redeemstep c).1.lineno) (redeemstep c).2))
            (redeemstep c).1.puzzle.height +
            posFlags (redeemstep c).1.colflag (redeemstep c).1.puzzle.width : Nat) : Int)
        have := posFlags_done (redeemstep c).1.rowflag (redeemstep c).1.puzzle.height
          (redeemstep c).1.lineno
          (doneFlag (redeemstep c).1 (attrAt (redeemstep c).1.rowattr (redeemstep c).1.lineno)
            (flagAt (redeemstep c).1.rowflag (redeemstep c).1.lineno) (redeemstep c).2)
          hline hD1.rowflag_len hcur
        have h0 := hI1.info
        push_cast
        rw [this, h0]
        push_cast
        split_ifs <;> ring
      · intro y hy hout
        show flagAt ((redeemstep c).1.rowflag.set (redeemstep c).1.lineno _) y = 0
        have h1 := hI1.out_row y hy hout
        rw [flagAt_set, if_neg]
        · exact h1
        · rintro ⟨e, _⟩
          rw [e] at hcur
          omega
    · rw [if_neg hr]
      rw [if_neg hr] at hline hcur
      refine hI1.info_frame rfl rfl rfl rfl (fun _ => rfl) ?_ hI1.out_row ?_
        (fun hn => absurd hn not_busy_empty)
      · show (if doneFlag (redeemstep c).1 (attrAt (redeemstep c).1.colattr (redeemstep c).1.lineno)
            (flagAt (redeemstep c).1.colflag (redeemstep c).1.lineno) (redeemstep c).2 = 0
          then (redeemstep c).1.reminfo - 1 else (redeemstep c).1.reminfo) =
          ((posFlags (redeemstep c).1.rowflag (redeemstep c).1.puzzle.height +
            posFlags ((redeemstep c).1.colflag.set (redeemstep c).1.lineno
            (doneFlag (redeemstep c).1 (attrAt (redeemstep c).1.colattr (redeemstep c).1.lineno)
              (flagAt (redeemstep c).1.colflag (redeemstep c).1.lineno) (redeemstep c).2))
            (redeemstep c).1.puzzle.width : Nat) : Int)
        have := posFlags_done (redeemstep c).1.colflag (redeemstep c).1.puzzle.width
          (redeemstep c).1.lineno
          (doneFlag (redeemstep c).1 (attrAt (redeemstep c).1.colattr (redeemstep c).1.lineno)
            (flagAt (redeemstep c).1.colflag (redeemstep c).1.lineno) (redeemstep c).2)
          hline hD1.colflag_len hcur
        have h0 := hI1.info
        push_cast
        rw [this, h0]
        push_cast
        split_ifs <;> ring
      · intro x hx hout
        show flagAt ((redeemstep c).1.colflag.set (redeemstep c).1.lineno _) x = 0
        have h1 := hI1.out_col x hx hout
        rw [flagAt_set, if_neg]
        · exact h1
        · rintro ⟨e, _⟩
          rw [e] at hcur
          omega

theorem step_info (c : nonogram_solver) (r : LineCall) (hI : InfoInv c)
    (hs : c.status = nonogram_WORKING ∨ c.status = nonogram_DONE) : InfoInv (step c r) := by
  have hcur := hI.cur hs
  unfold step
  by_cases h : c.level > c.levels ∨ c.level < 1 ∨ ¬ (c.suiteStep.getD (c.level - 1) false = true)
  · rw [if_pos h]
    exact hI.info_frame rfl rfl rfl rfl (fun _ => rfl) hI.info hI.out_row hI.out_col (fun _ => hcur)
  · rw [if_neg h]
    exact hI.info_frame rfl rfl rfl rfl (fun _ => rfl) hI.info hI.out_row hI.out_col (fun _ => hcur)

theorem step_status (c : nonogram_solver) (r : LineCall) :
    (step c r).status = nonogram_WORKING ∨ (step c r).status = nonogram_DONE := by
  unfold step
  by_cases h : c.level > c.levels ∨ c.level < 1 ∨ ¬ (c.suiteStep.getD (c.level - 1) false = true)
  · rw [if_pos h]
    exact Or.inr rfl
  · rw [if_neg h]
    show (if r.again then nonogram_WORKING else nonogram_DONE) = nonogram_WORKING ∨
      (if r.again then nonogram_WORKING else nonogram_DONE) = nonogram_DONE
    split_ifs
    · exact Or.inl rfl
    · exact Or.inr rfl

theorem stepLoop_info : ∀ (rs : List LineCall) (c : nonogram_solver), InfoInv c →
    (c.status = nonogram_WORKING ∨ c.status = nonogram_DONE) → InfoInv (stepLoop rs c) := by
  intro rs
  induction rs with
  | nil => intro c h _; exact h
  | cons r rs ih =>
    intro c h hs
    unfold stepLoop
    split_ifs
    · exact ih _ (step_info c r h hs) (step_status c r)
    · exact h

/-- The flag that `findeasiest` reports is the flag of the line it selects,
and no line has a greater flag. -/
theorem findeasiest_flag (c : nonogram_solver) :
    lineFlag (findeasiest c) = (findeasiest c).level ∧
    (∀ y, y < c.puzzle.height → flagAt c.rowflag y ≤ (findeasiest c).level) ∧
    (∀ x, x < c.puzzle.width → flagAt c.colflag x ≤ (findeasiest c).level) := by
  obtain ⟨r1, r2⟩ := findeasiestLoop_spec c.rowflag c.rowattr true c.puzzle.height 0
    (flagAt c.rowflag 0, (attrAt c.rowattr 0).score, 0, true)
  generalize hs1 : findeasiestLoop c.rowflag c.rowattr true c.puzzle.height 0
    (flagAt c.rowflag 0, (attrAt c.rowattr 0).score, 0, true) = s1 at r1 r2
  obtain ⟨q1, q2⟩ := findeasiestLoop_spec c.colflag c.colattr false c.puzzle.width 0 s1
  generalize hs2 : findeasiestLoop c.colflag c.colattr false c.puzzle.width 0 s1 = s2 at q1 q2
  have hfe : findeasiest c = { c with level := s2.1, lineno := s2.2.2.1, on_row := s2.2.2.2 } := by
    unfold findeasiest
    simp only []
    rw [hs1, hs2]
  have c1 : (s1.2.2.2 = true → s1.1 = flagAt c.rowflag s1.2.2.1) ∧ s1.2.2.2 = true := by
    rcases r1 with e | ⟨m, _, _, e, _⟩
    · rw [e]; exact ⟨fun _ => rfl, rfl⟩
    · rw [e]; exact ⟨fun _ => rfl, rfl⟩
  have c2 : (s2.2.2.2 = true → s2.1 = flagAt c.rowflag s2.2.2.1) ∧
      (s2.2.2.2 = false → s2.1 = flagAt c.colflag s2.2.2.1) := by
    rcases q1 with e | ⟨m, _, _, e, _⟩
    · rw [e]
      exact ⟨c1.1, fun h => by rw [c1.2] at h; exact Bool.noConfusion h⟩
    · rw [e]
      exact ⟨fun h => Bool.noConfusion h, fun _ => rfl⟩
  have hmono : s1.1 ≤ s2.1 := by
    rcases q1 with e | ⟨m, _, _, e, h, _⟩
    · rw [e]
    · rw [e]
      show s1.1 ≤ flagAt c.colflag m
      omega
  rw [hfe]
  refine ⟨?_, ?_, ?_⟩
  · show (if s2.2.2.2 then flagAt c.rowflag s2.2.2.1 else flagAt c.colflag s2.2.2.1) = s2.1
    by_cases h : s2.2.2.2 = true
    · rw [if_pos h]; exact (c2.1 h).symm
    · rw [if_neg h]; exact (c2.2 (by simpa using h)).symm
  · intro y hy
    show flagAt c.rowflag y ≤ s2.1
    have := r2 y (Nat.zero_le _) (by omega)
    omega
  · intro x hx
    show flagAt c.colflag x ≤ s2.1
    have := q2 x (Nat.zero_le _) (by omega)
    omega

theorem findeasiest_frame (c : nonogram_solver) :
    (findeasiest c).puzzle = c.puzzle ∧ (findeasiest c).grid = c.grid ∧
    (findeasiest c).levels = c.levels ∧ (findeasiest c).stack = c.stack ∧
    (findeasiest c).remcells = c.remcells ∧ (findeasiest c).reminfo = c.reminfo ∧
    (findeasiest c).rowflag = c.rowflag ∧ (findeasiest c).colflag = c.colflag ∧
    (findeasiest c).unkarea = c.unkarea := by
  unfold findeasiest
  exact ⟨rfl, rfl, rfl, rfl, rfl, rfl, rfl, rfl, rfl⟩

/-- The tick that selects a line keeps the counter invariant: the line it
selects has a positive flag. -/
theorem setupstep_info (c : nonogram_solver) (r : LineCall) (hI : InfoInv c)
    (hinfo : c.reminfo > 0) : InfoInv (setupstep (findeasiest c) r) := by
  obtain ⟨f1, f2, f3⟩ := findeasiest_flag c
  obtain ⟨e1, e2, e3, e4, e5, e6, e7, e8, e9⟩ := findeasiest_frame c
  have hpos : 1 ≤ (findeasiest c).level := by
    have h0 := hI.info
    have : 0 < posFlags c.rowflag c.puzzle.height + posFlags c.colflag c.puzzle.width := by
      omega
    by_cases hr : 0 < posFlags c.rowflag c.puzzle.height
    · obtain ⟨y, hy, hp⟩ := posFlags_pos _ _ hr
      have := f2 y hy
      omega
    · obtain ⟨x, hx, hp⟩ := posFlags_pos c.colflag c.puzzle.width (by omega)
      have := f3 x hx
      omega
  have hcur : 1 ≤ lineFlag (findeasiest c) := by rw [f1]; exact hpos
  have hI1 : InfoInv (findeasiest c) :=
    hI.info_frame e1 e2 e3 e4 (fun _ => e5) (by rw [e6, e7, e8]; exact hI.info)
      (by rw [e7, e9]; exact hI.out_row) (by rw [e8, e9]; exact hI.out_col) (fun _ => hcur)
  unfold setupstep
  by_cases h : (findeasiest c).level > (findeasiest c).levels ∨ (findeasiest c).level < 1 ∨
      ¬ ((findeasiest c).suiteInit.getD ((findeasiest c).level - 1) false = true)
  · rw [if_pos h]
    exact hI1.info_frame rfl rfl rfl rfl (fun _ => rfl) hI1.info hI1.out_row hI1.out_col
      (fun _ => hcur)
  · rw [if_neg h]
    exact hI1.info_frame rfl rfl rfl rfl (fun _ => rfl) hI1.info hI1.out_row hI1.out_col
      (fun _ => hcur)

/-- The restore branch keeps the counter invariant: `remcells` is the saved
counter, and the only positive flags are those of the row and the column of
the guess. -/
theorem runRestore_info (c : nonogram_solver) (st : nonogram_stack) (rest : List nonogram_stack)
    (hD : DriverInv c) (hI : InfoInv c) (hst : c.stack = st :: rest)
    (h2 : c.status ≠ nonogram_WORKING) (h3 : c.status ≠ nonogram_DONE) :
    InfoInv (runRestore c st rest).2 := by
  have hs := hD.stack
  rw [hst] at hs
  obtain ⟨a1, a2, a3, a4, a5, a6, a7, a8, a9, a10, a11, a12, a13⟩ := hs
  have hc := hI.stack
  rw [hst] at hc
  obtain ⟨c1, c2⟩ := hc
  obtain ⟨s1, s2, s3, s4, s5, s6, s7, s8, s9, s10⟩ := runRestore_spec c st rest a5 a7 a6 a8
    hD.grid_len hD.rowattr_len hD.colattr_len hD.rowflag_len hD.colflag_len
  have hp : (runRestore c st rest).2.puzzle = c.puzzle := rfl
  have hu : (runRestore c st rest).2.unkarea = st.unkarea := rfl
  have hgp := (rect_has_iff _ _ _).1 a9
  have hlev := hI.levels
  have eg : gridFn (runRestore c st rest).2 = restoredCell st (gridFn c) := by
    funext x y
    unfold gridFn restoredCell
    rw [hp]
    by_cases hr : x < c.puzzle.width ∧ y < c.puzzle.height
    · rw [if_pos hr, s6 x y hr.1 hr.2]
      by_cases e : st.unkarea.has x y = true
      · rw [if_pos e, if_pos e]
      · rw [if_neg e, if_neg e]
        dsimp only
        rw [if_pos hr]
    · rw [if_neg hr]
      have e : ¬ st.unkarea.has x y = true := by
        rw [rect_has_iff]
        omega
      rw [if_neg e]
      dsimp only
      rw [if_neg hr]
  have hrow : ∀ y, y < c.puzzle.height → y ≠ st.guesspos.y →
      flagAt (runRestore c st rest).2.rowflag y = 0 := by
    intro y hy hne
    rw [s9 y, if_neg (fun hn => hne hn.1)]
    by_cases e : st.unkarea.min.y ≤ y ∧ y < st.unkarea.max.y
    · rw [if_pos e]
    · rw [if_neg e]
      exact hI.out_row y hy (by omega)
  have hcol : ∀ x, x < c.puzzle.width → x ≠ st.guesspos.x →
      flagAt (runRestore c st rest).2.colflag x = 0 := by
    intro x hx hne
    rw [s10 x, if_neg (fun hn => hne hn.1)]
    by_cases e : st.unkarea.min.x ≤ x ∧ x < st.unkarea.max.x
    · rw [if_pos e]
    · rw [if_neg e]
      exact hI.out_col x hx (by omega)
  refine ⟨hI.levels, ?_, ?_, ?_, ?_, ?_, ?_⟩
  · rw [hp]
    have e1 := posFlags_single (runRestore c st rest).2.rowflag c.puzzle.height st.guesspos.y
      (by omega) (by rw [s9, if_pos ⟨rfl, by omega⟩]; omega) hrow
    have e2 := posFlags_single (runRestore c st rest).2.colflag c.puzzle.width st.guesspos.x
      (by omega) (by rw [s10, if_pos ⟨rfl, by omega⟩]; omega) hcol
    rw [e1, e2]
    rfl
  · intro _
    rw [hp, eg]
    exact c1
  · intro y hy hout
    rw [hp] at hy
    rw [hu] at hout
    exact hrow y hy (by intro e; rw [e] at hout; exact hout ⟨hgp.2.2.1, hgp.2.2.2⟩)
  · intro x hx hout
    rw [hp] at hx
    rw [hu] at hout
    exact hcol x hx (by intro e; rw [e] at hout; exact hout ⟨hgp.1, hgp.2.1⟩)
  · intro hn
    rcases hn with e | e
    · exact absurd e h2
    · exact absurd e h3
  · rw [hp, eg]
    exact c2

/-- Restoring the snapshot taken before the flip gives back the grid of the
guess. -/
theorem flip_restored (c2 : nonogram_solver) (pos : nonogram_point) (w : Nat)
    (h2 : DriverInv c2)
    (g1 : c2.unkarea.min.x ≤ pos.x) (g2 : pos.x < c2.unkarea.max.x)
    (g3 : c2.unkarea.min.y ≤ pos.y) (g4 : pos.y < c2.unkarea.max.y) :
    restoredCell (snapshot c2 c2.unkarea pos) (gridFn (flipguess
      { c2 with stack := snapshot c2 c2.unkarea pos :: c2.stack } pos w)) = gridFn c2 := by
  have hax := h2.area_x
  have hay := h2.area_y
  have hpx : pos.x < c2.puzzle.width := by omega
  have hpy : pos.y < c2.puzzle.height := by omega
  have hidx : pos.x + pos.y * c2.puzzle.width < c2.grid.length := by
    rw [h2.grid_len]; exact index_lt hpx hpy
  have hsnap : ∀ x y, c2.unkarea.has x y = true →
      (snapshot c2 c2.unkarea pos).cell x y = cellAt c2.grid (x + y * c2.puzzle.width) := by
    intro x y hh
    rw [rect_has_iff] at hh
    unfold nonogram_stack.cell
    show cellAt (snapshot c2 c2.unkarea pos).grid
      ((y - c2.unkarea.min.y) * c2.unkarea.w + (x - c2.unkarea.min.x)) = _
    rw [cellAt_snapshot c2 c2.unkarea pos _ _ (by unfold nonogram_rect.w; omega)
      (by unfold nonogram_rect.h; omega)]
    congr 1
    rw [show y - c2.unkarea.min.y + c2.unkarea.min.y = y by omega]
    omega
  have hgd : ∀ x y, gridFn (flipguess
      { c2 with stack := snapshot c2 c2.unkarea pos :: c2.stack } pos w)
      x y = if x = pos.x ∧ y = pos.y then w else gridFn c2 x y := by
    intro x y
    show (if x < c2.puzzle.width ∧ y < c2.puzzle.height then
        cellAt (c2.grid.set (pos.x + pos.y * c2.puzzle.width) w)
          (x + y * c2.puzzle.width) else nonogram_BLANK) =
      if x = pos.x ∧ y = pos.y then w
      else if x < c2.puzzle.width ∧ y < c2.puzzle.height then
        cellAt c2.grid (x + y * c2.puzzle.width) else nonogram_BLANK
    by_cases e : x = pos.x ∧ y = pos.y
    · rw [if_pos e, e.1, e.2, if_pos ⟨hpx, hpy⟩, cellAt_set, if_pos ⟨rfl, hidx⟩]
    · rw [if_neg e]
      by_cases hr : x < c2.puzzle.width ∧ y < c2.puzzle.height
      · rw [if_pos hr, if_pos hr, cellAt_set, if_neg]
        rintro ⟨e1, _⟩
        obtain ⟨e2, e3⟩ := index_inj hpx hr.1 e1
        exact e ⟨e2.symm, e3.symm⟩
      · rw [if_neg hr, if_neg hr]
  funext x y
  unfold restoredCell
  by_cases e : c2.unkarea.has x y = true
  · have e1 : (snapshot c2 c2.unkarea pos).unkarea.has x y = true := e
    rw [if_pos e1, hsnap x y e]
    rw [rect_has_iff] at e
    unfold gridFn
    rw [if_pos ⟨by omega, by omega⟩]
  · have e1 : ¬ (snapshot c2 c2.unkarea pos).unkarea.has x y = true := e
    rw [if_neg e1, hgd, if_neg]
    rintro ⟨rfl, rfl⟩
    exact e (by rw [rect_has_iff]; exact ⟨g1, g2, g3, g4⟩)

/-- A complete guess tick keeps the counter invariant: the two lines through
the guessed cell are the only pending ones, and one BLANK cell is gone. -/
theorem guessResult_info (c : nonogram_solver) (area : nonogram_rect) (pos : nonogram_point)
    (hD : DriverInv c) (hI : InfoInv c)
    (h1 : findminrect c.grid c.puzzle.width c.puzzle.height c.unkarea = .ret area)
    (h2 : chooseX c.grid c.puzzle.width area (area.max.x - area.min.x) area.min.x = some pos)
    (hs2 : c.status ≠ nonogram_WORKING) (hs3 : c.status ≠ nonogram_DONE)
    (hinfo : ¬ c.reminfo > 0) (hrem : ¬ c.remcells < 0) (hrem0 : ¬ c.remcells = 0) :
    InfoInv (guessResult c area pos) := by
  obtain ⟨f1, f2, f3, f4, f5, g1, g2, g3, g4, g5⟩ := guess_facts c area pos h1 h2
  have hax := hD.area_x
  have hay := hD.area_y
  have hpx : pos.x < c.puzzle.width := by omega
  have hpy : pos.y < c.puzzle.height := by omega
  have hlev := hI.levels
  obtain ⟨x1, x2, x3, x4⟩ := xor_both _ (guessChoice_cases c pos)
  have hi0 := hI.info
  have hzr : ∀ y, y < c.puzzle.height → flagAt c.rowflag y = 0 :=
    posFlags_eq_zero _ _ (by omega)
  have hzc : ∀ x, x < c.puzzle.width → flagAt c.colflag x = 0 :=
    posFlags_eq_zero _ _ (by omega)
  have hnc : ¬ (c.status = nonogram_WORKING ∨ c.status = nonogram_DONE) := by
    rintro (e | e)
    · exact hs2 e
    · exact hs3 e
  -- the state of the guess, with the counter of pending lines not yet set
  have hc2 : InfoInv { makeguessState { c with unkarea := area } pos (guessChoice c pos) with
      reminfo := c.reminfo } :=
    InfoInv.info_write hD hI pos.x pos.y (guessChoice c pos) hpx hpy g5 x3 rfl rfl rfl rfl rfl
      hi0 (fun y hy _ => hzr y hy) (fun x hx _ => hzc x hx) (fun hn => absurd hn hnc)
  -- the state after the flip, with the stack not yet pushed
  have he : InfoInv { guessResult c area pos with stack := c.stack } := by
    refine InfoInv.info_write hD hI pos.x pos.y (guessChoice c pos ^^^ nonogram_BOTH) hpx hpy g5 x4
      rfl ?_ rfl rfl rfl ?_ ?_ ?_ (fun hn => absurd hn hnc)
    · exact List.set_set _ _ _ _
    · show (2 : Int) = ((posFlags (c.rowflag.set pos.y c.levels) c.puzzle.height +
        posFlags (c.colflag.set pos.x c.levels) c.puzzle.width : Nat) : Int)
      rw [posFlags_single _ _ pos.y hpy
          (by rw [flagAt_set, if_pos ⟨rfl, by rw [hD.rowflag_len]; exact hpy⟩]; omega)
          (fun i hi hne => by
            rw [flagAt_set, if_neg (fun hn => hne hn.1.symm)]; exact hzr i hi),
        posFlags_single _ _ pos.x hpx
          (by rw [flagAt_set, if_pos ⟨rfl, by rw [hD.colflag_len]; exact hpx⟩]; omega)
          (fun i hi hne => by
            rw [flagAt_set, if_neg (fun hn => hne hn.1.symm)]; exact hzc i hi)]
      rfl
    · intro y hy hout
      show flagAt (c.rowflag.set pos.y c.levels) y = 0
      have hout2 : ¬ (area.min.y ≤ y ∧ y < area.max.y) := hout
      rw [flagAt_set, if_neg (fun hn => hout2 (by rw [← hn.1]; exact ⟨g3, g4⟩))]
      exact hzr y hy
    · intro x hx hout
      show flagAt (c.colflag.set pos.x c.levels) x = 0
      have hout2 : ¬ (area.min.x ≤ x ∧ x < area.max.x) := hout
      rw [flagAt_set, if_neg (fun hn => hout2 (by rw [← hn.1]; exact ⟨g1, g2⟩))]
      exact hzc x hx
  have hD2 := makeguess_inv c area pos hD h1 h2
  have eg := flip_restored (makeguessState { c with unkarea := area } pos (guessChoice c pos))
    pos (guessChoice c pos ^^^ nonogram_BOTH) hD2 g1 g2 g3 g4
  refine ⟨he.levels, he.info, he.cells, he.out_row, he.out_col, he.cur, ?_⟩
  show StackCnt c.puzzle.width c.puzzle.height (gridFn (guessResult c area pos))
    (snapshot (makeguessState { c with unkarea := area } pos (guessChoice c pos)) area pos ::
      c.stack)
  have hh : c.remcells - 1 = (blankCount (gridFn
      (makeguessState { c with unkarea := area } pos (guessChoice c pos)))
      c.puzzle.width c.puzzle.height : Int) :=
    hc2.cells (by show (0 : Int) ≤ c.remcells - 1; omega)
  have hk : StackCnt c.puzzle.width c.puzzle.height (gridFn
      (makeguessState { c with unkarea := area } pos (guessChoice c pos))) c.stack := hc2.stack
  rw [← eg] at hh hk
  exact ⟨hh, hk⟩

/-- Every tick in which `malloc` does not fail keeps the counter invariant. -/
theorem runcycles_info (c : nonogram_solver) (env : TickEnv) (rc : Int) (d : nonogram_solver)
    (h : DriverInv c) (hI : InfoInv c) (hm : env.nomem = false)
    (hr : nonogram_runcycles c env = .ret (rc, d)) : InfoInv d := by
  unfold nonogram_runcycles at hr
  rw [if_neg (fun hn => hn h.loaded)] at hr
  by_cases h2 : c.status = nonogram_WORKING
  · rw [if_pos h2] at hr
    have e : stepLoop env.steps c = d := congrArg Prod.snd (Run.ret.inj hr)
    rw [← e]
    exact stepLoop_info _ _ hI (Or.inl h2)
  rw [if_neg h2] at hr
  by_cases h3 : c.status = nonogram_DONE
  · rw [if_pos h3] at hr
    have e : (runDone c).2 = d := congrArg Prod.snd (Run.ret.inj hr)
    rw [← e]
    exact runDone_info c h hI (by rw [h3]; decide) (Or.inr h3)
  rw [if_neg h3] at hr
  have hnc : ¬ (c.status = nonogram_WORKING ∨ c.status = nonogram_DONE) := by
    rintro (e | e)
    · exact h2 e
    · exact h3 e
  by_cases h4 : c.remcells < 0
  · rw [if_pos h4] at hr
    cases hst : c.stack with
    | nil =>
      rw [hst] at hr
      have e : c = d := congrArg Prod.snd (Run.ret.inj hr)
      rw [← e]
      exact hI
    | cons st rest =>
      rw [hst] at hr
      have e : (runRestore c st rest).2 = d := congrArg Prod.snd (Run.ret.inj hr)
      rw [← e]
      exact runRestore_info c st rest h hI hst h2 h3
  rw [if_neg h4] at hr
  by_cases h5 : c.reminfo > 0
  · rw [if_pos h5] at hr
    have e : setupstep (findeasiest c) env.init = d := congrArg Prod.snd (Run.ret.inj hr)
    rw [← e]
    exact setupstep_info c env.init hI h5
  rw [if_neg h5] at hr
  by_cases h6 : c.remcells = 0
  · rw [if_pos h6] at hr
    have e : { c with presented := c.presented ++ [c.grid], remcells := -1 } = d :=
      congrArg Prod.snd (Run.ret.inj hr)
    rw [← e]
    exact hI.info_frame rfl rfl rfl rfl (fun h0 => absurd h0 (show ¬ (0 : Int) ≤ -1 by decide))
      hI.info hI.out_row hI.out_col (fun hn => absurd hn hnc)
  rw [if_neg h6] at hr
  obtain ⟨area, pos, g1, g2, g3⟩ := runGuess_cases c env.nomem rc d hr
  rcases g3 with ⟨e0, _, _⟩ | ⟨_, _, e⟩
  · rw [hm] at e0
    exact Bool.noConfusion e0
  · rw [e]
    exact guessResult_info c area pos h hI g1 g2 h2 h3 h5 h4 h6

/-- A run of ticks in which `malloc` never fails keeps the counter
invariant. -/
theorem runTicks_info : ∀ (envs : List TickEnv) (c d : nonogram_solver), DriverInv c →
    InfoInv c → (∀ env, env ∈ envs → env.nomem = false) →
    runTicks envs c = .ret d → InfoInv d := by
  intro envs
  induction envs with
  | nil =>
    intro c d _ hI _ hr
    rw [← Run.ret.inj hr]
    exact hI
  | cons env envs ih =>
    intro c d h hI hm hr
    unfold runTicks at hr
    split at hr
    · exact Run.noConfusion hr
    · exact Run.noConfusion hr
    · rename_i rc c1 hh
      exact ih c1 d (runcycles_inv c env rc c1 h hh)
        (runcycles_info c env rc c1 h hI (hm env (List.mem_cons_self _ _)) hh)
        (fun e he => hm e (List.mem_cons_of_mem _ he)) hr

theorem flagAt_replicate (n v i : Nat) (hi : i < n) : flagAt (List.replicate n v) i = v := by
  unfold flagAt
  rw [List.getD_eq_getElem?_getD, List.getElem?_replicate]
  simp [hi]

theorem posFlags_replicate (n v : Nat) (hv : 0 < v) : posFlags (List.replicate n v) n = n := by
  unfold posFlags
  rw [List.countP_eq_length.2, List.length_range]
  intro i hi
  rw [flagAt_replicate n v i (List.mem_range.1 hi)]
  simpa using hv

theorem blankCount_blank (g : Nat → Nat → Nat) (pw ph : Nat)
    (h : ∀ x y, g x y = nonogram_BLANK) : blankCount g pw ph = pw * ph := by
  unfold blankCount
  rw [List.countP_eq_length.2, List.length_range]
  intro j _
  rw [h]
  rfl

/-- The state after `nonogram_load` of a solver with at least one level, with
an all-BLANK grid and `remcells = width * height`, satisfies the counter
invariant. -/
theorem load_info (c0 : nonogram_solver) (puzzle : Puzzle)
    (hnl : c0.loaded = false) (hlev : 1 ≤ c0.levels) :
    InfoInv (nonogram_load c0 puzzle
      (List.replicate (puzzle.width * puzzle.height) nonogram_BLANK)
      ((puzzle.width * puzzle.height : Nat) : Int)).2 := by
  unfold nonogram_load
  rw [hnl]
  simp only [Bool.false_eq_true, if_false]
  refine ⟨hlev, ?_, ?_, ?_, ?_, ?_, trivial⟩
  · show (if c0.levels = 0 then (0 : Int) else (puzzle.width : Int) + puzzle.height) =
      ((posFlags (List.replicate puzzle.height c0.levels) puzzle.height +
        posFlags (List.replicate puzzle.width c0.levels) puzzle.width : Nat) : Int)
    rw [if_neg (by omega), posFlags_replicate _ _ hlev, posFlags_replicate _ _ hlev]
    push_cast
    omega
  · intro _
    show ((puzzle.width * puzzle.height : Nat) : Int) = ((blankCount _ puzzle.width puzzle.height : Nat) : Int)
    rw [blankCount_blank]
    intro x y
    unfold gridFn
    dsimp only
    split_ifs with hr
    · exact cellAt_replicate _ _ _ (index_lt hr.1 hr.2)
    · rfl
  · intro y hy hout
    exact absurd ⟨Nat.zero_le _, hy⟩ hout
  · intro x hx hout
    exact absurd ⟨Nat.zero_le _, hx⟩ hout
  · intro hn
    exact absurd hn not_busy_empty

/-- C38 (amended): for a solver with at least one level, loaded with an
all-BLANK grid and `remcells = width * height` (puzzle with at least one row,
sizes and rule totals representable as `int`), every run of ticks in which
`malloc` never fails ends (by returning or by a failed assertion, never by
exhausting the model's fuel), and in the state after the ticks `reminfo` is
the number of rows and columns whose flag is positive, and `remcells`, when
it is not negative, is the number of BLANK cells of the grid. -/
theorem pending_counter_invariant (c0 : nonogram_solver) (puzzle : Puzzle)
    (envs : List TickEnv)
    (hnl : c0.loaded = false) (hlev : 1 ≤ c0.levels) (hpos : 0 < puzzle.height)
    (hW : (puzzle.width : Int) < 2 ^ 31) (hH : (puzzle.height : Int) < 2 ^ 31)
    (hrow : ∀ r, r ∈ puzzle.row → (r.sum : Int) < 2 ^ 31)
    (hcol : ∀ r, r ∈ puzzle.col → (r.sum : Int) < 2 ^ 31)
    (hm : ∀ env, env ∈ envs → env.nomem = false) :
    runTicks envs (nonogram_load c0 puzzle
      (List.replicate (puzzle.width * puzzle.height) nonogram_BLANK)
      ((puzzle.width * puzzle.height : Nat) : Int)).2 ≠ .fuel ∧
    ∀ d, runTicks envs (nonogram_load c0 puzzle
        (List.replicate (puzzle.width * puzzle.height) nonogram_BLANK)
        ((puzzle.width * puzzle.height : Nat) : Int)).2 = .ret d →
      d.reminfo =
        ((posFlags d.rowflag puzzle.height + posFlags d.colflag puzzle.width : Nat) : Int) ∧
      (0 ≤ d.remcells → d.remcells = ((d.grid.count nonogram_BLANK : Nat) : Int)) := by
  refine ⟨runTicks_fuel _ _, ?_⟩
  intro d hd
  have hD := runTicks_inv envs _ d (load_inv c0 puzzle _ hnl hpos hW hH hrow hcol) hd
  have hI := runTicks_info envs _ d (load_inv c0 puzzle _ hnl hpos hW hH hrow hcol)
    (load_info c0 puzzle hnl hlev) hm hd
  have hp : d.puzzle = puzzle := by
    rw [runTicks_puzzle envs _ d hd]
    unfold nonogram_load
    rw [hnl]
    rfl
  have h1 := hI.info
  have h2 := hI.cells
  rw [blankCount_gridFn d hD.grid_len] at h2
  rw [hp] at h1
  exact ⟨h1, h2⟩

theorem pending_counter_invariant_witness :
    runTicks (List.replicate 9 noInfo2) (nonogram_load nonogram_initsolver puzzle22
      (List.replicate (puzzle22.width * puzzle22.height) nonogram_BLANK)
      ((puzzle22.width * puzzle22.height : Nat) : Int)).2 ≠ .fuel ∧
    ∀ d, runTicks (List.replicate 9 noInfo2) (nonogram_load nonogram_initsolver puzzle22
        (List.replicate (puzzle22.width * puzzle22.height) nonogram_BLANK)
        ((puzzle22.width * puzzle22.height : Nat) : Int)).2 = .ret d →
      d.reminfo = ((posFlags d.rowflag puzzle22.height +
        posFlags d.colflag puzzle22.width : Nat) : Int) ∧
      (0 ≤ d.remcells → d.remcells = ((d.grid.count nonogram_BLANK : Nat) : Int)) :=
  pending_counter_invariant nonogram_initsolver puzzle22 (List.replicate 9 noInfo2) rfl
    (by decide) (by decide) (by decide) (by decide) (by decide) (by decide) (by decide)

/-- C38 (counterexample): the default solver on `puzzle22`, loaded with an
all-BLANK grid and `remcells = 4`, after eight ticks without deduction and a
guess tick in which `malloc` fails: the tick returns `nonogram_ERROR`, the
status is EMPTY, `reminfo` is 2 and no flag is positive.  Also a solver
without levels: after its first tick the status is EMPTY, `reminfo` is 2 and
no flag is positive. -/
theorem reminfo_without_flags :
    (∃ c d, runTicks (List.replicate 8 noInfo2) (nonogram_load nonogram_initsolver puzzle22
        (List.replicate (puzzle22.width * puzzle22.height) nonogram_BLANK)
        ((puzzle22.width * puzzle22.height : Nat) : Int)).2 = .ret c ∧
      nonogram_runcycles c noMem2 = .ret (nonogram_ERROR, d) ∧
      d.status = nonogram_EMPTY ∧ d.reminfo = 2 ∧
      posFlags d.rowflag puzzle22.height + posFlags d.colflag puzzle22.width = 0) ∧
    (∃ d, nonogram_runcycles (nonogram_load (solverWithLevels 0) puzzle22
        (List.replicate (puzzle22.width * puzzle22.height) nonogram_BLANK)
        ((puzzle22.width * puzzle22.height : Nat) : Int)).2 noInfo2 = .ret (nonogram_LINE, d) ∧
      d.status = nonogram_EMPTY ∧ d.reminfo = 2 ∧
      posFlags d.rowflag puzzle22.height + posFlags d.colflag puzzle22.width = 0) :=
  ⟨⟨_, _, rfl, rfl, rfl, rfl, rfl⟩, ⟨_, rfl, rfl, rfl, rfl⟩⟩

/-- C37 fails for the fcomp suite on the empty rule.  On the line DOT, BLANK
with the empty rule, `init` of fcomp finishes (returns false) with
`fits = 1`; the input cell 0 is DOT, but its result cell is never assigned:
after a result buffer that held SOLID, SOLID the result cell 0 is SOLID, not
the input cell, and after a buffer that held BLANK, BLANK it is left BLANK.
For every line, the result cell of a DOT cell is the one the buffer held
before the call. -/
theorem fcomp_empty_rule_known_cell_lost :
    cellAt [nonogram_DOT, nonogram_BLANK] 0 = nonogram_DOT ∧
    fcomp_init fcompZero [nonogram_DOT, nonogram_BLANK] [] [nonogram_SOLID, nonogram_SOLID]
      = (false, 1, [nonogram_SOLID, nonogram_DOT], fcompZero) ∧
    fcomp_init fcompZero [nonogram_DOT, nonogram_BLANK] [] [nonogram_BLANK, nonogram_BLANK]
      = (false, 1, [nonogram_BLANK, nonogram_DOT], fcompZero) ∧
    (∀ (ws0 : FcompState) (line res0 : List Nat) (j : Nat), cellAt line j = nonogram_DOT →
      cellAt (fcomp_init ws0 line [] res0).2.2.1 j = cellAt res0 j) :=
  ⟨rfl, rfl, rfl, fun ws0 line res0 j hj => (fcomp_init_empty_dot ws0 line res0 j hj).2⟩

theorem digitChar_facts : ∀ d : Fin 10,
    isdigit (Char.ofNat (48 + d.val)) = true ∧ (Char.ofNat (48 + d.val)).toNat - 48 = d.val := by
  decide

theorem isdigit_ofNat (d : Nat) (hd : d < 10) : IsDigit (Char.ofNat (48 + d)) :=
  (digitChar_facts ⟨d, hd⟩).1

theorem toNat_ofNat_digit (d : Nat) (hd : d < 10) : (Char.ofNat (48 + d)).toNat - 48 = d :=
  (digitChar_facts ⟨d, hd⟩).2

theorem IsDigit.range {c : Char} (h : IsDigit c) : 48 ≤ c.toNat ∧ c.toNat ≤ 57 := by
  unfold IsDigit isdigit at h
  simpa using h

theorem IsDigit.ne_nul {c : Char} (h : IsDigit c) : c ≠ NUL := by
  intro e
  rw [e] at h
  exact absurd h (show ¬ isdigit NUL = true by decide)

theorem IsDigit.not_space {c : Char} (h : IsDigit c) : ¬ isspace c = true := by
  have := h.range
  unfold isspace
  simp only [Bool.or_eq_true, beq_iff_eq, Bool.and_eq_true, decide_eq_true_eq]
  omega

theorem IsDigit.not_alpha {c : Char} (h : IsDigit c) : ¬ isalpha c = true := by
  have := h.range
  unfold isalpha
  simp only [Bool.or_eq_true, Bool.and_eq_true, decide_eq_true_eq]
  omega

theorem IsDigit.ne_of_not {c d : Char} (h : IsDigit c) (hd : ¬ isdigit d = true) : c ≠ d := by
  intro e
  rw [e] at h
  exact hd h

theorem digitsLoop_cons_digit (c : Char) (s : List Char) (a : Nat) (h : IsDigit c) :
    digitsLoop (c :: s) a = digitsLoop s (digitStep a c) := by
  show (if c ≠ NUL ∧ isdigit c = true then _ else _) = _
  rw [if_pos ⟨h.ne_nul, h⟩]
  rfl

theorem digitsLoop_nil (a : Nat) : digitsLoop [] a = (a, []) := rfl

theorem digitsLoop_cons_stop (c : Char) (s : List Char) (a : Nat) (h : ¬ isdigit c = true) :
    digitsLoop (c :: s) a = (a, c :: s) := by
  show (if c ≠ NUL ∧ isdigit c = true then _ else _) = _
  rw [if_neg (fun hn => h hn.2)]

/-- The digit loop passes a run of digits. -/
theorem digitsLoop_append (x : List Char) (hx : ∀ c, c ∈ x → IsDigit c) (rest : List Char)
    (a : Nat) : digitsLoop (x ++ rest) a = digitsLoop rest (x.foldl digitStep a) := by
  induction x generalizing a with
  | nil => rfl
  | cons c x ih =>
    rw [List.cons_append, digitsLoop_cons_digit c _ a (hx c (List.mem_cons_self _ _)),
      ih (fun d hd => hx d (List.mem_cons_of_mem _ hd))]
    rfl

theorem decimalAux_succ (f n : Nat) (acc : List Char) :
    decimalAux (f + 1) n acc =
      if n < 10 then Char.ofNat (48 + n) :: acc
      else decimalAux f (n / 10) (Char.ofNat (48 + n % 10) :: acc) := rfl

theorem decimalAux_append (f : Nat) : ∀ (n : Nat) (acc : List Char),
    decimalAux f n acc = decimalAux f n [] ++ acc := by
  induction f with
  | zero => intro n acc; rfl
  | succ f ih =>
    intro n acc
    rw [decimalAux_succ, decimalAux_succ]
    by_cases h : n < 10
    · rw [if_pos h, if_pos h]; rfl
    · rw [if_neg h, if_neg h, ih _ (_ :: acc), ih _ [_], List.append_assoc]
      rfl

/-- The digits printed for `n`: a digit for `n < 10`, else the digits of
`n / 10` followed by the last digit. -/
theorem decimalAux_snoc (f n : Nat) :
    decimalAux (f + 1) n [] =
      if n < 10 then [Char.ofNat (48 + n)]
      else decimalAux f (n / 10) [] ++ [Char.ofNat (48 + n % 10)] := by
  rw [decimalAux_succ]
  by_cases h : n < 10
  · rw [if_pos h, if_pos h]
  · rw [if_neg h, if_neg h, decimalAux_append]

theorem decimalAux_digits (f : Nat) : ∀ (n : Nat), n < 10 ^ (f + 1) →
    (∀ c, c ∈ decimalAux (f + 1) n [] → IsDigit c) ∧ decimalAux (f + 1) n [] ≠ [] ∧
      (n < 2 ^ 64 → (decimalAux (f + 1) n []).foldl digitStep 0 = n) := by
  induction f with
  | zero =>
    intro n hn
    have h : n < 10 := by simpa using hn
    rw [decimalAux_snoc, if_pos h]
    refine ⟨?_, by simp, ?_⟩
    · intro c hc
      rw [List.mem_singleton] at hc
      rw [hc]
      exact isdigit_ofNat n h
    · intro h64
      show digitStep 0 (Char.ofNat (48 + n)) = n
      unfold digitStep
      rw [toNat_ofNat_digit n h]
      omega
  | succ f ih =>
    intro n hn
    rw [decimalAux_snoc]
    by_cases h : n < 10
    · rw [if_pos h]
      refine ⟨?_, by simp, ?_⟩
      · intro c hc
        rw [List.mem_singleton] at hc
        rw [hc]
        exact isdigit_ofNat n h
      · intro h64
        show digitStep 0 (Char.ofNat (48 + n)) = n
        unfold digitStep
        rw [toNat_ofNat_digit n h]
        omega
    · rw [if_neg h]
      have hn10 : n / 10 < 10 ^ (f + 1) := by
        rw [Nat.div_lt_iff_lt_mul (by norm_num)]
        rw [pow_succ] at hn
        exact hn
      obtain ⟨i1, i2, i3⟩ := ih (n / 10) hn10
      refine ⟨?_, by simp, ?_⟩
      · intro c hc
        rw [List.mem_append, List.mem_singleton] at hc
        rcases hc with hc | hc
        · exact i1 c hc
        · rw [hc]; exact isdigit_ofNat _ (Nat.mod_lt _ (by norm_num))
      · intro h64
        rw [List.foldl_append, i3 (by omega)]
        show digitStep (n / 10) (Char.ofNat (48 + n % 10)) = n
        unfold digitStep
        rw [toNat_ofNat_digit _ (Nat.mod_lt _ (by norm_num))]
        omega

/-- What `%lu` prints for a value of `unsigned long`: a non-empty run of
digits with that value. -/
theorem printUL_spec (v : Nat) (hv : v < 2 ^ 64) :
    (∀ c, c ∈ printUL v → IsDigit c) ∧ printUL v ≠ [] ∧ (printUL v).foldl digitStep 0 = v := by
  unfold printUL
  rw [Nat.mod_eq_of_lt hv]
  obtain ⟨h1, h2, h3⟩ := decimalAux_digits 19 v (Nat.lt_trans hv (by norm_num))
  exact ⟨h1, h2, h3 hv⟩

theorem skipSpace_cons_stop (c : Char) (s : List Char) (h : ¬ isspace c = true) :
    skipSpace (c :: s) = c :: s := by
  show (if c ≠ NUL ∧ isspace c = true then _ else _) = _
  rw [if_neg (fun hn => h hn.2)]

theorem skipSpace_cons_space (c : Char) (s : List Char) (h1 : c ≠ NUL) (h : isspace c = true) :
    skipSpace (c :: s) = skipSpace s := by
  show (if c ≠ NUL ∧ isspace c = true then _ else _) = _
  rw [if_pos ⟨h1, h⟩]

theorem skipNonDigit_cons_digit (c : Char) (s : List Char) (h : IsDigit c) :
    skipNonDigit (c :: s) = c :: s := by
  show (if c ≠ NUL ∧ ¬ isdigit c = true then _ else _) = _
  rw [if_neg (fun hn => hn.2 h)]

theorem skipNonDigit_cons_skip (c : Char) (s : List Char) (h1 : c ≠ NUL)
    (h : ¬ isdigit c = true) : skipNonDigit (c :: s) = skipNonDigit s := by
  show (if c ≠ NUL ∧ ¬ isdigit c = true then _ else _) = _
  rw [if_pos ⟨h1, h⟩]

/-- The `getint` on a run of digits that is followed by the end of the line
or by a character that is not a digit. -/
theorem getint_digits (x : List Char) (hx : ∀ c, c ∈ x → IsDigit c) (hne : x ≠ [])
    (rest : List Char) (t : Char) (hrest : ¬ isdigit (cur rest t) = true ∨ rest = []) :
    getint (x ++ rest) t = some (x.foldl digitStep 0, rest) := by
  obtain ⟨c, x', rfl⟩ := List.exists_cons_of_ne_nil hne
  have hc := hx c (List.mem_cons_self _ _)
  unfold getint
  rw [List.cons_append, skipSpace_cons_stop _ _ hc.not_space]
  have e : cur (c :: (x' ++ rest)) t = c := rfl
  rw [e, if_neg (by
    rintro (h | h)
    · exact hc.ne_nul h
    · exact h hc)]
  rw [← List.cons_append, digitsLoop_append _ hx]
  cases rest with
  | nil => rfl
  | cons d rest =>
    rcases hrest with h | h
    · rw [digitsLoop_cons_stop d rest _ h]
    · exact absurd h (by simp)

theorem printruleLoop_single (v : Nat) : printruleLoop [v] = printUL v ++ [] := by
  rw [List.append_nil]; rfl

theorem printruleLoop_cons2 (v w : Nat) (r : List Nat) :
    printruleLoop (v :: w :: r) = printUL v ++ ',' :: printruleLoop (w :: r) := rfl

theorem comma_facts : ',' ≠ NUL ∧ ¬ isdigit ',' = true := by decide

theorem skipndigit_comma (x : List Char) (t : Char) :
    skipndigit (',' :: x) t = skipndigit x t := by
  unfold skipndigit
  rw [skipNonDigit_cons_skip _ _ comma_facts.1 comma_facts.2]

theorem loadruleCount_succ (t : Char) (f : Nat) (p : List Char) (len : Nat) :
    loadruleCount t (f + 1) p len =
      if (skipndigit p t).1 = NUL then .ret (len, (skipndigit p t).2)
      else
        match getint (skipndigit p t).2 t with
        | none => .ret (len, (skipndigit p t).2)
        | some (v, q) =>
          if v = 0 then .ret (len, (skipndigit p t).2)
          else loadruleCount t f q (len + 1) := rfl

theorem loadruleCount_comma (t : Char) (f : Nat) (x : List Char) (len : Nat) :
    loadruleCount t f (',' :: x) len = loadruleCount t f x len := by
  cases f with
  | zero => rfl
  | succ f => rw [loadruleCount_succ, loadruleCount_succ, skipndigit_comma]

theorem loadruleVals_succ (t : Char) (n : Nat) (p : List Char) (tmp : Nat) :
    loadruleVals t (n + 1) p tmp =
      if (skipndigit p t).1 = NUL then []
      else
        match getint (skipndigit p t).2 t with
        | some (v, q) => v :: loadruleVals t n q v
        | none => tmp :: loadruleVals t n (skipndigit p t).2 tmp := rfl

theorem loadruleVals_comma (t : Char) (n : Nat) (x : List Char) (tmp : Nat) :
    loadruleVals t n (',' :: x) tmp = loadruleVals t n x tmp := by
  cases n with
  | zero => rfl
  | succ n => rw [loadruleVals_succ, loadruleVals_succ, skipndigit_comma]

/-- The `skipndigit` and `getint` of one pass of the loops of `loadrule` on a
printed block. -/
theorem block_pass (v : Nat) (hv : v < 2 ^ 64) (rest : List Char) (t : Char)
    (hrest : ¬ isdigit (cur rest t) = true ∨ rest = []) :
    (skipndigit (printUL v ++ rest) t).1 ≠ NUL ∧
      (skipndigit (printUL v ++ rest) t).2 = printUL v ++ rest ∧
      getint (printUL v ++ rest) t = some (v, rest) := by
  obtain ⟨h1, h2, h3⟩ := printUL_spec v hv
  have hg := getint_digits (printUL v) h1 h2 rest t hrest
  rw [h3] at hg
  obtain ⟨c, x, e⟩ := List.exists_cons_of_ne_nil h2
  have hc : IsDigit c := h1 c (by rw [e]; exact List.mem_cons_self _ _)
  have hs : skipNonDigit (printUL v ++ rest) = printUL v ++ rest := by
    rw [e, List.cons_append, skipNonDigit_cons_digit _ _ hc]
  refine ⟨?_, ?_, hg⟩
  · unfold skipndigit
    rw [hs, e]
    exact hc.ne_nul
  · unfold skipndigit
    rw [hs]

theorem loadruleCount_end (t : Char) (ht : ¬ isdigit t = true) (f len : Nat) :
    loadruleCount t (f + 1) [] len = .ret (len, []) := by
  rw [loadruleCount_succ]
  by_cases h : (skipndigit [] t).1 = NUL
  · rw [if_pos h]; rfl
  · rw [if_neg h]
    have e : getint (skipndigit [] t).2 t = none := by
      show (if cur [] t = NUL ∨ ¬ isdigit (cur [] t) = true then none else _) = none
      exact if_pos (Or.inr ht)
    rw [e]
    rfl

/-- The first loop of `loadrule` counts the blocks of a printed rule. -/
theorem loadruleCount_print (t : Char) (ht : ¬ isdigit t = true) :
    ∀ (r : List Nat), r ≠ [] → BlocksOK r → ∀ (f len : Nat), r.length < f →
      loadruleCount t f (printruleLoop r) len = .ret (len + r.length, []) := by
  intro r
  induction r with
  | nil => intro h; exact absurd rfl h
  | cons v r ih =>
    intro _ hb f len hf
    have hv := hb v (List.mem_cons_self _ _)
    obtain ⟨f, rfl⟩ : ∃ g, f = g + 1 := ⟨f - 1, by omega⟩
    cases r with
    | nil =>
      rw [printruleLoop_single, loadruleCount_succ]
      obtain ⟨b1, b2, b3⟩ := block_pass v hv.2 [] t (Or.inr rfl)
      rw [if_neg b1, b2, b3]
      simp only []
      rw [if_neg (by omega)]
      obtain ⟨f, rfl⟩ : ∃ g, f = g + 1 := ⟨f - 1, by simp at hf; omega⟩
      rw [loadruleCount_end t ht]
      rfl
    | cons w r =>
      rw [printruleLoop_cons2, loadruleCount_succ]
      obtain ⟨b1, b2, b3⟩ := block_pass v hv.2 (',' :: printruleLoop (w :: r)) t
        (Or.inl comma_facts.2)
      rw [if_neg b1, b2, b3]
      simp only []
      rw [if_neg (by omega), loadruleCount_comma,
        ih (by simp) (fun u hu => hb u (List.mem_cons_of_mem _ hu)) f (len + 1)
          (by simp at hf ⊢; omega)]
      simp only [List.length_cons]
      congr 2
      omega

/-- The second loop of `loadrule` stores the blocks of a printed rule. -/
theorem loadruleVals_print (t : Char) :
    ∀ (r : List Nat), r ≠ [] → BlocksOK r → ∀ (tmp : Nat),
      loadruleVals t r.length (printruleLoop r) tmp = r := by
  intro r
  induction r with
  | nil => intro h; exact absurd rfl h
  | cons v r ih =>
    intro _ hb tmp
    have hv := hb v (List.mem_cons_self _ _)
    cases r with
    | nil =>
      rw [printruleLoop_single]
      show loadruleVals t (0 + 1) _ tmp = _
      rw [loadruleVals_succ]
      obtain ⟨b1, b2, b3⟩ := block_pass v hv.2 [] t (Or.inr rfl)
      rw [if_neg b1, b2, b3]
      rfl
    | cons w r =>
      rw [printruleLoop_cons2]
      show loadruleVals t ((w :: r).length + 1) _ tmp = _
      rw [loadruleVals_succ]
      obtain ⟨b1, b2, b3⟩ := block_pass v hv.2 (',' :: printruleLoop (w :: r)) t
        (Or.inl comma_facts.2)
      rw [if_neg b1, b2, b3]
      simp only []
      rw [loadruleVals_comma, ih (by simp) (fun u hu => hb u (List.mem_cons_of_mem _ hu)) v]

theorem printruleLoop_length : ∀ (r : List Nat), BlocksOK r →
    r.length ≤ (printruleLoop r).length := by
  intro r
  induction r with
  | nil => intro _; exact Nat.zero_le _
  | cons v r ih =>
    intro hb
    have hv := hb v (List.mem_cons_self _ _)
    obtain ⟨_, h2, _⟩ := printUL_spec v hv.2
    have hl : 0 < (printUL v).length := List.length_pos.2 h2
    cases r with
    | nil =>
      rw [printruleLoop_single, List.append_nil]
      simp only [List.length_cons, List.length_nil]
      omega
    | cons w r =>
      rw [printruleLoop_cons2, List.length_append, List.length_cons]
      have := ih (fun u hu => hb u (List.mem_cons_of_mem _ hu))
      simp only [List.length_cons] at this ⊢
      omega

theorem loadrule_zero (t : Char) : loadrule ['0'] t = .ret (some []) := rfl

/-- The `loadrule` reads back what `nonogram_printrule` writes; the empty
rule is written as a single 0. -/
theorem loadrule_printrule (r : List Nat) (hb : BlocksOK r) (t : Char)
    (ht : ¬ isdigit t = true) : loadrule (nonogram_printrule r) t = .ret (some r) := by
  unfold nonogram_printrule
  by_cases h : r.length = 0
  · rw [if_pos h, List.length_eq_zero.1 h]
    exact loadrule_zero t
  · rw [if_neg h]
    have hne : r ≠ [] := fun e => h (by rw [e]; rfl)
    unfold loadrule
    rw [loadruleCount_print t ht r hne hb _ 0 (by
      have := printruleLoop_length r hb
      omega)]
    simp only []
    rw [if_neg (by omega), Nat.zero_add, loadruleVals_print t r hne hb]

theorem lineEnd_cons (c : Char) (s : List Char) :
    lineEnd (c :: s) =
      if c = NUL ∨ c = NL then ([], c :: s) else ((c :: (lineEnd s).1), (lineEnd s).2) := rfl

theorem wordEnd_cons (c : Char) (s : List Char) :
    wordEnd (c :: s) =
      if c ≠ NUL ∧ ¬ isspace c = true then (c :: (wordEnd s).1, (wordEnd s).2)
      else ([], c :: s) := rfl

theorem lineEnd_line (l rest : List Char) (hl : CleanLine l) :
    lineEnd (l ++ NL :: rest) = (l, NL :: rest) := by
  induction l with
  | nil =>
    rw [List.nil_append, lineEnd_cons, if_pos (Or.inr rfl)]
  | cons c l ih =>
    have hc := hl c (List.mem_cons_self _ _)
    have e := ih (fun d hd => hl d (List.mem_cons_of_mem _ hd))
    rw [List.cons_append, lineEnd_cons, if_neg (by
      rintro (h | h)
      · exact hc.1 h
      · exact hc.2 h), e]

/-- The `mygetline` on a text that starts with a line and its newline. -/
theorem mygetline_line (l rest : List Char) (hl : CleanLine l) :
    mygetline (l ++ NL :: rest) = some (l, NL :: rest, rest) := by
  have e := lineEnd_line l rest hl
  cases l with
  | nil =>
    show (if NL = NUL then none else _) = _
    rw [if_neg (by decide)]
    rfl
  | cons c l =>
    have hc := hl c (List.mem_cons_self _ _)
    show (if c = NUL then none else _) = _
    rw [if_neg hc.1]
    rw [List.cons_append] at e
    have e2 : lineEnd (c :: l ++ NL :: rest) = (c :: l, NL :: rest) := e
    rw [e2]
    show some (c :: l, NL :: rest, if NL = NL then rest else NL :: rest) = _
    rw [if_pos rfl]

theorem wordEnd_word (w rest : List Char) (hw : CleanWord w)
    (hrest : rest = [] ∨ cur rest NUL = NUL ∨ isspace (cur rest NUL) = true) :
    wordEnd (w ++ rest) = (w, rest) := by
  induction w with
  | nil =>
    cases rest with
    | nil => rfl
    | cons d rest =>
      rw [List.nil_append, wordEnd_cons]
      rcases hrest with h | h | h
      · exact absurd h (by simp)
      · rw [if_neg (fun hn => hn.1 h)]
      · rw [if_neg (fun hn => hn.2 h)]
  | cons c w ih =>
    have hc := hw c (List.mem_cons_self _ _)
    have e := ih (fun d hd => hw d (List.mem_cons_of_mem _ hd))
    rw [List.cons_append, wordEnd_cons, if_pos hc, e]

/-- The `getword` on a line that starts with a word. -/
theorem getword_word (w rest : List Char) (t : Char) (hw : CleanWord w) (hne : w ≠ [])
    (hrest : rest = [] ∨ cur rest NUL = NUL ∨ isspace (cur rest NUL) = true) :
    getword (w ++ rest) t = (true, w, rest) := by
  obtain ⟨c, w', rfl⟩ := List.exists_cons_of_ne_nil hne
  have hc := hw c (List.mem_cons_self _ _)
  unfold getword
  rw [List.cons_append, skipSpace_cons_stop _ _ hc.2, ← List.cons_append,
    wordEnd_word _ rest hw hrest]
  simp only []
  have e : cur (c :: w' ++ rest) t = c := rfl
  rw [e]
  simp [hc.1]

theorem getword_nil (t : Char) : (getword [] t).1 = false := rfl

/-- A word that starts with a digit matches none of the keywords. -/
theorem matchword_digit (c : Char) (s : List Char) (hc : IsDigit c) (d : Char) (k : List Char)
    (hd : ¬ isdigit d = true) (hn : d ≠ NUL) : matchword (c :: s) (d :: k) = false := by
  show (if c = d then _ else d == NUL) = false
  rw [if_neg (hc.ne_of_not hd)]
  simpa using hn

/-- The printed rule is one word of digits and commas. -/
theorem printUL_clean (v : Nat) (hv : v < 2 ^ 64) :
    CleanWord (printUL v) ∧ CleanLine (printUL v) := by
  obtain ⟨h1, _, _⟩ := printUL_spec v hv
  constructor
  · intro c hc
    exact ⟨(h1 c hc).ne_nul, (h1 c hc).not_space⟩
  · intro c hc
    refine ⟨(h1 c hc).ne_nul, ?_⟩
    intro e
    have := h1 c hc
    rw [e] at this
    exact absurd this (show ¬ isdigit NL = true by decide)

theorem printruleLoop_clean : ∀ (r : List Nat), BlocksOK r →
    CleanWord (printruleLoop r) ∧ CleanLine (printruleLoop r) := by
  intro r
  induction r with
  | nil => intro _; exact ⟨fun c hc => absurd hc (List.not_mem_nil _),
      fun c hc => absurd hc (List.not_mem_nil _)⟩
  | cons v r ih =>
    intro hb
    have hv := hb v (List.mem_cons_self _ _)
    obtain ⟨p1, p2⟩ := printUL_clean v hv.2
    cases r with
    | nil =>
      rw [printruleLoop_single, List.append_nil]
      exact ⟨p1, p2⟩
    | cons w r =>
      obtain ⟨i1, i2⟩ := ih (fun u hu => hb u (List.mem_cons_of_mem _ hu))
      rw [printruleLoop_cons2]
      constructor
      · intro c hc
        rw [List.mem_append, List.mem_cons] at hc
        rcases hc with h | h | h
        · exact p1 c h
        · rw [h]; exact ⟨by decide, by decide⟩
        · exact i1 c h
      · intro c hc
        rw [List.mem_append, List.mem_cons] at hc
        rcases hc with h | h | h
        · exact p2 c h
        · rw [h]; exact ⟨by decide, by decide⟩
        · exact i2 c h

theorem printrule_facts (r : List Nat) (hb : BlocksOK r) :
    CleanWord (nonogram_printrule r) ∧ CleanLine (nonogram_printrule r) ∧
      ∃ c s, nonogram_printrule r = c :: s ∧ IsDigit c := by
  unfold nonogram_printrule
  by_cases h : r.length = 0
  · rw [if_pos h]
    exact ⟨by intro c hc; rw [List.mem_singleton] at hc; rw [hc]; exact ⟨by decide, by decide⟩,
      by intro c hc; rw [List.mem_singleton] at hc; rw [hc]; exact ⟨by decide, by decide⟩,
      '0', [], rfl, show isdigit '0' = true by decide⟩
  · rw [if_neg h]
    obtain ⟨h1, h2⟩ := printruleLoop_clean r hb
    refine ⟨h1, h2, ?_⟩
    cases r with
    | nil => exact absurd rfl h
    | cons v r =>
      have hv := hb v (List.mem_cons_self _ _)
      obtain ⟨q1, q2, _⟩ := printUL_spec v hv.2
      obtain ⟨c, x, e⟩ := List.exists_cons_of_ne_nil q2
      have hc : IsDigit c := q1 c (by rw [e]; exact List.mem_cons_self _ _)
      cases r with
      | nil => exact ⟨c, x, by rw [printruleLoop_single, List.append_nil, e], hc⟩
      | cons w r => exact ⟨c, x ++ ',' :: printruleLoop (w :: r), by
          rw [printruleLoop_cons2, e]; rfl, hc⟩

/-- What `scanline` tests on a line that is a printed rule: the line is one
word, not a comment, no keyword, not a note. -/
theorem rule_line_tests (r : List Nat) (hb : BlocksOK r) (t : Char) :
    getword (nonogram_printrule r) t = (true, nonogram_printrule r, []) ∧
    cur (nonogram_printrule r ++ []) t ≠ '#' ∧
    matchword (nonogram_printrule r) kwWidth = false ∧
    matchword (nonogram_printrule r) kwHeight = false ∧
    matchword (nonogram_printrule r) kwRows = false ∧
    matchword (nonogram_printrule r) kwColumns = false ∧
    matchword (nonogram_printrule r) kwMaxrule = false ∧
    isalpha (cur (nonogram_printrule r ++ []) t) = false := by
  obtain ⟨h1, _, c, s, e, hc⟩ := printrule_facts r hb
  have hg := getword_word (nonogram_printrule r) [] t h1 (by rw [e]; simp) (Or.inl rfl)
  rw [List.append_nil] at hg ⊢
  rw [e] at hg ⊢
  refine ⟨hg, ?_, ?_, ?_, ?_, ?_, ?_, ?_⟩
  · exact IsDigit.ne_of_not hc (show ¬ isdigit '#' = true by decide)
  · exact matchword_digit c s hc _ _ (by decide) (by decide)
  · exact matchword_digit c s hc _ _ (by decide) (by decide)
  · exact matchword_digit c s hc _ _ (by decide) (by decide)
  · exact matchword_digit c s hc _ _ (by decide) (by decide)
  · exact matchword_digit c s hc _ _ (by decide) (by decide)
  · have := hc.not_alpha
    show isalpha c = false
    simpa using this

/-- The `scanline` on a printed rule while the scanner is on the rows and a
row is still missing: the rule is stored and counted. -/
theorem scanline_row (p : nonogram_puzzle) (ctxt : linectxt) (r : List Nat) (t : Char)
    (hb : BlocksOK r) (ht : ¬ isdigit t = true) (hon : ctxt.onrows = true)
    (hlt : ctxt.rowno < p.height) :
    scanline p ctxt (nonogram_printrule r) t =
      .ret (1, { p with row := p.row.set ctxt.rowno r },
        { ctxt with rowno := ctxt.rowno + 1 }) := by
  obtain ⟨h1, h2, h3, h4, h5, h6, h7, h8⟩ := rule_line_tests r hb t
  unfold scanline
  rw [h1]
  dsimp only
  rw [if_neg (by simp), if_neg h2, h3, h4, h5, h6, h7, h8,
    if_neg (by decide), if_neg (by decide), if_neg (by decide), if_neg (by decide),
    if_neg (by decide), if_neg (by decide), if_pos hon, if_neg (by omega),
    loadrule_printrule r hb t ht]

/-- The `scanline` on a printed rule while the scanner is on the columns and
a column is still missing. -/
theorem scanline_col (p : nonogram_puzzle) (ctxt : linectxt) (r : List Nat) (t : Char)
    (hb : BlocksOK r) (ht : ¬ isdigit t = true) (hoff : ctxt.onrows = false)
    (hon : ctxt.oncolumns = true) (hlt : ctxt.colno < p.width) :
    scanline p ctxt (nonogram_printrule r) t =
      .ret (1, { p with col := p.col.set ctxt.colno r },
        { ctxt with colno := ctxt.colno + 1 }) := by
  obtain ⟨h1, h2, h3, h4, h5, h6, h7, h8⟩ := rule_line_tests r hb t
  unfold scanline
  rw [h1]
  dsimp only
  rw [if_neg (by simp), if_neg h2, h3, h4, h5, h6, h7, h8,
    if_neg (by decide), if_neg (by decide), if_neg (by decide), if_neg (by decide),
    if_neg (by decide), if_neg (by decide), if_neg (by rw [hoff]; decide), if_pos hon,
    if_neg (by omega), loadrule_printrule r hb t ht]

/-- The `scanline` on an empty line. -/
theorem scanline_blank (p : nonogram_puzzle) (ctxt : linectxt) (t : Char) :
    scanline p ctxt [] t = .ret (1, p, ctxt) := by
  unfold scanline
  rw [if_pos (by rw [getword_nil]; decide)]

theorem getint_nil (t : Char) (ht : ¬ isdigit t = true) : getint [] t = none :=
  if_pos (Or.inr ht)

theorem hasCount_nil (t : Char) (ht : ¬ isdigit t = true) : hasCount [] t = false := by
  unfold hasCount
  rw [getint_nil t ht]

theorem getint_space (x : List Char) (t : Char) : getint (' ' :: x) t = getint x t := by
  unfold getint
  rw [skipSpace_cons_space _ _ (by decide) (by decide)]

/-- The `scanline` on the line "rows" once the height is known. -/
theorem scanline_rows (p : nonogram_puzzle) (ctxt : linectxt) (t : Char)
    (ht : ¬ isdigit t = true) (hh : ctxt.noheight = false) :
    scanline p ctxt kwRows t =
      .ret (1, p, { ctxt with onrows := true, oncolumns := false }) := by
  have h1 : getword kwRows t = (true, kwRows, []) := rfl
  unfold scanline
  rw [h1]
  dsimp only
  have hc : ¬ cur (kwRows ++ []) t = '#' := show ¬ ('r' : Char) = '#' by decide
  rw [if_neg (by simp), if_neg hc,
    if_neg (by decide), if_neg (by decide), if_pos (by decide), hasCount_nil t ht,
    if_neg (by decide), if_neg (by rw [hh]; decide)]

/-- The `scanline` on the line "columns" once the width is known. -/
theorem scanline_columns (p : nonogram_puzzle) (ctxt : linectxt) (t : Char)
    (ht : ¬ isdigit t = true) (hh : ctxt.nowidth = false) :
    scanline p ctxt kwColumns t =
      .ret (1, p, { ctxt with oncolumns := true, onrows := false }) := by
  have h1 : getword kwColumns t = (true, kwColumns, []) := rfl
  unfold scanline
  rw [h1]
  dsimp only
  have hc : ¬ cur (kwColumns ++ []) t = '#' := show ¬ ('c' : Char) = '#' by decide
  rw [if_neg (by simp), if_neg hc,
    if_neg (by decide), if_neg (by decide), if_neg (by decide), if_pos (by decide),
    hasCount_nil t ht, if_neg (by decide), if_neg (by rw [hh]; decide)]

theorem getword_keyword (kw x : List Char) (t : Char) (hkw : CleanWord kw) (hne : kw ≠ []) :
    getword (kw ++ ' ' :: x) t = (true, kw, ' ' :: x) :=
  getword_word kw (' ' :: x) t hkw hne (Or.inr (Or.inr (show isspace ' ' = true by decide)))

theorem keyword_clean : CleanWord kwWidth ∧ CleanWord kwHeight ∧ CleanWord kwMaxrule := by
  unfold CleanWord
  decide

/-- The `scanline` on the line "width W" for the first width of the text. -/
theorem scanline_width (p : nonogram_puzzle) (ctxt : linectxt) (t : Char) (w : Nat)
    (hw : 0 < w) (hw64 : w < 2 ^ 64) (hno : ctxt.nowidth = true) :
    scanline p ctxt (kwWidth ++ ' ' :: printUL w) t =
      .ret (1, { p with width := w, col := List.replicate w [] },
        { ctxt with nowidth := false, colno := 0 }) := by
  have h1 := getword_keyword kwWidth (printUL w) t keyword_clean.1 (by decide)
  obtain ⟨q1, q2, q3⟩ := printUL_spec w hw64
  have hg : getint (' ' :: printUL w) t = some (w, []) := by
    rw [getint_space]
    have := getint_digits (printUL w) q1 q2 [] t (Or.inr rfl)
    rw [List.append_nil, q3] at this
    exact this
  unfold scanline
  rw [h1]
  dsimp only
  have hc : ¬ cur (kwWidth ++ ' ' :: printUL w) t = '#' := show ¬ ('w' : Char) = '#' by decide
  rw [if_neg (by simp), if_neg hc, if_pos (by decide)]
  unfold readingWidth
  rw [if_neg (by rw [hno]; decide), hg]
  dsimp only
  rw [if_neg (by omega)]

/-- The `scanline` on the line "height H" for the first height of the
text. -/
theorem scanline_height (p : nonogram_puzzle) (ctxt : linectxt) (t : Char) (h : Nat)
    (hh : 0 < h) (hh64 : h < 2 ^ 64) (hno : ctxt.noheight = true) :
    scanline p ctxt (kwHeight ++ ' ' :: printUL h) t =
      .ret (1, { p with height := h, row := List.replicate h [] },
        { ctxt with noheight := false, rowno := 0 }) := by
  have h1 := getword_keyword kwHeight (printUL h) t keyword_clean.2.1 (by decide)
  obtain ⟨q1, q2, q3⟩ := printUL_spec h hh64
  have hg : getint (' ' :: printUL h) t = some (h, []) := by
    rw [getint_space]
    have := getint_digits (printUL h) q1 q2 [] t (Or.inr rfl)
    rw [List.append_nil, q3] at this
    exact this
  unfold scanline
  rw [h1]
  dsimp only
  have hc : ¬ cur (kwHeight ++ ' ' :: printUL h) t = '#' := show ¬ ('h' : Char) = '#' by decide
  rw [if_neg (by simp), if_neg hc, if_neg (by decide), if_pos (by decide)]
  unfold readingHeight
  rw [if_neg (by rw [hno]; decide), hg]
  dsimp only
  rw [if_neg (by omega)]

/-- What `%d` prints for a positive `int`. -/
theorem printInt_pos (m : Nat) (hm : m < 2 ^ 31) :
    printInt (m : Int) = decimalAux 10 m [] := by
  unfold printInt
  rw [if_neg (by omega), Int.toNat_ofNat]

/-- The `scanline` on the line "maxrule M" for the first maxrule of the text
and a positive `int` M. -/
theorem scanline_maxrule (p : nonogram_puzzle) (ctxt : linectxt) (t : Char) (m : Nat)
    (hm : 0 < m) (hm31 : m < 2 ^ 31) (hno : ctxt.nomaxrule = true) :
    scanline p ctxt (kwMaxrule ++ ' ' :: printInt (m : Int)) t =
      .ret (1, p, { ctxt with nomaxrule := false, maxrule := m }) := by
  rw [printInt_pos m hm31]
  have h1 := getword_keyword kwMaxrule (decimalAux 10 m []) t keyword_clean.2.2 (by decide)
  obtain ⟨q1, q2, q3⟩ := decimalAux_digits 9 m (Nat.lt_trans hm31 (by norm_num))
  have hg : getint (' ' :: decimalAux 10 m []) t = some (m, []) := by
    rw [getint_space]
    have := getint_digits (decimalAux 10 m []) q1 q2 [] t (Or.inr rfl)
    rw [List.append_nil, q3 (Nat.lt_trans hm31 (by norm_num))] at this
    exact this
  unfold scanline
  rw [h1]
  dsimp only
  have hc : ¬ cur (kwMaxrule ++ ' ' :: decimalAux 10 m []) t = '#' :=
    show ¬ ('m' : Char) = '#' by decide
  rw [if_neg (by simp), if_neg hc,
    if_neg (by decide), if_neg (by decide), if_neg (by decide), if_neg (by decide),
    if_pos (by decide), if_neg (by rw [hno]; decide), hg]
  dsimp only
  rw [if_neg (by omega)]

theorem scanLoop_succ (t : Char) (f : Nat) (s : List Char) (p : nonogram_puzzle)
    (ctxt : linectxt) (rc : Int) :
    scanLoop t (f + 1) s p ctxt rc =
      if scanMore p ctxt = true then
        match mygetline s with
        | none => .ret (rc, s, p, ctxt)
        | some (line, en, s2) =>
          match scanline p ctxt line (cur en t) with
          | .assertion => .assertion
          | .fuel => .fuel
          | .ret (rc2, p2, c2) =>
            if rc2 ≠ 0 then scanLoop t f s2 p2 { c2 with lineno := c2.lineno + 1 } rc2
            else .ret (rc2, s2, p2, c2)
      else .ret (rc, s, p, ctxt) := rfl

/-- One pass of the loop of the scanner over a line that `scanline`
accepts. -/
theorem scanLoop_step (t : Char) (f : Nat) (l rest : List Char) (p : nonogram_puzzle)
    (ctxt : linectxt) (rc rc2 : Int) (p2 : nonogram_puzzle) (c2 : linectxt)
    (hmore : scanMore p ctxt = true) (hl : CleanLine l)
    (hs : scanline p ctxt l NL = .ret (rc2, p2, c2)) (hrc : rc2 ≠ 0) :
    scanLoop t (f + 1) (l ++ NL :: rest) p ctxt rc =
      scanLoop t f rest p2 { c2 with lineno := c2.lineno + 1 } rc2 := by
  rw [scanLoop_succ, if_pos hmore, mygetline_line l rest hl]
  dsimp only
  have e : cur (NL :: rest) t = NL := rfl
  rw [e, hs]
  dsimp only
  rw [if_pos hrc]

theorem scanLoop_stop (t : Char) (f : Nat) (s : List Char) (p : nonogram_puzzle)
    (ctxt : linectxt) (rc : Int) (hmore : scanMore p ctxt = false) :
    scanLoop t (f + 1) s p ctxt rc = .ret (rc, s, p, ctxt) := by
  rw [scanLoop_succ, if_neg (by rw [hmore]; decide)]

/-- More fuel does not change the result of the loop of the scanner. -/
theorem scanLoop_mono (t : Char) : ∀ (f d : Nat) (s : List Char) (p : nonogram_puzzle)
    (ctxt : linectxt) (rc : Int) (x : Int × List Char × nonogram_puzzle × linectxt),
    scanLoop t f s p ctxt rc = .ret x → scanLoop t (f + d) s p ctxt rc = .ret x := by
  intro f
  induction f with
  | zero => intro d s p ctxt rc x h; exact Run.noConfusion h
  | succ f ih =>
    intro d s p ctxt rc x h
    rw [show f + 1 + d = (f + d) + 1 by omega, scanLoop_succ]
    rw [scanLoop_succ] at h
    by_cases hm : scanMore p ctxt = true
    · rw [if_pos hm] at h ⊢
      cases hg : mygetline s with
      | none => rw [hg] at h; exact h
      | some v =>
        obtain ⟨line, en, s2⟩ := v
        rw [hg] at h
        dsimp only at h ⊢
        cases hs : scanline p ctxt line (cur en t) with
        | assertion => rw [hs] at h; exact Run.noConfusion h
        | fuel => rw [hs] at h; exact Run.noConfusion h
        | ret y =>
          obtain ⟨rc2, p2, c2⟩ := y
          rw [hs] at h
          dsimp only at h ⊢
          by_cases hr : rc2 ≠ 0
          · rw [if_pos hr] at h ⊢
            exact ih d _ _ _ _ x h
          · rw [if_neg hr] at h ⊢
            exact h
    · rw [if_neg hm] at h ⊢
      exact h

theorem printLines_succ (lines : List (List Nat)) (k n : Nat) :
    printLines lines (k + 1) n =
      nonogram_printrule (lines.getD n []) ++ NL :: printLines lines k (n + 1) := rfl

/-- The scanner on the rows: the `k` printed rules from row `rowno` on are
stored, one per pass. -/
theorem scan_rows (t : Char) (rows : List (List Nat)) (hb : ∀ i, BlocksOK (rows.getD i [])) :
    ∀ (k : Nat) (p : nonogram_puzzle) (ctxt : linectxt) (f : Nat) (tail : List Char),
      ctxt.onrows = true → ctxt.rowno + k = p.height →
      scanLoop t (f + k) (printLines rows k ctxt.rowno ++ tail) p ctxt 1 =
        scanLoop t f tail { p with row := setLines rows k ctxt.rowno p.row }
          { ctxt with rowno := ctxt.rowno + k, lineno := ctxt.lineno + k } 1 := by
  intro k
  induction k with
  | zero => intro p ctxt f tail _ _; rfl
  | succ k ih =>
    intro p ctxt f tail hon hk
    have hbn := hb ctxt.rowno
    obtain ⟨_, hclean, _⟩ := printrule_facts _ hbn
    rw [printLines_succ, List.append_assoc, List.cons_append, ← Nat.add_assoc,
      scanLoop_step t (f + k) _ _ p ctxt 1 1 _ _ (by
        unfold scanMore
        simp only [Bool.or_eq_true, decide_eq_true_eq]
        left; right; omega) hclean
        (scanline_row p ctxt _ NL hbn (by decide) hon (by omega)) (by decide)]
    have := ih { p with row := p.row.set ctxt.rowno (rows.getD ctxt.rowno []) }
      { ctxt with rowno := ctxt.rowno + 1, lineno := ctxt.lineno + 1 } f tail hon
      (by show ctxt.rowno + 1 + k = p.height; omega)
    rw [this]
    congr 1
    show linectxt.mk _ _ _ _ _ _ _ _ _ = linectxt.mk _ _ _ _ _ _ _ _ _
    congr 1 <;> dsimp only <;> omega

/-- The scanner on the columns. -/
theorem scan_cols (t : Char) (cols : List (List Nat)) (hb : ∀ i, BlocksOK (cols.getD i [])) :
    ∀ (k : Nat) (p : nonogram_puzzle) (ctxt : linectxt) (f : Nat) (tail : List Char),
      ctxt.onrows = false → ctxt.oncolumns = true → ctxt.colno + k = p.width →
      scanLoop t (f + k) (printLines cols k ctxt.colno ++ tail) p ctxt 1 =
        scanLoop t f tail { p with col := setLines cols k ctxt.colno p.col }
          { ctxt with colno := ctxt.colno + k, lineno := ctxt.lineno + k } 1 := by
  intro k
  induction k with
  | zero => intro p ctxt f tail _ _ _; rfl
  | succ k ih =>
    intro p ctxt f tail hoff hon hk
    have hbn := hb ctxt.colno
    obtain ⟨_, hclean, _⟩ := printrule_facts _ hbn
    rw [printLines_succ, List.append_assoc, List.cons_append, ← Nat.add_assoc,
      scanLoop_step t (f + k) _ _ p ctxt 1 1 _ _ (by
        unfold scanMore
        simp only [Bool.or_eq_true, decide_eq_true_eq]
        right; right; omega) hclean
        (scanline_col p ctxt _ NL hbn (by decide) hoff hon (by omega)) (by decide)]
    have := ih { p with col := p.col.set ctxt.colno (cols.getD ctxt.colno []) }
      { ctxt with colno := ctxt.colno + 1, lineno := ctxt.lineno + 1 } f tail hoff hon
      (by show ctxt.colno + 1 + k = p.width; omega)
    rw [this]
    congr 1
    show linectxt.mk _ _ _ _ _ _ _ _ _ = linectxt.mk _ _ _ _ _ _ _ _ _
    congr 1 <;> dsimp only <;> omega

theorem setLines_length (rows : List (List Nat)) : ∀ (k n : Nat) (x : List (List Nat)),
    (setLines rows k n x).length = x.length := by
  intro k
  induction k with
  | zero => intro n x; rfl
  | succ k ih =>
    intro n x
    show (setLines rows k (n + 1) (x.set n _)).length = _
    rw [ih, List.length_set]

theorem setLines_get (rows : List (List Nat)) : ∀ (k n : Nat) (x : List (List Nat)) (i : Nat),
    i < x.length →
    (setLines rows k n x).getD i [] =
      if n ≤ i ∧ i < n + k then rows.getD i [] else x.getD i [] := by
  intro k
  induction k with
  | zero =>
    intro n x i _
    rw [if_neg (by omega)]
    rfl
  | succ k ih =>
    intro n x i hi
    show (setLines rows k (n + 1) (x.set n _)).getD i [] = _
    rw [ih _ _ _ (by rw [List.length_set]; exact hi)]
    by_cases h1 : n + 1 ≤ i ∧ i < n + 1 + k
    · rw [if_pos h1, if_pos (by omega)]
    · rw [if_neg h1]
      by_cases h2 : i = n
      · rw [if_pos (by omega), h2, List.getD_eq_getElem?_getD,
          List.getElem?_set_self (by omega)]
        rfl
      · rw [if_neg (by omega), List.getD_eq_getElem?_getD, List.getD_eq_getElem?_getD,
          List.getElem?_set_ne (by omega)]
        exact (List.getD_eq_getElem?_getD _ _ _).symm

/-- Storing every rule in turn gives the list of the rules. -/
theorem setLines_all (rows : List (List Nat)) :
    setLines rows rows.length 0 (List.replicate rows.length []) = rows := by
  apply List.ext_getElem
  · rw [setLines_length, List.length_replicate]
  · intro i h1 h2
    have := setLines_get rows rows.length 0 (List.replicate rows.length []) i
      (by rw [List.length_replicate]; exact h2)
    rw [if_pos (by omega), List.getD_eq_getElem?_getD, List.getD_eq_getElem?_getD,
      List.getElem?_eq_getElem h1, List.getElem?_eq_getElem h2] at this
    exact this

theorem maxruleLoop_bounds (lines : List (List Nat)) (B : Nat)
    (hl : ∀ i, (lines.getD i []).length < B) : ∀ (k n m : Nat), 1 ≤ m → m < B →
    1 ≤ maxruleLoop lines k n m ∧ maxruleLoop lines k n m < B := by
  intro k
  induction k with
  | zero => intro n m h1 h2; exact ⟨h1, h2⟩
  | succ k ih =>
    intro n m h1 h2
    show 1 ≤ maxruleLoop lines k (n + 1) _ ∧ maxruleLoop lines k (n + 1) _ < B
    apply ih
    · split_ifs <;> omega
    · split_ifs
      · exact hl n
      · exact h2

theorem compareVals_self (r : List Nat) : ∀ (k j : Nat), compareVals r r k j = none := by
  intro k
  induction k with
  | zero => intro j; rfl
  | succ k ih =>
    intro j
    show (if ruleAt r j ≠ ruleAt r j then _ else compareVals r r k (j + 1)) = none
    rw [if_neg (fun h => h rfl)]
    exact ih _

theorem compareLines_self (l : List (List Nat)) : ∀ (k i : Nat), compareLines l l k i = none := by
  intro k
  induction k with
  | zero => intro i; rfl
  | succ k ih =>
    intro i
    show (if (l.getD i []).length ≠ (l.getD i []).length then _ else
      match compareVals (l.getD i []) (l.getD i []) (l.getD i []).length 0 with
      | some d => some d
      | none => compareLines l l k (i + 1)) = none
    rw [if_neg (fun h => h rfl), compareVals_self]
    exact ih _

/-- A puzzle compares equal to itself. -/
theorem comparepuzzles_self (p : nonogram_puzzle) : nonogram_comparepuzzles p p = 0 := by
  unfold nonogram_comparepuzzles
  rw [if_neg (fun h => h rfl), if_neg (fun h => h rfl), compareLines_self, compareLines_self]

theorem digitsLoop_length : ∀ (s : List Char) (a : Nat),
    (digitsLoop s a).2.length ≤ s.length ∧
      ((digitsLoop s a).2.length = s.length → (digitsLoop s a).1 = a) := by
  intro s
  induction s with
  | nil => intro a; exact ⟨Nat.le_refl _, fun _ => rfl⟩
  | cons c s ih =>
    intro a
    by_cases h : isdigit c = true
    · rw [digitsLoop_cons_digit c s a h]
      have := (ih (digitStep a c)).1
      simp only [List.length_cons]
      exact ⟨by omega, fun e => by omega⟩
    · rw [digitsLoop_cons_stop c s a h]
      exact ⟨Nat.le_refl _, fun _ => rfl⟩

theorem skipSpace_length : ∀ (s : List Char), (skipSpace s).length ≤ s.length := by
  intro s
  induction s with
  | nil => exact Nat.le_refl _
  | cons c s ih =>
    show (if c ≠ NUL ∧ isspace c = true then skipSpace s else c :: s).length ≤ _
    split_ifs
    · simp only [List.length_cons]; omega
    · exact Nat.le_refl _

theorem skipNonDigit_length : ∀ (s : List Char), (skipNonDigit s).length ≤ s.length := by
  intro s
  induction s with
  | nil => exact Nat.le_refl _
  | cons c s ih =>
    show (if c ≠ NUL ∧ ¬ isdigit c = true then skipNonDigit s else c :: s).length ≤ _
    split_ifs
    · simp only [List.length_cons]; omega
    · exact Nat.le_refl _

/-- A `getint` that stores a value other than 0 has passed a digit. -/
theorem getint_length (s : List Char) (t : Char) (v : Nat) (q : List Char)
    (h : getint s t = some (v, q)) (hv : v ≠ 0) : q.length < s.length := by
  unfold getint at h
  split_ifs at h
  have e := Option.some.inj h
  have h1 := digitsLoop_length (skipSpace s) 0
  rw [e] at h1
  have h2 := skipSpace_length s
  by_contra hn
  have : q.length = (skipSpace s).length := by
    have := h1.1
    simp only at this
    omega
  exact hv (h1.2 this)

/-- The first loop of `loadrule` ends within the fuel given to it. -/
theorem loadruleCount_ret (t : Char) : ∀ (f : Nat) (p : List Char) (len : Nat),
    p.length < f → ∃ x, loadruleCount t f p len = .ret x := by
  intro f
  induction f with
  | zero => intro p len h; exact absurd h (Nat.not_lt_zero _)
  | succ f ih =>
    intro p len h
    rw [loadruleCount_succ]
    by_cases h1 : (skipndigit p t).1 = NUL
    · rw [if_pos h1]; exact ⟨_, rfl⟩
    · rw [if_neg h1]
      cases hg : getint (skipndigit p t).2 t with
      | none => exact ⟨_, rfl⟩
      | some y =>
        obtain ⟨v, q⟩ := y
        dsimp only
        by_cases hv : v = 0
        · rw [if_pos hv]; exact ⟨_, rfl⟩
        · rw [if_neg hv]
          apply ih
          have := getint_length _ t v q hg hv
          have h2 : (skipndigit p t).2.length ≤ p.length := skipNonDigit_length p
          omega

/-- The `loadrule` returns on every line. -/
theorem loadrule_ret (line : List Char) (t : Char) : ∃ r, loadrule line t = .ret r := by
  unfold loadrule
  obtain ⟨x, hx⟩ := loadruleCount_ret t (line.length + 1) line 0 (Nat.lt_succ_self _)
  rw [hx]
  obtain ⟨len, p⟩ := x
  dsimp only
  split_ifs
  · exact ⟨_, rfl⟩
  · exact ⟨_, rfl⟩

/-- The `scanline` returns on every line. -/
theorem scanline_ret (p : nonogram_puzzle) (ctxt : linectxt) (line : List Char) (t : Char) :
    ∃ x, scanline p ctxt line t = .ret x := by
  obtain ⟨r, hr⟩ := loadrule_ret line t
  unfold scanline
  rw [hr]
  generalize getword line t = w
  by_cases c1 : ¬ w.1 = true
  · rw [if_pos c1]; exact ⟨_, rfl⟩
  rw [if_neg c1]
  by_cases c2 : cur (w.2.1 ++ w.2.2) t = '#'
  · rw [if_pos c2]; exact ⟨_, rfl⟩
  rw [if_neg c2]
  by_cases c3 : matchword w.2.1 kwWidth = true
  · rw [if_pos c3]; exact ⟨_, rfl⟩
  rw [if_neg c3]
  by_cases c4 : matchword w.2.1 kwHeight = true
  · rw [if_pos c4]; exact ⟨_, rfl⟩
  rw [if_neg c4]
  by_cases c5 : matchword w.2.1 kwRows = true
  · rw [if_pos c5]
    by_cases d1 : hasCount w.2.2 t = true
    · rw [if_pos d1]; exact ⟨_, rfl⟩
    rw [if_neg d1]
    by_cases d2 : ctxt.noheight = true
    · rw [if_pos d2]; exact ⟨_, rfl⟩
    rw [if_neg d2]; exact ⟨_, rfl⟩
  rw [if_neg c5]
  by_cases c6 : matchword w.2.1 kwColumns = true
  · rw [if_pos c6]
    by_cases d1 : hasCount w.2.2 t = true
    · rw [if_pos d1]; exact ⟨_, rfl⟩
    rw [if_neg d1]
    by_cases d2 : ctxt.nowidth = true
    · rw [if_pos d2]; exact ⟨_, rfl⟩
    rw [if_neg d2]; exact ⟨_, rfl⟩
  rw [if_neg c6]
  by_cases c7 : matchword w.2.1 kwMaxrule = true
  · rw [if_pos c7]
    by_cases d1 : ¬ ctxt.nomaxrule = true
    · rw [if_pos d1]; exact ⟨_, rfl⟩
    rw [if_neg d1]
    cases getint w.2.2 t with
    | none => exact ⟨_, rfl⟩
    | some y =>
      obtain ⟨v, q⟩ := y
      dsimp only
      by_cases d2 : v < 1
      · rw [if_pos d2]; exact ⟨_, rfl⟩
      rw [if_neg d2]; exact ⟨_, rfl⟩
  rw [if_neg c7]
  by_cases c8 : isalpha (cur (w.2.1 ++ w.2.2) t) = true
  · rw [if_pos c8]; exact ⟨_, rfl⟩
  rw [if_neg c8]
  by_cases c9 : ctxt.onrows = true
  · rw [if_pos c9]
    by_cases d1 : ctxt.rowno ≥ p.height
    · rw [if_pos d1]; exact ⟨_, rfl⟩
    rw [if_neg d1]
    cases r with
    | none => exact ⟨_, rfl⟩
    | some r => exact ⟨_, rfl⟩
  rw [if_neg c9]
  by_cases c10 : ctxt.oncolumns = true
  · rw [if_pos c10]
    by_cases d1 : ctxt.colno ≥ p.width
    · rw [if_pos d1]; exact ⟨_, rfl⟩
    rw [if_neg d1]
    cases r with
    | none => exact ⟨_, rfl⟩
    | some r => exact ⟨_, rfl⟩
  rw [if_neg c10]
  exact ⟨_, rfl⟩

theorem lineEnd_length : ∀ (s : List Char),
    (lineEnd s).1.length + (lineEnd s).2.length = s.length := by
  intro s
  induction s with
  | nil => rfl
  | cons c s ih =>
    rw [lineEnd_cons]
    split_ifs
    · simp
    · simp only [List.length_cons]
      omega

/-- Every line that `mygetline` delivers moves `*s` forward. -/
theorem mygetline_length (s line en s2 : List Char) (h : mygetline s = some (line, en, s2)) :
    s2.length < s.length := by
  cases s with
  | nil => exact Option.noConfusion h
  | cons c s =>
    have hl := lineEnd_length (c :: s)
    rw [lineEnd_cons] at hl
    unfold mygetline at h
    dsimp only at h
    split_ifs at h with h1
    have e := Option.some.inj h
    rw [lineEnd_cons] at e
    by_cases h2 : c = NUL ∨ c = NL
    · rw [if_pos h2] at e
      dsimp only at e
      have hc : c = NL := by
        rcases h2 with h2 | h2
        · exact absurd h2 h1
        · exact h2
      rw [if_pos hc] at e
      have e3 := congrArg (fun x => x.2.2) e
      dsimp only at e3
      rw [← e3]
      exact Nat.lt_succ_self _
    · rw [if_neg h2] at e hl
      dsimp only at e hl
      have e3 := congrArg (fun x => x.2.2) e
      dsimp only at e3
      rw [← e3]
      simp only [List.length_cons] at hl ⊢
      split
      · simp
      · rename_i d s3 hd
        rw [hd] at hl
        simp only [List.length_cons] at hl
        split_ifs
        · omega
        · simp only [List.length_cons]; omega

/-- The loop of the scanner ends within the fuel given to it. -/
theorem scanLoop_ret (t : Char) : ∀ (f : Nat) (s : List Char) (p : nonogram_puzzle)
    (ctxt : linectxt) (rc : Int), s.length < f → ∃ x, scanLoop t f s p ctxt rc = .ret x := by
  intro f
  induction f with
  | zero => intro s p ctxt rc h; exact absurd h (Nat.not_lt_zero _)
  | succ f ih =>
    intro s p ctxt rc h
    rw [scanLoop_succ]
    by_cases hm : scanMore p ctxt = true
    · rw [if_pos hm]
      cases hg : mygetline s with
      | none => exact ⟨_, rfl⟩
      | some v =>
        obtain ⟨line, en, s2⟩ := v
        dsimp only
        obtain ⟨y, hy⟩ := scanline_ret p ctxt line (cur en t)
        rw [hy]
        obtain ⟨rc2, p2, c2⟩ := y
        dsimp only
        by_cases hr : rc2 ≠ 0
        · rw [if_pos hr]
          apply ih
          have := mygetline_length s line en s2 hg
          omega
        · rw [if_neg hr]
          exact ⟨_, rfl⟩
    · rw [if_neg hm]
      exact ⟨_, rfl⟩

/-- The result of the loop of the scanner with some fuel is the result with
the fuel that the scanner uses. -/
theorem scanLoop_full (t : Char) (f : Nat) (s : List Char) (p : nonogram_puzzle)
    (ctxt : linectxt) (rc : Int) (x : Int × List Char × nonogram_puzzle × linectxt)
    (h : scanLoop t f s p ctxt rc = .ret x) :
    scanLoop t (s.length + 1) s p ctxt rc = .ret x := by
  obtain ⟨y, hy⟩ := scanLoop_ret t (s.length + 1) s p ctxt rc (Nat.lt_succ_self _)
  have h1 := scanLoop_mono t f (s.length + 1) s p ctxt rc x h
  have h2 := scanLoop_mono t (s.length + 1) f s p ctxt rc y hy
  rw [Nat.add_comm] at h2
  rw [h1] at h2
  rw [hy, Run.ret.inj h2]

/-- The scanner returns on every text. -/
theorem spscanpuzzle_ret (s : List Char) (t : Char) (u : linectxt) :
    ∃ x, nonogram_spscanpuzzle_ef s t u = .ret x := by
  unfold nonogram_spscanpuzzle_ef
  obtain ⟨y, hy⟩ := scanLoop_ret t (s.length + 1) s
    { width := 0, height := 0, row := [], col := [] }
    { u with nowidth := true, noheight := true, nomaxrule := true, onrows := false,
             oncolumns := false, lineno := 1 } 0 (Nat.lt_succ_self _)
  rw [hy]
  obtain ⟨rc, s2, p, c⟩ := y
  dsimp only
  split_ifs
  · exact ⟨_, rfl⟩
  · exact ⟨_, rfl⟩

theorem scanMore_noheight (p : nonogram_puzzle) (c : linectxt) (h : c.noheight = true) :
    scanMore p c = true := by
  unfold scanMore
  rw [h]
  rfl

theorem scanMore_nowidth (p : nonogram_puzzle) (c : linectxt) (h : c.nowidth = true) :
    scanMore p c = true := by
  unfold scanMore
  rw [h]
  simp

theorem scanMore_col (p : nonogram_puzzle) (c : linectxt) (h : c.colno < p.width) :
    scanMore p c = true := by
  unfold scanMore
  simp [h]

theorem scanMore_done (p : nonogram_puzzle) (c : linectxt) (h1 : c.noheight = false)
    (h2 : ¬ c.rowno < p.height) (h3 : c.nowidth = false) (h4 : ¬ c.colno < p.width) :
    scanMore p c = false := by
  unfold scanMore
  simp [h1, h2, h3, h4]

theorem cleanLine_nil : CleanLine [] := fun _ hc => absurd hc (List.not_mem_nil _)

theorem cleanLine_keyword (kw x : List Char) (hkw : CleanLine kw) (hx : CleanLine x) :
    CleanLine (kw ++ ' ' :: x) := by
  intro c hc
  rw [List.mem_append, List.mem_cons] at hc
  rcases hc with h | h | h
  · exact hkw c h
  · rw [h]; exact ⟨by decide, by decide⟩
  · exact hx c h

theorem keyword_lines : CleanLine kwWidth ∧ CleanLine kwHeight ∧ CleanLine kwMaxrule ∧
    CleanLine kwRows ∧ CleanLine kwColumns := by
  unfold CleanLine
  decide

theorem decimal_clean (m : Nat) (hm : m < 2 ^ 31) : CleanLine (decimalAux 10 m []) := by
  obtain ⟨q1, _, _⟩ := decimalAux_digits 9 m (Nat.lt_trans hm (by norm_num))
  intro c hc
  refine ⟨(q1 c hc).ne_nul, ?_⟩
  intro e
  have := q1 c hc
  rw [e] at this
  exact absurd this (show ¬ isdigit NL = true by decide)

/-- The loop of the scanner on the text printed for a puzzle: every line is
accepted, and when the loop ends both dimensions are complete and the puzzle
is the one printed. -/
theorem scanLoop_print (t : Char) (u : linectxt) (w h : Nat) (rows cols : List (List Nat))
    (hw : 0 < w) (hh : 0 < h) (hw64 : w < 2 ^ 64) (hh64 : h < 2 ^ 64)
    (hrow : rows.length = h) (hcol : cols.length = w)
    (hrb : ∀ r, r ∈ rows → BlocksOK r ∧ r.length < 2 ^ 31)
    (hcb : ∀ r, r ∈ cols → BlocksOK r ∧ r.length < 2 ^ 31) :
    ∃ c, scanLoop t (1 + w + 1 + 1 + h + 1 + 1 + 1 + 1 + 1)
        (nonogram_fprintpuzzle { width := w, height := h, row := rows, col := cols })
        { width := 0, height := 0, row := [], col := [] }
        { u with nowidth := true, noheight := true, nomaxrule := true, onrows := false,
                 oncolumns := false, lineno := 1 } 0 =
      .ret (1, [], { width := w, height := h, row := rows, col := cols }, c) ∧
      c.noheight = false ∧ c.rowno = h ∧ c.nowidth = false ∧ c.colno = w := by
  subst hrow hcol
  have hbr : ∀ i, BlocksOK (rows.getD i []) := by
    intro i
    by_cases hi : i < rows.length
    · rw [List.getD_eq_getElem _ _ hi]
      exact (hrb _ (List.getElem_mem _)).1
    · rw [List.getD_eq_default _ _ (by omega)]
      exact fun v hv => absurd hv (List.not_mem_nil _)
  have hbc : ∀ i, BlocksOK (cols.getD i []) := by
    intro i
    by_cases hi : i < cols.length
    · rw [List.getD_eq_getElem _ _ hi]
      exact (hcb _ (List.getElem_mem _)).1
    · rw [List.getD_eq_default _ _ (by omega)]
      exact fun v hv => absurd hv (List.not_mem_nil _)
  have hlr : ∀ i, (rows.getD i []).length < 2 ^ 31 := by
    intro i
    by_cases hi : i < rows.length
    · rw [List.getD_eq_getElem _ _ hi]
      exact (hrb _ (List.getElem_mem _)).2
    · rw [List.getD_eq_default _ _ (by omega)]
      exact Nat.pos_pow_of_pos _ (by norm_num)
  have hlc : ∀ i, (cols.getD i []).length < 2 ^ 31 := by
    intro i
    by_cases hi : i < cols.length
    · rw [List.getD_eq_getElem _ _ hi]
      exact (hcb _ (List.getElem_mem _)).2
    · rw [List.getD_eq_default _ _ (by omega)]
      exact Nat.pos_pow_of_pos _ (by norm_num)
  obtain ⟨m1, m2⟩ := maxruleLoop_bounds cols (2 ^ 31) hlc cols.length 0 1 (Nat.le_refl _)
    (by norm_num)
  obtain ⟨m3, m4⟩ := maxruleLoop_bounds rows (2 ^ 31) hlr rows.length 0 _ m1 m2
  have hmax : nonogram_getmaxrule
      { width := cols.length, height := rows.length, row := rows, col := cols } =
      ((maxruleLoop rows rows.length 0 (maxruleLoop cols cols.length 0 1) : Nat) : Int) := by
    unfold nonogram_getmaxrule
    dsimp only
    exact toInt32_id _ (by omega) (by omega)
  obtain ⟨k1, k2, k3, k4, k5⟩ := keyword_lines
  unfold nonogram_fprintpuzzle
  rw [hmax]
  dsimp only
  rw [scanLoop_step t _ _ _ _ _ 0 1 _ _ (scanMore_noheight _ _ rfl)
      (cleanLine_keyword _ _ k3 (by rw [printInt_pos _ m4]; exact decimal_clean _ m4))
      (scanline_maxrule _ _ NL _ m3 m4 rfl) (by decide),
    scanLoop_step t _ _ _ _ _ 1 1 _ _ (scanMore_noheight _ _ rfl)
      (cleanLine_keyword _ _ k1 (printUL_clean _ hw64).2)
      (scanline_width _ _ NL _ hw hw64 rfl) (by decide),
    scanLoop_step t _ _ _ _ _ 1 1 _ _ (scanMore_noheight _ _ rfl)
      (cleanLine_keyword _ _ k2 (printUL_clean _ hh64).2)
      (scanline_height _ _ NL _ hh hh64 rfl) (by decide)]
  rw [← List.nil_append (NL :: (kwRows ++ _)),
    scanLoop_step t _ [] _ _ _ 1 1 _ _ (scanMore_col _ _ hw) cleanLine_nil
      (scanline_blank _ _ NL) (by decide),
    scanLoop_step t _ kwRows _ _ _ 1 1 _ _ (scanMore_col _ _ hw) k4
      (scanline_rows _ _ NL (by decide) rfl) (by decide)]
  have hr := scan_rows t rows hbr rows.length
    { width := cols.length, height := rows.length, row := List.replicate rows.length [],
      col := List.replicate cols.length [] }
    { lineno := 1 + 1 + 1 + 1 + 1 + 1, rowno := 0, colno := 0,
      maxrule := maxruleLoop rows rows.length 0 (maxruleLoop cols cols.length 0 1),
      onrows := true, oncolumns := false, nowidth := false, noheight := false,
      nomaxrule := false }
    (1 + cols.length + 1 + 1) (NL :: (kwColumns ++ NL :: printLines cols cols.length 0))
    rfl (Nat.zero_add _)
  rw [hr]
  dsimp only
  rw [← List.nil_append (NL :: (kwColumns ++ _)),
    scanLoop_step t _ [] _ _ _ 1 1 _ _ (scanMore_col _ _ hw) cleanLine_nil
      (scanline_blank _ _ NL) (by decide),
    scanLoop_step t _ kwColumns _ _ _ 1 1 _ _ (scanMore_col _ _ hw) k5
      (scanline_columns _ _ NL (by decide) rfl) (by decide)]
  have hc := scan_cols t cols hbc cols.length
    { width := cols.length, height := rows.length,
      row := setLines rows rows.length 0 (List.replicate rows.length []),
      col := List.replicate cols.length [] }
    { lineno := 1 + 1 + 1 + 1 + 1 + 1 + rows.length + 1 + 1, rowno := 0 + rows.length,
      colno := 0,
      maxrule := maxruleLoop rows rows.length 0 (maxruleLoop cols cols.length 0 1),
      onrows := false, oncolumns := true, nowidth := false, noheight := false,
      nomaxrule := false }
    1 [] rfl rfl (Nat.zero_add _)
  rw [List.append_nil] at hc
  rw [hc]
  dsimp only
  rw [scanLoop_stop t 0 _ _ _ 1 (scanMore_done _ _ rfl (by dsimp only; omega) rfl
    (by dsimp only; omega)), setLines_all, setLines_all]
  exact ⟨_, rfl, rfl, Nat.zero_add _, rfl, Nat.zero_add _⟩

/-- The return of the scanner from the state in which its loop ends. -/
theorem spscanpuzzle_of_loop (s : List Char) (t : Char) (u : linectxt) (f : Nat) (rc : Int)
    (s2 : List Char) (p : nonogram_puzzle) (c : linectxt)
    (h : scanLoop t f s { width := 0, height := 0, row := [], col := [] }
      { u with nowidth := true, noheight := true, nomaxrule := true, onrows := false,
               oncolumns := false, lineno := 1 } 0 = .ret (rc, s2, p, c)) :
    nonogram_spscanpuzzle_ef s t u =
      if rc = 0 ∨ c.noheight = true ∨ c.rowno < p.height ∨ c.nowidth = true ∨
          c.colno < p.width
      then .ret (-1, s2, none) else .ret (0, s2, some p) := by
  unfold nonogram_spscanpuzzle_ef
  rw [scanLoop_full t f s _ _ _ _ h]

/-- The round trip through the string scanner: for every puzzle with
positive width and height (values of `size_t`, with as many rules as rows and
columns) whose rules consist of positive blocks (values of
`nonogram_sizetype`; empty rules allowed, rule lengths representable as
`int`), the text written by `nonogram_fprintpuzzle`
is accepted by the scanner `nonogram_spscanpuzzle_ef`, which consumes all of
it and returns 0 with a puzzle of the same width, height, row rules and
column rules; `nonogram_comparepuzzles` returns 0 for the two.  An empty rule
is printed as a single 0, and `loadrule` reads a single 0 as the empty
rule. -/
theorem print_scan_roundtrip (p : nonogram_puzzle) (t : Char) (u : linectxt)
    (hw : 0 < p.width) (hh : 0 < p.height) (hw64 : p.width < 2 ^ 64) (hh64 : p.height < 2 ^ 64)
    (hrow : p.row.length = p.height) (hcol : p.col.length = p.width)
    (hrb : ∀ r, r ∈ p.row → BlocksOK r ∧ r.length < 2 ^ 31)
    (hcb : ∀ r, r ∈ p.col → BlocksOK r ∧ r.length < 2 ^ 31) :
    (∃ q, nonogram_spscanpuzzle_ef (nonogram_fprintpuzzle p) t u = .ret (0, [], some q) ∧
      q.width = p.width ∧ q.height = p.height ∧ q.row = p.row ∧ q.col = p.col ∧
      nonogram_comparepuzzles p q = 0) ∧
    nonogram_printrule [] = ['0'] ∧ loadrule ['0'] t = .ret (some []) := by
  refine ⟨⟨p, ?_, rfl, rfl, rfl, rfl, comparepuzzles_self p⟩, rfl, loadrule_zero t⟩
  obtain ⟨w, h, rows, cols⟩ := p
  obtain ⟨c, hc, c1, c2, c3, c4⟩ := scanLoop_print t u w h rows cols hw hh hw64 hh64 hrow hcol
    hrb hcb
  rw [spscanpuzzle_of_loop _ t u _ _ _ _ _ hc, if_neg (by
    rw [c1, c2, c3, c4]
    simp)]

theorem print_scan_roundtrip_witness :
    (∃ q, nonogram_spscanpuzzle_ef (nonogram_fprintpuzzle puzzle32) NUL ctxtJunk =
        .ret (0, [], some q) ∧
      q.width = puzzle32.width ∧ q.height = puzzle32.height ∧ q.row = puzzle32.row ∧
      q.col = puzzle32.col ∧ nonogram_comparepuzzles puzzle32 q = 0) ∧
    nonogram_printrule [] = ['0'] ∧ loadrule ['0'] NUL = .ret (some []) :=
  print_scan_roundtrip puzzle32 NUL ctxtJunk (by decide) (by decide) (by decide) (by decide)
    (by decide) (by decide) (by decide) (by decide)

theorem readingWidth_kind (p : nonogram_puzzle) (ctxt : linectxt) (s : List Char) (t : Char) :
    readingWidth p ctxt s t = scanKind p ctxt (.width (getintValue s t)) := by
  unfold readingWidth scanKind getintValue
  cases getint s t with
  | none => rfl
  | some y => rfl

theorem readingHeight_kind (p : nonogram_puzzle) (ctxt : linectxt) (s : List Char) (t : Char) :
    readingHeight p ctxt s t = scanKind p ctxt (.height (getintValue s t)) := by
  unfold readingHeight scanKind getintValue
  cases getint s t with
  | none => rfl
  | some y => rfl

/-- The `scanline` is `scanKind` on the kind of the line. -/
theorem scanline_kind (p : nonogram_puzzle) (ctxt : linectxt) (line : List Char) (t : Char) :
    scanline p ctxt line t = .ret (scanKind p ctxt (lineKind line t)) := by
  obtain ⟨r, hr⟩ := loadrule_ret line t
  unfold scanline lineKind loadruleValue
  rw [hr]
  generalize getword line t = w
  by_cases c1 : ¬ w.1 = true
  · rw [if_pos c1, if_pos c1]; rfl
  rw [if_neg c1, if_neg c1]
  by_cases c2 : cur (w.2.1 ++ w.2.2) t = '#'
  · rw [if_pos c2, if_pos c2]; rfl
  rw [if_neg c2, if_neg c2]
  by_cases c3 : matchword w.2.1 kwWidth = true
  · rw [if_pos c3, if_pos c3, readingWidth_kind]
  rw [if_neg c3, if_neg c3]
  by_cases c4 : matchword w.2.1 kwHeight = true
  · rw [if_pos c4, if_pos c4, readingHeight_kind]
  rw [if_neg c4, if_neg c4]
  by_cases c5 : matchword w.2.1 kwRows = true
  · rw [if_pos c5, if_pos c5]
    by_cases d1 : hasCount w.2.2 t = true
    · rw [if_pos d1, if_pos d1, readingHeight_kind]
    rw [if_neg d1, if_neg d1]
    unfold scanKind
    split_ifs <;> rfl
  rw [if_neg c5, if_neg c5]
  by_cases c6 : matchword w.2.1 kwColumns = true
  · rw [if_pos c6, if_pos c6]
    by_cases d1 : hasCount w.2.2 t = true
    · rw [if_pos d1, if_pos d1, readingWidth_kind]
    rw [if_neg d1, if_neg d1]
    unfold scanKind
    split_ifs <;> rfl
  rw [if_neg c6, if_neg c6]
  by_cases c7 : matchword w.2.1 kwMaxrule = true
  · rw [if_pos c7, if_pos c7]
    unfold scanKind getintValue
    cases getint w.2.2 t with
    | none => dsimp only; split_ifs <;> rfl
    | some y => dsimp only; split_ifs <;> rfl
  rw [if_neg c7, if_neg c7]
  by_cases c8 : isalpha (cur (w.2.1 ++ w.2.2) t) = true
  · rw [if_pos c8, if_pos c8]; rfl
  rw [if_neg c8, if_neg c8]
  unfold scanKind
  dsimp only
  by_cases c9 : ctxt.onrows = true
  · rw [if_pos c9, if_pos c9]
    by_cases d1 : ctxt.rowno ≥ p.height
    · rw [if_pos d1, if_pos d1]
    rw [if_neg d1, if_neg d1]
    cases r with
    | none => rfl
    | some r => rfl
  rw [if_neg c9, if_neg c9]
  by_cases c10 : ctxt.oncolumns = true
  · rw [if_pos c10, if_pos c10]
    by_cases d1 : ctxt.colno ≥ p.width
    · rw [if_pos d1, if_pos d1]
    rw [if_neg d1, if_neg d1]
    cases r with
    | none => rfl
    | some r => rfl
  rw [if_neg c10, if_neg c10]

theorem textLines_succ (t : Char) (f : Nat) (s : List Char) :
    textLines t (f + 1) s =
      match mygetline s with
      | none => []
      | some (line, en, s2) => (line, cur en t) :: textLines t f s2 := rfl

/-- The loop of the scanner is `scanKinds` on the kinds of the lines. -/
theorem scanLoop_kinds (t : Char) : ∀ (f : Nat) (s : List Char) (p : nonogram_puzzle)
    (ctxt : linectxt) (rc : Int), s.length < f →
    ∃ s2, scanLoop t f s p ctxt rc =
      .ret ((scanKinds ((textLines t f s).map (fun l => lineKind l.1 l.2)) p ctxt rc).1, s2,
        (scanKinds ((textLines t f s).map (fun l => lineKind l.1 l.2)) p ctxt rc).2.1,
        (scanKinds ((textLines t f s).map (fun l => lineKind l.1 l.2)) p ctxt rc).2.2) := by
  intro f
  induction f with
  | zero => intro s p ctxt rc h; exact absurd h (Nat.not_lt_zero _)
  | succ f ih =>
    intro s p ctxt rc h
    rw [scanLoop_succ, textLines_succ]
    cases hg : mygetline s with
    | none =>
      dsimp only
      by_cases hm : scanMore p ctxt = true
      · rw [if_pos hm]; exact ⟨s, rfl⟩
      · rw [if_neg hm]; exact ⟨s, rfl⟩
    | some v =>
      obtain ⟨line, en, s2⟩ := v
      dsimp only
      rw [List.map_cons]
      dsimp only
      unfold scanKinds
      by_cases hm : scanMore p ctxt = true
      · rw [if_pos hm, if_pos hm, scanline_kind]
        dsimp only
        by_cases hr : (scanKind p ctxt (lineKind line (cur en t))).1 ≠ 0
        · rw [if_pos hr, if_pos hr]
          exact ih s2 _ _ _ (by
            have := mygetline_length s line en s2 hg
            omega)
        · rw [if_neg hr, if_neg hr]
          exact ⟨s2, rfl⟩
      · rw [if_neg hm, if_neg hm]
        exact ⟨s, rfl⟩

theorem agree_lineno {T : Tally} {p : nonogram_puzzle} {c : linectxt} (n : Nat)
    (h : Agree T p c) : Agree T p { c with lineno := n } :=
  ⟨h.noheight, h.nowidth, h.height, h.width, h.norows, h.nocols, h.onrows, h.oncolumns⟩

theorem scanKind_width (p : nonogram_puzzle) (ctxt : linectxt) (v : Option Nat) :
    scanKind p ctxt (.width v) =
      if ¬ ctxt.nowidth = true then ((0 : Int), p, ctxt)
      else
        match v with
        | none => (0, p, { ctxt with nowidth := false })
        | some v =>
          if v < 1 then (0, { p with width := v }, { ctxt with nowidth := false })
          else (1, { p with width := v, col := List.replicate v [] },
            { ctxt with nowidth := false, colno := 0 }) := rfl

theorem scanKind_height (p : nonogram_puzzle) (ctxt : linectxt) (v : Option Nat) :
    scanKind p ctxt (.height v) =
      if ¬ ctxt.noheight = true then ((0 : Int), p, ctxt)
      else
        match v with
        | none => (0, p, { ctxt with noheight := false })
        | some v =>
          if v < 1 then (0, { p with height := v }, { ctxt with noheight := false })
          else (1, { p with height := v, row := List.replicate v [] },
            { ctxt with noheight := false, rowno := 0 }) := rfl

theorem scanKind_rows (p : nonogram_puzzle) (ctxt : linectxt) :
    scanKind p ctxt .rows =
      if ctxt.noheight = true then ((0 : Int), p, ctxt)
      else (1, p, { ctxt with onrows := true, oncolumns := false }) := rfl

theorem scanKind_columns (p : nonogram_puzzle) (ctxt : linectxt) :
    scanKind p ctxt .columns =
      if ctxt.nowidth = true then ((0 : Int), p, ctxt)
      else (1, p, { ctxt with oncolumns := true, onrows := false }) := rfl

theorem scanKind_maxrule (p : nonogram_puzzle) (ctxt : linectxt) (v : Option Nat) :
    scanKind p ctxt (.maxrule v) =
      if ¬ ctxt.nomaxrule = true then ((0 : Int), p, ctxt)
      else
        match v with
        | none => (1, p, { ctxt with nomaxrule := false })
        | some v =>
          if v < 1 then (0, p, { ctxt with nomaxrule := false, maxrule := v })
          else (1, p, { ctxt with nomaxrule := false, maxrule := v }) := rfl

theorem scanKind_rule (p : nonogram_puzzle) (ctxt : linectxt) (r : Option (List Nat)) :
    scanKind p ctxt (.rule r) =
      if ctxt.onrows = true then
        if ctxt.rowno ≥ p.height then ((0 : Int), p, ctxt)
        else
          match r with
          | none => (1, p, ctxt)
          | some r =>
            (1, { p with row := p.row.set ctxt.rowno r },
              { ctxt with rowno := ctxt.rowno + 1 })
      else if ctxt.oncolumns = true then
        if ctxt.colno ≥ p.width then ((0 : Int), p, ctxt)
        else
          match r with
          | none => (1, p, ctxt)
          | some r =>
            (1, { p with col := p.col.set ctxt.colno r },
              { ctxt with colno := ctxt.colno + 1 })
      else (1, p, ctxt) := rfl

/-- A line that `scanline` accepts keeps the state of the scanner in
agreement with the tally. -/
theorem scanKind_agree (T : Tally) (p : nonogram_puzzle) (c : linectxt) (k : LineKind)
    (hA : Agree T p c) (hrc : (scanKind p c k).1 ≠ 0) :
    Agree (tallyKind T k) (scanKind p c k).2.1 (scanKind p c k).2.2 := by
  cases k with
  | skip => exact hA
  | maxrule v =>
    have e : ∃ a b, scanKind p c (.maxrule v) =
        ((scanKind p c (.maxrule v)).1, p, { c with nomaxrule := a, maxrule := b }) := by
      rw [scanKind_maxrule]
      by_cases hn : ¬ c.nomaxrule = true
      · rw [if_pos hn]; exact ⟨c.nomaxrule, c.maxrule, rfl⟩
      · rw [if_neg hn]
        cases v with
        | none => exact ⟨false, c.maxrule, rfl⟩
        | some v =>
          dsimp only
          by_cases hv : v < 1
          · rw [if_pos hv]; exact ⟨false, v, rfl⟩
          · rw [if_neg hv]; exact ⟨false, v, rfl⟩
    obtain ⟨a, b, e⟩ := e
    rw [e]
    exact ⟨hA.noheight, hA.nowidth, hA.height, hA.width, hA.norows, hA.nocols, hA.onrows,
      hA.oncolumns⟩
  | width v =>
    rw [scanKind_width] at hrc ⊢
    by_cases hn : c.nowidth = true
    · rw [if_neg (fun h => h hn)] at hrc ⊢
      have hT : T.width = none := hA.nowidth.1 hn
      cases v with
      | none => exact absurd rfl hrc
      | some w =>
        dsimp only at hrc ⊢
        by_cases hw : w < 1
        · rw [if_pos hw] at hrc; exact absurd rfl hrc
        · rw [if_neg hw]
          have hc := hA.nocols hT
          have eT : tallyKind T (.width (some w)) = { T with width := some w } := by
            show (if T.width = none then _ else T) = _
            rw [if_pos hT]; rfl
          rw [eT]
          refine ⟨hA.noheight, by simp, hA.height, ?_, hA.norows, by simp, hA.onrows,
            hA.oncolumns⟩
          intro w' hw'
          have : w = w' := Option.some.inj hw'
          subst this
          exact ⟨rfl, hc.1.symm, by rw [hc.1]; exact Nat.zero_le _⟩
    · rw [if_pos hn] at hrc; exact absurd rfl hrc
  | height v =>
    rw [scanKind_height] at hrc ⊢
    by_cases hn : c.noheight = true
    · rw [if_neg (fun h => h hn)] at hrc ⊢
      have hT : T.height = none := hA.noheight.1 hn
      cases v with
      | none => exact absurd rfl hrc
      | some w =>
        dsimp only at hrc ⊢
        by_cases hw : w < 1
        · rw [if_pos hw] at hrc; exact absurd rfl hrc
        · rw [if_neg hw]
          have hc := hA.norows hT
          have eT : tallyKind T (.height (some w)) = { T with height := some w } := by
            show (if T.height = none then _ else T) = _
            rw [if_pos hT]; rfl
          rw [eT]
          refine ⟨by simp, hA.nowidth, ?_, hA.width, by simp, hA.nocols, hA.onrows,
            hA.oncolumns⟩
          intro w' hw'
          have : w = w' := Option.some.inj hw'
          subst this
          exact ⟨rfl, hc.1.symm, by rw [hc.1]; exact Nat.zero_le _⟩
    · rw [if_pos hn] at hrc; exact absurd rfl hrc
  | rows =>
    rw [scanKind_rows] at hrc ⊢
    by_cases hn : c.noheight = true
    · rw [if_pos hn] at hrc; exact absurd rfl hrc
    · rw [if_neg hn]
      have hT : T.height ≠ none := fun h => hn (hA.noheight.2 h)
      refine ⟨hA.noheight, hA.nowidth, hA.height, hA.width, ?_, ?_, by simp [tallyKind],
        by simp [tallyKind]⟩
      · intro h; exact absurd h hT
      · intro h; exact ⟨(hA.nocols h).1, by simp [tallyKind]⟩
  | columns =>
    rw [scanKind_columns] at hrc ⊢
    by_cases hn : c.nowidth = true
    · rw [if_pos hn] at hrc; exact absurd rfl hrc
    · rw [if_neg hn]
      have hT : T.width ≠ none := fun h => hn (hA.nowidth.2 h)
      refine ⟨hA.noheight, hA.nowidth, hA.height, hA.width, ?_, ?_, by simp [tallyKind],
        by simp [tallyKind]⟩
      · intro h; exact ⟨(hA.norows h).1, by simp [tallyKind]⟩
      · intro h; exact absurd h hT
  | rule r =>
    rw [scanKind_rule] at hrc ⊢
    by_cases h1 : c.onrows = true
    · rw [if_pos h1] at hrc ⊢
      have hm : T.mode = 1 := hA.onrows.1 h1
      by_cases h2 : c.rowno ≥ p.height
      · rw [if_pos h2] at hrc; exact absurd rfl hrc
      · rw [if_neg h2]
        cases r with
        | none => exact hA
        | some r =>
          dsimp only
          have eT : tallyKind T (.rule (some r)) = { T with rows := T.rows + 1 } := by
            show (if T.mode = 1 then _ else _) = _
            rw [if_pos hm]
          rw [eT]
          have hh : T.height ≠ none := fun h => (hA.norows h).2 hm
          refine ⟨hA.noheight, hA.nowidth, ?_, hA.width, ?_, hA.nocols, hA.onrows,
            hA.oncolumns⟩
          · intro h hh2
            obtain ⟨a1, a2, a3⟩ := hA.height h hh2
            exact ⟨a1, by show c.rowno + 1 = T.rows + 1; omega, by
              show T.rows + 1 ≤ h
              omega⟩
          · intro h; exact absurd h hh
    · rw [if_neg h1] at hrc ⊢
      have hm : T.mode ≠ 1 := fun h => h1 (hA.onrows.2 h)
      by_cases h3 : c.oncolumns = true
      · rw [if_pos h3] at hrc ⊢
        have hm2 : T.mode = 2 := hA.oncolumns.1 h3
        by_cases h2 : c.colno ≥ p.width
        · rw [if_pos h2] at hrc; exact absurd rfl hrc
        · rw [if_neg h2]
          cases r with
          | none => exact hA
          | some r =>
            dsimp only
            have eT : tallyKind T (.rule (some r)) = { T with cols := T.cols + 1 } := by
              show (if T.mode = 1 then _ else if T.mode = 2 then _ else _) = _
              rw [if_neg hm, if_pos hm2]
            rw [eT]
            have hh : T.width ≠ none := fun h => (hA.nocols h).2 hm2
            refine ⟨hA.noheight, hA.nowidth, hA.height, ?_, hA.norows, ?_, hA.onrows,
              hA.oncolumns⟩
            · intro h hh2
              obtain ⟨a1, a2, a3⟩ := hA.width h hh2
              exact ⟨a1, by show c.colno + 1 = T.cols + 1; omega, by
                show T.cols + 1 ≤ h
                omega⟩
            · intro h; exact absurd h hh
      · rw [if_neg h3]
        have hm2 : T.mode ≠ 2 := fun h => h3 (hA.oncolumns.2 h)
        have eT : tallyKind T (.rule r) = T := by
          cases r with
          | none => rfl
          | some r =>
            show (if T.mode = 1 then _ else if T.mode = 2 then _ else _) = _
            rw [if_neg hm, if_neg hm2]
        rw [eT]
        exact hA

/-- Under the agreement, the loop of the scanner goes on exactly while the
tally is not complete. -/
theorem scanMore_agree (T : Tally) (p : nonogram_puzzle) (c : linectxt) (hA : Agree T p c) :
    scanMore p c = false ↔ T.complete := by
  unfold scanMore Tally.complete
  constructor
  · intro h
    simp only [Bool.or_eq_false_iff, decide_eq_false_iff_not] at h
    obtain ⟨⟨h1, h2⟩, h3, h4⟩ := h
    have t1 : T.height ≠ none := fun e => by
      have := hA.noheight.2 e
      rw [h1] at this
      exact Bool.noConfusion this
    have t2 : T.width ≠ none := fun e => by
      have := hA.nowidth.2 e
      rw [h3] at this
      exact Bool.noConfusion this
    obtain ⟨h, eh⟩ := Option.ne_none_iff_exists'.1 t1
    obtain ⟨w, ew⟩ := Option.ne_none_iff_exists'.1 t2
    obtain ⟨a1, a2, a3⟩ := hA.height h eh
    obtain ⟨b1, b2, b3⟩ := hA.width w ew
    exact ⟨h, w, eh, ew, by omega, by omega⟩
  · rintro ⟨h, w, eh, ew, e1, e2⟩
    obtain ⟨a1, a2, a3⟩ := hA.height h eh
    obtain ⟨b1, b2, b3⟩ := hA.width w ew
    have n1 : c.noheight = false := by
      cases hc : c.noheight with
      | false => rfl
      | true =>
        have := hA.noheight.1 hc
        rw [eh] at this
        exact Option.noConfusion this
    have n2 : c.nowidth = false := by
      cases hc : c.nowidth with
      | false => rfl
      | true =>
        have := hA.nowidth.1 hc
        rw [ew] at this
        exact Option.noConfusion this
    rw [n1, n2]
    simp only [Bool.false_or, Bool.or_eq_false_iff, decide_eq_false_iff_not]
    exact ⟨by omega, by omega⟩

theorem agree_not_excess {T : Tally} {p : nonogram_puzzle} {c : linectxt} (h : Agree T p c) :
    ¬ T.excess := by
  rintro (⟨a, e, hl⟩ | ⟨a, e, hl⟩)
  · have := (h.height a e).2.2
    omega
  · have := (h.width a e).2.2
    omega

theorem scanKinds_cons (k : LineKind) (ks : List LineKind) (p : nonogram_puzzle)
    (ctxt : linectxt) (rc : Int) :
    scanKinds (k :: ks) p ctxt rc =
      if scanMore p ctxt = true then
        if (scanKind p ctxt k).1 ≠ 0 then
          scanKinds ks (scanKind p ctxt k).2.1
            { (scanKind p ctxt k).2.2 with lineno := (scanKind p ctxt k).2.2.lineno + 1 }
            (scanKind p ctxt k).1
        else scanKind p ctxt k
      else (rc, p, ctxt) := rfl

theorem tallyFrom_cons (T : Tally) (k : LineKind) (ks : List LineKind) :
    tallyFrom T (k :: ks) = tallyFrom (tallyKind T k) ks := rfl

/-- The loop of the scanner either meets a line that `scanline` rejects, or
ends after `n` lines in agreement with their tally; no tally on the way is
complete, and none has more rule lines than declared. -/
theorem scanKinds_spec : ∀ (ks : List LineKind) (T : Tally) (p : nonogram_puzzle)
    (c : linectxt) (rc : Int), Agree T p c →
    (scanKinds ks p c rc).1 = 0 ∨
    ∃ n, n ≤ ks.length ∧
      Agree (tallyFrom T (ks.take n)) (scanKinds ks p c rc).2.1 (scanKinds ks p c rc).2.2 ∧
      (∀ j, j < n → ¬ (tallyFrom T (ks.take j)).complete) ∧
      (∀ j, j ≤ n → ¬ (tallyFrom T (ks.take j)).excess) := by
  intro ks
  induction ks with
  | nil =>
    intro T p c rc hA
    exact Or.inr ⟨0, Nat.le_refl _, hA, fun j hj => absurd hj (Nat.not_lt_zero _),
      fun j _ => by rw [List.take_nil]; exact agree_not_excess hA⟩
  | cons k ks ih =>
    intro T p c rc hA
    rw [scanKinds_cons]
    by_cases hm : scanMore p c = true
    · rw [if_pos hm]
      by_cases hr : (scanKind p c k).1 ≠ 0
      · rw [if_pos hr]
        have hA2 := agree_lineno ((scanKind p c k).2.2.lineno + 1) (scanKind_agree T p c k hA hr)
        rcases ih (tallyKind T k) _ _ (scanKind p c k).1 hA2 with h | ⟨n, h1, h2, h3, h4⟩
        · exact Or.inl h
        · refine Or.inr ⟨n + 1, by simp only [List.length_cons]; omega, ?_, ?_, ?_⟩
          · rw [List.take_succ_cons, tallyFrom_cons]
            exact h2
          · intro j hj
            cases j with
            | zero =>
              intro hc
              have := (scanMore_agree T p c hA).2 hc
              rw [hm] at this
              exact Bool.noConfusion this
            | succ j =>
              rw [List.take_succ_cons, tallyFrom_cons]
              exact h3 j (by omega)
          · intro j hj
            cases j with
            | zero => exact agree_not_excess hA
            | succ j =>
              rw [List.take_succ_cons, tallyFrom_cons]
              exact h4 j (by omega)
      · rw [if_neg hr]
        exact Or.inl (by
          by_contra hn
          exact hr hn)
    · rw [if_neg hm]
      exact Or.inr ⟨0, Nat.zero_le _, hA, fun j hj => absurd hj (Nat.not_lt_zero _),
        fun j hj => by
          have : j = 0 := by omega
          subst this
          exact agree_not_excess hA⟩

theorem tallyKind_mono (T : Tally) (k : LineKind) :
    (∀ h, T.height = some h → (tallyKind T k).height = some h) ∧
    (∀ w, T.width = some w → (tallyKind T k).width = some w) ∧
    T.rows ≤ (tallyKind T k).rows ∧ T.cols ≤ (tallyKind T k).cols := by
  cases k with
  | skip => exact ⟨fun _ h => h, fun _ h => h, Nat.le_refl _, Nat.le_refl _⟩
  | maxrule v => exact ⟨fun _ h => h, fun _ h => h, Nat.le_refl _, Nat.le_refl _⟩
  | rows => exact ⟨fun _ h => h, fun _ h => h, Nat.le_refl _, Nat.le_refl _⟩
  | columns => exact ⟨fun _ h => h, fun _ h => h, Nat.le_refl _, Nat.le_refl _⟩
  | width v =>
    show (∀ h, T.height = some h → (if T.width = none then _ else T).height = some h) ∧
      (∀ w, T.width = some w → (if T.width = none then _ else T).width = some w) ∧
      T.rows ≤ (if T.width = none then _ else T).rows ∧
      T.cols ≤ (if T.width = none then _ else T).cols
    by_cases e : T.width = none
    · rw [if_pos e]
      exact ⟨fun _ h => h, fun w h => by rw [e] at h; exact Option.noConfusion h,
        Nat.le_refl _, Nat.le_refl _⟩
    · rw [if_neg e]
      exact ⟨fun _ h => h, fun _ h => h, Nat.le_refl _, Nat.le_refl _⟩
  | height v =>
    show (∀ h, T.height = some h → (if T.height = none then _ else T).height = some h) ∧
      (∀ w, T.width = some w → (if T.height = none then _ else T).width = some w) ∧
      T.rows ≤ (if T.height = none then _ else T).rows ∧
      T.cols ≤ (if T.height = none then _ else T).cols
    by_cases e : T.height = none
    · rw [if_pos e]
      exact ⟨fun w h => by rw [e] at h; exact Option.noConfusion h, fun _ h => h,
        Nat.le_refl _, Nat.le_refl _⟩
    · rw [if_neg e]
      exact ⟨fun _ h => h, fun _ h => h, Nat.le_refl _, Nat.le_refl _⟩
  | rule r =>
    cases r with
    | none => exact ⟨fun _ h => h, fun _ h => h, Nat.le_refl _, Nat.le_refl _⟩
    | some r =>
      show (∀ h, T.height = some h →
          (if T.mode = 1 then _ else if T.mode = 2 then _ else T).height = some h) ∧
        (∀ w, T.width = some w →
          (if T.mode = 1 then _ else if T.mode = 2 then _ else T).width = some w) ∧
        T.rows ≤ (if T.mode = 1 then _ else if T.mode = 2 then _ else T).rows ∧
        T.cols ≤ (if T.mode = 1 then _ else if T.mode = 2 then _ else T).cols
      by_cases e1 : T.mode = 1
      · rw [if_pos e1]
        exact ⟨fun _ h => h, fun _ h => h, Nat.le_succ _, Nat.le_refl _⟩
      · rw [if_neg e1]
        by_cases e2 : T.mode = 2
        · rw [if_pos e2]
          exact ⟨fun _ h => h, fun _ h => h, Nat.le_refl _, Nat.le_succ _⟩
        · rw [if_neg e2]
          exact ⟨fun _ h => h, fun _ h => h, Nat.le_refl _, Nat.le_refl _⟩

/-- Further lines keep the dimensions declared first and do not take away
rule lines. -/
theorem tallyFrom_mono : ∀ (ks : List LineKind) (T : Tally),
    (∀ h, T.height = some h → (tallyFrom T ks).height = some h) ∧
    (∀ w, T.width = some w → (tallyFrom T ks).width = some w) ∧
    T.rows ≤ (tallyFrom T ks).rows ∧ T.cols ≤ (tallyFrom T ks).cols := by
  intro ks
  induction ks with
  | nil => intro T; exact ⟨fun _ h => h, fun _ h => h, Nat.le_refl _, Nat.le_refl _⟩
  | cons k ks ih =>
    intro T
    obtain ⟨a1, a2, a3, a4⟩ := tallyKind_mono T k
    obtain ⟨b1, b2, b3, b4⟩ := ih (tallyKind T k)
    rw [tallyFrom_cons]
    exact ⟨fun h e => b1 h (a1 h e), fun w e => b2 w (a2 w e), Nat.le_trans a3 b3,
      Nat.le_trans a4 b4⟩

theorem tallyFrom_append (T : Tally) (l1 l2 : List LineKind) :
    tallyFrom T (l1 ++ l2) = tallyFrom (tallyFrom T l1) l2 := List.foldl_append _ _ _ _

/-- The tally of the whole text against the tally of its first `n` lines. -/
theorem tally_take (ks : List LineKind) (n : Nat) :
    (∀ h, (tally (ks.take n)).height = some h → (tally ks).height = some h) ∧
    (∀ w, (tally (ks.take n)).width = some w → (tally ks).width = some w) ∧
    (tally (ks.take n)).rows ≤ (tally ks).rows ∧ (tally (ks.take n)).cols ≤ (tally ks).cols := by
  have e : tally ks = tallyFrom (tally (ks.take n)) (ks.drop n) := by
    unfold tally
    rw [← tallyFrom_append, List.take_append_drop]
  rw [e]
  exact tallyFrom_mono _ _

theorem agree_start (u : linectxt) :
    Agree { height := none, width := none, mode := 0, rows := 0, cols := 0 }
      { width := 0, height := 0, row := [], col := [] }
      { u with nowidth := true, noheight := true, nomaxrule := true, onrows := false,
               oncolumns := false, lineno := 1 } :=
  ⟨by simp, by simp, fun h e => Option.noConfusion e, fun h e => Option.noConfusion e,
    fun _ => ⟨rfl, by decide⟩, fun _ => ⟨rfl, by decide⟩, by simp, by simp⟩

/-- The scanner returns on every text, and it returns -1 unless the tally of
the first `n` lines of the text is complete for some `n`, with no complete
tally before, and with no dimension that has more rule lines than declared
up to there. -/
theorem spscan_result (s : List Char) (t : Char) (u : linectxt) :
    ∃ rc s2 q, nonogram_spscanpuzzle_ef s t u = .ret (rc, s2, q) ∧
      (rc = -1 ∨ ∃ n, (tally ((lineKinds s t).take n)).complete ∧
        (∀ j, j < n → ¬ (tally ((lineKinds s t).take j)).complete) ∧
        (∀ j, j ≤ n → ¬ (tally ((lineKinds s t).take j)).excess)) := by
  obtain ⟨s2, hs⟩ := scanLoop_kinds t (s.length + 1) s
    { width := 0, height := 0, row := [], col := [] }
    { u with nowidth := true, noheight := true, nomaxrule := true, onrows := false,
             oncolumns := false, lineno := 1 } 0 (Nat.lt_succ_self _)
  have hk : (textLines t (s.length + 1) s).map (fun l => lineKind l.1 l.2) = lineKinds s t := rfl
  rw [hk] at hs
  rw [spscanpuzzle_of_loop s t u _ _ _ _ _ hs]
  rcases scanKinds_spec (lineKinds s t) _ _ _ 0 (agree_start u) with h | ⟨n, _, h2, h3, h4⟩
  · rw [if_pos (Or.inl h)]
    exact ⟨_, _, _, rfl, Or.inl rfl⟩
  · split_ifs with hc
    · exact ⟨_, _, _, rfl, Or.inl rfl⟩
    · refine ⟨_, _, _, rfl, Or.inr ⟨n, ?_, h3, h4⟩⟩
      apply (scanMore_agree _ _ _ h2).1
      unfold scanMore
      simp only [not_or, Bool.not_eq_true] at hc
      obtain ⟨_, c2, c3, c4, c5⟩ := hc
      rw [c2, c4]
      simp only [Bool.false_or, Bool.or_eq_false_iff, decide_eq_false_iff_not]
      exact ⟨c3, c5⟩

/-- C32 (amended): on every puzzle text `nonogram_spscanpuzzle_ef` returns,
and it returns -1 if the text declares no width, declares no height, has
fewer rule lines in its row sections than the height declared or fewer in
its column sections than the width declared, or has more rule lines for a
dimension than declared at a line before which the text has not yet supplied
both dimensions completely. -/
theorem scan_rejects (s : List Char) (t : Char) (u : linectxt) :
    ∃ rc s2 q, nonogram_spscanpuzzle_ef s t u = .ret (rc, s2, q) ∧
      ((tally (lineKinds s t)).width = none → rc = -1) ∧
      ((tally (lineKinds s t)).height = none → rc = -1) ∧
      ((∃ h, (tally (lineKinds s t)).height = some h ∧ (tally (lineKinds s t)).rows < h) →
        rc = -1) ∧
      ((∃ w, (tally (lineKinds s t)).width = some w ∧ (tally (lineKinds s t)).cols < w) →
        rc = -1) ∧
      ((∃ m, (∀ j, j ≤ m → ¬ (tally ((lineKinds s t).take j)).complete) ∧
          (tally ((lineKinds s t).take (m + 1))).excess) → rc = -1) := by
  obtain ⟨rc, s2, q, h, hr⟩ := spscan_result s t u
  refine ⟨rc, s2, q, h, ?_, ?_, ?_, ?_, ?_⟩
  · intro hw
    rcases hr with hr | ⟨n, ⟨a, b, e1, e2, e3, e4⟩, _, _⟩
    · exact hr
    · have := (tally_take (lineKinds s t) n).2.1 b e2
      rw [hw] at this
      exact Option.noConfusion this
  · intro hw
    rcases hr with hr | ⟨n, ⟨a, b, e1, e2, e3, e4⟩, _, _⟩
    · exact hr
    · have := (tally_take (lineKinds s t) n).1 a e1
      rw [hw] at this
      exact Option.noConfusion this
  · rintro ⟨h0, hh, hlt⟩
    rcases hr with hr | ⟨n, ⟨a, b, e1, e2, e3, e4⟩, _, _⟩
    · exact hr
    · have m1 := (tally_take (lineKinds s t) n).1 a e1
      have m2 := (tally_take (lineKinds s t) n).2.2.1
      rw [hh] at m1
      have : h0 = a := Option.some.inj m1
      omega
  · rintro ⟨w0, hh, hlt⟩
    rcases hr with hr | ⟨n, ⟨a, b, e1, e2, e3, e4⟩, _, _⟩
    · exact hr
    · have m1 := (tally_take (lineKinds s t) n).2.1 b e2
      have m2 := (tally_take (lineKinds s t) n).2.2.2
      rw [hh] at m1
      have : w0 = b := Option.some.inj m1
      omega
  · rintro ⟨m, hm, hex⟩
    rcases hr with hr | ⟨n, hc, _, h4⟩
    · exact hr
    · by_cases hn : n ≤ m
      · exact absurd hc (hm n hn)
      · exact absurd hex (h4 (m + 1) (by omega))

theorem scan_rejects_witness :
    ∃ rc s2 q, nonogram_spscanpuzzle_ef textNoColumns NUL ctxtJunk = .ret (rc, s2, q) ∧
      (tally (lineKinds textNoColumns NUL)).width = some 1 ∧
      (tally (lineKinds textNoColumns NUL)).cols = 0 ∧ rc = -1 := by
  obtain ⟨rc, s2, q, h, _, _, _, h4, _⟩ := scan_rejects textNoColumns NUL ctxtJunk
  exact ⟨rc, s2, q, h, by decide, by decide, h4 ⟨1, by decide, by decide⟩⟩

/-- C32 as stated fails: the text `textExcess` declares width 1 and height 1
and supplies one row rule and two column rules, one more than declared.  The
loop of the scanner ends after the first column rule, where both dimensions
are complete; the scanner returns 0 and leaves the last line unread. -/
theorem scan_excess_unread :
    tally (lineKinds textExcess NUL) =
      { height := some 1, width := some 1, mode := 2, rows := 1, cols := 2 } ∧
    nonogram_spscanpuzzle_ef textExcess NUL ctxtJunk =
      .ret (0, ['1', NL], some { width := 1, height := 1, row := [[1]], col := [[1]] }) := by
  constructor
  · decide
  · decide

/-- C23 fails: on the 2x2 grid whose right column is BLANK, with `orig` the
whole grid (which holds all BLANK cells and is not empty), the search loops
of `findminrect` compute the rectangle `[1,0]-(2,1)`.  Each of its four edges
holds a BLANK cell, but it is not the smallest rectangle containing all BLANK
cells, because the BLANK cell `(1, 1)` lies outside: the smallest such
rectangle is `[1,0]-(2,2)`.  The second loop scans the lower rows only to the
left of the first BLANK found and the third and fourth only to its right, so
a BLANK below the first one in the same column is never seen.  With
assertions enabled `findminrect` does not return on this input. -/
theorem findminrect_not_smallest :
    HoldsBlanks gridRightColumn 2 2 { min := { x := 0, y := 0 }, max := { x := 2, y := 2 } } ∧
    findminrectLoops gridRightColumn 2 { min := { x := 0, y := 0 }, max := { x := 2, y := 2 } } =
      .ret (some { min := { x := 1, y := 0 }, max := { x := 2, y := 1 } }) ∧
    BlankEdges gridRightColumn 2 { min := { x := 1, y := 0 }, max := { x := 2, y := 1 } } ∧
    ¬ HoldsBlanks gridRightColumn 2 2 { min := { x := 1, y := 0 }, max := { x := 2, y := 1 } } ∧
    ¬ SmallestBlankRect gridRightColumn 2 2
        { min := { x := 1, y := 0 }, max := { x := 2, y := 1 } } ∧
    SmallestBlankRect gridRightColumn 2 2
        { min := { x := 1, y := 0 }, max := { x := 2, y := 2 } } ∧
    findminrect gridRightColumn 2 2 { min := { x := 0, y := 0 }, max := { x := 2, y := 2 } } =
      .assertion := by
  refine ⟨by decide, by decide, by decide, by decide, by decide, by decide, by decide⟩

theorem u32_of_lt (n : Nat) (h : n < 2 ^ 32) : u32 n = n := Nat.mod_eq_of_lt h

theorem checkline32Loop_succ (r st : List Nat) (n rno index blen : Nat) :
    checkline32Loop r st (n + 1) rno index blen =
      if ¬ (index < st.length) then .ret (checkline32End r rno blen)
      else if cellAt st index ≠ nonogram_DOT ∧ cellAt st index ≠ nonogram_SOLID then .ret 1
      else if rno % 2 = 0 then
        if cellAt st index = nonogram_SOLID then
          if u32 (rno + 1) / 2 ≥ r.length then .ret (-1)
          else checkline32Loop r st n (u32 (rno + 1)) (u32 (index + 1)) 1
        else checkline32Loop r st n rno (u32 (index + 1)) blen
      else
        if cellAt st index = nonogram_DOT then
          if blen ≠ ruleAt r (rno / 2) then .ret (-1)
          else checkline32Loop r st n (u32 (rno + 1)) (u32 (index + 1)) blen
        else
          if u32 (blen + 1) > ruleAt r (rno / 2) then .ret (-1)
          else checkline32Loop r st n rno (u32 (index + 1)) (u32 (blen + 1)) := rfl

theorem checklineLoop_cons (r : List Nat) (c : Nat) (st : List Nat) (rno blen : Nat) :
    checklineLoop r (c :: st) rno blen =
      if c != nonogram_DOT && c != nonogram_SOLID then Except.error 1
      else if rno % 2 == 0 then
        if c == nonogram_SOLID then
          if (rno + 1) / 2 ≥ r.length then Except.error (-1)
          else checklineLoop r st (rno + 1) 1
        else checklineLoop r st rno blen
      else
        if c == nonogram_DOT then
          if blen != ruleAt r (rno / 2) then Except.error (-1)
          else checklineLoop r st (rno + 1) blen
        else
          if blen + 1 > ruleAt r (rno / 2) then Except.error (-1)
          else checklineLoop r st rno (blen + 1) := rfl

/-- Without wrap-around the code after the loop is that of the embedding
with exact counters. -/
theorem checkline32End_eq (r : List Nat) (rno blen : Nat) (h1 : rno + 1 < 2 ^ 32)
    (hr : r.length < 2 ^ 63) :
    checkline32End r rno blen = checklineEnd r (Except.ok (rno, blen)) := by
  have e1 : u32 (rno + 1) = rno + 1 := u32_of_lt _ h1
  have e2 : w64 (2 * r.length) = 2 * r.length := Nat.mod_eq_of_lt (by omega)
  unfold checkline32End checklineEnd
  rw [e1, e2]
  by_cases p : rno % 2 = 0
  · simp [p]
  · have p1 : rno % 2 = 1 := by omega
    by_cases q : blen = ruleAt r (rno / 2)
    · simp [p1, q]
    · simp [p1, q]

theorem cellAt_append_mid (pre : List Nat) (d : Nat) (rest : List Nat) :
    cellAt (pre ++ d :: rest) pre.length = d := by
  unfold cellAt
  rw [List.getD_eq_getElem?_getD, List.getElem?_append_right (Nat.le_refl _), Nat.sub_self]
  simp

/-- While no counter wraps, the loop with 32-bit counters does what the loop
with exact counters does.  The line is `pre ++ suf ++ tail`, the loop is at
the first cell of `suf`, and `tail` is either empty or starts with a cell
that is neither DOT nor SOLID. -/
theorem checkline32_loop_eq (r tail : List Nat)
    (ht : (tail = [] ∧ r.length < 2 ^ 63) ∨
      ∃ c rest, tail = c :: rest ∧ c ≠ nonogram_DOT ∧ c ≠ nonogram_SOLID) :
    ∀ (suf pre : List Nat) (rno blen n : Nat), rno ≤ pre.length → blen ≤ pre.length →
      (pre ++ suf).length + (if tail = [] then 1 else 0) < 2 ^ 32 → suf.length < n →
      checkline32Loop r (pre ++ suf ++ tail) n rno pre.length blen =
        .ret (checklineEnd r (checklineLoop r (suf ++ tail) rno blen)) := by
  intro suf
  induction suf with
  | nil =>
    intro pre rno blen n h1 h2 h3 h4
    obtain ⟨n, rfl⟩ : ∃ m, n = m + 1 := ⟨n - 1, by simp at h4; omega⟩
    rw [checkline32Loop_succ, List.append_nil, List.nil_append]
    rcases ht with ⟨rfl, hr⟩ | ⟨c, rest, rfl, hc1, hc2⟩
    · rw [List.append_nil, if_pos (by omega)]
      rw [if_pos rfl, List.append_nil] at h3
      rw [checkline32End_eq r rno blen (by omega) hr]
      rfl
    · rw [if_neg (by simp), cellAt_append_mid, if_pos ⟨hc1, hc2⟩, checklineLoop_cons]
      simp [hc1, hc2, checklineEnd]
  | cons d suf ih =>
    intro pre rno blen n h1 h2 h3 h4
    obtain ⟨n, rfl⟩ : ∃ m, n = m + 1 := ⟨n - 1, by simp at h4; omega⟩
    have hl : (pre ++ d :: suf).length = pre.length + suf.length + 1 := by simp; omega
    rw [hl] at h3
    have hidx : u32 (pre.length + 1) = (pre ++ [d]).length := by
      rw [u32_of_lt _ (by omega)]; simp
    have hlist : pre ++ d :: suf ++ tail = (pre ++ [d]) ++ suf ++ tail := by simp
    have hl2 : ((pre ++ [d]) ++ suf).length = pre.length + suf.length + 1 := by simp; omega
    have ihh := fun rno' blen' (a : rno' ≤ pre.length + 1) (b : blen' ≤ pre.length + 1) =>
      ih (pre ++ [d]) rno' blen' n (by simpa using a) (by simpa using b)
        (by rw [hl2]; exact h3) (by simpa using h4)
    rw [← hlist] at ihh
    rw [checkline32Loop_succ, if_neg (by simp), List.append_assoc, List.cons_append,
      cellAt_append_mid, ← List.cons_append, ← List.append_assoc, hidx, List.cons_append,
      checklineLoop_cons]
    have er : u32 (rno + 1) = rno + 1 := u32_of_lt _ (by omega)
    have eb : u32 (blen + 1) = blen + 1 := u32_of_lt _ (by omega)
    rw [er, eb]
    by_cases dd : d = nonogram_DOT
    · subst dd
      by_cases p : rno % 2 = 0
      · rw [if_neg (by simp), if_pos p, if_neg (by decide)]
        simp only [p, beq_self_eq_true, bne_self_eq_false, Bool.false_and, Bool.false_eq_true,
          if_false, if_true]
        rw [ihh rno blen (by omega) (by omega)]
        simp
      · rw [if_neg (by simp), if_neg p, if_pos rfl]
        by_cases q : blen = ruleAt r (rno / 2)
        · rw [if_neg (by simp [q]), ihh (rno + 1) blen (by omega) (by omega)]
          simp [p, q]
        · rw [if_pos q]
          simp [p, q, checklineEnd]
    · by_cases ds : d = nonogram_SOLID
      · subst ds
        by_cases p : rno % 2 = 0
        · rw [if_neg (by simp), if_pos p, if_pos rfl]
          by_cases q : (rno + 1) / 2 ≥ r.length
          · rw [if_pos q]
            simp [p, q, checklineEnd]
          · rw [if_neg q, ihh (rno + 1) 1 (by omega) (by omega)]
            simp [p, q]
        · rw [if_neg (by simp), if_neg p, if_neg (by decide)]
          by_cases q : blen + 1 > ruleAt r (rno / 2)
          · rw [if_pos q]
            simp [p, q, checklineEnd]
          · rw [if_neg q, ihh rno (blen + 1) (by omega) (by omega)]
            simp [p, q]
      · rw [if_pos ⟨dd, ds⟩]
        simp [dd, ds, checklineEnd]

/-- On a line of fewer than `2^32 - 1` cells and a rule of fewer than `2^63`
blocks the function with 32-bit counters returns, within `st.length + 1`
rounds, what the embedding with exact counters gives. -/
theorem checkline32_eq (r st : List Nat) (n : Nat) (hlen : st.length + 1 < 2 ^ 32)
    (hr : r.length < 2 ^ 63) (hn : st.length < n) :
    nonogram_checkline32 n r st = .ret (nonogram_checkline r st) := by
  have h := checkline32_loop_eq r [] (Or.inl ⟨rfl, hr⟩) st [] 0 0 n (Nat.le_refl _)
    (Nat.le_refl _) (by rw [if_pos rfl]; simpa using hlen) hn
  simp only [List.nil_append, List.append_nil, List.length_nil] at h
  exact h

/-- On a line whose first cell that is neither DOT nor SOLID has an index
below `2^32`, the function with 32-bit counters returns what the embedding
with exact counters gives, whatever the length of the line. -/
theorem checkline32_eq_blank (r pre : List Nat) (c : Nat) (rest : List Nat) (n : Nat)
    (hc1 : c ≠ nonogram_DOT) (hc2 : c ≠ nonogram_SOLID) (hlen : pre.length < 2 ^ 32)
    (hn : pre.length < n) :
    nonogram_checkline32 n r (pre ++ c :: rest) = .ret (nonogram_checkline r (pre ++ c :: rest)) := by
  have h := checkline32_loop_eq r (c :: rest) (Or.inr ⟨c, rest, rfl, hc1, hc2⟩) pre [] 0 0 n
    (Nat.le_refl _) (Nat.le_refl _) (by rw [if_neg (by simp)]; simpa using hlen) hn
  simp only [List.nil_append, List.length_nil] at h
  exact h

theorem cellAt_replicate_append (m v i : Nat) (rest : List Nat) (h : i < m) :
    cellAt (List.replicate m v ++ rest) i = v := by
  unfold cellAt
  rw [List.getD_eq_getElem?_getD, List.getElem?_append_left (by simpa using h),
    List.getElem?_replicate, if_pos h]
  rfl

theorem longLine_length : longLine.length = 2 ^ 32 := by
  unfold longLine
  rw [List.length_cons, List.length_replicate]
  norm_num

theorem longLine_zero : cellAt longLine 0 = nonogram_SOLID := rfl

theorem longLine_succ (i : Nat) (h : i + 1 < 2 ^ 32) : cellAt longLine (i + 1) = nonogram_DOT := by
  unfold longLine
  rw [cellAt_cons_succ, cellAt_replicate _ _ _ (by omega)]

/-- Rounds of the loop over DOT cells between two blocks: only `index`
moves. -/
theorem checkline32_dots (r st : List Nat) (rno blen : Nat) (he : rno % 2 = 0) :
    ∀ (k i n : Nat), i < 2 ^ 32 → i + k ≤ 2 ^ 32 → i + k ≤ st.length →
      (∀ j, i ≤ j → j < i + k → cellAt st j = nonogram_DOT) →
      checkline32Loop r st (n + k) rno i blen = checkline32Loop r st n rno (u32 (i + k)) blen := by
  intro k
  induction k with
  | zero =>
    intro i n h0 _ _ _
    rw [Nat.add_zero, Nat.add_zero, u32_of_lt _ h0]
  | succ k ih =>
    intro i n h0 h1 h2 h3
    have hc := h3 i (Nat.le_refl _) (by omega)
    rw [← Nat.add_assoc, checkline32Loop_succ, if_neg (by omega), hc,
      if_neg (by decide), if_pos he, if_neg (by decide)]
    by_cases hk : k = 0
    · subst hk
      rfl
    · rw [u32_of_lt _ (by omega),
        ih (i + 1) n (by omega) (by omega) (by omega) (fun j a b => h3 j (by omega) (by omega))]
      congr 2
      omega

/-- On the long line with the rule `[1]` the index wraps around to 0 after
`2^32` cells, the first cell is read a second time, and the function returns
-1. -/
theorem longLine_run (n : Nat) (hn : 2 ^ 32 < n) :
    nonogram_checkline32 n [1] longLine = .ret (-1) := by
  obtain ⟨m, rfl⟩ : ∃ m, n = ((m + 1) + (2 ^ 32 - 2)) + 1 + 1 := ⟨n - 2 ^ 32 - 1, by omega⟩
  unfold nonogram_checkline32
  have hl := longLine_length
  rw [checkline32Loop_succ, if_neg (by omega), longLine_zero, if_neg (by decide),
    if_pos (by decide), if_pos rfl, if_neg (by decide)]
  rw [checkline32Loop_succ, if_neg (by rw [hl]; decide), show u32 (0 + 1) = 0 + 1 from rfl,
    longLine_succ 0 (by norm_num), if_neg (by decide), if_neg (by decide), if_pos rfl,
    if_neg (by decide)]
  rw [show u32 (0 + 1 + 1) = 2 from rfl,
    checkline32_dots [1] longLine 2 1 (by decide) (2 ^ 32 - 2) 2 (m + 1) (by norm_num)
      (by norm_num) (by rw [hl]; norm_num)
      (fun j a b => by
        obtain ⟨i, rfl⟩ : ∃ i, j = i + 1 := ⟨j - 1, by omega⟩
        exact longLine_succ i (by omega))]
  rw [show u32 (2 + (2 ^ 32 - 2)) = 0 from by unfold u32; norm_num, checkline32Loop_succ,
    if_neg (by rw [hl]; norm_num), longLine_zero, if_neg (by decide), if_pos (by decide),
    if_pos rfl, if_pos (by decide)]

/-- On a line that starts with `2^32` or more DOT cells the index wraps around
before any other cell is read: the loop never ends. -/
theorem checkline32_forever (r rest : List Nat) (blen m : Nat) (hm : 2 ^ 32 ≤ m) :
    ∀ (n index : Nat), index < 2 ^ 32 →
      checkline32Loop r (List.replicate m nonogram_DOT ++ rest) n 0 index blen = .fuel := by
  intro n
  induction n with
  | zero => intro _ _; rfl
  | succ n ih =>
    intro index h
    rw [checkline32Loop_succ,
      if_neg (by rw [List.length_append, List.length_replicate]; omega),
      cellAt_replicate_append _ _ _ _ (by omega),
      if_neg (by decide), if_pos rfl, if_neg (by decide)]
    exact ih _ (Nat.mod_lt _ (by norm_num))

theorem runsAux_dots : ∀ (m : Nat), runsAux (List.replicate m nonogram_DOT) 0 = [] := by
  intro m
  induction m with
  | zero => rfl
  | succ m ih =>
    rw [List.replicate_succ]
    show (if nonogram_DOT = nonogram_SOLID then _ else if (0 : Nat) = 0 then _ else _) = _
    rw [if_neg (by decide), if_pos rfl]
    exact ih

theorem longLine_runs : Determined longLine ∧ solidRuns longLine = [1] := by
  constructor
  · intro c hc
    unfold longLine at hc
    rw [List.mem_cons] at hc
    rcases hc with h | h
    · right; exact h
    · left; exact List.eq_of_mem_replicate h
  · unfold solidRuns longLine
    obtain ⟨m, hm⟩ : ∃ m, 2 ^ 32 - 1 = m + 1 := ⟨2 ^ 32 - 2, by norm_num⟩
    rw [hm, List.replicate_succ]
    show (if nonogram_SOLID = nonogram_SOLID then runsAux (nonogram_DOT :: _) (0 + 1) else _) = _
    rw [if_pos rfl]
    show (if nonogram_DOT = nonogram_SOLID then _ else if 0 + 1 = 0 then _ else _) = _
    rw [if_neg (by decide), if_neg (by decide), runsAux_dots]

theorem dots_runs (m : Nat) :
    Determined (List.replicate m nonogram_DOT) ∧ solidRuns (List.replicate m nonogram_DOT) = [] :=
  ⟨fun _ hc => Or.inl (List.eq_of_mem_replicate hc), runsAux_dots m⟩

/-- C4, amended: for every rule `r` of fewer than `2^63` blocks and every
line of fewer than `2^32 - 1` cells, all DOT or SOLID, `nonogram_checkline`
with its 32-bit counters returns within `st.length + 1` rounds of its loop;
it returns 0 if and only if the sequence of lengths of the maximal SOLID runs
of the line equals `r`, and returns -1 otherwise. -/
theorem checkline32_determined (r st : List Nat) (n : Nat) (hdet : Determined st)
    (hlen : st.length + 1 < 2 ^ 32) (hr : r.length < 2 ^ 63) (hn : st.length < n) :
    (nonogram_checkline32 n r st = .ret 0 ↔ solidRuns st = r) ∧
    (nonogram_checkline32 n r st ≠ .ret 0 → nonogram_checkline32 n r st = .ret (-1)) := by
  obtain ⟨h1, h2⟩ := nonogram_checkline_determined r st hdet
  rw [checkline32_eq r st n hlen hr hn]
  constructor
  · rw [← h1]
    exact ⟨fun h => Run.ret.inj h, fun h => by rw [h]⟩
  · intro h
    rw [h2 (fun e => h (by rw [e]))]

theorem checkline32_determined_witness :
    Determined [1, 2, 1, 1, 2, 2] ∧
    ((nonogram_checkline32 7 [1, 2] [1, 2, 1, 1, 2, 2] = .ret 0 ↔
        solidRuns [1, 2, 1, 1, 2, 2] = [1, 2]) ∧
      (nonogram_checkline32 7 [1, 2] [1, 2, 1, 1, 2, 2] ≠ .ret 0 →
        nonogram_checkline32 7 [1, 2] [1, 2, 1, 1, 2, 2] = .ret (-1))) :=
  ⟨by decide, checkline32_determined [1, 2] [1, 2, 1, 1, 2, 2] 7 (by decide) (by norm_num)
    (by norm_num) (by norm_num)⟩

/-- C4, counterexample: the line of a SOLID cell followed by `2^32 - 1` DOT
cells has the runs `[1]`, yet with the rule `[1]` the function returns -1:
after `2^32` cells the 32-bit `index` is 0 again, the first cell is read a
second time and counted as a second block.  On the line of `2^32` DOT cells
with the empty rule the loop never ends. -/
theorem checkline32_long_line :
    Determined longLine ∧ solidRuns longLine = [1] ∧
    nonogram_checkline32 (2 ^ 32 + 1) [1] longLine = .ret (-1) ∧
    Determined (List.replicate (2 ^ 32) nonogram_DOT) ∧
    solidRuns (List.replicate (2 ^ 32) nonogram_DOT) = [] ∧
    ∀ n, nonogram_checkline32 n [] (List.replicate (2 ^ 32) nonogram_DOT) = .fuel := by
  refine ⟨longLine_runs.1, longLine_runs.2, longLine_run _ (by norm_num), (dots_runs _).1,
    (dots_runs _).2, fun n => ?_⟩
  have h := checkline32_forever [] [] 0 (2 ^ 32) (Nat.le_refl _) n 0 (by norm_num)
  rw [List.append_nil] at h
  exact h

/-- C5, amended: for every rule of positive blocks and every line whose
first indeterminate cell `c` (neither DOT nor SOLID) comes after the cells
`pre`, fewer than `2^32` of them, `nonogram_checkline` with its 32-bit
counters returns within `pre.length + 1` rounds of its loop; it returns 1 if
`pre` can be completed by DOT and SOLID cells to a line whose SOLID runs are
the rule, and -1 otherwise; it never returns 0. -/
theorem checkline32_indeterminate (r pre : List Nat) (c : Nat) (rest : List Nat) (n : Nat)
    (hr : PositiveRule r) (hdet : Determined pre)
    (hc1 : c ≠ nonogram_DOT) (hc2 : c ≠ nonogram_SOLID)
    (hlen : pre.length < 2 ^ 32) (hn : pre.length < n) :
    (nonogram_checkline32 n r (pre ++ c :: rest) = .ret 1 ↔
      ∃ s, Determined s ∧ solidRuns (pre ++ s) = r) ∧
    (nonogram_checkline32 n r (pre ++ c :: rest) ≠ .ret 1 →
      nonogram_checkline32 n r (pre ++ c :: rest) = .ret (-1)) := by
  obtain ⟨h1, h2⟩ := nonogram_checkline_indeterminate r pre c rest hr hdet hc1 hc2
  rw [checkline32_eq_blank r pre c rest n hc1 hc2 hlen hn]
  constructor
  · rw [← h1]
    exact ⟨fun h => Run.ret.inj h, fun h => by rw [h]⟩
  · intro h
    rw [h2 (fun e => h (by rw [e]))]

theorem checkline32_indeterminate_witness :
    PositiveRule [2, 1] ∧ Determined [1, 2] ∧ (0 : Nat) ≠ nonogram_DOT ∧
    (0 : Nat) ≠ nonogram_SOLID ∧
    ((nonogram_checkline32 3 [2, 1] ([1, 2] ++ 0 :: [3, 2]) = .ret 1 ↔
        ∃ s, Determined s ∧ solidRuns ([1, 2] ++ s) = [2, 1]) ∧
      (nonogram_checkline32 3 [2, 1] ([1, 2] ++ 0 :: [3, 2]) ≠ .ret 1 →
        nonogram_checkline32 3 [2, 1] ([1, 2] ++ 0 :: [3, 2]) = .ret (-1))) :=
  ⟨by decide, by decide, by decide, by decide,
    checkline32_indeterminate [2, 1] [1, 2] 0 [3, 2] 3 (by decide) (by decide)
      (by decide) (by decide) (by norm_num) (by norm_num)⟩

/-- C5, counterexample: the line `[SOLID, SOLID, BLANK]` contains a BLANK
cell, yet for the rule `[1]` the check returns -1, not 1: the mismatch in
the first two cells is found before the BLANK cell is read.  And when `2^32`
DOT cells come before the BLANK cell, the 32-bit `index` wraps around before
it reaches the BLANK cell, so that the function never returns. -/
theorem checkline32_blank_counterexample :
    (∃ c, c ∈ [nonogram_SOLID, nonogram_SOLID, nonogram_BLANK] ∧
      (c = nonogram_BLANK ∨ c = nonogram_BOTH)) ∧
    nonogram_checkline32 3 [1] [nonogram_SOLID, nonogram_SOLID, nonogram_BLANK] = .ret (-1) ∧
    ∀ r n, nonogram_checkline32 n r
      (List.replicate (2 ^ 32) nonogram_DOT ++ [nonogram_BLANK]) = .fuel :=
  ⟨by decide, by decide, fun r n => checkline32_forever r [nonogram_BLANK] 0 (2 ^ 32) (Nat.le_refl _) n 0 (by norm_num)⟩

theorem ext_nil : Ext [] [] := Or.inr ⟨rfl, rfl⟩

theorem ext_snoc (b : List Char) : Ext (b ++ [NL]) b := Or.inl rfl

theorem ext_of_cons (c : Char) (b : List Char) : Ext (c :: (b ++ [NL])) (c :: b) := Or.inl rfl

theorem skipSpace_cons (c : Char) (s : List Char) :
    skipSpace (c :: s) = if c ≠ NUL ∧ isspace c = true then skipSpace s else c :: s := rfl

theorem skipNonDigit_cons (c : Char) (s : List Char) :
    skipNonDigit (c :: s) = if c ≠ NUL ∧ ¬ isdigit c = true then skipNonDigit s else c :: s := rfl

theorem digitsLoop_cons (c : Char) (s : List Char) (res : Nat) :
    digitsLoop (c :: s) res =
      if c ≠ NUL ∧ isdigit c = true then digitsLoop s ((res * 10 + (c.toNat - 48)) % 2 ^ 64)
      else (res, c :: s) := rfl

theorem skipSpace_snoc : ∀ (b : List Char), Ext (skipSpace (b ++ [NL])) (skipSpace b) := by
  intro b
  induction b with
  | nil => right; exact ⟨rfl, rfl⟩
  | cons c b ih =>
    rw [List.cons_append, skipSpace_cons, skipSpace_cons]
    by_cases h : c ≠ NUL ∧ isspace c = true
    · rw [if_pos h, if_pos h]; exact ih
    · rw [if_neg h, if_neg h]; exact ext_of_cons c b

theorem skipSpace_ext {a b : List Char} (h : Ext a b) : Ext (skipSpace a) (skipSpace b) := by
  rcases h with h | ⟨h1, h2⟩
  · rw [h]; exact skipSpace_snoc b
  · rw [h1, h2]; exact ext_nil

theorem skipNonDigit_snoc : ∀ (b : List Char), Ext (skipNonDigit (b ++ [NL])) (skipNonDigit b) := by
  intro b
  induction b with
  | nil => right; exact ⟨rfl, rfl⟩
  | cons c b ih =>
    rw [List.cons_append, skipNonDigit_cons, skipNonDigit_cons]
    by_cases h : c ≠ NUL ∧ ¬ isdigit c = true
    · rw [if_pos h, if_pos h]; exact ih
    · rw [if_neg h, if_neg h]; exact ext_of_cons c b

theorem skipNonDigit_ext {a b : List Char} (h : Ext a b) :
    Ext (skipNonDigit a) (skipNonDigit b) := by
  rcases h with h | ⟨h1, h2⟩
  · rw [h]; exact skipNonDigit_snoc b
  · rw [h1, h2]; exact ext_nil

theorem wordEnd_snoc : ∀ (b : List Char),
    (wordEnd (b ++ [NL])).1 = (wordEnd b).1 ∧ Ext (wordEnd (b ++ [NL])).2 (wordEnd b).2 := by
  intro b
  induction b with
  | nil => exact ⟨rfl, Or.inl rfl⟩
  | cons c b ih =>
    rw [List.cons_append, wordEnd_cons, wordEnd_cons]
    by_cases h : c ≠ NUL ∧ ¬ isspace c = true
    · rw [if_pos h, if_pos h]
      exact ⟨by rw [ih.1], ih.2⟩
    · rw [if_neg h, if_neg h]
      exact ⟨rfl, ext_of_cons c b⟩

theorem wordEnd_ext {a b : List Char} (h : Ext a b) :
    (wordEnd a).1 = (wordEnd b).1 ∧ Ext (wordEnd a).2 (wordEnd b).2 := by
  rcases h with h | ⟨h1, h2⟩
  · rw [h]; exact wordEnd_snoc b
  · rw [h1, h2]; exact ⟨rfl, ext_nil⟩

theorem digitsLoop_snoc : ∀ (b : List Char) (res : Nat),
    (digitsLoop (b ++ [NL]) res).1 = (digitsLoop b res).1 ∧
      Ext (digitsLoop (b ++ [NL]) res).2 (digitsLoop b res).2 := by
  intro b
  induction b with
  | nil => intro res; exact ⟨rfl, Or.inl rfl⟩
  | cons c b ih =>
    intro res
    rw [List.cons_append, digitsLoop_cons, digitsLoop_cons]
    by_cases h : c ≠ NUL ∧ isdigit c = true
    · rw [if_pos h, if_pos h]
      exact ih _
    · rw [if_neg h, if_neg h]
      exact ⟨rfl, ext_of_cons c b⟩

/-- The character read at related positions is the same unless the position
is the end of the line, where it is no digit, no letter and not `#` in both
views. -/
theorem cur_ext {a b : List Char} (h : Ext a b) (hb : b ≠ []) (t1 t2 : Char) :
    cur a t1 = cur b t2 := by
  rcases h with h | ⟨_, h⟩
  · obtain ⟨c, b', rfl⟩ := List.exists_cons_of_ne_nil hb
    rw [h]; rfl
  · exact absurd h hb

theorem cur_ext_end {a : List Char} (h : Ext a []) : cur a NUL = NUL ∨ cur a NUL = NL := by
  rcases h with h | ⟨h, _⟩
  · right; rw [h]; rfl
  · left; rw [h]; rfl

/-- The `getint` at related positions: both fail, or both store the same
value and leave related positions. -/
theorem getint_ext {a b : List Char} (h : Ext a b) :
    (getint a NUL = none ∧ getint b NL = none) ∨
    ∃ v q1 q2, getint a NUL = some (v, q1) ∧ getint b NL = some (v, q2) ∧ Ext q1 q2 ∧
      b ≠ [] := by
  have hs := skipSpace_ext h
  unfold getint
  by_cases hb : skipSpace b = []
  · left
    rw [hb] at hs ⊢
    constructor
    · rw [if_pos]
      rcases cur_ext_end hs with e | e
      · left; exact e
      · right; rw [e]; decide
    · rw [if_pos]
      right; decide
  · have hc := cur_ext hs hb NUL NL
    rw [hc]
    by_cases hd : cur (skipSpace b) NL = NUL ∨ ¬ isdigit (cur (skipSpace b) NL) = true
    · left
      rw [if_pos hd, if_pos hd]
      exact ⟨rfl, rfl⟩
    · right
      rw [if_neg hd, if_neg hd]
      rcases hs with hs | ⟨_, hs⟩
      · rw [hs]
        obtain ⟨d1, d2⟩ := digitsLoop_snoc (skipSpace b) 0
        refine ⟨(digitsLoop (skipSpace b) 0).1, (digitsLoop (skipSpace b ++ [NL]) 0).2,
          (digitsLoop (skipSpace b) 0).2, ?_, rfl, d2, ?_⟩
        · rw [← d1]
        · intro e
          rw [e] at hb
          exact hb rfl
      · exact absurd hs hb

theorem hasCount_ext {a b : List Char} (h : Ext a b) : hasCount a NUL = hasCount b NL := by
  unfold hasCount
  rcases getint_ext h with ⟨h1, h2⟩ | ⟨v, q1, q2, h1, h2, _, _⟩
  · rw [h1, h2]
  · rw [h1, h2]

theorem readingWidth_ext (p : nonogram_puzzle) (ctxt : linectxt) {a b : List Char}
    (h : Ext a b) : readingWidth p ctxt a NUL = readingWidth p ctxt b NL := by
  unfold readingWidth
  rcases getint_ext h with ⟨h1, h2⟩ | ⟨v, q1, q2, h1, h2, _, _⟩
  · rw [h1, h2]
  · rw [h1, h2]

theorem readingHeight_ext (p : nonogram_puzzle) (ctxt : linectxt) {a b : List Char}
    (h : Ext a b) : readingHeight p ctxt a NUL = readingHeight p ctxt b NL := by
  unfold readingHeight
  rcases getint_ext h with ⟨h1, h2⟩ | ⟨v, q1, q2, h1, h2, _, _⟩
  · rw [h1, h2]
  · rw [h1, h2]

/-- The `getword` at related positions. -/
theorem getword_ext {a b : List Char} (h : Ext a b) :
    (getword a NUL).1 = (getword b NL).1 ∧ (getword a NUL).2.1 = (getword b NL).2.1 ∧
      Ext (getword a NUL).2.2 (getword b NL).2.2 ∧
      ((getword b NL).1 = true →
        cur ((getword a NUL).2.1 ++ (getword a NUL).2.2) NUL =
          cur ((getword b NL).2.1 ++ (getword b NL).2.2) NL) := by
  obtain ⟨w1, w2⟩ := wordEnd_ext (skipSpace_ext h)
  unfold getword
  dsimp only
  rw [w1]
  by_cases hw : (wordEnd (skipSpace b)).1 = []
  · refine ⟨?_, rfl, w2, ?_⟩
    · rw [hw]; rfl
    · intro hf
      rw [hw] at hf
      simp at hf
  · obtain ⟨c, x, e⟩ := List.exists_cons_of_ne_nil hw
    have hc : ∀ (r : List Char) (t : Char), cur ((wordEnd (skipSpace b)).1 ++ r) t = c := by
      intro r t; rw [e]; rfl
    refine ⟨?_, rfl, w2, fun _ => ?_⟩
    · rw [hc, hc]
    · rw [hc, hc]

theorem skipndigit_fst (p : List Char) (t : Char) :
    (skipndigit p t).1 = cur (skipNonDigit p) t := rfl

theorem skipndigit_snd (p : List Char) (t : Char) : (skipndigit p t).2 = skipNonDigit p := rfl

theorem getint_nil_NL : getint [] NL = none := getint_nil NL (by decide)

/-- The count of the first loop of `loadrule` never goes down. -/
theorem loadruleCount_ge (t : Char) : ∀ (f : Nat) (p : List Char) (len m : Nat) (x : List Char),
    loadruleCount t f p len = .ret (m, x) → len ≤ m := by
  intro f
  induction f with
  | zero => intro p len m x h; exact Run.noConfusion h
  | succ f ih =>
    intro p len m x h
    rw [loadruleCount_succ] at h
    by_cases h1 : (skipndigit p t).1 = NUL
    · rw [if_pos h1] at h
      have := Run.ret.inj h
      simp only [Prod.mk.injEq] at this
      omega
    · rw [if_neg h1] at h
      cases hg : getint (skipndigit p t).2 t with
      | none =>
        rw [hg] at h
        have := Run.ret.inj h
        simp only [Prod.mk.injEq] at this
        omega
      | some y =>
        obtain ⟨v, q⟩ := y
        rw [hg] at h
        dsimp only at h
        by_cases hv : v = 0
        · rw [if_pos hv] at h
          have := Run.ret.inj h
          simp only [Prod.mk.injEq] at this
          omega
        · rw [if_neg hv] at h
          have := ih _ _ _ _ h
          omega

/-- The first loop of `loadrule` at related positions counts the same number
of blocks and ends at related positions. -/
theorem loadruleCount_ext : ∀ (f d : Nat) (a b : List Char) (len : Nat) (x : Nat × List Char),
    Ext a b → loadruleCount NL f b len = .ret x →
    ∃ y, loadruleCount NUL (f + d) a len = .ret (x.1, y) ∧ Ext y x.2 := by
  intro f
  induction f with
  | zero => intro d a b len x _ h; exact Run.noConfusion h
  | succ f ih =>
    intro d a b len x hab h
    have hs := skipNonDigit_ext hab
    rw [show f + 1 + d = (f + d) + 1 by omega, loadruleCount_succ, skipndigit_fst, skipndigit_snd]
    rw [loadruleCount_succ, skipndigit_fst, skipndigit_snd] at h
    by_cases h1b : cur (skipNonDigit b) NL = NUL
    · have hne : skipNonDigit b ≠ [] := by
        intro e
        rw [e] at h1b
        exact absurd h1b (by decide)
      rw [if_pos h1b] at h
      rw [if_pos (by rw [cur_ext hs hne NUL NL]; exact h1b)]
      have := Run.ret.inj h
      subst this
      exact ⟨_, rfl, hs⟩
    · rw [if_neg h1b] at h
      by_cases h1a : cur (skipNonDigit a) NUL = NUL
      · rw [if_pos h1a]
        have hnil : skipNonDigit b = [] := by
          by_contra hne
          rw [cur_ext hs hne NUL NL] at h1a
          exact h1b h1a
        rw [hnil, getint_nil_NL] at h
        have := Run.ret.inj h
        subst this
        rw [hnil] at hs
        exact ⟨_, rfl, hs⟩
      · rw [if_neg h1a]
        rcases getint_ext hs with ⟨g1, g2⟩ | ⟨v, q1, q2, g1, g2, hq, _⟩
        · rw [g2] at h
          rw [g1]
          have := Run.ret.inj h
          subst this
          exact ⟨_, rfl, hs⟩
        · rw [g2] at h
          rw [g1]
          dsimp only at h ⊢
          by_cases hv : v = 0
          · rw [if_pos hv] at h
            rw [if_pos hv]
            have := Run.ret.inj h
            subst this
            exact ⟨_, rfl, hs⟩
          · rw [if_neg hv] at h
            rw [if_neg hv]
            exact ih d q1 q2 (len + 1) x hq h

/-- The second loop of `loadrule` at related positions stores the same
blocks, as many as the first loop has counted. -/
theorem loadruleVals_ext : ∀ (f : Nat) (a b : List Char) (len n : Nat) (x : List Char)
    (tmp : Nat), Ext a b → loadruleCount NL f b len = .ret (len + n, x) →
    loadruleVals NUL n a tmp = loadruleVals NL n b tmp := by
  intro f
  induction f with
  | zero => intro a b len n x tmp _ h; exact Run.noConfusion h
  | succ f ih =>
    intro a b len n x tmp hab h
    cases n with
    | zero => rfl
    | succ n =>
      have hs := skipNonDigit_ext hab
      rw [loadruleCount_succ, skipndigit_fst, skipndigit_snd] at h
      rw [loadruleVals_succ, loadruleVals_succ, skipndigit_fst, skipndigit_snd,
        skipndigit_fst, skipndigit_snd]
      by_cases h1b : cur (skipNonDigit b) NL = NUL
      · rw [if_pos h1b] at h
        have := Run.ret.inj h
        simp only [Prod.mk.injEq] at this
        omega
      · rw [if_neg h1b] at h
        rcases getint_ext hs with ⟨g1, g2⟩ | ⟨v, q1, q2, g1, g2, hq, hne⟩
        · rw [g2] at h
          have := Run.ret.inj h
          simp only [Prod.mk.injEq] at this
          omega
        · rw [g2] at h
          dsimp only at h
          by_cases hv : v = 0
          · rw [if_pos hv] at h
            have := Run.ret.inj h
            simp only [Prod.mk.injEq] at this
            omega
          · rw [if_neg hv] at h
            rw [if_neg h1b, if_neg (by rw [cur_ext hs hne NUL NL]; exact h1b), g1, g2]
            dsimp only
            rw [ih q1 q2 (len + 1) n x v hq (by rw [h]; congr 2; omega)]

theorem isdigit_cur_ext {a b : List Char} (h : Ext a b) :
    isdigit (cur a NUL) = isdigit (cur b NL) := by
  by_cases hb : b = []
  · subst hb
    rcases cur_ext_end h with e | e
    · rw [e]; rfl
    · rw [e]; rfl
  · rw [cur_ext h hb NUL NL]

/-- The `loadrule` on the line with its newline, as `fgets` stores it, gives
what it gives on the line that ends before the newline. -/
theorem loadrule_nl (l : List Char) : loadrule (l ++ [NL]) NUL = loadrule l NL := by
  obtain ⟨x, hx⟩ := loadruleCount_ret NL (l.length + 1) l 0 (Nat.lt_succ_self _)
  obtain ⟨y, hy, he⟩ := loadruleCount_ext (l.length + 1) 1 (l ++ [NL]) l 0 x (ext_snoc l) hx
  unfold loadrule
  rw [show (l ++ [NL]).length + 1 = l.length + 1 + 1 by simp, hx, hy]
  obtain ⟨len, p⟩ := x
  dsimp only at hy he ⊢
  rw [isdigit_cur_ext he,
    loadruleVals_ext (l.length + 1) (l ++ [NL]) l 0 len p 0 (ext_snoc l) (by rw [hx, Nat.zero_add])]

/-- The `scanline` on the line with its newline, as `fgets` stores it, does
what it does on the line that ends before the newline. -/
theorem scanline_nl (p : nonogram_puzzle) (ctxt : linectxt) (l : List Char) :
    scanline p ctxt (l ++ [NL]) NUL = scanline p ctxt l NL := by
  obtain ⟨g1, g2, g3, g4⟩ := getword_ext (ext_snoc l)
  rw [g2] at g4
  unfold scanline
  rw [g1, g2, loadrule_nl l]
  by_cases hf : (getword l NL).1 = true
  · rw [g4 hf, readingWidth_ext p ctxt g3, readingHeight_ext p ctxt g3, hasCount_ext g3]
    rcases getint_ext g3 with ⟨h1, h2⟩ | ⟨v, q1, q2, h1, h2, _, _⟩
    · rw [h1, h2]
    · rw [h1, h2]
  · rw [if_pos hf, if_pos hf]

theorem fgetsLoop_cons (n : Nat) (c : Char) (fp : List Char) :
    fgetsLoop (n + 1) (c :: fp) =
      if c = NL then ([c], fp) else (c :: (fgetsLoop n fp).1, (fgetsLoop n fp).2) := rfl

/-- The `fgets` loop on a line that fits the buffer with its newline. -/
theorem fgetsLoop_line : ∀ (l rest : List Char) (n : Nat), CleanLine l → l.length < n →
    fgetsLoop n (l ++ NL :: rest) = (l ++ [NL], rest) := by
  intro l
  induction l with
  | nil =>
    intro rest n _ hn
    obtain ⟨n, rfl⟩ : ∃ m, n = m + 1 := ⟨n - 1, by simp at hn; omega⟩
    rw [List.nil_append, fgetsLoop_cons, if_pos rfl]
    rfl
  | cons c l ih =>
    intro rest n hl hn
    obtain ⟨n, rfl⟩ : ∃ m, n = m + 1 := ⟨n - 1, by simp at hn; omega⟩
    have hc := hl c (List.mem_cons_self _ _)
    rw [List.cons_append, fgetsLoop_cons, if_neg hc.2,
      ih rest n (fun d hd => hl d (List.mem_cons_of_mem _ hd)) (by simpa using hn)]
    rfl

/-- The `fgets` loop on a line that is longer than the buffer: the buffer is
filled and the rest of the line stays in the file. -/
theorem fgetsLoop_full : ∀ (l rest : List Char), CleanLine l →
    fgetsLoop l.length (l ++ rest) = (l, rest) := by
  intro l
  induction l with
  | nil => intro rest _; rfl
  | cons c l ih =>
    intro rest hl
    have hc := hl c (List.mem_cons_self _ _)
    rw [List.cons_append, List.length_cons, fgetsLoop_cons, if_neg hc.2,
      ih rest (fun d hd => hl d (List.mem_cons_of_mem _ hd))]

theorem fgets_line (l rest : List Char) (hl : CleanLine l) (hn : l.length < 399) :
    fgets 400 (l ++ NL :: rest) = some (l ++ [NL], rest) := by
  have e := fgetsLoop_line l rest 399 hl hn
  cases l with
  | nil => exact congrArg some e
  | cons c l => exact congrArg some e

theorem cstring_cons (c : Char) (s : List Char) :
    cstring (c :: s) = if c = NUL then [] else c :: cstring s := rfl

theorem cstring_clean : ∀ (l : List Char), (∀ c, c ∈ l → c ≠ NUL) → cstring l = l := by
  intro l
  induction l with
  | nil => intro _; rfl
  | cons c l ih =>
    intro h
    rw [cstring_cons, if_neg (h c (List.mem_cons_self _ _)),
      ih (fun d hd => h d (List.mem_cons_of_mem _ hd))]

theorem cstring_line (l : List Char) (hl : CleanLine l) : cstring (l ++ [NL]) = l ++ [NL] := by
  apply cstring_clean
  intro c hc
  rw [List.mem_append, List.mem_singleton] at hc
  rcases hc with h | h
  · exact (hl c h).1
  · rw [h]; decide

theorem fscanLoop_succ (f : Nat) (fp : List Char) (p : nonogram_puzzle) (ctxt : linectxt)
    (rc : Int) :
    fscanLoop (f + 1) fp p ctxt rc =
      if scanMore p ctxt = true then
        match fgets 400 fp with
        | none => .ret (rc, p, ctxt)
        | some (buf, fp2) =>
          match scanline p ctxt (cstring buf) NUL with
          | .assertion => .assertion
          | .fuel => .fuel
          | .ret (rc2, p2, c2) =>
            if rc2 ≠ 0 then fscanLoop f fp2 p2 { c2 with lineno := c2.lineno + 1 } rc2
            else .ret (rc2, p2, c2)
      else .ret (rc, p, ctxt) := rfl

/-- One pass of the loop of the file scanner over a line that fits the
buffer and that `scanline` accepts. -/
theorem fscanLoop_step (f : Nat) (l rest : List Char) (p : nonogram_puzzle)
    (ctxt : linectxt) (rc rc2 : Int) (p2 : nonogram_puzzle) (c2 : linectxt)
    (hmore : scanMore p ctxt = true) (hl : CleanLine l) (hn : l.length < 399)
    (hs : scanline p ctxt l NL = .ret (rc2, p2, c2)) (hrc : rc2 ≠ 0) :
    fscanLoop (f + 1) (l ++ NL :: rest) p ctxt rc =
      fscanLoop f rest p2 { c2 with lineno := c2.lineno + 1 } rc2 := by
  rw [fscanLoop_succ, if_pos hmore, fgets_line l rest hl hn]
  dsimp only
  rw [cstring_line l hl, scanline_nl, hs]
  dsimp only
  rw [if_pos hrc]

/-- On a text of lines that fit the buffer the loop of the file scanner does
what the loop of the string scanner does. -/
theorem fscanLoop_eq (t : Char) : ∀ (f : Nat) (s : List Char) (p : nonogram_puzzle)
    (ctxt : linectxt) (rc : Int), ShortLines s →
    fscanLoop f s p ctxt rc = dropPtr (scanLoop t f s p ctxt rc) := by
  intro f
  induction f with
  | zero => intro s p ctxt rc _; rfl
  | succ f ih =>
    intro s p ctxt rc hs
    rw [fscanLoop_succ, scanLoop_succ]
    by_cases hm : scanMore p ctxt = true
    · rw [if_pos hm, if_pos hm]
      cases hs with
      | nil => rfl
      | line l rest hl hn hrest =>
        rw [fgets_line l rest hl hn, mygetline_line l rest hl]
        dsimp only
        rw [cstring_line l hl, scanline_nl, show cur (NL :: rest) t = NL from rfl]
        cases hsc : scanline p ctxt l NL with
        | assertion => rfl
        | fuel => rfl
        | ret y =>
          obtain ⟨rc2, p2, c2⟩ := y
          dsimp only
          by_cases hr : rc2 ≠ 0
          · rw [if_pos hr, if_pos hr]
            exact ih _ _ _ _ hrest
          · rw [if_neg hr, if_neg hr]
            rfl
    · rw [if_neg hm, if_neg hm]
      rfl

/-- On a text of lines that fit the buffer the file scanner returns what the
string scanner returns. -/
theorem fscanpuzzle_eq (s : List Char) (t : Char) (u : linectxt) (hs : ShortLines s)
    (rc : Int) (s2 : List Char) (q : Option nonogram_puzzle)
    (h : nonogram_spscanpuzzle_ef s t u = .ret (rc, s2, q)) :
    nonogram_fscanpuzzle_ef s u = .ret (rc, q) := by
  unfold nonogram_fscanpuzzle_ef
  unfold nonogram_spscanpuzzle_ef at h
  rw [fscanLoop_eq t _ _ _ _ _ hs]
  cases hl : scanLoop t (s.length + 1) s { width := 0, height := 0, row := [], col := [] }
      { u with nowidth := true, noheight := true, nomaxrule := true, onrows := false,
               oncolumns := false, lineno := 1 } 0 with
  | assertion => rw [hl] at h; exact Run.noConfusion h
  | fuel => rw [hl] at h; exact Run.noConfusion h
  | ret y =>
    obtain ⟨rc1, s1, p1, c1⟩ := y
    rw [hl] at h
    dsimp only [dropPtr] at h ⊢
    by_cases hc : rc1 = 0 ∨ c1.noheight = true ∨ c1.rowno < p1.height ∨ c1.nowidth = true ∨
        c1.colno < p1.width
    · rw [if_pos hc] at h ⊢
      have := Run.ret.inj h
      simp only [Prod.mk.injEq] at this
      rw [← this.1, ← this.2.2]
    · rw [if_neg hc] at h ⊢
      have := Run.ret.inj h
      simp only [Prod.mk.injEq] at this
      rw [← this.1, ← this.2.2]

theorem decimalAux_length : ∀ (f n : Nat) (acc : List Char),
    (decimalAux f n acc).length ≤ f + acc.length := by
  intro f
  induction f with
  | zero => intro n acc; show acc.length ≤ _; omega
  | succ f ih =>
    intro n acc
    show (if n < 10 then Char.ofNat (48 + n) :: acc
      else decimalAux f (n / 10) (Char.ofNat (48 + n % 10) :: acc)).length ≤ _
    by_cases h : n < 10
    · rw [if_pos h, List.length_cons]; omega
    · rw [if_neg h]
      have := ih (n / 10) (Char.ofNat (48 + n % 10) :: acc)
      rw [List.length_cons] at this
      omega

theorem printUL_length (v : Nat) : (printUL v).length ≤ 20 := by
  have := decimalAux_length 20 (v % 2 ^ 64) []
  exact this

/-- The printed rules are lines that fit the buffer when each of them has
fewer than 399 characters. -/
theorem shortLines_printLines (lines : List (List Nat)) (hb : ∀ i, BlocksOK (lines.getD i []))
    (hs : ∀ i, (nonogram_printrule (lines.getD i [])).length < 399) :
    ∀ (k n : Nat) (tail : List Char), ShortLines tail →
      ShortLines (printLines lines k n ++ tail) := by
  intro k
  induction k with
  | zero => intro n tail ht; exact ht
  | succ k ih =>
    intro n tail ht
    rw [printLines_succ, List.append_assoc, List.cons_append]
    exact ShortLines.line _ _ (printrule_facts _ (hb n)).2.1 (hs n) (ih (n + 1) tail ht)

theorem blocks_getD (rows : List (List Nat)) (hrb : ∀ r, r ∈ rows → BlocksOK r ∧ r.length < 2 ^ 31)
    (i : Nat) : BlocksOK (rows.getD i []) ∧ (rows.getD i []).length < 2 ^ 31 := by
  by_cases hi : i < rows.length
  · rw [List.getD_eq_getElem _ _ hi]
    exact hrb _ (List.getElem_mem _)
  · rw [List.getD_eq_default _ _ (by omega)]
    exact ⟨fun v hv => absurd hv (List.not_mem_nil _), Nat.pos_pow_of_pos _ (by norm_num)⟩

theorem short_getD (rows : List (List Nat))
    (hrl : ∀ r, r ∈ rows → (nonogram_printrule r).length < 399) (i : Nat) :
    (nonogram_printrule (rows.getD i [])).length < 399 := by
  by_cases hi : i < rows.length
  · rw [List.getD_eq_getElem _ _ hi]
    exact hrl _ (List.getElem_mem _)
  · rw [List.getD_eq_default _ _ (by omega)]
    decide

/-- The value and the bounds of `nonogram_getmaxrule` for a puzzle whose
rules have fewer than `2^31` blocks. -/
theorem getmaxrule_bounds (w h : Nat) (rows cols : List (List Nat))
    (hrb : ∀ r, r ∈ rows → BlocksOK r ∧ r.length < 2 ^ 31)
    (hcb : ∀ r, r ∈ cols → BlocksOK r ∧ r.length < 2 ^ 31) :
    ∃ m : Nat, nonogram_getmaxrule { width := w, height := h, row := rows, col := cols } =
      (m : Int) ∧ m = maxruleLoop rows h 0 (maxruleLoop cols w 0 1) ∧ 0 < m ∧ m < 2 ^ 31 := by
  obtain ⟨m1, m2⟩ := maxruleLoop_bounds cols (2 ^ 31) (fun i => (blocks_getD cols hcb i).2)
    w 0 1 (Nat.le_refl _) (by norm_num)
  obtain ⟨m3, m4⟩ := maxruleLoop_bounds rows (2 ^ 31) (fun i => (blocks_getD rows hrb i).2)
    h 0 _ m1 m2
  refine ⟨_, ?_, rfl, m3, m4⟩
  unfold nonogram_getmaxrule
  dsimp only
  exact toInt32_id _ (by omega) (by omega)

theorem keyword_lengths : kwWidth.length = 5 ∧ kwHeight.length = 6 ∧ kwMaxrule.length = 7 ∧
    kwRows.length = 4 ∧ kwColumns.length = 7 := by decide

/-- The five lines that `nonogram_fprintpuzzle` writes before the rules of
the rows are short. -/
theorem header_lines (w h m : Nat) (hw64 : w < 2 ^ 64) (hh64 : h < 2 ^ 64) (hm : m < 2 ^ 31) :
    (CleanLine (kwMaxrule ++ ' ' :: printInt (m : Int)) ∧
      (kwMaxrule ++ ' ' :: printInt (m : Int)).length < 399) ∧
    (CleanLine (kwWidth ++ ' ' :: printUL w) ∧ (kwWidth ++ ' ' :: printUL w).length < 399) ∧
    (CleanLine (kwHeight ++ ' ' :: printUL h) ∧ (kwHeight ++ ' ' :: printUL h).length < 399) := by
  obtain ⟨k1, k2, k3, _, _⟩ := keyword_lines
  obtain ⟨l1, l2, l3, _, _⟩ := keyword_lengths
  refine ⟨⟨cleanLine_keyword _ _ k3 (by rw [printInt_pos _ hm]; exact decimal_clean _ hm), ?_⟩,
    ⟨cleanLine_keyword _ _ k1 (printUL_clean _ hw64).2, ?_⟩,
    ⟨cleanLine_keyword _ _ k2 (printUL_clean _ hh64).2, ?_⟩⟩
  · rw [printInt_pos _ hm, List.length_append, List.length_cons, l3]
    have := decimalAux_length 10 m []
    simp only [List.length_nil] at this
    omega
  · rw [List.length_append, List.length_cons, l1]
    have := printUL_length w
    omega
  · rw [List.length_append, List.length_cons, l2]
    have := printUL_length h
    omega

/-- The text written by `nonogram_fprintpuzzle` consists of lines that fit
the buffer of the file scanner when every printed rule has fewer than 399
characters. -/
theorem shortLines_print (w h : Nat) (rows cols : List (List Nat))
    (hw64 : w < 2 ^ 64) (hh64 : h < 2 ^ 64)
    (hrb : ∀ r, r ∈ rows → BlocksOK r ∧ r.length < 2 ^ 31)
    (hcb : ∀ r, r ∈ cols → BlocksOK r ∧ r.length < 2 ^ 31)
    (hrl : ∀ r, r ∈ rows → (nonogram_printrule r).length < 399)
    (hcl : ∀ r, r ∈ cols → (nonogram_printrule r).length < 399) :
    ShortLines (nonogram_fprintpuzzle { width := w, height := h, row := rows, col := cols }) := by
  obtain ⟨m, e1, _, _, hm⟩ := getmaxrule_bounds w h rows cols hrb hcb
  obtain ⟨⟨a1, a2⟩, ⟨b1, b2⟩, ⟨c1, c2⟩⟩ := header_lines w h m hw64 hh64 hm
  obtain ⟨_, _, _, k4, k5⟩ := keyword_lines
  unfold nonogram_fprintpuzzle
  rw [e1]
  dsimp only
  refine ShortLines.line _ _ a1 a2 (ShortLines.line _ _ b1 b2 (ShortLines.line _ _ c1 c2
    (ShortLines.line [] _ cleanLine_nil (by decide) (ShortLines.line _ _ k4 (by decide) ?_))))
  refine shortLines_printLines rows (fun i => (blocks_getD rows hrb i).1) (short_getD rows hrl)
    h 0 _ (ShortLines.line [] _ cleanLine_nil (by decide) (ShortLines.line _ _ k5 (by decide) ?_))
  have := shortLines_printLines cols (fun i => (blocks_getD cols hcb i).1) (short_getD cols hcl)
    w 0 [] ShortLines.nil
  rw [List.append_nil] at this
  exact this

/-- C33, amended: for every puzzle with positive width and height (values of
`size_t`, with as many rules as rows and columns) whose rules consist of
positive blocks (values of `nonogram_sizetype`; empty rules allowed, rule
lengths representable as `int`), the text written by `nonogram_fprintpuzzle`
is accepted by the file scanner `nonogram_fscanpuzzle_ef`, provided that
every printed rule has fewer than 399 characters, so that each line fits the
buffer `line[400]` together with its newline: the scanner returns 0 with a
puzzle of the same width, height, row rules and column rules, for which
`nonogram_comparepuzzles` returns 0.  The string scanner
`nonogram_spscanpuzzle_ef` accepts the text without that proviso.  An empty
rule is printed as a single 0, and `loadrule` reads a single 0 as the empty
rule. -/
theorem print_fscan_roundtrip (p : nonogram_puzzle) (t : Char) (u : linectxt)
    (hw : 0 < p.width) (hh : 0 < p.height) (hw64 : p.width < 2 ^ 64) (hh64 : p.height < 2 ^ 64)
    (hrow : p.row.length = p.height) (hcol : p.col.length = p.width)
    (hrb : ∀ r, r ∈ p.row → BlocksOK r ∧ r.length < 2 ^ 31)
    (hcb : ∀ r, r ∈ p.col → BlocksOK r ∧ r.length < 2 ^ 31) :
    ((∀ r, r ∈ p.row → (nonogram_printrule r).length < 399) →
      (∀ r, r ∈ p.col → (nonogram_printrule r).length < 399) →
      ∃ q, nonogram_fscanpuzzle_ef (nonogram_fprintpuzzle p) u = .ret (0, some q) ∧
        q.width = p.width ∧ q.height = p.height ∧ q.row = p.row ∧ q.col = p.col ∧
        nonogram_comparepuzzles p q = 0) ∧
    (∃ q, nonogram_spscanpuzzle_ef (nonogram_fprintpuzzle p) t u = .ret (0, [], some q) ∧
      q.width = p.width ∧ q.height = p.height ∧ q.row = p.row ∧ q.col = p.col ∧
      nonogram_comparepuzzles p q = 0) ∧
    nonogram_printrule [] = ['0'] ∧ loadrule ['0'] NUL = .ret (some []) := by
  obtain ⟨⟨q, h1, h2, h3, h4, h5, h6⟩, h7, _⟩ :=
    print_scan_roundtrip p t u hw hh hw64 hh64 hrow hcol hrb hcb
  refine ⟨fun hrl hcl => ⟨q, ?_, h2, h3, h4, h5, h6⟩, ⟨q, h1, h2, h3, h4, h5, h6⟩, h7,
    loadrule_zero NUL⟩
  exact fscanpuzzle_eq _ t u (shortLines_print p.width p.height p.row p.col hw64 hh64 hrb hcb
    hrl hcl) _ _ _ h1

theorem print_fscan_roundtrip_witness :
    (∃ q, nonogram_fscanpuzzle_ef (nonogram_fprintpuzzle puzzle32) ctxtJunk = .ret (0, some q) ∧
      q.width = puzzle32.width ∧ q.height = puzzle32.height ∧ q.row = puzzle32.row ∧
      q.col = puzzle32.col ∧ nonogram_comparepuzzles puzzle32 q = 0) ∧
    (∃ q, nonogram_spscanpuzzle_ef (nonogram_fprintpuzzle puzzle32) NUL ctxtJunk =
        .ret (0, [], some q) ∧
      q.width = puzzle32.width ∧ q.height = puzzle32.height ∧ q.row = puzzle32.row ∧
      q.col = puzzle32.col ∧ nonogram_comparepuzzles puzzle32 q = 0) ∧
    nonogram_printrule [] = ['0'] ∧ loadrule ['0'] NUL = .ret (some []) :=
  have h := print_fscan_roundtrip puzzle32 NUL ctxtJunk (by decide) (by decide) (by decide)
    (by decide) (by decide) (by decide) (by decide) (by decide)
  ⟨h.1 (by decide) (by decide), h.2⟩

theorem printUL_one : printUL 1 = ['1'] := by decide

theorem blocksOK_ones (n : Nat) : BlocksOK (List.replicate n 1) := by
  intro v hv
  rw [List.eq_of_mem_replicate hv]
  exact ⟨by norm_num, by norm_num⟩

theorem printruleLoop_ones_succ (n : Nat) :
    printruleLoop (List.replicate (n + 2) 1) =
      '1' :: ',' :: printruleLoop (List.replicate (n + 1) 1) := by
  rw [List.replicate_succ, List.replicate_succ, printruleLoop_cons2, printUL_one,
    ← List.replicate_succ]
  rfl

/-- The text printed for a rule of `n + 2` blocks of length 1 is the text
printed for `n + 1` such blocks followed by a comma and a 1, and the text for
`n + 1` blocks has `2 * n + 1` characters. -/
theorem printruleLoop_ones : ∀ (n : Nat),
    printruleLoop (List.replicate (n + 2) 1) =
      printruleLoop (List.replicate (n + 1) 1) ++ [',', '1'] ∧
    (printruleLoop (List.replicate (n + 1) 1)).length = 2 * n + 1 := by
  intro n
  induction n with
  | zero => exact ⟨by decide, by decide⟩
  | succ n ih =>
    constructor
    · rw [printruleLoop_ones_succ (n + 1)]
      conv_lhs => rw [ih.1]
      conv_rhs => rw [printruleLoop_ones_succ n]
      rfl
    · rw [printruleLoop_ones_succ n, List.length_cons, List.length_cons, ih.2]
      omega

theorem printrule_ones (n : Nat) :
    nonogram_printrule (List.replicate (n + 1) 1) = printruleLoop (List.replicate (n + 1) 1) := by
  unfold nonogram_printrule
  rw [if_neg (by simp)]

theorem fgets_full (l rest : List Char) (hl : CleanLine l) (hn : l.length = 399) :
    fgets 400 (l ++ rest) = some (l, rest) := by
  have e := fgetsLoop_full l rest hl
  rw [hn] at e
  cases l with
  | nil => simp at hn
  | cons c l => exact congrArg some e

/-- The passes of the loop of the file scanner over the five lines that
`nonogram_fprintpuzzle` writes before the rules of the rows. -/
theorem fscanLoop_header (u : linectxt) (f : Nat) (rows cols : List (List Nat))
    (hw : 0 < cols.length) (hh : 0 < rows.length)
    (hw64 : cols.length < 2 ^ 64) (hh64 : rows.length < 2 ^ 64)
    (hrb : ∀ r, r ∈ rows → BlocksOK r ∧ r.length < 2 ^ 31)
    (hcb : ∀ r, r ∈ cols → BlocksOK r ∧ r.length < 2 ^ 31) :
    fscanLoop (f + 1 + 1 + 1 + 1 + 1)
        (nonogram_fprintpuzzle
          { width := cols.length, height := rows.length, row := rows, col := cols })
        { width := 0, height := 0, row := [], col := [] }
        { u with nowidth := true, noheight := true, nomaxrule := true, onrows := false,
                 oncolumns := false, lineno := 1 } 0 =
      fscanLoop f (printLines rows rows.length 0 ++
          NL :: (kwColumns ++ NL :: printLines cols cols.length 0))
        { width := cols.length, height := rows.length, row := List.replicate rows.length [],
          col := List.replicate cols.length [] }
        { lineno := 1 + 1 + 1 + 1 + 1 + 1, rowno := 0, colno := 0,
          maxrule := maxruleLoop rows rows.length 0 (maxruleLoop cols cols.length 0 1),
          onrows := true, oncolumns := false, nowidth := false, noheight := false,
          nomaxrule := false } 1 := by
  obtain ⟨m, e1, e2, m3, m4⟩ := getmaxrule_bounds cols.length rows.length rows cols hrb hcb
  obtain ⟨⟨a1, a2⟩, ⟨b1, b2⟩, ⟨c1, c2⟩⟩ := header_lines cols.length rows.length m hw64 hh64 m4
  obtain ⟨_, _, _, k4, k5⟩ := keyword_lines
  unfold nonogram_fprintpuzzle
  rw [e1]
  dsimp only
  rw [fscanLoop_step _ _ _ _ _ 0 1 _ _ (scanMore_noheight _ _ rfl) a1 a2
      (scanline_maxrule _ _ NL _ m3 m4 rfl) (by decide),
    fscanLoop_step _ _ _ _ _ 1 1 _ _ (scanMore_noheight _ _ rfl) b1 b2
      (scanline_width _ _ NL _ hw hw64 rfl) (by decide),
    fscanLoop_step _ _ _ _ _ 1 1 _ _ (scanMore_noheight _ _ rfl) c1 c2
      (scanline_height _ _ NL _ hh hh64 rfl) (by decide)]
  rw [← List.nil_append (NL :: (kwRows ++ _)),
    fscanLoop_step _ [] _ _ _ 1 1 _ _ (scanMore_col _ _ hw) cleanLine_nil (by decide)
      (scanline_blank _ _ NL) (by decide),
    fscanLoop_step _ kwRows _ _ _ 1 1 _ _ (scanMore_col _ _ hw) k4 (by decide)
      (scanline_rows _ _ NL (by decide) rfl) (by decide)]
  rw [e2]

theorem puzzleLong_rules :
    (∀ r, r ∈ puzzleLong.row → BlocksOK r ∧ r.length < 2 ^ 31) ∧
    (∀ r, r ∈ puzzleLong.col → BlocksOK r ∧ r.length < 2 ^ 31) := by
  constructor
  · intro r hr
    rw [show puzzleLong.row = [List.replicate 201 1] from rfl, List.mem_singleton] at hr
    rw [hr]
    exact ⟨blocksOK_ones 201, by rw [List.length_replicate]; norm_num⟩
  · intro r hr
    rw [show puzzleLong.col = (List.range 401).map (fun i => if i % 2 = 0 then [1] else [])
      from rfl, List.mem_map] at hr
    obtain ⟨i, _, rfl⟩ := hr
    by_cases h : i % 2 = 0
    · rw [if_pos h]; exact ⟨by decide, by decide⟩
    · rw [if_neg h]; exact ⟨by decide, by decide⟩

theorem puzzleLong_dims : puzzleLong.row.length = 1 ∧ puzzleLong.col.length = 401 ∧
    puzzleLong.width = 401 ∧ puzzleLong.height = 1 := by
  refine ⟨rfl, ?_, rfl, rfl⟩
  rw [show puzzleLong.col = (List.range 401).map (fun i => if i % 2 = 0 then [1] else [])
      from rfl, List.length_map, List.length_range]

/-- The `scanline` on the rest of a split rule line when all rows have been
read: the rest is taken for one more row, which is an error. -/
theorem scanline_rest (p : nonogram_puzzle) (ctxt : linectxt) (hon : ctxt.onrows = true)
    (hfull : ctxt.rowno ≥ p.height) :
    scanline p ctxt [',', '1'] NL = .ret (0, p, ctxt) := by
  have h1 : getword [',', '1'] NL = (true, [',', '1'], []) := by decide
  unfold scanline
  rw [h1]
  dsimp only
  rw [if_neg (by decide), if_neg (by decide), if_neg (by decide), if_neg (by decide),
    if_neg (by decide), if_neg (by decide), if_neg (by decide), if_neg (by decide),
    if_pos hon, if_pos hfull]

theorem ones_split :
    nonogram_printrule (List.replicate 201 1) =
      nonogram_printrule (List.replicate 200 1) ++ [',', '1'] ∧
    (nonogram_printrule (List.replicate 200 1)).length = 399 ∧
    (nonogram_printrule (List.replicate 201 1)).length = 401 := by
  have a : printruleLoop (List.replicate 201 1) =
      printruleLoop (List.replicate 200 1) ++ [',', '1'] := (printruleLoop_ones 199).1
  have b : (printruleLoop (List.replicate 200 1)).length = 399 := (printruleLoop_ones 199).2
  have c : (printruleLoop (List.replicate 201 1)).length = 401 := (printruleLoop_ones 200).2
  have e1 : nonogram_printrule (List.replicate 201 1) = printruleLoop (List.replicate 201 1) :=
    printrule_ones 200
  have e2 : nonogram_printrule (List.replicate 200 1) = printruleLoop (List.replicate 200 1) :=
    printrule_ones 199
  rw [e1, e2]
  exact ⟨a, b, c⟩

/-- The two passes of the loop of the file scanner over the printed rule of
201 blocks of length 1, when this is the last row: `fgets` stores the first
399 characters, which are read as a rule of 200 blocks, and the rest of the
line, `,1`, is then taken for a row too many. -/
theorem fscanLoop_split (f : Nat) (tail : List Char) (p : nonogram_puzzle) (ctxt : linectxt)
    (rc : Int) (hon : ctxt.onrows = true) (hrow : ctxt.rowno + 1 = p.height)
    (hcol : ctxt.colno < p.width) :
    fscanLoop (f + 1 + 1) (nonogram_printrule (List.replicate 201 1) ++ NL :: tail) p ctxt rc =
      .ret (0, { p with row := p.row.set ctxt.rowno (List.replicate 200 1) },
        { ctxt with rowno := ctxt.rowno + 1, lineno := ctxt.lineno + 1 }) := by
  obtain ⟨s1, s2, _⟩ := ones_split
  obtain ⟨_, hclean, _⟩ := printrule_facts (List.replicate 200 1) (blocksOK_ones 200)
  have hm : scanMore p ctxt = true := by
    unfold scanMore
    simp only [Bool.or_eq_true, decide_eq_true_eq]
    left; right; omega
  have hm2 : scanMore { p with row := p.row.set ctxt.rowno (List.replicate 200 1) }
      { ctxt with rowno := ctxt.rowno + 1, lineno := ctxt.lineno + 1 } = true :=
    scanMore_col _ _ hcol
  rw [fscanLoop_succ, if_pos hm, s1, List.append_assoc,
    fgets_full _ _ hclean s2]
  dsimp only
  rw [cstring_clean _ (fun c hc => (hclean c hc).1),
    scanline_row p ctxt (List.replicate 200 1) NUL (blocksOK_ones 200) (by decide) hon (by omega)]
  dsimp only
  rw [if_pos (by decide), fscanLoop_succ, if_pos hm2,
    show [',', '1'] ++ NL :: tail = [',', '1'] ++ NL :: tail from rfl,
    fgets_line [',', '1'] tail (by unfold CleanLine; decide) (by decide)]
  dsimp only
  have hs2 : scanline { p with row := p.row.set ctxt.rowno (List.replicate 200 1) }
      { ctxt with rowno := ctxt.rowno + 1, lineno := ctxt.lineno + 1 } [',', '1'] NL =
      .ret (0, { p with row := p.row.set ctxt.rowno (List.replicate 200 1) },
        { ctxt with rowno := ctxt.rowno + 1, lineno := ctxt.lineno + 1 }) :=
    scanline_rest _ _ hon (by dsimp only; omega)
  rw [cstring_line _ (by unfold CleanLine; decide), scanline_nl, hs2]
  dsimp only
  rw [if_neg (by decide)]

theorem puzzleLong_eta : puzzleLong =
    { width := puzzleLong.col.length, height := puzzleLong.row.length, row := puzzleLong.row,
      col := puzzleLong.col } := by
  obtain ⟨_, d2, _, _⟩ := puzzleLong_dims
  rw [d2]
  rfl

/-- The text printed for `puzzleLong` is rejected by the file scanner. -/
theorem fscan_puzzleLong (u : linectxt) :
    nonogram_fscanpuzzle_ef (nonogram_fprintpuzzle puzzleLong) u = .ret (-1, none) := by
  obtain ⟨r1, r2⟩ := puzzleLong_rules
  obtain ⟨d1, d2, _, _⟩ := puzzleLong_dims
  have hlen : ∃ f, (nonogram_fprintpuzzle puzzleLong).length + 1 = f + 1 + 1 + 1 + 1 + 1 + 1 + 1 := by
    refine ⟨(nonogram_fprintpuzzle puzzleLong).length - 6, ?_⟩
    have : 6 ≤ (nonogram_fprintpuzzle puzzleLong).length := by
      unfold nonogram_fprintpuzzle
      simp only [List.length_append, List.length_cons]
      omega
    omega
  obtain ⟨f, hf⟩ := hlen
  unfold nonogram_fscanpuzzle_ef
  rw [hf, puzzleLong_eta,
    show f + 1 + 1 + 1 + 1 + 1 + 1 + 1 = (f + 1 + 1) + 1 + 1 + 1 + 1 + 1 from rfl,
    fscanLoop_header u (f + 1 + 1) puzzleLong.row puzzleLong.col (by rw [d2]; norm_num)
      (by rw [d1]; norm_num) (by rw [d2]; norm_num) (by rw [d1]; norm_num) r1 r2]
  have hp : printLines puzzleLong.row puzzleLong.row.length 0 =
      nonogram_printrule (List.replicate 201 1) ++ [NL] := rfl
  rw [hp, List.append_assoc, List.singleton_append,
    fscanLoop_split f _ _ _ 1 rfl (by dsimp only; rw [d1]) (by dsimp only; rw [d2]; norm_num)]
  dsimp only
  rw [if_pos (Or.inl rfl)]

/-- C33, counterexample: the puzzle of one row and 401 columns whose row rule
has 201 blocks of length 1 meets every precondition, and its row rule is
printed as a line of 401 characters.  The file scanner
`nonogram_fscanpuzzle_ef` reads lines with `fgets` into `line[400]`, so it
gets the first 399 characters of that line as a rule of 200 blocks and the
rest, `,1`, as a second row although the height is 1: it returns -1.  The
string scanner `nonogram_spscanpuzzle_ef` accepts the same text and gives the
puzzle back. -/
theorem fscan_long_rule_rejected :
    0 < puzzleLong.width ∧ 0 < puzzleLong.height ∧
    puzzleLong.row.length = puzzleLong.height ∧ puzzleLong.col.length = puzzleLong.width ∧
    (∀ r, r ∈ puzzleLong.row → BlocksOK r ∧ r.length < 2 ^ 31) ∧
    (∀ r, r ∈ puzzleLong.col → BlocksOK r ∧ r.length < 2 ^ 31) ∧
    (nonogram_printrule (List.replicate 201 1)).length = 401 ∧
    (∀ u, nonogram_fscanpuzzle_ef (nonogram_fprintpuzzle puzzleLong) u = .ret (-1, none)) ∧
    (∀ t u, nonogram_spscanpuzzle_ef (nonogram_fprintpuzzle puzzleLong) t u =
      .ret (0, [], some puzzleLong)) := by
  obtain ⟨r1, r2⟩ := puzzleLong_rules
  obtain ⟨d1, d2, d3, d4⟩ := puzzleLong_dims
  refine ⟨by rw [d3]; norm_num, by rw [d4]; norm_num, by rw [d1, d4], by rw [d2, d3], r1, r2,
    ones_split.2.2, fscan_puzzleLong, fun t u => ?_⟩
  obtain ⟨⟨q, h1, h2, h3, h4, h5, _⟩, _⟩ := print_scan_roundtrip puzzleLong t u
    (by rw [d3]; norm_num) (by rw [d4]; norm_num) (by rw [d3]; norm_num) (by rw [d4]; norm_num)
    (by rw [d1, d4]) (by rw [d2, d3]) r1 r2
  rw [h1]
  obtain ⟨qw, qh, qr, qc⟩ := q
  dsimp only at h2 h3 h4 h5
  subst h2 h3 h4 h5
  rfl

end Nonolib
